import Mathlib

/-!
# Verification development for the incrementally rehashing dictionary (`dict.c`)

The C code is embedded shallowly:

* pointers to keys and values (`void *`) are natural numbers;
* a bucket chain (singly linked list of `dictEntry`) is a `List dictEntry`, head first;
* a bucket array (`dictEntry **table`) is `Option (List (List dictEntry))`, `none` being `NULL`;
* `unsigned long` / `uint64_t` arithmetic is arithmetic on `Nat` reduced modulo `2 ^ 64`,
  C `int` arithmetic is arithmetic on `Int` wrapped to 32 bits;
* every operation that dereferences memory runs in `Option`: `none` stands for a fault
  (a `NULL` dereference, a read or write past the end of a bucket array, a failed `assert`)
  or for a loop that did not finish within its fuel;
* the calls made to the destructor callbacks and the stores into the value field of an entry are
  recorded, in execution order, in the ghost field `trace` of the dictionary;
* the allocator is abstract: `zcalloc(realsize*sizeof(dictEntry*))` yields `realsize` empty
  buckets and `zmalloc` never fails.
-/

namespace Dict

/-! ## Constants of `dict.h` -/

def DICT_OK : Nat := 0

def DICT_ERR : Nat := 1

def DICT_HT_INITIAL_SIZE : Nat := 4

/-- The number of values of an `unsigned long` (64 bits). -/
def ULONG_RANGE : Nat := 18446744073709551616

def LONG_MAX : Nat := 9223372036854775807

/-- The static variable `dict_force_resize_ratio`. -/
def dict_force_resize_ratio : Nat := 5

/-- C `int`: 32-bit two's complement wrap-around of an integer result. -/
def wrapInt (x : Int) : Int := (x + 2147483648) % 4294967296 - 2147483648

/-- The decrement `x - 1` of an `unsigned long`, which wraps at 0. -/
def decr64 (x : Nat) : Nat := if x = 0 then 18446744073709551615 else x - 1

/-- The 64-bit complement `~m` of an `unsigned long`. -/
def lnot64 (m : Nat) : Nat := 18446744073709551615 ^^^ (m % 18446744073709551616)

/-! ## Data model -/

/-- The struct `dictEntry` without its `next` link: the link is the list structure of the chain. -/
structure dictEntry where
  key : Nat
  val : Nat
deriving DecidableEq, Repr

/-- The struct `dictType`: the callbacks of one dictionary. A destructor is an effect, so only
whether it is set is part of the type; its calls are recorded in the trace. -/
structure dictType where
  hashFunction : Nat → Nat
  keyDup : Option (Nat → Nat)
  valDup : Option (Nat → Nat)
  keyCompare : Option (Nat → Nat → Bool)
  keyDestructor : Bool
  valDestructor : Bool

/-- The struct `dictht`. -/
structure dictht where
  table : Option (List (List dictEntry))
  size : Nat
  sizemask : Nat
  used : Nat
deriving DecidableEq, Repr

/-- Observable effects of the dictionary code on the values it stores. -/
inductive Event where
  | valSet (key : Nat) (val : Nat)
  | keyDestructor (key : Nat)
  | valDestructor (val : Nat)
deriving DecidableEq, Repr

/-- The struct `dict` (`privdata` is left out: it is only handed to the callbacks). -/
structure dict where
  type : dictType
  ht0 : dictht
  ht1 : dictht
  rehashidx : Int
  iterators : Nat
  trace : List Event

/-- A `dictEntry *` into the dictionary: table number, bucket index, position in the chain. -/
structure EntryRef where
  table : Nat
  idx : Nat
  pos : Nat
deriving DecidableEq, Repr

/-! ## Macros of `dict.h` -/

def dictHashKey (d : dict) (key : Nat) : Nat := d.type.hashFunction key % 18446744073709551616

def dictCompareKeys (d : dict) (key1 key2 : Nat) : Bool :=
  match d.type.keyCompare with
  | some f => f key1 key2
  | none => key1 == key2

/-- The test `key==he->key || dictCompareKeys(d, key, he->key)` of the lookup loops. -/
def keyMatch (d : dict) (key : Nat) (he : dictEntry) : Bool :=
  key == he.key || dictCompareKeys d key he.key

def dictSize (d : dict) : Nat := (d.ht0.used + d.ht1.used) % 18446744073709551616

def dictSlots (d : dict) : Nat := (d.ht0.size + d.ht1.size) % 18446744073709551616

def dictIsRehashing (d : dict) : Bool := d.rehashidx != -1

/-- The stored key of `dictSetKey`: the duplicate when `keyDup` is set, else the key itself. -/
def dictSetKey (d : dict) (key : Nat) : Nat :=
  match d.type.keyDup with
  | some f => f key
  | none => key

/-! ## Memory access -/

/-- Read `ht->table[idx]`. -/
def bucketGet (ht : dictht) (idx : Nat) : Option (List dictEntry) :=
  match ht.table with
  | none => none
  | some bs => bs[idx]?

/-- Write `ht->table[idx] = chain`. -/
def bucketSet (ht : dictht) (idx : Nat) (chain : List dictEntry) : Option dictht :=
  match ht.table with
  | none => none
  | some bs => if idx < bs.length then some { ht with table := some (bs.set idx chain) } else none

/-- The table `d->ht[t]`. -/
def getHt (d : dict) (t : Nat) : dictht := if t = 0 then d.ht0 else d.ht1

/-- Assign `d->ht[t]`. -/
def setHt (d : dict) (t : Nat) (ht : dictht) : dict :=
  if t = 0 then { d with ht0 := ht } else { d with ht1 := ht }

/-- Read the entry a `dictEntry *` points to. -/
def entryGet (d : dict) (r : EntryRef) : Option dictEntry :=
  match bucketGet (getHt d r.table) r.idx with
  | none => none
  | some chain => chain[r.pos]?

/-- The macro `dictSetVal`: store the value (its duplicate when `valDup` is set) in the entry. -/
def dictSetVal (d : dict) (r : EntryRef) (val : Nat) : Option dict :=
  match bucketGet (getHt d r.table) r.idx with
  | none => none
  | some chain =>
    match chain[r.pos]? with
    | none => none
    | some he =>
      let v := match d.type.valDup with
        | some f => f val
        | none => val
      match bucketSet (getHt d r.table) r.idx (chain.set r.pos { he with val := v }) with
      | none => none
      | some ht =>
        let d1 := setHt d r.table ht
        some { d1 with trace := d1.trace ++ [Event.valSet he.key v] }

/-- The macro `dictFreeKey`. -/
def dictFreeKey (d : dict) (he : dictEntry) : dict :=
  if d.type.keyDestructor then { d with trace := d.trace ++ [Event.keyDestructor he.key] } else d

/-- The macro `dictFreeVal`. -/
def dictFreeVal (d : dict) (he : dictEntry) : dict :=
  if d.type.valDestructor then { d with trace := d.trace ++ [Event.valDestructor he.val] } else d

/-! ## Creation, expansion -/

def _dictReset : dictht := { table := none, size := 0, sizemask := 0, used := 0 }

/-- The functions `dictCreate` / `_dictInit`. -/
def dictCreate (type : dictType) : dict :=
  { type := type, ht0 := _dictReset, ht1 := _dictReset, rehashidx := -1, iterators := 0,
    trace := [] }

/-- The loop `while(1) { if (i >= size) return i; i *= 2; }` of `_dictNextPower`. -/
def nextPowerLoop : Nat → Nat → Nat → Option Nat
  | 0, _, _ => none
  | fuel + 1, i, size =>
    if i ≥ size then some i else nextPowerLoop fuel (i * 2 % 18446744073709551616) size

def _dictNextPower (size : Nat) : Option Nat :=
  if size ≥ LONG_MAX then some ((LONG_MAX + 1) % 18446744073709551616)
  else nextPowerLoop 64 DICT_HT_INITIAL_SIZE size

/-- The number of `dictEntry*` cells in the block that `zcalloc(realsize*sizeof(dictEntry*))`
returns: the byte count is a `size_t` product, which wraps at `2 ^ 64`, and a pointer takes 8
bytes. For `realsize = 2 ^ 61` and above the block has no cell. -/
def allocCells (realsize : Nat) : Nat := realsize * 8 % 18446744073709551616 / 8

/-- The function `dictExpand`. The new bucket array has the cells that the allocated block
holds, which are fewer than `realsize` when the byte count has wrapped. -/
def dictExpand (d : dict) (size : Nat) : Option (dict × Nat) :=
  if dictIsRehashing d || decide (d.ht0.used > size) then some (d, DICT_ERR)
  else
    match _dictNextPower size with
    | none => none
    | some realsize =>
      if realsize = d.ht0.size then some (d, DICT_ERR)
      else
        let n : dictht :=
          { size := realsize,
            sizemask := decr64 realsize,
            table := some (List.replicate (allocCells realsize) []),
            used := 0 }
        if d.ht0.table.isNone then some ({ d with ht0 := n }, DICT_OK)
        else some ({ d with ht1 := n, rehashidx := 0 }, DICT_OK)

/-- The function `dictResize`; `minimal` is a C `int`. -/
def dictResize (dict_can_resize : Bool) (d : dict) : Option (dict × Nat) :=
  if !dict_can_resize || dictIsRehashing d then some (d, DICT_ERR)
  else
    let minimal : Int := wrapInt (d.ht0.used : Int)
    let minimal := if minimal < (DICT_HT_INITIAL_SIZE : Int) then (DICT_HT_INITIAL_SIZE : Int)
      else minimal
    dictExpand d (minimal % 18446744073709551616).toNat

/-! ## Incremental rehashing -/

/-- The loop `while(de) { ... }` of `dictRehash`: relink every entry of one chain of `ht[0]`
at the head of its bucket in `ht[1]`. -/
def rehashMoveChain (d : dict) : List dictEntry → Option dict
  | [] => some d
  | de :: nextde =>
    let h := dictHashKey d de.key &&& d.ht1.sizemask
    match bucketGet d.ht1 h with
    | none => none
    | some old =>
      match bucketSet d.ht1 h (de :: old) with
      | none => none
      | some t1 =>
        rehashMoveChain
          { d with
            ht0 := { d.ht0 with used := decr64 d.ht0.used },
            ht1 := { t1 with used := (t1.used + 1) % 18446744073709551616 } }
          nextde

/-- The loop `while(d->ht[0].table[d->rehashidx] == NULL) { ... }` of `dictRehash`.
The result is the dictionary and `none` when the loop left through `return 1`, or
`some empty_visits` when it found a non-empty bucket. -/
def rehashSkipEmpty : Nat → dict → Int → Option (dict × Option Int)
  | 0, _, _ => none
  | fuel + 1, d, empty_visits =>
    if d.rehashidx < 0 then none
    else
      match bucketGet d.ht0 d.rehashidx.toNat with
      | none => none
      | some [] =>
        let d1 := { d with rehashidx := d.rehashidx + 1 }
        let ev := wrapInt (empty_visits - 1)
        if ev = 0 then some (d1, none) else rehashSkipEmpty fuel d1 ev
      | some (_ :: _) => some (d, some empty_visits)

/-- The loop `while(n-- && d->ht[0].used != 0) { ... }` of `dictRehash`. The Boolean tells
whether the function left through the `return 1` of the inner loop. -/
def dictRehashLoop : Nat → dict → Int → Int → Option (dict × Bool)
  | 0, _, _, _ => none
  | fuel + 1, d, n, empty_visits =>
    if n ≠ 0 ∧ d.ht0.used ≠ 0 then
      if d.ht0.size > (d.rehashidx % 18446744073709551616).toNat then
        match rehashSkipEmpty (d.ht0.size + 1) d empty_visits with
        | none => none
        | some (d1, none) => some (d1, true)
        | some (d1, some ev) =>
          match bucketGet d1.ht0 d1.rehashidx.toNat with
          | none => none
          | some de =>
            match rehashMoveChain d1 de with
            | none => none
            | some d2 =>
              match bucketSet d2.ht0 d2.rehashidx.toNat [] with
              | none => none
              | some t0 =>
                dictRehashLoop fuel { d2 with ht0 := t0, rehashidx := d2.rehashidx + 1 }
                  (wrapInt (n - 1)) ev
      else none
    else some (d, false)

def dictRehash (d : dict) (n : Int) : Option (dict × Nat) :=
  let empty_visits := wrapInt (n * 10)
  if !dictIsRehashing d then some (d, 0)
  else
    match dictRehashLoop (d.ht0.size + 1) d n empty_visits with
    | none => none
    | some (d1, true) => some (d1, 1)
    | some (d1, false) =>
      if d1.ht0.used = 0 then
        some ({ d1 with ht0 := d1.ht1, ht1 := _dictReset, rehashidx := -1 }, 0)
      else some (d1, 1)

def _dictRehashStep (d : dict) : Option dict :=
  if d.iterators = 0 then (dictRehash d 1).map Prod.fst else some d

/-- The statement `if (dictIsRehashing(d)) _dictRehashStep(d);`. -/
def rehashStepIfRehashing (d : dict) : Option dict :=
  if dictIsRehashing d then _dictRehashStep d else some d

/-! ## Lookup, insertion, deletion -/

/-- The loop `while(he) { if (key==he->key || dictCompareKeys(d, key, he->key)) ...;
he = he->next; }` shared by the lookup functions: position and content of the first entry of
the chain that matches the key. -/
def chainFind (d : dict) (key : Nat) : List dictEntry → Option (Nat × dictEntry)
  | [] => none
  | he :: next =>
    if keyMatch d key he then some (0, he)
    else
      match chainFind d key next with
      | none => none
      | some (pos, e) => some (pos + 1, e)

def _dictExpandIfNeeded (dict_can_resize : Bool) (d : dict) : Option (dict × Nat) :=
  if dictIsRehashing d then some (d, DICT_OK)
  else if d.ht0.size = 0 then dictExpand d DICT_HT_INITIAL_SIZE
  else if d.ht0.used ≥ d.ht0.size ∧
      (dict_can_resize = true ∨ d.ht0.used / d.ht0.size > dict_force_resize_ratio) then
    dictExpand d (d.ht0.used * 2 % 18446744073709551616)
  else some (d, DICT_OK)

/-- The conversion of an `unsigned long` to `long`. -/
def toLong (x : Nat) : Int :=
  if x % 18446744073709551616 < 9223372036854775808 then ((x % 18446744073709551616 : Nat) : Int)
  else ((x % 18446744073709551616 : Nat) : Int) - 18446744073709551616

/-- The function `_dictKeyIndex`: the returned index (`-1` when the key exists or the expansion
failed) and the value left in `*existing`. -/
def _dictKeyIndex (dict_can_resize : Bool) (d : dict) (key : Nat) (hash : Nat) :
    Option (dict × Int × Option EntryRef) :=
  match _dictExpandIfNeeded dict_can_resize d with
  | none => none
  | some (d1, r) =>
    if r = DICT_ERR then some (d1, -1, none)
    else
      let idx0 := hash &&& d1.ht0.sizemask
      match bucketGet d1.ht0 idx0 with
      | none => none
      | some chain0 =>
        match chainFind d1 key chain0 with
        | some (pos, _) => some (d1, -1, some ⟨0, idx0, pos⟩)
        | none =>
          if !dictIsRehashing d1 then some (d1, toLong idx0, none)
          else
            let idx1 := hash &&& d1.ht1.sizemask
            match bucketGet d1.ht1 idx1 with
            | none => none
            | some chain1 =>
              match chainFind d1 key chain1 with
              | some (pos, _) => some (d1, -1, some ⟨1, idx1, pos⟩)
              | none => some (d1, toLong idx1, none)

/-- The function `dictAddRaw`: the dictionary, the returned entry (`none` is `NULL`) and the
value of `*existing`. The value field of a new entry is not initialised by the C code; it is 0
here. -/
def dictAddRaw (dict_can_resize : Bool) (d : dict) (key : Nat) :
    Option (dict × Option EntryRef × Option EntryRef) :=
  match rehashStepIfRehashing d with
  | none => none
  | some d1 =>
    match _dictKeyIndex dict_can_resize d1 key (dictHashKey d1 key) with
    | none => none
    | some (d2, index, existing) =>
      if index = -1 then some (d2, none, existing)
      else if index < 0 then none
      else
        let t := if dictIsRehashing d2 then 1 else 0
        match bucketGet (getHt d2 t) index.toNat with
        | none => none
        | some chain =>
          let entry : dictEntry := { key := dictSetKey d2 key, val := 0 }
          match bucketSet (getHt d2 t) index.toNat (entry :: chain) with
          | none => none
          | some ht =>
            some (setHt d2 t { ht with used := (ht.used + 1) % 18446744073709551616 },
              some ⟨t, index.toNat, 0⟩, existing)

def dictAdd (dict_can_resize : Bool) (d : dict) (key val : Nat) : Option (dict × Nat) :=
  match dictAddRaw dict_can_resize d key with
  | none => none
  | some (d1, none, _) => some (d1, DICT_ERR)
  | some (d1, some entry, _) =>
    match dictSetVal d1 entry val with
    | none => none
    | some d2 => some (d2, DICT_OK)

def dictReplace (dict_can_resize : Bool) (d : dict) (key val : Nat) : Option (dict × Nat) :=
  match dictAddRaw dict_can_resize d key with
  | none => none
  | some (d1, some entry, _) =>
    match dictSetVal d1 entry val with
    | none => none
    | some d2 => some (d2, 1)
  | some (_, none, none) => none
  | some (d1, none, some existing) =>
    match entryGet d1 existing with
    | none => none
    | some auxentry =>
      match dictSetVal d1 existing val with
      | none => none
      | some d2 => some (dictFreeVal d2 auxentry, 0)

def dictAddOrFind (dict_can_resize : Bool) (d : dict) (key : Nat) :
    Option (dict × Option EntryRef) :=
  match dictAddRaw dict_can_resize d key with
  | none => none
  | some (d1, some entry, _) => some (d1, some entry)
  | some (d1, none, existing) => some (d1, existing)

/-- One round of the loop `for (table = 0; table <= 1; table++)` of `dictGenericDelete`:
search the bucket of the key in `ht[t]` and unlink the first matching entry. -/
def genericDeleteTable (d : dict) (t : Nat) (key h : Nat) (nofree : Bool) :
    Option (dict × Option dictEntry) :=
  let idx := h &&& (getHt d t).sizemask
  match bucketGet (getHt d t) idx with
  | none => none
  | some chain =>
    match chainFind d key chain with
    | none => some (d, none)
    | some (pos, he) =>
      match bucketSet (getHt d t) idx (chain.eraseIdx pos) with
      | none => none
      | some ht =>
        let d1 := setHt d t ht
        let d2 := if nofree then d1 else dictFreeVal (dictFreeKey d1 he) he
        some (setHt d2 t
          { getHt d2 t with
            used := decr64 (getHt d2 t).used },
          some he)

def dictGenericDelete (d : dict) (key : Nat) (nofree : Bool) :
    Option (dict × Option dictEntry) :=
  if d.ht0.used = 0 ∧ d.ht1.used = 0 then some (d, none)
  else
    match rehashStepIfRehashing d with
    | none => none
    | some d1 =>
      let h := dictHashKey d1 key
      match genericDeleteTable d1 0 key h nofree with
      | none => none
      | some (d2, some he) => some (d2, some he)
      | some (d2, none) =>
        if !dictIsRehashing d2 then some (d2, none)
        else genericDeleteTable d2 1 key h nofree

def dictDelete (d : dict) (key : Nat) : Option (dict × Nat) :=
  match dictGenericDelete d key false with
  | none => none
  | some (d1, some _) => some (d1, DICT_OK)
  | some (d1, none) => some (d1, DICT_ERR)

def dictUnlink (d : dict) (key : Nat) : Option (dict × Option dictEntry) :=
  dictGenericDelete d key true

/-- The function `dictFreeUnlinkedEntry`. -/
def dictFreeUnlinkedEntry (d : dict) (he : Option dictEntry) : dict :=
  match he with
  | none => d
  | some e => dictFreeVal (dictFreeKey d e) e

/-- One round of the loop `for (table = 0; table <= 1; table++)` of `dictFind`. -/
def findInTable (d : dict) (t : Nat) (key h : Nat) : Option (Option dictEntry) :=
  match bucketGet (getHt d t) (h &&& (getHt d t).sizemask) with
  | none => none
  | some chain =>
    match chainFind d key chain with
    | none => some none
    | some (_, he) => some (some he)

def dictFind (d : dict) (key : Nat) : Option (dict × Option dictEntry) :=
  if (d.ht0.used + d.ht1.used) % 18446744073709551616 = 0 then some (d, none)
  else
    match rehashStepIfRehashing d with
    | none => none
    | some d1 =>
      let h := dictHashKey d1 key
      match findInTable d1 0 key h with
      | none => none
      | some (some he) => some (d1, some he)
      | some none =>
        if !dictIsRehashing d1 then some (d1, none)
        else
          match findInTable d1 1 key h with
          | none => none
          | some r => some (d1, r)

/-- The function `dictFetchValue`; the result 0 is the `NULL` of a missing key. -/
def dictFetchValue (d : dict) (key : Nat) : Option (dict × Nat) :=
  match dictFind d key with
  | none => none
  | some (d1, some he) => some (d1, he.val)
  | some (d1, none) => some (d1, 0)

/-! ## The scan cursor -/

/-- The loop `while ((s >>= 1) > 0) { ... }` of `rev`. -/
def revLoop : Nat → Nat → Nat → Nat → Option Nat
  | 0, _, _, _ => none
  | fuel + 1, s, mask, v =>
    if s >>> 1 > 0 then
      let mask1 := mask ^^^ (mask <<< (s >>> 1) % 18446744073709551616)
      revLoop fuel (s >>> 1) mask1
        (((v >>> (s >>> 1)) &&& mask1) |||
          ((v <<< (s >>> 1) % 18446744073709551616) &&& lnot64 mask1))
    else some v

def rev (v : Nat) : Option Nat := revLoop 64 64 18446744073709551615 v

/-- The statements `v |= ~m; v = rev(v); v++; v = rev(v);` of `dictScan`. -/
def scanAdvance (v m : Nat) : Option Nat :=
  match rev (v ||| lnot64 m) with
  | none => none
  | some r => rev ((r + 1) % 18446744073709551616)

/-- A call made by `dictScan` to one of its two callbacks. -/
inductive ScanCall where
  | bucket (table : Nat) (idx : Nat)
  | entry (de : dictEntry)
deriving DecidableEq, Repr

/-- The block "Emit entries at cursor" of `dictScan` on the bucket `idx` of the table `ht`
(which is `d->ht[t]`): the call of `bucketfn` when it is set, then `fn` on every entry. -/
def scanEmit (bucketfn : Bool) (t : Nat) (ht : dictht) (idx : Nat) : Option (List ScanCall) :=
  match bucketGet ht idx with
  | none => none
  | some chain =>
    some ((if bucketfn then [ScanCall.bucket t idx] else []) ++ chain.map ScanCall.entry)

/-- The loop `do { ... } while (v & (m0 ^ m1));` of `dictScan` over the larger table. -/
def scanLargeLoop (bucketfn : Bool) (t : Nat) (ht : dictht) (m0 m1 : Nat) :
    Nat → Nat → Option (Nat × List ScanCall)
  | 0, _ => none
  | fuel + 1, v =>
    match scanEmit bucketfn t ht (v &&& m1) with
    | none => none
    | some calls =>
      match scanAdvance v m1 with
      | none => none
      | some v1 =>
        if v1 &&& (m0 ^^^ m1) ≠ 0 then
          match scanLargeLoop bucketfn t ht m0 m1 fuel v1 with
          | none => none
          | some (v2, calls2) => some (v2, calls ++ calls2)
        else some (v1, calls)

/-- The function `dictScan`: the returned cursor and the callback calls in order. -/
def dictScan (d : dict) (v : Nat) (bucketfn : Bool) : Option (Nat × List ScanCall) :=
  if dictSize d = 0 then some (0, [])
  else if !dictIsRehashing d then
    match scanEmit bucketfn 0 d.ht0 (v &&& d.ht0.sizemask) with
    | none => none
    | some calls =>
      match scanAdvance v d.ht0.sizemask with
      | none => none
      | some v1 => some (v1, calls)
  else
    let i0 := if d.ht0.size > d.ht1.size then 1 else 0
    let i1 := if d.ht0.size > d.ht1.size then 0 else 1
    let m0 := (getHt d i0).sizemask
    let m1 := (getHt d i1).sizemask
    match scanEmit bucketfn i0 (getHt d i0) (v &&& m0) with
    | none => none
    | some calls =>
      match scanLargeLoop bucketfn i1 (getHt d i1) m0 m1 ((getHt d i1).size + 1) v with
      | none => none
      | some (v1, calls1) => some (v1, calls ++ calls1)

/-! ## Specification vocabulary -/

/-- Key equality as the lookup loops test it (`key==he->key || dictCompareKeys(...)`), as a
function of the type alone. -/
def keyEq (T : dictType) (k1 k2 : Nat) : Bool :=
  k1 == k2 ||
    match T.keyCompare with
    | some f => f k1 k2
    | none => k1 == k2

/-- The contract on the callbacks: key equality is symmetric and transitive (it is reflexive by
the pointer test), keys that compare equal have the same hash, and a duplicated key compares
equal to its original. -/
structure LawfulType (T : dictType) : Prop where
  symm : ∀ a b, keyEq T a b = true → keyEq T b a = true
  trans : ∀ a b c, keyEq T a b = true → keyEq T b c = true → keyEq T a c = true
  hash_eq : ∀ a b, keyEq T a b = true →
    T.hashFunction a % 18446744073709551616 = T.hashFunction b % 18446744073709551616
  keyDup_eq : ∀ f, T.keyDup = some f → ∀ k, keyEq T k (f k) = true

/-- The entries of a table, bucket after bucket, each chain from its head. -/
def htEntries (ht : dictht) : List dictEntry :=
  match ht.table with
  | none => []
  | some bs => bs.flatten

/-- The entries of the dictionary: those of `ht[0]`, then those of `ht[1]`. -/
def dictEntries (d : dict) : List dictEntry := htEntries d.ht0 ++ htEntries d.ht1

/-- The key is present: some stored entry has a key that compares equal to it. -/
def keyPresent (d : dict) (key : Nat) : Prop :=
  ∃ e, e ∈ dictEntries d ∧ keyEq d.type key e.key = true

/-- The bucket of a key in a table: `hash & sizemask`. -/
def hashIdx (T : dictType) (ht : dictht) (key : Nat) : Nat :=
  (T.hashFunction key % 18446744073709551616) &&& ht.sizemask

/-- Two entries have keys that do not compare equal. -/
def keysDiffer (T : dictType) (a b : dictEntry) : Prop := keyEq T a.key b.key = false

/-- Well-formedness of one table: the bucket array has `size` buckets, `size` is a power of two
(at least 4, at most `2 ^ 63`) and `sizemask = size - 1`, an unallocated table has size 0,
`used` counts the entries, and every entry sits in the bucket its hash selects. -/
structure htOK (T : dictType) (ht : dictht) : Prop where
  length_eq : ∀ bs, ht.table = some bs → bs.length = ht.size
  size_pow : ∀ bs, ht.table = some bs → ∃ k, 2 ≤ k ∧ k ≤ 63 ∧ ht.size = 2 ^ k
  size_null : ht.table = none → ht.size = 0
  mask_eq : ht.sizemask = ht.size - 1
  used_eq : ht.used = (htEntries ht).length
  placed : ∀ bs i chain e, ht.table = some bs → bs[i]? = some chain → e ∈ chain →
    (T.hashFunction e.key % 18446744073709551616) &&& ht.sizemask = i

/-- The invariant of the dictionary. -/
structure Inv (d : dict) : Prop where
  ok0 : htOK d.type d.ht0
  ok1 : htOK d.type d.ht1
  nodup : (dictEntries d).Pairwise (keysDiffer d.type)
  total : (dictEntries d).length < 18446744073709551616
  stable : d.rehashidx = -1 → d.ht1 = _dictReset
  idx_nonneg : d.rehashidx ≠ -1 → 0 ≤ d.rehashidx
  idx_le : d.rehashidx ≠ -1 → d.rehashidx ≤ (d.ht0.size : Int)
  alloc0 : d.rehashidx ≠ -1 → d.ht0.table ≠ none
  alloc1 : d.rehashidx ≠ -1 → d.ht1.table ≠ none
  migrated : ∀ (bs : List (List dictEntry)) (i : Nat) (chain : List dictEntry),
    d.ht0.table = some bs → bs[i]? = some chain →
    (i : Int) < d.rehashidx → chain = []

/-- The value that `dictSetVal` stores: the duplicate when `valDup` is set, else the value. -/
def storedVal (T : dictType) (val : Nat) : Nat :=
  match T.valDup with
  | some f => f val
  | none => val

/-- The destructor calls of `dictGenericDelete` on the entry it removes: none for `dictUnlink`
(`nofree`), else the key destructor and then the value destructor, each when it is set. -/
def freeEvents (T : dictType) (nofree : Bool) (he : dictEntry) : List Event :=
  if nofree then []
  else
    (if T.keyDestructor then [Event.keyDestructor he.key] else []) ++
      (if T.valDestructor then [Event.valDestructor he.val] else [])

/-- The table `n` that `dictExpand` builds for the size `realsize`. -/
def newTable (realsize : Nat) : dictht :=
  { size := realsize, sizemask := decr64 realsize,
    table := some (List.replicate (allocCells realsize) []), used := 0 }

/-- The pointer `r` points to the entry `he` stored in the dictionary. -/
def validRef (d : dict) (r : EntryRef) (he : dictEntry) : Prop :=
  (r.table = 0 ∨ r.table = 1) ∧
    ∃ bs chain, (getHt d r.table).table = some bs ∧ bs[r.idx]? = some chain ∧
      chain[r.pos]? = some he

/-- A bound on the number of entries that exist at one time: an entry is a block of 24 bytes
of its own, which an allocator rounds up to 32 bytes, and `2 ^ 64 / 32 = 2 ^ 59`. Below this
bound the table that an insertion asks `dictExpand` for has at most `2 ^ 60` buckets, and the
byte count of its array does not wrap. -/
def ENTRY_LIMIT : Nat := 576460752303423488

/-- The dictionaries that the public operations produce from a newly created one. An insertion
needs room for one more entry in the address space; the last constructor stands for the
creation, the first advance and the release of safe iterators, which only change the counter
of live iterators. -/
inductive Reachable (T : dictType) : dict → Prop where
  | create : Reachable T (dictCreate T)
  | add (cr : Bool) (d d1 : dict) (key val r : Nat) : Reachable T d →
      dictSize d < ENTRY_LIMIT → dictAdd cr d key val = some (d1, r) → Reachable T d1
  | addRaw (cr : Bool) (d d1 : dict) (key : Nat) (r1 r2 : Option EntryRef) : Reachable T d →
      dictSize d < ENTRY_LIMIT → dictAddRaw cr d key = some (d1, r1, r2) → Reachable T d1
  | replace (cr : Bool) (d d1 : dict) (key val r : Nat) : Reachable T d →
      dictSize d < ENTRY_LIMIT → dictReplace cr d key val = some (d1, r) → Reachable T d1
  | addOrFind (cr : Bool) (d d1 : dict) (key : Nat) (r : Option EntryRef) : Reachable T d →
      dictSize d < ENTRY_LIMIT → dictAddOrFind cr d key = some (d1, r) → Reachable T d1
  | delete (d d1 : dict) (key r : Nat) : Reachable T d →
      dictDelete d key = some (d1, r) → Reachable T d1
  | unlink (d d1 : dict) (key : Nat) (r : Option dictEntry) : Reachable T d →
      dictUnlink d key = some (d1, r) → Reachable T d1
  | find (d d1 : dict) (key : Nat) (r : Option dictEntry) : Reachable T d →
      dictFind d key = some (d1, r) → Reachable T d1
  | rehash (d d1 : dict) (n : Int) (r : Nat) : Reachable T d →
      dictRehash d n = some (d1, r) → Reachable T d1
  | expand (d d1 : dict) (size r : Nat) : Reachable T d →
      dictExpand d size = some (d1, r) → Reachable T d1
  | resize (cr : Bool) (d d1 : dict) (r : Nat) : Reachable T d →
      dictResize cr d = some (d1, r) → Reachable T d1
  | iterators (d : dict) (n : Nat) : Reachable T d → Reachable T { d with iterators := n }

/-! ## Test data -/

/-- A dictionary type whose keys hash to themselves and are compared as pointers, with a value
destructor. -/
def identityType : dictType :=
  { hashFunction := fun k => k, keyDup := none, valDup := none, keyCompare := none,
    keyDestructor := false, valDestructor := true }

/-- Add the keys in order, `dictAdd(d, k, 10 * k)`, and collect the return values. -/
def addKeys (dict_can_resize : Bool) : dict → List Nat → Option (dict × List Nat)
  | d, [] => some (d, [])
  | d, k :: ks =>
    match dictAdd dict_can_resize d k (10 * k) with
    | none => none
    | some (d1, r) =>
      match addKeys dict_can_resize d1 ks with
      | none => none
      | some (d2, rs) => some (d2, r :: rs)

/-! ## Caller loops -/

/-- The caller loop `while (dictRehash(d,1));`, run for at most `fuel` calls: the final
dictionary and, for every call made, its return value and whether it left the dictionary
rehashing. -/
def rehashRepeat : Nat → dict → Option (dict × List (Nat × Bool))
  | 0, _ => none
  | fuel + 1, d =>
    match dictRehash d 1 with
    | none => none
    | some (d1, r) =>
      if r = 0 then some (d1, [(r, dictIsRehashing d1)])
      else
        match rehashRepeat fuel d1 with
        | none => none
        | some (d2, rs) => some (d2, (r, dictIsRehashing d1) :: rs)

/-! ## Further test data -/

/-- The dictionary after `dictAdd(d, 1, 10)` on a new dictionary. -/
def oneKeyDict : dict :=
  match dictAdd true (dictCreate identityType) 1 10 with
  | some (d, _) => d
  | none => dictCreate identityType

/-- The dictionary `oneKeyDict` after `dictExpand(d, 8)`: it is rehashing from 4 to 8 buckets. -/
def rehashingDict : dict :=
  match dictExpand oneKeyDict 8 with
  | some (d, _) => d
  | none => oneKeyDict

/-- The growth of a new dictionary filled by `dictAdd` with resizing enabled, as a function of
the number `n` of entries (at most 9): not allocated, 4 buckets, rehashing from 4 to 8 buckets
(at least `n - 5` buckets moved) or settled at 8 buckets, and with the ninth entry rehashing from
8 to 16 buckets. -/
def growthPhase (n : Nat) (d : dict) : Prop :=
  (n = 0 ∧ d.rehashidx = -1 ∧ d.ht0.size = 0) ∨
  (1 ≤ n ∧ n ≤ 4 ∧ d.rehashidx = -1 ∧ d.ht0.size = 4) ∨
  (n = 5 ∧ d.rehashidx = 0 ∧ d.ht0.size = 4 ∧ d.ht1.size = 8) ∨
  (6 ≤ n ∧ n ≤ 8 ∧
    ((d.rehashidx ≠ -1 ∧ d.ht0.size = 4 ∧ d.ht1.size = 8 ∧ (n : Int) - 5 ≤ d.rehashidx) ∨
      (d.rehashidx = -1 ∧ d.ht0.size = 8 ∧ d.ht1.size = 0))) ∨
  (n = 9 ∧ d.rehashidx = 0 ∧ d.ht0.size = 8 ∧ d.ht1.size = 16)

/-! ## The operations after their rehash step

Each of `dictAddRaw`, `dictGenericDelete` and `dictFind` runs the statement
`if (dictIsRehashing(d)) _dictRehashStep(d);` once and then the code below it. The definitions
of this section are that code, and the code of the callers `dictAdd`, `dictReplace` and
`dictDelete` around it. -/

/-- The code of `dictAddRaw` below its rehash step. -/
def dictAddRawInsert (dict_can_resize : Bool) (d1 : dict) (key : Nat) :
    Option (dict × Option EntryRef × Option EntryRef) :=
  match _dictKeyIndex dict_can_resize d1 key (dictHashKey d1 key) with
  | none => none
  | some (d2, index, existing) =>
    if index = -1 then some (d2, none, existing)
    else if index < 0 then none
    else
      let t := if dictIsRehashing d2 then 1 else 0
      match bucketGet (getHt d2 t) index.toNat with
      | none => none
      | some chain =>
        let entry : dictEntry := { key := dictSetKey d2 key, val := 0 }
        match bucketSet (getHt d2 t) index.toNat (entry :: chain) with
        | none => none
        | some ht =>
          some (setHt d2 t { ht with used := (ht.used + 1) % 18446744073709551616 },
            some ⟨t, index.toNat, 0⟩, existing)

/-- The function `dictAdd` with the rehash step of its `dictAddRaw` call left out. -/
def dictAddInsert (dict_can_resize : Bool) (d : dict) (key val : Nat) : Option (dict × Nat) :=
  match dictAddRawInsert dict_can_resize d key with
  | none => none
  | some (d1, none, _) => some (d1, DICT_ERR)
  | some (d1, some entry, _) =>
    match dictSetVal d1 entry val with
    | none => none
    | some d2 => some (d2, DICT_OK)

/-- The function `dictReplace` with the rehash step of its `dictAddRaw` call left out. -/
def dictReplaceInsert (dict_can_resize : Bool) (d : dict) (key val : Nat) :
    Option (dict × Nat) :=
  match dictAddRawInsert dict_can_resize d key with
  | none => none
  | some (d1, some entry, _) =>
    match dictSetVal d1 entry val with
    | none => none
    | some d2 => some (d2, 1)
  | some (_, none, none) => none
  | some (d1, none, some existing) =>
    match entryGet d1 existing with
    | none => none
    | some auxentry =>
      match dictSetVal d1 existing val with
      | none => none
      | some d2 => some (dictFreeVal d2 auxentry, 0)

/-- The code of `dictGenericDelete` below its rehash step. -/
def dictGenericDeleteSearch (d1 : dict) (key : Nat) (nofree : Bool) :
    Option (dict × Option dictEntry) :=
  let h := dictHashKey d1 key
  match genericDeleteTable d1 0 key h nofree with
  | none => none
  | some (d2, some he) => some (d2, some he)
  | some (d2, none) =>
    if !dictIsRehashing d2 then some (d2, none)
    else genericDeleteTable d2 1 key h nofree

/-- The function `dictDelete` on a dictionary that is not empty, with the rehash step of its
`dictGenericDelete` call left out. -/
def dictDeleteSearch (d : dict) (key : Nat) : Option (dict × Nat) :=
  match dictGenericDeleteSearch d key false with
  | none => none
  | some (d1, some _) => some (d1, DICT_OK)
  | some (d1, none) => some (d1, DICT_ERR)

/-- The code of `dictFind` below its rehash step. -/
def dictFindLookup (d1 : dict) (key : Nat) : Option (dict × Option dictEntry) :=
  let h := dictHashKey d1 key
  match findInTable d1 0 key h with
  | none => none
  | some (some he) => some (d1, some he)
  | some none =>
    if !dictIsRehashing d1 then some (d1, none)
    else
      match findInTable d1 1 key h with
      | none => none
      | some r => some (d1, r)

/-! ## Test data: an empty rehashing dictionary -/

/-- The dictionary `oneKeyDict` after `dictDelete(d, 1)` and `dictExpand(d, 8)`: it holds no
entry and is rehashing from 4 to 8 buckets. -/
def emptyRehashingDict : dict :=
  match dictDelete oneKeyDict 1 with
  | none => oneKeyDict
  | some (d, _) =>
    match dictExpand d 8 with
    | some (d1, _) => d1
    | none => d

/-! ## Iterators and the fingerprint

A `dictEntry *` held by an iterator is the chain cell it points to: the list made of the entry
and of the entries linked behind it, `[]` being `NULL`. The addresses of the two bucket arrays,
which `dictFingerprint` mixes into its result, are not part of the model of the heap: they are
parameters `a0` and `a1` of the functions that compute a fingerprint. A `long long` is
represented by its 64-bit pattern. -/

/-- The sum of two 64-bit integers. -/
def add64 (a b : Nat) : Nat := (a + b) % 18446744073709551616

/-- The shift `hash << k` of a 64-bit integer. -/
def shl64 (h k : Nat) : Nat := (h <<< k) % 18446744073709551616

/-- The shift `hash >> k` of a `long long` given by its 64-bit pattern: the sign bit is
replicated. -/
def sar64 (h k : Nat) : Nat :=
  if h % 18446744073709551616 < 9223372036854775808 then (h % 18446744073709551616) >>> k
  else ((h % 18446744073709551616) >>> k) + (18446744073709551616 - 2 ^ (64 - k))

/-- One round of the loop of `dictFingerprint`: add the integer, then Thomas Wang's 64-bit
mix. -/
def fingerprintRound (hash x : Nat) : Nat :=
  let hash := add64 hash x
  let hash := add64 (lnot64 hash) (shl64 hash 21)
  let hash := hash ^^^ sar64 hash 24
  let hash := add64 (add64 hash (shl64 hash 3)) (shl64 hash 8)
  let hash := hash ^^^ sar64 hash 14
  let hash := add64 (add64 hash (shl64 hash 2)) (shl64 hash 4)
  let hash := hash ^^^ sar64 hash 28
  add64 hash (shl64 hash 31)

/-- The value `(long) ht->table`: 0 for `NULL`, else the address `a` of the bucket array. -/
def tableAddr (a : Nat) (ht : dictht) : Nat :=
  if ht.table.isNone then 0 else a % 18446744073709551616

/-- The array `integers[6]` of `dictFingerprint`. -/
def fingerprintIntegers (a0 a1 : Nat) (d : dict) : List Nat :=
  [tableAddr a0 d.ht0, d.ht0.size, d.ht0.used, tableAddr a1 d.ht1, d.ht1.size, d.ht1.used]

def dictFingerprint (a0 a1 : Nat) (d : dict) : Nat :=
  (fingerprintIntegers a0 a1 d).foldl fingerprintRound 0

/-- The struct `dictIterator` (without the pointer `d`, which the functions take as an
argument). -/
structure dictIterator where
  index : Int
  table : Nat
  safe : Bool
  entry : List dictEntry
  nextEntry : List dictEntry
  fingerprint : Nat
deriving DecidableEq, Repr

/-- The function `dictGetIterator`; the field `fingerprint` is not initialised by the C code,
it is 0 here. -/
def dictGetIterator : dictIterator :=
  { index := -1, table := 0, safe := false, entry := [], nextEntry := [], fingerprint := 0 }

def dictGetSafeIterator : dictIterator := { dictGetIterator with safe := true }

/-- C `long`: 64-bit two's complement wrap-around of an integer result. -/
def wrapLong (x : Int) : Int :=
  (x + 9223372036854775808) % 18446744073709551616 - 9223372036854775808

/-- The read `iter->entry->next` through a pointer saved in an earlier call is defined when
the cell is still linked, with the same successors, in the bucket the iterator is at. -/
def cellLinked (d : dict) (table : Nat) (index : Int) (cell : List dictEntry) : Bool :=
  if index < 0 then false
  else
    match bucketGet (getHt d table) index.toNat with
    | none => false
    | some chain => cell.isSuffixOf chain

/-- The block `if (iter->index == -1 && iter->table == 0) { ... }` of `dictNext`: at its first
advance a safe iterator is counted in `d->iterators`, an unsafe one records the fingerprint. -/
def dictNextFirst (a0 a1 : Nat) (iter : dictIterator) (d : dict) : dictIterator × dict :=
  if iter.index = -1 ∧ iter.table = 0 then
    if iter.safe then (iter, { d with iterators := (d.iterators + 1) % 18446744073709551616 })
    else ({ iter with fingerprint := dictFingerprint a0 a1 d }, d)
  else (iter, d)

/-- The statement `if (iter->entry) { iter->nextEntry = iter->entry->next; return iter->entry; }`
for an entry pointer that is not `NULL`. -/
def dictNextReturn (iter : dictIterator) (d : dict) (e : dictEntry) (next : List dictEntry) :
    Option (dictIterator × dict × Option dictEntry) :=
  some ({ iter with entry := e :: next, nextEntry := next }, d, some e)

/-- The loop `while (1) { ... }` of `dictNext`; the result is the iterator, the dictionary
(the first advance of a safe iterator changes `iterators`) and the returned entry. -/
def dictNextLoop (a0 a1 : Nat) :
    Nat → dictIterator → dict → Option (dictIterator × dict × Option dictEntry)
  | 0, _, _ => none
  | fuel + 1, iter, d =>
    if iter.entry = [] then
      let iter1 := (dictNextFirst a0 a1 iter d).1
      let d1 := (dictNextFirst a0 a1 iter d).2
      let index := wrapLong (iter1.index + 1)
      if index ≥ toLong (getHt d1 iter1.table).size then
        if dictIsRehashing d1 && decide (iter1.table = 0) then
          match bucketGet d1.ht1 0 with
          | none => none
          | some [] => dictNextLoop a0 a1 fuel { iter1 with table := 1, index := 0, entry := [] } d1
          | some (e :: next) => dictNextReturn { iter1 with table := 1, index := 0 } d1 e next
        else some ({ iter1 with index := index, entry := [] }, d1, none)
      else if index < 0 then none
      else
        match bucketGet (getHt d1 iter1.table) index.toNat with
        | none => none
        | some [] => dictNextLoop a0 a1 fuel { iter1 with index := index, entry := [] } d1
        | some (e :: next) => dictNextReturn { iter1 with index := index } d1 e next
    else
      match iter.nextEntry with
      | [] => dictNextLoop a0 a1 fuel { iter with entry := [] } d
      | e :: next =>
        if cellLinked d iter.table iter.index (e :: next) then dictNextReturn iter d e next
        else none

def dictNext (a0 a1 : Nat) (iter : dictIterator) (d : dict) :
    Option (dictIterator × dict × Option dictEntry) :=
  dictNextLoop a0 a1 (d.ht0.size + d.ht1.size + 3) iter d

/-- The function `dictReleaseIterator`; `none` is the failure of its assertion. -/
def dictReleaseIterator (a0 a1 : Nat) (iter : dictIterator) (d : dict) : Option dict :=
  if !(decide (iter.index = -1) && decide (iter.table = 0)) then
    if iter.safe then some { d with iterators := decr64 d.iterators }
    else if iter.fingerprint = dictFingerprint a0 a1 d then some d else none
  else some d

/-- The caller loop `while ((de = dictNext(iter)) != NULL) ...;`, run for at most `fuel` calls
of `dictNext`: the entries returned before the first `NULL`. -/
def iterateAll (a0 a1 : Nat) :
    Nat → dictIterator → dict → Option (dictIterator × dict × List dictEntry)
  | 0, _, _ => none
  | fuel + 1, iter, d =>
    match dictNext a0 a1 iter d with
    | none => none
    | some (iter1, d1, none) => some (iter1, d1, [])
    | some (iter1, d1, some de) =>
      match iterateAll a0 a1 fuel iter1 d1 with
      | none => none
      | some (iter2, d2, des) => some (iter2, d2, de :: des)

/-- The caller loop `while ((de = dictNext(iter)) != NULL) dictDelete(d, dictGetKey(de));`, run
for at most `fuel` calls of `dictNext`: the entries returned before the first `NULL`, each with
the value its `dictDelete` returned. -/
def iterateDeleting (a0 a1 : Nat) :
    Nat → dictIterator → dict → Option (dictIterator × dict × List (dictEntry × Nat))
  | 0, _, _ => none
  | fuel + 1, iter, d =>
    match dictNext a0 a1 iter d with
    | none => none
    | some (iter1, d1, none) => some (iter1, d1, [])
    | some (iter1, d1, some de) =>
      match dictDelete d1 de.key with
      | none => none
      | some (d2, r) =>
        match iterateDeleting a0 a1 fuel iter1 d2 with
        | none => none
        | some (iter2, d3, des) => some (iter2, d3, (de, r) :: des)

/-- The iterator is at a position of the dictionary: in `ht[0]`, or in `ht[1]` of a rehashing
dictionary; before its first advance, or at a bucket of its table; and the pointer it has saved
is linked in that bucket. -/
structure IterOK (iter : dictIterator) (d : dict) : Prop where
  table_ok : iter.table = 0 ∨ (iter.table = 1 ∧ d.rehashidx ≠ -1)
  index_ok : (iter.index = -1 ∧ iter.table = 0 ∧ iter.entry = []) ∨
    (0 ≤ iter.index ∧ iter.index < ((getHt d iter.table).size : Int))
  linked : iter.entry ≠ [] → cellLinked d iter.table iter.index iter.nextEntry = true

/-- The entries stored behind the bucket `index` of the table `table`: the buckets of higher
index and, for `ht[0]`, the entries of `ht[1]`. -/
def restBehind (table : Nat) (index : Int) (d : dict) : List dictEntry :=
  ((((getHt d table).table.getD []).drop (index + 1).toNat).flatten) ++
    (if table = 0 then htEntries d.ht1 else [])

/-- The entries that an iterator has still to return: the rest of its chain and the entries
behind its bucket. -/
def iterRest (iter : dictIterator) (d : dict) : List dictEntry :=
  (if iter.entry = [] then [] else iter.nextEntry) ++ restBehind iter.table iter.index d

/-! ## Test data: dictionaries for the fingerprint -/

/-- The dictionary `oneKeyDict` after `dictAdd(d, 2, 20)`. -/
def twoKeyDict : dict :=
  match dictAdd true oneKeyDict 2 20 with
  | some (d, _) => d
  | none => oneKeyDict

/-- The dictionary `twoKeyDict` after `dictDelete(d, 2)`. -/
def oneKeyAgainDict : dict :=
  match dictDelete twoKeyDict 2 with
  | some (d, _) => d
  | none => twoKeyDict

/-! ## Sequences of calls and the finite map they implement -/

/-- A call of a public operation on the dictionary. -/
inductive Op where
  | add (dict_can_resize : Bool) (key val : Nat)
  | replace (dict_can_resize : Bool) (key val : Nat)
  | delete (key : Nat)
  | find (key : Nat)
  | rehash (n : Int)
deriving DecidableEq, Repr

/-- What a call returns: an `int` code, or the entry found (`none` is `NULL`). -/
inductive OpResult where
  | code (r : Nat)
  | entry (he : Option dictEntry)
deriving DecidableEq, Repr

/-- Run one call. -/
def runOp (d : dict) : Op → Option (dict × OpResult)
  | Op.add cr key val =>
    match dictAdd cr d key val with
    | none => none
    | some (d1, r) => some (d1, OpResult.code r)
  | Op.replace cr key val =>
    match dictReplace cr d key val with
    | none => none
    | some (d1, r) => some (d1, OpResult.code r)
  | Op.delete key =>
    match dictDelete d key with
    | none => none
    | some (d1, r) => some (d1, OpResult.code r)
  | Op.find key =>
    match dictFind d key with
    | none => none
    | some (d1, r) => some (d1, OpResult.entry r)
  | Op.rehash n =>
    match dictRehash d n with
    | none => none
    | some (d1, r) => some (d1, OpResult.code r)

/-- Run a sequence of calls and collect what they return. -/
def runOps : dict → List Op → Option (dict × List OpResult)
  | d, [] => some (d, [])
  | d, op :: ops =>
    match runOp d op with
    | none => none
    | some (d1, r) =>
      match runOps d1 ops with
      | none => none
      | some (d2, rs) => some (d2, r :: rs)

/-- The key that `dictSetKey` stores: the duplicate when `keyDup` is set, else the key. -/
def storedKey (T : dictType) (key : Nat) : Nat :=
  match T.keyDup with
  | some f => f key
  | none => key

/-- Lookup in a finite map given as a list of entries. -/
def mapFind (T : dictType) (m : List dictEntry) (key : Nat) : Option dictEntry :=
  m.find? (fun e => keyEq T key e.key)

/-- One call on the finite map: the new map and the result the call must return (`none` when
the map does not determine it, which is the case of `dictRehash`). An add of a present key and
a delete of an absent key fail and change nothing. -/
def mapOp (T : dictType) (m : List dictEntry) : Op → List dictEntry × Option OpResult
  | Op.add _ key val =>
    if (mapFind T m key).isSome then (m, some (OpResult.code DICT_ERR))
    else (⟨storedKey T key, storedVal T val⟩ :: m, some (OpResult.code DICT_OK))
  | Op.replace _ key val =>
    if (mapFind T m key).isSome then
      (m.map (fun e => if keyEq T key e.key then { e with val := storedVal T val } else e),
        some (OpResult.code 0))
    else (⟨storedKey T key, storedVal T val⟩ :: m, some (OpResult.code 1))
  | Op.delete key =>
    if (mapFind T m key).isSome then
      (m.filter (fun e => !keyEq T key e.key), some (OpResult.code DICT_OK))
    else (m, some (OpResult.code DICT_ERR))
  | Op.find key => (m, some (OpResult.entry (mapFind T m key)))
  | Op.rehash _ => (m, none)

/-- A sequence of calls on the finite map. -/
def mapOps (T : dictType) : List dictEntry → List Op → List dictEntry × List (Option OpResult)
  | m, [] => (m, [])
  | m, op :: ops =>
    ((mapOps T (mapOp T m op).1 ops).1, (mapOp T m op).2 :: (mapOps T (mapOp T m op).1 ops).2)

/-- The returned value is the one the finite map prescribes, when it prescribes one. -/
def resultAgrees (r : OpResult) (m : Option OpResult) : Prop := ∀ x, m = some x → r = x

/-- The number of entries that the calls have added minus the number they have removed, from
what the calls returned: `dictAdd` adds one when it returns `DICT_OK`, `dictReplace` when it
returns 1, `dictDelete` removes one when it returns `DICT_OK`. -/
def netAdded : List Op → List OpResult → Int
  | Op.add _ _ _ :: ops, OpResult.code r :: rs =>
    (if r = DICT_OK then 1 else 0) + netAdded ops rs
  | Op.replace _ _ _ :: ops, OpResult.code r :: rs => (if r = 1 then 1 else 0) + netAdded ops rs
  | Op.delete _ :: ops, OpResult.code r :: rs => (if r = DICT_OK then -1 else 0) + netAdded ops rs
  | _ :: ops, _ :: rs => netAdded ops rs
  | _, _ => 0

/-- The call is a `dictAdd` or a `dictDelete`. -/
def isAddOrDelete : Op → Bool
  | Op.add _ _ _ => true
  | Op.delete _ => true
  | _ => false

/-- The number of `dictAdd` calls of the sequence that returned `DICT_OK`. -/
def addsOK : List Op → List OpResult → Nat
  | Op.add _ _ _ :: ops, OpResult.code r :: rs => (if r = DICT_OK then 1 else 0) + addsOK ops rs
  | _ :: ops, _ :: rs => addsOK ops rs
  | _, _ => 0

/-- The number of `dictDelete` calls of the sequence that returned `DICT_OK`. -/
def deletesOK : List Op → List OpResult → Nat
  | Op.delete _ :: ops, OpResult.code r :: rs =>
    (if r = DICT_OK then 1 else 0) + deletesOK ops rs
  | _ :: ops, _ :: rs => deletesOK ops rs
  | _, _ => 0

/-! ## Bit reversal: vocabulary -/

/-- The assignment `v = ((v >> s) & mask) | ((v << s) & ~mask)` of `rev`. -/
def swapBits (s mask v : Nat) : Nat :=
  ((v >>> s) &&& mask) ||| ((v <<< s % 18446744073709551616) &&& lnot64 mask)

/-- The value that `rev` returns. -/
def bitrev (v : Nat) : Nat := (rev v).getD 0

/-- The reversed cursor after the increment under a mask of `k` bits: the `k` high bits, read
as a number, go up by one and the bits below them are cleared. -/
def nextRev (k F : Nat) : Nat :=
  (F / 2 ^ (64 - k) + 1) * 2 ^ (64 - k) % 18446744073709551616

/-! ## Passes of `dictScan` -/

/-- One call of `dictScan` in a pass: the cursor passed, the cursor returned and the callback
calls made. -/
structure ScanStep where
  cursor : Nat
  next : Nat
  calls : List ScanCall
deriving DecidableEq, Repr

/-- Calls of `dictScan` in sequence, the cursor returned by each call passed to the next; the
list gives the dictionary that each call finds. -/
def scanSeq (bucketfn : Bool) : List dict → Nat → Option (List ScanStep)
  | [], _ => some []
  | d :: ds, v =>
    match dictScan d v bucketfn with
    | none => none
    | some (v1, calls) =>
      match scanSeq bucketfn ds v1 with
      | none => none
      | some log => some ({ cursor := v, next := v1, calls := calls } :: log)

/-- The calls form one full pass: the last call returns the cursor 0 and no call before it
does. -/
def passEnds : List ScanStep → Bool
  | [] => false
  | st :: rest => if rest.isEmpty then st.next == 0 else st.next != 0 && passEnds rest

/-- The caller loop `do { v = dictScan(d, v, fn, bucketfn, privdata); } while (v != 0);`, run
for at most `fuel` calls: the callback calls in order and the number of `dictScan` calls. -/
def scanPass (d : dict) (bucketfn : Bool) : Nat → Nat → Option (List ScanCall × Nat)
  | 0, _ => none
  | fuel + 1, v =>
    match dictScan d v bucketfn with
    | none => none
    | some (v1, calls) =>
      if v1 = 0 then some (calls, 1)
      else
        match scanPass d bucketfn fuel v1 with
        | none => none
        | some (calls2, n) => some (calls ++ calls2, n + 1)

/-- The dictionary `oneKeyDict` after `dictDelete(d, 1)`: four buckets and no entry. -/
def emptiedDict : dict :=
  match dictDelete oneKeyDict 1 with
  | some (d, _) => d
  | none => oneKeyDict

/-- The dictionary `rehashingDict` after `dictRehash(d, 100)`: the entry of `oneKeyDict` in a
stable table of eight buckets. -/
def grownDict : dict :=
  match dictRehash rehashingDict 100 with
  | some (d, _) => d
  | none => rehashingDict

/-! ## adlist.c: the doubly linked list -/

/-- The struct `listNode`; a pointer is an address and 0 is `NULL`. -/
structure listNode where
  prev : Nat
  next : Nat
  value : Nat
deriving DecidableEq, Repr

/-- The struct `list` with the memory that holds its nodes: `mem a` is the node allocated at the
address `a`. The callback `free` is an effect, so only whether it is set is kept and the values
it is called on are recorded in `freed`; the callbacks `dup` and `match` are not used by the
functions below. -/
structure list where
  head : Nat
  tail : Nat
  free : Bool
  len : Nat
  mem : Nat → Option listNode
  freed : List Nat

/-- Write the node at an address. -/
def memSet (mem : Nat → Option listNode) (a : Nat) (nd : Option listNode) :
    Nat → Option listNode :=
  fun b => if b = a then nd else mem b

/-- The function `listCreate`. -/
def listCreate : list :=
  { head := 0, tail := 0, free := false, len := 0, mem := fun _ => none, freed := [] }

/-- The macro `listSetFreeMethod(l,m)`: `set` tells whether `m` is a function. -/
def listSetFreeMethod (l : list) (set : Bool) : list := { l with free := set }

/-- The function `listAddNodeTail`; `node` is the address that `zmalloc` returns. -/
def listAddNodeTail (l : list) (node value : Nat) : Option list :=
  if l.len = 0 then
    some { l with head := node, tail := node,
                  mem := memSet l.mem node (some { prev := 0, next := 0, value := value }),
                  len := (l.len + 1) % 18446744073709551616 }
  else
    match memSet l.mem node (some { prev := l.tail, next := 0, value := value }) l.tail with
    | none => none
    | some t =>
      some { l with tail := node,
                    mem := memSet (memSet l.mem node
                      (some { prev := l.tail, next := 0, value := value }))
                      l.tail (some { t with next := node }),
                    len := (l.len + 1) % 18446744073709551616 }

/-- The statement `if (node->prev) node->prev->next = node->next; else list->head = node->next;`
of `listDelNode`. -/
def delLinkPrev (l : list) (node : Nat) : Option list :=
  match l.mem node with
  | none => none
  | some n =>
    if n.prev ≠ 0 then
      match l.mem n.prev with
      | none => none
      | some p => some { l with mem := memSet l.mem n.prev (some { p with next := n.next }) }
    else some { l with head := n.next }

/-- The statement `if (node->next) node->next->prev = node->prev; else list->tail = node->prev;`
of `listDelNode`. -/
def delLinkNext (l : list) (node : Nat) : Option list :=
  match l.mem node with
  | none => none
  | some n =>
    if n.next ≠ 0 then
      match l.mem n.next with
      | none => none
      | some x => some { l with mem := memSet l.mem n.next (some { x with prev := n.prev }) }
    else some { l with tail := n.prev }

/-- The function `listDelNode`: the two relinking statements, the call of `list->free` on the
value when the callback is set, `zfree(node)` and `list->len--`. -/
def listDelNode (l : list) (node : Nat) : Option list :=
  match delLinkPrev l node with
  | none => none
  | some l1 =>
    match delLinkNext l1 node with
    | none => none
    | some l2 =>
      match l2.mem node with
      | none => none
      | some n =>
        some { l2 with freed := if l2.free then l2.freed ++ [n.value] else l2.freed,
                       mem := memSet l2.mem node none,
                       len := decr64 l2.len }

/-- The loops `while(index-- && n) n = n->prev;` (`back`) and `while(index-- && n) n = n->next;`
of `listIndex`. -/
def listIndexLoop (mem : Nat → Option listNode) (back : Bool) : Nat → Int → Nat → Option Nat
  | 0, _, _ => none
  | fuel + 1, index, n =>
    if index ≠ 0 ∧ n ≠ 0 then
      match mem n with
      | none => none
      | some nd => listIndexLoop mem back fuel (wrapLong (index - 1)) (if back then nd.prev else nd.next)
    else some n

/-- The function `listIndex`; the result 0 is `NULL`. -/
def listIndex (l : list) (index : Int) : Option Nat :=
  if index < 0 then
    listIndexLoop l.mem true (l.len + 1) (wrapLong (wrapLong (-index) - 1)) l.tail
  else listIndexLoop l.mem false (l.len + 1) index l.head

/-- The struct `listIter`. -/
structure listIter where
  next : Nat
  direction : Nat
deriving DecidableEq, Repr

def AL_START_HEAD : Nat := 0

def AL_START_TAIL : Nat := 1

/-- The function `listGetIterator`. -/
def listGetIterator (l : list) (direction : Nat) : listIter :=
  { next := if direction = AL_START_HEAD then l.head else l.tail, direction := direction }

/-- The function `listNext`: the iterator after the call and the node returned. -/
def listNext (l : list) (iter : listIter) : Option (listIter × Nat) :=
  if iter.next ≠ 0 then
    match l.mem iter.next with
    | none => none
    | some cur =>
      some ({ iter with next := if iter.direction = AL_START_HEAD then cur.next else cur.prev },
        iter.next)
  else some (iter, iter.next)

/-- The caller loop `while ((node = listNext(iter)) != NULL) ...`, run for at most `fuel` calls:
the nodes returned, in order. -/
def listTraverseLoop (l : list) : Nat → listIter → Option (List Nat)
  | 0, _ => none
  | fuel + 1, iter =>
    match listNext l iter with
    | none => none
    | some (iter1, node) =>
      if node = 0 then some []
      else (listTraverseLoop l fuel iter1).map (fun ns => node :: ns)

/-- The nodes of the list as an iteration in the given direction returns them. -/
def listTraverse (l : list) (direction : Nat) : Option (List Nat) :=
  listTraverseLoop l (l.len + 1) (listGetIterator l direction)

/-- The list consists of the nodes at the addresses `ns`, in this order from the head: the
addresses are distinct and not `NULL`, `head`, `tail` and `len` agree with them, and every
node is linked to its two neighbours. -/
structure listOK (l : list) (ns : List Nat) : Prop where
  nodup : ns.Nodup
  nonnull : 0 ∉ ns
  len_eq : l.len = ns.length
  len_lt : ns.length < 18446744073709551616
  head_eq : l.head = ns.headD 0
  tail_eq : l.tail = ns.getLastD 0
  links : ∀ i, i < ns.length →
    (l.mem (ns.getD i 0)).map (fun nd => (nd.prev, nd.next)) =
      some (if i = 0 then 0 else ns.getD (i - 1) 0, ns.getD (i + 1) 0)

/-- The value stored in the node at an address (0 when there is no node). -/
def nodeValue (l : list) (a : Nat) : Nat :=
  match l.mem a with
  | some nd => nd.value
  | none => 0

/-- Append the values in order with `listAddNodeTail`, the nodes allocated at the addresses
`base + 8, base + 16, ...`. -/
def listOfValues : list → Nat → List Nat → Option list
  | l, _, [] => some l
  | l, base, v :: vs =>
    match listAddNodeTail l (base + 8) v with
    | none => none
    | some l1 => listOfValues l1 (base + 8) vs

/-- The list of the values 10, 20, 30 in nodes at the addresses 8, 16, 24. -/
def threeList : list := (listOfValues listCreate 0 [10, 20, 30]).getD listCreate





/-! ## Random sampling -/

/-- The conversion of a `long` to `unsigned long`. -/
def toULong (x : Int) : Nat := (x % 18446744073709551616).toNat

/-- The difference `a - b` of two `unsigned long`. -/
def sub64 (a b : Nat) : Nat := (((a : Int) - (b : Int)) % 18446744073709551616).toNat

/-- The loop `do { h = d->rehashidx + (random() % (d->ht[0].size + d->ht[1].size -
d->rehashidx)); he = ...; } while(he == NULL);` of `dictGetRandomKey`, run for at most `fuel`
rounds. The random source is `rnd`: `rnd k` is the value of the `k`-th call of `random()`.
The result is the chain found, the number of `random()` calls made so far and the buckets
probed, each as table and index. -/
def randomBucketRehashing (d : dict) (rnd : Nat → Nat) :
    Nat → Nat → Option (List dictEntry × Nat × List (Nat × Nat))
  | 0, _ => none
  | fuel + 1, k =>
    let m := sub64 ((d.ht0.size + d.ht1.size) % 18446744073709551616) (toULong d.rehashidx)
    if m = 0 then none
    else
      let h := (toULong d.rehashidx + rnd k % m) % 18446744073709551616
      let t := if h ≥ d.ht0.size then 1 else 0
      let i := if h ≥ d.ht0.size then h - d.ht0.size else h
      match bucketGet (getHt d t) i with
      | none => none
      | some [] =>
        (randomBucketRehashing d rnd fuel (k + 1)).map (fun r => (r.1, r.2.1, (t, i) :: r.2.2))
      | some (e :: next) => some (e :: next, k + 1, [(t, i)])

/-- The loop `do { h = random() & d->ht[0].sizemask; he = d->ht[0].table[h]; }
while(he == NULL);` of `dictGetRandomKey`, run for at most `fuel` rounds. -/
def randomBucketStable (d : dict) (rnd : Nat → Nat) :
    Nat → Nat → Option (List dictEntry × Nat × List (Nat × Nat))
  | 0, _ => none
  | fuel + 1, k =>
    match bucketGet d.ht0 (rnd k &&& d.ht0.sizemask) with
    | none => none
    | some [] =>
      (randomBucketStable d rnd fuel (k + 1)).map
        (fun r => (r.1, r.2.1, (0, rnd k &&& d.ht0.sizemask) :: r.2.2))
    | some (e :: next) => some (e :: next, k + 1, [(0, rnd k &&& d.ht0.sizemask)])

/-- The loop `while(listele--) he = he->next;` of `dictGetRandomKey`; the inner `none` is the
pointer `NULL`. -/
def listeleLoop : Nat → Int → List dictEntry → Option (Option dictEntry)
  | 0, _, _ => none
  | fuel + 1, listele, he =>
    if listele ≠ 0 then
      match he with
      | [] => none
      | _ :: next => listeleLoop fuel (wrapInt (listele - 1)) next
    else some he.head?

/-- The second part of `dictGetRandomKey`: the chain is counted in the `int` variable `listlen`,
`listele = random() % listlen` for the value `r` of `random()`, and the chain is walked
`listele` times. -/
def randomElement (chain : List dictEntry) (r : Nat) : Option (Option dictEntry) :=
  if wrapInt chain.length = 0 then none
  else listeleLoop (chain.length + 1) (wrapInt (Int.tmod r (wrapInt chain.length))) chain

/-- The function `dictGetRandomKey`, its two bucket loops run for at most `fuel` rounds: the
dictionary after the call, the entry returned (`none` is `NULL`) and the buckets probed. -/
def dictGetRandomKey (d : dict) (rnd : Nat → Nat) (fuel : Nat) :
    Option (dict × Option dictEntry × List (Nat × Nat)) :=
  if dictSize d = 0 then some (d, none, [])
  else
    match rehashStepIfRehashing d with
    | none => none
    | some d1 =>
      match (if dictIsRehashing d1 then randomBucketRehashing d1 rnd fuel 0
          else randomBucketStable d1 rnd fuel 0) with
      | none => none
      | some (chain, k, probes) =>
        (randomElement chain (rnd k)).map (fun he => (d1, he, probes))

/-- The loop `for (j = 0; j < count; j++) { if (dictIsRehashing(d)) _dictRehashStep(d); else
break; }` of `dictGetSomeKeys`. -/
def someKeysRehash : Nat → dict → Option dict
  | 0, d => some d
  | n + 1, d =>
    if dictIsRehashing d then
      match _dictRehashStep d with
      | none => none
      | some d1 => someKeysRehash n d1
    else some d

/-- The local variables of `dictGetSomeKeys` in its sampling loop: the cursor `i`, `emptylen`,
`stored`, the entries written to `des` so far, and the number of `random()` calls made. -/
structure SomeKeysState where
  i : Nat
  emptylen : Nat
  stored : Nat
  des : List dictEntry
  k : Nat
deriving DecidableEq, Repr

/-- The loop `while (he) { *des = he; des++; he = he->next; stored++; if (stored == count)
return stored; }`: the state after it and whether the function has returned. -/
def someKeysCollect (count : Nat) : List dictEntry → SomeKeysState → SomeKeysState × Bool
  | [], st => (st, false)
  | he :: next, st =>
    let st1 := { st with des := st.des ++ [he],
                         stored := (st.stored + 1) % 18446744073709551616 }
    if st1.stored = count then (st1, true) else someKeysCollect count next st1

/-- The body of the loop `for (j = 0; j < tables; j++)` of `dictGetSomeKeys` for one `j`: the
state after it and whether the function has returned. -/
def someKeysVisit (d : dict) (rnd : Nat → Nat) (count maxsizemask tables j : Nat)
    (st : SomeKeysState) : Option (SomeKeysState × Bool) :=
  if tables = 2 ∧ j = 0 ∧ st.i < toULong d.rehashidx ∧ ¬ st.i ≥ d.ht1.size then
    some (st, false)
  else
    let i := if tables = 2 ∧ j = 0 ∧ st.i < toULong d.rehashidx then toULong d.rehashidx
      else st.i
    if i ≥ (getHt d j).size then some ({ st with i := i }, false)
    else
      match bucketGet (getHt d j) i with
      | none => none
      | some [] =>
        let emptylen := (st.emptylen + 1) % 18446744073709551616
        if emptylen ≥ 5 ∧ emptylen > count then
          some ({ st with i := rnd st.k &&& maxsizemask, emptylen := 0, k := st.k + 1 }, false)
        else some ({ st with i := i, emptylen := emptylen }, false)
      | some (he :: next) =>
        some (someKeysCollect count (he :: next) { st with i := i, emptylen := 0 })

/-- The loop `while(stored < count && maxsteps--)` of `dictGetSomeKeys`: the final state and
the number of times the body of the loop was run. -/
def someKeysLoop (d : dict) (rnd : Nat → Nat) (count maxsizemask tables : Nat) :
    Nat → SomeKeysState → Option (SomeKeysState × Nat)
  | 0, st => some (st, 0)
  | maxsteps + 1, st =>
    if st.stored < count then
      match someKeysVisit d rnd count maxsizemask tables 0 st with
      | none => none
      | some (st1, true) => some (st1, 1)
      | some (st1, false) =>
        match (if tables = 2 then someKeysVisit d rnd count maxsizemask tables 1 st1
            else some (st1, false)) with
        | none => none
        | some (st2, true) => some (st2, 1)
        | some (st2, false) =>
          (someKeysLoop d rnd count maxsizemask tables maxsteps
            { st2 with i := ((st2.i + 1) % 18446744073709551616) &&& maxsizemask }).map
            (fun r => (r.1, r.2 + 1))
    else some (st, 0)

/-- The function `dictGetSomeKeys` for an `unsigned int` count: the dictionary after the call,
the return value, the entries written to `des` in order, and the number of times the body of
the sampling loop was run. The product `count*10` is computed in `unsigned int`. -/
def dictGetSomeKeys (d : dict) (rnd : Nat → Nat) (count : Nat) :
    Option (dict × Nat × List dictEntry × Nat) :=
  let count1 := if dictSize d < count then dictSize d else count
  let maxsteps := count1 * 10 % 4294967296
  match someKeysRehash count1 d with
  | none => none
  | some d1 =>
    let tables := if dictIsRehashing d1 then 2 else 1
    let maxsizemask :=
      if tables > 1 ∧ d1.ht0.sizemask < d1.ht1.sizemask then d1.ht1.sizemask
      else d1.ht0.sizemask
    match someKeysLoop d1 rnd count1 maxsizemask tables maxsteps
        { i := rnd 0 &&& maxsizemask, emptylen := 0, stored := 0, des := [], k := 1 } with
    | none => none
    | some (st, steps) => some (d1, st.stored % 4294967296, st.des, steps)

/-! ## intset.c: the sorted set of integers -/

def INTSET_ENC_INT16 : Nat := 2

def INTSET_ENC_INT32 : Nat := 4

def INTSET_ENC_INT64 : Nat := 8

/-- The struct `intset`: the two header fields as numbers (`intrev32ifbe` is the identity on
their values) and the bytes of `contents`, as many as are allocated behind the header. -/
structure intset where
  encoding : Nat
  length : Nat
  contents : List Nat
deriving DecidableEq, Repr

/-- The function `_intsetValueEncoding`. -/
def _intsetValueEncoding (v : Int) : Nat :=
  if v < -2147483648 ∨ v > 2147483647 then INTSET_ENC_INT64
  else if v < -32768 ∨ v > 32767 then INTSET_ENC_INT32
  else INTSET_ENC_INT16

/-- The width in bytes that the chain `if (enc == INTSET_ENC_INT64) ... else if (enc ==
INTSET_ENC_INT32) ... else ...` selects. -/
def encWidth (enc : Nat) : Nat :=
  if enc = INTSET_ENC_INT64 then 8 else if enc = INTSET_ENC_INT32 then 4 else 2

/-- The number that bytes in little-endian order stand for. -/
def readLE : List Nat → Nat
  | [] => 0
  | b :: bs => b + 256 * readLE bs

/-- The `n` low bytes of a number in little-endian order. -/
def writeLE : Nat → Nat → List Nat
  | 0, _ => []
  | n + 1, u => u % 256 :: writeLE n (u / 256)

/-- The value of `w` bytes read as a signed integer (`memcpy` into an `intN_t`). -/
def toSigned (w : Nat) (u : Nat) : Int :=
  if u < 2 ^ (8 * w - 1) then (u : Int) else (u : Int) - 2 ^ (8 * w)

/-- The `w` bytes of an `int64_t` converted to an integer type of `w` bytes. -/
def encodeInt (w : Nat) (v : Int) : List Nat := writeLE w (v % 2 ^ (8 * w)).toNat

/-- Read `n` bytes at the offset `off` of a block; `none` when they are not all inside. -/
def getBytes (c : List Nat) (off n : Nat) : Option (List Nat) :=
  if off + n ≤ c.length then some ((c.drop off).take n) else none

/-- Write bytes at the offset `off` of a block; `none` when they are not all inside. -/
def setBytes (c : List Nat) (off : Nat) (bs : List Nat) : Option (List Nat) :=
  if off + bs.length ≤ c.length then some (c.take off ++ bs ++ c.drop (off + bs.length))
  else none

/-- The function `_intsetGetEncoded`; `pos` is an `int`. -/
def _intsetGetEncoded (is : intset) (pos : Int) (enc : Nat) : Option Int :=
  if pos < 0 then none
  else (getBytes is.contents (pos.toNat * encWidth enc) (encWidth enc)).map
    (fun bs => toSigned (encWidth enc) (readLE bs))

/-- The function `_intsetGet`. -/
def _intsetGet (is : intset) (pos : Int) : Option Int := _intsetGetEncoded is pos is.encoding

/-- The function `_intsetSet`; `pos` is an `int`. -/
def _intsetSet (is : intset) (pos : Int) (value : Int) : Option intset :=
  if pos < 0 then none
  else (setBytes is.contents (pos.toNat * encWidth is.encoding)
    (encodeInt (encWidth is.encoding) value)).map (fun c => { is with contents := c })

/-- The function `intsetNew`. -/
def intsetNew : intset := { encoding := INTSET_ENC_INT16, length := 0, contents := [] }

/-- The function `intsetResize`: `size` is computed in `uint32_t`, and `zrealloc` keeps the
bytes that fit and leaves the new ones unset (0 here). -/
def intsetResize (is : intset) (len : Nat) : intset :=
  { is with contents :=
      is.contents.take (len * is.encoding % 4294967296) ++
        List.replicate (len * is.encoding % 4294967296 - is.contents.length) 0 }

/-- The difference `a - b` of two `uint32_t`. -/
def sub32 (a b : Nat) : Nat := (((a : Int) - (b : Int)) % 4294967296).toNat

/-- The loop `while(max >= min) { ... }` of `intsetSearch`, run for at most `fuel` rounds:
the final `min`, `mid` and `cur`. -/
def intsetSearchLoop (is : intset) (value : Int) : Nat → Int → Int → Int → Int →
    Option (Int × Int × Int)
  | 0, _, _, _, _ => none
  | fuel + 1, min, max, mid, cur =>
    if max ≥ min then
      (_intsetGet is
          ((((min % 4294967296).toNat + (max % 4294967296).toNat) % 4294967296 / 2 : Nat) :
            Int)).bind
        (fun c =>
          if value > c then
            intsetSearchLoop is value fuel
              (wrapInt ((((min % 4294967296).toNat + (max % 4294967296).toNat) %
                4294967296 / 2 : Nat) + 1)) max
              ((((min % 4294967296).toNat + (max % 4294967296).toNat) % 4294967296 / 2 : Nat) :
                Int) c
          else if value < c then
            intsetSearchLoop is value fuel min
              (wrapInt ((((min % 4294967296).toNat + (max % 4294967296).toNat) %
                4294967296 / 2 : Nat) - 1))
              ((((min % 4294967296).toNat + (max % 4294967296).toNat) % 4294967296 / 2 : Nat) :
                Int) c
          else
            some (min,
              ((((min % 4294967296).toNat + (max % 4294967296).toNat) % 4294967296 / 2 :
                Nat) : Int), c))
    else some (min, mid, cur)

/-- The function `intsetSearch`: the return value and the value left in `*pos`
(a `uint32_t`). -/
def intsetSearch (is : intset) (value : Int) : Option (Nat × Nat) :=
  if is.length = 0 then some (0, 0)
  else
    (_intsetGet is (wrapInt (sub32 is.length 1 : Nat))).bind
      (fun last =>
        if value > last then some (0, is.length)
        else
          (_intsetGet is 0).bind (fun first =>
            if value < first then some (0, 0)
            else
              (intsetSearchLoop is value (is.length + 1) 0
                (wrapInt (sub32 is.length 1 : Nat)) (-1) (-1)).map
                (fun r =>
                  if value = r.2.2 then (1, (r.2.1 % 4294967296).toNat)
                  else (0, (r.1 % 4294967296).toNat))))

/-- The loop `while(length--) _intsetSet(is,length+prepend,_intsetGetEncoded(is,length,curenc));`
of `intsetUpgradeAndAdd`, run for at most `fuel` rounds; `length` is an `int`. -/
def upgradeLoop (curenc : Nat) (prepend : Int) : Nat → intset → Int → Option intset
  | 0, _, _ => none
  | fuel + 1, is, length =>
    if length ≠ 0 then
      (_intsetGetEncoded is (wrapInt (length - 1)) curenc).bind (fun v =>
        (_intsetSet is (wrapInt (wrapInt (length - 1) + prepend)) v).bind (fun is1 =>
          upgradeLoop curenc prepend fuel is1 (wrapInt (length - 1))))
    else some is

/-- The function `intsetUpgradeAndAdd`; `curenc` and `newenc` are `uint8_t`. -/
def intsetUpgradeAndAdd (is : intset) (value : Int) : Option intset :=
  (upgradeLoop (is.encoding % 256) (if value < 0 then 1 else 0) (is.length + 1)
      (intsetResize { is with encoding := _intsetValueEncoding value % 256 }
        ((is.length + 1) % 4294967296))
      (wrapInt (is.length : Int))).bind
    (fun is1 =>
      (if value < 0 then _intsetSet is1 0 value
        else _intsetSet is1 (wrapInt (is1.length : Int)) value).map
        (fun is2 => { is2 with length := (is2.length + 1) % 4294967296 }))

/-- The function `intsetMoveTail`: `bytes` is a `uint32_t`, and `memmove` copies them. -/
def intsetMoveTail (is : intset) (src dst : Nat) : Option intset :=
  (getBytes is.contents (src * encWidth is.encoding)
      (sub32 is.length src * encWidth is.encoding % 4294967296)).bind
    (fun bs =>
      (setBytes is.contents (dst * encWidth is.encoding) bs).map
        (fun c => { is with contents := c }))

/-- The function `intsetAdd`: the set and the value left in `*success`. -/
def intsetAdd (is : intset) (value : Int) : Option (intset × Nat) :=
  if _intsetValueEncoding value % 256 > is.encoding then
    (intsetUpgradeAndAdd is value).map (fun is1 => (is1, 1))
  else
    (intsetSearch is value).bind (fun r =>
      if r.1 ≠ 0 then some (is, 0)
      else
        (if r.2 < (intsetResize is ((is.length + 1) % 4294967296)).length then
            intsetMoveTail (intsetResize is ((is.length + 1) % 4294967296)) r.2
              ((r.2 + 1) % 4294967296)
          else some (intsetResize is ((is.length + 1) % 4294967296))).bind
          (fun is1 =>
            (_intsetSet is1 (wrapInt (r.2 : Int)) value).map
              (fun is2 => ({ is2 with length := (is2.length + 1) % 4294967296 }, 1))))

/-- The function `intsetRemove`: the set and the value left in `*success`. -/
def intsetRemove (is : intset) (value : Int) : Option (intset × Nat) :=
  if _intsetValueEncoding value % 256 ≤ is.encoding then
    (intsetSearch is value).bind (fun r =>
      if r.1 ≠ 0 then
        (if r.2 < sub32 is.length 1 then intsetMoveTail is ((r.2 + 1) % 4294967296) r.2
          else some is).map
          (fun is1 =>
            ({ intsetResize is1 (sub32 is.length 1) with length := sub32 is.length 1 }, 1))
      else some (is, 0))
  else some (is, 0)

/-- The function `intsetFind`. -/
def intsetFind (is : intset) (value : Int) : Option Nat :=
  if _intsetValueEncoding value % 256 ≤ is.encoding then
    (intsetSearch is value).map (fun r => if r.1 ≠ 0 then 1 else 0)
  else some 0

/-- The function `intsetLen`. -/
def intsetLen (is : intset) : Nat := is.length

/-! ## intset.c: specification vocabulary -/

/-- The members of the set in the order of `contents`, as `_intsetGet` reads them; `none`
when `contents` is shorter than `length` elements. -/
def intsetValues (is : intset) : Option (List Int) :=
  (List.range is.length).mapM (fun (i : Nat) => _intsetGet is (i : Int))

/-- The bytes of a sequence of integers stored with `w` bytes each. -/
def encodeAll (w : Nat) (vals : List Int) : List Nat := (vals.map (encodeInt w)).flatten

/-- The set is well formed and holds the integers `vals` in this order: the encoding is one of
the three, `length` counts the elements, `contents` is exactly their bytes and takes less than
`2 ^ 32` bytes, every element fits the encoding, and the elements increase strictly. -/
structure intsetOK (is : intset) (vals : List Int) : Prop where
  enc_ok : is.encoding = 2 ∨ is.encoding = 4 ∨ is.encoding = 8
  len_eq : is.length = vals.length
  contents_eq : is.contents = encodeAll is.encoding vals
  size_lt : vals.length * is.encoding < 4294967296
  fits : ∀ v, v ∈ vals →
    -(2 : Int) ^ (8 * is.encoding - 1) ≤ v ∧ v < (2 : Int) ^ (8 * is.encoding - 1)
  sorted : vals.Pairwise (fun a b => a < b)

/-- The `int64_t` values. -/
def isInt64 (v : Int) : Prop := -9223372036854775808 ≤ v ∧ v ≤ 9223372036854775807

/-- A call of `intsetAdd` or `intsetRemove`. -/
inductive IntsetOp where
  | add (v : Int)
  | remove (v : Int)
deriving DecidableEq, Repr

/-- Run a sequence of calls, each on the set that the call before it returned: the final set
and the values left in `*success`. -/
def runIntsetOps : intset → List IntsetOp → Option (intset × List Nat)
  | is, [] => some (is, [])
  | is, IntsetOp.add v :: ops =>
    (intsetAdd is v).bind (fun r =>
      (runIntsetOps r.1 ops).map (fun q => (q.1, r.2 :: q.2)))
  | is, IntsetOp.remove v :: ops =>
    (intsetRemove is v).bind (fun r =>
      (runIntsetOps r.1 ops).map (fun q => (q.1, r.2 :: q.2)))

/-- The value that a call adds or removes. -/
def opValue : IntsetOp → Int
  | IntsetOp.add v => v
  | IntsetOp.remove v => v

/-- The `n` consecutive integers from `base` on. -/
def ascending (n : Nat) (base : Int) : List Int := (List.range n).map (fun (i : Nat) => base + (i : Int))

/-- The set in the encoding `enc` that holds the `n` consecutive integers from `base` on. -/
def fullSet (enc n : Nat) (base : Int) : intset :=
  { encoding := enc, length := n, contents := encodeAll enc (ascending n base) }

/-- A sequence of calls that adds, removes and widens the encoding twice. -/
def mixedOps : List IntsetOp :=
  [IntsetOp.add 5, IntsetOp.add 6, IntsetOp.add 4, IntsetOp.add 4, IntsetOp.add 70000,
    IntsetOp.remove 5, IntsetOp.add (-9000000000), IntsetOp.remove 7]

/-! ## Test data: entries in both tables -/

/-- The dictionary `twoKeyDict` after `dictExpand(d, 8)`: two entries, rehashing from 4 to 8
buckets with no bucket moved yet. -/
def twoKeyExpandedDict : dict :=
  match dictExpand twoKeyDict 8 with
  | some (d, _) => d
  | none => twoKeyDict

/-- The dictionary `twoKeyExpandedDict` after `dictRehash(d, 1)`: the entry of key 1 has moved
to `ht[1]`, the entry of key 2 is still in `ht[0]`, and `rehashidx` is 2. -/
def splitDict : dict :=
  match dictRehash twoKeyExpandedDict 1 with
  | some (d, _) => d
  | none => twoKeyExpandedDict

/-- A dictionary built by public calls: the keys are added in order to a new dictionary with
`dictAdd(d, k, 10 * k)`, the rehash of that growth is completed by `dictRehash(d, 100)`, then
`dictExpand(d, size)` is called and that rehash is completed too. -/
def sparseTable (ks : List Nat) (size : Nat) : dict :=
  let d0 := match addKeys true (dictCreate identityType) ks with
    | some (d, _) => d
    | none => dictCreate identityType
  let d1 := match dictRehash d0 100 with
    | some (d, _) => d
    | none => d0
  let d2 := match dictExpand d1 size with
    | some (d, _) => d
    | none => d1
  match dictRehash d2 100 with
  | some (d, _) => d
  | none => d2

/-- Five entries in the buckets 0 to 4 of a stable table of 16 buckets. -/
def sparseDict : dict := sparseTable [0, 1, 2, 3, 4] 16

/-- The low `k` bits of `x` read in reversed bit order, as a number below `2 ^ k`. -/
def revBits : Nat → Nat → Nat
  | 0, _ => 0
  | k + 1, x => (x % 2) * 2 ^ k + revBits k (x / 2)

/-- The bucket indexes that the bucket callback of `dictScan` was called with, in call
order. -/
def bucketCalls (calls : List ScanCall) : List Nat :=
  calls.filterMap (fun c =>
    match c with
    | ScanCall.bucket _ idx => some idx
    | ScanCall.entry _ => none)

/-! ## Counting the buckets that a rehash visits -/

/-- The number of empty buckets among the buckets `lo ≤ i < hi` of a table. -/
def emptyBuckets (bs : List (List dictEntry)) (lo hi : Nat) : Nat :=
  (List.range' lo (hi - lo)).countP (fun i => decide (bs[i]? = some []))

/-- The number of non-empty buckets among the buckets `lo ≤ i < hi` of a table. -/
def filledBuckets (bs : List (List dictEntry)) (lo hi : Nat) : Nat :=
  (List.range' lo (hi - lo)).countP (fun i =>
    match bs[i]? with
    | some (_ :: _) => true
    | _ => false)

/-- The dictionary with the keys 5 and 31 in a table of 32 buckets, after `dictExpand(d, 64)`:
it is rehashing from 32 to 64 buckets with the rehash index 0. -/
def gapDict : dict :=
  match dictExpand (sparseTable [5, 31] 32) 64 with
  | some (d, _) => d
  | none => sparseTable [5, 31] 32

/-! ## localtime.c: the lock-free `localtime` -/

/-- The fields of `struct tm` that `nolocks_localtime` sets; each is a C `int`. -/
structure tm where
  tm_sec : Int
  tm_min : Int
  tm_hour : Int
  tm_mday : Int
  tm_mon : Int
  tm_year : Int
  tm_wday : Int
  tm_yday : Int
  tm_isdst : Int
deriving DecidableEq, Repr

/-- The function `is_leap_year`; `%` is the C remainder. -/
def is_leap_year (year : Int) : Int :=
  if year.tmod 4 ≠ 0 then 0
  else if year.tmod 100 ≠ 0 then 1
  else if year.tmod 400 ≠ 0 then 0
  else 1

/-- The loop `while(1) { ... }` of `nolocks_localtime` that finds the year, run for at most
`fuel` rounds: the final values of `tmp->tm_year` (an `int`) and `days` (a `time_t`). -/
def yearLoop : Nat → Int → Int → Option (Int × Int)
  | 0, _, _ => none
  | fuel + 1, tm_year, days =>
    let days_this_year := 365 + is_leap_year tm_year
    if days_this_year > days then some (tm_year, days)
    else yearLoop fuel (wrapInt (tm_year + 1)) (wrapLong (days - days_this_year))

/-- The loop `while(days >= mdays[tmp->tm_mon]) { ... }` of `nolocks_localtime`: the final
values of `tmp->tm_mon` and `days`. A read outside the array `mdays` gives `none`. -/
def monthLoop (mdays : List Int) : Nat → Int → Int → Option (Int × Int)
  | 0, _, _ => none
  | fuel + 1, tm_mon, days =>
    if tm_mon < 0 then none
    else
      match mdays[tm_mon.toNat]? with
      | none => none
      | some m =>
        if days ≥ m then monthLoop mdays fuel (wrapInt (tm_mon + 1)) (wrapLong (days - m))
        else some (tm_mon, days)

/-- The function `nolocks_localtime` with a 64-bit `time_t`; `fuel` bounds the number of
rounds of the year loop. The month loop ends or reads outside `mdays` within 13 rounds. -/
def nolocks_localtime (fuel : Nat) (t tz dst : Int) : Option tm :=
  let secs_min : Int := 60
  let secs_hour : Int := 3600
  let secs_day : Int := 3600 * 24
  let t1 := wrapLong (t - tz)
  let t2 := wrapLong (t1 + wrapInt (3600 * dst))
  let days := t2.tdiv secs_day
  let seconds := t2.tmod secs_day
  match yearLoop fuel 1970 days with
  | none => none
  | some (tm_year, days1) =>
    let mdays : List Int :=
      [31, wrapInt (28 + is_leap_year tm_year), 31, 30, 31, 30, 31, 31, 30, 31, 30, 31]
    match monthLoop mdays 13 0 days1 with
    | none => none
    | some (tm_mon, days2) =>
      some { tm_isdst := dst,
             tm_hour := wrapInt (seconds.tdiv secs_hour),
             tm_min := wrapInt ((seconds.tmod secs_hour).tdiv secs_min),
             tm_sec := wrapInt ((seconds.tmod secs_hour).tmod secs_min),
             tm_wday := wrapInt ((wrapLong (days + 4)).tmod 7),
             tm_yday := wrapInt days1,
             tm_mon := tm_mon,
             tm_mday := wrapInt (days2 + 1),
             tm_year := wrapInt (tm_year - 1900) }

/-! ## The Gregorian calendar -/

/-- The leap years of the Gregorian calendar: the years divisible by 4, except those divisible
by 100 and not by 400. -/
def gregorianLeap (y : Int) : Bool :=
  decide (y % 4 = 0 ∧ y % 100 ≠ 0) || decide (y % 400 = 0)

/-- The number of days of the year `y`. -/
def yearLength (y : Int) : Int := if gregorianLeap y then 366 else 365

/-- The number of days of the month `m` (0 is January) of the year `y`. -/
def monthLength (y : Int) (m : Nat) : Int :=
  if m = 1 then (if gregorianLeap y then 29 else 28)
  else [31, 28, 31, 30, 31, 30, 31, 31, 30, 31, 30, 31].getD m 0

/-- The lengths of the twelve months of the year `y`. -/
def monthLengths (y : Int) : List Int := (List.range 12).map (fun (j : Nat) => monthLength y j)

/-- The number of days of the year `y` before the first day of the month `m`. -/
def daysBeforeMonth (y : Int) (m : Nat) : Int :=
  ((List.range m).map (fun (j : Nat) => monthLength y j)).sum

/-- The number of days from 1/1/1970 to the first day of the year `y`. -/
def daysBeforeYear (y : Int) : Int :=
  ((List.range (y - 1970).toNat).map (fun (k : Nat) => yearLength (1970 + (k : Int)))).sum

/-- The seconds from 1/1/1970 0:00:00 to the given second of the given day of the Gregorian
calendar; the month counts from 0 and the day of the month from 1. -/
def secondsSinceEpoch (year : Int) (mon : Nat) (mday hour min sec : Int) : Int :=
  (daysBeforeYear year + daysBeforeMonth year mon + (mday - 1)) * 86400 +
    hour * 3600 + min * 60 + sec

/-! ## Bucket arrays and their cells -/

/-- The bucket array of the table has the `size` cells that the code takes it to have. -/
def tableAllocated (ht : dictht) : Bool :=
  match ht.table with
  | none => true
  | some bs => bs.length == ht.size

/-- Both bucket arrays of the dictionary have the cells of their `size`. -/
def tablesAllocated (d : dict) : Bool := tableAllocated d.ht0 && tableAllocated d.ht1

/-- The table with the bucket array that the code takes it to have: a block without cells is
replaced by `size` empty buckets. -/
def fillHt (ht : dictht) : dictht :=
  if ht.table = some [] then { ht with table := some (List.replicate ht.size []) } else ht

/-- The dictionary with both tables filled. -/
def fillDict (d : dict) : dict := { d with ht0 := fillHt d.ht0, ht1 := fillHt d.ht1 }

/-! ## Test data: a bucket array whose byte count wraps -/

/-- A new dictionary after `dictExpand(d, 2 ^ 61)`: the byte count `2 ^ 61 * 8` of the bucket
array wraps to 0, so `ht[0]` has the size `2 ^ 61` and a block without cells. -/
def voidDict : dict :=
  match dictExpand (dictCreate identityType) 2305843009213693952 with
  | some (d, _) => d
  | none => dictCreate identityType

/-- The dictionary `oneKeyDict` after `dictExpand(d, 2 ^ 61)`: it is rehashing from 4 buckets
to a table of size `2 ^ 61` whose block has no cells. -/
def hugeRehashingDict : dict :=
  match dictExpand oneKeyDict 2305843009213693952 with
  | some (d, _) => d
  | none => oneKeyDict

/-! # Theorems -/

/-! ## Lists of buckets -/

theorem flatten_set_perm {α : Type} (bs : List (List α)) (i : Nat) (hi : i < bs.length) :
    ∃ rest, bs.flatten.Perm (bs[i] ++ rest) ∧ ∀ c, (bs.set i c).flatten.Perm (c ++ rest) := by
  induction bs generalizing i with
  | nil => simp at hi
  | cons b bs ih =>
    cases i with
    | zero => exact ⟨bs.flatten, by simp, fun c => by simp⟩
    | succ j =>
      have hj : j < bs.length := by simpa using hi
      obtain ⟨rest, h1, h2⟩ := ih j hj
      refine ⟨b ++ rest, ?_, fun c => ?_⟩
      · simp only [List.flatten_cons, List.getElem_cons_succ]
        exact (List.Perm.append_left b h1).trans (by
          rw [← List.append_assoc, ← List.append_assoc]
          exact List.Perm.append_right rest List.perm_append_comm)
      · simp only [List.set_cons_succ, List.flatten_cons]
        exact (List.Perm.append_left b (h2 c)).trans (by
          rw [← List.append_assoc, ← List.append_assoc]
          exact List.Perm.append_right rest List.perm_append_comm)

/-! ## Well-formed tables -/

theorem htEntries_of_table {ht : dictht} {bs : List (List dictEntry)} (h : ht.table = some bs) :
    htEntries ht = bs.flatten := by
  simp [htEntries, h]

theorem htEntries_of_null {ht : dictht} (h : ht.table = none) : htEntries ht = [] := by
  simp [htEntries, h]

theorem htOK_reset (T : dictType) : htOK T _dictReset := by
  constructor <;> simp [_dictReset, htEntries]

theorem htOK_mask_lt {T : dictType} {ht : dictht} {bs : List (List dictEntry)} (hok : htOK T ht)
    (htab : ht.table = some bs) (h : Nat) : h &&& ht.sizemask < bs.length := by
  obtain ⟨k, _, _, hk⟩ := hok.size_pow bs htab
  rw [hok.length_eq bs htab, hok.mask_eq, hk, Nat.and_pow_two_sub_one_eq_mod]
  exact Nat.mod_lt _ (by positivity)

theorem htOK_bucketGet {T : dictType} {ht : dictht} {bs : List (List dictEntry)} (hok : htOK T ht)
    (htab : ht.table = some bs) (h : Nat) :
    ∃ chain, bucketGet ht (h &&& ht.sizemask) = some chain ∧
      bs[h &&& ht.sizemask]? = some chain := by
  have hlt := htOK_mask_lt hok htab h
  refine ⟨bs[h &&& ht.sizemask], ?_, ?_⟩
  · simp [bucketGet, htab, List.getElem?_eq_getElem hlt]
  · simp [List.getElem?_eq_getElem hlt]

theorem bucketGet_eq {ht : dictht} {bs : List (List dictEntry)} (htab : ht.table = some bs)
    (i : Nat) : bucketGet ht i = bs[i]? := by
  simp [bucketGet, htab]

theorem bucketSet_eq {ht : dictht} {bs : List (List dictEntry)} (htab : ht.table = some bs)
    {i : Nat} (hi : i < bs.length) (c : List dictEntry) :
    bucketSet ht i c = some { ht with table := some (bs.set i c) } := by
  simp [bucketSet, htab, hi]

theorem lt_of_getElem?_eq_some {α : Type} {l : List α} {i : Nat} {a : α} (h : l[i]? = some a) :
    i < l.length := by
  by_contra hc
  rw [List.getElem?_eq_none (by omega)] at h
  cases h

theorem mem_htEntries_of_bucket {ht : dictht} {bs : List (List dictEntry)} {i : Nat}
    {chain : List dictEntry} {e : dictEntry} (htab : ht.table = some bs)
    (hb : bs[i]? = some chain) (he : e ∈ chain) : e ∈ htEntries ht := by
  rw [htEntries_of_table htab, List.mem_flatten]
  have hlt := lt_of_getElem?_eq_some hb
  rw [List.getElem?_eq_getElem hlt] at hb
  cases hb
  exact ⟨bs[i], List.getElem_mem hlt, he⟩

/-- Replacing the chain of one bucket keeps the table well formed when the new chain is made of
entries that belong to the bucket and `used` is adjusted. -/
theorem htOK_update {T : dictType} {ht ht1 : dictht} {bs : List (List dictEntry)} {i : Nat}
    {c : List dictEntry} (hok : htOK T ht) (htab : ht.table = some bs) (hi : i < bs.length)
    (hpl : ∀ e ∈ c, (T.hashFunction e.key % 18446744073709551616) &&& ht.sizemask = i)
    (h1tab : ht1.table = some (bs.set i c)) (h1size : ht1.size = ht.size)
    (h1mask : ht1.sizemask = ht.sizemask) (h1used : ht1.used = (bs.set i c).flatten.length) :
    htOK T ht1 := by
  constructor
  · intro bs1 hbs1
    rw [h1tab] at hbs1
    cases hbs1
    rw [List.length_set, h1size]
    exact hok.length_eq bs htab
  · intro bs1 _
    rw [h1size]
    exact hok.size_pow bs htab
  · intro hn
    rw [h1tab] at hn
    cases hn
  · rw [h1mask, h1size]
    exact hok.mask_eq
  · rw [h1used, htEntries_of_table h1tab]
  · intro bs1 j chain e hbs1 hj he
    rw [h1tab] at hbs1
    cases hbs1
    rw [h1mask]
    rw [List.getElem?_set] at hj
    by_cases hij : i = j
    · subst hij
      simp only [if_true, hi] at hj
      cases hj
      exact hpl e he
    · simp only [hij, if_false] at hj
      exact hok.placed bs j chain e htab hj he

theorem nextPowerLoop_spec (size : Nat) (hsize : size ≤ 9223372036854775808) :
    ∀ (fuel j : Nat), j ≤ 63 → 63 - j < fuel →
      ∃ k, j ≤ k ∧ k ≤ 63 ∧ nextPowerLoop fuel (2 ^ j) size = some (2 ^ k) ∧ size ≤ 2 ^ k ∧
        (k = j ∨ 2 ^ (k - 1) < size) := by
  intro fuel
  induction fuel with
  | zero => intro j _ h; omega
  | succ fuel ih =>
    intro j hj hf
    unfold nextPowerLoop
    by_cases hge : 2 ^ j ≥ size
    · exact ⟨j, le_refl _, hj, by simp [hge], hge, Or.inl rfl⟩
    · have hj62 : j ≤ 62 := by
        by_contra hc
        have : j = 63 := by omega
        subst this
        norm_num at hge
        omega
      have hlt : 2 ^ (j + 1) < 18446744073709551616 := by
        have : (2 : Nat) ^ (j + 1) ≤ 2 ^ 63 := Nat.pow_le_pow_right (by norm_num) (by omega)
        norm_num at this
        omega
      have hmul : 2 ^ j * 2 % 18446744073709551616 = 2 ^ (j + 1) := by
        rw [← pow_succ]
        exact Nat.mod_eq_of_lt hlt
      obtain ⟨k, hk1, hk2, hk3, hk4, hk5⟩ := ih (j + 1) (by omega) (by omega)
      refine ⟨k, by omega, hk2, ?_, hk4, ?_⟩
      · simp only [hge, if_false, hmul]
        exact hk3
      · right
        rcases hk5 with h | h
        · subst h
          simp only [Nat.add_sub_cancel]
          omega
        · exact h

theorem dictNextPower_spec (size : Nat) :
    ∃ k, 2 ≤ k ∧ k ≤ 63 ∧ _dictNextPower size = some (2 ^ k) ∧
      (size ≤ 9223372036854775808 → size ≤ 2 ^ k) ∧
      (size < 9223372036854775807 → k = 2 ∨ 2 ^ (k - 1) < size) := by
  unfold _dictNextPower
  by_cases h : size ≥ LONG_MAX
  · refine ⟨63, by norm_num, le_refl _, ?_, ?_, ?_⟩
    · rw [if_pos h]
      norm_num [LONG_MAX]
    · intro h1
      norm_num
      exact h1
    · intro h1
      simp only [LONG_MAX] at h
      omega
  · simp only [LONG_MAX] at h
    obtain ⟨k, hk1, hk2, hk3, hk4, hk5⟩ := nextPowerLoop_spec size (by omega) 64 2 (by norm_num)
      (by norm_num)
    refine ⟨k, hk1, hk2, ?_, fun _ => hk4, fun _ => hk5⟩
    have h4 : DICT_HT_INITIAL_SIZE = 2 ^ 2 := by norm_num [DICT_HT_INITIAL_SIZE]
    rw [if_neg (by simp only [LONG_MAX]; omega), h4]
    exact hk3

/-! ## The invariant under the replacement of one chain -/

theorem keysDiffer_symm {T : dictType} (hT : LawfulType T) {x y : dictEntry}
    (h : keysDiffer T x y) : keysDiffer T y x := by
  unfold keysDiffer at *
  cases hyx : keyEq T y.key x.key with
  | false => rfl
  | true =>
    have := hT.symm _ _ hyx
    rw [h] at this
    cases this

theorem getHt_zero (d : dict) : getHt d 0 = d.ht0 := rfl

theorem getHt_one (d : dict) : getHt d 1 = d.ht1 := rfl

theorem Inv_bucket_update {d d1 : dict} {t : Nat} {bs : List (List dictEntry)} {i : Nat}
    {old c : List dictEntry} (hT : LawfulType d.type) (hinv : Inv d) (ht : t = 0 ∨ t = 1)
    (htab : (getHt d t).table = some bs) (hold : bs[i]? = some old)
    (hpl : ∀ e ∈ c,
      (d.type.hashFunction e.key % 18446744073709551616) &&& (getHt d t).sizemask = i)
    (hnd : ∀ R, (dictEntries d).Perm (old ++ R) → (c ++ R).Pairwise (keysDiffer d.type))
    (hlen : (dictEntries d).length + c.length < 18446744073709551616 + old.length)
    (hmig : t = 0 → (i : Int) < d.rehashidx → c = [])
    (h1type : d1.type = d.type) (h1idx : d1.rehashidx = d.rehashidx)
    (h1other : getHt d1 (1 - t) = getHt d (1 - t))
    (h1tab : (getHt d1 t).table = some (bs.set i c))
    (h1size : (getHt d1 t).size = (getHt d t).size)
    (h1mask : (getHt d1 t).sizemask = (getHt d t).sizemask)
    (h1used : (getHt d1 t).used + old.length = (getHt d t).used + c.length) :
    Inv d1 ∧ ∃ R, (dictEntries d).Perm (old ++ R) ∧ (dictEntries d1).Perm (c ++ R) := by
  have hi : i < bs.length := lt_of_getElem?_eq_some hold
  have hbi : bs[i] = old := by
    rw [List.getElem?_eq_getElem hi] at hold
    exact Option.some.inj hold
  obtain ⟨rest, hp1, hp2⟩ := flatten_set_perm bs i hi
  rw [hbi] at hp1
  have hE : htEntries (getHt d t) = bs.flatten := htEntries_of_table htab
  have hE1 : htEntries (getHt d1 t) = (bs.set i c).flatten := htEntries_of_table h1tab
  have hokt : htOK d.type (getHt d t) := by
    rcases ht with rfl | rfl
    · exact hinv.ok0
    · exact hinv.ok1
  have husedt : (getHt d t).used = bs.flatten.length := by rw [hokt.used_eq, hE]
  have hok1t : htOK d.type (getHt d1 t) := by
    refine htOK_update hokt htab hi hpl h1tab h1size h1mask ?_
    have l1 := hp1.length_eq
    have l2 := (hp2 c).length_eq
    simp only [List.length_append] at l1 l2
    omega
  -- the permutation facts
  have hperm : ∃ R, (dictEntries d).Perm (old ++ R) ∧ (dictEntries d1).Perm (c ++ R) := by
    rcases ht with rfl | rfl
    · refine ⟨rest ++ htEntries d.ht1, ?_, ?_⟩
      · unfold dictEntries
        rw [← List.append_assoc]
        rw [getHt_zero] at hE
        rw [hE]
        exact List.Perm.append_right _ hp1
      · unfold dictEntries
        rw [← List.append_assoc]
        have h2 : d1.ht1 = d.ht1 := h1other
        rw [getHt_zero] at hE1
        rw [hE1, h2]
        exact List.Perm.append_right _ (hp2 c)
    · refine ⟨rest ++ htEntries d.ht0, ?_, ?_⟩
      · unfold dictEntries
        rw [getHt_one] at hE
        rw [hE]
        refine List.perm_append_comm.trans ?_
        rw [← List.append_assoc]
        exact List.Perm.append_right _ hp1
      · unfold dictEntries
        have h2 : d1.ht0 = d.ht0 := h1other
        rw [getHt_one] at hE1
        rw [hE1, h2]
        refine List.perm_append_comm.trans ?_
        rw [← List.append_assoc]
        exact List.Perm.append_right _ (hp2 c)
  refine ⟨?_, hperm⟩
  obtain ⟨R, hR1, hR2⟩ := hperm
  have hsym : ∀ {x y : dictEntry}, keysDiffer d.type x y → keysDiffer d.type y x :=
    fun h => keysDiffer_symm hT h
  constructor
  · rw [h1type]
    rcases ht with rfl | rfl
    · exact hok1t
    · have h2 : d1.ht0 = d.ht0 := h1other
      rw [h2]
      exact hinv.ok0
  · rw [h1type]
    rcases ht with rfl | rfl
    · have h2 : d1.ht1 = d.ht1 := h1other
      rw [h2]
      exact hinv.ok1
    · exact hok1t
  · rw [h1type]
    exact (List.Perm.pairwise_iff hsym hR2).mpr (hnd R hR1)
  · have l1 := hR1.length_eq
    have l2 := hR2.length_eq
    simp only [List.length_append] at l1 l2
    omega
  · intro hs
    rw [h1idx] at hs
    have hreset := hinv.stable hs
    rcases ht with rfl | rfl
    · have h2 : d1.ht1 = d.ht1 := h1other
      rw [h2]
      exact hreset
    · rw [getHt_one, hreset] at htab
      simp [_dictReset] at htab
  · intro hs
    rw [h1idx] at hs ⊢
    exact hinv.idx_nonneg hs
  · intro hs
    rw [h1idx] at hs ⊢
    have := hinv.idx_le hs
    rcases ht with rfl | rfl
    · have h2 : d1.ht0.size = d.ht0.size := h1size
      rw [h2]
      exact this
    · have h2 : d1.ht0 = d.ht0 := h1other
      rw [h2]
      exact this
  · intro hs
    rw [h1idx] at hs
    rcases ht with rfl | rfl
    · have h2 : d1.ht0.table = some (bs.set i c) := h1tab
      rw [h2]
      simp
    · have h2 : d1.ht0 = d.ht0 := h1other
      rw [h2]
      exact hinv.alloc0 hs
  · intro hs
    rw [h1idx] at hs
    rcases ht with rfl | rfl
    · have h2 : d1.ht1 = d.ht1 := h1other
      rw [h2]
      exact hinv.alloc1 hs
    · have h2 : d1.ht1.table = some (bs.set i c) := h1tab
      rw [h2]
      simp
  · intro bs1 j chain hbs1 hj hlt
    rw [h1idx] at hlt
    rcases ht with rfl | rfl
    · have h2 : d1.ht0.table = some (bs.set i c) := h1tab
      rw [h2] at hbs1
      cases hbs1
      rw [List.getElem?_set] at hj
      by_cases hij : i = j
      · subst hij
        simp only [if_true, hi] at hj
        cases hj
        exact hmig rfl hlt
      · simp only [hij, if_false] at hj
        exact hinv.migrated bs j chain htab hj hlt
    · have h2 : d1.ht0 = d.ht0 := h1other
      rw [h2] at hbs1
      exact hinv.migrated bs1 j chain hbs1 hj hlt

/-- The invariant only reads the type, the two tables and the rehash index. -/
theorem Inv_congr {d d1 : dict} (hinv : Inv d) (h1 : d1.type = d.type) (h2 : d1.ht0 = d.ht0)
    (h3 : d1.ht1 = d.ht1) (h4 : d1.rehashidx = d.rehashidx) : Inv d1 := by
  have he : dictEntries d1 = dictEntries d := by simp [dictEntries, h2, h3]
  constructor
  · rw [h1, h2]; exact hinv.ok0
  · rw [h1, h3]; exact hinv.ok1
  · rw [h1, he]; exact hinv.nodup
  · rw [he]; exact hinv.total
  · rw [h3, h4]; exact hinv.stable
  · rw [h4]; exact hinv.idx_nonneg
  · rw [h2, h4]; exact hinv.idx_le
  · rw [h2, h4]; exact hinv.alloc0
  · rw [h3, h4]; exact hinv.alloc1
  · rw [h2, h4]; exact hinv.migrated

theorem Inv_create (T : dictType) : Inv (dictCreate T) := by
  constructor
  · exact htOK_reset T
  · exact htOK_reset T
  all_goals simp [dictCreate, dictEntries, htEntries, _dictReset]

/-! ## Incremental rehashing keeps the invariant and the entries -/

theorem htOK_insert {T : dictType} {ht : dictht} {bs : List (List dictEntry)} (hok : htOK T ht)
    (htab : ht.table = some bs) (e : dictEntry)
    (hlen : (htEntries ht).length + 1 < 18446744073709551616) :
    ∃ old, bucketGet ht (hashIdx T ht e.key) = some old ∧
      bs[hashIdx T ht e.key]? = some old ∧
      bucketSet ht (hashIdx T ht e.key) (e :: old) =
        some { ht with table := some (bs.set (hashIdx T ht e.key) (e :: old)) } ∧
      htOK T { ht with
        table := some (bs.set (hashIdx T ht e.key) (e :: old)),
        used := (ht.used + 1) % 18446744073709551616 } ∧
      (bs.set (hashIdx T ht e.key) (e :: old)).flatten.Perm (e :: bs.flatten) := by
  obtain ⟨old, hget, hb⟩ : ∃ old, bucketGet ht (hashIdx T ht e.key) = some old ∧
      bs[hashIdx T ht e.key]? = some old :=
    htOK_bucketGet hok htab (T.hashFunction e.key % 18446744073709551616)
  have hi : hashIdx T ht e.key < bs.length :=
    htOK_mask_lt hok htab (T.hashFunction e.key % 18446744073709551616)
  obtain ⟨rest, hp1, hp2⟩ := flatten_set_perm bs _ hi
  have hbi : bs[hashIdx T ht e.key] = old := by
    rw [List.getElem?_eq_getElem hi] at hb
    exact Option.some.inj hb
  rw [hbi] at hp1
  have hperm : (bs.set (hashIdx T ht e.key) (e :: old)).flatten.Perm (e :: bs.flatten) :=
    (hp2 (e :: old)).trans (List.Perm.cons e hp1.symm)
  refine ⟨old, hget, hb, bucketSet_eq htab hi _, ?_, hperm⟩
  refine htOK_update hok htab hi ?_ rfl rfl rfl ?_
  · intro x hx
    rcases List.mem_cons.mp hx with rfl | hx
    · rfl
    · exact hok.placed bs _ old x htab hb hx
  · have l1 := hperm.length_eq
    have hu := hok.used_eq
    rw [htEntries_of_table htab] at hu hlen
    simp only [List.length_cons] at l1
    show (ht.used + 1) % 18446744073709551616 = _
    omega

theorem rehashMoveChain_spec (T : dictType) :
    ∀ (chain : List dictEntry) (d : dict), d.type = T → htOK T d.ht1 → d.ht1.table ≠ none →
      (htEntries d.ht1).length + chain.length < 18446744073709551616 →
      chain.length ≤ d.ht0.used → d.ht0.used < 18446744073709551616 →
      ∃ d1, rehashMoveChain d chain = some d1 ∧ d1.type = d.type ∧
        d1.rehashidx = d.rehashidx ∧ d1.iterators = d.iterators ∧ d1.trace = d.trace ∧
        d1.ht0.table = d.ht0.table ∧ d1.ht0.size = d.ht0.size ∧
        d1.ht0.sizemask = d.ht0.sizemask ∧ d1.ht0.used + chain.length = d.ht0.used ∧
        htOK T d1.ht1 ∧ d1.ht1.table ≠ none ∧ d1.ht1.size = d.ht1.size ∧
        d1.ht1.sizemask = d.ht1.sizemask ∧
        (htEntries d1.ht1).Perm (chain ++ htEntries d.ht1) := by
  intro chain
  induction chain with
  | nil =>
    intro d _ hok hne _ _ _
    exact ⟨d, rfl, rfl, rfl, rfl, rfl, rfl, rfl, rfl, rfl, hok, hne, rfl, rfl, by simp⟩
  | cons de rest ih =>
    intro d hT hok hne hlen hused hlt
    obtain ⟨bs, htab⟩ := Option.ne_none_iff_exists'.mp hne
    simp only [List.length_cons] at hlen hused
    have e : decr64 d.ht0.used + 1 = d.ht0.used := by
      unfold decr64
      split <;> omega
    have e2 : rest.length ≤ decr64 d.ht0.used := by omega
    have e3 : decr64 d.ht0.used < 18446744073709551616 := by omega
    obtain ⟨old, hget, _, hset, hok2, hperm⟩ := htOK_insert hok htab de (by omega)
    have hh : dictHashKey d de.key &&& d.ht1.sizemask = hashIdx T d.ht1 de.key := by
      simp [dictHashKey, hT, hashIdx]
    obtain ⟨d2, hd2⟩ : ∃ d2 : dict, d2 = { d with
        ht0 := { d.ht0 with
          used := decr64 d.ht0.used },
        ht1 := { d.ht1 with
          table := some (bs.set (hashIdx T d.ht1 de.key) (de :: old)),
          used := (d.ht1.used + 1) % 18446744073709551616 } } := ⟨_, rfl⟩
    have f1 : d2.type = d.type := by rw [hd2]
    have f2 : d2.rehashidx = d.rehashidx := by rw [hd2]
    have f3 : d2.iterators = d.iterators := by rw [hd2]
    have f4 : d2.trace = d.trace := by rw [hd2]
    have f5 : d2.ht0.table = d.ht0.table := by rw [hd2]
    have f6 : d2.ht0.size = d.ht0.size := by rw [hd2]
    have f7 : d2.ht0.sizemask = d.ht0.sizemask := by rw [hd2]
    have f8 : d2.ht0.used = decr64 d.ht0.used := by
      rw [hd2]
    have f9 : d2.ht1 = { d.ht1 with
          table := some (bs.set (hashIdx T d.ht1 de.key) (de :: old)),
          used := (d.ht1.used + 1) % 18446744073709551616 } := by rw [hd2]
    have f10 : d2.ht1.table = some (bs.set (hashIdx T d.ht1 de.key) (de :: old)) := by rw [f9]
    have f11 : d2.ht1.size = d.ht1.size := by rw [f9]
    have f12 : d2.ht1.sizemask = d.ht1.sizemask := by rw [f9]
    have hE2 : htEntries d2.ht1 = (bs.set (hashIdx T d.ht1 de.key) (de :: old)).flatten :=
      htEntries_of_table f10
    have hstep : rehashMoveChain d (de :: rest) = rehashMoveChain d2 rest := by
      rw [rehashMoveChain]
      simp only [hh, hget, hset]
      rw [hd2]
    rw [← f9] at hok2
    obtain ⟨d1, h1, h2, h3, h4, h5, h6, h7, h8, h9, h10, h11, h12, h13, h14⟩ := ih d2
      (f1.trans hT) hok2 (by rw [f10]; simp)
      (by
        rw [hE2, hperm.length_eq, List.length_cons]
        rw [htEntries_of_table htab] at hlen
        omega)
      (by rw [f8]; exact e2)
      (by rw [f8]; exact e3)
    refine ⟨d1, hstep.trans h1, h2.trans f1, h3.trans f2, h4.trans f3, h5.trans f4, h6.trans f5,
      h7.trans f6, h8.trans f7, ?_, h10, h11, h12.trans f11, h13.trans f12, ?_⟩
    · rw [f8] at h9
      rw [List.length_cons, ← e, ← h9]
      omega
    · rw [hE2] at h14
      rw [htEntries_of_table htab]
      refine h14.trans ?_
      refine (List.Perm.append_left rest hperm).trans ?_
      simp only [List.cons_append]
      exact List.perm_middle

theorem exists_nonempty_bucket {d : dict} (hinv : Inv d) (hr : d.rehashidx ≠ -1)
    (hu : d.ht0.used ≠ 0) :
    ∃ (bs : List (List dictEntry)) (j : Nat) (e : dictEntry) (chain : List dictEntry),
      d.ht0.table = some bs ∧ bs[j]? = some (e :: chain) ∧ d.rehashidx ≤ (j : Int) := by
  obtain ⟨bs, htab⟩ := Option.ne_none_iff_exists'.mp (hinv.alloc0 hr)
  have hused := hinv.ok0.used_eq
  rw [htEntries_of_table htab] at hused
  have hpos : 0 < bs.flatten.length := by omega
  obtain ⟨e, he⟩ := List.exists_mem_of_length_pos hpos
  obtain ⟨l, hl, hel⟩ := List.mem_flatten.mp he
  obtain ⟨j, hj, hjl⟩ := List.getElem_of_mem hl
  have hget : bs[j]? = some l := by rw [List.getElem?_eq_getElem hj, hjl]
  cases l with
  | nil => cases hel
  | cons x chain =>
    refine ⟨bs, j, x, chain, htab, hget, ?_⟩
    by_contra hlt
    have := hinv.migrated bs j (x :: chain) htab hget (by omega)
    cases this

/-- Skipping an empty bucket: the rehash index may advance over it. -/
theorem Inv_advance {d d1 : dict} (hinv : Inv d) (hr : d.rehashidx ≠ -1)
    {bs : List (List dictEntry)} (htab : d.ht0.table = some bs)
    (hempty : bs[d.rehashidx.toNat]? = some []) (h1 : d1.type = d.type) (h2 : d1.ht0 = d.ht0)
    (h3 : d1.ht1 = d.ht1) (h4 : d1.rehashidx = d.rehashidx + 1) : Inv d1 := by
  have he : dictEntries d1 = dictEntries d := by simp [dictEntries, h2, h3]
  have h0 := hinv.idx_nonneg hr
  have hlt := lt_of_getElem?_eq_some hempty
  have hlen := hinv.ok0.length_eq bs htab
  constructor
  · rw [h1, h2]; exact hinv.ok0
  · rw [h1, h3]; exact hinv.ok1
  · rw [h1, he]; exact hinv.nodup
  · rw [he]; exact hinv.total
  · intro hs; rw [h4] at hs; omega
  · intro _; rw [h4]; omega
  · intro _; rw [h4, h2]; omega
  · intro _; rw [h2]; exact hinv.alloc0 hr
  · intro _; rw [h3]; exact hinv.alloc1 hr
  · intro bs1 i chain hbs1 hi hlt1
    rw [h2, htab] at hbs1
    cases hbs1
    rw [h4] at hlt1
    by_cases hc : (i : Int) < d.rehashidx
    · exact hinv.migrated bs i chain htab hi hc
    · have hi2 : i = d.rehashidx.toNat := by omega
      subst hi2
      rw [hempty] at hi
      cases hi
      rfl

theorem rehashSkipEmpty_spec :
    ∀ (fuel : Nat) (d : dict) (ev : Int), Inv d → d.rehashidx ≠ -1 → d.ht0.used ≠ 0 →
      (d.ht0.size : Int) < (fuel : Int) + d.rehashidx →
      ∃ d1 r, rehashSkipEmpty fuel d ev = some (d1, r) ∧ Inv d1 ∧ d1.type = d.type ∧
        d1.ht0 = d.ht0 ∧ d1.ht1 = d.ht1 ∧ d1.iterators = d.iterators ∧ d1.trace = d.trace ∧
        d.rehashidx ≤ d1.rehashidx ∧ d1.rehashidx ≠ -1 ∧
        (∀ ev1, r = some ev1 → ∃ bs e chain, d1.ht0.table = some bs ∧
          bs[d1.rehashidx.toNat]? = some (e :: chain)) ∧
        (r = none → d.rehashidx < d1.rehashidx) := by
  intro fuel
  induction fuel with
  | zero =>
    intro d ev hinv hr hu hf
    obtain ⟨bs, j, e, chain, htab, hj, hle⟩ := exists_nonempty_bucket hinv hr hu
    have := lt_of_getElem?_eq_some hj
    have := hinv.ok0.length_eq bs htab
    omega
  | succ fuel ih =>
    intro d ev hinv hr hu hf
    obtain ⟨bs, j, e, chain, htab, hj, hle⟩ := exists_nonempty_bucket hinv hr hu
    have hjlt := lt_of_getElem?_eq_some hj
    have hlen := hinv.ok0.length_eq bs htab
    have h0 := hinv.idx_nonneg hr
    have hilt : d.rehashidx.toNat < bs.length := by omega
    rw [rehashSkipEmpty]
    rw [if_neg (by omega), bucketGet_eq htab, List.getElem?_eq_getElem hilt]
    cases hc : bs[d.rehashidx.toNat] with
    | nil =>
      have hempty : bs[d.rehashidx.toNat]? = some [] := by
        rw [List.getElem?_eq_getElem hilt, hc]
      obtain ⟨d1, hd1⟩ : ∃ d1 : dict, d1 = { d with rehashidx := d.rehashidx + 1 } := ⟨_, rfl⟩
      have f1 : d1.type = d.type := by rw [hd1]
      have f2 : d1.ht0 = d.ht0 := by rw [hd1]
      have f3 : d1.ht1 = d.ht1 := by rw [hd1]
      have f4 : d1.rehashidx = d.rehashidx + 1 := by rw [hd1]
      have f5 : d1.iterators = d.iterators := by rw [hd1]
      have f6 : d1.trace = d.trace := by rw [hd1]
      have hinv1 : Inv d1 := Inv_advance hinv hr htab hempty f1 f2 f3 f4
      have hne : j ≠ d.rehashidx.toNat := by
        intro hjj
        rw [hjj, hempty] at hj
        cases hj
      simp only []
      rw [← hd1]
      by_cases hev : wrapInt (ev - 1) = 0
      · rw [if_pos hev]
        refine ⟨d1, none, rfl, hinv1, f1, f2, f3, f5, f6, by omega, by omega, ?_, ?_⟩
        · intro ev1 h
          cases h
        · intro _
          omega
      · rw [if_neg hev]
        obtain ⟨d2, r, g1, g2, g3, g4, g5, g6, g7, g8, g9, g10, g11⟩ :=
          ih d1 (wrapInt (ev - 1)) hinv1 (by omega) (by rw [f2]; exact hu)
            (by rw [f2, f4]; omega)
        refine ⟨d2, r, g1, g2, g3.trans f1, g4.trans f2, g5.trans f3, g6.trans f5, g7.trans f6,
          by omega, g9, g10, ?_⟩
        intro _
        omega
    | cons x xs =>
      refine ⟨d, some ev, rfl, hinv, rfl, rfl, rfl, rfl, rfl, le_refl _, hr, ?_, ?_⟩
      · intro ev1 _
        exact ⟨bs, x, xs, htab, by rw [List.getElem?_eq_getElem hilt, hc]⟩
      · intro h
        cases h

/-- One round of the main loop of `dictRehash`: the chain of the bucket at the rehash index is
moved to `ht[1]`, the bucket is cleared and the index advances. -/
theorem rehash_bucket_step {d1 : dict} (hT : LawfulType d1.type) (hinv : Inv d1)
    (hr : d1.rehashidx ≠ -1) {bs : List (List dictEntry)} {de : List dictEntry}
    (htab : d1.ht0.table = some bs) (hde : bs[d1.rehashidx.toNat]? = some de) :
    ∃ d2 t0 d3, rehashMoveChain d1 de = some d2 ∧
      bucketSet d2.ht0 d2.rehashidx.toNat [] = some t0 ∧
      d3 = { d2 with ht0 := t0, rehashidx := d2.rehashidx + 1 } ∧ Inv d3 ∧
      d3.type = d1.type ∧ d3.iterators = d1.iterators ∧ d3.trace = d1.trace ∧
      d3.rehashidx = d1.rehashidx + 1 ∧ d3.ht0.size = d1.ht0.size ∧
      d3.ht1.size = d1.ht1.size ∧ d3.ht0.sizemask = d1.ht0.sizemask ∧
      d3.ht1.sizemask = d1.ht1.sizemask ∧ d3.ht0.used + de.length = d1.ht0.used ∧
      d3.ht1.used = d1.ht1.used + de.length ∧
      (dictEntries d3).Perm (dictEntries d1) := by
  have hjlt := lt_of_getElem?_eq_some hde
  have hlen := hinv.ok0.length_eq bs htab
  have h0 := hinv.idx_nonneg hr
  obtain ⟨rest, hp1, hp2⟩ := flatten_set_perm bs _ hjlt
  have hbi : bs[d1.rehashidx.toNat] = de := by
    rw [List.getElem?_eq_getElem hjlt] at hde
    exact Option.some.inj hde
  rw [hbi] at hp1
  have hp3 := hp2 []
  rw [List.nil_append] at hp3
  have hu0 := hinv.ok0.used_eq
  rw [htEntries_of_table htab] at hu0
  have hl1 := hp1.length_eq
  rw [List.length_append] at hl1
  have htot := hinv.total
  have hE0 : htEntries d1.ht0 = bs.flatten := htEntries_of_table htab
  rw [dictEntries, hE0, List.length_append] at htot
  obtain ⟨d2, m1, m2, m3, m4, m5, m6, m7, m8, m9, m10, m11, m12, m13, m14⟩ :=
    rehashMoveChain_spec d1.type de d1 rfl hinv.ok1 (hinv.alloc1 hr) (by omega) (by omega)
      (by omega)
  have hset : bucketSet d2.ht0 d2.rehashidx.toNat [] =
      some { d2.ht0 with table := some (bs.set d2.rehashidx.toNat []) } :=
    bucketSet_eq (m6.trans htab) (by rw [m3]; exact hjlt) []
  obtain ⟨t0, ht0⟩ : ∃ t0 : dictht,
      t0 = { d2.ht0 with table := some (bs.set d2.rehashidx.toNat []) } := ⟨_, rfl⟩
  obtain ⟨d3, hd3⟩ : ∃ d3 : dict, d3 = { d2 with ht0 := t0, rehashidx := d2.rehashidx + 1 } :=
    ⟨_, rfl⟩
  have t1 : t0.table = some (bs.set d1.rehashidx.toNat []) := by rw [ht0, m3]
  have t2 : t0.size = d1.ht0.size := by rw [ht0]; exact m7
  have t3 : t0.sizemask = d1.ht0.sizemask := by rw [ht0]; exact m8
  have t4 : t0.used = d2.ht0.used := by rw [ht0]
  have f1 : d3.type = d1.type := by rw [hd3]; exact m2
  have f2 : d3.iterators = d1.iterators := by rw [hd3]; exact m4
  have f3 : d3.trace = d1.trace := by rw [hd3]; exact m5
  have f4 : d3.rehashidx = d1.rehashidx + 1 := by rw [hd3]; show d2.rehashidx + 1 = _; rw [m3]
  have f5 : d3.ht0 = t0 := by rw [hd3]
  have f6 : d3.ht1 = d2.ht1 := by rw [hd3]
  have hE3 : htEntries d3.ht0 = (bs.set d1.rehashidx.toNat []).flatten := by
    rw [f5]; exact htEntries_of_table t1
  have hperm : (dictEntries d3).Perm (dictEntries d1) := by
    rw [dictEntries, dictEntries, hE3, f6, hE0]
    refine (List.Perm.append hp3 m14).trans ?_
    rw [← List.append_assoc]
    exact List.Perm.append_right _ (List.perm_append_comm.trans hp1.symm)
  have hsym : ∀ {x y : dictEntry}, keysDiffer d1.type x y → keysDiffer d1.type y x :=
    fun h => keysDiffer_symm hT h
  have hok0 : htOK d1.type d3.ht0 := by
    rw [f5]
    refine htOK_update hinv.ok0 htab hjlt ?_ t1 t2 t3 ?_
    · intro e he
      cases he
    · rw [t4, hp3.length_eq]
      omega
  refine ⟨d2, t0, d3, m1, by rw [hset, ht0], hd3, ?_, f1, f2, f3, f4, by rw [f5, t2],
    by rw [f6, m12], by rw [f5, t3], by rw [f6, m13], by rw [f5, t4]; exact m9, ?_, hperm⟩
  · constructor
    · rw [f1]; exact hok0
    · rw [f1, f6]; exact m10
    · rw [f1]
      exact (List.Perm.pairwise_iff hsym hperm).mpr hinv.nodup
    · rw [hperm.length_eq]; exact hinv.total
    · intro hs; rw [f4] at hs; omega
    · intro _; rw [f4]; omega
    · intro _; rw [f4, f5, t2]; omega
    · intro _; rw [f5, t1]; simp
    · intro _; rw [f6]; exact m11
    · intro bs1 i chain hbs1 hi hlt1
      rw [f5, t1] at hbs1
      cases hbs1
      rw [f4] at hlt1
      rw [List.getElem?_set] at hi
      by_cases hij : d1.rehashidx.toNat = i
      · rw [if_pos hij, if_pos hjlt] at hi
        cases hi
        rfl
      · rw [if_neg hij] at hi
        exact hinv.migrated bs i chain htab hi (by omega)
  · rw [f6]
    have l14 := m14.length_eq
    rw [List.length_append] at l14
    have hu1 := hinv.ok1.used_eq
    have hu2 := m10.used_eq
    omega

theorem dictRehashLoop_spec :
    ∀ (fuel : Nat) (d : dict) (n ev : Int), LawfulType d.type → Inv d → d.rehashidx ≠ -1 →
      (d.ht0.size : Int) < (fuel : Int) + d.rehashidx →
      ∃ d1 b, dictRehashLoop fuel d n ev = some (d1, b) ∧ Inv d1 ∧ d1.rehashidx ≠ -1 ∧
        d1.type = d.type ∧ d1.iterators = d.iterators ∧ d1.trace = d.trace ∧
        d1.ht0.size = d.ht0.size ∧ d1.ht1.size = d.ht1.size ∧
        d1.ht0.sizemask = d.ht0.sizemask ∧ d1.ht1.sizemask = d.ht1.sizemask ∧
        (dictEntries d1).Perm (dictEntries d) ∧ d.rehashidx ≤ d1.rehashidx ∧
        (n ≠ 0 → d.ht0.used ≠ 0 → d.rehashidx < d1.rehashidx) ∧
        (b = true → d1.ht0.used ≠ 0) ∧ (n = 0 → d1 = d ∧ b = false) ∧
        d1.ht0.used ≤ d.ht0.used ∧ (d.ht0.used = 0 → d1 = d ∧ b = false) := by
  intro fuel
  induction fuel with
  | zero =>
    intro d n ev _ hinv hr hf
    have := hinv.idx_le hr
    omega
  | succ fuel ih =>
    intro d n ev hT hinv hr hf
    rw [dictRehashLoop]
    by_cases hc : n ≠ 0 ∧ d.ht0.used ≠ 0
    · rw [if_pos hc]
      obtain ⟨hn, hu⟩ := hc
      obtain ⟨bs, j, e, chain, htab, hj, hle⟩ := exists_nonempty_bucket hinv hr hu
      have hjlt := lt_of_getElem?_eq_some hj
      have hlen := hinv.ok0.length_eq bs htab
      have h0 := hinv.idx_nonneg hr
      rw [if_pos (by omega)]
      obtain ⟨d1, r, s1, s2, s3, s4, s5, s6, s7, s8, s9, s10, s11⟩ :=
        rehashSkipEmpty_spec (d.ht0.size + 1) d ev hinv hr hu (by push_cast; omega)
      rw [s1]
      cases r with
      | none =>
        refine ⟨d1, true, rfl, s2, s9, s3, s6, s7, by rw [s4], by rw [s5], by rw [s4],
          by rw [s5], by rw [dictEntries, dictEntries, s4, s5], s8, fun _ _ => s11 rfl,
          fun _ => by rw [s4]; exact hu, fun h => absurd h hn, by rw [s4],
          fun h => absurd h hu⟩
      | some ev1 =>
        obtain ⟨bs1, x, xs, htab1, hx⟩ := s10 ev1 rfl
        obtain ⟨d2, t0, d3, m1, m2, m3, m4, m5, m6, m7, m8, m9, m10, m11, m12, m13, m14, m15⟩ :=
          rehash_bucket_step (s3 ▸ hT) s2 s9 htab1 hx
        simp only [bucketGet_eq htab1, hx, m1, m2]
        rw [← m3]
        have hlt1 := lt_of_getElem?_eq_some hx
        have hlen1 := s2.ok0.length_eq bs1 htab1
        have h01 := s2.idx_nonneg s9
        obtain ⟨d4, b, g1, g2, g3, g4, g5, g6, g7, g8, g9, g10, g11, g12, g13, g14, g15, g16,
            g17⟩ :=
          ih d3 (wrapInt (n - 1)) ev1 (by rw [m5, s3]; exact hT) m4 (by rw [m8]; omega)
            (by rw [m9, m8, s4]; omega)
        refine ⟨d4, b, g1, g2, g3, by rw [g4, m5, s3], by rw [g5, m6, s6], by rw [g6, m7, s7],
          by rw [g7, m9, s4], by rw [g8, m10, s5], by rw [g9, m11, s4], by rw [g10, m12, s5],
          ?_, by omega, fun _ _ => by omega, g14, fun h => absurd h hn, ?_,
          fun h => absurd h hu⟩
        · refine g11.trans (m15.trans ?_)
          rw [dictEntries, dictEntries, s4, s5]
        · rw [s4] at m13
          omega
    · rw [if_neg hc]
      refine ⟨d, false, rfl, hinv, hr, rfl, rfl, rfl, rfl, rfl, rfl, rfl, List.Perm.refl _,
        le_refl _, ?_, ?_, fun _ => ⟨rfl, rfl⟩, le_refl _, fun _ => ⟨rfl, rfl⟩⟩
      · intro h1 h2
        exact absurd ⟨h1, h2⟩ hc
      · intro h
        cases h

theorem dictIsRehashing_iff (d : dict) : dictIsRehashing d = true ↔ d.rehashidx ≠ -1 := by
  simp [dictIsRehashing]

/-- The function `dictRehash` on a well-formed dictionary: it returns, keeps the invariant and
the stored entries, and reports 0 exactly when the dictionary is no longer rehashing. -/
theorem dictRehash_spec (d : dict) (n : Int) (hT : LawfulType d.type) (hinv : Inv d) :
    ∃ d1 r, dictRehash d n = some (d1, r) ∧ Inv d1 ∧ d1.type = d.type ∧
      d1.iterators = d.iterators ∧ d1.trace = d.trace ∧
      (dictEntries d1).Perm (dictEntries d) ∧
      ((r = 0 ∧ d1.rehashidx = -1) ∨ (r = 1 ∧ d1.rehashidx ≠ -1 ∧ d1.ht0.used ≠ 0 ∧
        d.rehashidx ≠ -1 ∧ d1.ht0.size = d.ht0.size ∧ d1.ht1.size = d.ht1.size ∧
        d1.ht0.sizemask = d.ht0.sizemask ∧ d1.ht1.sizemask = d.ht1.sizemask ∧
        d.rehashidx ≤ d1.rehashidx ∧ (n ≠ 0 → d.rehashidx < d1.rehashidx))) ∧
      (d.rehashidx = -1 → d1 = d) := by
  unfold dictRehash
  by_cases hr : d.rehashidx = -1
  · have : dictIsRehashing d = false := by simp [dictIsRehashing, hr]
    simp only [this, Bool.not_false, if_true]
    exact ⟨d, 0, rfl, hinv, rfl, rfl, rfl, List.Perm.refl _, Or.inl ⟨rfl, hr⟩, fun _ => rfl⟩
  · have : dictIsRehashing d = true := (dictIsRehashing_iff d).mpr hr
    simp only [this, Bool.not_true, Bool.false_eq_true, if_false]
    have h0 := hinv.idx_nonneg hr
    obtain ⟨d1, b, g1, g2, g3, g4, g5, g6, g7, g8, g9, g10, g11, g12, g13, g14, g15, g16, g17⟩ :=
      dictRehashLoop_spec (d.ht0.size + 1) d n (wrapInt (n * 10)) hT hinv hr
        (by push_cast; omega)
    rw [g1]
    cases b with
    | true =>
      refine ⟨d1, 1, rfl, g2, g4, g5, g6, g11, Or.inr ⟨rfl, g3, g14 rfl, hr, g7, g8, g9, g10,
        g12, ?_⟩, fun h => absurd h hr⟩
      intro hn
      by_cases hu : d.ht0.used = 0
      · have := (g17 hu).2
        cases this
      · exact g13 hn hu
    | false =>
      by_cases hu1 : d1.ht0.used = 0
      · simp only [hu1, if_true]
        obtain ⟨d2, hd2⟩ : ∃ d2 : dict,
            d2 = { d1 with ht0 := d1.ht1, ht1 := _dictReset, rehashidx := -1 } := ⟨_, rfl⟩
        rw [← hd2]
        have f1 : d2.type = d1.type := by rw [hd2]
        have f2 : d2.ht0 = d1.ht1 := by rw [hd2]
        have f3 : d2.ht1 = _dictReset := by rw [hd2]
        have f4 : d2.rehashidx = -1 := by rw [hd2]
        have f5 : d2.iterators = d1.iterators := by rw [hd2]
        have f6 : d2.trace = d1.trace := by rw [hd2]
        have hE0 : htEntries d1.ht0 = [] := by
          have := g2.ok0.used_eq
          rw [hu1] at this
          exact List.eq_nil_of_length_eq_zero this.symm
        have hE : dictEntries d2 = dictEntries d1 := by
          rw [dictEntries, dictEntries, f2, f3, hE0]
          simp [htEntries, _dictReset]
        refine ⟨d2, 0, rfl, ?_, f1.trans g4, f5.trans g5, f6.trans g6, by rw [hE]; exact g11,
          Or.inl ⟨rfl, f4⟩, fun h => absurd h hr⟩
        constructor
        · rw [f1, f2]; exact g2.ok1
        · rw [f3]; exact htOK_reset _
        · rw [f1, hE]; exact g2.nodup
        · rw [hE]; exact g2.total
        · intro _; exact f3
        · intro h; exact absurd f4 h
        · intro h; exact absurd f4 h
        · intro h; exact absurd f4 h
        · intro h; exact absurd f4 h
        · intro bs i chain _ _ hlt
          rw [f4] at hlt
          omega
      · simp only [hu1, if_false]
        refine ⟨d1, 1, rfl, g2, g4, g5, g6, g11, Or.inr ⟨rfl, g3, hu1, hr, g7, g8, g9, g10,
          g12, ?_⟩, fun h => absurd h hr⟩
        intro hn
        by_cases hu : d.ht0.used = 0
        · have := (g17 hu).1
          rw [this] at hu1
          exact absurd hu hu1
        · exact g13 hn hu

theorem rehashStep_spec (d : dict) (hT : LawfulType d.type) (hinv : Inv d) :
    ∃ d1, rehashStepIfRehashing d = some d1 ∧ Inv d1 ∧ d1.type = d.type ∧
      d1.iterators = d.iterators ∧ d1.trace = d.trace ∧
      (dictEntries d1).Perm (dictEntries d) ∧ (d.rehashidx = -1 → d1 = d) ∧
      (d.iterators ≠ 0 → d1 = d) ∧
      (d1.rehashidx ≠ -1 → d.rehashidx ≠ -1 ∧ d1.ht0.size = d.ht0.size ∧
        d1.ht1.size = d.ht1.size) := by
  unfold rehashStepIfRehashing
  by_cases hr : d.rehashidx = -1
  · have : dictIsRehashing d = false := by simp [dictIsRehashing, hr]
    rw [this]
    exact ⟨d, rfl, hinv, rfl, rfl, rfl, List.Perm.refl _, fun _ => rfl, fun _ => rfl,
      fun h => absurd hr h⟩
  · have : dictIsRehashing d = true := (dictIsRehashing_iff d).mpr hr
    rw [this]
    simp only [if_true]
    unfold _dictRehashStep
    by_cases hi : d.iterators = 0
    · rw [if_pos hi]
      obtain ⟨d1, r, g1, g2, g3, g4, g5, g6, g7, _⟩ := dictRehash_spec d 1 hT hinv
      rw [g1]
      refine ⟨d1, rfl, g2, g3, g4, g5, g6, fun h => absurd h hr, fun h => absurd hi h, ?_⟩
      intro h1
      rcases g7 with ⟨_, h2⟩ | ⟨_, _, _, _, h3, h4, _⟩
      · exact absurd h2 h1
      · exact ⟨hr, h3, h4⟩
    · rw [if_neg hi]
      exact ⟨d, rfl, hinv, rfl, rfl, rfl, List.Perm.refl _, fun _ => rfl, fun _ => rfl,
        fun _ => ⟨hr, rfl, rfl⟩⟩

theorem decr64_two_pow (k : Nat) : decr64 (2 ^ k) = 2 ^ k - 1 := by
  unfold decr64
  rw [if_neg (by positivity)]

theorem htOK_new (T : dictType) (k : Nat) (h2 : 2 ≤ k) (h63 : k ≤ 63) :
    htOK T { size := 2 ^ k, sizemask := decr64 (2 ^ k),
             table := some (List.replicate (2 ^ k) []), used := 0 } := by
  constructor
  · intro bs h
    cases h
    simp
  · intro bs _
    exact ⟨k, h2, h63, rfl⟩
  · intro h
    cases h
  · exact decr64_two_pow k
  · simp [htEntries]
  · intro bs i chain e h hi he
    cases h
    rw [List.getElem?_replicate] at hi
    split at hi
    · cases hi
      cases he
    · cases hi

theorem allocCells_pow (k : Nat) (hk : k ≤ 60) : allocCells (2 ^ k) = 2 ^ k := by
  have h : 2 ^ k ≤ 1152921504606846976 := by
    calc 2 ^ k ≤ 2 ^ 60 := Nat.pow_le_pow_right (by norm_num) hk
      _ = 1152921504606846976 := by norm_num
  unfold allocCells
  omega

theorem allocCells_big (k : Nat) (h61 : 61 ≤ k) (h63 : k ≤ 63) : allocCells (2 ^ k) = 0 := by
  unfold allocCells
  interval_cases k <;> norm_num

/-- The table of `2 ^ k` empty buckets is well formed. It is the table that `dictExpand`
builds when the byte count of the bucket array does not wrap. -/
theorem newTable_eq (k : Nat) (hk : k ≤ 60) :
    newTable (2 ^ k) = { size := 2 ^ k, sizemask := decr64 (2 ^ k),
                         table := some (List.replicate (2 ^ k) []), used := 0 } := by
  unfold newTable
  rw [allocCells_pow k hk]

/-- Installing a well-formed empty table as `ht[0]` of a dictionary whose `ht[0]` is not
allocated keeps the dictionary well formed. -/
theorem Inv_install_first {d : dict} (hinv : Inv d) (hr : d.rehashidx = -1)
    (htab : d.ht0.table = none) {n : dictht} (hnew : htOK d.type n) (hEn : htEntries n = []) :
    Inv { d with ht0 := n } ∧ dictEntries ({ d with ht0 := n } : dict) = dictEntries d := by
  obtain ⟨d1, hd1⟩ : ∃ d1 : dict, d1 = { d with ht0 := n } := ⟨_, rfl⟩
  rw [← hd1]
  have hreset := hinv.stable hr
  have f1 : d1.type = d.type := by rw [hd1]
  have f2 : d1.ht0 = n := by rw [hd1]
  have f3 : d1.ht1 = d.ht1 := by rw [hd1]
  have f4 : d1.rehashidx = d.rehashidx := by rw [hd1]
  have hE : dictEntries d1 = dictEntries d := by
    rw [dictEntries, dictEntries, f2, f3, hEn, htEntries_of_null htab]
  refine ⟨?_, hE⟩
  constructor
  · rw [f1, f2]; exact hnew
  · rw [f1, f3]; exact hinv.ok1
  · rw [f1, hE]; exact hinv.nodup
  · rw [hE]; exact hinv.total
  · intro _; rw [f3]; exact hreset
  · intro h; rw [f4] at h; exact absurd hr h
  · intro h; rw [f4] at h; exact absurd hr h
  · intro h; rw [f4] at h; exact absurd hr h
  · intro h; rw [f4] at h; exact absurd hr h
  · intro bs i chain _ _ hlt
    rw [f4, hr] at hlt
    omega

/-- Installing a well-formed empty table as `ht[1]` of a dictionary that is not rehashing and
has an allocated `ht[0]`, with the rehash index 0, keeps the dictionary well formed. -/
theorem Inv_install_second {d : dict} (hinv : Inv d) (hr : d.rehashidx = -1)
    (htab : d.ht0.table ≠ none) {n : dictht} (hnew : htOK d.type n) (hEn : htEntries n = [])
    (hnt : n.table ≠ none) :
    Inv { d with ht1 := n, rehashidx := 0 } ∧
      dictEntries ({ d with ht1 := n, rehashidx := 0 } : dict) = dictEntries d := by
  obtain ⟨d1, hd1⟩ : ∃ d1 : dict, d1 = { d with ht1 := n, rehashidx := 0 } := ⟨_, rfl⟩
  rw [← hd1]
  have hreset := hinv.stable hr
  have f1 : d1.type = d.type := by rw [hd1]
  have f2 : d1.ht0 = d.ht0 := by rw [hd1]
  have f3 : d1.ht1 = n := by rw [hd1]
  have f4 : d1.rehashidx = 0 := by rw [hd1]
  have hE : dictEntries d1 = dictEntries d := by
    rw [dictEntries, dictEntries, f2, f3, hEn, hreset]
    simp [htEntries, _dictReset]
  refine ⟨?_, hE⟩
  constructor
  · rw [f1, f2]; exact hinv.ok0
  · rw [f1, f3]; exact hnew
  · rw [f1, hE]; exact hinv.nodup
  · rw [hE]; exact hinv.total
  · intro h; rw [f4] at h; omega
  · intro _; rw [f4]
  · intro _; rw [f4]; omega
  · intro _; rw [f2]; exact htab
  · intro _; rw [f3]; exact hnt
  · intro bs i chain _ _ hlt
    rw [f4] at hlt
    omega

/-- The function `dictExpand` on a well-formed dictionary, for a requested size of at most
`2 ^ 60` buckets: the byte count of the new bucket array does not wrap. -/
theorem dictExpand_spec (d : dict) (size : Nat) (hinv : Inv d)
    (hsize : size ≤ 1152921504606846976) :
    ∃ d1 r, dictExpand d size = some (d1, r) ∧ Inv d1 ∧ d1.type = d.type ∧
      d1.iterators = d.iterators ∧ d1.trace = d.trace ∧ dictEntries d1 = dictEntries d ∧
      (r = DICT_ERR → d1 = d) ∧ (r = DICT_OK ∨ r = DICT_ERR) ∧
      (r = DICT_ERR → d.rehashidx ≠ -1 ∨ d.ht0.used > size ∨
        _dictNextPower size = some d.ht0.size) ∧
      (r = DICT_OK → d.rehashidx = -1 ∧ d.ht0.used ≤ size ∧
        ∃ k, 2 ≤ k ∧ k ≤ 63 ∧ _dictNextPower size = some (2 ^ k) ∧ 2 ^ k ≠ d.ht0.size ∧
          ((d.ht0.table = none ∧ d1.rehashidx = -1 ∧ d1.ht1 = d.ht1 ∧ d1.ht0.size = 2 ^ k ∧
              d1.ht0.used = 0) ∨
            (d.ht0.table ≠ none ∧ d1.rehashidx = 0 ∧ d1.ht0 = d.ht0 ∧ d1.ht1.size = 2 ^ k ∧
              d1.ht1.used = 0))) := by
  unfold dictExpand
  by_cases hc : (dictIsRehashing d || decide (d.ht0.used > size)) = true
  · rw [if_pos hc]
    refine ⟨d, DICT_ERR, rfl, hinv, rfl, rfl, rfl, rfl, fun _ => rfl, Or.inr rfl, ?_,
      fun h => by simp [DICT_OK, DICT_ERR] at h⟩
    intro _
    rw [Bool.or_eq_true] at hc
    rcases hc with h | h
    · exact Or.inl ((dictIsRehashing_iff d).mp h)
    · exact Or.inr (Or.inl (by simpa using h))
  · rw [if_neg hc]
    rw [Bool.or_eq_true, not_or] at hc
    obtain ⟨hc1, hc2⟩ := hc
    have hr : d.rehashidx = -1 := by
      by_contra h
      exact hc1 ((dictIsRehashing_iff d).mpr h)
    have hus : d.ht0.used ≤ size := by
      simp only [decide_eq_true_eq, not_lt] at hc2
      omega
    obtain ⟨k, hk2, hk63, hk, _, hmin⟩ := dictNextPower_spec size
    have hk60 : k ≤ 60 := by
      rcases hmin (by omega) with h | h
      · omega
      · by_contra hc
        have h1 : 2 ^ 60 ≤ 2 ^ (k - 1) := Nat.pow_le_pow_right (by norm_num) (by omega)
        have h2 : (2 : Nat) ^ 60 = 1152921504606846976 := by norm_num
        omega
    rw [hk]
    simp only []
    rw [allocCells_pow k hk60]
    by_cases hsz : 2 ^ k = d.ht0.size
    · rw [if_pos hsz]
      exact ⟨d, DICT_ERR, rfl, hinv, rfl, rfl, rfl, rfl, fun _ => rfl, Or.inr rfl,
        fun _ => Or.inr (Or.inr (by rw [hsz])),
        fun h => by simp [DICT_OK, DICT_ERR] at h⟩
    · rw [if_neg hsz]
      have hnew := htOK_new d.type k hk2 hk63
      have hEn : htEntries
          ({ size := 2 ^ k, sizemask := decr64 (2 ^ k),
             table := some (List.replicate (2 ^ k) []), used := 0 } : dictht) = [] := by
        rw [htEntries_of_table rfl]
        simp
      cases htab : d.ht0.table with
      | none =>
        simp only [Option.isNone_none, if_true]
        obtain ⟨i1, i2⟩ := Inv_install_first hinv hr htab hnew hEn
        exact ⟨_, DICT_OK, rfl, i1, rfl, rfl, rfl, i2,
          fun h => by simp [DICT_OK, DICT_ERR] at h,
          Or.inl rfl, fun h => by simp [DICT_OK, DICT_ERR] at h,
          fun _ => ⟨hr, hus, k, hk2, hk63, rfl, hsz, Or.inl ⟨trivial, hr, rfl, rfl, rfl⟩⟩⟩
      | some bs0 =>
        simp only [Option.isNone_some, Bool.false_eq_true, if_false]
        obtain ⟨i1, i2⟩ := Inv_install_second hinv hr (by rw [htab]; simp) hnew hEn
          (by simp)
        exact ⟨_, DICT_OK, rfl, i1, rfl, rfl, rfl, i2,
          fun h => by simp [DICT_OK, DICT_ERR] at h,
          Or.inl rfl, fun h => by simp [DICT_OK, DICT_ERR] at h,
          fun _ => ⟨hr, hus, k, hk2, hk63, rfl, hsz, Or.inr ⟨by simp, rfl, rfl, rfl, rfl⟩⟩⟩

/-! ## Lookup in a chain and in a table -/

theorem keyMatch_eq (d : dict) (key : Nat) (he : dictEntry) :
    keyMatch d key he = keyEq d.type key he.key := rfl

theorem perm_cons_eraseIdx {α : Type} :
    ∀ (l : List α) (pos : Nat) (a : α), l[pos]? = some a → l.Perm (a :: l.eraseIdx pos) := by
  intro l
  induction l with
  | nil => intro pos a h; simp at h
  | cons x xs ih =>
    intro pos a h
    cases pos with
    | zero =>
      simp only [List.getElem?_cons_zero, Option.some.injEq] at h
      subst h
      simp
    | succ p =>
      simp only [List.getElem?_cons_succ] at h
      simp only [List.eraseIdx_cons_succ]
      exact (List.Perm.cons x (ih p a h)).trans (List.Perm.swap a x _)

theorem perm_set_eraseIdx {α : Type} :
    ∀ (l : List α) (pos : Nat) (a b : α), l[pos]? = some a →
      (l.set pos b).Perm (b :: l.eraseIdx pos) := by
  intro l
  induction l with
  | nil => intro pos a b h; simp at h
  | cons x xs ih =>
    intro pos a b h
    cases pos with
    | zero => simp
    | succ p =>
      simp only [List.getElem?_cons_succ] at h
      simp only [List.eraseIdx_cons_succ, List.set_cons_succ]
      exact (List.Perm.cons x (ih p a b h)).trans (List.Perm.swap b x _)

theorem chainFind_none (d : dict) (key : Nat) :
    ∀ (chain : List dictEntry), chainFind d key chain = none →
      ∀ e ∈ chain, keyEq d.type key e.key = false := by
  intro chain
  induction chain with
  | nil => intro _ e he; cases he
  | cons x xs ih =>
    intro h e he
    rw [chainFind] at h
    by_cases hm : keyMatch d key x = true
    · rw [if_pos hm] at h
      cases h
    · rw [if_neg hm] at h
      have hrec : chainFind d key xs = none := by
        cases hc : chainFind d key xs with
        | none => rfl
        | some r =>
          rw [hc] at h
          cases h
      rcases List.mem_cons.mp he with rfl | he
      · rw [← keyMatch_eq]
        simpa using hm
      · exact ih hrec e he

theorem chainFind_some (d : dict) (key : Nat) :
    ∀ (chain : List dictEntry) (pos : Nat) (he : dictEntry),
      chainFind d key chain = some (pos, he) →
      chain[pos]? = some he ∧ keyEq d.type key he.key = true ∧
        ∀ q e, q < pos → chain[q]? = some e → keyEq d.type key e.key = false := by
  intro chain
  induction chain with
  | nil => intro pos he h; rw [chainFind] at h; cases h
  | cons x xs ih =>
    intro pos he h
    rw [chainFind] at h
    by_cases hm : keyMatch d key x = true
    · rw [if_pos hm] at h
      cases h
      exact ⟨by simp, hm, fun q e hq _ => absurd hq (Nat.not_lt_zero q)⟩
    · rw [if_neg hm] at h
      cases hc : chainFind d key xs with
      | none =>
        rw [hc] at h
        cases h
      | some r =>
        obtain ⟨p, e1⟩ := r
        rw [hc] at h
        cases h
        obtain ⟨i1, i2, i3⟩ := ih p he hc
        refine ⟨by simpa using i1, i2, ?_⟩
        intro q e hq hqe
        cases q with
        | zero =>
          simp only [List.getElem?_cons_zero, Option.some.injEq] at hqe
          subst hqe
          rw [← keyMatch_eq]
          simpa using hm
        | succ q1 =>
          simp only [List.getElem?_cons_succ] at hqe
          exact i3 q1 e (by omega) hqe

theorem chainFind_total (d : dict) (key : Nat) (chain : List dictEntry) :
    (chainFind d key chain = none ∧ ∀ e ∈ chain, keyEq d.type key e.key = false) ∨
      ∃ pos he, chainFind d key chain = some (pos, he) ∧ chain[pos]? = some he ∧
        keyEq d.type key he.key = true := by
  cases hc : chainFind d key chain with
  | none => exact Or.inl ⟨rfl, chainFind_none d key chain hc⟩
  | some r =>
    obtain ⟨pos, he⟩ := r
    obtain ⟨h1, h2, _⟩ := chainFind_some d key chain pos he hc
    exact Or.inr ⟨pos, he, rfl, h1, h2⟩

theorem mem_of_getElem?_eq_some {α : Type} {l : List α} {i : Nat} {a : α}
    (h : l[i]? = some a) : a ∈ l := by
  have hlt := lt_of_getElem?_eq_some h
  rw [List.getElem?_eq_getElem hlt] at h
  cases h
  exact List.getElem_mem hlt

/-- Entries whose key compares equal to `key` can only be in the bucket of `key`. -/
theorem bucket_of_match {T : dictType} (hT : LawfulType T) {ht : dictht}
    {bs : List (List dictEntry)} (hok : htOK T ht) (htab : ht.table = some bs) {key j : Nat}
    {chain : List dictEntry} {e : dictEntry} (hj : bs[j]? = some chain) (he : e ∈ chain)
    (hm : keyEq T key e.key = true) : j = hashIdx T ht key := by
  have h1 := hok.placed bs j chain e htab hj he
  have h2 := hT.hash_eq _ _ hm
  rw [← h1, hashIdx, h2]

theorem findInTable_spec {d : dict} (hT : LawfulType d.type) {t : Nat} {bs : List (List dictEntry)}
    (hok : htOK d.type (getHt d t)) (htab : (getHt d t).table = some bs) (key : Nat) :
    ∃ r, findInTable d t key (dictHashKey d key) = some r ∧
      (r = none → ∀ e ∈ htEntries (getHt d t), keyEq d.type key e.key = false) ∧
      (∀ he, r = some he → he ∈ htEntries (getHt d t) ∧ keyEq d.type key he.key = true) := by
  obtain ⟨chain, hget, hb⟩ := htOK_bucketGet hok htab (dictHashKey d key)
  unfold findInTable
  rw [hget]
  rcases chainFind_total d key chain with ⟨hc, hnone⟩ | ⟨pos, he, hc, hpos, hm⟩
  · simp only [hc]
    refine ⟨none, rfl, ?_, fun he h => by cases h⟩
    intro _ e he
    rw [htEntries_of_table htab, List.mem_flatten] at he
    obtain ⟨l, hl, hel⟩ := he
    obtain ⟨j, hj, hjl⟩ := List.getElem_of_mem hl
    have hgetj : bs[j]? = some l := by rw [List.getElem?_eq_getElem hj, hjl]
    cases hm : keyEq d.type key e.key with
    | false => rfl
    | true =>
      have hidx := bucket_of_match hT hok htab hgetj hel hm
      have : l = chain := by
        have h1 : bs[hashIdx d.type (getHt d t) key]? = some chain := hb
        rw [← hidx, hgetj] at h1
        exact Option.some.inj h1
      rw [this] at hel
      rw [hnone e hel] at hm
      cases hm
  · simp only [hc]
    refine ⟨some he, rfl, fun h => (by cases h), ?_⟩
    intro he1 h
    cases h
    exact ⟨mem_htEntries_of_bucket htab hb (mem_of_getElem?_eq_some hpos), hm⟩

theorem ht0_alloc_of_nonempty {d : dict} (hinv : Inv d) (hne : dictEntries d ≠ []) :
    d.ht0.table ≠ none := by
  by_cases hr : d.rehashidx = -1
  · intro hnone
    apply hne
    rw [dictEntries, htEntries_of_null hnone, hinv.stable hr]
    simp [htEntries, _dictReset]
  · exact hinv.alloc0 hr

theorem ht1_entries_of_stable {d : dict} (hinv : Inv d) (hr : d.rehashidx = -1) :
    htEntries d.ht1 = [] := by
  rw [hinv.stable hr]
  simp [htEntries, _dictReset]

theorem dictSize_eq {d : dict} (hinv : Inv d) : dictSize d = (dictEntries d).length := by
  have h0 := hinv.ok0.used_eq
  have h1 := hinv.ok1.used_eq
  have ht := hinv.total
  rw [dictEntries, List.length_append] at ht ⊢
  rw [dictSize, h0, h1]
  omega

/-- The function `dictFind` on a well-formed dictionary: it returns the stored entry whose key
compares equal to the key, or `NULL` when there is none; the only change to the dictionary is
the rehash step. -/
theorem dictFind_spec (d : dict) (key : Nat) (hT : LawfulType d.type) (hinv : Inv d) :
    ∃ d1 r, dictFind d key = some (d1, r) ∧ Inv d1 ∧ d1.type = d.type ∧
      d1.iterators = d.iterators ∧ d1.trace = d.trace ∧
      (dictEntries d1).Perm (dictEntries d) ∧
      (r = none → ∀ e ∈ dictEntries d, keyEq d.type key e.key = false) ∧
      (∀ he, r = some he → he ∈ dictEntries d1 ∧ keyEq d.type key he.key = true) ∧
      (d1 = d ∨ rehashStepIfRehashing d = some d1) := by
  unfold dictFind
  have hsz := dictSize_eq hinv
  rw [dictSize] at hsz
  by_cases hz : (d.ht0.used + d.ht1.used) % 18446744073709551616 = 0
  · rw [if_pos hz]
    refine ⟨d, none, rfl, hinv, rfl, rfl, rfl, List.Perm.refl _, ?_, fun he h => (by cases h),
      Or.inl rfl⟩
    intro _ e he
    rw [hz] at hsz
    rw [List.eq_nil_of_length_eq_zero hsz.symm] at he
    cases he
  · rw [if_neg hz]
    obtain ⟨d1, s1, s2, s3, s4, s5, s6, s7, s8, s9⟩ := rehashStep_spec d hT hinv
    rw [s1]
    simp only []
    have hne : dictEntries d1 ≠ [] := by
      intro h
      have := s6.length_eq
      rw [h] at this
      simp only [List.length_nil] at this
      omega
    obtain ⟨bs0, htab0⟩ := Option.ne_none_iff_exists'.mp (ht0_alloc_of_nonempty s2 hne)
    have hT1 : LawfulType d1.type := by rw [s3]; exact hT
    obtain ⟨r0, f1, f2, f3⟩ := findInTable_spec (t := 0) hT1 s2.ok0 htab0 key
    rw [f1]
    cases r0 with
    | some he =>
      simp only []
      obtain ⟨m1, m2⟩ := f3 he rfl
      refine ⟨d1, some he, rfl, s2, s3, s4, s5, s6, fun h => (by cases h), ?_, Or.inr rfl⟩
      intro he1 h
      cases h
      exact ⟨List.mem_append_left _ m1, by rw [← s3]; exact m2⟩
    | none =>
      simp only []
      have hn0 := f2 rfl
      by_cases hr1 : d1.rehashidx = -1
      · have : dictIsRehashing d1 = false := by simp [dictIsRehashing, hr1]
        simp only [this, Bool.not_false, if_true]
        refine ⟨d1, none, rfl, s2, s3, s4, s5, s6, ?_, fun he h => (by cases h), Or.inr rfl⟩
        intro _ e he
        have he1 : e ∈ dictEntries d1 := s6.symm.subset he
        rw [dictEntries, ht1_entries_of_stable s2 hr1, List.append_nil] at he1
        rw [← s3]
        exact hn0 e he1
      · have : dictIsRehashing d1 = true := (dictIsRehashing_iff d1).mpr hr1
        simp only [this, Bool.not_true, Bool.false_eq_true, if_false]
        obtain ⟨bs1, htab1⟩ := Option.ne_none_iff_exists'.mp (s2.alloc1 hr1)
        obtain ⟨r1, g1, g2, g3⟩ := findInTable_spec (t := 1) hT1 s2.ok1 htab1 key
        rw [g1]
        refine ⟨d1, r1, rfl, s2, s3, s4, s5, s6, ?_, ?_, Or.inr rfl⟩
        · intro hr e he
          have he1 : e ∈ dictEntries d1 := s6.symm.subset he
          rw [← s3]
          rcases List.mem_append.mp he1 with h | h
          · exact hn0 e h
          · exact g2 hr e h
        · intro he h
          obtain ⟨m1, m2⟩ := g3 he h
          exact ⟨List.mem_append_right _ m1, by rw [← s3]; exact m2⟩

/-! ## Insertion -/

theorem ht_alloc_of_size_ne {T : dictType} {ht : dictht} (hok : htOK T ht) (h : ht.size ≠ 0) :
    ht.table ≠ none := fun hn => h (hok.size_null hn)

theorem ht_size_of_alloc {T : dictType} {ht : dictht} (hok : htOK T ht) (h : ht.table ≠ none) :
    4 ≤ ht.size ∧ ht.size ≤ 9223372036854775808 := by
  obtain ⟨bs, htab⟩ := Option.ne_none_iff_exists'.mp h
  obtain ⟨k, h2, h63, hk⟩ := hok.size_pow bs htab
  rw [hk]
  constructor
  · calc 4 = 2 ^ 2 := by norm_num
      _ ≤ 2 ^ k := Nat.pow_le_pow_right (by norm_num) h2
  · calc 2 ^ k ≤ 2 ^ 63 := Nat.pow_le_pow_right (by norm_num) h63
      _ = 9223372036854775808 := by norm_num

/-- The function `_dictExpandIfNeeded` on a well-formed dictionary: it cannot fail while the
table holds at most `2 ^ 62` entries, and then `ht[0]` is allocated. -/
theorem dictExpandIfNeeded_spec (cr : Bool) (d : dict) (hinv : Inv d)
    (hroom : d.ht0.used ≤ 576460752303423488) :
    ∃ d1 r, _dictExpandIfNeeded cr d = some (d1, r) ∧ Inv d1 ∧ d1.type = d.type ∧
      d1.iterators = d.iterators ∧ d1.trace = d.trace ∧ dictEntries d1 = dictEntries d ∧
      (r = DICT_ERR → d1 = d) ∧ (r = DICT_OK ∨ r = DICT_ERR) ∧
      (d.ht0.used ≤ 576460752303423488 → r = DICT_OK ∧ d1.ht0.table ≠ none) := by
  unfold _dictExpandIfNeeded
  by_cases hr : d.rehashidx = -1
  · have hnr : dictIsRehashing d = false := by simp [dictIsRehashing, hr]
    rw [hnr]
    simp only [Bool.false_eq_true, if_false]
    by_cases hs : d.ht0.size = 0
    · rw [if_pos hs]
      obtain ⟨d1, r, e1, e2, e3, e4, e5, e6, e7, e8, e9, e10⟩ :=
        dictExpand_spec d DICT_HT_INITIAL_SIZE hinv (by norm_num [DICT_HT_INITIAL_SIZE])
      refine ⟨d1, r, e1, e2, e3, e4, e5, e6, e7, e8, ?_⟩
      intro _
      have hok : r = DICT_OK := by
        rcases e8 with h | h
        · exact h
        · rcases e9 h with h1 | h1 | h1
          · exact absurd hr h1
          · have htn : d.ht0.table = none := by
              by_contra hc
              have := (ht_size_of_alloc hinv.ok0 hc).1
              omega
            have hu := hinv.ok0.used_eq
            rw [htEntries_of_null htn] at hu
            simp only [List.length_nil] at hu
            rw [hu] at h1
            simp [DICT_HT_INITIAL_SIZE] at h1
          · obtain ⟨k, hk2, _, hk, _, _⟩ := dictNextPower_spec DICT_HT_INITIAL_SIZE
            rw [hk, hs] at h1
            have : (2 : Nat) ^ k = 0 := Option.some.inj h1
            have : 0 < (2 : Nat) ^ k := by positivity
            omega
      refine ⟨hok, ?_⟩
      obtain ⟨_, _, k, _, _, _, _, hcase⟩ := e10 hok
      apply ht_alloc_of_size_ne e2.ok0
      rcases hcase with ⟨_, _, _, h4, _⟩ | ⟨h1, _⟩
      · rw [h4]
        positivity
      · have := (ht_size_of_alloc hinv.ok0 h1).1
        omega
    · rw [if_neg hs]
      have halloc : d.ht0.table ≠ none := ht_alloc_of_size_ne hinv.ok0 hs
      by_cases hc : d.ht0.used ≥ d.ht0.size ∧
          (cr = true ∨ d.ht0.used / d.ht0.size > dict_force_resize_ratio)
      · rw [if_pos hc]
        obtain ⟨d1, r, e1, e2, e3, e4, e5, e6, e7, e8, e9, e10⟩ :=
          dictExpand_spec d (d.ht0.used * 2 % 18446744073709551616) hinv (by omega)
        refine ⟨d1, r, e1, e2, e3, e4, e5, e6, e7, e8, ?_⟩
        intro hb
        have hmul : d.ht0.used * 2 % 18446744073709551616 = d.ht0.used * 2 := by omega
        have hsz4 := (ht_size_of_alloc hinv.ok0 halloc).1
        have hok : r = DICT_OK := by
          rcases e8 with h | h
          · exact h
          · rcases e9 h with h1 | h1 | h1
            · exact absurd hr h1
            · omega
            · obtain ⟨k, _, _, hk, hle, _⟩ := dictNextPower_spec (d.ht0.used * 2)
              rw [hmul, hk] at h1
              have h2 : 2 ^ k = d.ht0.size := Option.some.inj h1
              have := hle (by omega)
              omega
        refine ⟨hok, ?_⟩
        obtain ⟨_, _, k, _, _, _, _, hcase⟩ := e10 hok
        rcases hcase with ⟨h1, _⟩ | ⟨_, _, h3, _⟩
        · exact absurd h1 halloc
        · rw [h3]
          exact halloc
      · rw [if_neg hc]
        exact ⟨d, DICT_OK, rfl, hinv, rfl, rfl, rfl, rfl, fun _ => rfl, Or.inl rfl,
          fun _ => ⟨rfl, halloc⟩⟩
  · have hnr : dictIsRehashing d = true := (dictIsRehashing_iff d).mpr hr
    rw [hnr]
    simp only [if_true]
    exact ⟨d, DICT_OK, rfl, hinv, rfl, rfl, rfl, rfl, fun _ => rfl, Or.inl rfl,
      fun _ => ⟨rfl, hinv.alloc0 hr⟩⟩

theorem setHt_type (d : dict) (t : Nat) (h : dictht) : (setHt d t h).type = d.type := by
  unfold setHt; split <;> rfl

theorem setHt_rehashidx (d : dict) (t : Nat) (h : dictht) :
    (setHt d t h).rehashidx = d.rehashidx := by
  unfold setHt; split <;> rfl

theorem setHt_iterators (d : dict) (t : Nat) (h : dictht) :
    (setHt d t h).iterators = d.iterators := by
  unfold setHt; split <;> rfl

theorem setHt_trace (d : dict) (t : Nat) (h : dictht) : (setHt d t h).trace = d.trace := by
  unfold setHt; split <;> rfl

theorem getHt_setHt_same (d : dict) {t : Nat} (ht : t = 0 ∨ t = 1) (h : dictht) :
    getHt (setHt d t h) t = h := by
  rcases ht with rfl | rfl <;> rfl

theorem getHt_setHt_other (d : dict) {t : Nat} (ht : t = 0 ∨ t = 1) (h : dictht) :
    getHt (setHt d t h) (1 - t) = getHt d (1 - t) := by
  rcases ht with rfl | rfl <;> rfl

theorem toLong_of_lt {x : Nat} (h : x < 9223372036854775808) : toLong x = (x : Int) := by
  unfold toLong
  have : x % 18446744073709551616 = x := by omega
  rw [this, if_pos h]

theorem no_match_of_bucket {T : dictType} (hT : LawfulType T) {ht : dictht}
    {bs : List (List dictEntry)} (hok : htOK T ht) (htab : ht.table = some bs) {key : Nat}
    {chain : List dictEntry} (hb : bs[hashIdx T ht key]? = some chain)
    (hnone : ∀ e ∈ chain, keyEq T key e.key = false) :
    ∀ e ∈ htEntries ht, keyEq T key e.key = false := by
  intro e he
  rw [htEntries_of_table htab, List.mem_flatten] at he
  obtain ⟨l, hl, hel⟩ := he
  obtain ⟨j, hj, hjl⟩ := List.getElem_of_mem hl
  have hgetj : bs[j]? = some l := by rw [List.getElem?_eq_getElem hj, hjl]
  cases hm : keyEq T key e.key with
  | false => rfl
  | true =>
    have hidx := bucket_of_match hT hok htab hgetj hel hm
    have : l = chain := by
      rw [← hidx, hgetj] at hb
      exact Option.some.inj hb
    rw [this] at hel
    rw [hnone e hel] at hm
    cases hm

theorem getHt_cases (d : dict) {t : Nat} (ht : t = 0 ∨ t = 1) :
    (t = 0 ∧ getHt d t = d.ht0) ∨ (t = 1 ∧ getHt d t = d.ht1) := by
  rcases ht with rfl | rfl
  · exact Or.inl ⟨rfl, rfl⟩
  · exact Or.inr ⟨rfl, rfl⟩

/-- The function `_dictKeyIndex` on a well-formed dictionary that has room to grow: either it
finds the entry of the key, or it returns the bucket of the key in the table that receives new
entries. -/
theorem dictKeyIndex_spec (cr : Bool) (d : dict) (key : Nat) (hT : LawfulType d.type)
    (hinv : Inv d) (hb : d.ht0.used ≤ 576460752303423488) :
    ∃ d1 idx ex, _dictKeyIndex cr d key (dictHashKey d key) = some (d1, idx, ex) ∧ Inv d1 ∧
      d1.type = d.type ∧ d1.iterators = d.iterators ∧ d1.trace = d.trace ∧
      dictEntries d1 = dictEntries d ∧ _dictExpandIfNeeded cr d = some (d1, DICT_OK) ∧
      ((∃ r he, idx = -1 ∧ ex = some r ∧ validRef d1 r he ∧
          keyEq d.type key he.key = true) ∨
        (ex = none ∧ (∀ e ∈ dictEntries d, keyEq d.type key e.key = false) ∧
          ∃ t bs chain, (t = 0 ∨ t = 1) ∧ (t = if dictIsRehashing d1 then 1 else 0) ∧
            (getHt d1 t).table = some bs ∧
            bs[hashIdx d.type (getHt d1 t) key]? = some chain ∧
            idx = ((hashIdx d.type (getHt d1 t) key : Nat) : Int))) := by
  unfold _dictKeyIndex
  obtain ⟨d1, r, e1, e2, e3, e4, e5, e6, _, _, e9⟩ := dictExpandIfNeeded_spec cr d hinv hb
  obtain ⟨hok, halloc⟩ := e9 hb
  subst hok
  rw [e1]
  have hne : ¬ (DICT_OK = DICT_ERR) := by simp [DICT_OK, DICT_ERR]
  simp only [hne, if_false]
  obtain ⟨bs0, htab0⟩ := Option.ne_none_iff_exists'.mp halloc
  have hT1 : LawfulType d1.type := by rw [e3]; exact hT
  have hhash : dictHashKey d key = d1.type.hashFunction key % 18446744073709551616 := by
    rw [dictHashKey, e3]
  obtain ⟨chain0, hget0, hb0⟩ := htOK_bucketGet e2.ok0 htab0 (dictHashKey d key)
  rw [hget0]
  simp only []
  have hb0' : bs0[hashIdx d1.type d1.ht0 key]? = some chain0 := by
    rw [hashIdx, ← hhash]; exact hb0
  rcases chainFind_total d1 key chain0 with ⟨hc, hnone⟩ | ⟨pos, he, hc, hpos, hm⟩
  · simp only [hc]
    have hno0 := no_match_of_bucket hT1 e2.ok0 htab0 hb0' hnone
    have hlt0 := htOK_mask_lt e2.ok0 htab0 (dictHashKey d key)
    have hsz0 := (ht_size_of_alloc e2.ok0 halloc).2
    have hlen0 := e2.ok0.length_eq bs0 htab0
    by_cases hr1 : d1.rehashidx = -1
    · have hnr : dictIsRehashing d1 = false := by simp [dictIsRehashing, hr1]
      simp only [hnr, Bool.not_false, if_true]
      refine ⟨d1, _, none, rfl, e2, e3, e4, e5, e6, rfl, Or.inr ⟨rfl, ?_,
        0, bs0, chain0, Or.inl rfl, by rw [hnr]; rfl, htab0, by rw [← e3]; exact hb0', ?_⟩⟩
      · intro e he
        rw [← e6, dictEntries, ht1_entries_of_stable e2 hr1, List.append_nil] at he
        rw [← e3]
        exact hno0 e he
      · rw [toLong_of_lt (by omega)]
        rw [hashIdx, ← e3, ← hhash]
        rfl
    · have hnr : dictIsRehashing d1 = true := (dictIsRehashing_iff d1).mpr hr1
      simp only [hnr, Bool.not_true, Bool.false_eq_true, if_false]
      obtain ⟨bs1, htab1⟩ := Option.ne_none_iff_exists'.mp (e2.alloc1 hr1)
      obtain ⟨chain1, hget1, hb1⟩ := htOK_bucketGet e2.ok1 htab1 (dictHashKey d key)
      rw [hget1]
      simp only []
      have hb1' : bs1[hashIdx d1.type d1.ht1 key]? = some chain1 := by
        rw [hashIdx, ← hhash]; exact hb1
      have hlt1 := htOK_mask_lt e2.ok1 htab1 (dictHashKey d key)
      have hsz1 := (ht_size_of_alloc e2.ok1 (e2.alloc1 hr1)).2
      have hlen1 := e2.ok1.length_eq bs1 htab1
      rcases chainFind_total d1 key chain1 with ⟨hc1, hnone1⟩ | ⟨pos, he, hc1, hpos, hm⟩
      · simp only [hc1]
        have hno1 := no_match_of_bucket hT1 e2.ok1 htab1 hb1' hnone1
        refine ⟨d1, _, none, rfl, e2, e3, e4, e5, e6, rfl, Or.inr ⟨rfl, ?_,
          1, bs1, chain1, Or.inr rfl, by rw [hnr]; rfl, htab1, by rw [← e3]; exact hb1', ?_⟩⟩
        · intro e he
          rw [← e6, dictEntries] at he
          rw [← e3]
          rcases List.mem_append.mp he with h | h
          · exact hno0 e h
          · exact hno1 e h
        · rw [toLong_of_lt (by omega)]
          rw [hashIdx, ← e3, ← hhash]
          rfl
      · simp only [hc1]
        refine ⟨d1, -1, _, rfl, e2, e3, e4, e5, e6, rfl, Or.inl ⟨_, he, rfl, rfl, ?_,
          by rw [← e3]; exact hm⟩⟩
        exact ⟨Or.inr rfl, bs1, chain1, htab1, hb1, hpos⟩
  · simp only [hc]
    refine ⟨d1, -1, _, rfl, e2, e3, e4, e5, e6, rfl, Or.inl ⟨_, he, rfl, rfl, ?_,
      by rw [← e3]; exact hm⟩⟩
    exact ⟨Or.inl rfl, bs0, chain0, htab0, hb0, hpos⟩

theorem keyEq_refl (T : dictType) (k : Nat) : keyEq T k k = true := by
  simp [keyEq]

theorem hashIdx_dictSetKey {d : dict} (hT : LawfulType d.type) (ht : dictht) (key : Nat) :
    hashIdx d.type ht (dictSetKey d key) = hashIdx d.type ht key := by
  unfold dictSetKey
  cases hd : d.type.keyDup with
  | none => rfl
  | some f =>
    simp only []
    rw [hashIdx, hashIdx, hT.hash_eq _ _ (hT.keyDup_eq f hd key)]

theorem keyEq_dictSetKey {d : dict} (hT : LawfulType d.type) (key : Nat) :
    keyEq d.type key (dictSetKey d key) = true := by
  unfold dictSetKey
  cases hd : d.type.keyDup with
  | none => exact keyEq_refl _ _
  | some f => exact hT.keyDup_eq f hd key

/-- The function `dictAddRaw` on a well-formed dictionary with room for one more entry. -/
theorem dictAddRaw_spec (cr : Bool) (d : dict) (key : Nat) (hT : LawfulType d.type)
    (hinv : Inv d) (hb : (dictEntries d).length < 576460752303423488) :
    ∃ d3 e ex, dictAddRaw cr d key = some (d3, e, ex) ∧ Inv d3 ∧ d3.type = d.type ∧
      d3.iterators = d.iterators ∧ d3.trace = d.trace ∧
      ∃ d1 d2, rehashStepIfRehashing d = some d1 ∧
        _dictExpandIfNeeded cr d1 = some (d2, DICT_OK) ∧ d3.rehashidx = d2.rehashidx ∧
        d3.ht0.size = d2.ht0.size ∧ d3.ht1.size = d2.ht1.size ∧
        ((e = none ∧ d3 = d2 ∧ ∃ r he, ex = some r ∧ validRef d3 r he ∧
            keyEq d.type key he.key = true ∧ (dictEntries d3).Perm (dictEntries d)) ∨
          (∃ r, e = some r ∧ ex = none ∧
            (∀ x ∈ dictEntries d, keyEq d.type key x.key = false) ∧
            validRef d3 r ⟨dictSetKey d key, 0⟩ ∧ r.pos = 0 ∧
            r.table = (if dictIsRehashing d2 then 1 else 0) ∧
            r.idx = hashIdx d.type (getHt d2 r.table) key ∧
            (dictEntries d3).Perm (⟨dictSetKey d key, 0⟩ :: dictEntries d))) := by
  unfold dictAddRaw
  obtain ⟨d1, s1, s2, s3, s4, s5, s6, _, _, _⟩ := rehashStep_spec d hT hinv
  rw [s1]
  simp only []
  have hT1 : LawfulType d1.type := by rw [s3]; exact hT
  have hb1 : d1.ht0.used ≤ 576460752303423488 := by
    have h0 := s2.ok0.used_eq
    have hl := s6.length_eq
    rw [dictEntries, List.length_append] at hl
    omega
  obtain ⟨d2, idx, ex, k1, k2, k3, k4, k5, k6, k7, k8⟩ := dictKeyIndex_spec cr d1 key hT1 s2 hb1
  rw [k1]
  simp only []
  have hT2 : LawfulType d2.type := by rw [k3]; exact hT1
  have hperm2 : (dictEntries d2).Perm (dictEntries d) := by rw [k6]; exact s6
  rcases k8 with ⟨r, he, h1, h2, h3, h4⟩ | ⟨h1, h2, t, bs, chain, ht, htr, htab, hbk, hidx⟩
  · subst h1 h2
    simp only [if_true]
    refine ⟨d2, none, some r, rfl, k2, k3.trans s3, k4.trans s4, k5.trans s5, d1, d2, rfl, k7,
      rfl, rfl, rfl, Or.inl ⟨rfl, rfl, r, he, rfl, h3, by rw [← s3]; exact h4, hperm2⟩⟩
  · subst h1
    have hne1 : ¬ (idx = -1) := by omega
    have hnn : ¬ (idx < 0) := by omega
    rw [if_neg hne1, if_neg hnn]
    have hidxn : idx.toNat = hashIdx d1.type (getHt d2 t) key := by omega
    rw [← htr, hidxn]
    have hilt := lt_of_getElem?_eq_some hbk
    rw [bucketGet_eq htab, hbk]
    simp only []
    rw [bucketSet_eq htab hilt]
    simp only []
    obtain ⟨entry, hentry⟩ : ∃ entry : dictEntry, entry = ⟨dictSetKey d2 key, 0⟩ := ⟨_, rfl⟩
    rw [← hentry]
    have hkey : entry.key = dictSetKey d2 key := by rw [hentry]
    have hsk : dictSetKey d2 key = dictSetKey d key := by
      unfold dictSetKey
      rw [k3, s3]
    obtain ⟨nht, hnht⟩ : ∃ nht : dictht, nht =
        { table := some (bs.set (hashIdx d1.type (getHt d2 t) key) (entry :: chain)),
          size := (getHt d2 t).size, sizemask := (getHt d2 t).sizemask,
          used := ((getHt d2 t).used + 1) % 18446744073709551616 } := ⟨_, rfl⟩
    rw [← hnht]
    have n1 : nht.table =
        some (bs.set (hashIdx d1.type (getHt d2 t) key) (entry :: chain)) := by rw [hnht]
    have n2 : nht.size = (getHt d2 t).size := by rw [hnht]
    have n3 : nht.sizemask = (getHt d2 t).sizemask := by rw [hnht]
    have n4 : nht.used = ((getHt d2 t).used + 1) % 18446744073709551616 := by rw [hnht]
    obtain ⟨d3, hd3⟩ : ∃ d3 : dict, d3 = setHt d2 t nht := ⟨_, rfl⟩
    rw [← hd3]
    have g1 : d3.type = d2.type := by rw [hd3]; exact setHt_type _ _ _
    have g2 : d3.rehashidx = d2.rehashidx := by rw [hd3]; exact setHt_rehashidx _ _ _
    have g3 : d3.iterators = d2.iterators := by rw [hd3]; exact setHt_iterators _ _ _
    have g4 : d3.trace = d2.trace := by rw [hd3]; exact setHt_trace _ _ _
    have g5 : getHt d3 t = nht := by rw [hd3]; exact getHt_setHt_same d2 ht _
    have g6 : getHt d3 (1 - t) = getHt d2 (1 - t) := by
      rw [hd3]; exact getHt_setHt_other d2 ht _
    have hokt : htOK d2.type (getHt d2 t) := by
      rcases ht with rfl | rfl
      · exact k2.ok0
      · exact k2.ok1
    have hut := hokt.used_eq
    have htot := k2.total
    have hl2 := hperm2.length_eq
    have hsub : (htEntries (getHt d2 t)).length ≤ (dictEntries d2).length := by
      rw [dictEntries, List.length_append]
      rcases ht with rfl | rfl
      · show (htEntries d2.ht0).length ≤ _
        omega
      · show (htEntries d2.ht1).length ≤ _
        omega
    have hno2 : ∀ x ∈ dictEntries d2, keyEq d2.type key x.key = false := by
      intro x hx
      rw [k3]
      rw [k6] at hx
      exact h2 x hx
    have hbk2 : bs[hashIdx d2.type (getHt d2 t) key]? = some chain := by rw [k3]; exact hbk
    obtain ⟨hinv3, R, hR1, hR2⟩ := @Inv_bucket_update d2 d3 t bs
      (hashIdx d2.type (getHt d2 t) key) chain (entry :: chain) hT2 k2 ht htab hbk2
      (by
        intro e he
        rcases List.mem_cons.mp he with h | he
        · show hashIdx d2.type (getHt d2 t) e.key = hashIdx d2.type (getHt d2 t) key
          rw [h, hkey, hashIdx_dictSetKey hT2]
        · exact hokt.placed bs _ chain e htab hbk2 he)
      (by
        intro R hR
        simp only [List.cons_append, List.pairwise_cons]
        refine ⟨?_, (List.Perm.pairwise_iff (fun h => keysDiffer_symm hT2 h) hR).mp k2.nodup⟩
        intro x hx
        have hx2 : x ∈ dictEntries d2 := hR.symm.subset hx
        unfold keysDiffer
        rw [hkey]
        cases hm : keyEq d2.type (dictSetKey d2 key) x.key with
        | false => rfl
        | true =>
          have := hT2.trans _ _ _ (keyEq_dictSetKey hT2 key) hm
          rw [hno2 x hx2] at this
          cases this)
      (by
        simp only [List.length_cons]
        omega)
      (by
        intro ht0 hlt
        subst ht0
        have hnr : dictIsRehashing d2 = false := by
          cases hc : dictIsRehashing d2 with
          | false => rfl
          | true =>
            rw [hc] at htr
            simp at htr
        have hr2 : d2.rehashidx = -1 := by
          by_contra hc
          rw [(dictIsRehashing_iff d2).mpr hc] at hnr
          cases hnr
        rw [hr2] at hlt
        omega)
      g1 g2 g6 (by rw [g5, n1, k3]) (by rw [g5, n2]) (by rw [g5, n3])
      (by
        rw [g5, n4]
        simp only [List.length_cons]
        have : (getHt d2 t).used + 1 < 18446744073709551616 := by omega
        omega)
    have hsizes : d3.ht0.size = d2.ht0.size ∧ d3.ht1.size = d2.ht1.size := by
      rcases ht with rfl | rfl
      · have a : d3.ht0 = nht := g5
        have b : d3.ht1 = d2.ht1 := g6
        rw [a, b, n2]
        exact ⟨rfl, rfl⟩
      · have a : d3.ht1 = nht := g5
        have b : d3.ht0 = d2.ht0 := g6
        rw [a, b, n2]
        exact ⟨rfl, rfl⟩
    have hentry2 : entry = ⟨dictSetKey d key, 0⟩ := by rw [hentry, hsk]
    refine ⟨d3, _, none, rfl, hinv3, g1.trans (k3.trans s3), g3.trans (k4.trans s4),
      g4.trans (k5.trans s5), d1, d2, rfl, k7, g2, hsizes.1, hsizes.2, Or.inr ⟨_, rfl, rfl, ?_,
      ?_, rfl, htr, ?_, ?_⟩⟩
    · intro x hx
      rw [← s3]
      exact h2 x (s6.symm.subset hx)
    · refine ⟨ht, bs.set (hashIdx d1.type (getHt d2 t) key) (entry :: chain), entry :: chain,
        by rw [g5]; exact n1, ?_, ?_⟩
      · show (bs.set _ _)[hashIdx d1.type (getHt d2 t) key]? = some (entry :: chain)
        rw [List.getElem?_set, if_pos rfl, if_pos hilt]
      · rw [← hentry2]
        simp
    · show hashIdx d1.type (getHt d2 t) key = hashIdx d.type (getHt d2 t) key
      rw [s3]
    · rw [← hentry2]
      refine hR2.trans ?_
      simp only [List.cons_append]
      refine List.Perm.cons _ ?_
      exact hR1.symm.trans hperm2

theorem map_set_same {α β : Type} (f : α → β) :
    ∀ (l : List α) (pos : Nat) (a b : α), l[pos]? = some a → f b = f a →
      (l.set pos b).map f = l.map f := by
  intro l
  induction l with
  | nil => intro pos a b h; simp at h
  | cons x xs ih =>
    intro pos a b h hf
    cases pos with
    | zero =>
      simp only [List.getElem?_cons_zero, Option.some.injEq] at h
      subst h
      simp [hf]
    | succ p =>
      simp only [List.getElem?_cons_succ] at h
      simp only [List.set_cons_succ, List.map_cons, ih p a b h hf]

theorem pairwise_keysDiffer_iff (T : dictType) (l : List dictEntry) :
    l.Pairwise (keysDiffer T) ↔
      (l.map dictEntry.key).Pairwise (fun a b => keyEq T a b = false) := by
  rw [List.pairwise_map]
  rfl

/-- The macro `dictSetVal` on a pointer to a stored entry. -/
theorem dictSetVal_spec (d : dict) (r : EntryRef) (he : dictEntry) (val : Nat)
    (hT : LawfulType d.type) (hinv : Inv d) (hv : validRef d r he) :
    ∃ d1, dictSetVal d r val = some d1 ∧ Inv d1 ∧ d1.type = d.type ∧
      d1.iterators = d.iterators ∧ d1.rehashidx = d.rehashidx ∧
      d1.ht0.size = d.ht0.size ∧ d1.ht1.size = d.ht1.size ∧
      d1.ht0.used = d.ht0.used ∧ d1.ht1.used = d.ht1.used ∧
      d1.trace = d.trace ++ [Event.valSet he.key (storedVal d.type val)] ∧
      ∃ R, (dictEntries d).Perm (he :: R) ∧
        (dictEntries d1).Perm ({ he with val := storedVal d.type val } :: R) := by
  obtain ⟨ht, bs, chain, htab, hbk, hpos⟩ := hv
  unfold dictSetVal
  have hilt := lt_of_getElem?_eq_some hbk
  rw [bucketGet_eq htab, hbk]
  simp only [hpos]
  rw [bucketSet_eq htab hilt]
  simp only []
  obtain ⟨v, hv⟩ : ∃ v : Nat, v = storedVal d.type val := ⟨_, rfl⟩
  have hv2 : (match d.type.valDup with
      | some f => f val
      | none => val) = v := by rw [hv]; rfl
  rw [hv2]
  clear hv2
  obtain ⟨he1, hhe1⟩ : ∃ he1 : dictEntry, he1 = { he with val := v } := ⟨_, rfl⟩
  rw [← hhe1]
  have hk1 : he1.key = he.key := by rw [hhe1]
  obtain ⟨nht, hnht⟩ : ∃ nht : dictht, nht =
      { getHt d r.table with table := some (bs.set r.idx (chain.set r.pos he1)) } := ⟨_, rfl⟩
  rw [← hnht]
  have n1 : nht.table = some (bs.set r.idx (chain.set r.pos he1)) := by rw [hnht]
  have n2 : nht.size = (getHt d r.table).size := by rw [hnht]
  have n3 : nht.sizemask = (getHt d r.table).sizemask := by rw [hnht]
  have n4 : nht.used = (getHt d r.table).used := by rw [hnht]
  obtain ⟨d1, hd1⟩ : ∃ d1 : dict, d1 =
      { setHt d r.table nht with
        trace := (setHt d r.table nht).trace ++ [Event.valSet he.key v] } := ⟨_, rfl⟩
  rw [← hd1]
  have g1 : d1.type = d.type := by rw [hd1]; exact setHt_type _ _ _
  have g2 : d1.rehashidx = d.rehashidx := by rw [hd1]; exact setHt_rehashidx _ _ _
  have g3 : d1.iterators = d.iterators := by rw [hd1]; exact setHt_iterators _ _ _
  have g4 : d1.trace = d.trace ++ [Event.valSet he.key v] := by
    rw [hd1]
    show (setHt d r.table nht).trace ++ _ = _
    rw [setHt_trace]
  have g5 : getHt d1 r.table = nht := by
    rw [hd1]
    exact getHt_setHt_same d ht _
  have g6 : getHt d1 (1 - r.table) = getHt d (1 - r.table) := by
    rw [hd1]
    exact getHt_setHt_other d ht _
  have hokt : htOK d.type (getHt d r.table) := by
    rcases ht with h | h
    · rw [h]; exact hinv.ok0
    · rw [h]; exact hinv.ok1
  have hmem : he ∈ chain := mem_of_getElem?_eq_some hpos
  obtain ⟨hinv1, R, hR1, hR2⟩ := @Inv_bucket_update d d1 r.table bs r.idx chain
    (chain.set r.pos he1) hT hinv ht htab hbk
    (by
      intro e hemem
      rcases List.mem_or_eq_of_mem_set hemem with h | h
      · exact hokt.placed bs _ chain e htab hbk h
      · rw [h, hk1]
        exact hokt.placed bs _ chain he htab hbk hmem)
    (by
      intro R hR
      have h1 := (List.Perm.pairwise_iff (fun h => keysDiffer_symm hT h) hR).mp hinv.nodup
      have h2 := (pairwise_keysDiffer_iff _ _).mp h1
      apply (pairwise_keysDiffer_iff _ _).mpr
      simp only [List.map_append] at h2 ⊢
      rw [map_set_same dictEntry.key chain r.pos he he1 hpos hk1]
      exact h2)
    (by
      rw [List.length_set]
      have := hinv.total
      omega)
    (by
      intro ht0 hlt
      rw [ht0] at htab
      have := hinv.migrated bs r.idx chain htab hbk hlt
      rw [this] at hmem
      cases hmem)
    g1 g2 g6 (by rw [g5, n1]) (by rw [g5, n2]) (by rw [g5, n3])
    (by rw [g5, n4, List.length_set])
  have hfields : d1.ht0.size = d.ht0.size ∧ d1.ht1.size = d.ht1.size ∧
      d1.ht0.used = d.ht0.used ∧ d1.ht1.used = d.ht1.used := by
    rcases ht with h | h
    · rw [h] at g5 g6 n2 n4
      have a : d1.ht0 = nht := g5
      have b : d1.ht1 = d.ht1 := g6
      rw [a, b]
      exact ⟨n2, rfl, n4, rfl⟩
    · rw [h] at g5 g6 n2 n4
      have a : d1.ht1 = nht := g5
      have b : d1.ht0 = d.ht0 := g6
      rw [a, b]
      exact ⟨rfl, n2, rfl, n4⟩
  subst hhe1
  subst hv
  refine ⟨d1, rfl, hinv1, g1, g3, g2, hfields.1, hfields.2.1, hfields.2.2.1, hfields.2.2.2,
    g4, chain.eraseIdx r.pos ++ R, ?_, ?_⟩
  · refine hR1.trans ?_
    exact List.Perm.append_right R (perm_cons_eraseIdx chain r.pos he hpos)
  · refine hR2.trans ?_
    exact List.Perm.append_right R (perm_set_eraseIdx chain r.pos he _ hpos)

theorem validRef_mem {d : dict} {r : EntryRef} {he : dictEntry} (hv : validRef d r he) :
    he ∈ dictEntries d := by
  obtain ⟨ht, bs, chain, htab, hbk, hpos⟩ := hv
  have hm := mem_htEntries_of_bucket htab hbk (mem_of_getElem?_eq_some hpos)
  rcases ht with h | h
  · rw [h] at hm
    exact List.mem_append_left _ hm
  · rw [h] at hm
    exact List.mem_append_right _ hm

theorem validRef_entryGet {d : dict} {r : EntryRef} {he : dictEntry} (hv : validRef d r he) :
    entryGet d r = some he := by
  obtain ⟨_, bs, chain, htab, hbk, hpos⟩ := hv
  unfold entryGet
  rw [bucketGet_eq htab, hbk]
  exact hpos

/-- The function `dictAdd` on a well-formed dictionary with room for one more entry. -/
theorem dictAdd_spec (cr : Bool) (d : dict) (key val : Nat) (hT : LawfulType d.type)
    (hinv : Inv d) (hb : (dictEntries d).length < 576460752303423488) :
    ∃ d2 r, dictAdd cr d key val = some (d2, r) ∧ Inv d2 ∧ d2.type = d.type ∧
      d2.iterators = d.iterators ∧
      (∃ d0 d1, rehashStepIfRehashing d = some d0 ∧
        _dictExpandIfNeeded cr d0 = some (d1, DICT_OK) ∧ d2.rehashidx = d1.rehashidx ∧
        d2.ht0.size = d1.ht0.size ∧ d2.ht1.size = d1.ht1.size) ∧
      ((r = DICT_ERR ∧ (∃ x ∈ dictEntries d, keyEq d.type key x.key = true) ∧
          (dictEntries d2).Perm (dictEntries d) ∧ d2.trace = d.trace) ∨
        (r = DICT_OK ∧ (∀ x ∈ dictEntries d, keyEq d.type key x.key = false) ∧
          (dictEntries d2).Perm (⟨dictSetKey d key, storedVal d.type val⟩ :: dictEntries d) ∧
          d2.trace = d.trace ++
            [Event.valSet (dictSetKey d key) (storedVal d.type val)])) := by
  unfold dictAdd
  obtain ⟨d3, e, ex, a1, a2, a3, a4, a5, d0, d1, a6, a7, a8, a9, a10, a11⟩ :=
    dictAddRaw_spec cr d key hT hinv hb
  rw [a1]
  rcases a11 with ⟨h1, _, r, he, _, h3, h4, h5⟩ | ⟨r, h1, _, h3, h4, _, _, _, h7⟩
  · subst h1
    simp only []
    refine ⟨d3, DICT_ERR, rfl, a2, a3, a4, ⟨d0, d1, a6, a7, a8, a9, a10⟩,
      Or.inl ⟨rfl, ⟨he, h5.subset (validRef_mem h3), h4⟩, h5, a5⟩⟩
  · subst h1
    simp only []
    have hT3 : LawfulType d3.type := by rw [a3]; exact hT
    obtain ⟨d4, b1, b2, b3, b4, b5, b6, b7, _, _, b8, R, b9, b10⟩ :=
      dictSetVal_spec d3 r _ val hT3 a2 h4
    rw [b1]
    simp only []
    have hR : R.Perm (dictEntries d) := (List.Perm.cons_inv (b9.symm.trans h7))
    refine ⟨d4, DICT_OK, rfl, b2, b3.trans a3, b4.trans a4,
      ⟨d0, d1, a6, a7, b5.trans a8, b6.trans a9, b7.trans a10⟩, Or.inr ⟨rfl, h3, ?_, ?_⟩⟩
    · rw [a3] at b10
      exact b10.trans (List.Perm.cons _ hR)
    · rw [b8, a5, a3]

/-- The function `dictReplace` on a well-formed dictionary with room for one more entry. -/
theorem dictReplace_spec (cr : Bool) (d : dict) (key val : Nat) (hT : LawfulType d.type)
    (hinv : Inv d) (hb : (dictEntries d).length < 576460752303423488) :
    ∃ d2 r, dictReplace cr d key val = some (d2, r) ∧ Inv d2 ∧ d2.type = d.type ∧
      d2.iterators = d.iterators ∧
      (∃ d0 d1, rehashStepIfRehashing d = some d0 ∧
        _dictExpandIfNeeded cr d0 = some (d1, DICT_OK) ∧ d2.rehashidx = d1.rehashidx ∧
        d2.ht0.size = d1.ht0.size ∧ d2.ht1.size = d1.ht1.size) ∧
      ((r = 1 ∧ (∀ x ∈ dictEntries d, keyEq d.type key x.key = false) ∧
          (dictEntries d2).Perm (⟨dictSetKey d key, storedVal d.type val⟩ :: dictEntries d) ∧
          d2.trace = d.trace ++
            [Event.valSet (dictSetKey d key) (storedVal d.type val)]) ∨
        (r = 0 ∧ ∃ he R, keyEq d.type key he.key = true ∧ (dictEntries d).Perm (he :: R) ∧
          (dictEntries d2).Perm ({ he with val := storedVal d.type val } :: R) ∧
          d2.trace = d.trace ++ [Event.valSet he.key (storedVal d.type val)] ++
            (if d.type.valDestructor then [Event.valDestructor he.val] else []))) := by
  unfold dictReplace
  obtain ⟨d3, e, ex, a1, a2, a3, a4, a5, d0, d1, a6, a7, a8, a9, a10, a11⟩ :=
    dictAddRaw_spec cr d key hT hinv hb
  rw [a1]
  have hT3 : LawfulType d3.type := by rw [a3]; exact hT
  rcases a11 with ⟨h1, _, r, he, h2, h3, h4, h5⟩ | ⟨r, h1, _, h3, h4, _, _, _, h7⟩
  · subst h1 h2
    simp only []
    rw [validRef_entryGet h3]
    simp only []
    obtain ⟨d4, b1, b2, b3, b4, b5, b6, b7, _, _, b8, R, b9, b10⟩ :=
      dictSetVal_spec d3 r he val hT3 a2 h3
    rw [b1]
    simp only []
    obtain ⟨d5, hd5⟩ : ∃ d5 : dict, d5 = dictFreeVal d4 he := ⟨_, rfl⟩
    rw [← hd5]
    have c1 : d5.type = d4.type := by rw [hd5]; unfold dictFreeVal; split <;> rfl
    have c2 : d5.ht0 = d4.ht0 := by rw [hd5]; unfold dictFreeVal; split <;> rfl
    have c3 : d5.ht1 = d4.ht1 := by rw [hd5]; unfold dictFreeVal; split <;> rfl
    have c4 : d5.rehashidx = d4.rehashidx := by rw [hd5]; unfold dictFreeVal; split <;> rfl
    have c5 : d5.iterators = d4.iterators := by rw [hd5]; unfold dictFreeVal; split <;> rfl
    have c6 : d5.trace = d4.trace ++
        (if d.type.valDestructor then [Event.valDestructor he.val] else []) := by
      rw [hd5]
      unfold dictFreeVal
      rw [b3, a3]
      split <;> simp
    have hE : dictEntries d5 = dictEntries d4 := by rw [dictEntries, dictEntries, c2, c3]
    refine ⟨d5, 0, rfl, Inv_congr b2 c1 c2 c3 c4, c1.trans (b3.trans a3),
      c5.trans (b4.trans a4),
      ⟨d0, d1, a6, a7, c4.trans (b5.trans a8), by rw [c2, b6, a9], by rw [c3, b7, a10]⟩,
      Or.inr ⟨rfl, he, R, h4, h5.symm.trans b9, ?_, ?_⟩⟩
    · rw [hE, ← a3]
      exact b10
    · rw [c6, b8, a5, a3]
  · subst h1
    simp only []
    obtain ⟨d4, b1, b2, b3, b4, b5, b6, b7, _, _, b8, R, b9, b10⟩ :=
      dictSetVal_spec d3 r _ val hT3 a2 h4
    rw [b1]
    simp only []
    have hR : R.Perm (dictEntries d) := (List.Perm.cons_inv (b9.symm.trans h7))
    refine ⟨d4, 1, rfl, b2, b3.trans a3, b4.trans a4,
      ⟨d0, d1, a6, a7, b5.trans a8, b6.trans a9, b7.trans a10⟩, Or.inl ⟨rfl, h3, ?_, ?_⟩⟩
    · rw [a3] at b10
      exact b10.trans (List.Perm.cons _ hR)
    · rw [b8, a5, a3]

/-! ## Deletion -/

theorem freeEntry_fields (d1 : dict) (nofree : Bool) (he : dictEntry) :
    ∃ d2, d2 = (if nofree = true then d1 else dictFreeVal (dictFreeKey d1 he) he) ∧
      d2.type = d1.type ∧ d2.ht0 = d1.ht0 ∧ d2.ht1 = d1.ht1 ∧ d2.rehashidx = d1.rehashidx ∧
      d2.iterators = d1.iterators ∧ d2.trace = d1.trace ++ freeEvents d1.type nofree he := by
  refine ⟨_, rfl, ?_⟩
  cases nofree with
  | true => simp [freeEvents]
  | false =>
    simp only [Bool.false_eq_true, if_false, freeEvents]
    unfold dictFreeVal dictFreeKey
    cases hk : d1.type.keyDestructor <;> cases hv : d1.type.valDestructor <;> simp [hk, hv]

theorem decr64_pos {x : Nat} (h : 0 < x) : decr64 x = x - 1 := by
  unfold decr64
  rw [if_neg (by omega)]

theorem bucket_length_le {T : dictType} {ht : dictht} {bs : List (List dictEntry)}
    (hok : htOK T ht) (htab : ht.table = some bs) {i : Nat} {chain : List dictEntry}
    (hb : bs[i]? = some chain) : chain.length ≤ ht.used := by
  have hi := lt_of_getElem?_eq_some hb
  obtain ⟨rest, hp, _⟩ := flatten_set_perm bs i hi
  have hbi : bs[i] = chain := by
    rw [List.getElem?_eq_getElem hi] at hb
    exact Option.some.inj hb
  rw [hbi] at hp
  have := hp.length_eq
  rw [List.length_append] at this
  rw [hok.used_eq, htEntries_of_table htab]
  omega

theorem genericDeleteTable_spec {d : dict} (hT : LawfulType d.type) (hinv : Inv d) {t : Nat}
    (ht : t = 0 ∨ t = 1) {bs : List (List dictEntry)} (htab : (getHt d t).table = some bs)
    (key : Nat) (nofree : Bool) :
    ∃ d1 r, genericDeleteTable d t key (dictHashKey d key) nofree = some (d1, r) ∧
      ((r = none ∧ d1 = d ∧ ∀ e ∈ htEntries (getHt d t), keyEq d.type key e.key = false) ∨
        (∃ he, r = some he ∧ keyEq d.type key he.key = true ∧ Inv d1 ∧ d1.type = d.type ∧
          d1.iterators = d.iterators ∧ d1.rehashidx = d.rehashidx ∧
          d1.ht0.size = d.ht0.size ∧ d1.ht1.size = d.ht1.size ∧
          (dictEntries d).Perm (he :: dictEntries d1) ∧
          d1.trace = d.trace ++ freeEvents d.type nofree he)) := by
  have hokt : htOK d.type (getHt d t) := by
    rcases ht with h | h
    · rw [h]; exact hinv.ok0
    · rw [h]; exact hinv.ok1
  obtain ⟨chain, hget, hb⟩ := htOK_bucketGet hokt htab (dictHashKey d key)
  have hb' : bs[hashIdx d.type (getHt d t) key]? = some chain := hb
  unfold genericDeleteTable
  simp only []
  rw [hget]
  simp only []
  rcases chainFind_total d key chain with ⟨hc, hnone⟩ | ⟨pos, he, hc, hpos, hm⟩
  · simp only [hc]
    exact ⟨d, none, rfl, Or.inl ⟨rfl, rfl, no_match_of_bucket hT hokt htab hb' hnone⟩⟩
  · simp only [hc]
    have hilt := lt_of_getElem?_eq_some hb
    rw [bucketSet_eq htab hilt]
    simp only []
    obtain ⟨nht, hnht⟩ : ∃ nht : dictht, nht =
        { getHt d t with
          table := some (bs.set (dictHashKey d key &&& (getHt d t).sizemask)
            (chain.eraseIdx pos)) } := ⟨_, rfl⟩
    rw [← hnht]
    have n1 : nht.table = some (bs.set (dictHashKey d key &&& (getHt d t).sizemask)
        (chain.eraseIdx pos)) := by rw [hnht]
    have n2 : nht.size = (getHt d t).size := by rw [hnht]
    have n3 : nht.sizemask = (getHt d t).sizemask := by rw [hnht]
    have n4 : nht.used = (getHt d t).used := by rw [hnht]
    obtain ⟨d2, hd2, f1, f2, f3, f4, f5, f6⟩ := freeEntry_fields (setHt d t nht) nofree he
    rw [← hd2]
    obtain ⟨d3, hd3⟩ : ∃ d3 : dict, d3 =
        setHt d2 t { getHt d2 t with used := decr64 (getHt d2 t).used } := ⟨_, rfl⟩
    rw [← hd3]
    have hg2 : getHt d2 t = nht := by
      rcases ht with h | h
      · subst h
        show d2.ht0 = nht
        rw [f2]
        rfl
      · subst h
        show d2.ht1 = nht
        rw [f3]
        rfl
    have hg2o : getHt d2 (1 - t) = getHt d (1 - t) := by
      rcases ht with h | h
      · subst h
        show d2.ht1 = d.ht1
        rw [f3]
        rfl
      · subst h
        show d2.ht0 = d.ht0
        rw [f2]
        rfl
    have g1 : d3.type = d.type := by
      rw [hd3, setHt_type, f1, setHt_type]
    have g2 : d3.rehashidx = d.rehashidx := by
      rw [hd3, setHt_rehashidx, f4, setHt_rehashidx]
    have g3 : d3.iterators = d.iterators := by
      rw [hd3, setHt_iterators, f5, setHt_iterators]
    have g4 : d3.trace = d.trace ++ freeEvents d.type nofree he := by
      rw [hd3, setHt_trace, f6, setHt_trace, setHt_type]
    have g5 : getHt d3 t = { getHt d2 t with used := decr64 (getHt d2 t).used } := by
      rw [hd3]
      exact getHt_setHt_same d2 ht _
    have g6 : getHt d3 (1 - t) = getHt d (1 - t) := by
      rw [hd3, getHt_setHt_other d2 ht, hg2o]
    have g7 : (getHt d3 t).table = some (bs.set (dictHashKey d key &&& (getHt d t).sizemask)
        (chain.eraseIdx pos)) := by
      rw [g5]
      show (getHt d2 t).table = _
      rw [hg2, n1]
    have g8 : (getHt d3 t).size = (getHt d t).size := by
      rw [g5]
      show (getHt d2 t).size = _
      rw [hg2, n2]
    have g9 : (getHt d3 t).sizemask = (getHt d t).sizemask := by
      rw [g5]
      show (getHt d2 t).sizemask = _
      rw [hg2, n3]
    have g10 : (getHt d3 t).used = decr64 (getHt d t).used := by
      rw [g5]
      show decr64 (getHt d2 t).used = _
      rw [hg2, n4]
    have hmem : he ∈ chain := mem_of_getElem?_eq_some hpos
    have hposlt := lt_of_getElem?_eq_some hpos
    have hcl := bucket_length_le hokt htab hb
    obtain ⟨hinv3, R, hR1, hR2⟩ := @Inv_bucket_update d d3 t bs
      (dictHashKey d key &&& (getHt d t).sizemask) chain (chain.eraseIdx pos) hT hinv ht htab hb
      (by
        intro e hemem
        exact hokt.placed bs _ chain e htab hb (List.mem_of_mem_eraseIdx hemem))
      (by
        intro R hR
        have h1 := (List.Perm.pairwise_iff (fun h => keysDiffer_symm hT h) hR).mp hinv.nodup
        exact h1.sublist (List.Sublist.append_right (List.eraseIdx_sublist chain pos) R))
      (by
        have := List.length_eraseIdx_le chain pos
        have := hinv.total
        omega)
      (by
        intro ht0 hlt
        rw [ht0] at htab
        have := hinv.migrated bs _ chain htab hb hlt
        rw [this] at hmem
        cases hmem)
      g1 g2 g6 g7 g8 g9
      (by
        rw [g10, List.length_eraseIdx_of_lt hposlt, decr64_pos (by omega)]
        omega)
    have hsizes : d3.ht0.size = d.ht0.size ∧ d3.ht1.size = d.ht1.size := by
      rcases ht with h | h
      · subst h
        have a : d3.ht0.size = d.ht0.size := g8
        have b : d3.ht1 = d.ht1 := g6
        rw [a, b]
        exact ⟨rfl, rfl⟩
      · subst h
        have a : d3.ht1.size = d.ht1.size := g8
        have b : d3.ht0 = d.ht0 := g6
        rw [a, b]
        exact ⟨rfl, rfl⟩
    refine ⟨d3, some he, rfl, Or.inr ⟨he, rfl, hm, hinv3, g1, g3, g2, hsizes.1, hsizes.2, ?_,
      g4⟩⟩
    refine hR1.trans ?_
    refine (List.Perm.append_right R (perm_cons_eraseIdx chain pos he hpos)).trans ?_
    simp only [List.cons_append]
    exact List.Perm.cons _ hR2.symm

/-- The function `dictGenericDelete` on a well-formed dictionary. -/
theorem dictGenericDelete_spec (d : dict) (key : Nat) (nofree : Bool) (hT : LawfulType d.type)
    (hinv : Inv d) :
    ∃ d2 r, dictGenericDelete d key nofree = some (d2, r) ∧ Inv d2 ∧ d2.type = d.type ∧
      d2.iterators = d.iterators ∧
      ((r = none ∧ (∀ e ∈ dictEntries d, keyEq d.type key e.key = false) ∧
          (dictEntries d2).Perm (dictEntries d) ∧ d2.trace = d.trace ∧
          (d2 = d ∨ rehashStepIfRehashing d = some d2)) ∨
        (∃ he, r = some he ∧ keyEq d.type key he.key = true ∧ he ∈ dictEntries d ∧
          (dictEntries d).Perm (he :: dictEntries d2) ∧
          d2.trace = d.trace ++ freeEvents d.type nofree he ∧
          ∃ d1, rehashStepIfRehashing d = some d1 ∧ d2.rehashidx = d1.rehashidx ∧
            d2.ht0.size = d1.ht0.size ∧ d2.ht1.size = d1.ht1.size)) := by
  unfold dictGenericDelete
  by_cases hz : d.ht0.used = 0 ∧ d.ht1.used = 0
  · rw [if_pos hz]
    refine ⟨d, none, rfl, hinv, rfl, rfl, Or.inl ⟨rfl, ?_, List.Perm.refl _, rfl, Or.inl rfl⟩⟩
    intro e he
    have h0 := hinv.ok0.used_eq
    have h1 := hinv.ok1.used_eq
    rw [hz.1] at h0
    rw [hz.2] at h1
    rw [dictEntries, List.eq_nil_of_length_eq_zero h0.symm,
      List.eq_nil_of_length_eq_zero h1.symm] at he
    cases he
  · rw [if_neg hz]
    obtain ⟨d1, s1, s2, s3, s4, s5, s6, s7, s8, s9⟩ := rehashStep_spec d hT hinv
    rw [s1]
    simp only []
    have hT1 : LawfulType d1.type := by rw [s3]; exact hT
    have hne : dictEntries d1 ≠ [] := by
      intro h
      have hl := s6.length_eq
      rw [h] at hl
      simp only [List.length_nil] at hl
      have h0 := hinv.ok0.used_eq
      have h1 := hinv.ok1.used_eq
      rw [dictEntries, List.length_append] at hl
      apply hz
      omega
    obtain ⟨bs0, htab0⟩ := Option.ne_none_iff_exists'.mp (ht0_alloc_of_nonempty s2 hne)
    obtain ⟨d2, r, t1, t2⟩ := genericDeleteTable_spec hT1 s2 (t := 0) (Or.inl rfl) htab0 key
      nofree
    rw [t1]
    rcases t2 with ⟨h1, h2, h3⟩ | ⟨he, h1, h2, h3, h4, h5, h6, h7, h8, h9, h10⟩
    · subst h1 h2
      simp only []
      by_cases hr1 : d2.rehashidx = -1
      · have hnr : dictIsRehashing d2 = false := by simp [dictIsRehashing, hr1]
        simp only [hnr, Bool.not_false, if_true]
        refine ⟨d2, none, rfl, s2, s3, s4, Or.inl ⟨rfl, ?_, s6, s5, Or.inr rfl⟩⟩
        intro e he
        have he1 : e ∈ dictEntries d2 := s6.symm.subset he
        rw [dictEntries, ht1_entries_of_stable s2 hr1, List.append_nil] at he1
        rw [← s3]
        exact h3 e he1
      · have hnr : dictIsRehashing d2 = true := (dictIsRehashing_iff d2).mpr hr1
        simp only [hnr, Bool.not_true, Bool.false_eq_true, if_false]
        obtain ⟨bs1, htab1⟩ := Option.ne_none_iff_exists'.mp (s2.alloc1 hr1)
        obtain ⟨d3, r, u1, u2⟩ := genericDeleteTable_spec hT1 s2 (t := 1) (Or.inr rfl) htab1
          key nofree
        rw [u1]
        rcases u2 with ⟨h1, h2, h4⟩ | ⟨he, h1, h2, h4, h5, h6, h7, h8, h9, h10, h11⟩
        · subst h1 h2
          refine ⟨d3, none, rfl, s2, s3, s4, Or.inl ⟨rfl, ?_, s6, s5, Or.inr rfl⟩⟩
          intro e he
          have he1 : e ∈ dictEntries d3 := s6.symm.subset he
          rw [← s3]
          rcases List.mem_append.mp he1 with h | h
          · exact h3 e h
          · exact h4 e h
        · subst h1
          refine ⟨d3, some he, rfl, h4, h5.trans s3, h6.trans s4, Or.inr ⟨he, rfl,
            by rw [← s3]; exact h2, ?_, s6.symm.trans h10, by rw [h11, s5, s3],
            d2, rfl, h7, h8, h9⟩⟩
          exact s6.subset (h10.symm.subset (List.mem_cons_self _ _))
    · subst h1
      simp only []
      refine ⟨d2, some he, rfl, h3, h4.trans s3, h5.trans s4, Or.inr ⟨he, rfl,
        by rw [← s3]; exact h2, ?_, s6.symm.trans h9, by rw [h10, s5, s3], d1, rfl, h6, h7, h8⟩⟩
      exact s6.subset (h9.symm.subset (List.mem_cons_self _ _))

theorem dictDelete_spec (d : dict) (key : Nat) (hT : LawfulType d.type) (hinv : Inv d) :
    ∃ d2 r, dictDelete d key = some (d2, r) ∧ Inv d2 ∧ d2.type = d.type ∧
      d2.iterators = d.iterators ∧
      ((r = DICT_ERR ∧ (∀ e ∈ dictEntries d, keyEq d.type key e.key = false) ∧
          (dictEntries d2).Perm (dictEntries d) ∧ d2.trace = d.trace ∧
          (d2 = d ∨ rehashStepIfRehashing d = some d2)) ∨
        (∃ he, r = DICT_OK ∧ keyEq d.type key he.key = true ∧ he ∈ dictEntries d ∧
          (dictEntries d).Perm (he :: dictEntries d2) ∧
          d2.trace = d.trace ++ freeEvents d.type false he ∧
          ∃ d1, rehashStepIfRehashing d = some d1 ∧ d2.rehashidx = d1.rehashidx ∧
            d2.ht0.size = d1.ht0.size ∧ d2.ht1.size = d1.ht1.size)) := by
  unfold dictDelete
  obtain ⟨d2, r, a1, a2, a3, a4, a5⟩ := dictGenericDelete_spec d key false hT hinv
  rw [a1]
  rcases a5 with ⟨h1, h2⟩ | ⟨he, h1, h2⟩
  · subst h1
    exact ⟨d2, DICT_ERR, rfl, a2, a3, a4, Or.inl ⟨rfl, h2⟩⟩
  · subst h1
    exact ⟨d2, DICT_OK, rfl, a2, a3, a4, Or.inr ⟨he, rfl, h2⟩⟩

/-! ## Expansion: what `dictExpand` and `_dictExpandIfNeeded` return -/

/-- The three outcomes of `dictExpand`, on any dictionary. -/
theorem dictExpand_cases (d : dict) (size : Nat) :
    ∃ k, 2 ≤ k ∧ k ≤ 63 ∧ _dictNextPower size = some (2 ^ k) ∧
      (((dictIsRehashing d = true ∨ d.ht0.used > size ∨ 2 ^ k = d.ht0.size) ∧
          dictExpand d size = some (d, DICT_ERR)) ∨
        (dictIsRehashing d = false ∧ d.ht0.used ≤ size ∧ 2 ^ k ≠ d.ht0.size ∧
          d.ht0.table = none ∧
          dictExpand d size = some ({ d with ht0 := newTable (2 ^ k) }, DICT_OK)) ∨
        (dictIsRehashing d = false ∧ d.ht0.used ≤ size ∧ 2 ^ k ≠ d.ht0.size ∧
          d.ht0.table ≠ none ∧
          dictExpand d size =
            some ({ d with ht1 := newTable (2 ^ k), rehashidx := 0 }, DICT_OK))) := by
  obtain ⟨k, hk2, hk63, hk, _, _⟩ := dictNextPower_spec size
  refine ⟨k, hk2, hk63, hk, ?_⟩
  unfold dictExpand
  by_cases hc : (dictIsRehashing d || decide (d.ht0.used > size)) = true
  · rw [if_pos hc]
    left
    refine ⟨?_, rfl⟩
    rw [Bool.or_eq_true] at hc
    rcases hc with h | h
    · exact Or.inl h
    · exact Or.inr (Or.inl (by simpa using h))
  · rw [if_neg hc]
    rw [Bool.or_eq_true, not_or] at hc
    obtain ⟨hc1, hc2⟩ := hc
    have hnr : dictIsRehashing d = false := by simpa using hc1
    have hus : d.ht0.used ≤ size := by
      simp only [decide_eq_true_eq, not_lt] at hc2
      omega
    rw [hk]
    simp only []
    by_cases hsz : 2 ^ k = d.ht0.size
    · rw [if_pos hsz]
      exact Or.inl ⟨Or.inr (Or.inr hsz), rfl⟩
    · rw [if_neg hsz]
      cases htab : d.ht0.table with
      | none =>
        simp only [Option.isNone_none, if_true]
        exact Or.inr (Or.inl ⟨hnr, hus, hsz, trivial, rfl⟩)
      | some bs =>
        simp only [Option.isNone_some, Bool.false_eq_true, if_false]
        exact Or.inr (Or.inr ⟨hnr, hus, hsz, by simp, rfl⟩)

/-! ## Bucket arrays without cells: the operations on the filled dictionary -/

@[simp] theorem fillHt_size (ht : dictht) : (fillHt ht).size = ht.size := by
  unfold fillHt
  split <;> rfl

@[simp] theorem fillHt_sizemask (ht : dictht) : (fillHt ht).sizemask = ht.sizemask := by
  unfold fillHt
  split <;> rfl

@[simp] theorem fillHt_used (ht : dictht) : (fillHt ht).used = ht.used := by
  unfold fillHt
  split <;> rfl

theorem fillHt_table_none (ht : dictht) : (fillHt ht).table = none ↔ ht.table = none := by
  unfold fillHt
  split
  · rename_i h
    simp [h]
  · rfl

@[simp] theorem fillHt_isNone (ht : dictht) : (fillHt ht).table.isNone = ht.table.isNone := by
  unfold fillHt
  split
  · rename_i h
    simp [h]
  · rfl

theorem fillHt_of_ne {ht : dictht} (h : ht.table ≠ some []) : fillHt ht = ht := by
  unfold fillHt
  rw [if_neg h]

theorem fillHt_of_allocated {ht : dictht} (h : tableAllocated ht = true) : fillHt ht = ht := by
  unfold fillHt
  split
  · rename_i h1
    unfold tableAllocated at h
    rw [h1] at h
    simp at h
    cases ht
    simp only at h1 h ⊢
    subst h1
    rw [← h]
    rfl
  · rfl

theorem fillDict_of_allocated {d : dict} (h : tablesAllocated d = true) : fillDict d = d := by
  unfold tablesAllocated at h
  rw [Bool.and_eq_true] at h
  unfold fillDict
  rw [fillHt_of_allocated h.1, fillHt_of_allocated h.2]

@[simp] theorem htEntries_fillHt (ht : dictht) : htEntries (fillHt ht) = htEntries ht := by
  unfold fillHt
  split
  · rename_i h
    unfold htEntries
    simp [h]
  · rfl

@[simp] theorem dictEntries_fillDict (d : dict) : dictEntries (fillDict d) = dictEntries d := by
  unfold dictEntries fillDict
  simp

@[simp] theorem fillDict_type (d : dict) : (fillDict d).type = d.type := rfl
@[simp] theorem fillDict_rehashidx (d : dict) : (fillDict d).rehashidx = d.rehashidx := rfl
@[simp] theorem fillDict_iterators (d : dict) : (fillDict d).iterators = d.iterators := rfl
@[simp] theorem fillDict_trace (d : dict) : (fillDict d).trace = d.trace := rfl
@[simp] theorem fillDict_ht0 (d : dict) : (fillDict d).ht0 = fillHt d.ht0 := rfl
@[simp] theorem fillDict_ht1 (d : dict) : (fillDict d).ht1 = fillHt d.ht1 := rfl

@[simp] theorem dictIsRehashing_fillDict (d : dict) :
    dictIsRehashing (fillDict d) = dictIsRehashing d := rfl

@[simp] theorem dictHashKey_fillDict (d : dict) (key : Nat) :
    dictHashKey (fillDict d) key = dictHashKey d key := rfl

@[simp] theorem dictSetKey_fillDict (d : dict) (key : Nat) :
    dictSetKey (fillDict d) key = dictSetKey d key := rfl

@[simp] theorem keyMatch_fillDict (d : dict) (key : Nat) (he : dictEntry) :
    keyMatch (fillDict d) key he = keyMatch d key he := rfl

@[simp] theorem dictSize_fillDict (d : dict) : dictSize (fillDict d) = dictSize d := by
  unfold dictSize
  simp

@[simp] theorem chainFind_fillDict (d : dict) (key : Nat) (c : List dictEntry) :
    chainFind (fillDict d) key c = chainFind d key c := by
  induction c with
  | nil => rfl
  | cons he next ih =>
    unfold chainFind
    rw [ih]
    rfl

@[simp] theorem getHt_fillDict (d : dict) (t : Nat) :
    getHt (fillDict d) t = fillHt (getHt d t) := by
  unfold getHt
  split <;> rfl

theorem setHt_fillDict (d : dict) (t : Nat) (ht : dictht) :
    setHt (fillDict d) t (fillHt ht) = fillDict (setHt d t ht) := by
  unfold setHt
  split <;> rfl

theorem bucketGet_ne {ht : dictht} {i : Nat} {c : List dictEntry}
    (h : bucketGet ht i = some c) : ht.table ≠ some [] := by
  intro h1
  unfold bucketGet at h
  rw [h1] at h
  simp at h

theorem bucketSet_ne {ht ht1 : dictht} {i : Nat} {c : List dictEntry}
    (h : bucketSet ht i c = some ht1) : ht.table ≠ some [] ∧ ht1.table ≠ some [] := by
  unfold bucketSet at h
  cases hb : ht.table with
  | none =>
    rw [hb] at h
    simp at h
  | some bs =>
    rw [hb] at h
    simp only at h
    split at h
    · rename_i hlt
      cases h
      refine ⟨?_, ?_⟩
      · intro h1
        cases h1
        simp at hlt
      · simp only
        intro h1
        have h2 : (bs.set i c).length = 0 := by
          rw [Option.some.inj h1]
          rfl
        rw [List.length_set] at h2
        omega
    · cases h

theorem bucketGet_fill {ht : dictht} {i : Nat} {c : List dictEntry}
    (h : bucketGet ht i = some c) : fillHt ht = ht := fillHt_of_ne (bucketGet_ne h)

theorem bucketSet_fill {ht ht1 : dictht} {i : Nat} {c : List dictEntry}
    (h : bucketSet ht i c = some ht1) : fillHt ht = ht ∧ fillHt ht1 = ht1 :=
  ⟨fillHt_of_ne (bucketSet_ne h).1, fillHt_of_ne (bucketSet_ne h).2⟩

theorem fillHt_with_used (ht : dictht) (u : Nat) :
    fillHt { ht with used := u } = { fillHt ht with used := u } := by
  unfold fillHt
  split <;> rfl

theorem fillDict_dictFreeKey (d : dict) (he : dictEntry) :
    fillDict (dictFreeKey d he) = dictFreeKey (fillDict d) he := by
  unfold dictFreeKey
  simp only [fillDict_type]
  split <;> rfl

theorem fillDict_dictFreeVal (d : dict) (he : dictEntry) :
    fillDict (dictFreeVal d he) = dictFreeVal (fillDict d) he := by
  unfold dictFreeVal
  simp only [fillDict_type]
  split <;> rfl


theorem rehashMoveChain_fill : ∀ (c : List dictEntry) (d d1 : dict),
    rehashMoveChain d c = some d1 → rehashMoveChain (fillDict d) c = some (fillDict d1)
  | [], d, d1, h => by
    unfold rehashMoveChain at h ⊢
    cases h
    rfl
  | de :: next, d, d1, h => by
    unfold rehashMoveChain at h ⊢
    simp only [dictHashKey_fillDict, fillDict_ht1, fillDict_ht0, fillHt_sizemask,
      fillHt_used] at h ⊢
    cases hg : bucketGet d.ht1 (dictHashKey d de.key &&& d.ht1.sizemask) with
    | none =>
      rw [hg] at h
      cases h
    | some old =>
      rw [hg] at h
      simp only at h
      rw [bucketGet_fill hg, hg]
      simp only
      cases hs : bucketSet d.ht1 (dictHashKey d de.key &&& d.ht1.sizemask) (de :: old) with
      | none =>
        rw [hs] at h
        cases h
      | some t1 =>
        rw [hs] at h
        simp only at h ⊢
        have h2 := rehashMoveChain_fill next _ d1 h
        rw [← h2]
        congr 1
        simp [fillDict, fillHt_with_used, (bucketSet_fill hs).2]

theorem rehashSkipEmpty_fill : ∀ (fuel : Nat) (d : dict) (ev : Int) (d1 : dict) (r : Option Int),
    rehashSkipEmpty fuel d ev = some (d1, r) →
    rehashSkipEmpty fuel (fillDict d) ev = some (fillDict d1, r)
  | 0, _, _, _, _, h => by simp [rehashSkipEmpty] at h
  | fuel + 1, d, ev, d1, r, h => by
    unfold rehashSkipEmpty at h ⊢
    simp only [fillDict_rehashidx, fillDict_ht0] at h ⊢
    split at h
    · cases h
    · rename_i hneg
      rw [if_neg hneg]
      cases hg : bucketGet d.ht0 d.rehashidx.toNat with
      | none =>
        rw [hg] at h
        cases h
      | some c =>
        rw [bucketGet_fill hg, hg]
        rw [hg] at h
        cases c with
        | nil =>
          simp only at h ⊢
          have hf := bucketGet_fill hg
          split at h
          · rename_i hev
            rw [if_pos hev]
            cases h
            simp [fillDict, hf]
          · rename_i hev
            rw [if_neg hev]
            have h2 := rehashSkipEmpty_fill fuel _ _ _ _ h
            rw [← h2]
            congr 1
            simp [fillDict, hf]
        | cons a b =>
          have hf := bucketGet_fill hg
          simp only at h ⊢
          cases h
          simp [fillDict, hf]

theorem dictRehashLoop_fill : ∀ (fuel : Nat) (d : dict) (n ev : Int) (d1 : dict) (b : Bool),
    dictRehashLoop fuel d n ev = some (d1, b) →
    dictRehashLoop fuel (fillDict d) n ev = some (fillDict d1, b)
  | 0, _, _, _, _, _, h => by simp [dictRehashLoop] at h
  | fuel + 1, d, n, ev, d1, b, h => by
    unfold dictRehashLoop at h ⊢
    simp only [fillDict_ht0, fillHt_used, fillHt_size, fillDict_rehashidx] at h ⊢
    split at h
    · rename_i hc
      rw [if_pos hc]
      split at h
      · rename_i hs
        rw [if_pos hs]
        cases hk : rehashSkipEmpty (d.ht0.size + 1) d ev with
        | none =>
          rw [hk] at h
          cases h
        | some p =>
          obtain ⟨d2, o⟩ := p
          rw [rehashSkipEmpty_fill _ _ _ _ _ hk]
          rw [hk] at h
          cases o with
          | none =>
            simp only at h ⊢
            cases h
            rfl
          | some ev1 =>
            simp only [fillDict_ht0, fillDict_rehashidx] at h ⊢
            cases hg : bucketGet d2.ht0 d2.rehashidx.toNat with
            | none =>
              rw [hg] at h
              cases h
            | some de =>
              rw [bucketGet_fill hg, hg]
              rw [hg] at h
              simp only at h ⊢
              cases hm : rehashMoveChain d2 de with
              | none =>
                rw [hm] at h
                cases h
              | some d3 =>
                rw [rehashMoveChain_fill _ _ _ hm]
                rw [hm] at h
                simp only [fillDict_ht0, fillDict_rehashidx] at h ⊢
                cases hs2 : bucketSet d3.ht0 d3.rehashidx.toNat [] with
                | none =>
                  rw [hs2] at h
                  cases h
                | some t0 =>
                  rw [(bucketSet_fill hs2).1, hs2]
                  rw [hs2] at h
                  simp only at h ⊢
                  have h2 := dictRehashLoop_fill fuel _ _ _ _ _ h
                  rw [← h2]
                  congr 1
                  simp [fillDict, (bucketSet_fill hs2).2]
      · cases h
    · rename_i hc
      rw [if_neg hc]
      cases h
      rfl

theorem fillHt_reset : fillHt _dictReset = _dictReset := rfl

theorem dictRehash_fill {d d1 : dict} {n : Int} {r : Nat} (h : dictRehash d n = some (d1, r)) :
    dictRehash (fillDict d) n = some (fillDict d1, r) := by
  unfold dictRehash at h ⊢
  simp only [dictIsRehashing_fillDict, fillDict_ht0, fillHt_size] at h ⊢
  split at h
  · rename_i hc
    rw [if_pos hc]
    cases h
    rfl
  · rename_i hc
    rw [if_neg hc]
    cases hk : dictRehashLoop (d.ht0.size + 1) d n (wrapInt (n * 10)) with
    | none =>
      rw [hk] at h
      cases h
    | some p =>
      obtain ⟨d2, b⟩ := p
      rw [dictRehashLoop_fill _ _ _ _ _ _ hk]
      rw [hk] at h
      cases b with
      | true =>
        simp only at h ⊢
        cases h
        rfl
      | false =>
        simp only [fillDict_ht0, fillHt_used] at h ⊢
        split at h
        · rename_i hu
          rw [if_pos hu]
          cases h
          rfl
        · rename_i hu
          rw [if_neg hu]
          cases h
          rfl

theorem dictRehashStep_fill {d d1 : dict} (h : _dictRehashStep d = some d1) :
    _dictRehashStep (fillDict d) = some (fillDict d1) := by
  unfold _dictRehashStep at h ⊢
  simp only [fillDict_iterators] at h ⊢
  split at h
  · rename_i hc
    rw [if_pos hc]
    obtain ⟨p, hp, hp2⟩ := Option.map_eq_some'.mp h
    subst hp2
    rw [dictRehash_fill (show dictRehash d 1 = some (p.1, p.2) from hp)]
    rfl
  · rename_i hc
    rw [if_neg hc]
    cases h
    rfl

theorem rehashStepIfRehashing_fill {d d1 : dict} (h : rehashStepIfRehashing d = some d1) :
    rehashStepIfRehashing (fillDict d) = some (fillDict d1) := by
  unfold rehashStepIfRehashing at h ⊢
  simp only [dictIsRehashing_fillDict] at h ⊢
  split at h
  · rename_i hc
    rw [if_pos hc]
    exact dictRehashStep_fill h
  · rename_i hc
    rw [if_neg hc]
    cases h
    rfl


/-- Filling the table that `dictExpand` builds gives the table of `2 ^ k` empty buckets. -/
theorem fillHt_newTable (k : Nat) (hk2 : 2 ≤ k) (hk63 : k ≤ 63) :
    fillHt (newTable (2 ^ k)) =
      { size := 2 ^ k, sizemask := decr64 (2 ^ k),
        table := some (List.replicate (2 ^ k) []), used := 0 } := by
  have hpos : 0 < 2 ^ k := Nat.pos_pow_of_pos k (by norm_num)
  by_cases hk : k ≤ 60
  · rw [newTable_eq k hk]
    apply fillHt_of_ne
    simp only [ne_eq, Option.some.injEq]
    intro h
    have h2 := congrArg List.length h
    simp at h2
  · unfold newTable
    rw [allocCells_big k (by omega) hk63]
    rfl

theorem dictExpand_fill_inv {d d1 : dict} {size r : Nat} (hinv : Inv (fillDict d))
    (h : dictExpand d size = some (d1, r)) : Inv (fillDict d1) ∧ d1.type = d.type := by
  obtain ⟨k, hk2, hk63, hk, hc⟩ := dictExpand_cases d size
  have hnew := htOK_new d.type k hk2 hk63
  have hEn : htEntries
      ({ size := 2 ^ k, sizemask := decr64 (2 ^ k),
         table := some (List.replicate (2 ^ k) []), used := 0 } : dictht) = [] := by
    rw [htEntries_of_table rfl]
    simp
  rcases hc with ⟨_, e⟩ | ⟨hnr, _, _, htab, e⟩ | ⟨hnr, _, _, htab, e⟩
  · rw [e] at h
    cases h
    exact ⟨hinv, rfl⟩
  · rw [e] at h
    cases h
    have hr : (fillDict d).rehashidx = -1 := by
      by_contra hh
      have := (dictIsRehashing_iff d).mpr hh
      rw [hnr] at this
      cases this
    obtain ⟨i1, _⟩ := Inv_install_first hinv hr ((fillHt_table_none d.ht0).mpr htab) hnew hEn
    refine ⟨?_, rfl⟩
    have e2 : fillDict ({ d with ht0 := newTable (2 ^ k) } : dict) =
        { fillDict d with ht0 := { size := 2 ^ k, sizemask := decr64 (2 ^ k),
                                   table := some (List.replicate (2 ^ k) []), used := 0 } } := by
      simp only [fillDict, fillHt_newTable k hk2 hk63]
    rw [e2]
    exact i1
  · rw [e] at h
    cases h
    have hr : (fillDict d).rehashidx = -1 := by
      by_contra hh
      have := (dictIsRehashing_iff d).mpr hh
      rw [hnr] at this
      cases this
    obtain ⟨i1, _⟩ := Inv_install_second hinv hr
      (fun hh => htab ((fillHt_table_none d.ht0).mp hh)) hnew hEn (by simp)
    refine ⟨?_, rfl⟩
    have e2 : fillDict ({ d with ht1 := newTable (2 ^ k), rehashidx := 0 } : dict) =
        { fillDict d with ht1 := { size := 2 ^ k, sizemask := decr64 (2 ^ k),
                                   table := some (List.replicate (2 ^ k) []), used := 0 },
                          rehashidx := 0 } := by
      simp only [fillDict, fillHt_newTable k hk2 hk63]
    rw [e2]
    exact i1

theorem dictExpand_fill {d d1 : dict} {size r : Nat} (hsize : size ≤ 1152921504606846976)
    (h : dictExpand d size = some (d1, r)) :
    dictExpand (fillDict d) size = some (fillDict d1, r) := by
  obtain ⟨k, hk2, hk63, hk, _, hmin⟩ := dictNextPower_spec size
  have hk60 : k ≤ 60 := by
    rcases hmin (by omega) with h | h
    · omega
    · by_contra hc
      have h1 : 2 ^ 60 ≤ 2 ^ (k - 1) := Nat.pow_le_pow_right (by norm_num) (by omega)
      have h2 : (2 : Nat) ^ 60 = 1152921504606846976 := by norm_num
      omega
  have hn : fillHt (newTable (2 ^ k)) = newTable (2 ^ k) := by
    rw [fillHt_newTable k hk2 hk63, newTable_eq k hk60]
  unfold newTable at hn
  unfold dictExpand at h ⊢
  simp only [dictIsRehashing_fillDict, fillDict_ht0, fillHt_used, fillHt_size,
    fillHt_isNone] at h ⊢
  split at h
  · rename_i hc
    rw [if_pos hc]
    cases h
    rfl
  · rename_i hc
    rw [if_neg hc]
    rw [hk] at h ⊢
    simp only at h ⊢
    split at h
    · rename_i hc2
      rw [if_pos hc2]
      cases h
      rfl
    · rename_i hc2
      rw [if_neg hc2]
      split at h
      · rename_i hc3
        rw [if_pos hc3]
        cases h
        simp [fillDict, hn]
      · rename_i hc3
        rw [if_neg hc3]
        cases h
        simp [fillDict, hn]

theorem dictExpandIfNeeded_fill {cr : Bool} {d d1 : dict} {r : Nat}
    (hroom : d.ht0.used ≤ 576460752303423488)
    (h : _dictExpandIfNeeded cr d = some (d1, r)) :
    _dictExpandIfNeeded cr (fillDict d) = some (fillDict d1, r) := by
  unfold _dictExpandIfNeeded at h ⊢
  simp only [dictIsRehashing_fillDict, fillDict_ht0, fillHt_used, fillHt_size] at h ⊢
  split at h
  · rename_i hc
    rw [if_pos hc]
    cases h
    rfl
  · rename_i hc
    rw [if_neg hc]
    split at h
    · rename_i hc2
      rw [if_pos hc2]
      exact dictExpand_fill (by norm_num [DICT_HT_INITIAL_SIZE]) h
    · rename_i hc2
      rw [if_neg hc2]
      split at h
      · rename_i hc3
        rw [if_pos hc3]
        exact dictExpand_fill (by omega) h
      · rename_i hc3
        rw [if_neg hc3]
        cases h
        rfl

theorem dictKeyIndex_fill {cr : Bool} {d d1 : dict} {key hash : Nat} {i : Int}
    {ex : Option EntryRef} (hroom : d.ht0.used ≤ 576460752303423488)
    (h : _dictKeyIndex cr d key hash = some (d1, i, ex)) :
    _dictKeyIndex cr (fillDict d) key hash = some (fillDict d1, i, ex) := by
  unfold _dictKeyIndex at h ⊢
  cases he : _dictExpandIfNeeded cr d with
  | none =>
    rw [he] at h
    cases h
  | some p =>
    obtain ⟨d2, r⟩ := p
    rw [dictExpandIfNeeded_fill hroom he]
    rw [he] at h
    simp only [fillDict_ht0, fillDict_ht1, fillHt_sizemask, chainFind_fillDict,
      dictIsRehashing_fillDict] at h ⊢
    split at h
    · rename_i hc
      rw [if_pos hc]
      cases h
      rfl
    · rename_i hc
      rw [if_neg hc]
      cases hg : bucketGet d2.ht0 (hash &&& d2.ht0.sizemask) with
      | none =>
        rw [hg] at h
        cases h
      | some chain0 =>
        rw [bucketGet_fill hg, hg]
        rw [hg] at h
        simp only at h ⊢
        cases hf : chainFind d2 key chain0 with
        | some q =>
          rw [hf] at h
          simp only at h ⊢
          cases h
          rfl
        | none =>
          rw [hf] at h
          simp only at h ⊢
          split at h
          · rename_i hc4
            rw [if_pos hc4]
            cases h
            rfl
          · rename_i hc4
            rw [if_neg hc4]
            cases hg1 : bucketGet d2.ht1 (hash &&& d2.ht1.sizemask) with
            | none =>
              rw [hg1] at h
              cases h
            | some chain1 =>
              rw [bucketGet_fill hg1, hg1]
              rw [hg1] at h
              simp only at h ⊢
              cases hf1 : chainFind d2 key chain1 with
              | some q =>
                rw [hf1] at h
                simp only at h ⊢
                cases h
                rfl
              | none =>
                rw [hf1] at h
                simp only at h ⊢
                cases h
                rfl


theorem rehashStep_fill_used {d d0 : dict} (hT : LawfulType d.type) (hinv : Inv (fillDict d))
    (hroom : dictSize d < ENTRY_LIMIT) (hs : rehashStepIfRehashing d = some d0) :
    Inv (fillDict d0) ∧ d0.type = d.type ∧ dictSize d0 = dictSize d ∧
      d0.ht0.used ≤ 576460752303423488 := by
  obtain ⟨d1, s1, s2, s3, _, _, s6, _⟩ := rehashStep_spec (fillDict d) hT hinv
  rw [rehashStepIfRehashing_fill hs] at s1
  cases s1
  have h1 := s2.ok0.used_eq
  have h2 := s6.length_eq
  have h3 := dictSize_eq hinv
  have h4 := dictSize_eq s2
  simp only [fillDict_ht0, fillHt_used, htEntries_fillHt, dictEntries_fillDict,
    dictSize_fillDict] at h1 h2 h3 h4
  refine ⟨s2, s3, by omega, ?_⟩
  unfold ENTRY_LIMIT at hroom
  unfold dictEntries at h2 h3
  rw [List.length_append] at h2
  omega

theorem dictAddRaw_fill {cr : Bool} {d d1 : dict} {key : Nat} {e ex : Option EntryRef}
    (hT : LawfulType d.type) (hinv : Inv (fillDict d)) (hroom : dictSize d < ENTRY_LIMIT)
    (h : dictAddRaw cr d key = some (d1, e, ex)) :
    dictAddRaw cr (fillDict d) key = some (fillDict d1, e, ex) := by
  unfold dictAddRaw at h ⊢
  cases hs : rehashStepIfRehashing d with
  | none =>
    rw [hs] at h
    cases h
  | some d0 =>
    rw [rehashStepIfRehashing_fill hs]
    rw [hs] at h
    simp only [dictHashKey_fillDict] at h ⊢
    have hu := (rehashStep_fill_used hT hinv hroom hs).2.2.2
    cases hk : _dictKeyIndex cr d0 key (dictHashKey d0 key) with
    | none =>
      rw [hk] at h
      cases h
    | some p =>
      obtain ⟨d2, index, existing⟩ := p
      rw [dictKeyIndex_fill hu hk]
      rw [hk] at h
      simp only [dictIsRehashing_fillDict, getHt_fillDict, dictSetKey_fillDict] at h ⊢
      split at h
      · rename_i hc
        rw [if_pos hc]
        cases h
        rfl
      · rename_i hc
        rw [if_neg hc]
        split at h
        · cases h
        · rename_i hc2
          rw [if_neg hc2]
          cases hg : bucketGet (getHt d2 (if dictIsRehashing d2 = true then 1 else 0))
              index.toNat with
          | none =>
            rw [hg] at h
            cases h
          | some chain =>
            rw [bucketGet_fill hg, hg]
            rw [hg] at h
            simp only at h ⊢
            cases hb : bucketSet (getHt d2 (if dictIsRehashing d2 = true then 1 else 0))
                index.toNat (⟨dictSetKey d2 key, 0⟩ :: chain) with
            | none =>
              rw [hb] at h
              cases h
            | some ht =>
              rw [hb] at h
              simp only at h ⊢
              cases h
              rw [← setHt_fillDict, fillHt_with_used, (bucketSet_fill hb).2]

theorem entryGet_fill {d : dict} {r : EntryRef} {he : dictEntry}
    (h : entryGet d r = some he) : entryGet (fillDict d) r = some he := by
  unfold entryGet at h ⊢
  simp only [getHt_fillDict]
  cases hg : bucketGet (getHt d r.table) r.idx with
  | none =>
    rw [hg] at h
    cases h
  | some chain =>
    rw [bucketGet_fill hg, hg]
    rw [hg] at h
    exact h

theorem dictSetVal_fill {d d1 : dict} {r : EntryRef} {val : Nat}
    (h : dictSetVal d r val = some d1) : dictSetVal (fillDict d) r val = some (fillDict d1) := by
  unfold dictSetVal at h ⊢
  simp only [getHt_fillDict, fillDict_type] at h ⊢
  cases hg : bucketGet (getHt d r.table) r.idx with
  | none =>
    rw [hg] at h
    cases h
  | some chain =>
    rw [bucketGet_fill hg, hg]
    rw [hg] at h
    simp only at h ⊢
    cases hc : chain[r.pos]? with
    | none =>
      rw [hc] at h
      cases h
    | some he =>
      rw [hc] at h
      simp only at h ⊢
      split at h
      · cases h
      · rename_i ht hb
        cases h
        have e1 := setHt_fillDict d r.table ht
        rw [(bucketSet_fill hb).2] at e1
        rw [e1]
        rfl

theorem dictAdd_fill {cr : Bool} {d d1 : dict} {key val r : Nat}
    (hT : LawfulType d.type) (hinv : Inv (fillDict d)) (hroom : dictSize d < ENTRY_LIMIT)
    (h : dictAdd cr d key val = some (d1, r)) :
    dictAdd cr (fillDict d) key val = some (fillDict d1, r) := by
  unfold dictAdd at h ⊢
  cases ha : dictAddRaw cr d key with
  | none =>
    rw [ha] at h
    cases h
  | some p =>
    obtain ⟨d2, e, ex⟩ := p
    rw [dictAddRaw_fill hT hinv hroom ha]
    rw [ha] at h
    cases e with
    | none =>
      simp only at h ⊢
      cases h
      rfl
    | some entry =>
      simp only at h ⊢
      cases hv : dictSetVal d2 entry val with
      | none =>
        rw [hv] at h
        cases h
      | some d3 =>
        rw [dictSetVal_fill hv]
        rw [hv] at h
        simp only at h ⊢
        cases h
        rfl

theorem dictReplace_fill {cr : Bool} {d d1 : dict} {key val r : Nat}
    (hT : LawfulType d.type) (hinv : Inv (fillDict d)) (hroom : dictSize d < ENTRY_LIMIT)
    (h : dictReplace cr d key val = some (d1, r)) :
    dictReplace cr (fillDict d) key val = some (fillDict d1, r) := by
  unfold dictReplace at h ⊢
  cases ha : dictAddRaw cr d key with
  | none =>
    rw [ha] at h
    cases h
  | some p =>
    obtain ⟨d2, e, ex⟩ := p
    rw [dictAddRaw_fill hT hinv hroom ha]
    rw [ha] at h
    cases e with
    | some entry =>
      simp only at h ⊢
      cases hv : dictSetVal d2 entry val with
      | none =>
        rw [hv] at h
        cases h
      | some d3 =>
        rw [dictSetVal_fill hv]
        rw [hv] at h
        simp only at h ⊢
        cases h
        rfl
    | none =>
      cases ex with
      | none =>
        simp only at h
        cases h
      | some existing =>
        simp only at h ⊢
        cases hg : entryGet d2 existing with
        | none =>
          rw [hg] at h
          cases h
        | some aux =>
          rw [entryGet_fill hg]
          rw [hg] at h
          simp only at h ⊢
          cases hv : dictSetVal d2 existing val with
          | none =>
            rw [hv] at h
            cases h
          | some d3 =>
            rw [dictSetVal_fill hv]
            rw [hv] at h
            simp only at h ⊢
            cases h
            rw [fillDict_dictFreeVal]

theorem dictAddOrFind_fill {cr : Bool} {d d1 : dict} {key : Nat} {r : Option EntryRef}
    (hT : LawfulType d.type) (hinv : Inv (fillDict d)) (hroom : dictSize d < ENTRY_LIMIT)
    (h : dictAddOrFind cr d key = some (d1, r)) :
    dictAddOrFind cr (fillDict d) key = some (fillDict d1, r) := by
  unfold dictAddOrFind at h ⊢
  cases ha : dictAddRaw cr d key with
  | none =>
    rw [ha] at h
    cases h
  | some p =>
    obtain ⟨d2, e, ex⟩ := p
    rw [dictAddRaw_fill hT hinv hroom ha]
    rw [ha] at h
    cases e with
    | none =>
      simp only at h ⊢
      cases h
      rfl
    | some entry =>
      simp only at h ⊢
      cases h
      rfl

theorem genericDeleteTable_fill {d d1 : dict} {t key hh : Nat} {nofree : Bool}
    {r : Option dictEntry} (h : genericDeleteTable d t key hh nofree = some (d1, r)) :
    genericDeleteTable (fillDict d) t key hh nofree = some (fillDict d1, r) := by
  unfold genericDeleteTable at h ⊢
  simp only [getHt_fillDict, fillHt_sizemask, chainFind_fillDict] at h ⊢
  cases hg : bucketGet (getHt d t) (hh &&& (getHt d t).sizemask) with
  | none =>
    rw [hg] at h
    cases h
  | some chain =>
    rw [bucketGet_fill hg, hg]
    rw [hg] at h
    simp only at h ⊢
    cases hf : chainFind d key chain with
    | none =>
      rw [hf] at h
      simp only at h ⊢
      cases h
      rfl
    | some q =>
      obtain ⟨pos, he⟩ := q
      rw [hf] at h
      simp only at h ⊢
      cases hb : bucketSet (getHt d t) (hh &&& (getHt d t).sizemask) (chain.eraseIdx pos) with
      | none =>
        rw [hb] at h
        cases h
      | some ht =>
        rw [hb] at h
        simp only at h ⊢
        cases h
        have e1 := setHt_fillDict d t ht
        rw [(bucketSet_fill hb).2] at e1
        rw [e1]
        cases nofree with
        | true =>
          simp only [if_true, getHt_fillDict, fillHt_used, ← fillHt_with_used, setHt_fillDict]
        | false =>
          simp only [Bool.false_eq_true, if_false, ← fillDict_dictFreeKey,
            ← fillDict_dictFreeVal, getHt_fillDict, fillHt_used, ← fillHt_with_used,
            setHt_fillDict]

theorem dictGenericDelete_fill {d d1 : dict} {key : Nat} {nofree : Bool}
    {r : Option dictEntry} (h : dictGenericDelete d key nofree = some (d1, r)) :
    dictGenericDelete (fillDict d) key nofree = some (fillDict d1, r) := by
  unfold dictGenericDelete at h ⊢
  simp only [fillDict_ht0, fillDict_ht1, fillHt_used] at h ⊢
  split at h
  · rename_i hc
    rw [if_pos hc]
    cases h
    rfl
  · rename_i hc
    rw [if_neg hc]
    cases hs : rehashStepIfRehashing d with
    | none =>
      rw [hs] at h
      cases h
    | some d0 =>
      rw [rehashStepIfRehashing_fill hs]
      rw [hs] at h
      simp only [dictHashKey_fillDict] at h ⊢
      cases hg : genericDeleteTable d0 0 key (dictHashKey d0 key) nofree with
      | none =>
        rw [hg] at h
        cases h
      | some p =>
        obtain ⟨d2, o⟩ := p
        rw [genericDeleteTable_fill hg]
        rw [hg] at h
        cases o with
        | some he =>
          simp only at h ⊢
          cases h
          rfl
        | none =>
          simp only [dictIsRehashing_fillDict] at h ⊢
          split at h
          · rename_i hc2
            rw [if_pos hc2]
            cases h
            rfl
          · rename_i hc2
            rw [if_neg hc2]
            exact genericDeleteTable_fill h

theorem dictDelete_fill {d d1 : dict} {key r : Nat} (h : dictDelete d key = some (d1, r)) :
    dictDelete (fillDict d) key = some (fillDict d1, r) := by
  unfold dictDelete at h ⊢
  cases hg : dictGenericDelete d key false with
  | none =>
    rw [hg] at h
    cases h
  | some p =>
    obtain ⟨d2, o⟩ := p
    rw [dictGenericDelete_fill hg]
    rw [hg] at h
    cases o with
    | none =>
      simp only at h ⊢
      cases h
      rfl
    | some he =>
      simp only at h ⊢
      cases h
      rfl

theorem dictUnlink_fill {d d1 : dict} {key : Nat} {r : Option dictEntry}
    (h : dictUnlink d key = some (d1, r)) :
    dictUnlink (fillDict d) key = some (fillDict d1, r) :=
  dictGenericDelete_fill h

theorem findInTable_fill {d : dict} {t key hh : Nat} {r : Option dictEntry}
    (h : findInTable d t key hh = some r) : findInTable (fillDict d) t key hh = some r := by
  unfold findInTable at h ⊢
  simp only [getHt_fillDict, fillHt_sizemask, chainFind_fillDict] at h ⊢
  cases hg : bucketGet (getHt d t) (hh &&& (getHt d t).sizemask) with
  | none =>
    rw [hg] at h
    cases h
  | some chain =>
    rw [bucketGet_fill hg, hg]
    rw [hg] at h
    exact h

theorem dictFind_fill {d d1 : dict} {key : Nat} {r : Option dictEntry}
    (h : dictFind d key = some (d1, r)) : dictFind (fillDict d) key = some (fillDict d1, r) := by
  unfold dictFind at h ⊢
  simp only [fillDict_ht0, fillDict_ht1, fillHt_used] at h ⊢
  split at h
  · rename_i hc
    rw [if_pos hc]
    cases h
    rfl
  · rename_i hc
    rw [if_neg hc]
    cases hs : rehashStepIfRehashing d with
    | none =>
      rw [hs] at h
      cases h
    | some d0 =>
      rw [rehashStepIfRehashing_fill hs]
      rw [hs] at h
      simp only [dictHashKey_fillDict, dictIsRehashing_fillDict] at h ⊢
      cases hg : findInTable d0 0 key (dictHashKey d0 key) with
      | none =>
        rw [hg] at h
        cases h
      | some o =>
        rw [findInTable_fill hg]
        rw [hg] at h
        cases o with
        | some he =>
          simp only at h ⊢
          cases h
          rfl
        | none =>
          simp only at h ⊢
          split at h
          · rename_i hc2
            rw [if_pos hc2]
            cases h
            rfl
          · rename_i hc2
            rw [if_neg hc2]
            cases hg1 : findInTable d0 1 key (dictHashKey d0 key) with
            | none =>
              rw [hg1] at h
              cases h
            | some o1 =>
              rw [findInTable_fill hg1]
              rw [hg1] at h
              simp only at h ⊢
              cases h
              rfl


/-! ## Every reachable dictionary is well formed -/

theorem entries_lt_of_dictSize {d : dict} (hinv : Inv d) (h : dictSize d < ENTRY_LIMIT) :
    (dictEntries d).length < 576460752303423488 := by
  rw [dictSize_eq hinv, ENTRY_LIMIT] at h
  omega

/-- Every dictionary that the operations produce is well formed once the bucket arrays without
cells are given the cells of their `size`. -/
theorem Reachable_fill {T : dictType} (hT : LawfulType T) {d : dict} (h : Reachable T d) :
    Inv (fillDict d) ∧ d.type = T := by
  induction h with
  | create => exact ⟨Inv_create T, rfl⟩
  | add cr d d1 key val r _ hsz hop ih =>
    obtain ⟨hinv, hty⟩ := ih
    have hT2 : LawfulType d.type := hty ▸ hT
    obtain ⟨d2, r2, a1, a2, a3, _⟩ :=
      dictAdd_spec cr (fillDict d) key val hT2 hinv
        (entries_lt_of_dictSize hinv (by rw [dictSize_fillDict]; exact hsz))
    rw [dictAdd_fill hT2 hinv hsz hop] at a1
    cases a1
    exact ⟨a2, a3.trans hty⟩
  | addRaw cr d d1 key r1 r2 _ hsz hop ih =>
    obtain ⟨hinv, hty⟩ := ih
    have hT2 : LawfulType d.type := hty ▸ hT
    obtain ⟨d3, e, ex, a1, a2, a3, _⟩ :=
      dictAddRaw_spec cr (fillDict d) key hT2 hinv
        (entries_lt_of_dictSize hinv (by rw [dictSize_fillDict]; exact hsz))
    rw [dictAddRaw_fill hT2 hinv hsz hop] at a1
    cases a1
    exact ⟨a2, a3.trans hty⟩
  | replace cr d d1 key val r _ hsz hop ih =>
    obtain ⟨hinv, hty⟩ := ih
    have hT2 : LawfulType d.type := hty ▸ hT
    obtain ⟨d2, r2, a1, a2, a3, _⟩ :=
      dictReplace_spec cr (fillDict d) key val hT2 hinv
        (entries_lt_of_dictSize hinv (by rw [dictSize_fillDict]; exact hsz))
    rw [dictReplace_fill hT2 hinv hsz hop] at a1
    cases a1
    exact ⟨a2, a3.trans hty⟩
  | addOrFind cr d d1 key r _ hsz hop ih =>
    obtain ⟨hinv, hty⟩ := ih
    have hT2 : LawfulType d.type := hty ▸ hT
    obtain ⟨d3, e, ex, a1, a2, a3, _⟩ :=
      dictAddRaw_spec cr (fillDict d) key hT2 hinv
        (entries_lt_of_dictSize hinv (by rw [dictSize_fillDict]; exact hsz))
    have hop2 := dictAddOrFind_fill hT2 hinv hsz hop
    unfold dictAddOrFind at hop2
    rw [a1] at hop2
    cases e with
    | none =>
      cases hop2
      exact ⟨a2, a3.trans hty⟩
    | some e1 =>
      cases hop2
      exact ⟨a2, a3.trans hty⟩
  | delete d d1 key r _ hop ih =>
    obtain ⟨hinv, hty⟩ := ih
    have hT2 : LawfulType d.type := hty ▸ hT
    obtain ⟨d2, r2, a1, a2, a3, _⟩ := dictDelete_spec (fillDict d) key hT2 hinv
    rw [dictDelete_fill hop] at a1
    cases a1
    exact ⟨a2, a3.trans hty⟩
  | unlink d d1 key r _ hop ih =>
    obtain ⟨hinv, hty⟩ := ih
    have hT2 : LawfulType d.type := hty ▸ hT
    obtain ⟨d2, r2, a1, a2, a3, _⟩ := dictGenericDelete_spec (fillDict d) key true hT2 hinv
    have hop2 := dictUnlink_fill hop
    unfold dictUnlink at hop2
    rw [a1] at hop2
    cases hop2
    exact ⟨a2, a3.trans hty⟩
  | find d d1 key r _ hop ih =>
    obtain ⟨hinv, hty⟩ := ih
    have hT2 : LawfulType d.type := hty ▸ hT
    obtain ⟨d2, r2, a1, a2, a3, _⟩ := dictFind_spec (fillDict d) key hT2 hinv
    rw [dictFind_fill hop] at a1
    cases a1
    exact ⟨a2, a3.trans hty⟩
  | rehash d d1 n r _ hop ih =>
    obtain ⟨hinv, hty⟩ := ih
    have hT2 : LawfulType d.type := hty ▸ hT
    obtain ⟨d2, r2, a1, a2, a3, _⟩ := dictRehash_spec (fillDict d) n hT2 hinv
    rw [dictRehash_fill hop] at a1
    cases a1
    exact ⟨a2, a3.trans hty⟩
  | expand d d1 size r _ hop ih =>
    obtain ⟨hinv, hty⟩ := ih
    obtain ⟨a2, a3⟩ := dictExpand_fill_inv hinv hop
    exact ⟨a2, a3.trans hty⟩
  | resize cr d d1 r _ hop ih =>
    obtain ⟨hinv, hty⟩ := ih
    unfold dictResize at hop
    split at hop
    · cases hop
      exact ⟨hinv, hty⟩
    · obtain ⟨a2, a3⟩ := dictExpand_fill_inv hinv hop
      exact ⟨a2, a3.trans hty⟩
  | iterators d n _ ih =>
    obtain ⟨hinv, hty⟩ := ih
    exact ⟨Inv_congr hinv rfl rfl rfl rfl, hty⟩

/-- A reachable dictionary whose bucket arrays have the cells of their `size` is well
formed. -/
theorem Reachable_alloc {T : dictType} (hT : LawfulType T) {d : dict} (h : Reachable T d)
    (hp : tablesAllocated d = true) : Inv d ∧ d.type = T := by
  have h2 := Reachable_fill hT h
  rw [fillDict_of_allocated hp] at h2
  exact h2

/-- A well-formed dictionary has the cells of its `size` in both bucket arrays. -/
theorem tablesAllocated_of_inv {d : dict} (hinv : Inv d) : tablesAllocated d = true := by
  unfold tablesAllocated
  rw [Bool.and_eq_true]
  constructor
  · unfold tableAllocated
    cases hb : d.ht0.table with
    | none => rfl
    | some bs =>
      simp only [beq_iff_eq]
      exact hinv.ok0.length_eq bs hb
  · unfold tableAllocated
    cases hb : d.ht1.table with
    | none => rfl
    | some bs =>
      simp only [beq_iff_eq]
      exact hinv.ok1.length_eq bs hb

theorem tableAllocated_of_fill {T : dictType} {ht : dictht} (hok : htOK T (fillHt ht))
    (hne : ht.table ≠ some []) : tableAllocated ht = true := by
  rw [fillHt_of_ne hne] at hok
  unfold tableAllocated
  cases hb : ht.table with
  | none => rfl
  | some bs =>
    simp only [beq_iff_eq]
    exact hok.length_eq bs hb

/-- A reachable dictionary that is not rehashing and holds an entry is well formed: its `ht[0]`
has a cell with an entry, and its `ht[1]` is not allocated. -/
theorem Reachable_stable_alloc {T : dictType} (hT : LawfulType T) {d : dict}
    (h : Reachable T d) (hnr : dictIsRehashing d = false) (hne : dictSize d ≠ 0) :
    tablesAllocated d = true := by
  obtain ⟨hinv, _⟩ := Reachable_fill hT h
  have hr : (fillDict d).rehashidx = -1 := by
    by_contra hc
    have := (dictIsRehashing_iff d).mpr hc
    rw [hnr] at this
    cases this
  have h1 := hinv.stable hr
  have h1t : d.ht1.table = none := by
    apply (fillHt_table_none d.ht1).mp
    show (fillDict d).ht1.table = none
    rw [h1]
    rfl
  have h1u : d.ht1.used = 0 := by
    have : (fillDict d).ht1.used = 0 := by
      rw [h1]
      rfl
    simpa using this
  have h0 : d.ht0.table ≠ some [] := by
    intro hc
    have hu := hinv.ok0.used_eq
    simp only [fillDict_ht0, fillHt_used, htEntries_fillHt] at hu
    rw [htEntries_of_table hc] at hu
    simp only [List.flatten_nil, List.length_nil] at hu
    apply hne
    unfold dictSize
    rw [hu, h1u]
  unfold tablesAllocated
  rw [Bool.and_eq_true]
  refine ⟨tableAllocated_of_fill hinv.ok0 h0, ?_⟩
  unfold tableAllocated
  rw [h1t]

theorem DICT_OK_ne_ERR : DICT_OK ≠ DICT_ERR := by
  simp [DICT_OK, DICT_ERR]

theorem dictNextPower_min (size : Nat) (hs : size < LONG_MAX) :
    ∃ k, 2 ≤ k ∧ k ≤ 63 ∧ _dictNextPower size = some (2 ^ k) ∧ size ≤ 2 ^ k ∧
      DICT_HT_INITIAL_SIZE ≤ 2 ^ k ∧
      ∀ j, DICT_HT_INITIAL_SIZE ≤ 2 ^ j → size ≤ 2 ^ j → 2 ^ k ≤ 2 ^ j := by
  obtain ⟨k, hk2, hk63, hk, hle, hmin⟩ := dictNextPower_spec size
  simp only [LONG_MAX] at hs
  have h4 : DICT_HT_INITIAL_SIZE ≤ 2 ^ k := by
    show 4 ≤ 2 ^ k
    calc 4 = 2 ^ 2 := by norm_num
      _ ≤ 2 ^ k := Nat.pow_le_pow_right (by norm_num) hk2
  refine ⟨k, hk2, hk63, hk, hle (by omega), h4, ?_⟩
  intro j hj4 hjs
  rcases hmin hs with h | h
  · subst h
    exact hj4
  · apply Nat.pow_le_pow_right (by norm_num)
    by_contra hc
    have hjk : j ≤ k - 1 := by omega
    have : 2 ^ j ≤ 2 ^ (k - 1) := Nat.pow_le_pow_right (by norm_num) hjk
    omega

theorem identityType_lawful : LawfulType identityType := by
  constructor
  · intro a b h
    simp only [keyEq, identityType, Bool.or_self, beq_iff_eq] at h ⊢
    exact h.symm
  · intro a b c h1 h2
    simp only [keyEq, identityType, Bool.or_self, beq_iff_eq] at h1 h2 ⊢
    exact h1.trans h2
  · intro a b h
    simp only [keyEq, identityType, Bool.or_self, beq_iff_eq] at h
    rw [h]
  · intro f hf
    simp [identityType] at hf

theorem fill_alloc_of_size_ne {T : dictType} {ht : dictht} (hok : htOK T (fillHt ht))
    (h : ht.size ≠ 0) : ht.table ≠ none := by
  intro hn
  have := hok.size_null ((fillHt_table_none ht).mpr hn)
  rw [fillHt_size] at this
  exact h this

theorem fill_size_pow {T : dictType} {ht : dictht} (hok : htOK T (fillHt ht))
    (h : ht.table ≠ none) : ∃ k, 2 ≤ k ∧ k ≤ 63 ∧ ht.size = 2 ^ k := by
  have h2 : (fillHt ht).table ≠ none := fun hh => h ((fillHt_table_none ht).mp hh)
  obtain ⟨bs, htab⟩ := Option.ne_none_iff_exists'.mp h2
  obtain ⟨k, hk2, hk63, hk⟩ := hok.size_pow bs htab
  rw [fillHt_size] at hk
  exact ⟨k, hk2, hk63, hk⟩

theorem fill_alloc_size {T : dictType} {ht : dictht} (hok : htOK T (fillHt ht))
    (h : ht.table ≠ none) : 4 ≤ ht.size ∧ ht.size ≤ 9223372036854775808 := by
  have h2 : (fillHt ht).table ≠ none := fun hh => h ((fillHt_table_none ht).mp hh)
  have := ht_size_of_alloc hok h2
  rw [fillHt_size] at this
  exact this

theorem fill_used_of_null {T : dictType} {ht : dictht} (hok : htOK T (fillHt ht))
    (h : ht.table = none) : ht.used = 0 := by
  have hu := hok.used_eq
  rw [fillHt_used, htEntries_fillHt, htEntries_of_null h] at hu
  exact hu

theorem fill_mask {T : dictType} {ht : dictht} (hok : htOK T (fillHt ht)) :
    ht.sizemask = ht.size - 1 := by
  have hm := hok.mask_eq
  rw [fillHt_sizemask, fillHt_size] at hm
  exact hm

/-- The outcomes of `_dictExpandIfNeeded` on a dictionary that is not rehashing and holds
fewer than `2 ^ 62` entries, when the fields of `ht[0]` are those of a well-formed table (the
cells of its bucket array are not looked at). -/
theorem expandIfNeeded_cases_fill (cr : Bool) (d : dict) (hok : htOK d.type (fillHt d.ht0))
    (hnr : d.rehashidx = -1)
    (hb : d.ht0.used < 4611686018427387904) :
    (d.ht0.size = 0 → d.ht0.used = 0 ∧
      _dictExpandIfNeeded cr d = some ({ d with ht0 := newTable 4 }, DICT_OK)) ∧
    (d.ht0.size ≠ 0 →
      (d.ht0.used ≥ d.ht0.size ∧
        (cr = true ∨ d.ht0.used / d.ht0.size > dict_force_resize_ratio)) →
      ∃ k, 2 ≤ k ∧ k ≤ 63 ∧
        _dictExpandIfNeeded cr d =
          some ({ d with ht1 := newTable (2 ^ k), rehashidx := 0 }, DICT_OK) ∧
        2 * d.ht0.used ≤ 2 ^ k ∧ (∀ j, 4 ≤ 2 ^ j → 2 * d.ht0.used ≤ 2 ^ j → 2 ^ k ≤ 2 ^ j) ∧
        (d.ht0.used = d.ht0.size → 2 ^ k = 2 * d.ht0.size)) ∧
    (d.ht0.size ≠ 0 →
      ¬ (d.ht0.used ≥ d.ht0.size ∧
        (cr = true ∨ d.ht0.used / d.ht0.size > dict_force_resize_ratio)) →
      _dictExpandIfNeeded cr d = some (d, DICT_OK)) := by
  have hnrb : dictIsRehashing d = false := by simp [dictIsRehashing, hnr]
  refine ⟨?_, ?_, ?_⟩
  · intro hs
    have htn : d.ht0.table = none := by
      by_contra hc
      have := (fill_alloc_size hok hc).1
      omega
    have hu := fill_used_of_null hok htn
    refine ⟨hu, ?_⟩
    unfold _dictExpandIfNeeded
    rw [hnrb]
    simp only [Bool.false_eq_true, if_false]
    rw [if_pos hs]
    obtain ⟨k, hk2, hk63, hk, hcase⟩ := dictExpand_cases d DICT_HT_INITIAL_SIZE
    have hk4 : _dictNextPower DICT_HT_INITIAL_SIZE = some 4 := by decide
    rw [hk4] at hk
    have hk' : 2 ^ k = 4 := (Option.some.inj hk).symm
    rcases hcase with ⟨h1, _⟩ | ⟨_, _, _, _, h5⟩ | ⟨_, _, _, h4, _⟩
    · rcases h1 with h | h | h
      · rw [hnrb] at h
        cases h
      · rw [hu] at h
        simp [DICT_HT_INITIAL_SIZE] at h
      · rw [hs] at h
        omega
    · rw [h5, hk']
    · exact absurd htn h4
  · intro hs hc
    have halloc : d.ht0.table ≠ none := fill_alloc_of_size_ne hok hs
    have hsz4 := (fill_alloc_size hok halloc).1
    have hmul : d.ht0.used * 2 % 18446744073709551616 = d.ht0.used * 2 := by omega
    unfold _dictExpandIfNeeded
    rw [hnrb]
    simp only [Bool.false_eq_true, if_false]
    rw [if_neg hs, if_pos hc, hmul]
    obtain ⟨k, hk2, hk63, hk, hcase⟩ := dictExpand_cases d (d.ht0.used * 2)
    obtain ⟨k1, _, _, hk1, hle, _, hmin⟩ := dictNextPower_min (d.ht0.used * 2)
      (by simp only [LONG_MAX]; omega)
    rw [hk] at hk1
    have hkk : 2 ^ k = 2 ^ k1 := Option.some.inj hk1
    rw [← hkk] at hle hmin
    rcases hcase with ⟨h1, _⟩ | ⟨_, _, _, h4, _⟩ | ⟨_, _, _, _, h5⟩
    · rcases h1 with h | h | h
      · rw [hnrb] at h
        cases h
      · omega
      · omega
    · exact absurd h4 halloc
    · refine ⟨k, hk2, hk63, h5, by rw [Nat.mul_comm]; exact hle, ?_, ?_⟩
      · intro j hj4 hj
        exact hmin j hj4 (by rw [Nat.mul_comm]; exact hj)
      · intro heq
        obtain ⟨m, hm2, _, hm⟩ := fill_size_pow hok halloc
        have h1 : 2 ^ k ≤ 2 ^ (m + 1) := by
          apply hmin (m + 1)
          · show 4 ≤ 2 ^ (m + 1)
            calc 4 = 2 ^ 2 := by norm_num
              _ ≤ 2 ^ (m + 1) := Nat.pow_le_pow_right (by norm_num) (by omega)
          · rw [pow_succ, ← hm, ← heq]
        rw [pow_succ, ← hm] at h1
        rw [heq] at hle
        exact Nat.le_antisymm (by rw [Nat.mul_comm]; exact h1) (by rw [Nat.mul_comm]; exact hle)
  · intro hs hc
    unfold _dictExpandIfNeeded
    rw [hnrb]
    simp only [Bool.false_eq_true, if_false]
    rw [if_neg hs, if_neg hc]

/-- The outcomes of `_dictExpandIfNeeded` on a well-formed dictionary that is not rehashing and
holds fewer than `2 ^ 62` entries. -/
theorem expandIfNeeded_cases (cr : Bool) (d : dict) (hinv : Inv d) (hnr : d.rehashidx = -1)
    (hb : d.ht0.used < 4611686018427387904) :
    (d.ht0.size = 0 → d.ht0.used = 0 ∧
      _dictExpandIfNeeded cr d = some ({ d with ht0 := newTable 4 }, DICT_OK)) ∧
    (d.ht0.size ≠ 0 →
      (d.ht0.used ≥ d.ht0.size ∧
        (cr = true ∨ d.ht0.used / d.ht0.size > dict_force_resize_ratio)) →
      ∃ k, 2 ≤ k ∧ k ≤ 63 ∧
        _dictExpandIfNeeded cr d =
          some ({ d with ht1 := newTable (2 ^ k), rehashidx := 0 }, DICT_OK) ∧
        2 * d.ht0.used ≤ 2 ^ k ∧ (∀ j, 4 ≤ 2 ^ j → 2 * d.ht0.used ≤ 2 ^ j → 2 ^ k ≤ 2 ^ j) ∧
        (d.ht0.used = d.ht0.size → 2 ^ k = 2 * d.ht0.size)) ∧
    (d.ht0.size ≠ 0 →
      ¬ (d.ht0.used ≥ d.ht0.size ∧
        (cr = true ∨ d.ht0.used / d.ht0.size > dict_force_resize_ratio)) →
      _dictExpandIfNeeded cr d = some (d, DICT_OK)) := by
  have hp := tablesAllocated_of_inv hinv
  unfold tablesAllocated at hp
  rw [Bool.and_eq_true] at hp
  have hok : htOK d.type (fillHt d.ht0) := by
    rw [fillHt_of_allocated hp.1]
    exact hinv.ok0
  exact expandIfNeeded_cases_fill cr d hok hnr hb

theorem htOK_size_cases {T : dictType} {ht : dictht} (hok : htOK T ht) :
    (ht.size = 0 ∧ ht.sizemask = 0) ∨
      ∃ k, 2 ≤ k ∧ k ≤ 63 ∧ ht.size = 2 ^ k ∧ ht.sizemask = 2 ^ k - 1 := by
  cases htab : ht.table with
  | none =>
    have h0 := hok.size_null htab
    have hm := hok.mask_eq
    rw [h0] at hm
    exact Or.inl ⟨h0, hm⟩
  | some bs =>
    obtain ⟨k, h2, h63, hk⟩ := hok.size_pow bs htab
    have hm := hok.mask_eq
    rw [hk] at hm
    exact Or.inr ⟨k, h2, h63, hk, hm⟩

theorem used_eq_total_of_stable {d : dict} (hinv : Inv d) (hr : d.rehashidx = -1) :
    d.ht0.used = (dictEntries d).length := by
  rw [dictEntries, ht1_entries_of_stable hinv hr, List.append_nil]
  exact hinv.ok0.used_eq

/-- With resizing enabled, a dictionary that `_dictExpandIfNeeded` leaves not rehashing has an
allocated `ht[0]` with a free slot. -/
theorem expandIfNeeded_stable {d0 d1 : dict} (hinv : Inv d0)
    (hb : d0.ht0.used < 4611686018427387904)
    (h : _dictExpandIfNeeded true d0 = some (d1, DICT_OK)) (hr1 : d1.rehashidx = -1) :
    d1.ht0.used < d1.ht0.size := by
  have hr0 : d0.rehashidx = -1 := by
    by_contra hc
    have hnr : dictIsRehashing d0 = true := (dictIsRehashing_iff d0).mpr hc
    unfold _dictExpandIfNeeded at h
    rw [hnr] at h
    simp only [if_true] at h
    have hd := (Prod.mk.inj (Option.some.inj h)).1
    rw [← hd] at hr1
    exact hc hr1
  obtain ⟨c1, c2, c3⟩ := expandIfNeeded_cases true d0 hinv hr0 hb
  by_cases hs : d0.ht0.size = 0
  · obtain ⟨_, e⟩ := c1 hs
    rw [e] at h
    have hd := (Prod.mk.inj (Option.some.inj h)).1
    rw [← hd]
    show (newTable 4).used < (newTable 4).size
    decide
  · by_cases hc : d0.ht0.used ≥ d0.ht0.size ∧
        (true = true ∨ d0.ht0.used / d0.ht0.size > dict_force_resize_ratio)
    · obtain ⟨k, _, _, e, _⟩ := c2 hs hc
      rw [e] at h
      have hd := (Prod.mk.inj (Option.some.inj h)).1
      rw [← hd] at hr1
      cases hr1
    · have e := c3 hs hc
      rw [e] at h
      have hd := (Prod.mk.inj (Option.some.inj h)).1
      rw [← hd]
      by_contra hlt
      exact hc ⟨by omega, Or.inl rfl⟩

/-! ## Running the rehash to its end -/

/-- The call of `dictRehash` that returns 0 on a rehashing dictionary installs the table
`ht[1]` as `ht[0]` and resets `ht[1]`. -/
theorem dictRehash_finish (d : dict) (n : Int) (hT : LawfulType d.type) (hinv : Inv d)
    (hr : d.rehashidx ≠ -1) {d1 : dict} (h : dictRehash d n = some (d1, 0)) :
    d1.rehashidx = -1 ∧ d1.ht1 = _dictReset ∧ d1.ht0.size = d.ht1.size ∧
      d1.ht0.sizemask = d.ht1.sizemask ∧ d1.ht0.table ≠ none := by
  unfold dictRehash at h
  have hre : dictIsRehashing d = true := (dictIsRehashing_iff d).mpr hr
  simp only [hre, Bool.not_true, Bool.false_eq_true, if_false] at h
  have h0 := hinv.idx_nonneg hr
  obtain ⟨d2, b, g1, g2, g3, g4, g5, g6, g7, g8, g9, g10, g11, g12, g13, g14, g15, g16, g17⟩ :=
    dictRehashLoop_spec (d.ht0.size + 1) d n (wrapInt (n * 10)) hT hinv hr
      (by push_cast; omega)
  rw [g1] at h
  cases b with
  | true =>
    simp only [] at h
    have := (Prod.mk.inj (Option.some.inj h)).2
    cases this
  | false =>
    simp only [] at h
    by_cases hu : d2.ht0.used = 0
    · rw [if_pos hu] at h
      have hd := (Prod.mk.inj (Option.some.inj h)).1
      rw [← hd]
      exact ⟨rfl, rfl, g8, g10, g2.alloc1 g3⟩
    · rw [if_neg hu] at h
      have := (Prod.mk.inj (Option.some.inj h)).2
      cases this

theorem rehashRepeat_spec :
    ∀ (fuel : Nat) (d : dict), LawfulType d.type → Inv d → d.rehashidx ≠ -1 → 1 ≤ fuel →
      (d.ht0.size : Int) ≤ (fuel : Int) + d.rehashidx →
      ∃ d1 k, rehashRepeat fuel d = some (d1, List.replicate k (1, true) ++ [(0, false)]) ∧
        k + 1 ≤ fuel ∧ Inv d1 ∧ d1.type = d.type ∧ d1.iterators = d.iterators ∧
        d1.trace = d.trace ∧ (dictEntries d1).Perm (dictEntries d) ∧
        d1.rehashidx = -1 ∧ d1.ht1 = _dictReset ∧ d1.ht0.size = d.ht1.size ∧
        d1.ht0.sizemask = d.ht1.sizemask ∧ d1.ht0.table ≠ none := by
  intro fuel
  induction fuel with
  | zero =>
    intro d _ _ _ h1 _
    omega
  | succ fuel ih =>
    intro d hT hinv hr _ hf
    rw [rehashRepeat]
    obtain ⟨d1, r, g1, g2, g3, g4, g5, g6, g7, _⟩ := dictRehash_spec d 1 hT hinv
    rw [g1]
    rcases g7 with ⟨h0, h1⟩ | ⟨h0, h1, h2, _, h4, h5, h6, h7, _, h9⟩
    · subst h0
      obtain ⟨f1, f2, f3, f4, f5⟩ := dictRehash_finish d 1 hT hinv hr g1
      have hnr : dictIsRehashing d1 = false := by simp [dictIsRehashing, h1]
      simp only [if_true, hnr]
      exact ⟨d1, 0, rfl, by omega, g2, g3, g4, g5, g6, f1, f2, f3, f4, f5⟩
    · subst h0
      have hlt := h9 (by decide)
      obtain ⟨bs, j, e, chain, htab, hj, hjle⟩ := exists_nonempty_bucket g2 h1 h2
      have hjlt := lt_of_getElem?_eq_some hj
      have hlen := g2.ok0.length_eq bs htab
      have hre : dictIsRehashing d1 = true := (dictIsRehashing_iff d1).mpr h1
      have hT1 : LawfulType d1.type := by rw [g3]; exact hT
      obtain ⟨d2, k, e1, e2, e3, e4, e5, e6, e7, e8, e9, e10, e11, e12⟩ :=
        ih d1 hT1 g2 h1 (by omega) (by omega)
      simp only []
      rw [if_neg (by decide), e1]
      simp only [hre]
      refine ⟨d2, k + 1, ?_, by omega, e3, e4.trans g3, e5.trans g4, e6.trans g5,
        e7.trans g6, e8, e9, e10.trans h5, e11.trans h7, e12⟩
      simp [List.replicate_succ]


theorem oneKeyDict_reachable : Reachable identityType oneKeyDict :=
  Reachable.add true (dictCreate identityType) oneKeyDict 1 10 DICT_OK Reachable.create
    (by decide) rfl

theorem rehashingDict_reachable : Reachable identityType rehashingDict :=
  Reachable.expand oneKeyDict rehashingDict 8 DICT_OK oneKeyDict_reachable rfl

/-! ## The growth of a new dictionary -/

theorem rehashStep_eq {d : dict} (hr : d.rehashidx ≠ -1) (hi : d.iterators = 0) :
    rehashStepIfRehashing d = (dictRehash d 1).map Prod.fst := by
  unfold rehashStepIfRehashing _dictRehashStep
  rw [(dictIsRehashing_iff d).mpr hr, if_pos rfl, if_pos hi]

theorem rehashStep_blocked {d : dict} (hi : d.iterators ≠ 0) :
    rehashStepIfRehashing d = some d := by
  unfold rehashStepIfRehashing _dictRehashStep
  rw [if_neg hi]
  simp

theorem rehashStep_stable {d : dict} (hr : d.rehashidx = -1) :
    rehashStepIfRehashing d = some d := by
  unfold rehashStepIfRehashing
  have : dictIsRehashing d = false := by simp [dictIsRehashing, hr]
  rw [this]
  rfl

theorem expandIfNeeded_rehashing (cr : Bool) {d : dict} (hr : d.rehashidx ≠ -1) :
    _dictExpandIfNeeded cr d = some (d, DICT_OK) := by
  unfold _dictExpandIfNeeded
  rw [(dictIsRehashing_iff d).mpr hr, if_pos rfl]

/-- What the expansion test before an insertion does to a stable dictionary with `n` entries
that is in the growth phase of `n`. -/
theorem growth_expand {d d1 : dict} {n : Nat} (hinv : Inv d) (hr : d.rehashidx = -1)
    (hn : (dictEntries d).length = n) (hn8 : n ≤ 8)
    (hsz : (n = 0 ∧ d.ht0.size = 0) ∨ (1 ≤ n ∧ n ≤ 4 ∧ d.ht0.size = 4) ∨
      (5 ≤ n ∧ d.ht0.size = 8 ∧ d.ht1.size = 0))
    (he : _dictExpandIfNeeded true d = some (d1, DICT_OK)) :
    (n ≤ 3 ∧ d1.rehashidx = -1 ∧ d1.ht0.size = 4) ∨
      (n = 4 ∧ d1.rehashidx = 0 ∧ d1.ht0.size = 4 ∧ d1.ht1.size = 8) ∨
      (5 ≤ n ∧ n ≤ 7 ∧ d1.rehashidx = -1 ∧ d1.ht0.size = 8 ∧ d1.ht1.size = 0) ∨
      (n = 8 ∧ d1.rehashidx = 0 ∧ d1.ht0.size = 8 ∧ d1.ht1.size = 16) := by
  have hu := used_eq_total_of_stable hinv hr
  rw [hn] at hu
  obtain ⟨c1, c2, c3⟩ := expandIfNeeded_cases true d hinv hr (by omega)
  rcases hsz with ⟨h0, hs⟩ | ⟨h1, h4, hs⟩ | ⟨h5, hs, hs1⟩
  · obtain ⟨_, e⟩ := c1 hs
    rw [e] at he
    have hd := (Prod.mk.inj (Option.some.inj he)).1
    rw [← hd]
    exact Or.inl ⟨by omega, hr, rfl⟩
  · by_cases h : n = 4
    · obtain ⟨k, _, _, e, _, _, e4⟩ := c2 (by omega) ⟨by omega, Or.inl rfl⟩
      rw [e] at he
      have hd := (Prod.mk.inj (Option.some.inj he)).1
      have hk : 2 ^ k = 8 := by
        rw [e4 (by omega), hs]
      rw [← hd]
      exact Or.inr (Or.inl ⟨h, rfl, hs, hk⟩)
    · have e := c3 (by omega) (fun hc => by omega)
      rw [e] at he
      have hd := (Prod.mk.inj (Option.some.inj he)).1
      rw [← hd]
      exact Or.inl ⟨by omega, hr, hs⟩
  · by_cases h : n = 8
    · obtain ⟨k, _, _, e, _, _, e4⟩ := c2 (by omega) ⟨by omega, Or.inl rfl⟩
      rw [e] at he
      have hd := (Prod.mk.inj (Option.some.inj he)).1
      have hk : 2 ^ k = 16 := by
        rw [e4 (by omega), hs]
      rw [← hd]
      exact Or.inr (Or.inr (Or.inr ⟨h, rfl, hs, hk⟩))
    · have e := c3 (by omega) (fun hc => by omega)
      rw [e] at he
      have hd := (Prod.mk.inj (Option.some.inj he)).1
      rw [← hd]
      exact Or.inr (Or.inr (Or.inl ⟨h5, by omega, hr, hs, hs1⟩))

/-- One `dictAdd` of an absent key, with resizing enabled and no live iterator, takes the
dictionary from the growth phase of `n` entries to that of `n + 1`. -/
theorem growth_add {d : dict} {n : Nat} (key val : Nat) (hT : LawfulType d.type) (hinv : Inv d)
    (hi : d.iterators = 0) (hn : (dictEntries d).length = n) (hn8 : n ≤ 8)
    (hp : growthPhase n d) (habs : ∀ x ∈ dictEntries d, keyEq d.type key x.key = false) :
    ∃ d2, dictAdd true d key val = some (d2, DICT_OK) ∧ Inv d2 ∧ d2.type = d.type ∧
      d2.iterators = 0 ∧ growthPhase (n + 1) d2 ∧
      (dictEntries d2).Perm (⟨dictSetKey d key, storedVal d.type val⟩ :: dictEntries d) := by
  obtain ⟨d2, r, a1, a2, a3, a4, ⟨d0, d1, a5, a6, a7, a8, a9⟩, a10⟩ :=
    dictAdd_spec true d key val hT hinv (by omega)
  have hperm : r = DICT_OK ∧
      (dictEntries d2).Perm (⟨dictSetKey d key, storedVal d.type val⟩ :: dictEntries d) := by
    rcases a10 with ⟨_, ⟨x, hx, hk⟩, _⟩ | ⟨h1, _, h3, _⟩
    · rw [habs x hx] at hk
      cases hk
    · exact ⟨h1, h3⟩
  obtain ⟨hr, hperm⟩ := hperm
  subst hr
  refine ⟨d2, a1, a2, a3, a4.trans hi, ?_, hperm⟩
  have key1 : (n + 1 = 0 ∧ d1.rehashidx = -1 ∧ d1.ht0.size = 0) ∨
      (1 ≤ n + 1 ∧ n + 1 ≤ 4 ∧ d1.rehashidx = -1 ∧ d1.ht0.size = 4) ∨
      (n + 1 = 5 ∧ d1.rehashidx = 0 ∧ d1.ht0.size = 4 ∧ d1.ht1.size = 8) ∨
      (6 ≤ n + 1 ∧ n + 1 ≤ 8 ∧
        ((d1.rehashidx ≠ -1 ∧ d1.ht0.size = 4 ∧ d1.ht1.size = 8 ∧
            ((n + 1 : Nat) : Int) - 5 ≤ d1.rehashidx) ∨
          (d1.rehashidx = -1 ∧ d1.ht0.size = 8 ∧ d1.ht1.size = 0))) ∨
      (n + 1 = 9 ∧ d1.rehashidx = 0 ∧ d1.ht0.size = 8 ∧ d1.ht1.size = 16) := by
    by_cases hr : d.rehashidx = -1
    · rw [rehashStep_stable hr] at a5
      cases a5
      have hsz : (n = 0 ∧ d.ht0.size = 0) ∨ (1 ≤ n ∧ n ≤ 4 ∧ d.ht0.size = 4) ∨
          (5 ≤ n ∧ d.ht0.size = 8 ∧ d.ht1.size = 0) := by
        rcases hp with ⟨h1, _, h3⟩ | ⟨h1, h2, _, h4⟩ | ⟨_, h2, _⟩ | ⟨h1, _, h3⟩ | ⟨h1, _⟩
        · exact Or.inl ⟨h1, h3⟩
        · exact Or.inr (Or.inl ⟨h1, h2, h4⟩)
        · rw [hr] at h2
          cases h2
        · rcases h3 with ⟨h, _⟩ | ⟨_, h5, h6⟩
          · exact absurd hr h
          · exact Or.inr (Or.inr ⟨by omega, h5, h6⟩)
        · omega
      rcases growth_expand hinv hr hn hn8 hsz a6 with ⟨h1, h2, h3⟩ | ⟨h1, h2, h3, h4⟩ |
        ⟨h1, h2, h3, h4, h5⟩ | ⟨h1, h2, h3, h4⟩
      · exact Or.inr (Or.inl ⟨by omega, by omega, h2, h3⟩)
      · exact Or.inr (Or.inr (Or.inl ⟨by omega, h2, h3, h4⟩))
      · exact Or.inr (Or.inr (Or.inr (Or.inl ⟨by omega, by omega, Or.inr ⟨h3, h4, h5⟩⟩)))
      · exact Or.inr (Or.inr (Or.inr (Or.inr ⟨by omega, h2, h3, h4⟩)))
    · have hph : 5 ≤ n ∧ d.ht0.size = 4 ∧ d.ht1.size = 8 ∧ (n : Int) - 5 ≤ d.rehashidx := by
        rcases hp with ⟨_, h2, _⟩ | ⟨_, _, h3, _⟩ | ⟨h1, h2, h3, h4⟩ | ⟨h1, _, h3⟩ |
          ⟨h1, _⟩
        · exact absurd h2 hr
        · exact absurd h3 hr
        · exact ⟨by omega, h3, h4, by omega⟩
        · rcases h3 with ⟨_, h5, h6, h7⟩ | ⟨h, _⟩
          · exact ⟨by omega, h5, h6, h7⟩
          · exact absurd h hr
        · omega
      obtain ⟨h5, hs0, hs1, hidx⟩ := hph
      rw [rehashStep_eq hr hi] at a5
      obtain ⟨d0', r0, g1, g2, g3, g4, g5, g6, g7, _⟩ := dictRehash_spec d 1 hT hinv
      rw [g1] at a5
      simp only [Option.map_some', Option.some.injEq] at a5
      subst a5
      rcases g7 with ⟨h0, h1⟩ | ⟨h0, h1, h2, _, h4, h5', _, _, _, h9⟩
      · subst h0
        obtain ⟨_, f2, f3, _, _⟩ := dictRehash_finish d 1 hT hinv hr g1
        have hn0 : (dictEntries d0').length = n := by rw [g6.length_eq]; exact hn
        have hs1' : d0'.ht1.size = 0 := by rw [f2]; rfl
        rcases growth_expand g2 h1 hn0 hn8 (Or.inr (Or.inr ⟨h5, by omega, hs1'⟩)) a6 with
          ⟨h1, _⟩ | ⟨h1, _⟩ | ⟨h1, h2, h3, h4, h5⟩ | ⟨h1, h2, h3, h4⟩
        · omega
        · omega
        · exact Or.inr (Or.inr (Or.inr (Or.inl ⟨by omega, by omega, Or.inr ⟨h3, h4, h5⟩⟩)))
        · exact Or.inr (Or.inr (Or.inr (Or.inr ⟨by omega, h2, h3, h4⟩)))
      · have hlt := h9 (by decide)
        obtain ⟨bs, j, e, chain, htab, hj, hjle⟩ := exists_nonempty_bucket g2 h1 h2
        have hjlt := lt_of_getElem?_eq_some hj
        have hlen := g2.ok0.length_eq bs htab
        rw [expandIfNeeded_rehashing true h1] at a6
        have hd := (Prod.mk.inj (Option.some.inj a6)).1
        rw [← hd]
        exact Or.inr (Or.inr (Or.inr (Or.inl ⟨by omega, by omega,
          Or.inl ⟨h1, by omega, by omega, by push_cast; omega⟩⟩)))
  unfold growthPhase
  rw [a7, a8, a9]
  exact key1

/-- Adding distinct absent keys one after the other to a dictionary in the growth phase of `n`
entries succeeds every time and follows the growth phases. -/
theorem addKeys_growth :
    ∀ (ks : List Nat) (d : dict) (n : Nat), LawfulType d.type → Inv d → d.iterators = 0 →
      (dictEntries d).length = n → n + ks.length ≤ 9 → growthPhase n d →
      ks.Pairwise (fun a b => keyEq d.type a b = false) →
      (∀ k ∈ ks, ∀ x ∈ dictEntries d, keyEq d.type k x.key = false) →
      ∃ d1, addKeys true d ks = some (d1, List.replicate ks.length DICT_OK) ∧ Inv d1 ∧
        d1.type = d.type ∧ (dictEntries d1).length = n + ks.length ∧
        growthPhase (n + ks.length) d1 := by
  intro ks
  induction ks with
  | nil =>
    intro d n _ hinv _ hn _ hp _ _
    exact ⟨d, rfl, hinv, rfl, hn, hp⟩
  | cons k rest ih =>
    intro d n hT hinv hi hn hle hp hpw habs
    rw [List.length_cons] at hle
    obtain ⟨d2, b1, b2, b3, b4, b5, b6⟩ :=
      growth_add k (10 * k) hT hinv hi hn (by omega) hp (habs k (List.mem_cons_self _ _))
    have hT2 : LawfulType d2.type := by rw [b3]; exact hT
    have hn2 : (dictEntries d2).length = n + 1 := by
      rw [b6.length_eq, List.length_cons, hn]
    obtain ⟨hk, hrest⟩ := List.pairwise_cons.mp hpw
    have habs2 : ∀ k1 ∈ rest, ∀ x ∈ dictEntries d2, keyEq d2.type k1 x.key = false := by
      intro k1 hk1 x hx
      rw [b3]
      rcases List.mem_cons.mp (b6.mem_iff.mp hx) with h | h
      · rw [h]
        show keyEq d.type k1 (dictSetKey d k) = false
        cases hc : keyEq d.type k1 (dictSetKey d k) with
        | false => rfl
        | true =>
          have h1 := hT.symm _ _ (keyEq_dictSetKey hT k)
          have h2 := hT.symm _ _ (hT.trans _ _ _ hc h1)
          rw [hk k1 hk1] at h2
          cases h2
      · exact habs k1 (List.mem_cons_of_mem _ hk1) x h
    obtain ⟨d3, c1, c2, c3, c4, c5⟩ :=
      ih d2 (n + 1) hT2 b2 b4 hn2 (by omega) b5 (by rw [b3]; exact hrest) habs2
    refine ⟨d3, ?_, c2, c3.trans b3, ?_, ?_⟩
    · rw [addKeys, b1]
      simp only []
      rw [c1]
      rfl
    · rw [c4, List.length_cons]
      omega
    · rw [List.length_cons]
      have : n + (rest.length + 1) = n + 1 + rest.length := by omega
      rw [this]
      exact c5

/-! ## The rehash step of the operations -/

theorem dictAddRaw_eq (cr : Bool) (d : dict) (key : Nat) :
    dictAddRaw cr d key = (rehashStepIfRehashing d).bind (fun d1 => dictAddRawInsert cr d1 key) := by
  unfold dictAddRaw
  cases rehashStepIfRehashing d with
  | none => rfl
  | some d1 => rfl

theorem dictAdd_eq (cr : Bool) (d : dict) (key val : Nat) :
    dictAdd cr d key val =
      (rehashStepIfRehashing d).bind (fun d1 => dictAddInsert cr d1 key val) := by
  unfold dictAdd
  rw [dictAddRaw_eq]
  cases rehashStepIfRehashing d with
  | none => rfl
  | some d1 => rfl

theorem dictReplace_eq (cr : Bool) (d : dict) (key val : Nat) :
    dictReplace cr d key val =
      (rehashStepIfRehashing d).bind (fun d1 => dictReplaceInsert cr d1 key val) := by
  unfold dictReplace
  rw [dictAddRaw_eq]
  cases rehashStepIfRehashing d with
  | none => rfl
  | some d1 => rfl

theorem dictGenericDelete_eq (d : dict) (key : Nat) (nofree : Bool)
    (hne : ¬ (d.ht0.used = 0 ∧ d.ht1.used = 0)) :
    dictGenericDelete d key nofree =
      (rehashStepIfRehashing d).bind (fun d1 => dictGenericDeleteSearch d1 key nofree) := by
  unfold dictGenericDelete
  rw [if_neg hne]
  cases rehashStepIfRehashing d with
  | none => rfl
  | some d1 => rfl

theorem dictDelete_eq (d : dict) (key : Nat) (hne : ¬ (d.ht0.used = 0 ∧ d.ht1.used = 0)) :
    dictDelete d key = (rehashStepIfRehashing d).bind (fun d1 => dictDeleteSearch d1 key) := by
  unfold dictDelete
  rw [dictGenericDelete_eq d key false hne]
  cases rehashStepIfRehashing d with
  | none => rfl
  | some d1 => rfl

theorem dictFind_eq (d : dict) (key : Nat)
    (hne : (d.ht0.used + d.ht1.used) % 18446744073709551616 ≠ 0) :
    dictFind d key = (rehashStepIfRehashing d).bind (fun d1 => dictFindLookup d1 key) := by
  unfold dictFind
  rw [if_neg hne]
  cases rehashStepIfRehashing d with
  | none => rfl
  | some d1 => rfl

/-- The lookup code of `dictFind` leaves the dictionary as it is. -/
theorem dictFindLookup_state {d1 d2 : dict} {key : Nat} {r : Option dictEntry}
    (h : dictFindLookup d1 key = some (d2, r)) : d2 = d1 := by
  unfold dictFindLookup at h
  simp only [] at h
  split at h
  · cases h
  · cases h
    rfl
  · split at h
    · cases h
      rfl
    · split at h
      · cases h
      · cases h
        rfl

theorem used_zero_iff {d : dict} (hinv : Inv d) :
    (d.ht0.used = 0 ∧ d.ht1.used = 0) ↔ dictSize d = 0 := by
  have h0 := hinv.ok0.used_eq
  have h1 := hinv.ok1.used_eq
  have ht := hinv.total
  rw [dictEntries, List.length_append] at ht
  unfold dictSize
  constructor
  · rintro ⟨a, b⟩
    rw [a, b]
  · intro h
    omega

theorem oneKeyDict_deleted_reachable :
    Reachable identityType
      (match dictDelete oneKeyDict 1 with
        | none => oneKeyDict
        | some (d, _) => d) :=
  Reachable.delete oneKeyDict _ 1 DICT_OK oneKeyDict_reachable rfl

theorem emptyRehashingDict_reachable : Reachable identityType emptyRehashingDict :=
  Reachable.expand _ emptyRehashingDict 8 DICT_OK oneKeyDict_deleted_reachable rfl

/-! ## Iterators -/

theorem wrapLong_eq {x : Int} (h1 : -9223372036854775808 ≤ x) (h2 : x < 9223372036854775808) :
    wrapLong x = x := by
  unfold wrapLong
  omega

theorem drop_flatten_of_get {α : Type} (bs : List (List α)) (j : Nat) (chain : List α)
    (h : bs[j]? = some chain) : (bs.drop j).flatten = chain ++ (bs.drop (j + 1)).flatten := by
  have hj := lt_of_getElem?_eq_some h
  rw [List.drop_eq_getElem_cons hj, List.flatten_cons]
  rw [List.getElem?_eq_getElem hj] at h
  rw [Option.some.inj h]

theorem dictNextFirst_fields (a0 a1 : Nat) (iter : dictIterator) (d : dict) :
    (dictNextFirst a0 a1 iter d).1.index = iter.index ∧
    (dictNextFirst a0 a1 iter d).1.table = iter.table ∧
    (dictNextFirst a0 a1 iter d).1.safe = iter.safe ∧
    (dictNextFirst a0 a1 iter d).1.entry = iter.entry ∧
    (dictNextFirst a0 a1 iter d).1.nextEntry = iter.nextEntry ∧
    (dictNextFirst a0 a1 iter d).2.type = d.type ∧
    (dictNextFirst a0 a1 iter d).2.ht0 = d.ht0 ∧
    (dictNextFirst a0 a1 iter d).2.ht1 = d.ht1 ∧
    (dictNextFirst a0 a1 iter d).2.rehashidx = d.rehashidx ∧
    (dictNextFirst a0 a1 iter d).2.trace = d.trace ∧
    (dictNextFirst a0 a1 iter d).2.iterators =
      (if (iter.index = -1 ∧ iter.table = 0) ∧ iter.safe = true then
        (d.iterators + 1) % 18446744073709551616 else d.iterators) ∧
    (¬ (iter.index = -1 ∧ iter.table = 0) → dictNextFirst a0 a1 iter d = (iter, d)) ∧
    (iter.safe = false → (dictNextFirst a0 a1 iter d).2 = d) := by
  unfold dictNextFirst
  by_cases h : iter.index = -1 ∧ iter.table = 0
  · rw [if_pos h]
    cases hs : iter.safe with
    | true => simp [h, hs]
    | false => simp [h, hs]
  · rw [if_neg h]
    simp [h]

theorem getHt_ok {d : dict} (hinv : Inv d) (t : Nat) : htOK d.type (getHt d t) := by
  unfold getHt
  split
  · exact hinv.ok0
  · exact hinv.ok1

theorem bucket_in_range {T : dictType} {ht : dictht} (hok : htOK T ht) {j : Nat}
    (hj : j < ht.size) :
    ∃ bs chain, ht.table = some bs ∧ bs.length = ht.size ∧ bucketGet ht j = some chain ∧
      bs[j]? = some chain := by
  cases htab : ht.table with
  | none =>
    have := hok.size_null htab
    omega
  | some bs =>
    have hlen := hok.length_eq bs htab
    have hj' : j < bs.length := by omega
    refine ⟨bs, bs[j], rfl, hlen, ?_, ?_⟩
    · rw [bucketGet_eq htab, List.getElem?_eq_getElem hj']
    · rw [List.getElem?_eq_getElem hj']

theorem cellLinked_of_bucket {d : dict} {t : Nat} {i : Int} {chain cell : List dictEntry}
    (hi : 0 ≤ i) (hb : bucketGet (getHt d t) i.toNat = some chain) (hs : cell <:+ chain) :
    cellLinked d t i cell = true := by
  unfold cellLinked
  rw [if_neg (by omega), hb]
  exact List.isSuffixOf_iff_suffix.mpr hs

theorem cellLinked_bucket {d : dict} {t : Nat} {i : Int} {cell : List dictEntry}
    (h : cellLinked d t i cell = true) :
    0 ≤ i ∧ ∃ chain, bucketGet (getHt d t) i.toNat = some chain ∧ cell <:+ chain := by
  unfold cellLinked at h
  by_cases hi : i < 0
  · rw [if_pos hi] at h
    cases h
  · rw [if_neg hi] at h
    cases hb : bucketGet (getHt d t) i.toNat with
    | none =>
      rw [hb] at h
      cases h
    | some chain =>
      rw [hb] at h
      exact ⟨by omega, chain, rfl, List.isSuffixOf_iff_suffix.mp h⟩

theorem cellLinked_congr {d d1 : dict} (h0 : d1.ht0 = d.ht0) (h1 : d1.ht1 = d.ht1) (t : Nat)
    (i : Int) (cell : List dictEntry) : cellLinked d1 t i cell = cellLinked d t i cell := by
  unfold cellLinked getHt
  rw [h0, h1]

theorem restBehind_congr {d d1 : dict} (h0 : d1.ht0 = d.ht0) (h1 : d1.ht1 = d.ht1) (t : Nat)
    (i : Int) : restBehind t i d1 = restBehind t i d := by
  unfold restBehind getHt
  rw [h0, h1]

theorem iterRest_congr {d d1 : dict} (h0 : d1.ht0 = d.ht0) (h1 : d1.ht1 = d.ht1)
    (iter : dictIterator) : iterRest iter d1 = iterRest iter d := by
  unfold iterRest
  rw [restBehind_congr h0 h1]

theorem IterOK_congr {d d1 : dict} {iter : dictIterator} (h : IterOK iter d)
    (h0 : d1.ht0 = d.ht0) (h1 : d1.ht1 = d.ht1) (h2 : d1.rehashidx = d.rehashidx) :
    IterOK iter d1 := by
  constructor
  · rw [h2]
    exact h.table_ok
  · have : getHt d1 iter.table = getHt d iter.table := by
      unfold getHt
      rw [h0, h1]
    rw [this]
    exact h.index_ok
  · intro he
    rw [cellLinked_congr h0 h1]
    exact h.linked he

/-- The entries behind a bucket, when the bucket of the next index holds `chain`. -/
theorem restBehind_step {d : dict} {t : Nat} {i : Int} {bs : List (List dictEntry)}
    {chain : List dictEntry} (hi : -1 ≤ i) (htab : (getHt d t).table = some bs)
    (hb : bs[(i + 1).toNat]? = some chain) :
    restBehind t i d = chain ++ restBehind t (i + 1) d := by
  unfold restBehind
  rw [htab]
  simp only [Option.getD_some]
  rw [drop_flatten_of_get bs _ chain hb, List.append_assoc]
  have : (i + 1 + 1).toNat = (i + 1).toNat + 1 := by omega
  rw [this]

/-- The statement that returns an entry: the iterator is then at that entry. -/
theorem dictNextReturn_spec {iter : dictIterator} {d : dict} {e : dictEntry}
    {next chain : List dictEntry}
    (htable : iter.table = 0 ∨ (iter.table = 1 ∧ d.rehashidx ≠ -1)) (h0 : 0 ≤ iter.index)
    (hlt : iter.index < ((getHt d iter.table).size : Int))
    (hb : bucketGet (getHt d iter.table) iter.index.toNat = some chain)
    (hs : (e :: next) <:+ chain) :
    ∃ iter1, dictNextReturn iter d e next = some (iter1, d, some e) ∧
      iter1.safe = iter.safe ∧ IterOK iter1 d ∧ 0 ≤ iter1.index ∧
      iter1.entry = e :: iter1.nextEntry ∧
      cellLinked d iter1.table iter1.index iter1.entry = true ∧
      iterRest iter1 d = next ++ restBehind iter.table iter.index d := by
  obtain ⟨it, hit⟩ : ∃ it : dictIterator, it = { iter with entry := e :: next, nextEntry := next } :=
    ⟨_, rfl⟩
  have f1 : it.table = iter.table := by rw [hit]
  have f2 : it.index = iter.index := by rw [hit]
  have f3 : it.entry = e :: next := by rw [hit]
  have f4 : it.nextEntry = next := by rw [hit]
  have f5 : it.safe = iter.safe := by rw [hit]
  have hnext : next <:+ chain := (List.suffix_cons e next).trans hs
  refine ⟨it, by rw [dictNextReturn, hit], f5, ?_, by rw [f2]; exact h0, by rw [f3, f4], ?_, ?_⟩
  · constructor
    · rw [f1]
      exact htable
    · rw [f1, f2]
      exact Or.inr ⟨h0, hlt⟩
    · intro _
      rw [f1, f2, f4]
      exact cellLinked_of_bucket h0 hb hnext
  · rw [f1, f2, f3]
    exact cellLinked_of_bucket h0 hb hs
  · unfold iterRest
    rw [f3, f4, f1, f2, if_neg (by simp)]

/-- Nothing is stored behind the last bucket of `ht[1]`, nor behind the last bucket of `ht[0]`
when the dictionary is not rehashing. -/
theorem restBehind_end {d : dict} (hinv : Inv d) {t : Nat} {i : Int}
    (hge : ((getHt d t).size : Int) ≤ i + 1) (ht : t = 0 → d.rehashidx = -1) :
    restBehind t i d = [] := by
  unfold restBehind
  have hdrop : (((getHt d t).table.getD []).drop (i + 1).toNat).flatten = [] := by
    cases htab : (getHt d t).table with
    | none => simp
    | some bs =>
      have hlen := (getHt_ok hinv t).length_eq bs htab
      simp only [Option.getD_some]
      rw [List.drop_of_length_le (by omega)]
      rfl
  rw [hdrop]
  by_cases h0 : t = 0
  · rw [if_pos h0, ht1_entries_of_stable hinv (ht h0)]
    rfl
  · rw [if_neg h0]
    rfl

/-- Behind the last bucket of `ht[0]` of a rehashing dictionary come the entries of `ht[1]`. -/
theorem restBehind_switch {d : dict} (hinv : Inv d) {i : Int}
    (hge : (d.ht0.size : Int) ≤ i + 1) (hr : d.rehashidx ≠ -1) :
    ∃ bs chain, d.ht1.table = some bs ∧ bucketGet d.ht1 0 = some chain ∧
      0 < d.ht1.size ∧ restBehind 0 i d = chain ++ restBehind 1 0 d := by
  have hsz := (ht_size_of_alloc hinv.ok1 (hinv.alloc1 hr)).1
  obtain ⟨bs, chain, htab, hlen, hb, hbs⟩ := bucket_in_range hinv.ok1 (j := 0) (by omega)
  refine ⟨bs, chain, htab, hb, by omega, ?_⟩
  unfold restBehind
  have hdrop : (((getHt d 0).table.getD []).drop (i + 1).toNat).flatten = [] := by
    rw [getHt_zero]
    cases htab0 : d.ht0.table with
    | none => simp
    | some bs0 =>
      have hlen0 := hinv.ok0.length_eq bs0 htab0
      simp only [Option.getD_some]
      rw [List.drop_of_length_le (by omega)]
      rfl
  rw [hdrop, if_pos rfl, if_neg (by decide), getHt_one, htab, List.nil_append,
    List.append_nil, htEntries_of_table htab]
  simp only [Option.getD_some]
  have := drop_flatten_of_get bs 0 chain hbs
  rw [List.drop_zero] at this
  rw [this]
  rfl

theorem dictNextLoop_spec (a0 a1 : Nat) :
    ∀ (fuel : Nat) (iter : dictIterator) (d : dict), Inv d → d.ht0.size ≤ LONG_MAX →
      d.ht1.size ≤ LONG_MAX → IterOK iter d →
      (if iter.entry = [] then 0 else 1) +
        ((getHt d iter.table).size - (iter.index + 1).toNat) +
        (if iter.table = 0 ∧ d.rehashidx ≠ -1 then d.ht1.size + 1 else 0) + 1 ≤ fuel →
      ∃ iter1 d1, dictNextLoop a0 a1 fuel iter d = some (iter1, d1, (iterRest iter d).head?) ∧
        d1.type = d.type ∧ d1.ht0 = d.ht0 ∧ d1.ht1 = d.ht1 ∧ d1.rehashidx = d.rehashidx ∧
        d1.trace = d.trace ∧
        d1.iterators =
          (if (iter.index = -1 ∧ iter.table = 0) ∧ iter.safe = true then
            (d.iterators + 1) % 18446744073709551616 else d.iterators) ∧
        iter1.safe = iter.safe ∧ (iter.safe = false → d1 = d) ∧
        (iterRest iter d ≠ [] → IterOK iter1 d1 ∧ 0 ≤ iter1.index ∧
          iter1.entry = (iterRest iter d).head?.toList ++ iter1.nextEntry ∧
          cellLinked d1 iter1.table iter1.index iter1.entry = true ∧
          iterRest iter1 d1 = (iterRest iter d).tail) := by
  intro fuel
  induction fuel with
  | zero =>
    intro iter d _ _ _ _ hf
    omega
  | succ fuel ih =>
    intro iter d hinv hs0 hs1 hok hf
    have hsz : ((getHt d iter.table).size : Int) < 9223372036854775808 := by
      unfold getHt
      unfold LONG_MAX at hs0 hs1
      split
      · omega
      · omega
    rw [dictNextLoop]
    by_cases hent : iter.entry = []
    · rw [if_pos hent]
      rw [if_pos hent] at hf
      obtain ⟨g1, g2, g3, g4, g5, g6, g7, g8, g9, g10, g11, g12, g13⟩ :=
        dictNextFirst_fields a0 a1 iter d
      obtain ⟨it1, hit1⟩ : ∃ it1, it1 = (dictNextFirst a0 a1 iter d).1 := ⟨_, rfl⟩
      obtain ⟨d1, hd1⟩ : ∃ d1, d1 = (dictNextFirst a0 a1 iter d).2 := ⟨_, rfl⟩
      rw [← hit1] at g1 g2 g3 g4 g5
      rw [← hd1] at g6 g7 g8 g9 g10 g11 g13
      simp only []
      rw [← hit1, ← hd1]
      have hinv1 : Inv d1 := Inv_congr hinv g6 g7 g8 g9
      have hget : getHt d1 it1.table = getHt d iter.table := by
        unfold getHt
        rw [g7, g8, g2]
      have hidx : -1 ≤ iter.index ∧ iter.index < ((getHt d iter.table).size : Int) ∨
          iter.index = -1 := by
        rcases hok.index_ok with ⟨h, _⟩ | ⟨h1, h2⟩
        · exact Or.inr h
        · exact Or.inl ⟨by omega, h2⟩
      have hge : -1 ≤ iter.index := by
        rcases hidx with h | h
        · exact h.1
        · omega
      have hle : iter.index + 1 ≤ ((getHt d iter.table).size : Int) := by
        rcases hidx with h | h
        · omega
        · omega
      rw [g1, wrapLong_eq (by omega) (by omega), hget, toLong_of_lt (by omega)]
      have hrest : iterRest iter d = restBehind iter.table iter.index d := by
        unfold iterRest
        rw [if_pos hent, List.nil_append]
      have hreh : dictIsRehashing d1 = dictIsRehashing d := by
        unfold dictIsRehashing
        rw [g9]
      by_cases hend : iter.index + 1 ≥ ((getHt d iter.table).size : Int)
      · rw [if_pos hend]
        by_cases hsw : d.rehashidx ≠ -1 ∧ iter.table = 0
        · have hc : (dictIsRehashing d1 && decide (it1.table = 0)) = true := by
            rw [hreh, (dictIsRehashing_iff d).mpr hsw.1, g2]
            simp [hsw.2]
          rw [if_pos hc]
          have hend0 : (d.ht0.size : Int) ≤ iter.index + 1 := by
            have := hend
            rw [hsw.2, getHt_zero] at this
            exact this
          obtain ⟨bs, chain, htab, hb, hpos, hrb⟩ := restBehind_switch hinv hend0 hsw.1
          rw [g8, hb]
          rw [hsw.2] at hrest
          rw [hrb] at hrest
          cases chain with
          | nil =>
            simp only []
            obtain ⟨it2, hit2⟩ : ∃ it2 : dictIterator,
                it2 = { it1 with table := 1, index := 0, entry := [] } := ⟨_, rfl⟩
            rw [← hit2]
            have e1 : it2.table = 1 := by rw [hit2]
            have e2 : it2.index = 0 := by rw [hit2]
            have e3 : it2.entry = [] := by rw [hit2]
            have e4 : it2.safe = it1.safe := by rw [hit2]
            have hok2 : IterOK it2 d1 := by
              constructor
              · rw [e1, g9]
                exact Or.inr ⟨rfl, hsw.1⟩
              · rw [e1, e2, getHt_one, g8]
                exact Or.inr ⟨le_refl _, by omega⟩
              · intro h
                exact absurd e3 h
            have hf2 : (if it2.entry = [] then 0 else 1) +
                ((getHt d1 it2.table).size - (it2.index + 1).toNat) +
                (if it2.table = 0 ∧ d1.rehashidx ≠ -1 then d1.ht1.size + 1 else 0) + 1 ≤
                fuel := by
              rw [if_pos e3, e1, e2, getHt_one, g8, if_neg (by simp)]
              rw [hsw.2, if_pos ⟨rfl, hsw.1⟩] at hf
              omega
            obtain ⟨it3, d3, k1, k2, k3, k4, k5, k6, k7, k8, k9, k10⟩ :=
              ih it2 d1 hinv1 (by rw [g7]; exact hs0) (by rw [g8]; exact hs1) hok2 hf2
            have hrest2 : iterRest it2 d1 = iterRest iter d := by
              rw [iterRest_congr g7 g8, hrest, List.nil_append]
              unfold iterRest
              rw [if_pos e3, e1, e2, List.nil_append]
            rw [hrest2] at k1 k10
            rw [e1, if_neg (by simp)] at k7
            refine ⟨it3, d3, k1, k2.trans g6, k3.trans g7, k4.trans g8, k5.trans g9,
              k6.trans g10, k7.trans g11, (k8.trans e4).trans g3, ?_, k10⟩
            intro hsf
            have := k9 ((e4.trans g3).trans hsf)
            rw [this]
            exact g13 hsf
          | cons e next =>
            simp only []
            obtain ⟨it2, hit2⟩ : ∃ it2 : dictIterator,
                it2 = { it1 with table := 1, index := 0 } := ⟨_, rfl⟩
            rw [← hit2]
            have e1 : it2.table = 1 := by rw [hit2]
            have e2 : it2.index = 0 := by rw [hit2]
            have e4 : it2.safe = it1.safe := by rw [hit2]
            obtain ⟨it3, r1, r2, r3, r4, r5, r6, r7⟩ :=
              @dictNextReturn_spec it2 d1 e next (e :: next)
                (by rw [e1, g9]; exact Or.inr ⟨rfl, hsw.1⟩) (by rw [e2])
                (by rw [e1, e2, getHt_one, g8]; omega)
                (by rw [e1, e2, getHt_one, g8]; exact hb) (List.suffix_refl _)
            rw [r1, hrest]
            rw [e1, e2, restBehind_congr g7 g8] at r7
            refine ⟨it3, d1, rfl, g6, g7, g8, g9, g10, g11, (r2.trans e4).trans g3, g13, ?_⟩
            intro _
            refine ⟨r3, r4, ?_, r6, ?_⟩
            · rw [r5]
              rfl
            · rw [r7]
              rfl
        · have hc : (dictIsRehashing d1 && decide (it1.table = 0)) = false := by
            rw [hreh, g2]
            by_cases hr : d.rehashidx = -1
            · have : dictIsRehashing d = false := by simp [dictIsRehashing, hr]
              rw [this]
              rfl
            · have : ¬ iter.table = 0 := fun h => hsw ⟨hr, h⟩
              simp [this]
          rw [hc]
          simp only [Bool.false_eq_true, if_false]
          have hnil : iterRest iter d = [] := by
            rw [hrest]
            apply restBehind_end hinv (by omega)
            intro h0
            by_contra hr
            exact hsw ⟨hr, h0⟩
          rw [hnil]
          exact ⟨_, d1, rfl, g6, g7, g8, g9, g10, g11, g3, g13, fun h => absurd rfl h⟩
      · rw [if_neg hend, if_neg (by omega)]
        have hlt : (iter.index + 1).toNat < (getHt d iter.table).size := by omega
        obtain ⟨bs, chain, htab, hlen, hb, hbs⟩ := bucket_in_range (getHt_ok hinv iter.table) hlt
        rw [hb]
        have hrb := restBehind_step hge htab hbs
        rw [hrb] at hrest
        cases chain with
        | nil =>
          simp only []
          obtain ⟨it2, hit2⟩ : ∃ it2 : dictIterator,
              it2 = { it1 with index := iter.index + 1, entry := [] } := ⟨_, rfl⟩
          rw [← hit2]
          have e1 : it2.table = iter.table := by rw [hit2]; exact g2
          have e2 : it2.index = iter.index + 1 := by rw [hit2]
          have e3 : it2.entry = [] := by rw [hit2]
          have e4 : it2.safe = it1.safe := by rw [hit2]
          have hok2 : IterOK it2 d1 := by
            constructor
            · rw [e1, g9]
              exact hok.table_ok
            · right
              rw [e2]
              have : getHt d1 it2.table = getHt d iter.table := by
                unfold getHt
                rw [g7, g8, e1]
              rw [this]
              omega
            · intro h
              exact absurd e3 h
          have hf2 : (if it2.entry = [] then 0 else 1) +
              ((getHt d1 it2.table).size - (it2.index + 1).toNat) +
              (if it2.table = 0 ∧ d1.rehashidx ≠ -1 then d1.ht1.size + 1 else 0) + 1 ≤
              fuel := by
            have : getHt d1 iter.table = getHt d iter.table := by
              unfold getHt
              rw [g7, g8]
            rw [if_pos e3, e1, e2, this, g9, g8]
            omega
          obtain ⟨it3, d3, k1, k2, k3, k4, k5, k6, k7, k8, k9, k10⟩ :=
            ih it2 d1 hinv1 (by rw [g7]; exact hs0) (by rw [g8]; exact hs1) hok2 hf2
          have hrest2 : iterRest it2 d1 = iterRest iter d := by
            rw [iterRest_congr g7 g8, hrest, List.nil_append]
            unfold iterRest
            rw [if_pos e3, e1, e2, List.nil_append]
          rw [hrest2] at k1 k10
          rw [e2, if_neg (by omega)] at k7
          refine ⟨it3, d3, k1, k2.trans g6, k3.trans g7, k4.trans g8, k5.trans g9,
            k6.trans g10, k7.trans g11, (k8.trans e4).trans g3, ?_, k10⟩
          intro hsf
          have := k9 ((e4.trans g3).trans hsf)
          rw [this]
          exact g13 hsf
        | cons e next =>
          simp only []
          obtain ⟨it2, hit2⟩ : ∃ it2 : dictIterator,
              it2 = { it1 with index := iter.index + 1 } := ⟨_, rfl⟩
          rw [← hit2]
          have e1 : it2.table = iter.table := by rw [hit2]; exact g2
          have e2 : it2.index = iter.index + 1 := by rw [hit2]
          have e4 : it2.safe = it1.safe := by rw [hit2]
          have hget2 : getHt d1 it2.table = getHt d iter.table := by
            unfold getHt
            rw [g7, g8, e1]
          obtain ⟨it3, r1, r2, r3, r4, r5, r6, r7⟩ :=
            @dictNextReturn_spec it2 d1 e next (e :: next)
              (by rw [e1, g9]; exact hok.table_ok) (by rw [e2]; omega)
              (by rw [e2, hget2]; omega)
              (by rw [e2, hget2]; exact hb) (List.suffix_refl _)
          rw [r1, hrest]
          rw [e1, e2, restBehind_congr g7 g8] at r7
          refine ⟨it3, d1, rfl, g6, g7, g8, g9, g10, g11, (r2.trans e4).trans g3, g13, ?_⟩
          intro _
          refine ⟨r3, r4, ?_, r6, ?_⟩
          · rw [r5]
            rfl
          · rw [r7]
            rfl
    · rw [if_neg hent]
      rw [if_neg hent] at hf
      have hidx : 0 ≤ iter.index ∧ iter.index < ((getHt d iter.table).size : Int) := by
        rcases hok.index_ok with ⟨_, _, h⟩ | h
        · exact absurd h hent
        · exact h
      have hni : ¬ (iter.index = -1 ∧ iter.table = 0) := by
        intro h
        omega
      have hrest : iterRest iter d = iter.nextEntry ++ restBehind iter.table iter.index d := by
        unfold iterRest
        rw [if_neg hent]
      cases hne : iter.nextEntry with
      | nil =>
        simp only []
        obtain ⟨it2, hit2⟩ : ∃ it2 : dictIterator,
            it2 = { index := iter.index, table := iter.table, safe := iter.safe, entry := [],
                    nextEntry := [], fingerprint := iter.fingerprint } := ⟨_, rfl⟩
        rw [← hit2]
        have e1 : it2.table = iter.table := by rw [hit2]
        have e2 : it2.index = iter.index := by rw [hit2]
        have e3 : it2.entry = [] := by rw [hit2]
        have e4 : it2.safe = iter.safe := by rw [hit2]
        have hok2 : IterOK it2 d := by
          constructor
          · rw [e1]
            exact hok.table_ok
          · rw [e1, e2]
            exact Or.inr hidx
          · intro h
            exact absurd e3 h
        have hf2 : (if it2.entry = [] then 0 else 1) +
            ((getHt d it2.table).size - (it2.index + 1).toNat) +
            (if it2.table = 0 ∧ d.rehashidx ≠ -1 then d.ht1.size + 1 else 0) + 1 ≤ fuel := by
          rw [if_pos e3, e1, e2]
          omega
        obtain ⟨it3, d3, k1, k2, k3, k4, k5, k6, k7, k8, k9, k10⟩ :=
          ih it2 d hinv hs0 hs1 hok2 hf2
        have hrest2 : iterRest it2 d = iterRest iter d := by
          rw [hrest, hne, List.nil_append]
          unfold iterRest
          rw [if_pos e3, e1, e2, List.nil_append]
        rw [hrest2] at k1 k10
        rw [e2, e1, if_neg (fun h => hni h.1)] at k7
        rw [if_neg (fun h => hni h.1)]
        refine ⟨it3, d3, k1, k2, k3, k4, k5, k6, k7, k8.trans e4, ?_, k10⟩
        intro hsf
        exact k9 (e4.trans hsf)
      | cons e next =>
        simp only []
        have hl := hok.linked hent
        rw [hne] at hl
        rw [hl, if_pos rfl]
        obtain ⟨_, chain, hb, hsuf⟩ := cellLinked_bucket hl
        obtain ⟨it3, r1, r2, r3, r4, r5, r6, r7⟩ :=
          @dictNextReturn_spec iter d e next chain
            hok.table_ok hidx.1 hidx.2 hb hsuf
        rw [r1, hrest, hne, if_neg (fun h => hni h.1)]
        refine ⟨it3, d, rfl, rfl, rfl, rfl, rfl, rfl, rfl, r2, fun _ => rfl, ?_⟩
        intro _
        refine ⟨r3, r4, ?_, r6, ?_⟩
        · rw [r5]
          rfl
        · rw [r7]
          rfl

/-- One call of `dictNext` returns the first of the entries the iterator has still to return,
or `NULL` when there is none. -/
theorem dictNext_spec (a0 a1 : Nat) (iter : dictIterator) (d : dict) (hinv : Inv d)
    (hs0 : d.ht0.size ≤ LONG_MAX) (hs1 : d.ht1.size ≤ LONG_MAX) (hok : IterOK iter d) :
    ∃ iter1 d1, dictNext a0 a1 iter d = some (iter1, d1, (iterRest iter d).head?) ∧
      d1.type = d.type ∧ d1.ht0 = d.ht0 ∧ d1.ht1 = d.ht1 ∧ d1.rehashidx = d.rehashidx ∧
      d1.trace = d.trace ∧
      d1.iterators =
        (if (iter.index = -1 ∧ iter.table = 0) ∧ iter.safe = true then
          (d.iterators + 1) % 18446744073709551616 else d.iterators) ∧
      iter1.safe = iter.safe ∧ (iter.safe = false → d1 = d) ∧
      (iterRest iter d ≠ [] → IterOK iter1 d1 ∧ 0 ≤ iter1.index ∧
        iter1.entry = (iterRest iter d).head?.toList ++ iter1.nextEntry ∧
        cellLinked d1 iter1.table iter1.index iter1.entry = true ∧
        iterRest iter1 d1 = (iterRest iter d).tail) := by
  unfold dictNext
  apply dictNextLoop_spec a0 a1 _ iter d hinv hs0 hs1 hok
  generalize (iter.index + 1).toNat = n
  rcases hok.table_ok with h | ⟨h, _⟩
  · rw [h, getHt_zero]
    split_ifs <;> omega
  · rw [h, getHt_one]
    have hn : ¬ ((1 : Nat) = 0 ∧ d.rehashidx ≠ -1) := fun hc => absurd hc.1 (by decide)
    rw [if_neg hn]
    split_ifs <;> omega

theorem restBehind_start (d : dict) : restBehind 0 (-1) d = dictEntries d := by
  unfold restBehind dictEntries
  rw [if_pos rfl, getHt_zero]
  have : ((-1 : Int) + 1).toNat = 0 := by decide
  rw [this, List.drop_zero]
  congr 1
  unfold htEntries
  cases d.ht0.table <;> rfl

theorem iterRest_start (d : dict) (safe : Bool) :
    iterRest { dictGetIterator with safe := safe } d = dictEntries d := by
  unfold iterRest
  show ([] : List dictEntry) ++ restBehind 0 (-1) d = dictEntries d
  rw [List.nil_append]
  exact restBehind_start d

theorem IterOK_start (d : dict) (safe : Bool) : IterOK { dictGetIterator with safe := safe } d :=
  ⟨Or.inl rfl, Or.inl ⟨rfl, rfl, rfl⟩, fun h => absurd rfl h⟩

/-- The caller loop over `dictNext` returns the entries the iterator has still to return, in
their order. -/
theorem iterateAll_spec (a0 a1 : Nat) :
    ∀ (fuel : Nat) (iter : dictIterator) (d : dict), Inv d → d.ht0.size ≤ LONG_MAX →
      d.ht1.size ≤ LONG_MAX → IterOK iter d → (iterRest iter d).length + 1 ≤ fuel →
      ∃ iter1 d1, iterateAll a0 a1 fuel iter d = some (iter1, d1, iterRest iter d) ∧
        d1.type = d.type ∧ d1.ht0 = d.ht0 ∧ d1.ht1 = d.ht1 ∧ d1.rehashidx = d.rehashidx ∧
        d1.trace = d.trace ∧ (iter.safe = false → d1 = d) := by
  intro fuel
  induction fuel with
  | zero =>
    intro iter d _ _ _ _ hf
    omega
  | succ fuel ih =>
    intro iter d hinv hs0 hs1 hok hf
    obtain ⟨it1, d1, k1, k2, k3, k4, k5, k6, _, k8, k9, k10⟩ :=
      dictNext_spec a0 a1 iter d hinv hs0 hs1 hok
    rw [iterateAll, k1]
    cases hrest : iterRest iter d with
    | nil => exact ⟨it1, d1, rfl, k2, k3, k4, k5, k6, k9⟩
    | cons e tl =>
      simp only [List.head?_cons]
      rw [hrest] at k10 hf
      obtain ⟨m1, _, _, _, m5⟩ := k10 (by simp)
      rw [List.tail_cons] at m5
      have hinv1 : Inv d1 := Inv_congr hinv k2 k3 k4 k5
      obtain ⟨it2, d2, n1, n2, n3, n4, n5, n6, n7⟩ :=
        ih it1 d1 hinv1 (by rw [k3]; exact hs0) (by rw [k4]; exact hs1) m1
          (by rw [m5]; simp only [List.length_cons] at hf; omega)
      rw [n1, m5]
      refine ⟨it2, d2, rfl, n2.trans k2, n3.trans k3, n4.trans k4, n5.trans k5, n6.trans k6, ?_⟩
      intro hsf
      rw [n7 (k8.trans hsf)]
      exact k9 hsf

/-! ## The fingerprint of an unsafe iterator -/

theorem dictNextFirst_fingerprint (a0 a1 : Nat) (iter : dictIterator) (d : dict) :
    (dictNextFirst a0 a1 iter d).1.fingerprint =
      (if (iter.index = -1 ∧ iter.table = 0) ∧ iter.safe = false then dictFingerprint a0 a1 d
        else iter.fingerprint) := by
  unfold dictNextFirst
  by_cases h : iter.index = -1 ∧ iter.table = 0
  · rw [if_pos h]
    cases hs : iter.safe with
    | true => simp [h]
    | false => simp [h]
  · rw [if_neg h]
    simp [h]

theorem toLong_le (x : Nat) : toLong x ≤ 9223372036854775807 := by
  unfold toLong
  split <;> omega

/-- What `dictNext` does to the fields `fingerprint` and `index` of the iterator: the first
advance of an unsafe iterator records the fingerprint of the dictionary, a later advance keeps
the recorded value, and after an advance the iterator is no longer in its initial position. -/
theorem dictNextLoop_fingerprint (a0 a1 : Nat) :
    ∀ (fuel : Nat) (iter : dictIterator) (d : dict) (iter1 : dictIterator) (d1 : dict)
      (r : Option dictEntry), dictNextLoop a0 a1 fuel iter d = some (iter1, d1, r) →
      -1 ≤ iter.index → iter.index < 9223372036854775807 → (iter.entry ≠ [] → 0 ≤ iter.index) →
      iter1.fingerprint =
        (if (iter.index = -1 ∧ iter.table = 0) ∧ iter.safe = false then dictFingerprint a0 a1 d
          else iter.fingerprint) ∧
      0 ≤ iter1.index := by
  intro fuel
  induction fuel with
  | zero =>
    intro iter d iter1 d1 r h
    rw [dictNextLoop] at h
    cases h
  | succ fuel ih =>
    intro iter d iter1 d1 r h hlo hhi hne
    rw [dictNextLoop] at h
    by_cases hent : iter.entry = []
    · rw [if_pos hent] at h
      have g1 := (dictNextFirst_fields a0 a1 iter d).1
      have g2 := dictNextFirst_fingerprint a0 a1 iter d
      obtain ⟨it1, hit1⟩ : ∃ it1, it1 = (dictNextFirst a0 a1 iter d).1 := ⟨_, rfl⟩
      obtain ⟨d2, hd2⟩ : ∃ d2, d2 = (dictNextFirst a0 a1 iter d).2 := ⟨_, rfl⟩
      rw [← hit1] at g1 g2
      simp only [] at h
      rw [← hit1, ← hd2] at h
      have hw : wrapLong (it1.index + 1) = iter.index + 1 := by
        rw [g1]
        exact wrapLong_eq (by omega) (by omega)
      rw [hw] at h
      rw [← g2]
      split at h
      · split at h
        · split at h
          · cases h
          · obtain ⟨k1, k2⟩ := ih _ _ _ _ _ h (by simp) (by simp) (fun hc => absurd rfl hc)
            refine ⟨?_, k2⟩
            rw [k1, if_neg (by simp)]
          · unfold dictNextReturn at h
            cases h
            exact ⟨rfl, le_refl _⟩
        · cases h
          exact ⟨rfl, by show 0 ≤ iter.index + 1; omega⟩
      · rename_i hlt
        have hle := toLong_le (getHt d2 it1.table).size
        split at h
        · cases h
        · split at h
          · cases h
          · obtain ⟨k1, k2⟩ := ih _ _ _ _ _ h (by show -1 ≤ iter.index + 1; omega)
              (by show iter.index + 1 < 9223372036854775807; omega) (fun hc => absurd rfl hc)
            refine ⟨?_, k2⟩
            rw [k1, if_neg (fun hc => by
              have : iter.index + 1 = -1 := hc.1.1
              omega)]
          · unfold dictNextReturn at h
            cases h
            exact ⟨rfl, by show 0 ≤ iter.index + 1; omega⟩
    · rw [if_neg hent] at h
      have h0 := hne hent
      rw [if_neg (fun hc => by omega)]
      split at h
      · obtain ⟨k1, k2⟩ := ih _ _ _ _ _ h hlo hhi (fun _ => h0)
        refine ⟨?_, k2⟩
        rw [k1, if_neg (fun hc => by
          have : iter.index = -1 := hc.1.1
          omega)]
      · split at h
        · unfold dictNextReturn at h
          cases h
          exact ⟨rfl, h0⟩
        · cases h

/-- The assertion of `dictReleaseIterator` compares, for an unsafe iterator that has advanced,
the recorded fingerprint with the fingerprint of the dictionary. -/
theorem dictReleaseIterator_check (b0 b1 : Nat) (iter : dictIterator) (d : dict)
    (hs : iter.safe = false) (hi : 0 ≤ iter.index) :
    dictReleaseIterator b0 b1 iter d =
      (if iter.fingerprint = dictFingerprint b0 b1 d then some d else none) := by
  unfold dictReleaseIterator
  have hni : (decide (iter.index = -1) && decide (iter.table = 0)) = false := by
    have : ¬ iter.index = -1 := by omega
    simp [this]
  rw [hni, hs]
  simp only [Bool.not_false, if_true, Bool.false_eq_true, if_false]

theorem dictFingerprint_congr {a0 a1 b0 b1 : Nat} {d d1 : dict}
    (h : fingerprintIntegers b0 b1 d1 = fingerprintIntegers a0 a1 d) :
    dictFingerprint b0 b1 d1 = dictFingerprint a0 a1 d := by
  unfold dictFingerprint
  rw [h]

/-! ## Deleting the entry that a safe iterator has returned -/

/-- Unlinking the head of a chain: one round of the loop of `dictGenericDelete` on the key of
the first entry of its bucket. -/
theorem genericDeleteTable_head {d : dict} {t : Nat} (ht : t = 0 ∨ t = 1)
    {bs : List (List dictEntry)} (htab : (getHt d t).table = some bs) {e : dictEntry}
    {next : List dictEntry}
    (hb : bs[dictHashKey d e.key &&& (getHt d t).sizemask]? = some (e :: next)) :
    ∃ d3, genericDeleteTable d t e.key (dictHashKey d e.key) false = some (d3, some e) ∧
      d3.type = d.type ∧ d3.rehashidx = d.rehashidx ∧ d3.iterators = d.iterators ∧
      getHt d3 (1 - t) = getHt d (1 - t) ∧
      (getHt d3 t).table =
        some (bs.set (dictHashKey d e.key &&& (getHt d t).sizemask) next) ∧
      (getHt d3 t).size = (getHt d t).size := by
  unfold genericDeleteTable
  simp only []
  rw [bucketGet_eq htab, hb]
  simp only []
  have hc : chainFind d e.key (e :: next) = some (0, e) := by
    unfold chainFind
    have : keyMatch d e.key e = true := by simp [keyMatch]
    rw [if_pos this]
  simp only [hc]
  have hilt := lt_of_getElem?_eq_some hb
  rw [bucketSet_eq htab hilt]
  simp only [List.eraseIdx_cons_zero]
  obtain ⟨nht, hnht⟩ : ∃ nht : dictht, nht =
      { getHt d t with
        table := some (bs.set (dictHashKey d e.key &&& (getHt d t).sizemask) next) } :=
    ⟨_, rfl⟩
  rw [← hnht]
  have n1 : nht.table = some (bs.set (dictHashKey d e.key &&& (getHt d t).sizemask) next) := by
    rw [hnht]
  have n2 : nht.size = (getHt d t).size := by rw [hnht]
  obtain ⟨d2, hd2, f1, f2, f3, f4, f5, _⟩ := freeEntry_fields (setHt d t nht) false e
  rw [← hd2]
  obtain ⟨d3, hd3⟩ : ∃ d3 : dict, d3 =
      setHt d2 t { getHt d2 t with used := decr64 (getHt d2 t).used } := ⟨_, rfl⟩
  rw [← hd3]
  have hg2 : getHt d2 t = nht := by
    rcases ht with h | h
    · subst h
      show d2.ht0 = nht
      rw [f2]
      rfl
    · subst h
      show d2.ht1 = nht
      rw [f3]
      rfl
  have hg2o : getHt d2 (1 - t) = getHt d (1 - t) := by
    rcases ht with h | h
    · subst h
      show d2.ht1 = d.ht1
      rw [f3]
      rfl
    · subst h
      show d2.ht0 = d.ht0
      rw [f2]
      rfl
  have g5 : getHt d3 t = { getHt d2 t with used := decr64 (getHt d2 t).used } := by
    rw [hd3]
    exact getHt_setHt_same d2 ht _
  refine ⟨d3, rfl, ?_, ?_, ?_, ?_, ?_, ?_⟩
  · rw [hd3, setHt_type, f1, setHt_type]
  · rw [hd3, setHt_rehashidx, f4, setHt_rehashidx]
  · rw [hd3, setHt_iterators, f5, setHt_iterators]
  · rw [hd3, getHt_setHt_other d2 ht, hg2o]
  · rw [g5]
    show (getHt d2 t).table = _
    rw [hg2, n1]
  · rw [g5]
    show (getHt d2 t).size = _
    rw [hg2, n2]

/-- The function `dictDelete` on the key of the first entry of a bucket, while a safe iterator
is live (no rehash step): the entry is unlinked from its bucket and nothing else changes in the
tables. When the bucket is in `ht[1]`, `ht[0]` is supposed to hold no entry. -/
theorem dictDelete_head {d : dict} (hT : LawfulType d.type) (hinv : Inv d)
    (hi : d.iterators ≠ 0) {t : Nat}
    (ht : t = 0 ∨ (t = 1 ∧ d.rehashidx ≠ -1 ∧ htEntries d.ht0 = []))
    {bs : List (List dictEntry)} (htab : (getHt d t).table = some bs) {i : Nat}
    {e : dictEntry} {next : List dictEntry} (hb : bs[i]? = some (e :: next)) :
    ∃ d2, dictDelete d e.key = some (d2, DICT_OK) ∧ Inv d2 ∧ d2.type = d.type ∧
      d2.rehashidx = d.rehashidx ∧ d2.iterators = d.iterators ∧
      getHt d2 (1 - t) = getHt d (1 - t) ∧ (getHt d2 t).table = some (bs.set i next) ∧
      (getHt d2 t).size = (getHt d t).size := by
  have ht01 : t = 0 ∨ t = 1 := by
    rcases ht with h | ⟨h, _⟩
    · exact Or.inl h
    · exact Or.inr h
  have hidx : dictHashKey d e.key &&& (getHt d t).sizemask = i :=
    (getHt_ok hinv t).placed bs i (e :: next) e htab hb (List.mem_cons_self _ _)
  have hmem : e ∈ htEntries (getHt d t) :=
    mem_htEntries_of_bucket htab hb (List.mem_cons_self _ _)
  have hguard : ¬ (d.ht0.used = 0 ∧ d.ht1.used = 0) := by
    intro hc
    have hu := (getHt_ok hinv t).used_eq
    have hpos := List.length_pos_of_mem hmem
    rcases ht01 with h | h
    · rw [h, getHt_zero] at hu hpos
      omega
    · rw [h, getHt_one] at hu hpos
      omega
  obtain ⟨d2', r, a1, a2, _⟩ := dictDelete_spec d e.key hT hinv
  have hb' : bs[dictHashKey d e.key &&& (getHt d t).sizemask]? = some (e :: next) := by
    rw [hidx]
    exact hb
  obtain ⟨d3, k1, k2, k3, k4, k5, k6, k7⟩ := genericDeleteTable_head ht01 htab hb'
  rw [hidx] at k6
  have hdel : dictDelete d e.key = some (d3, DICT_OK) := by
    unfold dictDelete dictGenericDelete
    rw [if_neg hguard, rehashStep_blocked hi]
    simp only []
    rcases ht with h | ⟨h, hr, hempty⟩
    · subst h
      rw [k1]
    · subst h
      obtain ⟨bs0, htab0⟩ := Option.ne_none_iff_exists'.mp (hinv.alloc0 hr)
      obtain ⟨chain0, hget0, hb0⟩ := htOK_bucketGet hinv.ok0 htab0 (dictHashKey d e.key)
      have hc0 : chain0 = [] := by
        cases chain0 with
        | nil => rfl
        | cons x xs =>
          have := mem_htEntries_of_bucket htab0 hb0 (List.mem_cons_self x xs)
          rw [hempty] at this
          cases this
      subst hc0
      have hfirst : genericDeleteTable d 0 e.key (dictHashKey d e.key) false = some (d, none) := by
        unfold genericDeleteTable
        simp only []
        rw [getHt_zero, hget0]
        rfl
      rw [hfirst]
      simp only []
      rw [(dictIsRehashing_iff d).mpr hr]
      simp only [Bool.not_true, Bool.false_eq_true, if_false]
      rw [k1]
  rw [hdel] at a1
  have hd : d3 = d2' := (Prod.mk.inj (Option.some.inj a1)).1
  rw [← hd] at a2
  exact ⟨d3, hdel, a2, k2, k3, k4, k5, k6, k7⟩

/-- The entries of the dictionary, split at a bucket: the entries in front of the bucket, its
chain, and the entries behind it. -/
theorem dictEntries_split {d : dict} {t : Nat} (ht : t = 0 ∨ t = 1)
    {bs : List (List dictEntry)} (htab : (getHt d t).table = some bs) {i : Nat}
    {chain : List dictEntry} (hb : bs[i]? = some chain) :
    dictEntries d =
      ((if t = 0 then [] else htEntries d.ht0) ++ (bs.take i).flatten) ++
        (chain ++ restBehind t (i : Int) d) := by
  have hsplit : bs.flatten = (bs.take i).flatten ++ (chain ++ (bs.drop (i + 1)).flatten) := by
    rw [← drop_flatten_of_get bs i chain hb, ← List.flatten_append, List.take_append_drop]
  have hcast : ((i : Int) + 1).toNat = i + 1 := by omega
  unfold restBehind dictEntries
  rw [htab, hcast]
  simp only [Option.getD_some]
  rcases ht with h | h
  · subst h
    rw [getHt_zero] at htab
    rw [if_pos rfl, if_pos rfl, htEntries_of_table htab, hsplit]
    simp only [List.nil_append, List.append_assoc]
  · subst h
    rw [getHt_one] at htab
    rw [if_neg (by decide), if_neg (by decide), htEntries_of_table htab, hsplit]
    simp only [List.append_nil, List.append_assoc]

/-- Replacing the chain of a bucket changes nothing behind the bucket. -/
theorem restBehind_set {d d2 : dict} {t : Nat} (ht : t = 0 ∨ t = 1)
    {bs : List (List dictEntry)} (htab : (getHt d t).table = some bs) {i : Nat}
    {c : List dictEntry} (htab2 : (getHt d2 t).table = some (bs.set i c))
    (hother : getHt d2 (1 - t) = getHt d (1 - t)) :
    restBehind t (i : Int) d2 = restBehind t (i : Int) d := by
  have hcast : ((i : Int) + 1).toNat = i + 1 := by omega
  unfold restBehind
  rw [htab, htab2, hcast]
  simp only [Option.getD_some]
  rw [List.drop_set_of_lt _ _ (by omega)]
  rcases ht with h | h
  · subst h
    have : d2.ht1 = d.ht1 := hother
    rw [this]
  · subst h
    rfl

theorem take_set_self {α : Type} (l : List α) (i : Nat) (a : α) :
    (l.set i a).take i = l.take i := by
  rw [List.set_take]
  exact List.set_eq_of_length_le (List.length_take_le i l)

theorem bucketGet_some {ht : dictht} {i : Nat} {chain : List dictEntry}
    (h : bucketGet ht i = some chain) : ∃ bs, ht.table = some bs ∧ bs[i]? = some chain := by
  unfold bucketGet at h
  cases htab : ht.table with
  | none =>
    rw [htab] at h
    cases h
  | some bs =>
    rw [htab] at h
    exact ⟨bs, rfl, h⟩

/-- The caller loop that deletes every entry right after `dictNext` has returned it: when the
iterator is safe and has everything in front of it already deleted, the loop returns the
entries of the dictionary in their order, every `dictDelete` succeeds, and the dictionary ends
without entries. -/
theorem iterateDeleting_spec (a0 a1 : Nat) :
    ∀ (fuel : Nat) (iter : dictIterator) (d : dict), LawfulType d.type → Inv d →
      d.ht0.size ≤ LONG_MAX → d.ht1.size ≤ LONG_MAX → IterOK iter d →
      iterRest iter d = dictEntries d → iter.safe = true →
      ((iter.index = -1 ∧ iter.table = 0 ∧ d.iterators < 18446744073709551615) ∨
        (0 ≤ iter.index ∧ d.iterators ≠ 0)) →
      (dictEntries d).length + 1 ≤ fuel →
      ∃ iter1 d1, iterateDeleting a0 a1 fuel iter d =
          some (iter1, d1, (dictEntries d).map (fun e => (e, DICT_OK))) ∧
        dictEntries d1 = [] ∧ Inv d1 ∧ d1.type = d.type := by
  intro fuel
  induction fuel with
  | zero =>
    intro iter d _ _ _ _ _ _ _ _ hf
    omega
  | succ fuel ih =>
    intro iter d hT hinv hs0 hs1 hok hrest hsafe hcnt hf
    obtain ⟨it1, d1, k1, k2, k3, k4, k5, _, k7, k8, _, k10⟩ :=
      dictNext_spec a0 a1 iter d hinv hs0 hs1 hok
    rw [hrest] at k1 k10
    rw [iterateDeleting, k1]
    have hinv1 : Inv d1 := Inv_congr hinv k2 k3 k4 k5
    have hE1 : dictEntries d1 = dictEntries d := by
      unfold dictEntries
      rw [k3, k4]
    cases hE : dictEntries d with
    | nil =>
      simp only [List.head?_nil, List.map_nil]
      exact ⟨it1, d1, rfl, by rw [hE1, hE], hinv1, k2⟩
    | cons e tl =>
      simp only [List.head?_cons, List.map_cons]
      rw [hE] at k10 hf
      obtain ⟨m1, m2, m3, m4, m5⟩ := k10 (by simp)
      simp only [List.head?_cons, Option.toList_some, List.singleton_append] at m3
      rw [List.tail_cons] at m5
      have hT1 : LawfulType d1.type := by rw [k2]; exact hT
      have hit1 : d1.iterators ≠ 0 := by
        rw [k7]
        rcases hcnt with ⟨h1, h2, h3⟩ | ⟨h1, h2⟩
        · rw [if_pos ⟨⟨h1, h2⟩, hsafe⟩]
          omega
        · rw [if_neg (fun hc => by
            have : iter.index = -1 := hc.1.1
            omega)]
          exact h2
      obtain ⟨_, chain, hbg, hsuf⟩ := cellLinked_bucket m4
      obtain ⟨bs, htab, hbs⟩ := bucketGet_some hbg
      have ht01 : it1.table = 0 ∨ it1.table = 1 := by
        rcases m1.table_ok with h | ⟨h, _⟩
        · exact Or.inl h
        · exact Or.inr h
      have hcast : ((it1.index.toNat : Nat) : Int) = it1.index := by omega
      have hsplit := dictEntries_split ht01 htab hbs
      rw [hcast, hE1, hE] at hsplit
      have hne : it1.entry ≠ [] := by
        rw [m3]
        simp
      have hm5 : tl = it1.nextEntry ++ restBehind it1.table it1.index d1 := by
        rw [← m5]
        unfold iterRest
        rw [if_neg hne]
      obtain ⟨p, hp⟩ := hsuf
      have hfront : ((if it1.table = 0 then [] else htEntries d1.ht0) ++
          (bs.take it1.index.toNat).flatten) ++ p = [] := by
        have h1 : e :: tl = it1.entry ++ restBehind it1.table it1.index d1 := by
          rw [hm5, m3]
          rfl
        rw [h1, ← hp] at hsplit
        have h2 : [] ++ (it1.entry ++ restBehind it1.table it1.index d1) =
            (((if it1.table = 0 then [] else htEntries d1.ht0) ++
              (bs.take it1.index.toNat).flatten) ++ p) ++
              (it1.entry ++ restBehind it1.table it1.index d1) := by
          rw [List.nil_append]
          simp only [List.append_assoc] at hsplit ⊢
          exact hsplit
        exact (List.append_cancel_right h2).symm
      obtain ⟨hfront1, hp0⟩ := List.append_eq_nil.mp hfront
      obtain ⟨hpre, htake⟩ := List.append_eq_nil.mp hfront1
      subst hp0
      rw [List.nil_append] at hp
      have hchain : bs[it1.index.toNat]? = some (e :: it1.nextEntry) := by
        rw [hbs, ← hp, m3]
      have htcond : it1.table = 0 ∨
          (it1.table = 1 ∧ d1.rehashidx ≠ -1 ∧ htEntries d1.ht0 = []) := by
        rcases m1.table_ok with h | ⟨h, hr⟩
        · exact Or.inl h
        · refine Or.inr ⟨h, hr, ?_⟩
          rw [h, if_neg (by decide)] at hpre
          exact hpre
      obtain ⟨d2, e1, e2, e3, e4, e5, e6, e7, e8⟩ :=
        dictDelete_head hT1 hinv1 hit1 htcond htab hchain
      rw [e1]
      simp only []
      have hT2 : LawfulType d2.type := by rw [e3]; exact hT1
      have hilt : it1.index.toNat < bs.length := lt_of_getElem?_eq_some hbs
      have hlen := (getHt_ok hinv1 it1.table).length_eq bs htab
      have hbs2 : (bs.set it1.index.toNat it1.nextEntry)[it1.index.toNat]? =
          some it1.nextEntry := by
        rw [List.getElem?_set_self hilt]
      have hbg2 : bucketGet (getHt d2 it1.table) it1.index.toNat = some it1.nextEntry := by
        rw [bucketGet_eq e7, hbs2]
      have hsz2 : d2.ht0.size ≤ LONG_MAX ∧ d2.ht1.size ≤ LONG_MAX := by
        rw [← k3] at hs0
        rw [← k4] at hs1
        rcases ht01 with h | h
        · rw [h] at e6 e8
          have a : d2.ht0.size = d1.ht0.size := e8
          have b : d2.ht1 = d1.ht1 := e6
          rw [a, b]
          exact ⟨hs0, hs1⟩
        · rw [h] at e6 e8
          have a : d2.ht1.size = d1.ht1.size := e8
          have b : d2.ht0 = d1.ht0 := e6
          rw [a, b]
          exact ⟨hs0, hs1⟩
      have hok2 : IterOK it1 d2 := by
        constructor
        · rw [e4]
          exact m1.table_ok
        · right
          rw [e8]
          exact ⟨m2, by omega⟩
        · intro _
          exact cellLinked_of_bucket m2 hbg2 (List.suffix_refl _)
      have hrb : restBehind it1.table it1.index d2 = restBehind it1.table it1.index d1 := by
        have := restBehind_set ht01 htab e7 e6
        rw [hcast] at this
        exact this
      have hrest2 : iterRest it1 d2 = tl := by
        unfold iterRest
        rw [if_neg hne, hrb, hm5]
      have hpre2 : (if it1.table = 0 then [] else htEntries d2.ht0) = [] := by
        rcases ht01 with h | h
        · rw [if_pos h]
        · rw [if_neg (by omega)]
          rw [h] at e6
          have b : d2.ht0 = d1.ht0 := e6
          rw [b]
          rw [h, if_neg (by decide)] at hpre
          exact hpre
      have hE2 : dictEntries d2 = tl := by
        have := dictEntries_split ht01 e7 hbs2
        rw [hcast, take_set_self, htake, hpre2, hrb] at this
        rw [this, hm5]
        rfl
      obtain ⟨it3, d3, n1, n2, n3, n4⟩ :=
        ih it1 d2 hT2 e2 hsz2.1 hsz2.2 hok2 (by rw [hrest2, hE2]) (k8.trans hsafe)
          (Or.inr ⟨m2, by rw [e5]; exact hit1⟩)
          (by rw [hE2]; simp only [List.length_cons] at hf; omega)
      rw [n1, hE2]
      exact ⟨it3, d3, rfl, n2, n3, (n4.trans e3).trans k2⟩

/-- A `dictAdd` of a new key followed by the `dictDelete` of that key, on a dictionary with one
entry in four buckets, restores the six integers of the fingerprint, whatever the addresses of
the bucket arrays: an unsafe iterator that advanced before the two calls is released without
failure of the assertion. -/
theorem fingerprint_restored (a0 a1 : Nat) :
    ∃ iter1,
      dictNext a0 a1 dictGetIterator oneKeyDict = some (iter1, oneKeyDict, some ⟨1, 10⟩) ∧
      _dictExpandIfNeeded true oneKeyDict = some (oneKeyDict, DICT_OK) ∧
      dictAdd true oneKeyDict 2 20 = some (twoKeyDict, DICT_OK) ∧ dictSize twoKeyDict = 2 ∧
      dictDelete twoKeyDict 2 = some (oneKeyAgainDict, DICT_OK) ∧
      dictSize oneKeyAgainDict = 1 ∧
      dictIsRehashing twoKeyDict = false ∧ dictIsRehashing oneKeyAgainDict = false ∧
      twoKeyDict.ht0.size = oneKeyDict.ht0.size ∧
      oneKeyAgainDict.ht0.size = oneKeyDict.ht0.size ∧
      fingerprintIntegers a0 a1 oneKeyAgainDict = fingerprintIntegers a0 a1 oneKeyDict ∧
      iter1.fingerprint = dictFingerprint a0 a1 oneKeyAgainDict ∧
      dictReleaseIterator a0 a1 iter1 oneKeyAgainDict = some oneKeyAgainDict := by
  have hI : fingerprintIntegers a0 a1 oneKeyAgainDict = fingerprintIntegers a0 a1 oneKeyDict :=
    rfl
  have hfp := dictFingerprint_congr hI
  obtain ⟨it, hit⟩ : ∃ it : dictIterator,
      it = { index := 1, table := 0, safe := false, entry := [⟨1, 10⟩], nextEntry := [],
             fingerprint := dictFingerprint a0 a1 oneKeyDict } := ⟨_, rfl⟩
  have h1 : it.fingerprint = dictFingerprint a0 a1 oneKeyDict := by rw [hit]
  have h2 : it.safe = false := by rw [hit]
  have h3 : it.index = 1 := by rw [hit]
  have hnext : dictNext a0 a1 dictGetIterator oneKeyDict =
      some (it, oneKeyDict, some ⟨1, 10⟩) := by
    rw [hit]
    rfl
  refine ⟨it, hnext, rfl, rfl, rfl, rfl, rfl, rfl, rfl, rfl, rfl, hI, h1.trans hfp.symm, ?_⟩
  rw [dictReleaseIterator_check a0 a1 it _ h2 (by omega), if_pos (h1.trans hfp.symm)]

/-! ## Round trips -/

/-- In a list of entries with pairwise different keys, at most one entry matches a key. -/
theorem match_unique {T : dictType} (hT : LawfulType T) {l : List dictEntry}
    (hnd : l.Pairwise (keysDiffer T)) {a b : dictEntry} (ha : a ∈ l) (hb : b ∈ l) {key : Nat}
    (h1 : keyEq T key a.key = true) (h2 : keyEq T key b.key = true) : a = b := by
  by_contra hne
  have hsym : Symmetric (keysDiffer T) := fun _ _ hxy => keysDiffer_symm hT hxy
  have hdiff : keysDiffer T a b := hnd.forall hsym ha hb hne
  have := hT.trans _ _ _ (hT.symm _ _ h1) h2
  rw [keysDiffer] at hdiff
  rw [hdiff] at this
  cases this

theorem keyPresent_iff {T : dictType} {d : dict} (hty : d.type = T) (key : Nat) :
    keyPresent d key ↔ ∃ e ∈ dictEntries d, keyEq T key e.key = true := by
  unfold keyPresent
  rw [hty]

theorem not_keyPresent {T : dictType} {d : dict} (hty : d.type = T) {key : Nat}
    (h : ¬ keyPresent d key) : ∀ x ∈ dictEntries d, keyEq T key x.key = false := by
  intro x hx
  cases hk : keyEq T key x.key with
  | false => rfl
  | true => exact absurd ((keyPresent_iff hty key).mpr ⟨x, hx, hk⟩) h

/-! ## The dictionary implements a finite map -/

theorem dictSetKey_eq {T : dictType} {d : dict} (hty : d.type = T) (key : Nat) :
    dictSetKey d key = storedKey T key := by
  subst hty
  unfold dictSetKey storedKey
  cases d.type.keyDup <;> rfl

theorem mapFind_isSome {T : dictType} {m : List dictEntry} {key : Nat} :
    (mapFind T m key).isSome = true ↔ ∃ x ∈ m, keyEq T key x.key = true := by
  unfold mapFind
  rw [List.find?_isSome]

theorem mapFind_none_of_absent {T : dictType} {m : List dictEntry} {key : Nat}
    (h : ∀ x ∈ m, keyEq T key x.key = false) : mapFind T m key = none := by
  unfold mapFind
  rw [List.find?_eq_none]
  intro x hx
  rw [h x hx]
  simp

theorem mapFind_of_mem {T : dictType} (hT : LawfulType T) {m : List dictEntry}
    (hnd : m.Pairwise (keysDiffer T)) {key : Nat} {he : dictEntry} (hmem : he ∈ m)
    (hk : keyEq T key he.key = true) : mapFind T m key = some he := by
  cases hf : mapFind T m key with
  | none =>
    unfold mapFind at hf
    rw [List.find?_eq_none] at hf
    have := hf he hmem
    rw [hk] at this
    exact absurd rfl this
  | some x =>
    unfold mapFind at hf
    have hx := List.mem_of_find?_eq_some hf
    have hkx := List.find?_some hf
    rw [match_unique hT hnd hmem hx hk hkx]

theorem mapFind_false_of_absent {T : dictType} {d : dict} {m : List dictEntry}
    (hm : (dictEntries d).Perm m) {key : Nat}
    (h : ∀ x ∈ dictEntries d, keyEq T key x.key = false) :
    (mapFind T m key).isSome = false := by
  rw [mapFind_none_of_absent (fun x hx => h x (hm.mem_iff.mpr hx))]
  rfl

theorem mapFind_true_of_present {T : dictType} {d : dict} {m : List dictEntry}
    (hm : (dictEntries d).Perm m) {key : Nat} {x : dictEntry} (hx : x ∈ dictEntries d)
    (hk : keyEq T key x.key = true) : (mapFind T m key).isSome = true :=
  mapFind_isSome.mpr ⟨x, hm.mem_iff.mp hx, hk⟩

/-- In a list whose head matches the key and whose keys are pairwise different, no entry of the
tail matches the key. -/
theorem tail_no_match {T : dictType} (hT : LawfulType T) {he : dictEntry}
    {rest : List dictEntry} (hnd : (he :: rest).Pairwise (keysDiffer T)) {key : Nat}
    (hk : keyEq T key he.key = true) : ∀ y ∈ rest, keyEq T key y.key = false := by
  intro y hy
  cases hky : keyEq T key y.key with
  | false => rfl
  | true =>
    have hdiff : keysDiffer T he y := (List.pairwise_cons.mp hnd).1 y hy
    have := hT.trans _ _ _ (hT.symm _ _ hk) hky
    rw [keysDiffer] at hdiff
    rw [hdiff] at this
    cases this

/-- Every call refines the corresponding call on the finite map. -/
theorem runOp_refines {T : dictType} (hT : LawfulType T) {d : dict} (hty : d.type = T)
    (hinv : Inv d) {m : List dictEntry} (hm : (dictEntries d).Perm m)
    (hb : (dictEntries d).length < 576460752303423488) (op : Op) :
    ∃ d1 r, runOp d op = some (d1, r) ∧ Inv d1 ∧ d1.type = T ∧
      (dictEntries d1).Perm (mapOp T m op).1 ∧ resultAgrees r (mapOp T m op).2 ∧
      ((dictEntries d1).length : Int) = (dictEntries d).length + netAdded [op] [r] := by
  have hTd : LawfulType d.type := hty ▸ hT
  have hndm : m.Pairwise (keysDiffer T) := by
    have := (List.Perm.pairwise_iff (fun hxy => keysDiffer_symm hTd hxy) hm).mp hinv.nodup
    rw [hty] at this
    exact this
  cases op with
  | add cr key val =>
    obtain ⟨d2, r, a1, a2, a3, _, _, a6⟩ := dictAdd_spec cr d key val hTd hinv hb
    rw [hty] at a6 a3
    rw [dictSetKey_eq hty] at a6
    simp only [runOp, mapOp, a1]
    rcases a6 with ⟨hr, ⟨x, hx, hk⟩, hp, _⟩ | ⟨hr, hno, hp, _⟩
    · subst hr
      rw [mapFind_true_of_present hm hx hk, if_pos rfl]
      refine ⟨d2, _, rfl, a2, a3, hp.trans hm, fun x hx => (Option.some.inj hx), ?_⟩
      rw [hp.length_eq]
      simp [netAdded, DICT_OK, DICT_ERR]
    · subst hr
      rw [mapFind_false_of_absent hm hno]
      simp only [Bool.false_eq_true, if_false]
      refine ⟨d2, _, rfl, a2, a3, hp.trans (List.Perm.cons _ hm),
        fun x hx => (Option.some.inj hx), ?_⟩
      rw [hp.length_eq]
      simp [netAdded]
  | replace cr key val =>
    obtain ⟨d2, r, a1, a2, a3, _, _, a6⟩ := dictReplace_spec cr d key val hTd hinv hb
    rw [hty] at a6 a3
    rw [dictSetKey_eq hty] at a6
    simp only [runOp, mapOp, a1]
    rcases a6 with ⟨hr, hno, hp, _⟩ | ⟨hr, he, R, hk, hp1, hp2, _⟩
    · subst hr
      rw [mapFind_false_of_absent hm hno]
      simp only [Bool.false_eq_true, if_false]
      refine ⟨d2, _, rfl, a2, a3, hp.trans (List.Perm.cons _ hm),
        fun x hx => (Option.some.inj hx), ?_⟩
      rw [hp.length_eq]
      simp [netAdded]
    · subst hr
      have hmemd : he ∈ dictEntries d := hp1.mem_iff.mpr (List.mem_cons_self _ _)
      rw [mapFind_true_of_present hm hmemd hk, if_pos rfl]
      have hndR : (he :: R).Pairwise (keysDiffer T) := by
        have := (List.Perm.pairwise_iff (fun hxy => keysDiffer_symm hTd hxy) hp1).mp hinv.nodup
        rw [hty] at this
        exact this
      have hRno := tail_no_match hT hndR hk
      have hmap : (he :: R).map
          (fun e => if keyEq T key e.key then { e with val := storedVal T val } else e) =
          { he with val := storedVal T val } :: R := by
        rw [List.map_cons, if_pos hk]
        congr 1
        have hid : ∀ y ∈ R,
            (if keyEq T key y.key then { y with val := storedVal T val } else y) = id y := by
          intro y hy
          rw [hRno y hy]
          rfl
        rw [List.map_congr_left hid, List.map_id]
      refine ⟨d2, _, rfl, a2, a3, ?_, fun x hx => (Option.some.inj hx), ?_⟩
      · refine hp2.trans ?_
        rw [← hmap]
        exact (hm.symm.trans hp1).map _ |>.symm
      · rw [hp2.length_eq, hp1.length_eq]
        simp [netAdded]
  | delete key =>
    obtain ⟨d2, r, a1, a2, a3, _, a5⟩ := dictDelete_spec d key hTd hinv
    rw [hty] at a5 a3
    simp only [runOp, mapOp, a1]
    rcases a5 with ⟨hr, hno, hp, _⟩ | ⟨he, hr, hk, hmem, hp, _⟩
    · subst hr
      rw [mapFind_false_of_absent hm hno]
      simp only [Bool.false_eq_true, if_false]
      refine ⟨d2, _, rfl, a2, a3, hp.trans hm, fun x hx => (Option.some.inj hx), ?_⟩
      rw [hp.length_eq]
      simp [netAdded, DICT_OK, DICT_ERR]
    · subst hr
      rw [mapFind_true_of_present hm hmem hk, if_pos rfl]
      have hnd2 : (he :: dictEntries d2).Pairwise (keysDiffer T) := by
        have := (List.Perm.pairwise_iff (fun hxy => keysDiffer_symm hTd hxy) hp).mp hinv.nodup
        rw [hty] at this
        exact this
      have hno2 := tail_no_match hT hnd2 hk
      have hfil : (he :: dictEntries d2).filter (fun e => !keyEq T key e.key) =
          dictEntries d2 := by
        rw [List.filter_cons, hk]
        simp only [Bool.not_true, Bool.false_eq_true, if_false]
        apply List.filter_eq_self.mpr
        intro y hy
        rw [hno2 y hy]
        rfl
      refine ⟨d2, _, rfl, a2, a3, ?_, fun x hx => (Option.some.inj hx), ?_⟩
      · have := (hm.symm.trans hp).filter (fun e => !keyEq T key e.key)
        rw [hfil] at this
        exact this.symm
      · rw [hp.length_eq]
        simp [netAdded]
  | find key =>
    obtain ⟨d1, r, f1, f2, f3, _, _, f6, f7, f8, _⟩ := dictFind_spec d key hTd hinv
    rw [hty] at f7 f8 f3
    simp only [runOp, mapOp, f1]
    refine ⟨d1, _, rfl, f2, f3, f6.trans hm, ?_, ?_⟩
    · intro x hx
      have hx' := Option.some.inj hx
      rw [← hx']
      congr 1
      cases r with
      | none => exact (mapFind_none_of_absent (fun y hy => f7 rfl y (hm.mem_iff.mpr hy))).symm
      | some he =>
        obtain ⟨g1, g2⟩ := f8 he rfl
        exact (mapFind_of_mem hT hndm (hm.mem_iff.mp (f6.mem_iff.mp g1)) g2).symm
    · rw [f6.length_eq]
      simp [netAdded]
  | rehash n =>
    obtain ⟨d1, r, g1, g2, g3, _, _, g6, _⟩ := dictRehash_spec d n hTd hinv
    simp only [runOp, mapOp, g1]
    refine ⟨d1, _, rfl, g2, g3.trans hty, g6.trans hm, (fun x hx => by cases hx), ?_⟩
    rw [g6.length_eq]
    simp [netAdded]

theorem netAdded_cons (op : Op) (ops : List Op) (r : OpResult) (rs : List OpResult) :
    netAdded (op :: ops) (r :: rs) = netAdded [op] [r] + netAdded ops rs := by
  cases op <;> cases r <;> simp [netAdded]

theorem netAdded_single_le (op : Op) (r : OpResult) : netAdded [op] [r] ≤ 1 := by
  cases op <;> cases r <;> simp [netAdded] <;> split <;> omega

/-- Every sequence of calls runs to its end and refines the sequence on the finite map. -/
theorem runOps_refines {T : dictType} (hT : LawfulType T) :
    ∀ (ops : List Op) (d : dict) (m : List dictEntry), d.type = T → Inv d →
      (dictEntries d).Perm m → (dictEntries d).length + ops.length < 576460752303423488 →
      ∃ d1 rs, runOps d ops = some (d1, rs) ∧ Inv d1 ∧ d1.type = T ∧
        (dictEntries d1).Perm (mapOps T m ops).1 ∧
        List.Forall₂ resultAgrees rs (mapOps T m ops).2 ∧
        ((dictEntries d1).length : Int) = (dictEntries d).length + netAdded ops rs := by
  intro ops
  induction ops with
  | nil =>
    intro d m hty hinv hm _
    exact ⟨d, [], rfl, hinv, hty, hm, List.Forall₂.nil, by simp [netAdded]⟩
  | cons op ops ih =>
    intro d m hty hinv hm hb
    rw [List.length_cons] at hb
    obtain ⟨d1, r, a1, a2, a3, a4, a5, a6⟩ := runOp_refines hT hty hinv hm (by omega) op
    have hle := netAdded_single_le op r
    obtain ⟨d2, rs, b1, b2, b3, b4, b5, b6⟩ := ih d1 (mapOp T m op).1 a3 a2 a4 (by omega)
    refine ⟨d2, r :: rs, ?_, b2, b3, b4, List.Forall₂.cons a5 b5, ?_⟩
    · rw [runOps, a1]
      simp only []
      rw [b1]
    · rw [netAdded_cons, b6, a6]
      omega

theorem netAdded_addsOK :
    ∀ (ops : List Op) (rs : List OpResult), ops.all isAddOrDelete = true →
      netAdded ops rs = (addsOK ops rs : Int) - (deletesOK ops rs : Int) := by
  intro ops
  induction ops with
  | nil =>
    intro rs _
    simp [netAdded, addsOK, deletesOK]
  | cons op ops ih =>
    intro rs hall
    rw [List.all_cons, Bool.and_eq_true] at hall
    cases rs with
    | nil => cases op <;> simp [netAdded, addsOK, deletesOK]
    | cons r rs =>
      have := ih rs hall.2
      cases op with
      | add cr key val =>
        cases r with
        | code c =>
          simp only [netAdded, addsOK, deletesOK, this]
          split <;> push_cast <;> omega
        | entry e =>
          simp only [netAdded, addsOK, deletesOK, this]
      | delete key =>
        cases r with
        | code c =>
          simp only [netAdded, addsOK, deletesOK, this]
          split <;> push_cast <;> omega
        | entry e =>
          simp only [netAdded, addsOK, deletesOK, this]
      | replace cr key val => simp [isAddOrDelete] at hall
      | find key => simp [isAddOrDelete] at hall
      | rehash n => simp [isAddOrDelete] at hall

theorem mapOps_length (T : dictType) :
    ∀ (ops : List Op) (m : List dictEntry), (mapOps T m ops).2.length = ops.length := by
  intro ops
  induction ops with
  | nil =>
    intro m
    rfl
  | cons op ops ih =>
    intro m
    simp only [mapOps, List.length_cons]
    rw [ih]

theorem netAdded_le_length :
    ∀ (ops : List Op) (rs : List OpResult), netAdded ops rs ≤ (ops.length : Int) := by
  intro ops
  induction ops with
  | nil =>
    intro rs
    simp [netAdded]
  | cons op ops ih =>
    intro rs
    cases rs with
    | nil =>
      have h0 : netAdded (op :: ops) [] = 0 := by
        cases op <;> simp [netAdded]
      rw [h0]
      omega
    | cons r rs =>
      rw [netAdded_cons, List.length_cons]
      have h1 := netAdded_single_le op r
      have h2 := ih rs
      push_cast
      omega

/-! ## Bit reversal -/

/-- The six rounds of `rev`, with the masks they compute. -/
theorem rev_unroll (v : Nat) :
    rev v = some (swapBits 1 6148914691236517205 (swapBits 2 3689348814741910323
      (swapBits 4 1085102592571150095 (swapBits 8 71777214294589695
        (swapBits 16 281470681808895 (swapBits 32 4294967295 v)))))) := by
  rfl

theorem two_pow_64 : (2 : Nat) ^ 64 = 18446744073709551616 := by norm_num

theorem lnot64_testBit (m i : Nat) (hi : i < 64) :
    (lnot64 m).testBit i = !m.testBit i := by
  unfold lnot64
  have h1 : (18446744073709551615 : Nat) = 2 ^ 64 - 1 := by norm_num
  rw [Nat.testBit_xor, h1, Nat.testBit_two_pow_sub_one, ← two_pow_64, Nat.testBit_mod_two_pow]
  simp [hi]

theorem lnot64_lt (m : Nat) : lnot64 m < 18446744073709551616 := by
  unfold lnot64
  rw [← two_pow_64]
  apply Nat.xor_lt_two_pow
  · norm_num
  · exact Nat.mod_lt _ (by norm_num)

/-- One round of `rev` moves the bit at position `i xor s` to position `i`, when the mask
selects the positions whose bit `s` is clear. -/
theorem swapBits_testBit (s M v i : Nat) (hi : i < 64)
    (h1 : M.testBit i = true → i ^^^ s = s + i)
    (h0 : M.testBit i = false → s ≤ i ∧ i ^^^ s = i - s) :
    (swapBits s M v).testBit i = v.testBit (i ^^^ s) := by
  unfold swapBits
  rw [Nat.testBit_or, Nat.testBit_and, Nat.testBit_and, Nat.testBit_shiftRight,
    lnot64_testBit M i hi, ← two_pow_64, Nat.testBit_mod_two_pow, Nat.testBit_shiftLeft]
  cases hM : M.testBit i with
  | true =>
    rw [h1 hM]
    simp
  | false =>
    obtain ⟨hle, hx⟩ := h0 hM
    rw [hx]
    simp [hi, hle]

theorem swapBits_lt (s M v : Nat) (hM : M < 18446744073709551616) :
    swapBits s M v < 18446744073709551616 := by
  unfold swapBits
  rw [← two_pow_64] at hM ⊢
  apply Nat.or_lt_two_pow
  · exact Nat.and_lt_two_pow _ hM
  · apply Nat.and_lt_two_pow
    rw [two_pow_64]
    exact lnot64_lt M

/-- The function `rev` returns the 64-bit reversal of its argument: bit `i` of the result is
bit `63 - i` of the argument. -/
theorem rev_spec (v : Nat) :
    ∃ y, rev v = some y ∧ y < 18446744073709551616 ∧
      ∀ i, i < 64 → y.testBit i = v.testBit (63 - i) := by
  refine ⟨_, rev_unroll v, swapBits_lt _ _ _ (by norm_num), ?_⟩
  intro i hi
  have m1 : ∀ j, j < 64 →
      ((6148914691236517205 : Nat).testBit j = true → j ^^^ 1 = 1 + j) ∧
      ((6148914691236517205 : Nat).testBit j = false → 1 ≤ j ∧ j ^^^ 1 = j - 1) := by decide
  have m2 : ∀ j, j < 64 →
      ((3689348814741910323 : Nat).testBit j = true → j ^^^ 2 = 2 + j) ∧
      ((3689348814741910323 : Nat).testBit j = false → 2 ≤ j ∧ j ^^^ 2 = j - 2) := by decide
  have m4 : ∀ j, j < 64 →
      ((1085102592571150095 : Nat).testBit j = true → j ^^^ 4 = 4 + j) ∧
      ((1085102592571150095 : Nat).testBit j = false → 4 ≤ j ∧ j ^^^ 4 = j - 4) := by decide
  have m8 : ∀ j, j < 64 →
      ((71777214294589695 : Nat).testBit j = true → j ^^^ 8 = 8 + j) ∧
      ((71777214294589695 : Nat).testBit j = false → 8 ≤ j ∧ j ^^^ 8 = j - 8) := by decide
  have m16 : ∀ j, j < 64 →
      ((281470681808895 : Nat).testBit j = true → j ^^^ 16 = 16 + j) ∧
      ((281470681808895 : Nat).testBit j = false → 16 ≤ j ∧ j ^^^ 16 = j - 16) := by decide
  have m32 : ∀ j, j < 64 →
      ((4294967295 : Nat).testBit j = true → j ^^^ 32 = 32 + j) ∧
      ((4294967295 : Nat).testBit j = false → 32 ≤ j ∧ j ^^^ 32 = j - 32) := by decide
  have hx : ∀ j, j < 64 → j ^^^ 1 < 64 ∧ (j ^^^ 1) ^^^ 2 < 64 ∧ ((j ^^^ 1) ^^^ 2) ^^^ 4 < 64 ∧
      (((j ^^^ 1) ^^^ 2) ^^^ 4) ^^^ 8 < 64 ∧ ((((j ^^^ 1) ^^^ 2) ^^^ 4) ^^^ 8) ^^^ 16 < 64 ∧
      (((((j ^^^ 1) ^^^ 2) ^^^ 4) ^^^ 8) ^^^ 16) ^^^ 32 = 63 - j := by decide
  obtain ⟨x1, x2, x4, x8, x16, x32⟩ := hx i hi
  rw [swapBits_testBit 1 _ _ i hi (m1 i hi).1 (m1 i hi).2,
    swapBits_testBit 2 _ _ _ x1 (m2 _ x1).1 (m2 _ x1).2,
    swapBits_testBit 4 _ _ _ x2 (m4 _ x2).1 (m4 _ x2).2,
    swapBits_testBit 8 _ _ _ x4 (m8 _ x4).1 (m8 _ x4).2,
    swapBits_testBit 16 _ _ _ x8 (m16 _ x8).1 (m16 _ x8).2,
    swapBits_testBit 32 _ _ _ x16 (m32 _ x16).1 (m32 _ x16).2, x32]

theorem rev_eq (v : Nat) : rev v = some (bitrev v) := by
  obtain ⟨y, h, _⟩ := rev_spec v
  unfold bitrev
  rw [h]
  rfl

theorem bitrev_lt (v : Nat) : bitrev v < 18446744073709551616 := by
  obtain ⟨y, h, hlt, _⟩ := rev_spec v
  unfold bitrev
  rw [h]
  exact hlt

theorem bitrev_testBit (v i : Nat) (hi : i < 64) :
    (bitrev v).testBit i = v.testBit (63 - i) := by
  obtain ⟨y, h, _, hbit⟩ := rev_spec v
  unfold bitrev
  rw [h]
  exact hbit i hi

theorem testBit_of_lt_64 {x i : Nat} (hx : x < 18446744073709551616) (hi : 64 ≤ i) :
    x.testBit i = false := by
  apply Nat.testBit_lt_two_pow
  calc x < 2 ^ 64 := by rw [two_pow_64]; exact hx
    _ ≤ 2 ^ i := Nat.pow_le_pow_right (by norm_num) hi

/-- Two numbers below `2 ^ 64` are equal when their 64 low bits are. -/
theorem eq_of_testBit_64 {x y : Nat} (hx : x < 18446744073709551616)
    (hy : y < 18446744073709551616) (h : ∀ i, i < 64 → x.testBit i = y.testBit i) : x = y := by
  apply Nat.eq_of_testBit_eq
  intro i
  by_cases hi : i < 64
  · exact h i hi
  · rw [testBit_of_lt_64 hx (by omega), testBit_of_lt_64 hy (by omega)]

theorem bitrev_bitrev {v : Nat} (hv : v < 18446744073709551616) : bitrev (bitrev v) = v := by
  apply eq_of_testBit_64 (bitrev_lt _) hv
  intro i hi
  rw [bitrev_testBit _ i hi, bitrev_testBit _ (63 - i) (by omega)]
  congr 1
  omega

theorem bitrev_zero : bitrev 0 = 0 := by
  apply eq_of_testBit_64 (bitrev_lt _) (by norm_num)
  intro i hi
  rw [bitrev_testBit _ i hi]
  simp

theorem bitrev_eq_zero {v : Nat} (hv : v < 18446744073709551616) (h : bitrev v = 0) :
    v = 0 := by
  have := bitrev_bitrev hv
  rw [h, bitrev_zero] at this
  exact this.symm

/-- The reversal of the cursor with the bits above the mask set: the `k` high bits of the
reversed cursor, followed by ones. -/
theorem bitrev_or_lnot (v k : Nat) (hk : k ≤ 64) :
    bitrev (v ||| lnot64 (2 ^ k - 1)) =
      2 ^ (64 - k) * (bitrev v / 2 ^ (64 - k)) + (2 ^ (64 - k) - 1) := by
  have hpos : 0 < 2 ^ (64 - k) := by positivity
  have hb : 2 ^ (64 - k) - 1 < 2 ^ (64 - k) := by omega
  have hF := bitrev_lt v
  have hdiv : bitrev v / 2 ^ (64 - k) < 2 ^ k := by
    rw [Nat.div_lt_iff_lt_mul hpos, ← Nat.pow_add]
    have : k + (64 - k) = 64 := by omega
    rw [this, two_pow_64]
    exact hF
  have hrhs : 2 ^ (64 - k) * (bitrev v / 2 ^ (64 - k)) + (2 ^ (64 - k) - 1) <
      18446744073709551616 := by
    have h1 : 2 ^ (64 - k) * (bitrev v / 2 ^ (64 - k)) ≤ 2 ^ (64 - k) * (2 ^ k - 1) :=
      Nat.mul_le_mul_left _ (by omega)
    have h2 : 2 ^ (64 - k) * (2 ^ k - 1) + 2 ^ (64 - k) = 18446744073709551616 := by
      have hk1 : 1 ≤ 2 ^ k := Nat.one_le_two_pow
      rw [← Nat.mul_succ, Nat.succ_eq_add_one, Nat.sub_add_cancel hk1, ← Nat.pow_add]
      have : 64 - k + k = 64 := by omega
      rw [this, two_pow_64]
    omega
  apply eq_of_testBit_64 (bitrev_lt _) hrhs
  intro i hi
  rw [bitrev_testBit _ i hi, Nat.testBit_or, lnot64_testBit _ _ (by omega),
    Nat.testBit_two_pow_sub_one, Nat.testBit_mul_pow_two_add _ hb]
  by_cases his : i < 64 - k
  · rw [if_pos his, Nat.testBit_two_pow_sub_one]
    have : ¬ 63 - i < k := by omega
    simp [this, his]
  · rw [if_neg his]
    have h1 : 63 - i < k := by omega
    rw [← Nat.shiftRight_eq_div_pow, Nat.testBit_shiftRight, bitrev_testBit _ _ (by omega)]
    have h2 : 63 - (64 - k + (i - (64 - k))) = 63 - i := by omega
    rw [h2]
    simp [h1]

theorem scanAdvance_spec (v k : Nat) (hk : k ≤ 64) :
    scanAdvance v (2 ^ k - 1) = some (bitrev (nextRev k (bitrev v))) := by
  unfold scanAdvance nextRev
  rw [rev_eq]
  simp only []
  rw [rev_eq, bitrev_or_lnot v k hk]
  have hpos : 0 < 2 ^ (64 - k) := by positivity
  have : 2 ^ (64 - k) * (bitrev v / 2 ^ (64 - k)) + (2 ^ (64 - k) - 1) + 1 =
      (bitrev v / 2 ^ (64 - k) + 1) * 2 ^ (64 - k) := by
    rw [Nat.add_mul, Nat.one_mul, Nat.mul_comm]
    omega
  rw [this]

theorem nextRev_lt (k F : Nat) : nextRev k F < 18446744073709551616 :=
  Nat.mod_lt _ (by norm_num)

theorem bitrev_nextRev (k F : Nat) : bitrev (bitrev (nextRev k F)) = nextRev k F :=
  bitrev_bitrev (nextRev_lt k F)

/-- Cursors whose reversals agree on the `k` high bits select the same bucket of a table of
`2 ^ k` buckets. -/
theorem and_mask_eq_of_div_eq (x y k : Nat) (hk : k ≤ 64)
    (h : bitrev x / 2 ^ (64 - k) = bitrev y / 2 ^ (64 - k)) :
    x &&& (2 ^ k - 1) = y &&& (2 ^ k - 1) := by
  apply Nat.eq_of_testBit_eq
  intro i
  rw [Nat.testBit_and, Nat.testBit_and, Nat.testBit_two_pow_sub_one]
  by_cases hi : i < k
  · have hx : x.testBit i = (bitrev x / 2 ^ (64 - k)).testBit (63 - i - (64 - k)) := by
      rw [← Nat.shiftRight_eq_div_pow, Nat.testBit_shiftRight, bitrev_testBit _ _ (by omega)]
      congr 1
      omega
    have hy : y.testBit i = (bitrev y / 2 ^ (64 - k)).testBit (63 - i - (64 - k)) := by
      rw [← Nat.shiftRight_eq_div_pow, Nat.testBit_shiftRight, bitrev_testBit _ _ (by omega)]
      congr 1
      omega
    rw [hx, hy, h]
  · simp [hi]

/-! ## The scan of a stable table -/

theorem stable_table {d : dict} (hinv : Inv d) (hr : d.rehashidx = -1) (hne : dictSize d ≠ 0) :
    ∃ k, 2 ≤ k ∧ k ≤ 63 ∧ d.ht0.size = 2 ^ k ∧ d.ht0.sizemask = 2 ^ k - 1 := by
  cases htab : d.ht0.table with
  | none =>
    exfalso
    apply hne
    apply (used_zero_iff hinv).mp
    constructor
    · rw [hinv.ok0.used_eq, htEntries_of_null htab]
      rfl
    · rw [hinv.stable hr]
      rfl
  | some bs =>
    obtain ⟨k, h1, h2, h3⟩ := hinv.ok0.size_pow bs htab
    refine ⟨k, h1, h2, h3, ?_⟩
    rw [hinv.ok0.mask_eq, h3]

theorem scanEmit_spec {T : dictType} {ht : dictht} (hok : htOK T ht) {k : Nat}
    (hsz : ht.size = 2 ^ k) (bucketfn : Bool) (t v : Nat) :
    ∃ chain, bucketGet ht (v &&& (2 ^ k - 1)) = some chain ∧
      scanEmit bucketfn t ht (v &&& (2 ^ k - 1)) =
        some ((if bucketfn then [ScanCall.bucket t (v &&& (2 ^ k - 1))] else []) ++
          chain.map ScanCall.entry) := by
  have hlt : v &&& (2 ^ k - 1) < ht.size := by
    rw [Nat.and_pow_two_sub_one_eq_mod, hsz]
    exact Nat.mod_lt _ (by positivity)
  obtain ⟨bs, chain, _, _, hb, _⟩ := bucket_in_range hok hlt
  refine ⟨chain, hb, ?_⟩
  unfold scanEmit
  rw [hb]

theorem dictScan_stable {d : dict} (hinv : Inv d) (hr : d.rehashidx = -1)
    (hne : dictSize d ≠ 0) {k : Nat} (hk : k ≤ 63) (hsz : d.ht0.size = 2 ^ k)
    (bucketfn : Bool) (v : Nat) :
    ∃ chain, bucketGet d.ht0 (v &&& d.ht0.sizemask) = some chain ∧
      dictScan d v bucketfn = some (bitrev (nextRev k (bitrev v)),
        (if bucketfn then [ScanCall.bucket 0 (v &&& d.ht0.sizemask)] else []) ++
          chain.map ScanCall.entry) := by
  have hm : d.ht0.sizemask = 2 ^ k - 1 := by rw [hinv.ok0.mask_eq, hsz]
  obtain ⟨chain, hb, hem⟩ := scanEmit_spec hinv.ok0 hsz bucketfn 0 v
  rw [hm]
  refine ⟨chain, hb, ?_⟩
  have hnr : dictIsRehashing d = false := by
    cases h : dictIsRehashing d with
    | false => rfl
    | true => exact absurd hr ((dictIsRehashing_iff d).mp h)
  unfold dictScan
  rw [if_neg hne, hnr, hm]
  simp only [Bool.not_false, if_true]
  rw [hem]
  simp only []
  rw [scanAdvance_spec v k (by omega)]

theorem nextRev_le {k F H : Nat} (hH : H < 18446744073709551616) (hFH : F ≤ H)
    (hne : H / 2 ^ (64 - k) ≠ F / 2 ^ (64 - k)) :
    nextRev k F ≤ H ∧ 0 < nextRev k F := by
  have hpos : 0 < 2 ^ (64 - k) := by positivity
  have h1 : F / 2 ^ (64 - k) ≤ H / 2 ^ (64 - k) := Nat.div_le_div_right hFH
  have h2 : (F / 2 ^ (64 - k) + 1) * 2 ^ (64 - k) ≤ H := by
    by_contra hlt
    have h4 : H / 2 ^ (64 - k) < F / 2 ^ (64 - k) + 1 :=
      (Nat.div_lt_iff_lt_mul hpos).mpr (Nat.lt_of_not_le hlt)
    exact hne (Nat.le_antisymm (Nat.le_of_lt_succ h4) h1)
  have h3 : 0 < (F / 2 ^ (64 - k) + 1) * 2 ^ (64 - k) := Nat.mul_pos (Nat.succ_pos _) hpos
  unfold nextRev
  rw [Nat.mod_eq_of_lt (lt_of_le_of_lt h2 hH)]
  exact ⟨h2, h3⟩

/-- A sequence of `dictScan` calls over stable non-empty dictionaries returns, and when it is a
full pass, every hash whose reversal is not below the reversed start cursor has its bucket
visited by one of the calls. -/
theorem scanSeq_spec (bucketfn : Bool) : ∀ (ds : List dict) (v : Nat),
    (∀ d, d ∈ ds → Inv d ∧ dictIsRehashing d = false ∧ dictSize d ≠ 0) →
    ∃ log, scanSeq bucketfn ds v = some log ∧
      (passEnds log = true → ∀ h, bitrev v ≤ bitrev h →
        ∃ (j : Nat) (d : dict) (st : ScanStep) (chain : List dictEntry),
          ds[j]? = some d ∧ log[j]? = some st ∧
          st.cursor &&& d.ht0.sizemask = h &&& d.ht0.sizemask ∧
          bucketGet d.ht0 (h &&& d.ht0.sizemask) = some chain ∧
          st.calls = (if bucketfn then [ScanCall.bucket 0 (h &&& d.ht0.sizemask)] else []) ++
            chain.map ScanCall.entry) := by
  intro ds
  induction ds with
  | nil =>
    intro v _
    exact ⟨[], rfl, fun h => by cases h⟩
  | cons d rest ih =>
    intro v hds
    obtain ⟨hinv, hnr, hne⟩ := hds d (List.mem_cons_self _ _)
    have hr : d.rehashidx = -1 := by
      by_contra hc
      rw [(dictIsRehashing_iff d).mpr hc] at hnr
      cases hnr
    obtain ⟨k, _, hk, hsz, hm⟩ := stable_table hinv hr hne
    obtain ⟨chain, hb, hscan⟩ := dictScan_stable hinv hr hne hk hsz bucketfn v
    obtain ⟨log, hlog, hcov⟩ := ih (bitrev (nextRev k (bitrev v)))
      (fun x hx => hds x (List.mem_cons_of_mem _ hx))
    refine ⟨{ cursor := v, next := bitrev (nextRev k (bitrev v)),
              calls := (if bucketfn then [ScanCall.bucket 0 (v &&& d.ht0.sizemask)] else []) ++
                chain.map ScanCall.entry } :: log, ?_, ?_⟩
    · unfold scanSeq
      rw [hscan]
      simp only []
      rw [hlog]
    · intro hpass h hle
      by_cases hdiv : bitrev h / 2 ^ (64 - k) = bitrev v / 2 ^ (64 - k)
      · have hand := and_mask_eq_of_div_eq h v k (by omega) hdiv
        rw [← hm] at hand
        refine ⟨0, d, _, chain, List.getElem?_cons_zero, List.getElem?_cons_zero, hand.symm,
          ?_, ?_⟩
        · rw [hand]
          exact hb
        · show _ = _
          simp only []
          rw [hand]
      · obtain ⟨h1, h2⟩ := nextRev_le (bitrev_lt h) hle hdiv
        have hnz : bitrev (nextRev k (bitrev v)) ≠ 0 := by
          intro hz
          have := bitrev_eq_zero (nextRev_lt _ _) hz
          omega
        have hpass2 : passEnds log = true := by
          unfold passEnds at hpass
          simp only [] at hpass
          cases log with
          | nil =>
            simp only [List.isEmpty_nil, if_true, beq_iff_eq] at hpass
            exact absurd hpass hnz
          | cons st rest2 =>
            simp only [List.isEmpty_cons, Bool.false_eq_true, if_false, Bool.and_eq_true] at hpass
            exact hpass.2
        obtain ⟨j, d2, st, chain2, a1, a2, a3, a4, a5⟩ := hcov hpass2 h (by
          rw [bitrev_nextRev]
          exact h1)
        exact ⟨j + 1, d2, st, chain2, List.getElem?_cons_succ.trans a1,
          List.getElem?_cons_succ.trans a2, a3, a4, a5⟩

/-- A stored entry lies in the bucket of its hash. -/
theorem bucket_of_mem {T : dictType} {ht : dictht} (hok : htOK T ht) {e : dictEntry}
    (he : e ∈ htEntries ht) :
    ∃ chain, bucketGet ht ((T.hashFunction e.key % 18446744073709551616) &&& ht.sizemask) =
      some chain ∧ e ∈ chain := by
  cases htab : ht.table with
  | none =>
    rw [htEntries_of_null htab] at he
    cases he
  | some bs =>
    rw [htEntries_of_table htab, List.mem_flatten] at he
    obtain ⟨chain, hc, hec⟩ := he
    obtain ⟨i, hi, hget⟩ := List.getElem_of_mem hc
    have hb : bs[i]? = some chain := by rw [List.getElem?_eq_getElem hi, hget]
    have := hok.placed bs i chain e htab hb hec
    rw [this, bucketGet_eq htab]
    exact ⟨chain, hb, hec⟩

theorem stable_entries {d : dict} (hinv : Inv d) (hr : d.rehashidx = -1) :
    dictEntries d = htEntries d.ht0 := by
  unfold dictEntries
  rw [hinv.stable hr]
  show htEntries d.ht0 ++ [] = _
  rw [List.append_nil]

theorem emptiedDict_reachable : Reachable identityType emptiedDict :=
  Reachable.delete oneKeyDict emptiedDict 1 DICT_OK oneKeyDict_reachable rfl

theorem grownDict_reachable : Reachable identityType grownDict :=
  Reachable.rehash rehashingDict grownDict 100 0 rehashingDict_reachable rfl

/-! ## The scan during a rehash -/

/-- The loop test `v & (m0 ^ m1)`: it is zero when the reversed cursor has no bit set between
the positions of the two masks. -/
theorem and_xor_mask_eq_zero (x k0 k1 : Nat) (h01 : k0 ≤ k1) (hk1 : k1 ≤ 64) :
    x &&& ((2 ^ k0 - 1) ^^^ (2 ^ k1 - 1)) = 0 ↔
      bitrev x % 2 ^ (64 - k0) / 2 ^ (64 - k1) = 0 := by
  constructor
  · intro h
    apply Nat.eq_of_testBit_eq
    intro j
    rw [Nat.zero_testBit, ← Nat.shiftRight_eq_div_pow, Nat.testBit_shiftRight, Nat.testBit_mod_two_pow]
    by_cases hj : 64 - k1 + j < 64 - k0
    · have hb := congrArg (fun n => n.testBit (63 - (64 - k1 + j))) h
      simp only [Nat.testBit_and, Nat.testBit_xor, Nat.testBit_two_pow_sub_one,
        Nat.zero_testBit] at hb
      have e1 : ¬ 63 - (64 - k1 + j) < k0 := by omega
      have e2 : 63 - (64 - k1 + j) < k1 := by omega
      simp only [e1, e2, decide_False, decide_True, Bool.false_xor, Bool.and_true] at hb
      rw [bitrev_testBit _ _ (by omega), hb]
      simp
    · simp [hj]
  · intro h
    apply Nat.eq_of_testBit_eq
    intro i
    rw [Nat.zero_testBit, Nat.testBit_and, Nat.testBit_xor, Nat.testBit_two_pow_sub_one,
      Nat.testBit_two_pow_sub_one]
    by_cases hi : k0 ≤ i ∧ i < k1
    · have hb := congrArg (fun n => n.testBit (63 - i - (64 - k1))) h
      simp only [← Nat.shiftRight_eq_div_pow, Nat.testBit_shiftRight, Nat.testBit_mod_two_pow,
        Nat.zero_testBit] at hb
      have e1 : 64 - k1 + (63 - i - (64 - k1)) = 63 - i := by omega
      have e2 : 63 - i < 64 - k0 := by omega
      rw [e1, bitrev_testBit _ _ (by omega)] at hb
      have e3 : 63 - (63 - i) = i := by omega
      rw [e3] at hb
      simp only [e2, decide_True, Bool.true_and] at hb
      rw [hb]
      rfl
    · have : decide (i < k0) = decide (i < k1) := by
        by_cases h1 : i < k0
        · have h2 : i < k1 := by omega
          simp [h1, h2]
        · have h2 : ¬ i < k1 := by omega
          simp [h1, h2]
      rw [this]
      simp

theorem pow_split (k0 k1 : Nat) (h01 : k0 ≤ k1) (hk1 : k1 ≤ 64) :
    2 ^ (64 - k0) = 2 ^ (k1 - k0) * 2 ^ (64 - k1) := by
  rw [← Nat.pow_add]
  congr 1
  omega

theorem pow_full (k : Nat) (hk : k ≤ 64) : 2 ^ k * 2 ^ (64 - k) = 18446744073709551616 := by
  rw [← Nat.pow_add, ← two_pow_64]
  congr 1
  omega

theorem nextRev_mul (k a : Nat) :
    nextRev k (a * 2 ^ (64 - k)) = (a + 1) * 2 ^ (64 - k) % 18446744073709551616 := by
  unfold nextRev
  rw [Nat.mul_div_cancel _ (by positivity)]

theorem nextRev_mul_last (k a : Nat) (hk : k ≤ 64) (ha : a + 1 = 2 ^ k) :
    nextRev k (a * 2 ^ (64 - k)) = 0 := by
  rw [nextRev_mul, ha, pow_full k hk]

theorem nextRev_mul_lt (k a : Nat) (hk : k ≤ 64) (ha : a + 1 < 2 ^ k) :
    nextRev k (a * 2 ^ (64 - k)) = (a + 1) * 2 ^ (64 - k) ∧
      0 < nextRev k (a * 2 ^ (64 - k)) := by
  have hpos : 0 < 2 ^ (64 - k) := by positivity
  have hlt : (a + 1) * 2 ^ (64 - k) < 18446744073709551616 := by
    rw [← pow_full k hk]
    exact Nat.mul_lt_mul_of_pos_right ha hpos
  rw [nextRev_mul, Nat.mod_eq_of_lt hlt]
  exact ⟨rfl, Nat.mul_pos (Nat.succ_pos _) hpos⟩

/-- Arithmetic of the inner loop: the increment under the large mask. -/
theorem nextRev_inner (k0 k1 a t : Nat) (h01 : k0 ≤ k1) (hk1 : k1 ≤ 64) :
    nextRev k1 (a * 2 ^ (64 - k0) + t * 2 ^ (64 - k1)) =
      (a * 2 ^ (64 - k0) + (t + 1) * 2 ^ (64 - k1)) % 18446744073709551616 := by
  unfold nextRev
  have hpos : 0 < 2 ^ (64 - k1) := by positivity
  rw [pow_split k0 k1 h01 hk1]
  have e1 : a * (2 ^ (k1 - k0) * 2 ^ (64 - k1)) + t * 2 ^ (64 - k1) =
      (a * 2 ^ (k1 - k0) + t) * 2 ^ (64 - k1) := by ring
  rw [e1, Nat.mul_div_cancel _ hpos]
  congr 1
  ring

theorem inner_lt (k0 k1 a t : Nat) (h01 : k0 ≤ k1) (hk1 : k1 ≤ 64) (ha : a < 2 ^ k0)
    (ht : t ≤ 2 ^ (k1 - k0)) :
    a * 2 ^ (64 - k0) + t * 2 ^ (64 - k1) ≤ (a + 1) * 2 ^ (64 - k0) ∧
      (a + 1) * 2 ^ (64 - k0) ≤ 18446744073709551616 := by
  constructor
  · rw [Nat.add_mul, Nat.one_mul, pow_split k0 k1 h01 hk1]
    exact Nat.add_le_add_left (Nat.mul_le_mul_right _ ht) _
  · rw [← pow_full k0 (by omega)]
    exact Nat.mul_le_mul_right _ ha

theorem inner_mod_div (k0 k1 a t : Nat) (h01 : k0 ≤ k1) (hk1 : k1 ≤ 64)
    (ht : t < 2 ^ (k1 - k0)) :
    (a * 2 ^ (64 - k0) + t * 2 ^ (64 - k1)) % 2 ^ (64 - k0) / 2 ^ (64 - k1) = t := by
  have hpos : 0 < 2 ^ (64 - k1) := by positivity
  have hlt : t * 2 ^ (64 - k1) < 2 ^ (64 - k0) := by
    rw [pow_split k0 k1 h01 hk1]
    exact Nat.mul_lt_mul_of_pos_right ht hpos
  rw [Nat.add_comm, Nat.add_mul_mod_self_right, Nat.mod_eq_of_lt hlt, Nat.mul_div_cancel _ hpos]

/-- The high bits under the large mask, from those under the small mask and the bits between
the two. -/
theorem div_split (k0 k1 H : Nat) (h01 : k0 ≤ k1) (hk1 : k1 ≤ 64) :
    H / 2 ^ (64 - k1) =
      H / 2 ^ (64 - k0) * 2 ^ (k1 - k0) + H % 2 ^ (64 - k0) / 2 ^ (64 - k1) := by
  have hpos : 0 < 2 ^ (64 - k1) := by positivity
  have hH := Nat.div_add_mod H (2 ^ (64 - k0))
  conv_lhs => rw [← hH]
  rw [pow_split k0 k1 h01 hk1, Nat.mul_comm (2 ^ (k1 - k0)) (2 ^ (64 - k1)), Nat.mul_assoc,
    Nat.mul_add_div hpos, Nat.mul_comm (2 ^ (k1 - k0))]

theorem mod_div_lt (k0 k1 H : Nat) (h01 : k0 ≤ k1) (hk1 : k1 ≤ 64) :
    H % 2 ^ (64 - k0) / 2 ^ (64 - k1) < 2 ^ (k1 - k0) := by
  have hpos : 0 < 2 ^ (64 - k1) := by positivity
  rw [Nat.div_lt_iff_lt_mul hpos, ← pow_split k0 k1 h01 hk1]
  exact Nat.mod_lt _ (by positivity)

/-- The callback calls on one bucket: only stored entries, and every stored entry whose
reversed hash agrees with the reversed cursor on the bits of the mask. -/
theorem scanEmit_cover {T : dictType} {ht : dictht} (hok : htOK T ht) {k : Nat} (hk : k ≤ 64)
    (hsz : ht.size = 2 ^ k) (bucketfn : Bool) (t v : Nat) :
    ∃ calls, scanEmit bucketfn t ht (v &&& (2 ^ k - 1)) = some calls ∧
      (∀ e, ScanCall.entry e ∈ calls → e ∈ htEntries ht) ∧
      (∀ e, e ∈ htEntries ht →
        bitrev (T.hashFunction e.key % 18446744073709551616) / 2 ^ (64 - k) =
          bitrev v / 2 ^ (64 - k) → ScanCall.entry e ∈ calls) := by
  obtain ⟨chain, hb, hem⟩ := scanEmit_spec hok hsz bucketfn t v
  refine ⟨_, hem, ?_, ?_⟩
  · intro e he
    rw [List.mem_append] at he
    rcases he with he | he
    · cases bucketfn
      · cases he
      · simp at he
    · rw [List.mem_map] at he
      obtain ⟨x, hx, hxe⟩ := he
      cases hxe
      obtain ⟨bs, htab, hget⟩ := bucketGet_some hb
      exact mem_htEntries_of_bucket htab hget hx
  · intro e he hdiv
    obtain ⟨chain2, b1, b2⟩ := bucket_of_mem hok he
    have hm : ht.sizemask = 2 ^ k - 1 := by rw [hok.mask_eq, hsz]
    rw [hm, and_mask_eq_of_div_eq _ v k hk hdiv, hb] at b1
    cases b1
    exact List.mem_append_right _ (List.mem_map_of_mem _ b2)

theorem scanLargeLoop_spec {T : dictType} {ht : dictht} (hok : htOK T ht) (k0 k1 : Nat)
    (h01 : k0 ≤ k1) (hk1 : k1 ≤ 64) (hsz : ht.size = 2 ^ k1) (bucketfn : Bool) (tbl a : Nat)
    (ha : a < 2 ^ k0) :
    ∀ (n t v : Nat), t + n = 2 ^ (k1 - k0) → 0 < n →
      bitrev v = a * 2 ^ (64 - k0) + t * 2 ^ (64 - k1) → ∀ fuel, n ≤ fuel →
      ∃ calls, scanLargeLoop bucketfn tbl ht (2 ^ k0 - 1) (2 ^ k1 - 1) fuel v =
          some (bitrev (nextRev k0 (a * 2 ^ (64 - k0))), calls) ∧
        (∀ e, ScanCall.entry e ∈ calls → e ∈ htEntries ht) ∧
        (∀ e, e ∈ htEntries ht →
          bitrev (T.hashFunction e.key % 18446744073709551616) / 2 ^ (64 - k0) = a →
          t ≤ bitrev (T.hashFunction e.key % 18446744073709551616) % 2 ^ (64 - k0) /
            2 ^ (64 - k1) → ScanCall.entry e ∈ calls) := by
  intro n
  induction n with
  | zero =>
    intro t v _ hn
    omega
  | succ n ih =>
    intro t v htn _ hv fuel hfuel
    obtain ⟨fuel1, rfl⟩ : ∃ f, fuel = f + 1 := ⟨fuel - 1, by omega⟩
    obtain ⟨calls0, hem, hsub, hcov⟩ := scanEmit_cover hok hk1 hsz bucketfn tbl v
    have hadv := scanAdvance_spec v k1 hk1
    rw [hv, nextRev_inner k0 k1 a t h01 hk1] at hadv
    have hbound := inner_lt k0 k1 a (t + 1) h01 hk1 ha (by omega)
    -- the entries covered by this iteration
    have hcov0 : ∀ e, e ∈ htEntries ht →
        bitrev (T.hashFunction e.key % 18446744073709551616) / 2 ^ (64 - k0) = a →
        bitrev (T.hashFunction e.key % 18446744073709551616) % 2 ^ (64 - k0) /
          2 ^ (64 - k1) = t → ScanCall.entry e ∈ calls0 := by
      intro e he h1 h2
      apply hcov e he
      rw [div_split k0 k1 _ h01 hk1, h1, h2, div_split k0 k1 (bitrev v) h01 hk1, hv,
        inner_mod_div k0 k1 a t h01 hk1 (by omega)]
      congr 1
      congr 1
      have hlt : t * 2 ^ (64 - k1) < 2 ^ (64 - k0) := by
        rw [pow_split k0 k1 h01 hk1]
        exact Nat.mul_lt_mul_of_pos_right (by omega) (by positivity)
      rw [Nat.add_comm, Nat.add_mul_div_right _ _ (by positivity), Nat.div_eq_of_lt hlt,
        Nat.zero_add]
    by_cases hlast : n = 0
    · -- the last iteration
      subst hlast
      have hF : (a * 2 ^ (64 - k0) + (t + 1) * 2 ^ (64 - k1)) % 18446744073709551616 =
          nextRev k0 (a * 2 ^ (64 - k0)) := by
        rw [nextRev_mul]
        congr 1
        have : t + 1 = 2 ^ (k1 - k0) := by omega
        rw [this, ← pow_split k0 k1 h01 hk1]
        ring
      rw [hF] at hadv
      have hexit : bitrev (nextRev k0 (a * 2 ^ (64 - k0))) &&&
          ((2 ^ k0 - 1) ^^^ (2 ^ k1 - 1)) = 0 := by
        rw [and_xor_mask_eq_zero _ k0 k1 h01 hk1, bitrev_nextRev, nextRev_mul]
        have hdvd : 2 ^ (64 - k0) ∣ 18446744073709551616 :=
          ⟨2 ^ k0, by rw [Nat.mul_comm, pow_full k0 (by omega)]⟩
        rw [Nat.mod_mod_of_dvd _ hdvd, Nat.mul_mod_left, Nat.zero_div]
      refine ⟨calls0, ?_, hsub, ?_⟩
      · unfold scanLargeLoop
        rw [hem]
        simp only []
        rw [hadv]
        simp only []
        rw [if_neg (by
          intro hc
          exact hc hexit)]
      · intro e he h1 h2
        apply hcov0 e he h1
        have := mod_div_lt k0 k1 (bitrev (T.hashFunction e.key % 18446744073709551616)) h01 hk1
        omega
    · -- an iteration that is followed by another
      have ht1 : t + 1 < 2 ^ (k1 - k0) := by omega
      have hlt : a * 2 ^ (64 - k0) + (t + 1) * 2 ^ (64 - k1) < 18446744073709551616 := by
        have h3 := inner_lt k0 k1 a (t + 2) h01 hk1 ha (by omega)
        have hpos : 0 < 2 ^ (64 - k1) := by positivity
        have h4 : (t + 1) * 2 ^ (64 - k1) < (t + 2) * 2 ^ (64 - k1) :=
          Nat.mul_lt_mul_of_pos_right (by omega) hpos
        omega
      rw [Nat.mod_eq_of_lt hlt] at hadv
      have hv1 : bitrev (bitrev (a * 2 ^ (64 - k0) + (t + 1) * 2 ^ (64 - k1))) =
          a * 2 ^ (64 - k0) + (t + 1) * 2 ^ (64 - k1) := bitrev_bitrev hlt
      have hgo : bitrev (a * 2 ^ (64 - k0) + (t + 1) * 2 ^ (64 - k1)) &&&
          ((2 ^ k0 - 1) ^^^ (2 ^ k1 - 1)) ≠ 0 := by
        rw [Ne, and_xor_mask_eq_zero _ k0 k1 h01 hk1, hv1, inner_mod_div k0 k1 a (t + 1) h01 hk1 ht1]
        omega
      obtain ⟨calls1, hloop, hsub1, hcov1⟩ := ih (t + 1) _ (by omega) (by omega) hv1 fuel1
        (by omega)
      refine ⟨calls0 ++ calls1, ?_, ?_, ?_⟩
      · unfold scanLargeLoop
        rw [hem]
        simp only []
        rw [hadv]
        simp only []
        rw [if_pos hgo, hloop]
      · intro e he
        rw [List.mem_append] at he
        rcases he with he | he
        · exact hsub e he
        · exact hsub1 e he
      · intro e he h1 h2
        rw [List.mem_append]
        by_cases h3 : bitrev (T.hashFunction e.key % 18446744073709551616) % 2 ^ (64 - k0) /
            2 ^ (64 - k1) = t
        · exact Or.inl (hcov0 e he h1 h3)
        · exact Or.inr (hcov1 e he h1 (by omega))

/-- The two parts of a `dictScan` call during a rehash, on the smaller table `s` and the
larger table `l`. -/
theorem dictScan_two {T : dictType} {s l : dictht} (hs : htOK T s) (hl : htOK T l)
    (k0 k1 : Nat) (h01 : k0 ≤ k1) (hk1 : k1 ≤ 63) (hss : s.size = 2 ^ k0)
    (hls : l.size = 2 ^ k1) (bucketfn : Bool) (i0 i1 a : Nat) (ha : a < 2 ^ k0) (v : Nat)
    (hv : bitrev v = a * 2 ^ (64 - k0)) :
    ∃ calls0 calls1, scanEmit bucketfn i0 s (v &&& s.sizemask) = some calls0 ∧
      scanLargeLoop bucketfn i1 l s.sizemask l.sizemask (l.size + 1) v =
        some (bitrev (nextRev k0 (bitrev v)), calls1) ∧
      (∀ e, ScanCall.entry e ∈ calls0 ++ calls1 → e ∈ htEntries s ++ htEntries l) ∧
      (∀ e, e ∈ htEntries s ++ htEntries l →
        bitrev (T.hashFunction e.key % 18446744073709551616) / 2 ^ (64 - k0) = a →
        ScanCall.entry e ∈ calls0 ++ calls1) := by
  have hms : s.sizemask = 2 ^ k0 - 1 := by rw [hs.mask_eq, hss]
  have hml : l.sizemask = 2 ^ k1 - 1 := by rw [hl.mask_eq, hls]
  have hdiv : bitrev v / 2 ^ (64 - k0) = a := by
    rw [hv, Nat.mul_div_cancel _ (by positivity)]
  obtain ⟨calls0, e1, e2, e3⟩ := scanEmit_cover hs (by omega : k0 ≤ 64) hss bucketfn i0 v
  have hc : 2 ^ (k1 - k0) ≤ l.size + 1 := by
    rw [hls]
    have : 2 ^ (k1 - k0) ≤ 2 ^ k1 := Nat.pow_le_pow_right (by norm_num) (by omega)
    omega
  obtain ⟨calls1, f1, f2, f3⟩ := scanLargeLoop_spec hl k0 k1 h01 (by omega) hls bucketfn i1 a ha
    (2 ^ (k1 - k0)) 0 v (by omega) (by positivity) (by rw [hv]; omega) (l.size + 1) hc
  refine ⟨calls0, calls1, ?_, ?_, ?_, ?_⟩
  · rw [hms]
    exact e1
  · rw [hms, hml, hv]
    exact f1
  · intro e he
    rw [List.mem_append] at he ⊢
    rcases he with he | he
    · exact Or.inl (e2 e he)
    · exact Or.inr (f2 e he)
  · intro e he hH
    rw [List.mem_append] at he ⊢
    rcases he with he | he
    · exact Or.inl (e3 e he (hH.trans hdiv.symm))
    · exact Or.inr (f3 e he hH (Nat.zero_le _))

/-- One call of `dictScan` in a pass over an unmodified dictionary: with `2 ^ k0` the size of
the smaller (or only) table, a cursor whose reversal is `a` in the `k0` high bits and zero below
is advanced to the next such cursor, and the entry callback gets stored entries only and every
stored entry whose reversed hash is `a` in the `k0` high bits. -/
theorem dictScan_call {d : dict} (hinv : Inv d) (hne : dictSize d ≠ 0) (bucketfn : Bool) :
    ∃ k0, 2 ≤ k0 ∧ k0 ≤ 63 ∧
      2 ^ k0 = (if d.rehashidx = -1 then d.ht0.size else min d.ht0.size d.ht1.size) ∧
      ∀ a, a < 2 ^ k0 → ∀ v, bitrev v = a * 2 ^ (64 - k0) →
        ∃ calls, dictScan d v bucketfn = some (bitrev (nextRev k0 (bitrev v)), calls) ∧
          (∀ e, ScanCall.entry e ∈ calls → e ∈ dictEntries d) ∧
          (∀ e, e ∈ dictEntries d →
            bitrev (d.type.hashFunction e.key % 18446744073709551616) / 2 ^ (64 - k0) = a →
            ScanCall.entry e ∈ calls) := by
  by_cases hr : d.rehashidx = -1
  · obtain ⟨k, hk2, hk, hsz, hm⟩ := stable_table hinv hr hne
    refine ⟨k, hk2, hk, by rw [if_pos hr, hsz], ?_⟩
    intro a _ v hv
    have hnr : dictIsRehashing d = false := by
      cases h : dictIsRehashing d with
      | false => rfl
      | true => exact absurd hr ((dictIsRehashing_iff d).mp h)
    obtain ⟨calls, e1, e2, e3⟩ := scanEmit_cover hinv.ok0 (by omega : k ≤ 64) hsz bucketfn 0 v
    refine ⟨calls, ?_, ?_, ?_⟩
    · unfold dictScan
      rw [if_neg hne, hnr, hm]
      simp only [Bool.not_false, if_true]
      rw [e1]
      simp only []
      rw [scanAdvance_spec v k (by omega)]
    · rw [stable_entries hinv hr]
      exact e2
    · rw [stable_entries hinv hr]
      intro e he hH
      apply e3 e he
      rw [hH, hv, Nat.mul_div_cancel _ (by positivity)]
  · have hnr : dictIsRehashing d = true := (dictIsRehashing_iff d).mpr hr
    have g0 : getHt d 0 = d.ht0 := rfl
    have g1 : getHt d 1 = d.ht1 := rfl
    obtain ⟨bs0, htab0⟩ := Option.ne_none_iff_exists'.mp (hinv.alloc0 hr)
    obtain ⟨bs1, htab1⟩ := Option.ne_none_iff_exists'.mp (hinv.alloc1 hr)
    obtain ⟨ka, ha2, ha63, hsa⟩ := hinv.ok0.size_pow bs0 htab0
    obtain ⟨kb, hb2, hb63, hsb⟩ := hinv.ok1.size_pow bs1 htab1
    by_cases hgt : d.ht0.size > d.ht1.size
    · have hlt : kb < ka := by
        rw [hsa, hsb] at hgt
        exact (Nat.pow_lt_pow_iff_right (by norm_num)).mp hgt
      refine ⟨kb, hb2, hb63, ?_, ?_⟩
      · rw [if_neg hr, Nat.min_eq_right (Nat.le_of_lt hgt), hsb]
      · intro a ha v hv
        obtain ⟨calls0, calls1, e1, e2, e3, e4⟩ := dictScan_two hinv.ok1 hinv.ok0 kb ka
          (by omega) ha63 hsb hsa bucketfn 1 0 a ha v hv
        refine ⟨calls0 ++ calls1, ?_, ?_, ?_⟩
        · unfold dictScan
          rw [if_neg hne, hnr]
          simp only [Bool.not_true, Bool.false_eq_true, if_false, if_pos hgt, g0, g1]
          rw [e1]
          simp only []
          rw [e2]
        · intro e he
          have := e3 e he
          unfold dictEntries
          rw [List.mem_append] at this ⊢
          exact this.symm
        · intro e he hH
          apply e4 e ?_ hH
          unfold dictEntries at he
          rw [List.mem_append] at he ⊢
          exact he.symm
    · have hle : ka ≤ kb := by
        have h1 : d.ht0.size ≤ d.ht1.size := by omega
        rw [hsa, hsb] at h1
        exact (Nat.pow_le_pow_iff_right (by norm_num)).mp h1
      refine ⟨ka, ha2, ha63, ?_, ?_⟩
      · rw [if_neg hr, Nat.min_eq_left (by omega), hsa]
      · intro a ha v hv
        obtain ⟨calls0, calls1, e1, e2, e3, e4⟩ := dictScan_two hinv.ok0 hinv.ok1 ka kb
          hle hb63 hsa hsb bucketfn 0 1 a ha v hv
        refine ⟨calls0 ++ calls1, ?_, e3, e4⟩
        unfold dictScan
        rw [if_neg hne, hnr]
        simp only [Bool.not_true, Bool.false_eq_true, if_false, if_neg hgt, g0, g1]
        rw [e1]
        simp only []
        rw [e2]

/-! ## A full pass over an unmodified dictionary -/

theorem scanPass_spec {d : dict} (bucketfn : Bool) (k0 : Nat) (hk0 : k0 ≤ 63)
    (hcall : ∀ a, a < 2 ^ k0 → ∀ v, bitrev v = a * 2 ^ (64 - k0) →
      ∃ calls, dictScan d v bucketfn = some (bitrev (nextRev k0 (bitrev v)), calls) ∧
        (∀ e, ScanCall.entry e ∈ calls → e ∈ dictEntries d) ∧
        (∀ e, e ∈ dictEntries d →
          bitrev (d.type.hashFunction e.key % 18446744073709551616) / 2 ^ (64 - k0) = a →
          ScanCall.entry e ∈ calls)) :
    ∀ (m a v : Nat), a + m = 2 ^ k0 → 0 < m → bitrev v = a * 2 ^ (64 - k0) →
      ∃ calls, (∀ fuel, m ≤ fuel → scanPass d bucketfn fuel v = some (calls, m)) ∧
        (∀ e, ScanCall.entry e ∈ calls → e ∈ dictEntries d) ∧
        (∀ e, e ∈ dictEntries d →
          a ≤ bitrev (d.type.hashFunction e.key % 18446744073709551616) / 2 ^ (64 - k0) →
          ScanCall.entry e ∈ calls) := by
  intro m
  induction m with
  | zero =>
    intro a v _ hm
    omega
  | succ m ih =>
    intro a v ham _ hv
    obtain ⟨calls0, e1, e2, e3⟩ := hcall a (by omega) v hv
    rw [hv] at e1
    have hHlt : ∀ e : dictEntry,
        bitrev (d.type.hashFunction e.key % 18446744073709551616) / 2 ^ (64 - k0) < 2 ^ k0 := by
      intro e
      rw [Nat.div_lt_iff_lt_mul (by positivity), pow_full k0 (by omega)]
      exact bitrev_lt _
    by_cases hlast : m = 0
    · subst hlast
      rw [nextRev_mul_last k0 a (by omega) (by omega), bitrev_zero] at e1
      refine ⟨calls0, ?_, e2, ?_⟩
      · intro fuel hfuel
        obtain ⟨fuel1, rfl⟩ : ∃ f, fuel = f + 1 := ⟨fuel - 1, by omega⟩
        unfold scanPass
        rw [e1]
        simp only [if_true]
      · intro e he hle
        apply e3 e he
        have := hHlt e
        omega
    · obtain ⟨n1, n2⟩ := nextRev_mul_lt k0 a (by omega) (by omega : a + 1 < 2 ^ k0)
      have hnz : bitrev (nextRev k0 (a * 2 ^ (64 - k0))) ≠ 0 := by
        intro hz
        have := bitrev_eq_zero (nextRev_lt _ _) hz
        omega
      have hv1 : bitrev (bitrev (nextRev k0 (a * 2 ^ (64 - k0)))) = (a + 1) * 2 ^ (64 - k0) := by
        rw [bitrev_nextRev, n1]
      obtain ⟨calls1, f1, f2, f3⟩ := ih (a + 1) _ (by omega) (by omega) hv1
      refine ⟨calls0 ++ calls1, ?_, ?_, ?_⟩
      · intro fuel hfuel
        obtain ⟨fuel1, rfl⟩ : ∃ f, fuel = f + 1 := ⟨fuel - 1, by omega⟩
        unfold scanPass
        rw [e1]
        simp only []
        rw [if_neg hnz, f1 fuel1 (by omega)]
      · intro e he
        rw [List.mem_append] at he
        rcases he with he | he
        · exact e2 e he
        · exact f2 e he
      · intro e he hle
        rw [List.mem_append]
        by_cases hH : bitrev (d.type.hashFunction e.key % 18446744073709551616) /
            2 ^ (64 - k0) = a
        · exact Or.inl (e3 e he hH)
        · exact Or.inr (f3 e he (by omega))

/-! ## adlist.c -/

theorem getD_ne_zero {ns : List Nat} (h0 : 0 ∉ ns) {i : Nat} (hi : i < ns.length) :
    ns.getD i 0 ≠ 0 := by
  rw [List.getD_eq_getElem _ _ hi]
  intro h
  exact h0 (h ▸ List.getElem_mem hi)

theorem getD_inj {ns : List Nat} (hnd : ns.Nodup) (h0 : 0 ∉ ns) {i j : Nat}
    (hi : i < ns.length) (h : ns.getD i 0 = ns.getD j 0) : i = j := by
  by_cases hj : j < ns.length
  · rw [List.getD_eq_getElem _ _ hi, List.getD_eq_getElem _ _ hj] at h
    exact (List.Nodup.getElem_inj_iff hnd).mp h
  · rw [List.getD_eq_default ns 0 (show ns.length ≤ j by omega)] at h
    exact absurd h (getD_ne_zero h0 hi)

theorem headD_eq_getD (ns : List Nat) : ns.headD 0 = ns.getD 0 0 := by
  cases ns <;> rfl

theorem getLastD_eq_getD (ns : List Nat) : ns.getLastD 0 = ns.getD (ns.length - 1) 0 := by
  cases ns with
  | nil => rfl
  | cons a rest =>
    rw [List.getLastD_cons, List.getLastD_eq_getLast?, List.getLast?_eq_getElem?]
    cases rest with
    | nil => rfl
    | cons b r => simp [List.getD_eq_getElem?_getD]

theorem getD_eraseIdx (ns : List Nat) (k j : Nat) :
    (ns.eraseIdx k).getD j 0 = if j < k then ns.getD j 0 else ns.getD (j + 1) 0 := by
  simp only [List.getD_eq_getElem?_getD, List.getElem?_eraseIdx]
  split <;> rfl

/-- The links of the node at position `i` of a well-formed list. -/
theorem listOK_node {l : list} {ns : List Nat} (h : listOK l ns) {i : Nat}
    (hi : i < ns.length) :
    ∃ nd, l.mem (ns.getD i 0) = some nd ∧
      nd.prev = (if i = 0 then 0 else ns.getD (i - 1) 0) ∧ nd.next = ns.getD (i + 1) 0 := by
  have := h.links i hi
  cases hm : l.mem (ns.getD i 0) with
  | none =>
    rw [hm] at this
    cases this
  | some nd =>
    rw [hm] at this
    simp only [Option.map_some', Option.some.injEq, Prod.mk.injEq] at this
    exact ⟨nd, rfl, this.1, this.2⟩

theorem listIndexLoop_forward {l : list} {ns : List Nat} (h : listOK l ns) :
    ∀ (fuel r j : Nat), r ≤ 9223372036854775807 → j ≤ ns.length → ns.length < j + fuel →
      listIndexLoop l.mem false fuel (r : Int) (ns.getD j 0) = some (ns.getD (j + r) 0) := by
  intro fuel
  induction fuel with
  | zero =>
    intro r j _ h1 h2
    omega
  | succ fuel ih =>
    intro r j hr hj hfuel
    unfold listIndexLoop
    by_cases hc : (r : Int) ≠ 0 ∧ ns.getD j 0 ≠ 0
    · rw [if_pos hc]
      have hjlt : j < ns.length := by
        by_contra hge
        exact hc.2 (List.getD_eq_default ns 0 (by omega))
      obtain ⟨nd, hm, _, hnext⟩ := listOK_node h hjlt
      rw [hm]
      simp only [Bool.false_eq_true, if_false]
      have hr0 : r ≠ 0 := by
        intro h0
        exact hc.1 (by rw [h0]; rfl)
      have hw : wrapLong ((r : Int) - 1) = ((r - 1 : Nat) : Int) := by
        rw [wrapLong_eq (by omega) (by omega)]
        omega
      rw [hw, hnext, ih (r - 1) (j + 1) (by omega) (by omega) (by omega)]
      congr 2
      omega
    · rw [if_neg hc]
      congr 1
      by_cases hr0 : r = 0
      · rw [hr0, Nat.add_zero]
      · have hz : ns.getD j 0 = 0 := by
          by_contra hne
          exact hc ⟨by omega, hne⟩
        have hjge : ns.length ≤ j := by
          by_contra hlt
          exact getD_ne_zero h.nonnull (by omega : j < ns.length) hz
        rw [hz, List.getD_eq_default ns 0 (by omega)]

theorem listIndexLoop_backward {l : list} {ns : List Nat} (h : listOK l ns) :
    ∀ (fuel r k : Nat), r ≤ 9223372036854775807 → k ≤ ns.length → k < fuel →
      listIndexLoop l.mem true fuel (r : Int) (if k = 0 then 0 else ns.getD (k - 1) 0) =
        some (if r < k then ns.getD (k - 1 - r) 0 else 0) := by
  intro fuel
  induction fuel with
  | zero =>
    intro r k _ _ h2
    omega
  | succ fuel ih =>
    intro r k hr hk hfuel
    unfold listIndexLoop
    by_cases hc : (r : Int) ≠ 0 ∧ (if k = 0 then 0 else ns.getD (k - 1) 0) ≠ 0
    · rw [if_pos hc]
      have hk0 : k ≠ 0 := by
        intro h0
        rw [if_pos h0] at hc
        exact hc.2 rfl
      rw [if_neg hk0]
      obtain ⟨nd, hm, hprev, _⟩ := listOK_node h (by omega : k - 1 < ns.length)
      rw [hm]
      simp only [if_true]
      have hr0 : r ≠ 0 := by
        intro h0
        exact hc.1 (by rw [h0]; rfl)
      have hw : wrapLong ((r : Int) - 1) = ((r - 1 : Nat) : Int) := by
        rw [wrapLong_eq (by omega) (by omega)]
        omega
      have hp : nd.prev = (if k - 1 = 0 then 0 else ns.getD (k - 1 - 1) 0) := hprev
      rw [hw, hp, ih (r - 1) (k - 1) (by omega) (by omega) (by omega)]
      congr 1
      by_cases hrk : r < k
      · rw [if_pos hrk, if_pos (by omega)]
        congr 1
        omega
      · rw [if_neg hrk, if_neg (by omega)]
    · rw [if_neg hc]
      congr 1
      by_cases hr0 : r = 0
      · subst hr0
        by_cases hk0 : k = 0
        · rw [if_pos hk0, if_neg (by omega)]
        · rw [if_neg hk0, if_pos (by omega)]
          rfl
      · have hz : (if k = 0 then 0 else ns.getD (k - 1) 0) = 0 := by
          by_contra hne
          exact hc ⟨by omega, hne⟩
        have hk0 : k = 0 := by
          by_contra hk0
          rw [if_neg hk0] at hz
          exact getD_ne_zero h.nonnull (by omega : k - 1 < ns.length) hz
        rw [hz, if_neg (by omega)]

/-- The function `listIndex` on a well-formed list, for every `long` index. -/
theorem listIndex_spec {l : list} {ns : List Nat} (h : listOK l ns) (i : Int)
    (hmin : -9223372036854775808 ≤ i) (hmax : i ≤ 9223372036854775807) :
    listIndex l i = some
      (if 0 ≤ i then ns.getD i.toNat 0
       else if -(ns.length : Int) ≤ i then ns.getD ((ns.length : Int) + i).toNat 0 else 0) := by
  unfold listIndex
  by_cases hneg : i < 0
  · rw [if_pos hneg, if_neg (by omega)]
    have hw : wrapLong (wrapLong (-i) - 1) = (((-i - 1).toNat : Nat) : Int) := by
      unfold wrapLong
      omega
    have htail : l.tail = (if ns.length = 0 then 0 else ns.getD (ns.length - 1) 0) := by
      rw [h.tail_eq, getLastD_eq_getD]
      by_cases h0 : ns.length = 0
      · rw [if_pos h0, List.getD_eq_default ns 0 (by omega)]
      · rw [if_neg h0]
    rw [hw, htail, h.len_eq,
      listIndexLoop_backward h (ns.length + 1) (-i - 1).toNat ns.length (by omega)
        (Nat.le_refl _) (by omega)]
    congr 1
    by_cases hin : -(ns.length : Int) ≤ i
    · rw [if_pos hin, if_pos (by omega)]
      congr 1
      omega
    · rw [if_neg hin, if_neg (by omega)]
  · rw [if_neg hneg, if_pos (by omega)]
    have hi : i = ((i.toNat : Nat) : Int) := by omega
    have hhead : l.head = ns.getD 0 0 := by rw [h.head_eq, headD_eq_getD]
    rw [hhead, h.len_eq]
    conv_lhs => rw [hi]
    rw [listIndexLoop_forward h (ns.length + 1) i.toNat 0 (by omega) (Nat.zero_le _) (by omega),
      Nat.zero_add]

theorem delLinkPrev_spec {l : list} {node : Nat} {n : listNode} (hn : l.mem node = some n)
    (hp : n.prev ≠ 0 → ∃ p, l.mem n.prev = some p) :
    ∃ l1, delLinkPrev l node = some l1 ∧
      l1.head = (if n.prev ≠ 0 then l.head else n.next) ∧ l1.tail = l.tail ∧
      l1.free = l.free ∧ l1.len = l.len ∧ l1.freed = l.freed ∧
      ∀ a, l1.mem a =
        if n.prev ≠ 0 ∧ a = n.prev then (l.mem a).map (fun p => { p with next := n.next })
        else l.mem a := by
  unfold delLinkPrev
  rw [hn]
  by_cases h0 : n.prev ≠ 0
  · obtain ⟨p, hpm⟩ := hp h0
    simp only [if_pos h0, hpm]
    refine ⟨_, rfl, rfl, rfl, rfl, rfl, rfl, ?_⟩
    intro a
    show memSet l.mem n.prev _ a = _
    unfold memSet
    by_cases ha : a = n.prev
    · rw [if_pos ha, if_pos ⟨h0, ha⟩, ha, hpm]
      rfl
    · rw [if_neg ha, if_neg (fun hc => ha hc.2)]
  · simp only [if_neg h0]
    refine ⟨_, rfl, rfl, rfl, rfl, rfl, rfl, ?_⟩
    intro a
    rw [if_neg (fun hc => h0 hc.1)]

theorem delLinkNext_spec {l : list} {node : Nat} {n : listNode} (hn : l.mem node = some n)
    (hx : n.next ≠ 0 → ∃ x, l.mem n.next = some x) :
    ∃ l1, delLinkNext l node = some l1 ∧
      l1.tail = (if n.next ≠ 0 then l.tail else n.prev) ∧ l1.head = l.head ∧
      l1.free = l.free ∧ l1.len = l.len ∧ l1.freed = l.freed ∧
      ∀ a, l1.mem a =
        if n.next ≠ 0 ∧ a = n.next then (l.mem a).map (fun x => { x with prev := n.prev })
        else l.mem a := by
  unfold delLinkNext
  rw [hn]
  by_cases h0 : n.next ≠ 0
  · obtain ⟨x, hxm⟩ := hx h0
    simp only [if_pos h0, hxm]
    refine ⟨_, rfl, rfl, rfl, rfl, rfl, rfl, ?_⟩
    intro a
    show memSet l.mem n.next _ a = _
    unfold memSet
    by_cases ha : a = n.next
    · rw [if_pos ha, if_pos ⟨h0, ha⟩, ha, hxm]
      rfl
    · rw [if_neg ha, if_neg (fun hc => ha hc.2)]
  · simp only [if_neg h0]
    refine ⟨_, rfl, rfl, rfl, rfl, rfl, rfl, ?_⟩
    intro a
    rw [if_neg (fun hc => h0 hc.1)]

/-- The function `listDelNode` on the node at position `k` of a well-formed list: the list
that remains is well formed with the other nodes in their order, the values of the other nodes
are kept, and the value of the node is passed to `free` when the callback is set. -/
theorem listDelNode_spec {l : list} {ns : List Nat} (h : listOK l ns) {k : Nat}
    (hk : k < ns.length) :
    ∃ l1, listDelNode l (ns.getD k 0) = some l1 ∧ listOK l1 (ns.eraseIdx k) ∧
      l1.len = l.len - 1 ∧ l1.free = l.free ∧
      l1.freed = (if l.free then l.freed ++ [nodeValue l (ns.getD k 0)] else l.freed) ∧
      l1.mem (ns.getD k 0) = none ∧
      ∀ a, a ≠ ns.getD k 0 → nodeValue l1 a = nodeValue l a := by
  obtain ⟨n, hn, hprev, hnext⟩ := listOK_node h hk
  have hnd := h.nodup
  have h0 := h.nonnull
  have hpz : n.prev ≠ 0 ↔ k ≠ 0 := by
    rw [hprev]
    by_cases hk0 : k = 0
    · simp [hk0]
    · simp only [if_neg hk0, ne_eq, hk0, not_false_eq_true, iff_true]
      exact getD_ne_zero h0 (by omega)
  have hnz : n.next ≠ 0 ↔ k + 1 < ns.length := by
    rw [hnext]
    constructor
    · intro hne
      by_contra hge
      exact hne (List.getD_eq_default ns 0 (by omega))
    · intro hlt
      exact getD_ne_zero h0 hlt
  have hpk : n.prev ≠ 0 → n.prev = ns.getD (k - 1) 0 := by
    intro hne
    rw [hprev, if_neg (hpz.mp hne)]
  -- the first relinking statement
  obtain ⟨l1, e1, a1, a2, a3, a4, a5, a6⟩ := delLinkPrev_spec hn (by
    intro hne
    obtain ⟨p, hp, _⟩ := listOK_node h (by omega : k - 1 < ns.length)
    exact ⟨p, by rw [hpk hne]; exact hp⟩)
  have hne1 : ¬ (n.prev ≠ 0 ∧ ns.getD k 0 = n.prev) := by
    rintro ⟨hne, heq⟩
    rw [hpk hne] at heq
    have := getD_inj hnd h0 hk heq
    have := hpz.mp hne
    omega
  have hn1 : l1.mem (ns.getD k 0) = some n := by rw [a6, if_neg hne1, hn]
  -- the second relinking statement
  obtain ⟨l2, e2, b1, b2, b3, b4, b5, b6⟩ := delLinkNext_spec hn1 (by
    intro hne
    obtain ⟨x, hx, _⟩ := listOK_node h (hnz.mp hne)
    rw [a6, hnext, hx]
    split
    · exact ⟨_, rfl⟩
    · exact ⟨_, rfl⟩)
  have hne2 : ¬ (n.next ≠ 0 ∧ ns.getD k 0 = n.next) := by
    rintro ⟨_, heq⟩
    rw [hnext] at heq
    have := getD_inj hnd h0 hk heq
    omega
  have hn2 : l2.mem (ns.getD k 0) = some n := by rw [b6, if_neg hne2, hn1]
  -- the memory after the call, at the other nodes of the list
  have hmem : ∀ j, j < ns.length → j ≠ k →
      ∃ nd nd2, l.mem (ns.getD j 0) = some nd ∧ l2.mem (ns.getD j 0) = some nd2 ∧
        nd2.value = nd.value ∧
        nd2.prev = (if j = k + 1 then n.prev else if j = 0 then 0 else ns.getD (j - 1) 0) ∧
        nd2.next = (if j + 1 = k then n.next else ns.getD (j + 1) 0) := by
    intro j hj hjk
    obtain ⟨nd, hm, hpv, hnx⟩ := listOK_node h hj
    have c1 : (n.prev ≠ 0 ∧ ns.getD j 0 = n.prev) ↔ j + 1 = k := by
      constructor
      · rintro ⟨hne, heq⟩
        rw [hpk hne] at heq
        have := getD_inj hnd h0 hj heq
        have := hpz.mp hne
        omega
      · intro hjk1
        have hk0 : k ≠ 0 := by omega
        refine ⟨hpz.mpr hk0, ?_⟩
        rw [hpk (hpz.mpr hk0)]
        congr 1
        omega
    have c2 : (n.next ≠ 0 ∧ ns.getD j 0 = n.next) ↔ j = k + 1 := by
      constructor
      · rintro ⟨_, heq⟩
        rw [hnext] at heq
        exact getD_inj hnd h0 hj heq
      · intro hjk1
        refine ⟨hnz.mpr (by omega), ?_⟩
        rw [hnext, hjk1]
    rw [b6, a6, hm]
    by_cases d1 : j + 1 = k
    · have d2 : ¬ j = k + 1 := by omega
      rw [if_neg (fun hc => d2 (c2.mp hc)), if_pos (c1.mpr d1)]
      refine ⟨nd, _, rfl, rfl, rfl, ?_, ?_⟩
      · show nd.prev = _
        rw [if_neg d2, hpv]
      · show n.next = _
        rw [if_pos d1]
    · by_cases d2 : j = k + 1
      · rw [if_pos (c2.mpr d2), if_neg (fun hc => d1 (c1.mp hc))]
        refine ⟨nd, _, rfl, rfl, rfl, ?_, ?_⟩
        · show n.prev = _
          rw [if_pos d2]
        · show nd.next = _
          rw [if_neg d1, hnx]
      · rw [if_neg (fun hc => d2 (c2.mp hc)), if_neg (fun hc => d1 (c1.mp hc))]
        refine ⟨nd, nd, rfl, rfl, rfl, ?_, ?_⟩
        · rw [if_neg d2, hpv]
        · rw [if_neg d1, hnx]
  have hlen : (ns.eraseIdx k).length = ns.length - 1 := List.length_eraseIdx_of_lt hk
  refine ⟨{ l2 with freed := if l2.free then l2.freed ++ [n.value] else l2.freed,
                    mem := memSet l2.mem (ns.getD k 0) none,
                    len := decr64 l2.len }, ?_, ?_, ?_, ?_, ?_, ?_, ?_⟩
  · unfold listDelNode
    rw [e1]
    simp only []
    rw [e2]
    simp only []
    rw [hn2]
  · constructor
    · exact List.Nodup.sublist (List.eraseIdx_sublist ns k) hnd
    · intro hc
      exact h0 ((List.eraseIdx_sublist ns k).subset hc)
    · show decr64 l2.len = _
      rw [b4, a4, h.len_eq, hlen]
      unfold decr64
      rw [if_neg (by omega)]
    · rw [hlen]
      have := h.len_lt
      omega
    · show l2.head = _
      rw [b2, a1, headD_eq_getD, getD_eraseIdx, h.head_eq, headD_eq_getD, hnext]
      by_cases hk0 : k = 0
      · rw [if_neg (fun hc => hpz.mp hc hk0), if_neg (by omega), hk0]
      · rw [if_pos (hpz.mpr hk0), if_pos (by omega)]
    · show l2.tail = _
      rw [b1, a2, getLastD_eq_getD, getD_eraseIdx, hlen, h.tail_eq, getLastD_eq_getD, hprev]
      by_cases hlast : k + 1 < ns.length
      · rw [if_pos (hnz.mpr hlast), if_neg (by omega)]
        congr 1
        omega
      · rw [if_neg (fun hc => hlast (hnz.mp hc))]
        by_cases hk0 : k = 0
        · rw [if_pos hk0, if_neg (by omega), List.getD_eq_default ns 0 (by omega)]
        · rw [if_neg hk0, if_pos (by omega)]
          congr 1
          omega
    · intro j hj
      rw [hlen] at hj
      show (memSet l2.mem (ns.getD k 0) none ((ns.eraseIdx k).getD j 0)).map _ = _
      unfold memSet
      simp only [getD_eraseIdx]
      by_cases hjk : j < k
      · obtain ⟨nd, nd2, _, m2, _, m4, m5⟩ := hmem j (by omega) (by omega)
        have hne : ns.getD j 0 ≠ ns.getD k 0 := fun hc => by
          have := getD_inj hnd h0 (by omega : j < ns.length) hc
          omega
        rw [if_pos hjk, if_neg hne, m2]
        simp only [Option.map_some', Option.some.injEq, Prod.mk.injEq]
        constructor
        · rw [m4, if_neg (by omega)]
          by_cases hj0 : j = 0
          · rw [if_pos hj0, if_pos hj0]
          · rw [if_neg hj0, if_neg hj0, if_pos (by omega)]
        · rw [m5, hnext]
          by_cases hj1 : j + 1 = k
          · rw [if_pos hj1, if_neg (by omega)]
            congr 1
            omega
          · rw [if_neg hj1, if_pos (by omega)]
      · obtain ⟨nd, nd2, _, m2, _, m4, m5⟩ := hmem (j + 1) (by omega) (by omega)
        have hne : ns.getD (j + 1) 0 ≠ ns.getD k 0 := fun hc => by
          have := getD_inj hnd h0 (by omega : j + 1 < ns.length) hc
          omega
        rw [if_neg hjk, if_neg hne, m2]
        simp only [Option.map_some', Option.some.injEq, Prod.mk.injEq]
        constructor
        · rw [m4, hprev]
          by_cases hjk2 : j = k
          · rw [if_pos (by omega)]
            by_cases hk0 : k = 0
            · rw [if_pos hk0, if_pos (by omega)]
            · rw [if_neg hk0, if_neg (by omega), if_pos (by omega)]
              congr 1
              omega
          · rw [if_neg (by omega), if_neg (by omega), if_neg (by omega), if_neg (by omega)]
            congr 1
            omega
        · rw [m5, if_neg (by omega), if_neg (by omega)]
  · show decr64 l2.len = _
    rw [b4, a4, h.len_eq]
    unfold decr64
    rw [if_neg (by omega)]
  · show l2.free = _
    rw [b3, a3]
  · show (if l2.free then l2.freed ++ [n.value] else l2.freed) = _
    rw [b3, a3, b5, a5]
    unfold nodeValue
    rw [hn]
  · show memSet l2.mem (ns.getD k 0) none (ns.getD k 0) = none
    unfold memSet
    rw [if_pos rfl]
  · intro a ha
    unfold nodeValue
    show (match memSet l2.mem (ns.getD k 0) none a with
      | some nd => nd.value
      | none => 0) = _
    unfold memSet
    rw [if_neg ha, b6, a6]
    cases hm : l.mem a with
    | none =>
      split_ifs <;> rfl
    | some nd =>
      split_ifs <;> rfl

theorem listTraverseLoop_forward {l : list} {ns : List Nat} (h : listOK l ns) :
    ∀ (fuel j : Nat), j ≤ ns.length → ns.length < j + fuel →
      listTraverseLoop l fuel { next := ns.getD j 0, direction := AL_START_HEAD } =
        some (ns.drop j) := by
  intro fuel
  induction fuel with
  | zero =>
    intro j h1 h2
    omega
  | succ fuel ih =>
    intro j hj hfuel
    unfold listTraverseLoop listNext
    by_cases hlt : j < ns.length
    · obtain ⟨nd, hm, _, hnext⟩ := listOK_node h hlt
      have hne := getD_ne_zero h.nonnull hlt
      simp only [if_pos hne, hm, if_neg hne, if_true, hnext]
      rw [ih (j + 1) (by omega) (by omega), List.drop_eq_getElem_cons hlt,
        List.getD_eq_getElem _ _ hlt]
      rfl
    · have hz : ns.getD j 0 = 0 := List.getD_eq_default ns 0 (by omega)
      simp only [hz, ne_eq, not_true_eq_false, if_false, if_true]
      rw [List.drop_eq_nil_of_le (by omega)]

theorem listTraverseLoop_backward {l : list} {ns : List Nat} (h : listOK l ns) :
    ∀ (fuel k : Nat), k ≤ ns.length → k < fuel →
      listTraverseLoop l fuel
        { next := if k = 0 then 0 else ns.getD (k - 1) 0, direction := AL_START_TAIL } =
        some (ns.take k).reverse := by
  intro fuel
  induction fuel with
  | zero =>
    intro k _ h2
    omega
  | succ fuel ih =>
    intro k hk hfuel
    unfold listTraverseLoop listNext
    by_cases hk0 : k = 0
    · subst hk0
      simp
    · obtain ⟨nd, hm, hprev, _⟩ := listOK_node h (by omega : k - 1 < ns.length)
      have hne := getD_ne_zero h.nonnull (by omega : k - 1 < ns.length)
      have hdir : ¬ AL_START_TAIL = AL_START_HEAD := by decide
      have hp : nd.prev = (if k - 1 = 0 then 0 else ns.getD (k - 1 - 1) 0) := hprev
      simp only [if_neg hk0, if_pos hne, hm, if_neg hne, if_neg hdir, hp]
      rw [ih (k - 1) (by omega) (by omega)]
      have ht : ns.take k = ns.take (k - 1) ++ [ns.getD (k - 1) 0] := by
        have h1 := @List.take_succ _ ns (k - 1)
        rw [Nat.sub_add_cancel (by omega : 1 ≤ k),
          List.getElem?_eq_getElem (by omega : k - 1 < ns.length)] at h1
        rw [h1]
        congr 1
        simp only [Option.toList, List.getD_eq_getElem?_getD,
          List.getElem?_eq_getElem (by omega : k - 1 < ns.length), Option.getD_some]
      rw [ht, List.reverse_append]
      rfl

/-- The iteration of a well-formed list from the head returns its nodes in order, the
iteration from the tail in the reverse order. -/
theorem listTraverse_spec {l : list} {ns : List Nat} (h : listOK l ns) :
    listTraverse l AL_START_HEAD = some ns ∧ listTraverse l AL_START_TAIL = some ns.reverse := by
  unfold listTraverse listGetIterator
  constructor
  · rw [if_pos rfl, h.head_eq, headD_eq_getD, h.len_eq,
      listTraverseLoop_forward h (ns.length + 1) 0 (Nat.zero_le _) (by omega), List.drop_zero]
  · have hdir : ¬ AL_START_TAIL = AL_START_HEAD := by decide
    have htail : l.tail = (if ns.length = 0 then 0 else ns.getD (ns.length - 1) 0) := by
      rw [h.tail_eq, getLastD_eq_getD]
      by_cases h0 : ns.length = 0
      · rw [if_pos h0, List.getD_eq_default ns 0 (by omega)]
      · rw [if_neg h0]
    rw [if_neg hdir, htail, h.len_eq,
      listTraverseLoop_backward h (ns.length + 1) ns.length (Nat.le_refl _) (by omega),
      List.take_length]

theorem threeList_ok : listOK threeList [8, 16, 24] :=
  ⟨by decide, by decide, rfl, by decide, rfl, rfl, by decide⟩

theorem threeList_free_ok : listOK (listSetFreeMethod threeList true) [8, 16, 24] :=
  ⟨by decide, by decide, rfl, by decide, rfl, rfl, by decide⟩

/-! ## The counter of live safe iterators -/

theorem dictNextFirst_dict (a0 a1 : Nat) (iter : dictIterator) (d : dict) :
    (dictNextFirst a0 a1 iter d).2 =
      (if (iter.index = -1 ∧ iter.table = 0) ∧ iter.safe = true then
        { d with iterators := (d.iterators + 1) % 18446744073709551616 } else d) := by
  unfold dictNextFirst
  by_cases h : iter.index = -1 ∧ iter.table = 0
  · rw [if_pos h]
    cases hs : iter.safe with
    | true => simp [h]
    | false => simp
  · rw [if_neg h]
    simp [h]

/-- What a call of `dictNext` that returns does to the dictionary: the first advance of a safe
iterator adds one to the counter of live iterators, and no other advance changes anything;
after the call the iterator is no longer in its initial position. -/
theorem dictNextLoop_dict (a0 a1 : Nat) :
    ∀ (fuel : Nat) (iter : dictIterator) (d : dict) (iter1 : dictIterator) (d1 : dict)
      (r : Option dictEntry), dictNextLoop a0 a1 fuel iter d = some (iter1, d1, r) →
      -1 ≤ iter.index → iter.index < 9223372036854775807 → (iter.entry ≠ [] → 0 ≤ iter.index) →
      d1 = (if (iter.index = -1 ∧ iter.table = 0) ∧ iter.safe = true then
        { d with iterators := (d.iterators + 1) % 18446744073709551616 } else d) ∧
      iter1.safe = iter.safe ∧ 0 ≤ iter1.index := by
  intro fuel
  induction fuel with
  | zero =>
    intro iter d iter1 d1 r h
    rw [dictNextLoop] at h
    cases h
  | succ fuel ih =>
    intro iter d iter1 d1 r h hlo hhi hne
    rw [dictNextLoop] at h
    by_cases hent : iter.entry = []
    · rw [if_pos hent] at h
      have g1 := (dictNextFirst_fields a0 a1 iter d).1
      have g3 := (dictNextFirst_fields a0 a1 iter d).2.2.1
      have g2 := dictNextFirst_dict a0 a1 iter d
      obtain ⟨it1, hit1⟩ : ∃ it1, it1 = (dictNextFirst a0 a1 iter d).1 := ⟨_, rfl⟩
      obtain ⟨d2, hd2⟩ : ∃ d2, d2 = (dictNextFirst a0 a1 iter d).2 := ⟨_, rfl⟩
      rw [← hit1] at g1 g3
      rw [← hd2] at g2
      simp only [] at h
      rw [← hit1, ← hd2] at h
      have hw : wrapLong (it1.index + 1) = iter.index + 1 := by
        rw [g1]
        exact wrapLong_eq (by omega) (by omega)
      rw [hw] at h
      rw [← g2]
      split at h
      · split at h
        · split at h
          · cases h
          · obtain ⟨k1, k2, k3⟩ := ih _ _ _ _ _ h (by simp) (by simp) (fun hc => absurd rfl hc)
            refine ⟨?_, k2.trans g3, k3⟩
            rw [k1, if_neg (by simp)]
          · unfold dictNextReturn at h
            cases h
            exact ⟨rfl, g3, le_refl _⟩
        · cases h
          exact ⟨rfl, g3, by show 0 ≤ iter.index + 1; omega⟩
      · split at h
        · cases h
        · split at h
          · cases h
          · obtain ⟨k1, k2, k3⟩ := ih _ _ _ _ _ h (by show -1 ≤ iter.index + 1; omega)
              (by
                show iter.index + 1 < 9223372036854775807
                have hle := toLong_le (getHt d2 it1.table).size
                omega) (fun hc => absurd rfl hc)
            refine ⟨?_, k2.trans g3, k3⟩
            rw [k1, if_neg (fun hc => by
              have : iter.index + 1 = -1 := hc.1.1
              omega)]
          · unfold dictNextReturn at h
            cases h
            exact ⟨rfl, g3, by show 0 ≤ iter.index + 1; omega⟩
    · rw [if_neg hent] at h
      have h0 := hne hent
      rw [if_neg (fun hc => by
        have : iter.index = -1 := hc.1.1
        omega)]
      split at h
      · obtain ⟨k1, k2, k3⟩ := ih _ _ _ _ _ h hlo hhi (fun _ => h0)
        refine ⟨?_, k2, k3⟩
        rw [k1, if_neg (fun hc => by
          have : iter.index = -1 := hc.1.1
          omega)]
      · split at h
        · unfold dictNextReturn at h
          cases h
          exact ⟨rfl, rfl, h0⟩
        · cases h

theorem IterOK_bounds {iter : dictIterator} {d : dict} (hok : IterOK iter d)
    (hs0 : d.ht0.size ≤ LONG_MAX) (hs1 : d.ht1.size ≤ LONG_MAX) :
    -1 ≤ iter.index ∧ iter.index < 9223372036854775807 ∧ (iter.entry ≠ [] → 0 ≤ iter.index) := by
  have hsz : ((getHt d iter.table).size : Int) ≤ 9223372036854775807 := by
    unfold getHt
    unfold LONG_MAX at hs0 hs1
    split
    · omega
    · omega
  rcases hok.index_ok with ⟨h1, _, h3⟩ | ⟨h1, h2⟩
  · exact ⟨by omega, by omega, fun hc => absurd h3 hc⟩
  · exact ⟨by omega, by omega, fun _ => h1⟩

/-- The caller loop over `dictNext` on a dictionary that is not modified: it returns, and it
leaves the dictionary as it is but for the counter of live iterators, which the first advance
of a safe iterator raises by one. -/
theorem iterateAll_dict (a0 a1 : Nat) :
    ∀ (fuel : Nat) (iter : dictIterator) (d : dict), Inv d → d.ht0.size ≤ LONG_MAX →
      d.ht1.size ≤ LONG_MAX → IterOK iter d → (iterRest iter d).length + 1 ≤ fuel →
      ∃ iter1 d1, iterateAll a0 a1 fuel iter d = some (iter1, d1, iterRest iter d) ∧
        d1 = (if (iter.index = -1 ∧ iter.table = 0) ∧ iter.safe = true then
          { d with iterators := (d.iterators + 1) % 18446744073709551616 } else d) ∧
        iter1.safe = iter.safe ∧ 0 ≤ iter1.index := by
  intro fuel
  induction fuel with
  | zero =>
    intro iter d _ _ _ _ hf
    omega
  | succ fuel ih =>
    intro iter d hinv hs0 hs1 hok hf
    obtain ⟨it1, d1, k1, k2, k3, k4, k5, _, _, _, _, k10⟩ :=
      dictNext_spec a0 a1 iter d hinv hs0 hs1 hok
    obtain ⟨b1, b2, b3⟩ := IterOK_bounds hok hs0 hs1
    have k1' := k1
    unfold dictNext at k1'
    obtain ⟨c1, c2, c3⟩ := dictNextLoop_dict a0 a1 _ iter d it1 d1 _ k1' b1 b2 b3
    rw [iterateAll, k1]
    cases hrest : iterRest iter d with
    | nil => exact ⟨it1, d1, rfl, c1, c2, c3⟩
    | cons e tl =>
      simp only [List.head?_cons]
      rw [hrest] at k10 hf
      obtain ⟨m1, _, _, _, m5⟩ := k10 (by simp)
      rw [List.tail_cons] at m5
      have hinv1 : Inv d1 := Inv_congr hinv k2 k3 k4 k5
      obtain ⟨it2, d2, n1, n2, n3, n4⟩ :=
        ih it1 d1 hinv1 (by rw [k3]; exact hs0) (by rw [k4]; exact hs1) m1
          (by rw [m5]; simp only [List.length_cons] at hf; omega)
      rw [n1, m5]
      refine ⟨it2, d2, rfl, ?_, n3.trans c2, n4⟩
      rw [n2, if_neg (fun hc => by
        have : it1.index = -1 := hc.1.1
        omega), c1]

/-! ## What a deletion does to the tables -/

/-- One round of the loop of `dictGenericDelete` that finds the key: the entry found is taken
out of its chain, which keeps the order of the other entries, and nothing else changes in the
two tables but the count `used`. -/
theorem genericDeleteTable_tables {d d2 : dict} {t : Nat} (ht : t = 0 ∨ t = 1) {key h : Nat}
    {nofree : Bool} {he : dictEntry}
    (hres : genericDeleteTable d t key h nofree = some (d2, some he)) :
    ∃ bs chain pos, (getHt d t).table = some bs ∧
      bs[h &&& (getHt d t).sizemask]? = some chain ∧ chainFind d key chain = some (pos, he) ∧
      (getHt d2 t).table = some (bs.set (h &&& (getHt d t).sizemask) (chain.eraseIdx pos)) ∧
      (getHt d2 t).size = (getHt d t).size ∧ (getHt d2 t).sizemask = (getHt d t).sizemask ∧
      getHt d2 (1 - t) = getHt d (1 - t) := by
  unfold genericDeleteTable at hres
  simp only [] at hres
  cases htab : (getHt d t).table with
  | none =>
    rw [bucketGet, htab] at hres
    cases hres
  | some bs =>
    rw [bucketGet_eq htab] at hres
    cases hb : bs[h &&& (getHt d t).sizemask]? with
    | none =>
      rw [hb] at hres
      cases hres
    | some chain =>
      rw [hb] at hres
      simp only [] at hres
      cases hc : chainFind d key chain with
      | none =>
        rw [hc] at hres
        cases hres
      | some r =>
        obtain ⟨pos, e⟩ := r
        rw [hc] at hres
        simp only [] at hres
        have hilt := lt_of_getElem?_eq_some hb
        rw [bucketSet_eq htab hilt] at hres
        simp only [] at hres
        obtain ⟨nht, hnht⟩ : ∃ nht : dictht, nht =
            { getHt d t with
              table := some (bs.set (h &&& (getHt d t).sizemask) (chain.eraseIdx pos)) } :=
          ⟨_, rfl⟩
        rw [← hnht] at hres
        obtain ⟨d3, hd3, f1, f2, f3, f4, f5, _⟩ := freeEntry_fields (setHt d t nht) nofree e
        rw [← hd3] at hres
        have hg3 : getHt d3 t = nht := by
          rcases ht with h0 | h1
          · subst h0
            show d3.ht0 = nht
            rw [f2]
            rfl
          · subst h1
            show d3.ht1 = nht
            rw [f3]
            rfl
        have hg3o : getHt d3 (1 - t) = getHt d (1 - t) := by
          rcases ht with h0 | h1
          · subst h0
            show d3.ht1 = d.ht1
            rw [f3]
            rfl
          · subst h1
            show d3.ht0 = d.ht0
            rw [f2]
            rfl
        simp only [Option.some.injEq, Prod.mk.injEq] at hres
        obtain ⟨hd2, hhe⟩ := hres
        subst hhe
        have g5 : getHt d2 t = { getHt d3 t with used := decr64 (getHt d3 t).used } := by
          rw [← hd2]
          exact getHt_setHt_same d3 ht _
        refine ⟨bs, chain, pos, rfl, hb, hc, ?_, ?_, ?_, ?_⟩
        · rw [g5]
          show (getHt d3 t).table = _
          rw [hg3, hnht]
        · rw [g5]
          show (getHt d3 t).size = _
          rw [hg3, hnht]
        · rw [g5]
          show (getHt d3 t).sizemask = _
          rw [hg3, hnht]
        · rw [← hd2, getHt_setHt_other d3 ht, hg3o]

theorem genericDeleteTable_none {d d2 : dict} {t key h : Nat} {nofree : Bool}
    (hres : genericDeleteTable d t key h nofree = some (d2, none)) : d2 = d := by
  unfold genericDeleteTable at hres
  simp only [] at hres
  split at hres
  · cases hres
  · split at hres
    · cases hres
      rfl
    · split at hres
      · cases hres
      · cases hres

/-- A call of `dictGenericDelete` that finds the key: after the rehash step that the call may
begin with, the entry found is the first one of its chain that matches the key, it is taken
out of that chain, and the two tables are otherwise as the rehash step left them. -/
theorem dictGenericDelete_tables {d d2 : dict} {key : Nat} {nofree : Bool} {he : dictEntry}
    (hres : dictGenericDelete d key nofree = some (d2, some he)) :
    ∃ d1 t bs chain pos, rehashStepIfRehashing d = some d1 ∧ (t = 0 ∨ t = 1) ∧
      (getHt d1 t).table = some bs ∧
      bs[dictHashKey d1 key &&& (getHt d1 t).sizemask]? = some chain ∧
      chain[pos]? = some he ∧
      (∀ q e, q < pos → chain[q]? = some e → keyEq d1.type key e.key = false) ∧
      (getHt d2 t).table =
        some (bs.set (dictHashKey d1 key &&& (getHt d1 t).sizemask) (chain.eraseIdx pos)) ∧
      (getHt d2 t).size = (getHt d1 t).size ∧
      getHt d2 (1 - t) = getHt d1 (1 - t) := by
  unfold dictGenericDelete at hres
  split at hres
  · cases hres
  · cases hstep : rehashStepIfRehashing d with
    | none =>
      rw [hstep] at hres
      cases hres
    | some d1 =>
      rw [hstep] at hres
      simp only [] at hres
      cases h0 : genericDeleteTable d1 0 key (dictHashKey d1 key) nofree with
      | none =>
        rw [h0] at hres
        cases hres
      | some r0 =>
        obtain ⟨d3, r⟩ := r0
        rw [h0] at hres
        cases r with
        | some e =>
          simp only [Option.some.injEq, Prod.mk.injEq] at hres
          obtain ⟨h1, h2⟩ := hres
          subst h1
          subst h2
          obtain ⟨bs, chain, pos, a1, a2, a3, a4, a5, _, a7⟩ :=
            genericDeleteTable_tables (Or.inl rfl) h0
          obtain ⟨c1, _, c3⟩ := chainFind_some d1 key chain pos e a3
          exact ⟨d1, 0, bs, chain, pos, rfl, Or.inl rfl, a1, a2, c1, c3, a4, a5, a7⟩
        | none =>
          have hd3 := genericDeleteTable_none h0
          subst hd3
          simp only [] at hres
          split at hres
          · cases hres
          · obtain ⟨bs, chain, pos, a1, a2, a3, a4, a5, _, a7⟩ :=
              genericDeleteTable_tables (Or.inr rfl) hres
            obtain ⟨c1, _, c3⟩ := chainFind_some d3 key chain pos he a3
            exact ⟨d3, 1, bs, chain, pos, rfl, Or.inr rfl, a1, a2, c1, c3, a4, a5, a7⟩

/-- The function `dictGenericDelete` on a key that is present, with or without the destructor
calls: the entry of the key is returned as it was stored, it is taken out of its chain and the
chain keeps the order of the others, the tables are otherwise as the rehash step of the call
left them, one entry less is stored, and the destructors that are set are called once each,
the key destructor first, unless `nofree` is set. -/
theorem dictGenericDelete_present {T : dictType} (hT : LawfulType T) {d : dict}
    (hinv : Inv d) (hty : d.type = T) {key : Nat} {he : dictEntry} (hmem : he ∈ dictEntries d)
    (hkey : keyEq T key he.key = true) (nofree : Bool) :
    ∃ d2 d1 t bs chain pos, dictGenericDelete d key nofree = some (d2, some he) ∧
      rehashStepIfRehashing d = some d1 ∧ (dictEntries d1).Perm (dictEntries d) ∧
      (t = 0 ∨ t = 1) ∧ (getHt d1 t).table = some bs ∧
      bs[dictHashKey d1 key &&& (getHt d1 t).sizemask]? = some chain ∧
      chain[pos]? = some he ∧
      (getHt d2 t).table =
        some (bs.set (dictHashKey d1 key &&& (getHt d1 t).sizemask) (chain.eraseIdx pos)) ∧
      getHt d2 (1 - t) = getHt d1 (1 - t) ∧
      dictSize d2 + 1 = dictSize d ∧ (dictEntries d).Perm (he :: dictEntries d2) ∧
      d2.trace = d.trace ++ freeEvents T nofree he := by
  have hTd : LawfulType d.type := hty ▸ hT
  obtain ⟨d2, r, a1, a2, _, _, a5⟩ := dictGenericDelete_spec d key nofree hTd hinv
  rcases a5 with ⟨_, hno, _⟩ | ⟨x, hr, hk, hx, hperm, htrace, _⟩
  · have hf := hno he hmem
    rw [hty, hkey] at hf
    cases hf
  · subst hr
    have hxe : x = he := match_unique hT (hty ▸ hinv.nodup) hx hmem (hty ▸ hk) hkey
    subst hxe
    obtain ⟨d1, t, bs, chain, pos, b1, b2, b3, b4, b5, _, b7, _, b9⟩ :=
      dictGenericDelete_tables a1
    obtain ⟨d1', s1, _, _, _, _, s6, _⟩ := rehashStep_spec d hTd hinv
    rw [b1] at s1
    cases s1
    refine ⟨d2, d1, t, bs, chain, pos, a1, b1, s6, b2, b3, b4, b5, b7, b9, ?_, hperm, ?_⟩
    · rw [dictSize_eq a2, dictSize_eq hinv, hperm.length_eq]
      rfl
    · rw [htrace, hty]

/-! ## Random sampling -/

theorem bucketGet_lt {T : dictType} {ht : dictht} (hok : htOK T ht) {i : Nat}
    {c : List dictEntry} (h : bucketGet ht i = some c) : i < ht.size := by
  obtain ⟨bs, htab, hget⟩ := bucketGet_some h
  rw [← hok.length_eq bs htab]
  exact lt_of_getElem?_eq_some hget

theorem mem_of_bucketGet {ht : dictht} {i : Nat} {c : List dictEntry} {e : dictEntry}
    (h : bucketGet ht i = some c) (he : e ∈ c) : e ∈ htEntries ht := by
  obtain ⟨bs, htab, hget⟩ := bucketGet_some h
  exact mem_htEntries_of_bucket htab hget he

theorem mem_dictEntries_of_getHt {d : dict} {t : Nat} (ht : t = 0 ∨ t = 1) {e : dictEntry}
    (he : e ∈ htEntries (getHt d t)) : e ∈ dictEntries d := by
  unfold dictEntries
  rw [List.mem_append]
  rcases ht with rfl | rfl
  · exact Or.inl he
  · exact Or.inr he

/-- A bucket loop of `dictGetRandomKey` that returns has found a chain that is not empty, and
every bucket it has read exists. -/
theorem randomBucketStable_spec (d : dict) (rnd : Nat → Nat) :
    ∀ (fuel k : Nat) (chain : List dictEntry) (k1 : Nat) (probes : List (Nat × Nat)),
      randomBucketStable d rnd fuel k = some (chain, k1, probes) →
      chain ≠ [] ∧ (∃ t i, (t = 0 ∨ t = 1) ∧ bucketGet (getHt d t) i = some chain) ∧
      ∀ p, p ∈ probes → (p.1 = 0 ∨ p.1 = 1) ∧ ∃ c, bucketGet (getHt d p.1) p.2 = some c := by
  intro fuel
  induction fuel with
  | zero =>
    intro k chain k1 probes h
    cases h
  | succ fuel ih =>
    intro k chain k1 probes h
    unfold randomBucketStable at h
    cases hb : bucketGet d.ht0 (rnd k &&& d.ht0.sizemask) with
    | none =>
      rw [hb] at h
      cases h
    | some c =>
      rw [hb] at h
      cases c with
      | nil =>
        simp only [] at h
        cases hrec : randomBucketStable d rnd fuel (k + 1) with
        | none =>
          rw [hrec] at h
          cases h
        | some r =>
          obtain ⟨c2, k2, p2⟩ := r
          rw [hrec] at h
          simp only [Option.map_some', Option.some.injEq, Prod.mk.injEq] at h
          obtain ⟨h1, _, h3⟩ := h
          subst h1
          subst h3
          obtain ⟨a1, a2, a3⟩ := ih (k + 1) c2 k2 p2 hrec
          refine ⟨a1, a2, ?_⟩
          intro p hp
          rw [List.mem_cons] at hp
          rcases hp with rfl | hp
          · exact ⟨Or.inl rfl, [], hb⟩
          · exact a3 p hp
      | cons e next =>
        simp only [Option.some.injEq, Prod.mk.injEq] at h
        obtain ⟨h1, _, h3⟩ := h
        subst h1
        subst h3
        refine ⟨by simp, ⟨0, _, Or.inl rfl, hb⟩, ?_⟩
        intro p hp
        rw [List.mem_singleton] at hp
        subst hp
        exact ⟨Or.inl rfl, _, hb⟩

theorem randomBucketRehashing_spec (d : dict) (rnd : Nat → Nat) :
    ∀ (fuel k : Nat) (chain : List dictEntry) (k1 : Nat) (probes : List (Nat × Nat)),
      randomBucketRehashing d rnd fuel k = some (chain, k1, probes) →
      chain ≠ [] ∧ (∃ t i, (t = 0 ∨ t = 1) ∧ bucketGet (getHt d t) i = some chain) ∧
      ∀ p, p ∈ probes → (p.1 = 0 ∨ p.1 = 1) ∧ ∃ c, bucketGet (getHt d p.1) p.2 = some c := by
  intro fuel
  induction fuel with
  | zero =>
    intro k chain k1 probes h
    cases h
  | succ fuel ih =>
    intro k chain k1 probes h
    unfold randomBucketRehashing at h
    simp only [] at h
    split at h
    · cases h
    · obtain ⟨t, ht⟩ : ∃ t : Nat, t = (if (toULong d.rehashidx + rnd k %
          sub64 ((d.ht0.size + d.ht1.size) % 18446744073709551616) (toULong d.rehashidx)) %
          18446744073709551616 ≥ d.ht0.size then 1 else 0) := ⟨_, rfl⟩
      have ht01 : t = 0 ∨ t = 1 := by
        rw [ht]
        split
        · exact Or.inr rfl
        · exact Or.inl rfl
      rw [← ht] at h
      split at h
      · cases h
      · rename_i hb
        cases hrec : randomBucketRehashing d rnd fuel (k + 1) with
        | none =>
          rw [hrec] at h
          cases h
        | some r =>
          obtain ⟨c2, k2, p2⟩ := r
          rw [hrec] at h
          simp only [Option.map_some', Option.some.injEq, Prod.mk.injEq] at h
          obtain ⟨h1, _, h3⟩ := h
          subst h1
          subst h3
          obtain ⟨a1, a2, a3⟩ := ih (k + 1) c2 k2 p2 hrec
          refine ⟨a1, a2, ?_⟩
          intro p hp
          rw [List.mem_cons] at hp
          rcases hp with rfl | hp
          · exact ⟨ht01, [], hb⟩
          · exact a3 p hp
      · rename_i e next hb
        simp only [Option.some.injEq, Prod.mk.injEq] at h
        obtain ⟨h1, _, h3⟩ := h
        subst h1
        subst h3
        refine ⟨by simp, ⟨t, _, ht01, hb⟩, ?_⟩
        intro p hp
        rw [List.mem_singleton] at hp
        subst hp
        exact ⟨ht01, _, hb⟩

theorem wrapInt_eq {x : Int} (h1 : -2147483648 ≤ x) (h2 : x < 2147483648) : wrapInt x = x := by
  unfold wrapInt
  omega

theorem listeleLoop_spec :
    ∀ (n fuel : Nat) (chain : List dictEntry), n < chain.length → n < 2147483648 → n < fuel →
      listeleLoop fuel (n : Int) chain = some chain[n]? := by
  intro n
  induction n with
  | zero =>
    intro fuel chain _ _ hf
    obtain ⟨f, rfl⟩ : ∃ f, fuel = f + 1 := ⟨fuel - 1, by omega⟩
    unfold listeleLoop
    simp only [Nat.cast_zero, ne_eq, not_true_eq_false, if_false]
    cases chain <;> simp
  | succ n ih =>
    intro fuel chain hlen hn hf
    obtain ⟨f, rfl⟩ : ∃ f, fuel = f + 1 := ⟨fuel - 1, by omega⟩
    unfold listeleLoop
    have hne : ((n + 1 : Nat) : Int) ≠ 0 := by omega
    rw [if_pos hne]
    cases chain with
    | nil => simp at hlen
    | cons e next =>
      simp only []
      have hw : wrapInt (((n + 1 : Nat) : Int) - 1) = (n : Int) := by
        rw [wrapInt_eq (by omega) (by omega)]
        omega
      rw [hw, ih f next (by simpa using hlen) (by omega) (by omega)]
      simp

theorem emod_le_self (r : Nat) {m : Int} (hm : 0 < m) : (r : Int) % m ≤ (r : Int) := by
  obtain ⟨mn, rfl⟩ := Int.eq_ofNat_of_zero_le (le_of_lt hm)
  rw [← Int.ofNat_emod]
  exact_mod_cast Nat.mod_le r mn

/-- The index `random() % listlen` computed in `int`: it lies within the chain. -/
theorem listele_bound (r L : Nat) (hr : r < 2147483648) (hL : 0 < L)
    (hw : wrapInt (L : Int) ≠ 0) :
    ∃ n : Nat, wrapInt (Int.tmod (r : Int) (wrapInt (L : Int))) = (n : Int) ∧ n < L ∧
      n < 2147483648 := by
  have hrange : -2147483648 ≤ wrapInt (L : Int) ∧ wrapInt (L : Int) < 2147483648 := by
    unfold wrapInt
    omega
  by_cases hpos : 0 < wrapInt (L : Int)
  · have hle : wrapInt (L : Int) ≤ (L : Int) := by
      unfold wrapInt at hpos ⊢
      omega
    have hmod : Int.tmod (r : Int) (wrapInt (L : Int)) = (r : Int) % wrapInt (L : Int) :=
      Int.tmod_eq_emod (by omega) (by omega)
    have h1 := Int.emod_nonneg (r : Int) (by omega : wrapInt (L : Int) ≠ 0)
    have h2 := Int.emod_lt_of_pos (r : Int) hpos
    refine ⟨((r : Int) % wrapInt (L : Int)).toNat, ?_, ?_, ?_⟩
    · rw [hmod, wrapInt_eq (by omega) (by omega)]
      omega
    · omega
    · omega
  · have hneg : wrapInt (L : Int) < 0 := by omega
    have hLbig : (2147483648 : Int) ≤ (L : Int) := by
      unfold wrapInt at hneg
      omega
    have hmod : Int.tmod (r : Int) (wrapInt (L : Int)) = (r : Int) % (-wrapInt (L : Int)) := by
      rw [← Int.tmod_neg]
      exact Int.tmod_eq_emod (by omega) (by omega)
    have h1 := Int.emod_nonneg (r : Int) (by omega : -wrapInt (L : Int) ≠ 0)
    have h2 : (r : Int) % (-wrapInt (L : Int)) ≤ (r : Int) := emod_le_self r (by omega)
    refine ⟨((r : Int) % (-wrapInt (L : Int))).toNat, ?_, ?_, ?_⟩
    · rw [hmod, wrapInt_eq (by omega) (by omega)]
      omega
    · omega
    · omega

/-- The entry picked in a chain that is not empty is an entry of the chain. -/
theorem randomElement_spec {chain : List dictEntry} (hc : chain ≠ []) {r : Nat}
    (hr : r < 2147483648) {he : Option dictEntry} (h : randomElement chain r = some he) :
    ∃ e, he = some e ∧ e ∈ chain := by
  unfold randomElement at h
  by_cases hw : wrapInt (chain.length : Int) = 0
  · rw [if_pos hw] at h
    cases h
  · rw [if_neg hw] at h
    have hpos : 0 < chain.length := List.length_pos.mpr hc
    obtain ⟨n, hn1, hn2, hn3⟩ := listele_bound r chain.length hr hpos hw
    have hwalk := listeleLoop_spec n (chain.length + 1) chain hn2 hn3 (Nat.lt_succ_of_lt hn2)
    rw [hn1] at h
    have := h.symm.trans hwalk
    rw [List.getElem?_eq_getElem hn2] at this
    exact ⟨chain[n], (Option.some.inj this), List.getElem_mem hn2⟩

/-- A call of `dictGetRandomKey` on a well-formed dictionary that is not empty: when it
returns, the dictionary is the one after the rehash step, the result is an entry of the chain
of a bucket of that dictionary, and every bucket probed lies within its table. -/
theorem dictGetRandomKey_spec {d : dict} (hT : LawfulType d.type) (hinv : Inv d)
    (hne : dictSize d ≠ 0) (rnd : Nat → Nat) (hrnd : ∀ k, rnd k < 2147483648) (fuel : Nat)
    {d1 : dict} {r : Option dictEntry} {probes : List (Nat × Nat)}
    (hres : dictGetRandomKey d rnd fuel = some (d1, r, probes)) :
    rehashStepIfRehashing d = some d1 ∧ Inv d1 ∧ (dictEntries d1).Perm (dictEntries d) ∧
      (∃ he, r = some he ∧ he ∈ dictEntries d1) ∧
      ∀ p, p ∈ probes → (p.1 = 0 ∨ p.1 = 1) ∧ p.2 < (getHt d1 p.1).size := by
  unfold dictGetRandomKey at hres
  rw [if_neg hne] at hres
  obtain ⟨d2, s1, s2, _, _, _, s6, _⟩ := rehashStep_spec d hT hinv
  rw [s1] at hres
  simp only [] at hres
  have hloop : ∀ (chain : List dictEntry) (k : Nat) (pr : List (Nat × Nat)),
      (if dictIsRehashing d2 then randomBucketRehashing d2 rnd fuel 0
        else randomBucketStable d2 rnd fuel 0) = some (chain, k, pr) →
      chain ≠ [] ∧ (∃ t i, (t = 0 ∨ t = 1) ∧ bucketGet (getHt d2 t) i = some chain) ∧
      ∀ p, p ∈ pr → (p.1 = 0 ∨ p.1 = 1) ∧ ∃ c, bucketGet (getHt d2 p.1) p.2 = some c := by
    intro chain k pr h
    split at h
    · exact randomBucketRehashing_spec d2 rnd fuel 0 chain k pr h
    · exact randomBucketStable_spec d2 rnd fuel 0 chain k pr h
  cases hl : (if dictIsRehashing d2 then randomBucketRehashing d2 rnd fuel 0
      else randomBucketStable d2 rnd fuel 0) with
  | none =>
    rw [hl] at hres
    cases hres
  | some res =>
    obtain ⟨chain, k, pr⟩ := res
    rw [hl] at hres
    simp only [] at hres
    obtain ⟨c1, ⟨t, i, ht, hb⟩, c3⟩ := hloop chain k pr hl
    obtain ⟨he, hre, hinj⟩ := Option.map_eq_some'.mp hres
    have h1 : d2 = d1 := congrArg Prod.fst hinj
    have h2 : he = r := congrArg (fun x => x.2.1) hinj
    have h3 : pr = probes := congrArg (fun x => x.2.2) hinj
    subst h1
    subst h3
    · -- the entry picked in the chain
      obtain ⟨e, e1, e2⟩ := randomElement_spec c1 (hrnd k) hre
      refine ⟨s1, s2, s6, ?_, ?_⟩
      · refine ⟨e, ?_, ?_⟩
        · rw [← h2, e1]
        · exact mem_dictEntries_of_getHt ht (mem_of_bucketGet hb e2)
      · intro p hp
        obtain ⟨q1, c, q2⟩ := c3 p hp
        exact ⟨q1, bucketGet_lt (getHt_ok s2 p.1) q2⟩

/-- The stable bucket loop of `dictGetRandomKey` on a well-formed table has no result only when
it has used up its rounds: each round has read a bucket of `ht[0]` that exists and is empty. -/
theorem randomBucketStable_none {T : dictType} {d : dict} (hok : htOK T d.ht0)
    (hal : d.ht0.table ≠ none) (rnd : Nat → Nat) :
    ∀ (fuel k : Nat), randomBucketStable d rnd fuel k = none →
      ∀ j, j < fuel → bucketGet d.ht0 (rnd (k + j) &&& d.ht0.sizemask) = some [] := by
  intro fuel
  induction fuel with
  | zero =>
    intro k _ j hj
    omega
  | succ fuel ih =>
    intro k h j hj
    obtain ⟨bs, htab⟩ := Option.ne_none_iff_exists'.mp hal
    obtain ⟨c, hc, _⟩ := htOK_bucketGet hok htab (rnd k)
    unfold randomBucketStable at h
    rw [hc] at h
    cases c with
    | cons e next => cases h
    | nil =>
      simp only [Option.map_eq_none'] at h
      cases j with
      | zero => exact hc
      | succ j =>
        have h2 := ih (k + 1) h j (by omega)
        rwa [show k + 1 + j = k + (j + 1) by omega] at h2

/-- The operands of the index computation of the rehashing loop, without wrap. -/
theorem probe_operands (s0 s1 : Nat) (R : Int) (h0 : 0 ≤ R) (h1 : R ≤ (s0 : Int))
    (hsum : s0 + s1 < 18446744073709551616) :
    toULong R = R.toNat ∧
    sub64 ((s0 + s1) % 18446744073709551616) (toULong R) = s0 + s1 - R.toNat := by
  have hR : R % 18446744073709551616 = R := Int.emod_eq_of_lt h0 (by omega)
  have h2 : toULong R = R.toNat := by
    unfold toULong
    rw [hR]
  refine ⟨h2, ?_⟩
  rw [h2, Nat.mod_eq_of_lt hsum]
  unfold sub64
  have h3 : ((s0 + s1 : Nat) : Int) - (R.toNat : Int) = ((s0 + s1 - R.toNat : Nat) : Int) := by
    omega
  rw [h3, Int.emod_eq_of_lt (by omega) (by omega)]
  exact Int.toNat_ofNat _

/-- The rehashing bucket loop of `dictGetRandomKey` on a well-formed dictionary has no result
only when it has used up its rounds: in each round the index `h` drawn selects a bucket that
exists, in `ht[0]` when `h` is below its size and in `ht[1]` otherwise, and that bucket is
empty. -/
theorem randomBucketRehashing_none {d : dict} (hinv : Inv d) (hr : d.rehashidx ≠ -1)
    (hsum : d.ht0.size + d.ht1.size < 18446744073709551616) (rnd : Nat → Nat) :
    ∀ (fuel k : Nat), randomBucketRehashing d rnd fuel k = none →
      ∀ j, j < fuel → ∃ h t i : Nat,
        h = d.rehashidx.toNat +
          rnd (k + j) % (d.ht0.size + d.ht1.size - d.rehashidx.toNat) ∧
        ((h < d.ht0.size ∧ t = 0 ∧ i = h) ∨ (d.ht0.size ≤ h ∧ t = 1 ∧ i = h - d.ht0.size)) ∧
        i < (getHt d t).size ∧ bucketGet (getHt d t) i = some [] := by
  have h0 := hinv.idx_nonneg hr
  have h1 := hinv.idx_le hr
  obtain ⟨bs1, htab1⟩ := Option.ne_none_iff_exists'.mp (hinv.alloc1 hr)
  obtain ⟨k1, hk1, _, hs1⟩ := hinv.ok1.size_pow bs1 htab1
  have hpos : 0 < d.ht1.size := by
    rw [hs1]
    positivity
  obtain ⟨e1, e2⟩ := probe_operands d.ht0.size d.ht1.size d.rehashidx h0 h1 hsum
  have hM : d.ht0.size + d.ht1.size - d.rehashidx.toNat ≠ 0 := by omega
  intro fuel
  induction fuel with
  | zero =>
    intro k _ j hj
    omega
  | succ fuel ih =>
    intro k h j hj
    unfold randomBucketRehashing at h
    simp only [] at h
    rw [e2, e1, if_neg hM] at h
    have hmod := Nat.mod_lt (rnd k) (Nat.pos_of_ne_zero hM)
    obtain ⟨H, hH⟩ : ∃ H, H = d.rehashidx.toNat +
        rnd k % (d.ht0.size + d.ht1.size - d.rehashidx.toNat) := ⟨_, rfl⟩
    have hlt : H < 18446744073709551616 := by omega
    rw [← hH, Nat.mod_eq_of_lt hlt] at h
    have key : ∃ t i : Nat,
        ((H < d.ht0.size ∧ t = 0 ∧ i = H) ∨ (d.ht0.size ≤ H ∧ t = 1 ∧ i = H - d.ht0.size)) ∧
        i < (getHt d t).size ∧ bucketGet (getHt d t) i = some [] ∧
        randomBucketRehashing d rnd fuel (k + 1) = none := by
      by_cases hge : d.ht0.size ≤ H
      · have hge2 : H ≥ d.ht0.size := hge
        rw [if_pos hge2, if_pos hge2] at h
        have hi : H - d.ht0.size < (getHt d 1).size := by
          rw [getHt_one]
          omega
        obtain ⟨_, c, _, _, hc, _⟩ := bucket_in_range (getHt_ok hinv 1) hi
        rw [hc] at h
        cases c with
        | cons e next => cases h
        | nil =>
          simp only [Option.map_eq_none'] at h
          exact ⟨1, H - d.ht0.size, Or.inr ⟨hge, rfl, rfl⟩, hi, hc, h⟩
      · have hge2 : ¬ H ≥ d.ht0.size := hge
        rw [if_neg hge2, if_neg hge2] at h
        have hi : H < (getHt d 0).size := by
          rw [getHt_zero]
          omega
        obtain ⟨_, c, _, _, hc, _⟩ := bucket_in_range (getHt_ok hinv 0) hi
        rw [hc] at h
        cases c with
        | cons e next => cases h
        | nil =>
          simp only [Option.map_eq_none'] at h
          exact ⟨0, H, Or.inl ⟨by omega, rfl, rfl⟩, hi, hc, h⟩
    obtain ⟨t, i, a1, a2, a3, a4⟩ := key
    cases j with
    | zero => exact ⟨H, t, i, hH, a1, a2, a3⟩
    | succ j =>
      have h2 := ih (k + 1) a4 j (by omega)
      rwa [show k + 1 + j = k + (j + 1) by omega] at h2

/-- The walk of `dictGetRandomKey` along a chain that is not empty and shorter than `2 ^ 32`
returns an entry. -/
theorem randomElement_total {chain : List dictEntry} (hc : chain ≠ [])
    (hlen : chain.length < 4294967296) {r : Nat} (hr : r < 2147483648) :
    ∃ he, randomElement chain r = some he := by
  have hpos : 0 < chain.length := List.length_pos.mpr hc
  have hw : wrapInt (chain.length : Int) ≠ 0 := by
    unfold wrapInt
    omega
  obtain ⟨n, hn1, hn2, hn3⟩ := listele_bound r chain.length hr hpos hw
  unfold randomElement
  rw [if_neg hw, hn1]
  exact ⟨_, listeleLoop_spec n (chain.length + 1) chain hn2 hn3 (Nat.lt_succ_of_lt hn2)⟩

/-! ## Sampling several entries -/

theorem someKeysRehash_spec :
    ∀ (n : Nat) (d : dict), LawfulType d.type → Inv d →
      ∃ d1, someKeysRehash n d = some d1 ∧ Inv d1 ∧ d1.type = d.type ∧
        (dictEntries d1).Perm (dictEntries d) := by
  intro n
  induction n with
  | zero =>
    intro d _ hinv
    exact ⟨d, rfl, hinv, rfl, List.Perm.refl _⟩
  | succ n ih =>
    intro d hT hinv
    unfold someKeysRehash
    by_cases hr : dictIsRehashing d = true
    · rw [if_pos hr]
      obtain ⟨d1, s1, s2, s3, _, _, s6, _⟩ := rehashStep_spec d hT hinv
      unfold rehashStepIfRehashing at s1
      rw [if_pos hr] at s1
      rw [s1]
      obtain ⟨d2, a1, a2, a3, a4⟩ := ih d1 (by rw [s3]; exact hT) s2
      exact ⟨d2, a1, a2, a3.trans s3, a4.trans s6⟩
    · rw [if_neg hr]
      exact ⟨d, rfl, hinv, rfl, List.Perm.refl _⟩

/-- The state of the sampling loop is consistent: `stored` counts the entries written, it is
at most `count`, and every entry written is stored in the dictionary. -/
theorem someKeysCollect_spec (d : dict) (count : Nat) (hc : count < 18446744073709551616) :
    ∀ (chain : List dictEntry) (st : SomeKeysState), (∀ e, e ∈ chain → e ∈ dictEntries d) →
      st.des.length = st.stored → st.stored < count → (∀ e, e ∈ st.des → e ∈ dictEntries d) →
      (someKeysCollect count chain st).1.des.length = (someKeysCollect count chain st).1.stored ∧
      (someKeysCollect count chain st).1.stored ≤ count ∧
      (∀ e, e ∈ (someKeysCollect count chain st).1.des → e ∈ dictEntries d) ∧
      ((someKeysCollect count chain st).2 = false →
        (someKeysCollect count chain st).1.stored < count) := by
  intro chain
  induction chain with
  | nil =>
    intro st _ h1 h2 h3
    exact ⟨h1, Nat.le_of_lt h2, h3, fun _ => h2⟩
  | cons he next ih =>
    intro st hch h1 h2 h3
    unfold someKeysCollect
    have hmod : (st.stored + 1) % 18446744073709551616 = st.stored + 1 := by omega
    simp only [hmod]
    by_cases heq : st.stored + 1 = count
    · rw [if_pos heq]
      refine ⟨?_, ?_, ?_, ?_⟩
      · show (st.des ++ [he]).length = st.stored + 1
        rw [List.length_append, h1]
        rfl
      · show st.stored + 1 ≤ count
        omega
      · intro e hm
        have hm' : e ∈ st.des ++ [he] := hm
        rw [List.mem_append, List.mem_singleton] at hm'
        rcases hm' with hm' | hm'
        · exact h3 e hm'
        · rw [hm']
          exact hch he (List.mem_cons_self _ _)
      · intro hf
        cases hf
    · rw [if_neg heq]
      apply ih
      · intro e hm
        exact hch e (List.mem_cons_of_mem _ hm)
      · show (st.des ++ [he]).length = st.stored + 1
        rw [List.length_append, h1]
        rfl
      · show st.stored + 1 < count
        omega
      · intro e hm
        have hm' : e ∈ st.des ++ [he] := hm
        rw [List.mem_append, List.mem_singleton] at hm'
        rcases hm' with hm' | hm'
        · exact h3 e hm'
        · rw [hm']
          exact hch he (List.mem_cons_self _ _)

theorem someKeysVisit_spec {d : dict} (hinv : Inv d) (rnd : Nat → Nat)
    (count maxsizemask tables : Nat) (hc : count < 18446744073709551616) {j : Nat}
    (hj : j = 0 ∨ j = 1) (st : SomeKeysState) (h1 : st.des.length = st.stored)
    (h2 : st.stored < count) (h3 : ∀ e, e ∈ st.des → e ∈ dictEntries d) :
    ∃ st1 ret, someKeysVisit d rnd count maxsizemask tables j st = some (st1, ret) ∧
      st1.des.length = st1.stored ∧ st1.stored ≤ count ∧
      (∀ e, e ∈ st1.des → e ∈ dictEntries d) ∧ (ret = false → st1.stored < count) := by
  unfold someKeysVisit
  split
  · exact ⟨st, false, rfl, h1, Nat.le_of_lt h2, h3, fun _ => h2⟩
  · simp only []
    obtain ⟨i, hi⟩ : ∃ i : Nat, i = (if tables = 2 ∧ j = 0 ∧ st.i < toULong d.rehashidx
        then toULong d.rehashidx else st.i) := ⟨_, rfl⟩
    rw [← hi]
    by_cases hge : i ≥ (getHt d j).size
    · rw [if_pos hge]
      exact ⟨_, false, rfl, h1, Nat.le_of_lt h2, h3, fun _ => h2⟩
    · rw [if_neg hge]
      obtain ⟨bs, chain, _, _, hb, _⟩ := bucket_in_range (getHt_ok hinv j) (by omega : i < _)
      rw [hb]
      cases chain with
      | nil =>
        simp only []
        split
        · exact ⟨_, false, rfl, h1, Nat.le_of_lt h2, h3, fun _ => h2⟩
        · exact ⟨_, false, rfl, h1, Nat.le_of_lt h2, h3, fun _ => h2⟩
      | cons he next =>
        simp only []
        have hmem : ∀ e, e ∈ he :: next → e ∈ dictEntries d := fun e hm =>
          mem_dictEntries_of_getHt hj (mem_of_bucketGet hb hm)
        obtain ⟨c1, c2, c3, c4⟩ := someKeysCollect_spec d count hc (he :: next)
          { st with i := i, emptylen := 0 } hmem h1 h2 h3
        exact ⟨_, _, rfl, c1, c2, c3, c4⟩

theorem someKeysLoop_spec {d : dict} (hinv : Inv d) (rnd : Nat → Nat)
    (count maxsizemask tables : Nat) (hc : count < 18446744073709551616) :
    ∀ (maxsteps : Nat) (st : SomeKeysState), st.des.length = st.stored → st.stored ≤ count →
      (∀ e, e ∈ st.des → e ∈ dictEntries d) →
      ∃ st1 steps, someKeysLoop d rnd count maxsizemask tables maxsteps st = some (st1, steps) ∧
        st1.des.length = st1.stored ∧ st1.stored ≤ count ∧
        (∀ e, e ∈ st1.des → e ∈ dictEntries d) ∧ steps ≤ maxsteps := by
  intro maxsteps
  induction maxsteps with
  | zero =>
    intro st h1 h2 h3
    exact ⟨st, 0, rfl, h1, h2, h3, Nat.le_refl _⟩
  | succ maxsteps ih =>
    intro st h1 h2 h3
    unfold someKeysLoop
    by_cases hlt : st.stored < count
    · rw [if_pos hlt]
      obtain ⟨st1, ret1, a1, a2, a3, a4, a5⟩ :=
        someKeysVisit_spec hinv rnd count maxsizemask tables hc (Or.inl rfl) st h1 hlt h3
      rw [a1]
      cases ret1 with
      | true => exact ⟨st1, 1, rfl, a2, a3, a4, by omega⟩
      | false =>
        simp only []
        have hsecond : ∃ st2 ret2,
            (if tables = 2 then someKeysVisit d rnd count maxsizemask tables 1 st1
              else some (st1, false)) = some (st2, ret2) ∧
            st2.des.length = st2.stored ∧ st2.stored ≤ count ∧
            (∀ e, e ∈ st2.des → e ∈ dictEntries d) ∧ (ret2 = false → st2.stored < count) := by
          by_cases ht : tables = 2
          · rw [if_pos ht]
            exact someKeysVisit_spec hinv rnd count maxsizemask tables hc (Or.inr rfl) st1 a2
              (a5 rfl) a4
          · rw [if_neg ht]
            exact ⟨st1, false, rfl, a2, a3, a4, a5⟩
        obtain ⟨st2, ret2, b1, b2, b3, b4, b5⟩ := hsecond
        rw [b1]
        cases ret2 with
        | true => exact ⟨st2, 1, rfl, b2, b3, b4, by omega⟩
        | false =>
          simp only []
          obtain ⟨st3, steps, c1, c2, c3, c4, c5⟩ :=
            ih { st2 with i := ((st2.i + 1) % 18446744073709551616) &&& maxsizemask } b2 b3 b4
          rw [c1]
          exact ⟨st3, steps + 1, rfl, c2, c3, c4, by omega⟩
    · rw [if_neg hlt]
      exact ⟨st, 0, rfl, h1, h2, h3, Nat.zero_le _⟩

/-- The function `dictGetSomeKeys` on a well-formed dictionary, for every random source. -/
theorem dictGetSomeKeys_spec {d : dict} (hT : LawfulType d.type) (hinv : Inv d)
    (rnd : Nat → Nat) (count : Nat) (hcount : count < 4294967296) :
    ∃ d1 r des steps, dictGetSomeKeys d rnd count = some (d1, r, des, steps) ∧
      Inv d1 ∧ (dictEntries d1).Perm (dictEntries d) ∧
      r ≤ count ∧ r ≤ dictSize d ∧ des.length = r ∧
      (∀ e, e ∈ des → e ∈ dictEntries d1) ∧
      steps ≤ 10 * (if dictSize d < count then dictSize d else count) := by
  unfold dictGetSomeKeys
  simp only []
  obtain ⟨count1, hc1⟩ : ∃ c : Nat, c = (if dictSize d < count then dictSize d else count) :=
    ⟨_, rfl⟩
  rw [← hc1]
  have hle1 : count1 ≤ count := by
    rw [hc1]
    split <;> omega
  have hle2 : count1 ≤ dictSize d := by
    rw [hc1]
    split <;> omega
  obtain ⟨d1, s1, s2, _, s4⟩ := someKeysRehash_spec count1 d hT hinv
  rw [s1]
  simp only []
  obtain ⟨st, steps, a1, a2, a3, a4, a5⟩ := someKeysLoop_spec s2 rnd count1
    (if (if dictIsRehashing d1 then 2 else 1) > 1 ∧ d1.ht0.sizemask < d1.ht1.sizemask
      then d1.ht1.sizemask else d1.ht0.sizemask)
    (if dictIsRehashing d1 then 2 else 1) (by omega) (count1 * 10 % 4294967296)
    { i := rnd 0 &&& (if (if dictIsRehashing d1 then 2 else 1) > 1 ∧
          d1.ht0.sizemask < d1.ht1.sizemask then d1.ht1.sizemask else d1.ht0.sizemask),
      emptylen := 0, stored := 0, des := [], k := 1 }
    rfl (Nat.zero_le _) (fun e he => by cases he)
  rw [a1]
  have hmod : st.stored % 4294967296 = st.stored := by omega
  refine ⟨d1, _, st.des, steps, rfl, s2, s4, ?_, ?_, ?_, a4, ?_⟩
  · rw [hmod]
    omega
  · rw [hmod]
    omega
  · rw [hmod]
    exact a2
  · have : count1 * 10 % 4294967296 ≤ count1 * 10 := Nat.mod_le _ _
    omega

/-! ## intset.c: bytes -/

theorem writeLE_length : ∀ (n u : Nat), (writeLE n u).length = n := by
  intro n
  induction n with
  | zero => intro u; rfl
  | succ n ih =>
    intro u
    unfold writeLE
    rw [List.length_cons, ih]

theorem readLE_writeLE : ∀ (n u : Nat), readLE (writeLE n u) = u % 256 ^ n := by
  intro n
  induction n with
  | zero =>
    intro u
    unfold writeLE readLE
    rw [Nat.pow_zero, Nat.mod_one]
  | succ n ih =>
    intro u
    unfold writeLE readLE
    rw [ih, Nat.pow_succ, Nat.mul_comm (256 ^ n) 256, Nat.mod_mul]

theorem encodeInt_length (w : Nat) (v : Int) : (encodeInt w v).length = w :=
  writeLE_length _ _

theorem encWidth_of_ok {enc : Nat} (h : enc = 2 ∨ enc = 4 ∨ enc = 8) : encWidth enc = enc := by
  rcases h with rfl | rfl | rfl <;> rfl

/-- The range of the values that an encoding holds. -/
theorem valueEncoding_le_iff (v : Int) {enc : Nat} (h : enc = 2 ∨ enc = 4 ∨ enc = 8)
    (hv : isInt64 v) :
    _intsetValueEncoding v ≤ enc ↔
      (-(2 : Int) ^ (8 * enc - 1) ≤ v ∧ v < (2 : Int) ^ (8 * enc - 1)) := by
  unfold isInt64 at hv
  unfold _intsetValueEncoding INTSET_ENC_INT64 INTSET_ENC_INT32 INTSET_ENC_INT16
  rcases h with rfl | rfl | rfl
  · norm_num
    split_ifs <;> omega
  · norm_num
    split_ifs <;> omega
  · norm_num
    split_ifs <;> omega

/-- Reading back the bytes of a value that fits the width. -/
theorem decode_encode (v : Int) {w : Nat} (h : w = 2 ∨ w = 4 ∨ w = 8)
    (hv : -(2 : Int) ^ (8 * w - 1) ≤ v ∧ v < (2 : Int) ^ (8 * w - 1)) :
    toSigned w (readLE (encodeInt w v)) = v := by
  unfold encodeInt toSigned
  rw [readLE_writeLE]
  rcases h with rfl | rfl | rfl
  · norm_num at hv ⊢
    omega
  · norm_num at hv ⊢
    omega
  · norm_num at hv ⊢
    omega

/-! ## intset.c: slots of a block -/

theorem getBytes_append3 (a b c : List Nat) {off n : Nat} (hoff : off = a.length)
    (hn : n = b.length) : getBytes (a ++ b ++ c) off n = some b := by
  subst hoff hn
  unfold getBytes
  rw [if_pos (by simp only [List.length_append]; omega)]
  rw [List.append_assoc, List.drop_left, List.take_left]

theorem setBytes_append3 (a b c bs : List Nat) {off : Nat} (hoff : off = a.length)
    (hlen : bs.length = b.length) : setBytes (a ++ b ++ c) off bs = some (a ++ bs ++ c) := by
  subst hoff
  unfold setBytes
  rw [if_pos (by simp only [List.length_append]; omega)]
  rw [List.append_assoc a b c, List.take_left, hlen, ← List.length_append,
    ← List.append_assoc, List.drop_left]

theorem setBytes_length {c bs c1 : List Nat} {off : Nat} (h : setBytes c off bs = some c1) :
    c1.length = c.length := by
  unfold setBytes at h
  split at h
  · cases h
    simp only [List.length_append, List.length_take, List.length_drop]
    omega
  · cases h

theorem setBytes_take {c bs c1 : List Nat} {off n : Nat} (h : setBytes c off bs = some c1)
    (hn : n ≤ off) : c1.take n = c.take n := by
  unfold setBytes at h
  split at h
  · cases h
    rw [List.append_assoc, List.take_append_of_le_length
      (by rw [List.length_take]; omega), List.take_take, Nat.min_eq_left hn]
  · cases h

theorem setBytes_drop {c bs c1 : List Nat} {off : Nat} (h : setBytes c off bs = some c1) :
    c1.drop off = bs ++ c.drop (off + bs.length) := by
  unfold setBytes at h
  split at h
  · cases h
    have hl : (c.take off).length = off := by rw [List.length_take]; omega
    rw [List.append_assoc, List.drop_append_eq_append_drop, hl, Nat.sub_self, List.drop_zero,
      List.drop_eq_nil_of_le (by omega), List.nil_append]
  · cases h

theorem setBytes_some (c bs : List Nat) {off : Nat} (h : off + bs.length ≤ c.length) :
    ∃ c1, setBytes c off bs = some c1 := by
  unfold setBytes
  rw [if_pos h]
  exact ⟨_, rfl⟩

theorem encodeAll_nil (w : Nat) : encodeAll w [] = [] := rfl

theorem encodeAll_cons (w : Nat) (v : Int) (vs : List Int) :
    encodeAll w (v :: vs) = encodeInt w v ++ encodeAll w vs := by
  unfold encodeAll
  rw [List.map_cons, List.flatten_cons]

theorem encodeAll_append (w : Nat) (a b : List Int) :
    encodeAll w (a ++ b) = encodeAll w a ++ encodeAll w b := by
  unfold encodeAll
  rw [List.map_append, List.flatten_append]

theorem encodeAll_length (w : Nat) (vals : List Int) :
    (encodeAll w vals).length = vals.length * w := by
  induction vals with
  | nil => rw [encodeAll_nil, List.length_nil, List.length_nil, Nat.zero_mul]
  | cons v vs ih =>
    rw [encodeAll_cons, List.length_append, ih, encodeInt_length, List.length_cons,
      Nat.succ_mul, Nat.add_comm]

/-- A list split at an index. -/
theorem split_at (vals : List Int) {i : Nat} (hi : i < vals.length) :
    vals = vals.take i ++ vals.getD i 0 :: vals.drop (i + 1) := by
  rw [List.getD_eq_getElem vals 0 hi, List.getElem_cons_drop, List.take_append_drop]

theorem encodeAll_split (w : Nat) (vals : List Int) {i : Nat} (hi : i < vals.length) :
    encodeAll w vals =
      encodeAll w (vals.take i) ++ encodeInt w (vals.getD i 0) ++
        encodeAll w (vals.drop (i + 1)) := by
  conv_lhs => rw [split_at vals hi]
  rw [encodeAll_append, encodeAll_cons, List.append_assoc]

theorem encodeAll_take_length (w : Nat) (vals : List Int) {i : Nat} (hi : i ≤ vals.length) :
    (encodeAll w (vals.take i)).length = i * w := by
  rw [encodeAll_length, List.length_take, Nat.min_eq_left hi]

/-- Reading the slot `i` of a block that holds the bytes of `v` there. -/
theorem getEncoded_at (is : intset) (a c : List Nat) (v : Int) (i : Nat) {enc : Nat}
    (henc : enc = 2 ∨ enc = 4 ∨ enc = 8)
    (hc : is.contents = a ++ encodeInt enc v ++ c) (ha : a.length = i * enc)
    (hv : -(2 : Int) ^ (8 * enc - 1) ≤ v ∧ v < (2 : Int) ^ (8 * enc - 1)) :
    _intsetGetEncoded is (i : Int) enc = some v := by
  unfold _intsetGetEncoded
  rw [if_neg (by omega), encWidth_of_ok henc, hc, Int.toNat_ofNat,
    getBytes_append3 a _ c ha.symm (encodeInt_length _ _).symm, Option.map_some',
    decode_encode v henc hv]

/-- Writing the slot `i` of a block. -/
theorem intsetSet_at (is : intset) (a b c : List Nat) (v : Int) (i : Nat)
    (henc : is.encoding = 2 ∨ is.encoding = 4 ∨ is.encoding = 8)
    (hc : is.contents = a ++ b ++ c) (ha : a.length = i * is.encoding)
    (hb : b.length = is.encoding) :
    _intsetSet is (i : Int) v =
      some { is with contents := a ++ encodeInt is.encoding v ++ c } := by
  unfold _intsetSet
  rw [if_neg (by omega), encWidth_of_ok henc, hc, Int.toNat_ofNat,
    setBytes_append3 a b c _ ha.symm ((encodeInt_length _ _).trans hb.symm), Option.map_some']

/-! ## intset.c: reading an element and the binary search -/

theorem getD_mem (vals : List Int) {i : Nat} (hi : i < vals.length) : vals.getD i 0 ∈ vals := by
  rw [List.getD_eq_getElem vals 0 hi]
  exact List.getElem_mem hi

theorem intsetGet_spec {is : intset} {vals : List Int} (hok : intsetOK is vals) {i : Nat}
    (hi : i < vals.length) : _intsetGet is (i : Int) = some (vals.getD i 0) := by
  unfold _intsetGet
  refine getEncoded_at is (encodeAll is.encoding (vals.take i))
    (encodeAll is.encoding (vals.drop (i + 1))) _ i hok.enc_ok ?_ ?_ (hok.fits _ (getD_mem vals hi))
  · rw [hok.contents_eq]
    exact encodeAll_split _ vals hi
  · exact encodeAll_take_length _ vals (le_of_lt hi)

theorem sorted_getD {vals : List Int} (hs : vals.Pairwise (fun a b => a < b)) {i j : Nat}
    (hij : i < j) (hj : j < vals.length) : vals.getD i 0 < vals.getD j 0 := by
  rw [List.getD_eq_getElem vals 0 hj, List.getD_eq_getElem vals 0 (lt_trans hij hj)]
  exact List.pairwise_iff_getElem.mp hs i j (lt_trans hij hj) hj hij

theorem sorted_getD_le {vals : List Int} (hs : vals.Pairwise (fun a b => a < b)) {i j : Nat}
    (hij : i ≤ j) (hj : j < vals.length) : vals.getD i 0 ≤ vals.getD j 0 := by
  rcases Nat.lt_or_ge i j with h | h
  · exact le_of_lt (sorted_getD hs h hj)
  · have : i = j := Nat.le_antisymm hij h
    rw [this]

theorem length_lt_of_ok {is : intset} {vals : List Int} (hok : intsetOK is vals) :
    vals.length < 2147483648 := by
  have h := hok.size_lt
  rcases hok.enc_ok with h2 | h2 | h2 <;> rw [h2] at h <;> omega

/-- The binary search: with the values below `min` smaller and the values above `max` larger
than `value`, the loop ends at the position of `value` or at the position where it belongs. -/
theorem intsetSearchLoop_spec {is : intset} {vals : List Int} (hok : intsetOK is vals)
    (value : Int) :
    ∀ (fuel : Nat) (min max mid cur : Int), 0 ≤ min → min ≤ max + 1 →
      max < (vals.length : Int) → max + 1 - min < (fuel : Int) →
      (∀ i : Nat, (i : Int) < min → vals.getD i 0 < value) →
      (∀ i : Nat, max < (i : Int) → i < vals.length → value < vals.getD i 0) →
      (max < min → cur ≠ value) →
      ∃ (pmin : Nat) (pmid pcur : Int),
        intsetSearchLoop is value fuel min max mid cur = some ((pmin : Int), pmid, pcur) ∧
        ((pcur = value ∧ ∃ m : Nat, pmid = (m : Int) ∧ m < vals.length ∧ vals.getD m 0 = value) ∨
          (pcur ≠ value ∧ pmin ≤ vals.length ∧
            (∀ i : Nat, i < pmin → vals.getD i 0 < value) ∧
            (∀ i : Nat, pmin ≤ i → i < vals.length → value < vals.getD i 0))) := by
  have hL := length_lt_of_ok hok
  intro fuel
  induction fuel with
  | zero =>
    intro min max mid cur h0 h1 h2 h3
    omega
  | succ fuel ih =>
    intro min max mid cur h0 h1 h2 h3 hlo hhi hcur
    unfold intsetSearchLoop
    by_cases hmm : max ≥ min
    · rw [if_pos hmm]
      obtain ⟨a, rfl⟩ := Int.eq_ofNat_of_zero_le h0
      obtain ⟨b, rfl⟩ := Int.eq_ofNat_of_zero_le (le_trans h0 hmm)
      have ha : ((a : Int) % 4294967296).toNat = a := by omega
      have hb : ((b : Int) % 4294967296).toNat = b := by omega
      have hm : (a + b) % 4294967296 / 2 = (a + b) / 2 := by omega
      rw [ha, hb, hm]
      have hmid1 : a ≤ (a + b) / 2 := by omega
      have hmid2 : (a + b) / 2 ≤ b := by omega
      have hmidL : (a + b) / 2 < vals.length := by omega
      rw [intsetGet_spec hok hmidL, Option.some_bind]
      by_cases hgt : value > vals.getD ((a + b) / 2) 0
      · rw [if_pos hgt]
        have hw : wrapInt ((((a + b) / 2 : Nat) : Int) + 1) =
            (((a + b) / 2 + 1 : Nat) : Int) := by
          have h := @wrapInt_eq ((((a + b) / 2 : Nat) : Int) + 1) (by omega) (by omega)
          rw [h]
          rfl
        rw [hw]
        clear hw
        refine ih (((a + b) / 2 + 1 : Nat) : Int) (b : Int) (((a + b) / 2 : Nat) : Int)
          (vals.getD ((a + b) / 2) 0) (by omega) (by omega) h2 (by omega) ?_ hhi ?_
        · intro i hi
          have hi2 : i ≤ (a + b) / 2 := by omega
          exact lt_of_le_of_lt (sorted_getD_le hok.sorted hi2 hmidL) hgt
        · intro _
          exact ne_of_lt hgt
      · rw [if_neg hgt]
        by_cases hlt : value < vals.getD ((a + b) / 2) 0
        · rw [if_pos hlt]
          have hw : wrapInt ((((a + b) / 2 : Nat) : Int) - 1) =
              (((a + b) / 2 : Nat) : Int) - 1 :=
            @wrapInt_eq ((((a + b) / 2 : Nat) : Int) - 1) (by omega) (by omega)
          rw [hw]
          clear hw
          refine ih (a : Int) ((((a + b) / 2 : Nat) : Int) - 1) (((a + b) / 2 : Nat) : Int)
            (vals.getD ((a + b) / 2) 0) (by omega) (by omega) (by omega) (by omega) hlo ?_ ?_
          · intro i hi hiL
            have hi2 : (a + b) / 2 ≤ i := by omega
            exact lt_of_lt_of_le hlt (sorted_getD_le hok.sorted hi2 hiL)
          · intro _
            exact ne_of_gt hlt
        · rw [if_neg hlt]
          have heq : vals.getD ((a + b) / 2) 0 = value := by omega
          exact ⟨a, _, _, rfl, Or.inl ⟨heq, (a + b) / 2, rfl, hmidL, heq⟩⟩
    · rw [if_neg hmm]
      obtain ⟨a, rfl⟩ := Int.eq_ofNat_of_zero_le h0
      have hmax : max = (a : Int) - 1 := by omega
      refine ⟨a, mid, cur, rfl, Or.inr ⟨hcur (by omega), by omega, ?_, ?_⟩⟩
      · intro i hi
        exact hlo i (by omega)
      · intro i hi hiL
        exact hhi i (by omega) hiL

theorem sub32_one {n : Nat} (h0 : 0 < n) (hn : n < 4294967296) : sub32 n 1 = n - 1 := by
  unfold sub32
  omega

/-- The search of a well-formed set: it finds the position of `value`, or the position at which
`value` keeps the order. -/
theorem intsetSearch_spec {is : intset} {vals : List Int} (hok : intsetOK is vals)
    (value : Int) :
    ∃ found pos : Nat, intsetSearch is value = some (found, pos) ∧
      ((found = 1 ∧ pos < vals.length ∧ vals.getD pos 0 = value) ∨
        (found = 0 ∧ pos ≤ vals.length ∧
          (∀ i : Nat, i < pos → vals.getD i 0 < value) ∧
          (∀ i : Nat, pos ≤ i → i < vals.length → value < vals.getD i 0))) := by
  have hL := length_lt_of_ok hok
  unfold intsetSearch
  rw [hok.len_eq]
  by_cases h0 : vals.length = 0
  · rw [if_pos h0]
    exact ⟨0, 0, rfl, Or.inr ⟨rfl, Nat.zero_le _, fun i hi => absurd hi (Nat.not_lt_zero i),
      fun i _ hi => by omega⟩⟩
  · rw [if_neg h0, sub32_one (Nat.pos_of_ne_zero h0) (by omega)]
    have hw : wrapInt ((vals.length - 1 : Nat) : Int) = ((vals.length - 1 : Nat) : Int) :=
      @wrapInt_eq ((vals.length - 1 : Nat) : Int) (by omega) (by omega)
    rw [hw]
    clear hw
    have hlast : vals.length - 1 < vals.length := by omega
    rw [intsetGet_spec hok hlast, Option.some_bind]
    by_cases hgt : value > vals.getD (vals.length - 1) 0
    · rw [if_pos hgt]
      refine ⟨0, vals.length, rfl, Or.inr ⟨rfl, le_refl _, ?_, fun i h1 h2 => by omega⟩⟩
      intro i hi
      exact lt_of_le_of_lt (sorted_getD_le hok.sorted (by omega) hlast) hgt
    · rw [if_neg hgt]
      have hz : _intsetGet is 0 = some (vals.getD 0 0) :=
        intsetGet_spec hok (Nat.pos_of_ne_zero h0)
      rw [hz, Option.some_bind]
      by_cases hlt : value < vals.getD 0 0
      · rw [if_pos hlt]
        refine ⟨0, 0, rfl, Or.inr ⟨rfl, Nat.zero_le _,
          fun i hi => absurd hi (Nat.not_lt_zero i), ?_⟩⟩
        intro i _ hi
        exact lt_of_lt_of_le hlt (sorted_getD_le hok.sorted (Nat.zero_le i) hi)
      · rw [if_neg hlt]
        obtain ⟨pmin, pmid, pcur, hloop, hres⟩ :=
          intsetSearchLoop_spec hok value (vals.length + 1) 0 ((vals.length - 1 : Nat) : Int)
            (-1) (-1) (le_refl _) (by omega) (by omega) (by omega)
            (fun i hi => by omega) (fun i h1 h2 => by omega) (fun h => by omega)
        rw [hloop, Option.map_some']
        rcases hres with ⟨hc, m, hm, hmL, hmv⟩ | ⟨hc, hpL, hlo, hhi⟩
        · refine ⟨1, m, ?_, Or.inl ⟨rfl, hmL, hmv⟩⟩
          have hmm : ((m : Int) % 4294967296).toNat = m := by omega
          simp only [hc, hm, if_true, hmm]
        · refine ⟨0, pmin, ?_, Or.inr ⟨rfl, hpL, hlo, hhi⟩⟩
          have hmm : ((pmin : Int) % 4294967296).toNat = pmin := by omega
          simp only [if_neg (Ne.symm hc), hmm]

theorem valueEncoding_mod (v : Int) : _intsetValueEncoding v % 256 = _intsetValueEncoding v := by
  unfold _intsetValueEncoding INTSET_ENC_INT64 INTSET_ENC_INT32 INTSET_ENC_INT16
  split_ifs <;> rfl

theorem valueEncoding_ok (v : Int) :
    _intsetValueEncoding v = 2 ∨ _intsetValueEncoding v = 4 ∨ _intsetValueEncoding v = 8 := by
  unfold _intsetValueEncoding INTSET_ENC_INT64 INTSET_ENC_INT32 INTSET_ENC_INT16
  split_ifs
  · exact Or.inr (Or.inr rfl)
  · exact Or.inr (Or.inl rfl)
  · exact Or.inl rfl

/-- What the search reports is whether the value is a member. -/
theorem search_found_iff {vals : List Int} {value : Int} {found pos : Nat}
    (h : (found = 1 ∧ pos < vals.length ∧ vals.getD pos 0 = value) ∨
      (found = 0 ∧ pos ≤ vals.length ∧
        (∀ i : Nat, i < pos → vals.getD i 0 < value) ∧
        (∀ i : Nat, pos ≤ i → i < vals.length → value < vals.getD i 0))) :
    (found = 1 ∧ value ∈ vals) ∨ (found = 0 ∧ value ∉ vals) := by
  rcases h with ⟨hf, hp, hv⟩ | ⟨hf, _, hlo, hhi⟩
  · exact Or.inl ⟨hf, hv ▸ getD_mem vals hp⟩
  · refine Or.inr ⟨hf, ?_⟩
    intro hmem
    obtain ⟨i, hi, hiv⟩ := List.getElem_of_mem hmem
    have hg : vals.getD i 0 = value := by rw [List.getD_eq_getElem vals 0 hi, hiv]
    rcases Nat.lt_or_ge i pos with h1 | h1
    · have := hlo i h1
      omega
    · have := hhi i h1 hi
      omega

/-- A value that needs a wider encoding than the set has is not a member. -/
theorem not_mem_of_wider {is : intset} {vals : List Int} (hok : intsetOK is vals) {value : Int}
    (hv : isInt64 value) (hw : is.encoding < _intsetValueEncoding value) : value ∉ vals := by
  intro hmem
  have := (valueEncoding_le_iff value hok.enc_ok hv).mpr (hok.fits value hmem)
  omega

/-- The function `intsetFind` tells whether the value is a member. -/
theorem intsetFind_spec {is : intset} {vals : List Int} (hok : intsetOK is vals) {value : Int}
    (hv : isInt64 value) : intsetFind is value = some (if value ∈ vals then 1 else 0) := by
  unfold intsetFind
  rw [valueEncoding_mod]
  by_cases hle : _intsetValueEncoding value ≤ is.encoding
  · rw [if_pos hle]
    obtain ⟨found, pos, hs, hres⟩ := intsetSearch_spec hok value
    rw [hs, Option.map_some']
    rcases search_found_iff hres with ⟨hf, hm⟩ | ⟨hf, hm⟩
    · rw [if_pos hm, hf]
      rfl
    · rw [if_neg hm, hf]
      rfl
  · rw [if_neg hle, if_neg (not_mem_of_wider hok hv (by omega))]

theorem intsetLen_spec {is : intset} {vals : List Int} (hok : intsetOK is vals) :
    intsetLen is = vals.length := hok.len_eq

/-! ## intset.c: the members as the code reads them -/

theorem mapM_some_of_forall {α β : Type} (f : α → Option β) (g : α → β) :
    ∀ (l : List α), (∀ x, x ∈ l → f x = some (g x)) → l.mapM f = some (l.map g) := by
  intro l
  induction l with
  | nil => intro _; rfl
  | cons a l ih =>
    intro h
    rw [List.mapM_cons, h a (List.mem_cons_self a l), ih (fun x hx => h x (List.mem_cons_of_mem a hx))]
    rfl

theorem map_getD_range (vals : List Int) :
    (List.range vals.length).map (fun i => vals.getD i 0) = vals := by
  apply List.ext_getElem
  · rw [List.length_map, List.length_range]
  · intro n h1 h2
    rw [List.getElem_map, List.getElem_range, List.getD_eq_getElem vals 0 h2]

/-- The members as `_intsetGet` reads them are the values of a well-formed set. -/
theorem intsetValues_spec {is : intset} {vals : List Int} (hok : intsetOK is vals) :
    intsetValues is = some vals := by
  unfold intsetValues
  rw [hok.len_eq, mapM_some_of_forall _ (fun i => vals.getD i 0), map_getD_range]
  intro i hi
  exact intsetGet_spec hok (List.mem_range.mp hi)

/-! ## intset.c: resizing and moving the tail -/

/-- A block that grows keeps its bytes; the new ones are unset. -/
theorem intsetResize_grow (is : intset) {len : Nat} (h : len * is.encoding < 4294967296)
    (hle : is.contents.length ≤ len * is.encoding) :
    intsetResize is len =
      { is with contents :=
          is.contents ++ List.replicate (len * is.encoding - is.contents.length) 0 } := by
  unfold intsetResize
  rw [Nat.mod_eq_of_lt h, List.take_of_length_le hle]

/-- A block that shrinks keeps the bytes that fit. -/
theorem intsetResize_shrink (is : intset) {len : Nat} (h : len * is.encoding < 4294967296)
    (hge : len * is.encoding ≤ is.contents.length) :
    intsetResize is len = { is with contents := is.contents.take (len * is.encoding) } := by
  unfold intsetResize
  rw [Nat.mod_eq_of_lt h, Nat.sub_eq_zero_of_le hge, List.replicate_zero, List.append_nil]

/-- The function `intsetMoveTail` on a block split at the source and at the destination. -/
theorem intsetMoveTail_at (is : intset) (A B C P Q R : List Nat) (src dst : Nat)
    (henc : is.encoding = 2 ∨ is.encoding = 4 ∨ is.encoding = 8)
    (hc : is.contents = A ++ B ++ C) (hA : A.length = src * is.encoding)
    (hB : B.length = sub32 is.length src * is.encoding % 4294967296)
    (hc2 : is.contents = P ++ Q ++ R) (hP : P.length = dst * is.encoding)
    (hQ : Q.length = B.length) :
    intsetMoveTail is src dst = some { is with contents := P ++ B ++ R } := by
  unfold intsetMoveTail
  rw [encWidth_of_ok henc]
  conv_lhs => rw [hc]
  rw [getBytes_append3 A B C hA.symm hB.symm, Option.some_bind, ← hc, hc2,
    setBytes_append3 P Q R B hP.symm hQ.symm, Option.map_some']

/-! ## intset.c: adding a value that fits the encoding -/

theorem pairwise_insert {vals : List Int} (hs : vals.Pairwise (fun a b => a < b)) {value : Int}
    {pos : Nat} (hpos : pos ≤ vals.length)
    (hlo : ∀ i : Nat, i < pos → vals.getD i 0 < value)
    (hhi : ∀ i : Nat, pos ≤ i → i < vals.length → value < vals.getD i 0) :
    (vals.take pos ++ value :: vals.drop pos).Pairwise (fun a b => a < b) := by
  have hlo2 : ∀ x, x ∈ vals.take pos → x < value := by
    intro x hx
    obtain ⟨i, hi, hiv⟩ := List.getElem_of_mem hx
    rw [List.length_take] at hi
    rw [List.getElem_take] at hiv
    have := hlo i (by omega)
    rw [List.getD_eq_getElem vals 0 (by omega), hiv] at this
    exact this
  have hhi2 : ∀ x, x ∈ vals.drop pos → value < x := by
    intro x hx
    obtain ⟨i, hi, hiv⟩ := List.getElem_of_mem hx
    rw [List.length_drop] at hi
    rw [List.getElem_drop] at hiv
    have := hhi (pos + i) (by omega) (by omega)
    rw [List.getD_eq_getElem vals 0 (by omega), hiv] at this
    exact this
  have hs2 : (vals.take pos ++ vals.drop pos).Pairwise (fun a b => a < b) := by
    rw [List.take_append_drop]
    exact hs
  rw [List.pairwise_append] at hs2 ⊢
  refine ⟨hs2.1, List.pairwise_cons.mpr ⟨hhi2, hs2.2.1⟩, ?_⟩
  intro a ha b hb
  rcases List.mem_cons.mp hb with rfl | hb
  · exact hlo2 a ha
  · exact hs2.2.2 a ha b hb

theorem mem_insert (vals : List Int) (value : Int) (pos : Nat) (x : Int) :
    x ∈ vals.take pos ++ value :: vals.drop pos ↔ x = value ∨ x ∈ vals := by
  rw [List.mem_append, List.mem_cons]
  constructor
  · rintro (h | h | h)
    · exact Or.inr (List.mem_of_mem_take h)
    · exact Or.inl h
    · exact Or.inr (List.mem_of_mem_drop h)
  · rintro (h | h)
    · exact Or.inr (Or.inl h)
    · rw [← List.take_append_drop pos vals, List.mem_append] at h
      rcases h with h | h
      · exact Or.inl h
      · exact Or.inr (Or.inr h)

/-- The set with `value` put at the position where it keeps the order is well formed. -/
theorem intsetOK_insert {is : intset} {vals : List Int} (hok : intsetOK is vals) {value : Int}
    {pos : Nat} (hpos : pos ≤ vals.length)
    (hfit : -(2 : Int) ^ (8 * is.encoding - 1) ≤ value ∧ value < (2 : Int) ^ (8 * is.encoding - 1))
    (hroom : (vals.length + 1) * is.encoding < 4294967296)
    (hlo : ∀ i : Nat, i < pos → vals.getD i 0 < value)
    (hhi : ∀ i : Nat, pos ≤ i → i < vals.length → value < vals.getD i 0) :
    intsetOK { encoding := is.encoding, length := vals.length + 1,
               contents := encodeAll is.encoding (vals.take pos ++ value :: vals.drop pos) }
      (vals.take pos ++ value :: vals.drop pos) := by
  have hlen : (vals.take pos ++ value :: vals.drop pos).length = vals.length + 1 := by
    rw [List.length_append, List.length_cons, List.length_take, List.length_drop]
    omega
  refine ⟨hok.enc_ok, hlen.symm, rfl, ?_, ?_, pairwise_insert hok.sorted hpos hlo hhi⟩
  · rw [hlen]
    exact hroom
  · intro v hv
    rcases (mem_insert vals value pos v).mp hv with rfl | h
    · exact hfit
    · exact hok.fits v h

/-- The function `intsetAdd` on a value that fits the encoding and is not a member, when the
block with one more element takes less than `2 ^ 32` bytes: the value is put at the position
where it keeps the order. -/
theorem intsetAdd_insert {is : intset} {vals : List Int} (hok : intsetOK is vals) {value : Int}
    (hle : _intsetValueEncoding value ≤ is.encoding) (hnot : value ∉ vals)
    (hroom : (vals.length + 1) * is.encoding < 4294967296) :
    ∃ pos : Nat, pos ≤ vals.length ∧ (∀ i : Nat, i < pos → vals.getD i 0 < value) ∧
      (∀ i : Nat, pos ≤ i → i < vals.length → value < vals.getD i 0) ∧
      intsetAdd is value =
        some ({ encoding := is.encoding, length := vals.length + 1,
                contents := encodeAll is.encoding (vals.take pos ++ value :: vals.drop pos) },
          1) := by
  have hL := length_lt_of_ok hok
  obtain ⟨found, pos, hs, hres⟩ := intsetSearch_spec hok value
  have hf : found = 0 := by
    rcases search_found_iff hres with ⟨_, hm⟩ | ⟨hf, _⟩
    · exact absurd hm hnot
    · exact hf
  subst hf
  rcases hres with ⟨h1, _⟩ | ⟨_, hpos, hlo, hhi⟩
  · cases h1
  refine ⟨pos, hpos, hlo, hhi, ?_⟩
  unfold intsetAdd
  rw [valueEncoding_mod, if_neg (by omega), hs, Option.some_bind]
  simp only [ne_eq, not_true_eq_false, if_false]
  have hclen : is.contents.length = vals.length * is.encoding := by
    rw [hok.contents_eq, encodeAll_length]
  have hl1 : (is.length + 1) % 4294967296 = vals.length + 1 := by
    rw [hok.len_eq]
    omega
  rw [hl1, intsetResize_grow is hroom (by rw [hclen]; exact Nat.mul_le_mul_right _ (Nat.le_succ _))]
  have hrep : (vals.length + 1) * is.encoding - is.contents.length = is.encoding := by
    rw [hclen, Nat.succ_mul, Nat.add_sub_cancel_left]
  rw [hrep]
  have hsplit : is.contents =
      encodeAll is.encoding (vals.take pos) ++ encodeAll is.encoding (vals.drop pos) := by
    rw [hok.contents_eq, ← encodeAll_append, List.take_append_drop]
  have hA : (encodeAll is.encoding (vals.take pos)).length = pos * is.encoding :=
    encodeAll_take_length _ vals hpos
  have hB : (encodeAll is.encoding (vals.drop pos)).length = (vals.length - pos) * is.encoding := by
    rw [encodeAll_length, List.length_drop]
  have hstep : ∃ X : List Nat, X.length = is.encoding ∧
      (if pos < ({ encoding := is.encoding, length := is.length,
                   contents := is.contents ++ List.replicate is.encoding 0 } : intset).length then
          intsetMoveTail
            { encoding := is.encoding, length := is.length,
              contents := is.contents ++ List.replicate is.encoding 0 }
            pos ((pos + 1) % 4294967296)
        else
          some
            { encoding := is.encoding, length := is.length,
              contents := is.contents ++ List.replicate is.encoding 0 }) =
        some { encoding := is.encoding, length := is.length,
               contents := encodeAll is.encoding (vals.take pos) ++ X ++
                 encodeAll is.encoding (vals.drop pos) } := by
    by_cases hp : pos < vals.length
    · have hp1 : (pos + 1) % 4294967296 = pos + 1 := by omega
      have hge : is.encoding ≤ (encodeAll is.encoding (vals.drop pos)).length := by
        rw [hB]
        exact Nat.le_mul_of_pos_left _ (by omega)
      refine ⟨(encodeAll is.encoding (vals.drop pos)).take is.encoding, ?_, ?_⟩
      · rw [List.length_take, Nat.min_eq_left hge]
      · rw [if_pos (by show pos < is.length; rw [hok.len_eq]; exact hp), hp1]
        have hmv := intsetMoveTail_at
          { encoding := is.encoding, length := is.length,
            contents := is.contents ++ List.replicate is.encoding 0 }
          (encodeAll is.encoding (vals.take pos)) (encodeAll is.encoding (vals.drop pos))
          (List.replicate is.encoding 0)
          (encodeAll is.encoding (vals.take pos) ++
            (encodeAll is.encoding (vals.drop pos)).take is.encoding)
          ((encodeAll is.encoding (vals.drop pos)).drop is.encoding ++
            List.replicate is.encoding 0) [] pos (pos + 1) hok.enc_ok
          (by show is.contents ++ _ = _; rw [hsplit])
          hA
          (by
            show _ = sub32 is.length pos * is.encoding % 4294967296
            have h1 : sub32 is.length pos = vals.length - pos := by
              rw [hok.len_eq]
              unfold sub32
              omega
            rw [h1, hB]
            refine (Nat.mod_eq_of_lt (lt_of_le_of_lt ?_ hok.size_lt)).symm
            exact Nat.mul_le_mul_right _ (Nat.sub_le _ _))
          (by
            show is.contents ++ _ = _
            rw [hsplit]
            simp only [List.append_assoc, List.append_nil]
            rw [← List.append_assoc (List.take _ _), List.take_append_drop])
          (by
            rw [List.length_append, hA, List.length_take, Nat.min_eq_left hge, Nat.succ_mul])
          (by
            rw [List.length_append, List.length_drop, List.length_replicate]
            omega)
        rw [hmv, List.append_nil]
    · have hpe : pos = vals.length := by omega
      refine ⟨List.replicate is.encoding 0, List.length_replicate _ _, ?_⟩
      rw [if_neg (by show ¬ pos < is.length; rw [hok.len_eq]; exact hp), hsplit]
      have hnil : encodeAll is.encoding (vals.drop pos) = [] := by
        rw [hpe, List.drop_length]
        rfl
      rw [hnil, List.append_nil, List.append_nil]
  obtain ⟨X, hX, hif⟩ := hstep
  rw [hif, Option.some_bind]
  have hw : wrapInt (pos : Int) = (pos : Int) := @wrapInt_eq (pos : Int) (by omega) (by omega)
  rw [hw]
  clear hw
  rw [intsetSet_at
    { encoding := is.encoding, length := is.length,
      contents := encodeAll is.encoding (vals.take pos) ++ X ++
        encodeAll is.encoding (vals.drop pos) }
    (encodeAll is.encoding (vals.take pos)) X
    (encodeAll is.encoding (vals.drop pos)) value pos hok.enc_ok rfl hA hX, Option.map_some']
  simp only [hl1, encodeAll_append, encodeAll_cons, List.append_assoc]

theorem isInt64_of_fits {enc : Nat} (henc : enc = 2 ∨ enc = 4 ∨ enc = 8) {v : Int}
    (h : -(2 : Int) ^ (8 * enc - 1) ≤ v ∧ v < (2 : Int) ^ (8 * enc - 1)) : isInt64 v := by
  unfold isInt64
  rcases henc with rfl | rfl | rfl
  · norm_num at h
    omega
  · norm_num at h
    omega
  · norm_num at h
    omega

theorem valueEncoding_le_of_mem {is : intset} {vals : List Int} (hok : intsetOK is vals)
    {value : Int} (hmem : value ∈ vals) : _intsetValueEncoding value ≤ is.encoding :=
  (valueEncoding_le_iff value hok.enc_ok (isInt64_of_fits hok.enc_ok (hok.fits value hmem))).mpr
    (hok.fits value hmem)

/-- The function `intsetAdd` on a member: it reports 0 and returns the set as it is. -/
theorem intsetAdd_present {is : intset} {vals : List Int} (hok : intsetOK is vals) {value : Int}
    (hmem : value ∈ vals) : intsetAdd is value = some (is, 0) := by
  obtain ⟨found, pos, hs, hres⟩ := intsetSearch_spec hok value
  have hf : found = 1 := by
    rcases search_found_iff hres with ⟨hf, _⟩ | ⟨_, hm⟩
    · exact hf
    · exact absurd hmem hm
  subst hf
  unfold intsetAdd
  rw [valueEncoding_mod, if_neg (by have := valueEncoding_le_of_mem hok hmem; omega), hs,
    Option.some_bind]
  rfl

/-! ## intset.c: removing a value -/

/-- The function `intsetRemove` on a value that is not a member: it reports 0 and returns the
set as it is. -/
theorem intsetRemove_absent {is : intset} {vals : List Int} (hok : intsetOK is vals)
    {value : Int} (hnot : value ∉ vals) : intsetRemove is value = some (is, 0) := by
  unfold intsetRemove
  rw [valueEncoding_mod]
  by_cases hle : _intsetValueEncoding value ≤ is.encoding
  · rw [if_pos hle]
    obtain ⟨found, pos, hs, hres⟩ := intsetSearch_spec hok value
    have hf : found = 0 := by
      rcases search_found_iff hres with ⟨_, hm⟩ | ⟨hf, _⟩
      · exact absurd hm hnot
      · exact hf
    subst hf
    rw [hs, Option.some_bind]
    rfl
  · rw [if_neg hle]

theorem mem_eraseIdx {vals : List Int} (hs : vals.Pairwise (fun a b => a < b)) {pos : Nat}
    (hpos : pos < vals.length) (x : Int) :
    x ∈ vals.eraseIdx pos ↔ x ∈ vals ∧ x ≠ vals.getD pos 0 := by
  rw [List.eraseIdx_eq_take_drop_succ, List.mem_append]
  constructor
  · rintro (h | h)
    · refine ⟨List.mem_of_mem_take h, ?_⟩
      obtain ⟨i, hi, hiv⟩ := List.getElem_of_mem h
      rw [List.length_take] at hi
      rw [List.getElem_take] at hiv
      have := sorted_getD hs (show i < pos by omega) hpos
      rw [List.getD_eq_getElem vals 0 (by omega), hiv] at this
      omega
    · refine ⟨List.mem_of_mem_drop h, ?_⟩
      obtain ⟨i, hi, hiv⟩ := List.getElem_of_mem h
      rw [List.length_drop] at hi
      rw [List.getElem_drop] at hiv
      have := sorted_getD hs (show pos < pos + 1 + i by omega) (show pos + 1 + i < vals.length by omega)
      rw [List.getD_eq_getElem vals 0 (show pos + 1 + i < vals.length by omega), hiv] at this
      omega
  · rintro ⟨hm, hne⟩
    rw [split_at vals hpos, List.mem_append, List.mem_cons] at hm
    rcases hm with h | h | h
    · exact Or.inl h
    · exact absurd h hne
    · exact Or.inr h

/-- The set without the element at a position is well formed. -/
theorem intsetOK_erase {is : intset} {vals : List Int} (hok : intsetOK is vals) {pos : Nat}
    (hpos : pos < vals.length) :
    intsetOK { encoding := is.encoding, length := vals.length - 1,
               contents := encodeAll is.encoding (vals.eraseIdx pos) }
      (vals.eraseIdx pos) := by
  have hlen : (vals.eraseIdx pos).length = vals.length - 1 := List.length_eraseIdx_of_lt hpos
  refine ⟨hok.enc_ok, hlen.symm, rfl, ?_, ?_, hok.sorted.sublist (List.eraseIdx_sublist vals pos)⟩
  · rw [hlen]
    exact lt_of_le_of_lt (Nat.mul_le_mul_right _ (Nat.sub_le _ _)) hok.size_lt
  · intro v hv
    exact hok.fits v ((List.eraseIdx_sublist vals pos).subset hv)

/-- The function `intsetRemove` on a member: it reports 1 and returns the set without it. -/
theorem intsetRemove_present {is : intset} {vals : List Int} (hok : intsetOK is vals)
    {value : Int} (hmem : value ∈ vals) :
    ∃ pos : Nat, pos < vals.length ∧ vals.getD pos 0 = value ∧
      intsetRemove is value =
        some ({ encoding := is.encoding, length := vals.length - 1,
                contents := encodeAll is.encoding (vals.eraseIdx pos) },
          1) := by
  have hL := length_lt_of_ok hok
  obtain ⟨found, pos, hs, hres⟩ := intsetSearch_spec hok value
  have hf : found = 1 := by
    rcases search_found_iff hres with ⟨hf, _⟩ | ⟨_, hm⟩
    · exact hf
    · exact absurd hmem hm
  subst hf
  rcases hres with ⟨_, hpos, hval⟩ | ⟨h1, _⟩
  swap
  · cases h1
  refine ⟨pos, hpos, hval, ?_⟩
  unfold intsetRemove
  rw [valueEncoding_mod, if_pos (valueEncoding_le_of_mem hok hmem), hs, Option.some_bind]
  simp only [ne_eq, one_ne_zero, not_false_eq_true, if_true]
  rw [hok.len_eq, sub32_one (by omega) (by omega)]
  have hsplit : is.contents =
      encodeAll is.encoding (vals.take pos) ++ encodeInt is.encoding (vals.getD pos 0) ++
        encodeAll is.encoding (vals.drop (pos + 1)) := by
    rw [hok.contents_eq]
    exact encodeAll_split _ vals hpos
  have hA : (encodeAll is.encoding (vals.take pos)).length = pos * is.encoding :=
    encodeAll_take_length _ vals (le_of_lt hpos)
  have hB : (encodeAll is.encoding (vals.drop (pos + 1))).length =
      (vals.length - (pos + 1)) * is.encoding := by
    rw [encodeAll_length, List.length_drop]
  have hstep : ∃ R : List Nat,
      (if pos < vals.length - 1 then intsetMoveTail is ((pos + 1) % 4294967296) pos
        else some is) =
        some { encoding := is.encoding, length := is.length,
               contents := encodeAll is.encoding (vals.take pos) ++
                 encodeAll is.encoding (vals.drop (pos + 1)) ++ R } := by
    by_cases hp : pos < vals.length - 1
    · have hp1 : (pos + 1) % 4294967296 = pos + 1 := by omega
      refine ⟨(encodeInt is.encoding (vals.getD pos 0) ++
        encodeAll is.encoding (vals.drop (pos + 1))).drop
          (encodeAll is.encoding (vals.drop (pos + 1))).length, ?_⟩
      rw [if_pos hp, hp1]
      exact intsetMoveTail_at is
        (encodeAll is.encoding (vals.take pos) ++ encodeInt is.encoding (vals.getD pos 0))
        (encodeAll is.encoding (vals.drop (pos + 1))) []
        (encodeAll is.encoding (vals.take pos))
        ((encodeInt is.encoding (vals.getD pos 0) ++
          encodeAll is.encoding (vals.drop (pos + 1))).take
            (encodeAll is.encoding (vals.drop (pos + 1))).length)
        ((encodeInt is.encoding (vals.getD pos 0) ++
          encodeAll is.encoding (vals.drop (pos + 1))).drop
            (encodeAll is.encoding (vals.drop (pos + 1))).length)
        (pos + 1) pos hok.enc_ok
        (by rw [hsplit, List.append_nil])
        (by rw [List.length_append, hA, encodeInt_length, Nat.succ_mul])
        (by
          have h1 : sub32 is.length (pos + 1) = vals.length - (pos + 1) := by
            rw [hok.len_eq]
            unfold sub32
            omega
          rw [h1, hB]
          refine (Nat.mod_eq_of_lt (lt_of_le_of_lt ?_ hok.size_lt)).symm
          exact Nat.mul_le_mul_right _ (Nat.sub_le _ _))
        (by rw [hsplit, List.append_assoc, List.append_assoc, List.take_append_drop])
        hA
        (by
          rw [List.length_take, List.length_append]
          omega)
    · have hpe : pos = vals.length - 1 := by omega
      refine ⟨encodeInt is.encoding (vals.getD pos 0), ?_⟩
      rw [if_neg hp]
      have hnil : encodeAll is.encoding (vals.drop (pos + 1)) = [] := by
        rw [List.drop_of_length_le (by omega)]
        rfl
      have hc : encodeAll is.encoding (vals.take pos) ++ [] ++
          encodeInt is.encoding (vals.getD pos 0) = is.contents := by
        rw [hsplit, hnil, List.append_nil, List.append_nil]
      rw [hnil, hc]
  obtain ⟨R, hif⟩ := hstep
  rw [hif, Option.map_some']
  have hAB : (encodeAll is.encoding (vals.take pos) ++
      encodeAll is.encoding (vals.drop (pos + 1))).length = (vals.length - 1) * is.encoding := by
    rw [List.length_append, hA, hB, ← Nat.add_mul]
    congr 1
    omega
  have hlt : (vals.length - 1) * is.encoding < 4294967296 :=
    lt_of_le_of_lt (Nat.mul_le_mul_right _ (Nat.sub_le _ _)) hok.size_lt
  have hrs := intsetResize_shrink
    { encoding := is.encoding, length := is.length,
      contents := encodeAll is.encoding (vals.take pos) ++
        encodeAll is.encoding (vals.drop (pos + 1)) ++ R }
    hlt (by
      show _ ≤ (_ ++ _ ++ R).length
      rw [List.length_append, hAB]
      exact Nat.le_add_right _ _)
  rw [hrs]
  simp only [List.take_left' hAB, List.eraseIdx_eq_take_drop_succ, encodeAll_append]

/-! ## intset.c: the encoding upgrade -/

/-- Writing a slot that lies inside the block. -/
theorem intsetSet_some (is : intset) (v : Int) (i : Nat)
    (henc : is.encoding = 2 ∨ is.encoding = 4 ∨ is.encoding = 8)
    (h : i * is.encoding + is.encoding ≤ is.contents.length) :
    ∃ c1, setBytes is.contents (i * is.encoding) (encodeInt is.encoding v) = some c1 ∧
      _intsetSet is (i : Int) v = some { is with contents := c1 } := by
  obtain ⟨c1, hc1⟩ := setBytes_some is.contents (encodeInt is.encoding v)
    (show i * is.encoding + (encodeInt is.encoding v).length ≤ is.contents.length by
      rw [encodeInt_length]; exact h)
  refine ⟨c1, hc1, ?_⟩
  unfold _intsetSet
  rw [if_neg (by omega), encWidth_of_ok henc, Int.toNat_ofNat, hc1, Option.map_some']

theorem take_succ_getD (vals : List Int) {k : Nat} (hk : k < vals.length) :
    vals.take (k + 1) = vals.take k ++ [vals.getD k 0] := by
  rw [List.take_succ, List.getElem?_eq_getElem hk, List.getD_eq_getElem vals 0 hk]
  rfl

theorem drop_getD_cons (vals : List Int) {k : Nat} (hk : k < vals.length) :
    vals.drop k = vals.getD k 0 :: vals.drop (k + 1) := by
  rw [List.getD_eq_getElem vals 0 hk, List.getElem_cons_drop]

/-- The loop of `intsetUpgradeAndAdd`: with the first `k` elements still in the old encoding at
the front of the block and the others already in the new encoding at their final place, the
loop rewrites the first `k` elements and leaves all of them in the new encoding. -/
theorem upgradeLoop_spec {vals : List Int} {cw nw p : Nat}
    (hcw : cw = 2 ∨ cw = 4 ∨ cw = 8) (hnw : nw = 2 ∨ nw = 4 ∨ nw = 8) (hlt : cw < nw)
    (hp : p ≤ 1) (hL : vals.length < 2147483648)
    (hfits : ∀ v, v ∈ vals → -(2 : Int) ^ (8 * cw - 1) ≤ v ∧ v < (2 : Int) ^ (8 * cw - 1)) :
    ∀ (k fuel : Nat) (c : List Nat), k ≤ vals.length → k < fuel →
      c.length = (vals.length + 1) * nw →
      c.take (k * cw) = encodeAll cw (vals.take k) →
      (c.drop ((k + p) * nw)).take ((vals.length - k) * nw) = encodeAll nw (vals.drop k) →
      ∃ c1 : List Nat,
        upgradeLoop cw (p : Int) fuel { encoding := nw, length := vals.length, contents := c }
            (k : Int) =
          some { encoding := nw, length := vals.length, contents := c1 } ∧
        c1.length = (vals.length + 1) * nw ∧
        (c1.drop (p * nw)).take (vals.length * nw) = encodeAll nw vals := by
  intro k
  induction k with
  | zero =>
    intro fuel c _ hf hlen _ hdrop
    obtain ⟨f, rfl⟩ : ∃ f, fuel = f + 1 := ⟨fuel - 1, by omega⟩
    refine ⟨c, ?_, hlen, ?_⟩
    · unfold upgradeLoop
      rw [if_neg (by simp)]
    · simpa using hdrop
  | succ k ih =>
    intro fuel c hk hf hlen htake hdrop
    obtain ⟨f, rfl⟩ : ∃ f, fuel = f + 1 := ⟨fuel - 1, by omega⟩
    have hkL : k < vals.length := by omega
    unfold upgradeLoop
    rw [if_pos (by omega)]
    have hw1 : wrapInt (((k + 1 : Nat) : Int) - 1) = (k : Int) := by
      have h := @wrapInt_eq (((k + 1 : Nat) : Int) - 1) (by omega) (by omega)
      rw [h]
      omega
    rw [hw1]
    clear hw1
    have hw2 : wrapInt ((k : Int) + (p : Int)) = ((k + p : Nat) : Int) := by
      have h := @wrapInt_eq ((k : Int) + (p : Int)) (by omega) (by omega)
      rw [h]
      rfl
    rw [hw2]
    clear hw2
    -- the read
    have hcsplit : c = encodeAll cw (vals.take k) ++ encodeInt cw (vals.getD k 0) ++
        c.drop ((k + 1) * cw) := by
      conv_lhs => rw [← List.take_append_drop ((k + 1) * cw) c, htake, take_succ_getD vals hkL,
        encodeAll_append, encodeAll_cons, encodeAll_nil, List.append_nil]
    have hread := getEncoded_at { encoding := nw, length := vals.length, contents := c }
      (encodeAll cw (vals.take k)) (c.drop ((k + 1) * cw)) (vals.getD k 0) k hcw hcsplit
      (encodeAll_take_length cw vals (le_of_lt hkL)) (hfits _ (getD_mem vals hkL))
    rw [hread, Option.some_bind]
    -- the write
    have hnwpos : 0 < nw := by omega
    have hbound : (k + p) * nw + nw ≤ c.length := by
      rw [hlen, ← Nat.succ_mul]
      exact Nat.mul_le_mul_right _ (by omega)
    obtain ⟨c1, hset, hwrite⟩ := intsetSet_some
      { encoding := nw, length := vals.length, contents := c } (vals.getD k 0) (k + p) hnw hbound
    rw [hwrite, Option.some_bind]
    have hlen1 : c1.length = (vals.length + 1) * nw := (setBytes_length hset).trans hlen
    have hle : k * cw ≤ (k + p) * nw :=
      le_trans (Nat.mul_le_mul_left _ (le_of_lt hlt)) (Nat.mul_le_mul_right _ (Nat.le_add_right _ _))
    have htake1 : c1.take (k * cw) = encodeAll cw (vals.take k) := by
      rw [setBytes_take hset hle]
      conv_lhs => rw [hcsplit]
      rw [List.append_assoc]
      exact List.take_left' (encodeAll_take_length cw vals (le_of_lt hkL))
    have hdrop1 : (c1.drop ((k + p) * nw)).take ((vals.length - k) * nw) =
        encodeAll nw (vals.drop k) := by
      rw [setBytes_drop hset, encodeInt_length, drop_getD_cons vals hkL, encodeAll_cons]
      have h1 : (vals.length - k) * nw = nw + (vals.length - (k + 1)) * nw := by
        rw [show vals.length - k = (vals.length - (k + 1)) + 1 by omega, Nat.succ_mul,
          Nat.add_comm]
      have h2 : (k + p) * nw + nw = (k + 1 + p) * nw := by
        rw [← Nat.succ_mul]
        congr 1
        omega
      rw [h1, h2, List.take_append_eq_append_take, encodeInt_length, List.take_of_length_le
        (by rw [encodeInt_length]; exact Nat.le_add_right _ _), Nat.add_sub_cancel_left, hdrop]
    exact ih f c1 (le_of_lt hkL) (by omega) hlen1 htake1 hdrop1

theorem fits_mono {cw nw : Nat} (hcw : cw = 2 ∨ cw = 4 ∨ cw = 8) (hnw : nw = 2 ∨ nw = 4 ∨ nw = 8)
    (hle : cw ≤ nw) {v : Int}
    (h : -(2 : Int) ^ (8 * cw - 1) ≤ v ∧ v < (2 : Int) ^ (8 * cw - 1)) :
    -(2 : Int) ^ (8 * nw - 1) ≤ v ∧ v < (2 : Int) ^ (8 * nw - 1) := by
  rcases hcw with rfl | rfl | rfl <;> rcases hnw with rfl | rfl | rfl <;>
    omega

/-- A value that needs a wider encoding lies below all members when it is negative and above
all of them otherwise. -/
theorem wider_outside {is : intset} {vals : List Int} (hok : intsetOK is vals) {value : Int}
    (hv : isInt64 value) (hgt : is.encoding < _intsetValueEncoding value) :
    (value < 0 → ∀ x, x ∈ vals → value < x) ∧ (¬ value < 0 → ∀ x, x ∈ vals → x < value) := by
  have hnot : ¬ (-(2 : Int) ^ (8 * is.encoding - 1) ≤ value ∧
      value < (2 : Int) ^ (8 * is.encoding - 1)) := by
    intro h
    have := (valueEncoding_le_iff value hok.enc_ok hv).mpr h
    omega
  have hpos : (0 : Int) < (2 : Int) ^ (8 * is.encoding - 1) := by positivity
  constructor
  · intro hneg x hx
    have := hok.fits x hx
    by_contra hcon
    exact hnot ⟨by omega, by omega⟩
  · intro hneg x hx
    have := hok.fits x hx
    by_contra hcon
    exact hnot ⟨by omega, by omega⟩

/-- The set in the wider encoding with the new value at the front or at the end is well
formed. -/
theorem intsetOK_upgrade {is : intset} {vals : List Int} (hok : intsetOK is vals) {value : Int}
    (hv : isInt64 value) (hgt : is.encoding < _intsetValueEncoding value)
    (hroom : (vals.length + 1) * _intsetValueEncoding value < 4294967296) :
    intsetOK { encoding := _intsetValueEncoding value, length := vals.length + 1,
               contents := encodeAll (_intsetValueEncoding value)
                 (if value < 0 then value :: vals else vals ++ [value]) }
      (if value < 0 then value :: vals else vals ++ [value]) := by
  have hout := wider_outside hok hv hgt
  have hlen : (if value < 0 then value :: vals else vals ++ [value]).length =
      vals.length + 1 := by
    split_ifs
    · rw [List.length_cons]
    · rw [List.length_append, List.length_singleton]
  refine ⟨valueEncoding_ok value, hlen.symm, rfl, ?_, ?_, ?_⟩
  · rw [hlen]
    exact hroom
  · intro x hx
    have hx2 : x = value ∨ x ∈ vals := by
      split_ifs at hx
      · exact List.mem_cons.mp hx
      · rcases List.mem_append.mp hx with h | h
        · exact Or.inr h
        · exact Or.inl (List.mem_singleton.mp h)
    rcases hx2 with rfl | h
    · exact (valueEncoding_le_iff x (valueEncoding_ok x) hv).mp (le_refl _)
    · exact fits_mono hok.enc_ok (valueEncoding_ok value) (le_of_lt hgt) (hok.fits x h)
  · by_cases hneg : value < 0
    · rw [if_pos hneg]
      exact List.pairwise_cons.mpr ⟨hout.1 hneg, hok.sorted⟩
    · rw [if_neg hneg]
      refine List.pairwise_append.mpr ⟨hok.sorted, List.pairwise_singleton _ _, ?_⟩
      intro a ha b hb
      rw [List.mem_singleton.mp hb]
      exact hout.2 hneg a ha

/-- The function `intsetAdd` on a value that needs a wider encoding, when the block with one
more element in that encoding takes less than `2 ^ 32` bytes: every element is rewritten in
the encoding of the value, which is put before all of them when it is negative and after all
of them otherwise. -/
theorem intsetAdd_upgrade {is : intset} {vals : List Int} (hok : intsetOK is vals) {value : Int}
    (hgt : is.encoding < _intsetValueEncoding value)
    (hroom : (vals.length + 1) * _intsetValueEncoding value < 4294967296) :
    intsetAdd is value =
      some ({ encoding := _intsetValueEncoding value, length := vals.length + 1,
              contents := encodeAll (_intsetValueEncoding value)
                (if value < 0 then value :: vals else vals ++ [value]) },
        1) := by
  have hL := length_lt_of_ok hok
  have hnw := valueEncoding_ok value
  have hcw := hok.enc_ok
  have hcm : is.encoding % 256 = is.encoding := by omega
  have hl1 : (is.length + 1) % 4294967296 = vals.length + 1 := by
    rw [hok.len_eq]
    omega
  have hclen : is.contents.length = vals.length * is.encoding := by
    rw [hok.contents_eq, encodeAll_length]
  have hcle : is.contents.length ≤ (vals.length + 1) * _intsetValueEncoding value := by
    rw [hclen]
    exact Nat.mul_le_mul (Nat.le_succ _) (le_of_lt hgt)
  have hwL : wrapInt (vals.length : Int) = (vals.length : Int) :=
    @wrapInt_eq (vals.length : Int) (by omega) (by omega)
  have hrs := intsetResize_grow
    { encoding := _intsetValueEncoding value, length := is.length, contents := is.contents }
    hroom hcle
  unfold intsetAdd
  rw [valueEncoding_mod, if_pos hgt]
  unfold intsetUpgradeAndAdd
  rw [valueEncoding_mod, hcm, hl1, hrs, hok.len_eq, hwL]
  clear hwL hrs
  -- the block after the resize
  have hc0len : (is.contents ++ List.replicate
      ((vals.length + 1) * _intsetValueEncoding value - is.contents.length) 0).length =
      (vals.length + 1) * _intsetValueEncoding value := by
    rw [List.length_append, List.length_replicate]
    omega
  have htake0 : (is.contents ++ List.replicate
      ((vals.length + 1) * _intsetValueEncoding value - is.contents.length) 0).take
      (vals.length * is.encoding) = encodeAll is.encoding (vals.take vals.length) := by
    rw [List.take_length, ← hok.contents_eq]
    exact List.take_left' hclen
  by_cases hneg : value < 0
  · simp only [if_pos hneg]
    obtain ⟨c1, hloop, hlen1, hfin⟩ := upgradeLoop_spec hcw hnw hgt (le_refl 1) hL hok.fits
      vals.length (vals.length + 1) _ (le_refl _) (Nat.lt_succ_self _) hc0len htake0
      (by rw [Nat.sub_self, Nat.zero_mul, List.take_zero, List.drop_length]; rfl)
    rw [show ((1 : Int)) = ((1 : Nat) : Int) from rfl, hloop, Option.some_bind]
    obtain ⟨c2, hset, hwrite⟩ := intsetSet_some
      { encoding := _intsetValueEncoding value, length := vals.length, contents := c1 }
      value 0 hnw (by
        show 0 * _ + _ ≤ c1.length
        rw [hlen1, Nat.zero_mul, Nat.zero_add]
        exact Nat.le_mul_of_pos_left _ (Nat.succ_pos _))
    dsimp only at hset hwrite
    rw [show ((0 : Int)) = ((0 : Nat) : Int) from rfl, hwrite, Option.map_some',
      Option.map_some']
    have hd := setBytes_drop hset
    rw [Nat.zero_mul, List.drop_zero, Nat.zero_add, encodeInt_length] at hd
    have hrest : c1.drop (_intsetValueEncoding value) = encodeAll (_intsetValueEncoding value) vals := by
      rw [Nat.one_mul] at hfin
      rw [← hfin, List.take_of_length_le]
      rw [List.length_drop, hlen1, Nat.succ_mul, Nat.add_sub_cancel]
    simp only [hd, hrest, encodeAll_cons]
    have : (vals.length + 1) % 4294967296 = vals.length + 1 := by omega
    rw [this]
  · simp only [if_neg hneg]
    obtain ⟨c1, hloop, hlen1, hfin⟩ := upgradeLoop_spec hcw hnw hgt (Nat.zero_le 1) hL hok.fits
      vals.length (vals.length + 1) _ (le_refl _) (Nat.lt_succ_self _) hc0len htake0
      (by rw [Nat.sub_self, Nat.zero_mul, List.take_zero, List.drop_length]; rfl)
    rw [show ((0 : Int)) = ((0 : Nat) : Int) from rfl, hloop, Option.some_bind]
    have hwL : wrapInt (vals.length : Int) = (vals.length : Int) :=
      @wrapInt_eq (vals.length : Int) (by omega) (by omega)
    simp only [hwL]
    clear hwL
    obtain ⟨c2, hset, hwrite⟩ := intsetSet_some
      { encoding := _intsetValueEncoding value, length := vals.length, contents := c1 }
      value vals.length hnw (by
        show _ * _ + _ ≤ c1.length
        rw [hlen1, Nat.succ_mul])
    dsimp only at hset hwrite
    rw [hwrite, Option.map_some', Option.map_some']
    have hc2 : c2 = encodeAll (_intsetValueEncoding value) vals ++
        encodeInt (_intsetValueEncoding value) value := by
      unfold setBytes at hset
      rw [if_pos (by rw [encodeInt_length, hlen1, Nat.succ_mul])] at hset
      cases hset
      rw [Nat.zero_mul, List.drop_zero] at hfin
      rw [hfin, encodeInt_length, List.drop_of_length_le (by rw [hlen1, Nat.succ_mul]),
        List.append_nil]
    simp only [hc2, encodeAll_append, encodeAll_cons, encodeAll_nil, List.append_nil]
    have : (vals.length + 1) % 4294967296 = vals.length + 1 := by omega
    rw [this]

/-! ## intset.c: the size computed in `uint32_t` -/

theorem intsetResize_length (is : intset) (len : Nat) :
    (intsetResize is len).contents.length = len * is.encoding % 4294967296 := by
  unfold intsetResize
  simp only [List.length_append, List.length_take, List.length_replicate]
  omega

theorem intsetResize_fields (is : intset) (len : Nat) :
    (intsetResize is len).encoding = is.encoding ∧ (intsetResize is len).length = is.length :=
  ⟨rfl, rfl⟩

theorem getBytes_none {c : List Nat} {off n : Nat} (h : c.length < off + n) :
    getBytes c off n = none := by
  unfold getBytes
  rw [if_neg (by omega)]

theorem setBytes_none {c bs : List Nat} {off : Nat} (h : c.length < off + bs.length) :
    setBytes c off bs = none := by
  unfold setBytes
  rw [if_neg (by omega)]

/-- Writing a slot that does not lie inside the block is an access out of bounds. -/
theorem intsetSet_none (is : intset) (v : Int) (i : Nat)
    (henc : is.encoding = 2 ∨ is.encoding = 4 ∨ is.encoding = 8)
    (h : is.contents.length < i * is.encoding + is.encoding) :
    _intsetSet is (i : Int) v = none := by
  unfold _intsetSet
  rw [if_neg (by omega), encWidth_of_ok henc, Int.toNat_ofNat,
    setBytes_none (by rw [encodeInt_length]; exact h), Option.map_none']

/-- The function `intsetAdd` on a value that fits the encoding and is not a member, when the
block with one more element would take `2 ^ 32` bytes or more: the size wraps, the block
shrinks, and the call accesses memory out of bounds. -/
theorem intsetAdd_insert_overflow {is : intset} {vals : List Int} (hok : intsetOK is vals)
    {value : Int} (hle : _intsetValueEncoding value ≤ is.encoding) (hnot : value ∉ vals)
    (hno : 4294967296 ≤ (vals.length + 1) * is.encoding) : intsetAdd is value = none := by
  have hL := length_lt_of_ok hok
  have hcw := hok.enc_ok
  have hsz := hok.size_lt
  obtain ⟨found, pos, hs, hres⟩ := intsetSearch_spec hok value
  have hf : found = 0 := by
    rcases search_found_iff hres with ⟨_, hm⟩ | ⟨hf, _⟩
    · exact absurd hm hnot
    · exact hf
  subst hf
  rcases hres with ⟨h1, _⟩ | ⟨_, hpos, _, _⟩
  · cases h1
  unfold intsetAdd
  rw [valueEncoding_mod, if_neg (by omega), hs, Option.some_bind]
  simp only [ne_eq, not_true_eq_false, if_false]
  have hl1 : (is.length + 1) % 4294967296 = vals.length + 1 := by
    rw [hok.len_eq]
    omega
  rw [hl1]
  have hrl := intsetResize_length is (vals.length + 1)
  have hsmall : (vals.length + 1) * is.encoding % 4294967296 < is.encoding := by
    rw [Nat.succ_mul] at hno ⊢
    omega
  have hbig : is.encoding ≤ vals.length * is.encoding :=
    Nat.le_mul_of_pos_left _ (by
      rcases Nat.eq_zero_or_pos vals.length with h0 | h0
      · rw [h0] at hno
        omega
      · exact h0)
  by_cases hp : pos < vals.length
  · rw [if_pos (by show pos < is.length; rw [hok.len_eq]; exact hp)]
    have hmv : intsetMoveTail (intsetResize is (vals.length + 1)) pos
        ((pos + 1) % 4294967296) = none := by
      unfold intsetMoveTail
      have h1 : sub32 (intsetResize is (vals.length + 1)).length pos = vals.length - pos := by
        show sub32 is.length pos = _
        rw [hok.len_eq]
        unfold sub32
        omega
      have h2 : (vals.length - pos) * is.encoding % 4294967296 =
          (vals.length - pos) * is.encoding :=
        Nat.mod_eq_of_lt (lt_of_le_of_lt (Nat.mul_le_mul_right _ (Nat.sub_le _ _)) hsz)
      have h3 : pos * is.encoding + (vals.length - pos) * is.encoding =
          vals.length * is.encoding := by
        rw [← Nat.add_mul]
        congr 1
        omega
      rw [h1, show (intsetResize is (vals.length + 1)).encoding = is.encoding from rfl,
        encWidth_of_ok hcw, h2, getBytes_none (by rw [hrl, h3]; omega), Option.none_bind]
    rw [hmv, Option.none_bind]
  · have hpe : pos = vals.length := by omega
    rw [if_neg (by show ¬ pos < is.length; rw [hok.len_eq]; exact hp), Option.some_bind]
    have hw : wrapInt (pos : Int) = (pos : Int) := @wrapInt_eq (pos : Int) (by omega) (by omega)
    rw [hw]
    clear hw
    rw [intsetSet_none (intsetResize is (vals.length + 1)) value pos hcw (by
      show (intsetResize is (vals.length + 1)).contents.length < pos * is.encoding + is.encoding
      rw [hrl, hpe]
      omega), Option.map_none']

/-- The function `intsetAdd` on a value that needs a wider encoding, when the block with one
more element in that encoding would take `2 ^ 32` bytes or more: the size wraps, and the
call accesses memory out of bounds. -/
theorem intsetAdd_upgrade_overflow {is : intset} {vals : List Int} (hok : intsetOK is vals)
    {value : Int} (hgt : is.encoding < _intsetValueEncoding value)
    (hno : 4294967296 ≤ (vals.length + 1) * _intsetValueEncoding value) :
    intsetAdd is value = none := by
  have hL := length_lt_of_ok hok
  have hnw := valueEncoding_ok value
  have hcw := hok.enc_ok
  have hcm : is.encoding % 256 = is.encoding := by omega
  have hl1 : (is.length + 1) % 4294967296 = vals.length + 1 := by
    rw [hok.len_eq]
    omega
  have hwL : wrapInt (vals.length : Int) = (vals.length : Int) :=
    @wrapInt_eq (vals.length : Int) (by omega) (by omega)
  have hpos : 0 < vals.length := by
    rcases Nat.eq_zero_or_pos vals.length with h0 | h0
    · rw [h0] at hno
      omega
    · exact h0
  obtain ⟨n, hn⟩ : ∃ n, vals.length = n + 1 := ⟨vals.length - 1, by omega⟩
  have hw1 : wrapInt ((vals.length : Int) - 1) = (n : Int) := by
    have h := @wrapInt_eq ((vals.length : Int) - 1) (by omega) (by omega)
    rw [h]
    omega
  unfold intsetAdd
  rw [valueEncoding_mod, if_pos hgt]
  unfold intsetUpgradeAndAdd
  rw [valueEncoding_mod, hcm, hl1, hok.len_eq, hwL]
  clear hwL
  unfold upgradeLoop
  rw [if_pos (by omega), hw1]
  clear hw1
  have hrl := intsetResize_length
    { encoding := _intsetValueEncoding value, length := vals.length, contents := is.contents }
    (vals.length + 1)
  have hnone : ∀ v : Int,
      _intsetSet (intsetResize
        { encoding := _intsetValueEncoding value, length := vals.length, contents := is.contents }
        (vals.length + 1)) (wrapInt ((n : Int) + if value < 0 then 1 else 0)) v = none := by
    intro v
    have hw2 : wrapInt ((n : Int) + if value < 0 then 1 else 0) =
        ((n + if value < 0 then 1 else 0 : Nat) : Int) := by
      have h := @wrapInt_eq ((n : Int) + if value < 0 then 1 else 0)
        (by split_ifs <;> omega) (by split_ifs <;> omega)
      rw [h]
      split_ifs <;> rfl
    rw [hw2]
    clear hw2
    refine intsetSet_none _ v _ hnw ?_
    show (intsetResize _ (vals.length + 1)).contents.length <
      (n + if value < 0 then 1 else 0) * _intsetValueEncoding value + _intsetValueEncoding value
    rw [hrl]
    show (vals.length + 1) * _intsetValueEncoding value % 4294967296 < _
    rw [← Nat.succ_mul]
    have h1 : (vals.length + 1) * _intsetValueEncoding value % 4294967296 + 4294967296 ≤
        (vals.length + 1) * _intsetValueEncoding value := by omega
    have h2 : (vals.length + 1) * _intsetValueEncoding value ≤
        (n + (if value < 0 then 1 else 0)).succ * _intsetValueEncoding value + 8 := by
      have h3 : vals.length * _intsetValueEncoding value ≤
          (n + (if value < 0 then 1 else 0)).succ * _intsetValueEncoding value :=
        Nat.mul_le_mul_right _ (by rw [hn]; omega)
      rw [Nat.succ_mul vals.length]
      omega
    omega
  cases hread : _intsetGetEncoded (intsetResize
      { encoding := _intsetValueEncoding value, length := vals.length, contents := is.contents }
      (vals.length + 1)) (n : Int) is.encoding with
  | none => rfl
  | some v =>
    rw [Option.some_bind, hnone v]
    rfl

/-! ## intset.c: the calls on a well-formed set -/

theorem intsetNew_ok : intsetOK intsetNew [] :=
  ⟨Or.inl rfl, rfl, rfl, by decide, fun v hv => absurd hv (List.not_mem_nil v), List.Pairwise.nil⟩

/-- The function `intsetAdd` on a well-formed set: it leaves a member alone; it adds a value
that is not a member when the block with one more element in the encoding that both need takes
less than `2 ^ 32` bytes; and it accesses memory out of bounds otherwise. -/
theorem intsetAdd_spec {is : intset} {vals : List Int} (hok : intsetOK is vals) {value : Int}
    (hv : isInt64 value) :
    (value ∈ vals ∧ intsetAdd is value = some (is, 0)) ∨
    (value ∉ vals ∧
      (vals.length + 1) * max is.encoding (_intsetValueEncoding value) < 4294967296 ∧
      ∃ (is1 : intset) (vals1 : List Int), intsetAdd is value = some (is1, 1) ∧
        intsetOK is1 vals1 ∧ is1.encoding = max is.encoding (_intsetValueEncoding value) ∧
        vals1.length = vals.length + 1 ∧ (∀ x, x ∈ vals1 ↔ x = value ∨ x ∈ vals)) ∨
    (value ∉ vals ∧
      4294967296 ≤ (vals.length + 1) * max is.encoding (_intsetValueEncoding value) ∧
      intsetAdd is value = none) := by
  by_cases hmem : value ∈ vals
  · exact Or.inl ⟨hmem, intsetAdd_present hok hmem⟩
  · refine Or.inr ?_
    by_cases hle : _intsetValueEncoding value ≤ is.encoding
    · rw [Nat.max_eq_left hle]
      by_cases hroom : (vals.length + 1) * is.encoding < 4294967296
      · obtain ⟨pos, hpos, hlo, hhi, hadd⟩ := intsetAdd_insert hok hle hmem hroom
        have hfit := (valueEncoding_le_iff value hok.enc_ok hv).mp hle
        refine Or.inl ⟨hmem, hroom, _, _, hadd, intsetOK_insert hok hpos hfit hroom hlo hhi,
          rfl, ?_, mem_insert vals value pos⟩
        rw [List.length_append, List.length_cons, List.length_take, List.length_drop]
        omega
      · exact Or.inr ⟨hmem, by omega, intsetAdd_insert_overflow hok hle hmem (by omega)⟩
    · have hgt : is.encoding < _intsetValueEncoding value := by omega
      rw [Nat.max_eq_right (le_of_lt hgt)]
      by_cases hroom : (vals.length + 1) * _intsetValueEncoding value < 4294967296
      · refine Or.inl ⟨hmem, hroom, _, _, intsetAdd_upgrade hok hgt hroom,
          intsetOK_upgrade hok hv hgt hroom, rfl, ?_, ?_⟩
        · split_ifs
          · rw [List.length_cons]
          · rw [List.length_append, List.length_singleton]
        · intro x
          split_ifs
          · exact List.mem_cons
          · rw [List.mem_append, List.mem_singleton]
            exact Or.comm
      · exact Or.inr ⟨hmem, by omega, intsetAdd_upgrade_overflow hok hgt (by omega)⟩

/-- The function `intsetRemove` on a well-formed set: it removes a member and leaves the set
alone when the value is not a member. -/
theorem intsetRemove_spec {is : intset} {vals : List Int} (hok : intsetOK is vals)
    (value : Int) :
    (value ∈ vals ∧
      ∃ (is1 : intset) (vals1 : List Int), intsetRemove is value = some (is1, 1) ∧
        intsetOK is1 vals1 ∧ is1.encoding = is.encoding ∧
        vals1.length = vals.length - 1 ∧ (∀ x, x ∈ vals1 ↔ x ∈ vals ∧ x ≠ value)) ∨
    (value ∉ vals ∧ intsetRemove is value = some (is, 0)) := by
  by_cases hmem : value ∈ vals
  · obtain ⟨pos, hpos, hval, hrem⟩ := intsetRemove_present hok hmem
    refine Or.inl ⟨hmem, _, _, hrem, intsetOK_erase hok hpos, rfl,
      List.length_eraseIdx_of_lt hpos, ?_⟩
    intro x
    rw [mem_eraseIdx hok.sorted hpos x, hval]
  · exact Or.inr ⟨hmem, intsetRemove_absent hok hmem⟩

theorem runIntsetOps_cons_some {is is2 : intset} {op : IntsetOp} {ops : List IntsetOp}
    {ss : List Nat} (h : runIntsetOps is (op :: ops) = some (is2, ss)) :
    ∃ (is1 : intset) (s : Nat) (ss1 : List Nat),
      (match op with
        | IntsetOp.add v => intsetAdd is v
        | IntsetOp.remove v => intsetRemove is v) = some (is1, s) ∧
      runIntsetOps is1 ops = some (is2, ss1) ∧ ss = s :: ss1 := by
  cases op with
  | add v =>
    unfold runIntsetOps at h
    obtain ⟨r, hr, h2⟩ := Option.bind_eq_some.mp h
    obtain ⟨q, hq, h3⟩ := Option.map_eq_some'.mp h2
    cases h3
    exact ⟨r.1, r.2, q.2, hr, hq, rfl⟩
  | remove v =>
    unfold runIntsetOps at h
    obtain ⟨r, hr, h2⟩ := Option.bind_eq_some.mp h
    obtain ⟨q, hq, h3⟩ := Option.map_eq_some'.mp h2
    cases h3
    exact ⟨r.1, r.2, q.2, hr, hq, rfl⟩

/-- Every set that a sequence of calls returns is well formed, and the calls that reported 1
account for the change of the length when all of them are adds. -/
theorem runIntsetOps_ok :
    ∀ (ops : List IntsetOp) (is : intset) (vals : List Int), intsetOK is vals →
      (∀ op, op ∈ ops → isInt64 (opValue op)) →
      ∀ (is1 : intset) (ss : List Nat), runIntsetOps is ops = some (is1, ss) →
        ∃ vals1, intsetOK is1 vals1 ∧ ss.length = ops.length ∧
          ((∀ op, op ∈ ops → ∃ v, op = IntsetOp.add v) →
            vals1.length = vals.length + ss.sum ∧ ∀ s, s ∈ ss → s = 0 ∨ s = 1) := by
  intro ops
  induction ops with
  | nil =>
    intro is vals hok _ is1 ss h
    unfold runIntsetOps at h
    cases h
    exact ⟨vals, hok, rfl, fun _ => ⟨rfl, fun s hs => absurd hs (List.not_mem_nil s)⟩⟩
  | cons op ops ih =>
    intro is vals hok hv is2 ss h
    obtain ⟨is1, s, ss1, hcall, hrest, rfl⟩ := runIntsetOps_cons_some h
    have hvops : ∀ o, o ∈ ops → isInt64 (opValue o) :=
      fun o ho => hv o (List.mem_cons_of_mem op ho)
    cases op with
    | add v =>
      have hvop : isInt64 v := hv (IntsetOp.add v) (List.mem_cons_self _ _)
      have hcall2 : intsetAdd is v = some (is1, s) := hcall
      rcases intsetAdd_spec hok hvop with ⟨_, hadd⟩ | ⟨_, _, isn, valsn, hadd, hokn, _, hlen, _⟩ |
        ⟨_, _, hadd⟩
      · obtain ⟨rfl, rfl⟩ : is = is1 ∧ 0 = s := by
          rw [hcall2] at hadd
          cases hadd
          exact ⟨rfl, rfl⟩
        obtain ⟨vals1, hok1, hl, hsum⟩ := ih is vals hok hvops is2 ss1 hrest
        refine ⟨vals1, hok1, by rw [List.length_cons, List.length_cons, hl], ?_⟩
        intro hall
        obtain ⟨h1, h2⟩ := hsum (fun o ho => hall o (List.mem_cons_of_mem _ ho))
        refine ⟨by rw [h1, List.sum_cons, Nat.zero_add], ?_⟩
        intro s hs
        rcases List.mem_cons.mp hs with rfl | hs
        · exact Or.inl rfl
        · exact h2 s hs
      · obtain ⟨rfl, rfl⟩ : isn = is1 ∧ 1 = s := by
          rw [hcall2] at hadd
          cases hadd
          exact ⟨rfl, rfl⟩
        obtain ⟨vals1, hok1, hl, hsum⟩ := ih isn valsn hokn hvops is2 ss1 hrest
        refine ⟨vals1, hok1, by rw [List.length_cons, List.length_cons, hl], ?_⟩
        intro hall
        obtain ⟨h1, h2⟩ := hsum (fun o ho => hall o (List.mem_cons_of_mem _ ho))
        refine ⟨by rw [h1, hlen, List.sum_cons]; omega, ?_⟩
        intro s hs
        rcases List.mem_cons.mp hs with rfl | hs
        · exact Or.inr rfl
        · exact h2 s hs
      · rw [hcall2] at hadd
        cases hadd
    | remove v =>
      have hcall2 : intsetRemove is v = some (is1, s) := hcall
      rcases intsetRemove_spec hok v with ⟨_, isn, valsn, hrem, hokn, _, _, _⟩ | ⟨_, hrem⟩
      · obtain ⟨rfl, rfl⟩ : isn = is1 ∧ 1 = s := by
          rw [hcall2] at hrem
          cases hrem
          exact ⟨rfl, rfl⟩
        obtain ⟨vals1, hok1, hl, _⟩ := ih isn valsn hokn hvops is2 ss1 hrest
        refine ⟨vals1, hok1, by rw [List.length_cons, List.length_cons, hl], ?_⟩
        intro hall
        obtain ⟨w, hw⟩ := hall (IntsetOp.remove v) (List.mem_cons_self _ _)
        cases hw
      · obtain ⟨rfl, rfl⟩ : is = is1 ∧ 0 = s := by
          rw [hcall2] at hrem
          cases hrem
          exact ⟨rfl, rfl⟩
        obtain ⟨vals1, hok1, hl, _⟩ := ih is vals hok hvops is2 ss1 hrest
        refine ⟨vals1, hok1, by rw [List.length_cons, List.length_cons, hl], ?_⟩
        intro hall
        obtain ⟨w, hw⟩ := hall (IntsetOp.remove v) (List.mem_cons_self _ _)
        cases hw

/-- A sequence of calls returns when the block stays below `2 ^ 32` bytes in every encoding:
each call adds one element at most. -/
theorem runIntsetOps_total :
    ∀ (ops : List IntsetOp) (is : intset) (vals : List Int), intsetOK is vals →
      (∀ op, op ∈ ops → isInt64 (opValue op)) →
      (vals.length + ops.length) * 8 < 4294967296 →
      ∃ (is1 : intset) (ss : List Nat), runIntsetOps is ops = some (is1, ss) := by
  intro ops
  induction ops with
  | nil =>
    intro is vals _ _ _
    exact ⟨is, [], rfl⟩
  | cons op ops ih =>
    intro is vals hok hv hroom
    have hvops : ∀ o, o ∈ ops → isInt64 (opValue o) :=
      fun o ho => hv o (List.mem_cons_of_mem op ho)
    rw [List.length_cons] at hroom
    cases op with
    | add v =>
      have hvop : isInt64 v := hv (IntsetOp.add v) (List.mem_cons_self _ _)
      have hmax : max is.encoding (_intsetValueEncoding v) ≤ 8 := by
        have h1 := hok.enc_ok
        have h2 := valueEncoding_ok v
        exact Nat.max_le.mpr ⟨by omega, by omega⟩
      rcases intsetAdd_spec hok hvop with ⟨_, hadd⟩ | ⟨_, _, isn, valsn, hadd, hokn, _, hlen, _⟩ |
        ⟨_, hno, _⟩
      · obtain ⟨is1, ss, hr⟩ := ih is vals hok hvops (by omega)
        refine ⟨is1, 0 :: ss, ?_⟩
        unfold runIntsetOps
        rw [hadd, Option.some_bind, hr, Option.map_some']
      · obtain ⟨is1, ss, hr⟩ := ih isn valsn hokn hvops (by rw [hlen]; omega)
        refine ⟨is1, 1 :: ss, ?_⟩
        unfold runIntsetOps
        rw [hadd, Option.some_bind, hr, Option.map_some']
      · exfalso
        have h1 : (vals.length + 1) * max is.encoding (_intsetValueEncoding v) ≤
            (vals.length + 1) * 8 := Nat.mul_le_mul_left _ hmax
        omega
    | remove v =>
      rcases intsetRemove_spec hok v with ⟨_, isn, valsn, hrem, hokn, _, hlen, _⟩ | ⟨_, hrem⟩
      · obtain ⟨is1, ss, hr⟩ := ih isn valsn hokn hvops (by rw [hlen]; omega)
        refine ⟨is1, 1 :: ss, ?_⟩
        unfold runIntsetOps
        rw [hrem, Option.some_bind, hr, Option.map_some']
      · obtain ⟨is1, ss, hr⟩ := ih is vals hok hvops (by omega)
        refine ⟨is1, 0 :: ss, ?_⟩
        unfold runIntsetOps
        rw [hrem, Option.some_bind, hr, Option.map_some']

/-- After `intsetAdd` the value is found, and every other value is found as before. -/
theorem intsetAdd_find {is : intset} {vals : List Int} (hok : intsetOK is vals) {value : Int}
    (hv : isInt64 value)
    (hroom : value ∈ vals ∨
      (vals.length + 1) * max is.encoding (_intsetValueEncoding value) < 4294967296) :
    ∃ (is1 : intset) (s : Nat), intsetAdd is value = some (is1, s) ∧
      intsetFind is1 value = some 1 ∧
      ∀ x, isInt64 x → x ≠ value → intsetFind is1 x = intsetFind is x := by
  rcases intsetAdd_spec hok hv with ⟨hmem, hadd⟩ | ⟨_, _, is1, vals1, hadd, hok1, _, _, hiff⟩ |
    ⟨hnot, hno, _⟩
  · refine ⟨is, 0, hadd, ?_, fun _ _ _ => rfl⟩
    rw [intsetFind_spec hok hv, if_pos hmem]
  · refine ⟨is1, 1, hadd, ?_, ?_⟩
    · rw [intsetFind_spec hok1 hv, if_pos ((hiff value).mpr (Or.inl rfl))]
    · intro x hx hne
      rw [intsetFind_spec hok1 hx, intsetFind_spec hok hx]
      have : x ∈ vals1 ↔ x ∈ vals := by
        rw [hiff x]
        exact ⟨fun h => h.resolve_left hne, Or.inr⟩
      simp only [this]
  · rcases hroom with h | h
    · exact absurd h hnot
    · omega

/-- After `intsetRemove` the value is not found, and every other value is found as before. -/
theorem intsetRemove_find {is : intset} {vals : List Int} (hok : intsetOK is vals) {value : Int}
    (hv : isInt64 value) :
    ∃ (is1 : intset) (s : Nat), intsetRemove is value = some (is1, s) ∧
      intsetFind is1 value = some 0 ∧
      ∀ x, isInt64 x → x ≠ value → intsetFind is1 x = intsetFind is x := by
  rcases intsetRemove_spec hok value with ⟨_, is1, vals1, hrem, hok1, _, _, hiff⟩ | ⟨hnot, hrem⟩
  · refine ⟨is1, 1, hrem, ?_, ?_⟩
    · rw [intsetFind_spec hok1 hv, if_neg (fun h => ((hiff value).mp h).2 rfl)]
    · intro x hx hne
      rw [intsetFind_spec hok1 hx, intsetFind_spec hok hx]
      have : x ∈ vals1 ↔ x ∈ vals := by
        rw [hiff x]
        exact ⟨fun h => h.1, fun h => ⟨h, hne⟩⟩
      simp only [this]
  · refine ⟨is, 0, hrem, ?_, fun _ _ _ => rfl⟩
    rw [intsetFind_spec hok hv, if_neg hnot]

/-- The value that `intsetAdd` leaves in `*success` tells whether the value was new, and the
length grows by one exactly then. -/
theorem intsetAdd_success {is : intset} {vals : List Int} (hok : intsetOK is vals) {value : Int}
    (hv : isInt64 value)
    (hroom : value ∈ vals ∨
      (vals.length + 1) * max is.encoding (_intsetValueEncoding value) < 4294967296) :
    ∃ (is1 : intset) (s : Nat), intsetAdd is value = some (is1, s) ∧
      (s = 1 ↔ intsetFind is value = some 0) ∧
      (s = 1 → intsetLen is1 = intsetLen is + 1) ∧
      (intsetFind is value = some 1 → s = 0 ∧ is1 = is) := by
  rw [intsetFind_spec hok hv]
  rcases intsetAdd_spec hok hv with ⟨hmem, hadd⟩ | ⟨hnot, _, is1, vals1, hadd, hok1, _, hlen, _⟩ |
    ⟨hnot, hno, _⟩
  · refine ⟨is, 0, hadd, ?_, fun h => absurd h (by decide), fun _ => ⟨rfl, rfl⟩⟩
    rw [if_pos hmem]
    exact ⟨fun h => absurd h (by decide), fun h => absurd h (by decide)⟩
  · refine ⟨is1, 1, hadd, ?_, fun _ => ?_, fun h => ?_⟩
    · rw [if_neg hnot]
      exact ⟨fun _ => rfl, fun _ => rfl⟩
    · rw [intsetLen_spec hok1, intsetLen_spec hok, hlen]
    · rw [if_neg hnot] at h
      exact absurd h (by decide)
  · rcases hroom with h | h
    · exact absurd h hnot
    · omega

/-- An add that widens the encoding: the encoding becomes the one the value needs, the members
keep their values and their order, the value comes first when it is negative and last
otherwise, and all of them are found. -/
theorem intsetAdd_upgrade_members {is : intset} {vals : List Int} (hok : intsetOK is vals)
    {value : Int} (hv : isInt64 value) (hgt : is.encoding < _intsetValueEncoding value)
    (hroom : (vals.length + 1) * _intsetValueEncoding value < 4294967296) :
    ∃ is1 : intset, intsetAdd is value = some (is1, 1) ∧
      is1.encoding = _intsetValueEncoding value ∧
      intsetValues is1 = some (if value < 0 then value :: vals else vals ++ [value]) ∧
      (∀ x, x ∈ vals → intsetFind is1 x = some 1) ∧ intsetFind is1 value = some 1 := by
  have hok1 := intsetOK_upgrade hok hv hgt hroom
  refine ⟨_, intsetAdd_upgrade hok hgt hroom, rfl, intsetValues_spec hok1, ?_, ?_⟩
  · intro x hx
    rw [intsetFind_spec hok1 (isInt64_of_fits hok.enc_ok (hok.fits x hx)), if_pos]
    split_ifs
    · exact List.mem_cons_of_mem _ hx
    · exact List.mem_append_left _ hx
  · rw [intsetFind_spec hok1 hv, if_pos]
    split_ifs
    · exact List.mem_cons_self _ _
    · exact List.mem_append_right _ (List.mem_singleton_self _)

/-! ## intset.c: a set that fills the block -/

theorem ascending_length (n : Nat) (base : Int) : (ascending n base).length = n := by
  unfold ascending
  rw [List.length_map, List.length_range]

theorem mem_ascending (n : Nat) (base x : Int) :
    x ∈ ascending n base ↔ ∃ i : Nat, i < n ∧ x = base + (i : Int) := by
  unfold ascending
  rw [List.mem_map]
  constructor
  · rintro ⟨i, hi, rfl⟩
    exact ⟨i, List.mem_range.mp hi, rfl⟩
  · rintro ⟨i, hi, rfl⟩
    exact ⟨i, List.mem_range.mpr hi, rfl⟩

theorem ascending_sorted (n : Nat) (base : Int) :
    (ascending n base).Pairwise (fun a b => a < b) := by
  unfold ascending
  rw [List.pairwise_map]
  refine (List.pairwise_lt_range n).imp ?_
  intro a b hab
  omega

/-- The set of `n` consecutive integers is well formed when they fit the encoding and the block
takes less than `2 ^ 32` bytes. -/
theorem fullSet_ok {enc n : Nat} {base : Int} (henc : enc = 2 ∨ enc = 4 ∨ enc = 8)
    (hsize : n * enc < 4294967296)
    (hlo : -(2 : Int) ^ (8 * enc - 1) ≤ base) (hhi : base + (n : Int) ≤ (2 : Int) ^ (8 * enc - 1)) :
    intsetOK (fullSet enc n base) (ascending n base) := by
  refine ⟨henc, (ascending_length n base).symm, rfl, ?_, ?_, ascending_sorted n base⟩
  · rw [ascending_length]
    exact hsize
  · intro v hv
    obtain ⟨i, hi, rfl⟩ := (mem_ascending n base v).mp hv
    show -(2 : Int) ^ (8 * enc - 1) ≤ base + i ∧ base + i < (2 : Int) ^ (8 * enc - 1)
    constructor
    · omega
    · omega

theorem ascending_succ (n : Nat) (base : Int) :
    ascending (n + 1) base = ascending n base ++ [base + (n : Int)] := by
  unfold ascending
  rw [List.range_succ, List.map_append]
  rfl

/-- Adding the next integer to the set of `n` consecutive integers appends it. -/
theorem intsetAdd_fullSet {enc n : Nat} {base : Int} (hok : intsetOK (fullSet enc n base)
    (ascending n base)) (hle : _intsetValueEncoding (base + (n : Int)) ≤ enc)
    (hroom : (n + 1) * enc < 4294967296) :
    intsetAdd (fullSet enc n base) (base + (n : Int)) = some (fullSet enc (n + 1) base, 1) := by
  have hnot : base + (n : Int) ∉ ascending n base := by
    rw [mem_ascending]
    rintro ⟨i, hi, h⟩
    omega
  obtain ⟨pos, hpos, _, hhi, hadd⟩ := intsetAdd_insert hok hle hnot
    (by rw [ascending_length]; exact hroom)
  rw [ascending_length] at hpos
  have hpe : pos = n := by
    by_contra hne
    have hlt : pos < n := by omega
    have h1 := hhi pos (le_refl _) (by rw [ascending_length]; exact hlt)
    have hm := getD_mem (ascending n base) (show pos < (ascending n base).length by
      rw [ascending_length]; exact hlt)
    obtain ⟨i, hi, h2⟩ := (mem_ascending n base _).mp hm
    omega
  rw [hadd]
  subst hpe
  have h3 : (ascending pos base).take pos ++ (base + (pos : Int)) :: (ascending pos base).drop pos =
      ascending (pos + 1) base := by
    rw [ascending_succ, List.take_of_length_le (by rw [ascending_length]),
      List.drop_of_length_le (by rw [ascending_length])]
  rw [h3, ascending_length]
  rfl

theorem runIntsetOps_snoc_add {v : Int} {is1 : intset} {ss : List Nat} :
    ∀ (ops : List IntsetOp) (is : intset), runIntsetOps is ops = some (is1, ss) →
      runIntsetOps is (ops ++ [IntsetOp.add v]) =
        (intsetAdd is1 v).map (fun r => (r.1, ss ++ [r.2])) := by
  intro ops
  induction ops generalizing ss with
  | nil =>
    intro is h
    unfold runIntsetOps at h
    cases h
    rw [List.nil_append]
    unfold runIntsetOps
    generalize intsetAdd is1 v = o
    cases o <;> rfl
  | cons op ops ih =>
    intro is h
    obtain ⟨is0, s, ss1, hcall, hrest, rfl⟩ := runIntsetOps_cons_some h
    rw [List.cons_append]
    cases op with
    | add w =>
      have hcall2 : intsetAdd is w = some (is0, s) := hcall
      unfold runIntsetOps
      rw [hcall2, Option.some_bind, ih is0 hrest]
      generalize intsetAdd is1 v = o
      cases o <;> rfl
    | remove w =>
      have hcall2 : intsetRemove is w = some (is0, s) := hcall
      unfold runIntsetOps
      rw [hcall2, Option.some_bind, ih is0 hrest]
      generalize intsetAdd is1 v = o
      cases o <;> rfl

/-- The set of `n` consecutive integers that need 64 bits is what `n` calls of `intsetAdd` on a
new set build, each of them reporting 1. -/
theorem fullSet_reachable {base : Int} (hb : 2147483647 < base) :
    ∀ n : Nat, 0 < n → n * 8 < 4294967296 → base + (n : Int) ≤ 9223372036854775808 →
      runIntsetOps intsetNew ((ascending n base).map IntsetOp.add) =
        some (fullSet 8 n base, List.replicate n 1) := by
  have henc : ∀ k : Nat, base + (k : Int) ≤ 9223372036854775808 →
      _intsetValueEncoding (base + (k : Int)) = 8 := by
    intro k _
    unfold _intsetValueEncoding INTSET_ENC_INT64
    rw [if_pos (Or.inr (by omega))]
  intro n
  induction n with
  | zero =>
    intro h
    omega
  | succ n ih =>
    intro _ hsize hhi
    rw [ascending_succ, List.map_append, List.map_cons, List.map_nil]
    rcases Nat.eq_zero_or_pos n with h0 | h0
    · subst h0
      have hup := intsetAdd_upgrade intsetNew_ok
        (show intsetNew.encoding < _intsetValueEncoding (base + ((0 : Nat) : Int)) by
          rw [henc 0 (by omega)]
          decide)
        (by rw [henc 0 (by omega)]; decide)
      rw [show ascending 0 base = [] from rfl, List.map_nil, List.nil_append]
      unfold runIntsetOps
      rw [hup, Option.some_bind]
      unfold runIntsetOps
      rw [Option.map_some', henc 0 (by omega), if_neg (by omega)]
      rfl
    · have hok : intsetOK (fullSet 8 n base) (ascending n base) :=
        fullSet_ok (Or.inr (Or.inr rfl)) (by omega) (by norm_num; omega) (by norm_num; omega)
      rw [runIntsetOps_snoc_add _ _ (ih h0 (by omega) (by omega)),
        intsetAdd_fullSet hok (by rw [henc n (by omega)]) hsize, Option.map_some',
        List.replicate_succ']

/-! ## intset.c: the block of `2 ^ 32` bytes -/

/-- The set of the `2 ^ 29 - 1` integers from `2 ^ 31` on in 64 bits is well formed: its block
takes `2 ^ 32 - 8` bytes. -/
theorem fullSet64_ok :
    intsetOK (fullSet 8 536870911 2147483648) (ascending 536870911 2147483648) :=
  fullSet_ok (Or.inr (Or.inr rfl)) (by norm_num) (by norm_num) (by norm_num)

/-- One more value does not fit: `intsetResize` computes the size `2 ^ 29 * 8` in `uint32_t`
as 0, and the write of the value lies outside the block. -/
theorem fullSet64_add :
    intsetAdd (fullSet 8 536870911 2147483648) (2147483648 + ((536870911 : Nat) : Int)) = none := by
  refine intsetAdd_insert_overflow fullSet64_ok ?_ ?_ ?_
  · have := valueEncoding_ok (2147483648 + ((536870911 : Nat) : Int))
    show _ ≤ 8
    omega
  · rw [mem_ascending]
    rintro ⟨i, hi, h⟩
    omega
  · rw [ascending_length]
    show 4294967296 ≤ (536870911 + 1) * 8
    norm_num

/-- The set of the `2 ^ 29 - 1` integers from `2 ^ 15` on in 32 bits is well formed. -/
theorem fullSet32_ok : intsetOK (fullSet 4 536870911 32768) (ascending 536870911 32768) :=
  fullSet_ok (Or.inr (Or.inl rfl)) (by norm_num) (by norm_num) (by norm_num)

theorem fullSet32_add : intsetAdd (fullSet 4 536870911 32768) 2147483648 = none := by
  have henc : _intsetValueEncoding 2147483648 = 8 := by
    unfold _intsetValueEncoding INTSET_ENC_INT64
    rw [if_pos (Or.inr (by norm_num))]
  refine intsetAdd_upgrade_overflow fullSet32_ok ?_ ?_
  · rw [henc]
    show 4 < 8
    norm_num
  · rw [henc, ascending_length]

/-! ## The invariants as the claims state them -/

theorem twoKeyDict_reachable : Reachable identityType twoKeyDict :=
  Reachable.add true oneKeyDict twoKeyDict 2 20 DICT_OK oneKeyDict_reachable (by decide) rfl

theorem twoKeyExpandedDict_reachable : Reachable identityType twoKeyExpandedDict :=
  Reachable.expand twoKeyDict twoKeyExpandedDict 8 DICT_OK twoKeyDict_reachable rfl

theorem splitDict_reachable : Reachable identityType splitDict :=
  Reachable.rehash twoKeyExpandedDict splitDict 1 1 twoKeyExpandedDict_reachable rfl

/-- Every entry of a bucket sits where its hash, masked with the size mask of its table,
points. -/
theorem placed_of_bucketGet {d : dict} (hinv : Inv d) {t : Nat} {i : Nat}
    {chain : List dictEntry} {e : dictEntry} (h : bucketGet (getHt d t) i = some chain)
    (he : e ∈ chain) : dictHashKey d e.key &&& (getHt d t).sizemask = i := by
  obtain ⟨bs, htab, hb⟩ := bucketGet_some h
  exact (getHt_ok hinv t).placed bs i chain e htab hb he

/-- A storage of `w` bytes holds a value exactly when the value is in the range of a signed
integer of `w` bytes. -/
theorem holds_iff (v : Int) {w : Nat} (h : w = 2 ∨ w = 4 ∨ w = 8) :
    toSigned w (readLE (encodeInt w v)) = v ↔
      (-(2 : Int) ^ (8 * w - 1) ≤ v ∧ v < (2 : Int) ^ (8 * w - 1)) := by
  constructor
  · intro hv
    rw [← hv]
    unfold encodeInt toSigned
    rw [readLE_writeLE]
    rcases h with rfl | rfl | rfl
    · norm_num
      split_ifs <;> omega
    · norm_num
      split_ifs <;> omega
    · norm_num
      split_ifs <;> omega
  · exact decode_encode v h

/-! ## The rehash index stays inside `ht[0]` -/

theorem idx_lt_of_used {d : dict} (hinv : Inv d) (hr : d.rehashidx ≠ -1)
    (hu : d.ht0.used ≠ 0) : d.rehashidx < (d.ht0.size : Int) := by
  obtain ⟨bs, j, e, chain, htab, hb, hj⟩ := exists_nonempty_bucket hinv hr hu
  have h1 := lt_of_getElem?_eq_some hb
  rw [hinv.ok0.length_eq bs htab] at h1
  omega

theorem dictExpand_idx_lt {d d1 : dict} {size r : Nat}
    (hpos : d.ht0.table ≠ none → 0 < d.ht0.size)
    (hlt : d.rehashidx ≠ -1 → d.rehashidx < (d.ht0.size : Int))
    (h : dictExpand d size = some (d1, r)) :
    d1.rehashidx ≠ -1 → d1.rehashidx < (d1.ht0.size : Int) := by
  obtain ⟨k, _, _, _, hc⟩ := dictExpand_cases d size
  rcases hc with ⟨_, e⟩ | ⟨hnr, _, _, _, e⟩ | ⟨_, _, _, htab, e⟩
  · rw [e] at h
    cases h
    exact hlt
  · rw [e] at h
    cases h
    intro hr
    have := (dictIsRehashing_iff d).mpr hr
    rw [hnr] at this
    cases this
  · rw [e] at h
    cases h
    intro _
    have := hpos htab
    simp only
    omega

theorem expandIfNeeded_idx_lt {cr : Bool} {d d1 : dict} {r : Nat} (hinv : Inv d)
    (hlt : d.rehashidx ≠ -1 → d.rehashidx < (d.ht0.size : Int))
    (h : _dictExpandIfNeeded cr d = some (d1, r)) :
    d1.rehashidx ≠ -1 → d1.rehashidx < (d1.ht0.size : Int) := by
  unfold _dictExpandIfNeeded at h
  split at h
  · cases h
    exact hlt
  · split at h
    · exact dictExpand_idx_lt (fun ht => by have := (ht_size_of_alloc hinv.ok0 ht).1; omega) hlt h
    · split at h
      · exact dictExpand_idx_lt (fun ht => by have := (ht_size_of_alloc hinv.ok0 ht).1; omega)
          hlt h
      · cases h
        exact hlt

theorem dictRehash_idx_lt {d d1 : dict} {n : Int} {r : Nat} (hT : LawfulType d.type)
    (hinv : Inv d) (h : dictRehash d n = some (d1, r)) :
    d1.rehashidx ≠ -1 → d1.rehashidx < (d1.ht0.size : Int) := by
  obtain ⟨d2, r2, a1, a2, _, _, _, _, a7, _⟩ := dictRehash_spec d n hT hinv
  rw [a1] at h
  cases h
  intro hr
  rcases a7 with ⟨_, h0⟩ | ⟨_, h1, h2, _⟩
  · exact absurd h0 hr
  · exact idx_lt_of_used a2 h1 h2

theorem rehashStep_idx_lt {d d1 : dict} (hT : LawfulType d.type) (hinv : Inv d)
    (hlt : d.rehashidx ≠ -1 → d.rehashidx < (d.ht0.size : Int))
    (h : rehashStepIfRehashing d = some d1) :
    d1.rehashidx ≠ -1 → d1.rehashidx < (d1.ht0.size : Int) := by
  unfold rehashStepIfRehashing _dictRehashStep at h
  split at h
  · split at h
    · obtain ⟨p, hp, hp2⟩ := Option.map_eq_some'.mp h
      subst hp2
      exact dictRehash_idx_lt hT hinv (show dictRehash d 1 = some (p.1, p.2) from hp)
    · cases h
      exact hlt
  · cases h
    exact hlt

theorem rehashStep_inv_of_eq {d d0 : dict} (hT : LawfulType d.type) (hinv : Inv d)
    (h : rehashStepIfRehashing d = some d0) : Inv d0 ∧ d0.type = d.type := by
  obtain ⟨d1, s1, s2, s3, _⟩ := rehashStep_spec d hT hinv
  rw [h] at s1
  cases s1
  exact ⟨s2, s3⟩

/-- In every reachable dictionary that is rehashing, the rehash index is below the size of
`ht[0]`. -/
theorem Reachable_idx_lt {T : dictType} (hT : LawfulType T) {d : dict} (h : Reachable T d) :
    d.rehashidx ≠ -1 → d.rehashidx < (d.ht0.size : Int) := by
  induction h with
  | create =>
    intro hr
    exact absurd rfl hr
  | add cr d d1 key val r hd hsz hop ih =>
    obtain ⟨hinv, hty⟩ := Reachable_fill hT hd
    have hTd : LawfulType d.type := hty ▸ hT
    have hTf : LawfulType (fillDict d).type := hTd
    have ih2 : (fillDict d).rehashidx ≠ -1 →
        (fillDict d).rehashidx < ((fillDict d).ht0.size : Int) := by simpa using ih
    obtain ⟨d2, r2, a1, _, _, _, ⟨d0, dm, b1, b2, b3, b4, _⟩, _⟩ :=
      dictAdd_spec cr (fillDict d) key val hTd hinv
        (entries_lt_of_dictSize hinv (by rw [dictSize_fillDict]; exact hsz))
    rw [dictAdd_fill hTd hinv hsz hop] at a1
    cases a1
    have i0 := rehashStep_inv_of_eq hTf hinv b1
    have lm := expandIfNeeded_idx_lt i0.1 (rehashStep_idx_lt hTf hinv ih2 b1) b2
    simp only [fillDict_rehashidx, fillDict_ht0, fillHt_size] at b3 b4
    intro hr
    rw [b3, b4]
    exact lm (b3 ▸ hr)
  | addRaw cr d d1 key r1 r2 hd hsz hop ih =>
    obtain ⟨hinv, hty⟩ := Reachable_fill hT hd
    have hTd : LawfulType d.type := hty ▸ hT
    have hTf : LawfulType (fillDict d).type := hTd
    have ih2 : (fillDict d).rehashidx ≠ -1 →
        (fillDict d).rehashidx < ((fillDict d).ht0.size : Int) := by simpa using ih
    obtain ⟨d3, e, ex, a1, _, _, _, _, d0, dm, b1, b2, b3, b4, _⟩ :=
      dictAddRaw_spec cr (fillDict d) key hTd hinv
        (entries_lt_of_dictSize hinv (by rw [dictSize_fillDict]; exact hsz))
    rw [dictAddRaw_fill hTd hinv hsz hop] at a1
    cases a1
    have i0 := rehashStep_inv_of_eq hTf hinv b1
    have lm := expandIfNeeded_idx_lt i0.1 (rehashStep_idx_lt hTf hinv ih2 b1) b2
    simp only [fillDict_rehashidx, fillDict_ht0, fillHt_size] at b3 b4
    intro hr
    rw [b3, b4]
    exact lm (b3 ▸ hr)
  | replace cr d d1 key val r hd hsz hop ih =>
    obtain ⟨hinv, hty⟩ := Reachable_fill hT hd
    have hTd : LawfulType d.type := hty ▸ hT
    have hTf : LawfulType (fillDict d).type := hTd
    have ih2 : (fillDict d).rehashidx ≠ -1 →
        (fillDict d).rehashidx < ((fillDict d).ht0.size : Int) := by simpa using ih
    obtain ⟨d2, r2, a1, _, _, _, ⟨d0, dm, b1, b2, b3, b4, _⟩, _⟩ :=
      dictReplace_spec cr (fillDict d) key val hTd hinv
        (entries_lt_of_dictSize hinv (by rw [dictSize_fillDict]; exact hsz))
    rw [dictReplace_fill hTd hinv hsz hop] at a1
    cases a1
    have i0 := rehashStep_inv_of_eq hTf hinv b1
    have lm := expandIfNeeded_idx_lt i0.1 (rehashStep_idx_lt hTf hinv ih2 b1) b2
    simp only [fillDict_rehashidx, fillDict_ht0, fillHt_size] at b3 b4
    intro hr
    rw [b3, b4]
    exact lm (b3 ▸ hr)
  | addOrFind cr d d1 key r hd hsz hop ih =>
    obtain ⟨hinv, hty⟩ := Reachable_fill hT hd
    have hTd : LawfulType d.type := hty ▸ hT
    have hTf : LawfulType (fillDict d).type := hTd
    have ih2 : (fillDict d).rehashidx ≠ -1 →
        (fillDict d).rehashidx < ((fillDict d).ht0.size : Int) := by simpa using ih
    obtain ⟨d3, e, ex, a1, _, _, _, _, d0, dm, b1, b2, b3, b4, _⟩ :=
      dictAddRaw_spec cr (fillDict d) key hTd hinv
        (entries_lt_of_dictSize hinv (by rw [dictSize_fillDict]; exact hsz))
    have i0 := rehashStep_inv_of_eq hTf hinv b1
    have lm := expandIfNeeded_idx_lt i0.1 (rehashStep_idx_lt hTf hinv ih2 b1) b2
    have hop2 := dictAddOrFind_fill hTd hinv hsz hop
    unfold dictAddOrFind at hop2
    rw [a1] at hop2
    have hd1 : fillDict d1 = d3 := by
      cases e with
      | none =>
        cases hop2
        rfl
      | some e1 =>
        cases hop2
        rfl
    subst hd1
    simp only [fillDict_rehashidx, fillDict_ht0, fillHt_size] at b3 b4
    intro hr
    rw [b3, b4]
    exact lm (b3 ▸ hr)
  | delete d d1 key r hd hop ih =>
    obtain ⟨hinv, hty⟩ := Reachable_fill hT hd
    have hTd : LawfulType d.type := hty ▸ hT
    have hTf : LawfulType (fillDict d).type := hTd
    have ih2 : (fillDict d).rehashidx ≠ -1 →
        (fillDict d).rehashidx < ((fillDict d).ht0.size : Int) := by simpa using ih
    obtain ⟨d2, r2, a1, _, _, _, a5⟩ := dictDelete_spec (fillDict d) key hTd hinv
    rw [dictDelete_fill hop] at a1
    cases a1
    have key2 : (fillDict d1).rehashidx ≠ -1 →
        (fillDict d1).rehashidx < ((fillDict d1).ht0.size : Int) := by
      rcases a5 with ⟨_, _, _, _, h1 | h1⟩ | ⟨he, _, _, _, _, _, d0, b1, b3, b4, _⟩
      · rw [h1]
        exact ih2
      · exact rehashStep_idx_lt hTf hinv ih2 h1
      · intro hr
        rw [b3, b4]
        exact rehashStep_idx_lt hTf hinv ih2 b1 (b3 ▸ hr)
    simpa using key2
  | unlink d d1 key r hd hop ih =>
    obtain ⟨hinv, hty⟩ := Reachable_fill hT hd
    have hTd : LawfulType d.type := hty ▸ hT
    have hTf : LawfulType (fillDict d).type := hTd
    have ih2 : (fillDict d).rehashidx ≠ -1 →
        (fillDict d).rehashidx < ((fillDict d).ht0.size : Int) := by simpa using ih
    obtain ⟨d2, r2, a1, _, _, _, a5⟩ := dictGenericDelete_spec (fillDict d) key true hTd hinv
    have hop2 := dictUnlink_fill hop
    unfold dictUnlink at hop2
    rw [hop2] at a1
    cases a1
    have key2 : (fillDict d1).rehashidx ≠ -1 →
        (fillDict d1).rehashidx < ((fillDict d1).ht0.size : Int) := by
      rcases a5 with ⟨_, _, _, _, h1 | h1⟩ | ⟨he, _, _, _, _, _, d0, b1, b3, b4, _⟩
      · rw [h1]
        exact ih2
      · exact rehashStep_idx_lt hTf hinv ih2 h1
      · intro hr
        rw [b3, b4]
        exact rehashStep_idx_lt hTf hinv ih2 b1 (b3 ▸ hr)
    simpa using key2
  | find d d1 key r hd hop ih =>
    obtain ⟨hinv, hty⟩ := Reachable_fill hT hd
    have hTd : LawfulType d.type := hty ▸ hT
    have hTf : LawfulType (fillDict d).type := hTd
    have ih2 : (fillDict d).rehashidx ≠ -1 →
        (fillDict d).rehashidx < ((fillDict d).ht0.size : Int) := by simpa using ih
    obtain ⟨d2, r2, a1, _, _, _, _, _, _, _, h1⟩ := dictFind_spec (fillDict d) key hTd hinv
    rw [dictFind_fill hop] at a1
    cases a1
    have key2 : (fillDict d1).rehashidx ≠ -1 →
        (fillDict d1).rehashidx < ((fillDict d1).ht0.size : Int) := by
      rcases h1 with h1 | h1
      · rw [h1]
        exact ih2
      · exact rehashStep_idx_lt hTf hinv ih2 h1
    simpa using key2
  | rehash d d1 n r hd hop ih =>
    obtain ⟨hinv, hty⟩ := Reachable_fill hT hd
    have hTd : LawfulType d.type := hty ▸ hT
    have hTf : LawfulType (fillDict d).type := hTd
    have key2 := dictRehash_idx_lt hTf hinv (dictRehash_fill hop)
    simpa using key2
  | expand d d1 size r hd hop ih =>
    obtain ⟨hinv, hty⟩ := Reachable_fill hT hd
    refine dictExpand_idx_lt (fun ht => ?_) ih hop
    have := (ht_size_of_alloc hinv.ok0 (fun hh => ht ((fillHt_table_none d.ht0).mp hh))).1
    simp only [fillDict_ht0, fillHt_size] at this
    omega
  | resize cr d d1 r hd hop ih =>
    obtain ⟨hinv, hty⟩ := Reachable_fill hT hd
    unfold dictResize at hop
    split at hop
    · cases hop
      exact ih
    · refine dictExpand_idx_lt (fun ht => ?_) ih hop
      have := (ht_size_of_alloc hinv.ok0 (fun hh => ht ((fillHt_table_none d.ht0).mp hh))).1
      simp only [fillDict_ht0, fillHt_size] at this
      omega
  | iterators d n hd ih => exact ih

/-! ## What a successful `dictAddRaw` does to the tables -/

/-- The function `dictAddRaw` on a key that is not present: after the rehash step and the
expansion check, the new entry is put in front of the chain of the bucket that the hash of the
key selects, in `ht[1]` when the dictionary is rehashing and in `ht[0]` otherwise. -/
theorem dictAddRaw_insert (cr : Bool) (d : dict) (key : Nat) (hT : LawfulType d.type)
    (hinv : Inv d) (hb : (dictEntries d).length < 576460752303423488)
    (hno : ∀ x, x ∈ dictEntries d → keyEq d.type key x.key = false) :
    ∃ (d1 d2 : dict) (t : Nat) (bs : List (List dictEntry)) (chain : List dictEntry),
      rehashStepIfRehashing d = some d1 ∧ Inv d1 ∧
      _dictExpandIfNeeded cr d1 = some (d2, DICT_OK) ∧ Inv d2 ∧ d2.type = d.type ∧
      (dictEntries d2).Perm (dictEntries d) ∧
      (t = 0 ∨ t = 1) ∧ (t = if dictIsRehashing d2 then 1 else 0) ∧
      (getHt d2 t).table = some bs ∧
      bs[dictHashKey d key &&& (getHt d2 t).sizemask]? = some chain ∧
      dictAddRaw cr d key =
        some (setHt d2 t
            { table := some (bs.set (dictHashKey d key &&& (getHt d2 t).sizemask)
                ({ key := dictSetKey d key, val := 0 } :: chain)),
              size := (getHt d2 t).size, sizemask := (getHt d2 t).sizemask,
              used := ((getHt d2 t).used + 1) % 18446744073709551616 },
          some ⟨t, dictHashKey d key &&& (getHt d2 t).sizemask, 0⟩, none) := by
  unfold dictAddRaw
  obtain ⟨d1, s1, s2, s3, s4, s5, s6, _, _, _⟩ := rehashStep_spec d hT hinv
  rw [s1]
  simp only []
  have hT1 : LawfulType d1.type := by rw [s3]; exact hT
  have hb1 : d1.ht0.used ≤ 576460752303423488 := by
    have h0 := s2.ok0.used_eq
    have hl := s6.length_eq
    rw [dictEntries, List.length_append] at hl
    omega
  obtain ⟨d2, idx, ex, k1, k2, k3, k4, k5, k6, k7, k8⟩ := dictKeyIndex_spec cr d1 key hT1 s2 hb1
  rw [k1]
  simp only []
  have hperm2 : (dictEntries d2).Perm (dictEntries d) := by rw [k6]; exact s6
  rcases k8 with ⟨r, he, h1, h2, h3, h4⟩ | ⟨h1, h2, t, bs, chain, ht, htr, htab, hbk, hidx⟩
  · exfalso
    have hmem : he ∈ dictEntries d := hperm2.subset (validRef_mem h3)
    have hf := hno he hmem
    rw [s3, hf] at h4
    cases h4
  · subst h1
    have hne1 : ¬ (idx = -1) := by omega
    have hnn : ¬ (idx < 0) := by omega
    rw [if_neg hne1, if_neg hnn]
    have hh : hashIdx d1.type (getHt d2 t) key = dictHashKey d key &&& (getHt d2 t).sizemask := by
      unfold hashIdx dictHashKey
      rw [s3]
    have hidxn : idx.toNat = dictHashKey d key &&& (getHt d2 t).sizemask := by omega
    rw [hh] at hbk
    rw [← htr, hidxn]
    have hilt := lt_of_getElem?_eq_some hbk
    rw [bucketGet_eq htab, hbk]
    simp only []
    rw [bucketSet_eq htab hilt]
    simp only []
    have hsk : dictSetKey d2 key = dictSetKey d key := by
      unfold dictSetKey
      rw [k3, s3]
    rw [hsk]
    exact ⟨d1, d2, t, bs, chain, rfl, s2, k7, k2, k3.trans s3, hperm2, ht, htr, htab, hbk, rfl⟩

/-- A call of `dictRehash` that leaves the dictionary rehashing has not added to `ht[0]`. -/
theorem dictRehash_used_le {d d1 : dict} {n : Int} {r : Nat} (hT : LawfulType d.type)
    (hinv : Inv d) (h : dictRehash d n = some (d1, r)) (hr1 : d1.rehashidx ≠ -1) :
    d1.ht0.used ≤ d.ht0.used := by
  unfold dictRehash at h
  by_cases hr : d.rehashidx = -1
  · have hnr : dictIsRehashing d = false := by simp [dictIsRehashing, hr]
    simp only [hnr, Bool.not_false, if_true] at h
    cases h
    exact le_refl _
  · have hre : dictIsRehashing d = true := (dictIsRehashing_iff d).mpr hr
    simp only [hre, Bool.not_true, Bool.false_eq_true, if_false] at h
    have h0 := hinv.idx_nonneg hr
    obtain ⟨d2, b, l1, _, _, _, _, _, _, _, _, _, _, _, _, _, _, l16, _⟩ :=
      dictRehashLoop_spec (d.ht0.size + 1) d n (wrapInt (n * 10)) hT hinv hr
        (by push_cast; omega)
    rw [l1] at h
    cases b with
    | true =>
      cases h
      exact l16
    | false =>
      simp only [] at h
      split at h
      · cases h
        exact absurd rfl hr1
      · cases h
        exact l16

theorem rehashStep_used_le {d d1 : dict} (hT : LawfulType d.type) (hinv : Inv d)
    (h : rehashStepIfRehashing d = some d1) (hr1 : d1.rehashidx ≠ -1) :
    d1.ht0.used ≤ d.ht0.used := by
  unfold rehashStepIfRehashing _dictRehashStep at h
  split at h
  · split at h
    · obtain ⟨p, hp, hp2⟩ := Option.map_eq_some'.mp h
      subst hp2
      exact dictRehash_used_le hT hinv (show dictRehash d 1 = some (p.1, p.2) from hp) hr1
    · cases h
      exact le_refl _
  · cases h
    exact le_refl _

theorem entries_lt_of_size62 {d : dict} (hinv : Inv d)
    (h : dictSize d < 576460752303423488) :
    (dictEntries d).length < 576460752303423488 := by
  rw [← dictSize_eq hinv]
  exact h

/-! ## Test data is reachable -/

theorem addKeys_reachable {T : dictType} (hT : LawfulType T) (cr : Bool) :
    ∀ (ks : List Nat) (d d1 : dict) (rs : List Nat), Reachable T d →
      dictSize d + ks.length ≤ ENTRY_LIMIT → addKeys cr d ks = some (d1, rs) →
      Reachable T d1 := by
  intro ks
  induction ks with
  | nil =>
    intro d d1 rs h _ hk
    cases hk
    exact h
  | cons k ks ih =>
    intro d d1 rs h hsz hk
    obtain ⟨hinv, hty⟩ := Reachable_fill hT h
    have hTd : LawfulType d.type := hty ▸ hT
    have hlt : dictSize d < ENTRY_LIMIT := by
      rw [List.length_cons] at hsz
      omega
    unfold addKeys at hk
    cases ha : dictAdd cr d k (10 * k) with
    | none =>
      rw [ha] at hk
      cases hk
    | some p0 =>
      obtain ⟨d2, r⟩ := p0
      rw [ha] at hk
      obtain ⟨d2f, rf, a1, a2, _, _, _, a6⟩ :=
        dictAdd_spec cr (fillDict d) k (10 * k) hTd hinv
          (entries_lt_of_dictSize hinv (by rw [dictSize_fillDict]; exact hlt))
      rw [dictAdd_fill hTd hinv hlt ha] at a1
      cases a1
      have hr2 : Reachable T d2 := Reachable.add cr d d2 k (10 * k) r h hlt ha
      have hlen : dictSize d2 ≤ dictSize d + 1 := by
        have e1 := dictSize_eq a2
        have e2 := dictSize_eq hinv
        simp only [dictSize_fillDict] at e1 e2
        rw [e1, e2]
        rcases a6 with ⟨_, _, hp, _⟩ | ⟨_, _, hp, _⟩
        · rw [hp.length_eq]
          omega
        · rw [hp.length_eq, List.length_cons]
      simp only [] at hk
      generalize hg : addKeys cr d2 ks = o at hk
      cases o with
      | none => cases hk
      | some p =>
        obtain ⟨d3, rs3⟩ := p
        simp only [Option.some.injEq, Prod.mk.injEq] at hk
        obtain ⟨rfl, _⟩ := hk
        refine ih d2 d3 rs3 hr2 ?_ hg
        rw [List.length_cons] at hsz
        omega

theorem sparseTable_reachable (ks : List Nat) (size : Nat) (hk : ks.length ≤ ENTRY_LIMIT) :
    Reachable identityType (sparseTable ks size) := by
  have h0 : Reachable identityType (match addKeys true (dictCreate identityType) ks with
      | some (d, _) => d
      | none => dictCreate identityType) := by
    generalize hg : addKeys true (dictCreate identityType) ks = o
    cases o with
    | none => exact Reachable.create
    | some p =>
      exact addKeys_reachable identityType_lawful true ks _ p.1 p.2 Reachable.create
        (by
          have : dictSize (dictCreate identityType) = 0 := rfl
          omega) hg
  have step : ∀ (d : dict) (n : Int), Reachable identityType d →
      Reachable identityType (match dictRehash d n with
        | some (d1, _) => d1
        | none => d) := by
    intro d n h
    generalize hg : dictRehash d n = o
    cases o with
    | none => exact h
    | some p => exact Reachable.rehash d p.1 n p.2 h hg
  have h1 := step _ 100 h0
  have h2 : ∀ (d : dict), Reachable identityType d →
      Reachable identityType (match dictExpand d size with
        | some (d1, _) => d1
        | none => d) := by
    intro d h
    generalize hg : dictExpand d size = o
    cases o with
    | none => exact h
    | some p => exact Reachable.expand d p.1 size p.2 h hg
  exact step _ 100 (h2 _ h1)

theorem sparseDict_reachable : Reachable identityType sparseDict :=
  sparseTable_reachable [0, 1, 2, 3, 4] 16 (by decide)

/-! ## The reversed low bits of the scan cursor -/

theorem revBits_lt (k x : Nat) : revBits k x < 2 ^ k := by
  induction k generalizing x with
  | zero => simp [revBits]
  | succ k ih =>
    unfold revBits
    have h1 := ih (x / 2)
    have h2 : x % 2 < 2 := Nat.mod_lt _ (by norm_num)
    have h3 : x % 2 * 2 ^ k ≤ 1 * 2 ^ k := Nat.mul_le_mul_right _ (by omega)
    rw [Nat.pow_succ]
    omega

theorem revBits_testBit (k x i : Nat) (hi : i < k) :
    (revBits k x).testBit i = x.testBit (k - 1 - i) := by
  induction k generalizing x i with
  | zero => omega
  | succ k ih =>
    unfold revBits
    rw [Nat.mul_comm, Nat.testBit_mul_pow_two_add _ (revBits_lt k (x / 2))]
    by_cases hik : i < k
    · rw [if_pos hik, ih (x / 2) i hik, ← Nat.testBit_succ]
      congr 1
      omega
    · rw [if_neg hik]
      have h1 : i - k = 0 := by omega
      have h2 : k + 1 - 1 - i = 0 := by omega
      rw [h1, h2, Nat.testBit_zero, Nat.testBit_zero, Nat.mod_mod]

theorem revBits_revBits (k x : Nat) (hx : x < 2 ^ k) : revBits k (revBits k x) = x := by
  apply Nat.eq_of_testBit_eq
  intro i
  by_cases hi : i < k
  · rw [revBits_testBit k _ i hi, revBits_testBit k _ _ (by omega)]
    congr 1
    omega
  · have hp : 2 ^ k ≤ 2 ^ i := Nat.pow_le_pow_right (by norm_num) (by omega)
    rw [Nat.testBit_lt_two_pow (lt_of_lt_of_le (revBits_lt k _) hp),
      Nat.testBit_lt_two_pow (lt_of_lt_of_le hx hp)]

/-- The `k` high bits of the reversal of `v` are the `k` low bits of `v` in reversed order. -/
theorem bitrev_div_eq (v k : Nat) (hk : k ≤ 64) :
    bitrev v / 2 ^ (64 - k) = revBits k (v % 2 ^ k) := by
  apply Nat.eq_of_testBit_eq
  intro i
  rw [← Nat.shiftRight_eq_div_pow, Nat.testBit_shiftRight]
  by_cases hi : i < k
  · rw [bitrev_testBit _ _ (by omega), revBits_testBit k _ i hi, Nat.testBit_mod_two_pow]
    have h1 : 63 - (64 - k + i) = k - 1 - i := by omega
    have h2 : k - 1 - i < k := by omega
    rw [h1]
    simp [h2]
  · have hp : 2 ^ k ≤ 2 ^ i := Nat.pow_le_pow_right (by norm_num) (by omega)
    rw [testBit_of_lt_64 (bitrev_lt v) (by omega),
      Nat.testBit_lt_two_pow (lt_of_lt_of_le (revBits_lt k _) hp)]

/-- The reversal of a number that has only its `k` high bits set. -/
theorem bitrev_scaled (b k : Nat) (hk : k ≤ 64) :
    bitrev (b * 2 ^ (64 - k)) = revBits k b := by
  have hlt : revBits k b < 18446744073709551616 := by
    have h1 := revBits_lt k b
    have h2 : 2 ^ k ≤ 2 ^ 64 := Nat.pow_le_pow_right (by norm_num) hk
    rw [two_pow_64] at h2
    omega
  apply eq_of_testBit_64 (bitrev_lt _) hlt
  intro i hi
  rw [bitrev_testBit _ i hi, ← Nat.shiftLeft_eq, Nat.testBit_shiftLeft]
  by_cases hik : i < k
  · rw [revBits_testBit k b i hik]
    have h1 : 63 - i ≥ 64 - k := by omega
    have h2 : 63 - i - (64 - k) = k - 1 - i := by omega
    rw [h2]
    simp [h1]
  · have hp : 2 ^ k ≤ 2 ^ i := Nat.pow_le_pow_right (by norm_num) (by omega)
    rw [Nat.testBit_lt_two_pow (lt_of_lt_of_le (revBits_lt k _) hp)]
    have h1 : ¬ 63 - i ≥ 64 - k := by omega
    simp [h1]

/-- The cursor that `dictScan` returns under a mask of `k` bits, in terms of the low `k` bits
of the cursor it was called with. -/
theorem scanNext_eq (v k : Nat) (hk : k ≤ 64) :
    bitrev (nextRev k (bitrev v)) = revBits k ((revBits k (v % 2 ^ k) + 1) % 2 ^ k) := by
  have ha := revBits_lt k (v % 2 ^ k)
  have hpos : 0 < 2 ^ k := by positivity
  have hn : nextRev k (bitrev v) =
      (revBits k (v % 2 ^ k) + 1) % 2 ^ k * 2 ^ (64 - k) := by
    unfold nextRev
    rw [bitrev_div_eq v k hk]
    by_cases hlast : revBits k (v % 2 ^ k) + 1 = 2 ^ k
    · rw [hlast, pow_full k hk, Nat.mod_self, Nat.mod_self, Nat.zero_mul]
    · have hlt : revBits k (v % 2 ^ k) + 1 < 2 ^ k := by omega
      rw [Nat.mod_eq_of_lt hlt]
      apply Nat.mod_eq_of_lt
      rw [← pow_full k hk]
      exact Nat.mul_lt_mul_of_pos_right hlt (by positivity)
  rw [hn]
  exact bitrev_scaled _ k hk

theorem bucketCalls_entries (chain : List dictEntry) :
    bucketCalls (chain.map ScanCall.entry) = [] := by
  induction chain with
  | nil => rfl
  | cons e es ih =>
    unfold bucketCalls at ih ⊢
    rw [List.map_cons, List.filterMap_cons]
    exact ih

theorem bucketCalls_append (a b : List ScanCall) :
    bucketCalls (a ++ b) = bucketCalls a ++ bucketCalls b := by
  unfold bucketCalls
  exact List.filterMap_append _ _ _

/-- A pass of `dictScan` over a stable table of `2 ^ k` buckets with the bucket callback set:
from the cursor whose reversed low bits are `a`, it takes `2 ^ k - a` calls and visits the
buckets `revBits k a`, `revBits k (a + 1)`, ... in this order. -/
theorem scanPass_buckets {d : dict} (hinv : Inv d) (hr : d.rehashidx = -1)
    (hne : dictSize d ≠ 0) {k : Nat} (hk : k ≤ 63) (hsz : d.ht0.size = 2 ^ k) :
    ∀ (m a v : Nat), a + m = 2 ^ k → 0 < m → bitrev v = a * 2 ^ (64 - k) →
      ∃ calls, (∀ fuel, m ≤ fuel → scanPass d true fuel v = some (calls, m)) ∧
        bucketCalls calls = (List.range' a m).map (revBits k) := by
  have hm : d.ht0.sizemask = 2 ^ k - 1 := by rw [hinv.ok0.mask_eq, hsz]
  intro m
  induction m with
  | zero =>
    intro a v _ h0
    omega
  | succ m ih =>
    intro a v ham _ hv
    obtain ⟨chain, _, e1⟩ := dictScan_stable hinv hr hne hk hsz true v
    simp only [if_true] at e1
    have hidx : v &&& d.ht0.sizemask = revBits k a := by
      rw [hm, Nat.and_pow_two_sub_one_eq_mod]
      have h1 := bitrev_div_eq v k (by omega)
      rw [hv, Nat.mul_div_cancel _ (by positivity)] at h1
      rw [h1, revBits_revBits k _ (Nat.mod_lt _ (by positivity))]
    have hb0 : bucketCalls ([ScanCall.bucket 0 (v &&& d.ht0.sizemask)] ++
        chain.map ScanCall.entry) = [revBits k a] := by
      rw [bucketCalls_append, bucketCalls_entries, hidx]
      rfl
    rw [hv] at e1
    by_cases hlast : m = 0
    · subst hlast
      rw [nextRev_mul_last k a (by omega) (by omega), bitrev_zero] at e1
      refine ⟨_, ?_, hb0⟩
      intro fuel hfuel
      obtain ⟨fuel1, rfl⟩ : ∃ f, fuel = f + 1 := ⟨fuel - 1, by omega⟩
      unfold scanPass
      rw [e1]
      simp only [if_true]
    · obtain ⟨n1, n2⟩ := nextRev_mul_lt k a (by omega) (by omega : a + 1 < 2 ^ k)
      have hnz : bitrev (nextRev k (a * 2 ^ (64 - k))) ≠ 0 := by
        intro hz
        have := bitrev_eq_zero (nextRev_lt _ _) hz
        omega
      have hv1 : bitrev (bitrev (nextRev k (a * 2 ^ (64 - k)))) = (a + 1) * 2 ^ (64 - k) := by
        rw [bitrev_nextRev, n1]
      obtain ⟨calls1, f1, f2⟩ := ih (a + 1) _ (by omega) (by omega) hv1
      refine ⟨([ScanCall.bucket 0 (v &&& d.ht0.sizemask)] ++ chain.map ScanCall.entry) ++
        calls1, ?_, ?_⟩
      · intro fuel hfuel
        obtain ⟨fuel1, rfl⟩ : ∃ f, fuel = f + 1 := ⟨fuel - 1, by omega⟩
        unfold scanPass
        rw [e1]
        simp only []
        rw [if_neg hnz, f1 fuel1 (by omega)]
      · rw [bucketCalls_append, hb0, f2, List.range'_succ, List.map_cons]
        rfl

/-- The reversal of the low bits permutes the numbers below `2 ^ k`. -/
theorem revBits_perm (k : Nat) :
    ((List.range (2 ^ k)).map (revBits k)).Perm (List.range (2 ^ k)) := by
  rw [List.perm_ext_iff_of_nodup _ (List.nodup_range _)]
  · intro a
    rw [List.mem_map, List.mem_range]
    constructor
    · rintro ⟨j, _, rfl⟩
      exact revBits_lt k j
    · intro ha
      exact ⟨revBits k a, List.mem_range.mpr (revBits_lt k a), revBits_revBits k a ha⟩
  · apply List.Nodup.map_on _ (List.nodup_range _)
    intro x hx y hy hxy
    rw [List.mem_range] at hx hy
    rw [← revBits_revBits k x hx, ← revBits_revBits k y hy, hxy]

/-! ## Counting the buckets that a rehash visits -/

theorem countP_range_split (p : Nat → Bool) {lo mid hi : Nat} (h1 : lo ≤ mid) (h2 : mid ≤ hi) :
    (List.range' lo (hi - lo)).countP p =
      (List.range' lo (mid - lo)).countP p + (List.range' mid (hi - mid)).countP p := by
  have h3 : hi - lo = (hi - mid) + (mid - lo) := by omega
  have h4 : mid = lo + (mid - lo) := by omega
  rw [h3, ← List.range'_append_1, List.countP_append, ← h4]

theorem emptyBuckets_split (bs : List (List dictEntry)) {lo mid hi : Nat} (h1 : lo ≤ mid)
    (h2 : mid ≤ hi) :
    emptyBuckets bs lo hi = emptyBuckets bs lo mid + emptyBuckets bs mid hi :=
  countP_range_split _ h1 h2

theorem filledBuckets_split (bs : List (List dictEntry)) {lo mid hi : Nat} (h1 : lo ≤ mid)
    (h2 : mid ≤ hi) :
    filledBuckets bs lo hi = filledBuckets bs lo mid + filledBuckets bs mid hi :=
  countP_range_split _ h1 h2

theorem buckets_all_empty (bs : List (List dictEntry)) {lo hi : Nat} (h1 : lo ≤ hi)
    (h : ∀ i, lo ≤ i → i < hi → bs[i]? = some []) :
    emptyBuckets bs lo hi = hi - lo ∧ filledBuckets bs lo hi = 0 := by
  unfold emptyBuckets filledBuckets
  constructor
  · rw [List.countP_eq_length.mpr, List.length_range']
    intro i hi2
    rw [List.mem_range'_1] at hi2
    rw [h i hi2.1 (by omega)]
    simp
  · rw [List.countP_eq_zero]
    intro i hi2
    rw [List.mem_range'_1] at hi2
    rw [h i hi2.1 (by omega)]
    simp

theorem buckets_one_filled (bs : List (List dictEntry)) {i : Nat} {e : dictEntry}
    {chain : List dictEntry} (h : bs[i]? = some (e :: chain)) :
    emptyBuckets bs i (i + 1) = 0 ∧ filledBuckets bs i (i + 1) = 1 := by
  unfold emptyBuckets filledBuckets
  have h1 : i + 1 - i = 1 := by omega
  rw [h1]
  simp [List.range', h]

theorem buckets_congr (bs bs1 : List (List dictEntry)) (lo hi : Nat)
    (h : ∀ i, lo ≤ i → bs1[i]? = bs[i]?) :
    emptyBuckets bs1 lo hi = emptyBuckets bs lo hi ∧
      filledBuckets bs1 lo hi = filledBuckets bs lo hi := by
  unfold emptyBuckets filledBuckets
  constructor
  · apply List.countP_congr
    intro i hi2
    rw [List.mem_range'_1] at hi2
    rw [h i hi2.1]
  · apply List.countP_congr
    intro i hi2
    rw [List.mem_range'_1] at hi2
    rw [h i hi2.1]

theorem rehashMoveChain_ht0 :
    ∀ (chain : List dictEntry) (d d1 : dict), rehashMoveChain d chain = some d1 →
      d1.ht0.table = d.ht0.table ∧ d1.rehashidx = d.rehashidx := by
  intro chain
  induction chain with
  | nil =>
    intro d d1 h
    cases h
    exact ⟨rfl, rfl⟩
  | cons de next ih =>
    intro d d1 h
    unfold rehashMoveChain at h
    simp only [] at h
    generalize bucketGet d.ht1 (dictHashKey d de.key &&& d.ht1.sizemask) = o at h
    cases o with
    | none => cases h
    | some old =>
      simp only [] at h
      generalize bucketSet d.ht1 (dictHashKey d de.key &&& d.ht1.sizemask) (de :: old) = o2 at h
      cases o2 with
      | none => cases h
      | some t1 =>
        simp only [] at h
        have h2 := ih _ d1 h
        exact h2

/-- The inner loop of `dictRehash` counts: it passes `c` empty buckets and either stops because
these were the last `empty_visits` ones, or finds a non-empty bucket with `empty_visits - c`
visits left. -/
theorem rehashSkipEmpty_count :
    ∀ (fuel : Nat) (d d1 : dict) (ev : Int) (r : Option Int) (bs : List (List dictEntry))
      (lo : Nat), d.ht0.table = some bs → d.rehashidx = (lo : Int) → 1 ≤ ev →
      ev ≤ 2147483647 → rehashSkipEmpty fuel d ev = some (d1, r) →
      ∃ c : Nat, d1.ht0.table = some bs ∧ d1.rehashidx = ((lo + c : Nat) : Int) ∧
        d1.ht0.used = d.ht0.used ∧
        (∀ i, lo ≤ i → i < lo + c → bs[i]? = some []) ∧
        ((r = none ∧ (c : Int) = ev) ∨
          (∃ ev1 e chain, r = some ev1 ∧ ev1 = ev - c ∧ 1 ≤ ev1 ∧
            bs[lo + c]? = some (e :: chain))) := by
  intro fuel
  induction fuel with
  | zero =>
    intro d d1 ev r bs lo _ _ _ _ h
    cases h
  | succ fuel ih =>
    intro d d1 ev r bs lo htab hidx hev1 hev2 h
    unfold rehashSkipEmpty at h
    have hnn : ¬ d.rehashidx < 0 := by omega
    have htn : d.rehashidx.toNat = lo := by omega
    rw [if_neg hnn, bucketGet_eq htab, htn] at h
    generalize hb : bs[lo]? = o at h
    rcases o with _ | ⟨_ | ⟨e, chain⟩⟩
    · cases h
    · simp only [] at h
      have hw : wrapInt (ev - 1) = ev - 1 := wrapInt_eq (by omega) (by omega)
      rw [hw] at h
      clear hw
      by_cases hz : ev - 1 = 0
      · rw [if_pos hz] at h
        simp only [Option.some.injEq, Prod.mk.injEq] at h
        obtain ⟨rfl, rfl⟩ := h
        refine ⟨1, htab, ?_, rfl, ?_, Or.inl ⟨rfl, ?_⟩⟩
        · show d.rehashidx + 1 = _
          rw [hidx]
          push_cast
          rfl
        · intro i h1 h2
          have : i = lo := by omega
          rw [this, hb]
        · push_cast
          omega
      · rw [if_neg hz] at h
        obtain ⟨c, c1, c2, c3, c4, c5⟩ :=
          ih { d with rehashidx := d.rehashidx + 1 } d1 (ev - 1) r bs (lo + 1) htab
            (by
              show d.rehashidx + 1 = _
              rw [hidx]
              push_cast
              rfl) (by omega) (by omega) h
        refine ⟨c + 1, c1, ?_, c3, ?_, ?_⟩
        · rw [c2]
          congr 1
          omega
        · intro i h1 h2
          by_cases hil : i = lo
          · rw [hil, hb]
          · exact c4 i (by omega) (by omega)
        · rcases c5 with ⟨r1, r2⟩ | ⟨ev1, e, chain, r1, r2, r3, r4⟩
          · refine Or.inl ⟨r1, ?_⟩
            push_cast
            omega
          · refine Or.inr ⟨ev1, e, chain, r1, ?_, r3, ?_⟩
            · push_cast
              omega
            · rw [← r4]
              congr 1
              omega
    · simp only [Option.some.injEq, Prod.mk.injEq] at h
      obtain ⟨rfl, rfl⟩ := h
      refine ⟨0, htab, hidx, rfl, ?_, Or.inr ⟨ev, e, chain, rfl, ?_, hev1, hb⟩⟩
      · intro i h1 h2
        omega
      · push_cast
        omega

/-- The outer loop of `dictRehash` counts: with `M` the number of non-empty and `E` the number
of empty buckets of the table at entry between the rehash index at entry and at exit, it
leaves through the `return 1` of the inner loop exactly with `E = empty_visits` (and then
`M < n`), and otherwise ends with `M = n` or with `ht[0].used = 0`. -/
theorem dictRehashLoop_count :
    ∀ (fuel : Nat) (d d1 : dict) (n ev : Int) (b : Bool) (bs : List (List dictEntry))
      (lo : Nat), d.ht0.table = some bs → d.rehashidx = (lo : Int) → 0 ≤ n →
      n ≤ 2147483647 → 1 ≤ ev → ev ≤ 2147483647 →
      dictRehashLoop fuel d n ev = some (d1, b) →
      ∃ hi : Nat, d1.rehashidx = (hi : Int) ∧ lo ≤ hi ∧
        ((b = true ∧ (filledBuckets bs lo hi : Int) < n ∧
            (emptyBuckets bs lo hi : Int) = ev) ∨
          (b = false ∧ (emptyBuckets bs lo hi : Int) < ev ∧
            ((filledBuckets bs lo hi : Int) = n ∨
              ((filledBuckets bs lo hi : Int) ≤ n ∧ d1.ht0.used = 0)))) := by
  intro fuel
  induction fuel with
  | zero =>
    intro d d1 n ev b bs lo _ _ _ _ _ _ h
    cases h
  | succ fuel ih =>
    intro d d1 n ev b bs lo htab hidx hn0 hn2 hev1 hev2 h
    unfold dictRehashLoop at h
    have hself := buckets_all_empty bs (le_refl lo) (fun i h1 h2 => absurd h1 (by omega))
    by_cases hc : n ≠ 0 ∧ d.ht0.used ≠ 0
    · rw [if_pos hc] at h
      split at h
      · generalize hs : rehashSkipEmpty (d.ht0.size + 1) d ev = o at h
        rcases o with _ | ⟨dS, _ | ev1⟩
        · cases h
        · simp only [Option.some.injEq, Prod.mk.injEq] at h
          obtain ⟨rfl, rfl⟩ := h
          obtain ⟨c, c1, c2, c3, c4, c5⟩ :=
            rehashSkipEmpty_count _ d dS ev none bs lo htab hidx hev1 hev2 hs
          rcases c5 with ⟨_, r2⟩ | ⟨ev1, e, chain, r1, _⟩
          · obtain ⟨a1, a2⟩ := buckets_all_empty bs (Nat.le_add_right lo c) c4
            refine ⟨lo + c, c2, Nat.le_add_right lo c, Or.inl ⟨rfl, ?_, ?_⟩⟩
            · rw [a2]
              push_cast
              omega
            · rw [a1, ← r2]
              congr 1
              omega
          · cases r1
        · obtain ⟨c, c1, c2, c3, c4, c5⟩ :=
            rehashSkipEmpty_count _ d dS ev (some ev1) bs lo htab hidx hev1 hev2 hs
          rcases c5 with ⟨r1, _⟩ | ⟨ev2, e, chain, r1, r2, r3, r4⟩
          · cases r1
          · cases r1
            simp only [] at h
            have htn : dS.rehashidx.toNat = lo + c := by omega
            rw [bucketGet_eq c1, htn, r4] at h
            simp only [] at h
            generalize hmv : rehashMoveChain dS (e :: chain) = o2 at h
            cases o2 with
            | none => cases h
            | some d2 =>
              simp only [] at h
              obtain ⟨m1, m2⟩ := rehashMoveChain_ht0 _ dS d2 hmv
              have htab2 : d2.ht0.table = some bs := by rw [m1, c1]
              have htn2 : d2.rehashidx.toNat = lo + c := by omega
              have hlt := lt_of_getElem?_eq_some r4
              rw [htn2, bucketSet_eq htab2 hlt] at h
              simp only [] at h
              obtain ⟨hi, i1, i2, i3⟩ :=
                ih { d2 with ht0 := { d2.ht0 with table := some (bs.set (lo + c) []) },
                             rehashidx := d2.rehashidx + 1 } d1 (wrapInt (n - 1)) ev1 b
                  (bs.set (lo + c) []) (lo + c + 1) rfl
                  (by
                    show d2.rehashidx + 1 = _
                    rw [m2, c2]
                    push_cast
                    rfl)
                  (by rw [wrapInt_eq (by omega) (by omega)]; omega)
                  (by rw [wrapInt_eq (by omega) (by omega)]; omega) r3 (by omega) h
              have hwn : wrapInt (n - 1) = n - 1 := wrapInt_eq (by omega) (by omega)
              rw [hwn] at i3
              clear hwn
              obtain ⟨g1, g2⟩ := buckets_congr bs (bs.set (lo + c) []) (lo + c + 1) hi
                (fun i hi2 => List.getElem?_set_ne (by omega))
              rw [g1, g2] at i3
              obtain ⟨a1, a2⟩ := buckets_all_empty bs (Nat.le_add_right lo c) c4
              obtain ⟨b1, b2⟩ := buckets_one_filled bs r4
              have hE : emptyBuckets bs lo hi = c + emptyBuckets bs (lo + c + 1) hi := by
                rw [emptyBuckets_split bs (Nat.le_add_right lo c) (by omega : lo + c ≤ hi),
                  emptyBuckets_split bs (by omega : lo + c ≤ lo + c + 1) i2, a1, b1]
                omega
              have hM : filledBuckets bs lo hi = 1 + filledBuckets bs (lo + c + 1) hi := by
                rw [filledBuckets_split bs (Nat.le_add_right lo c) (by omega : lo + c ≤ hi),
                  filledBuckets_split bs (by omega : lo + c ≤ lo + c + 1) i2, a2, b2]
                omega
              refine ⟨hi, i1, by omega, ?_⟩
              rw [hE, hM]
              push_cast
              rcases i3 with ⟨j1, j2, j3⟩ | ⟨j1, j2, j3⟩
              · exact Or.inl ⟨j1, by omega, by omega⟩
              · refine Or.inr ⟨j1, by omega, ?_⟩
                rcases j3 with j3 | ⟨j3, j4⟩
                · exact Or.inl (by omega)
                · exact Or.inr ⟨by omega, j4⟩
      · cases h
    · rw [if_neg hc] at h
      simp only [Option.some.injEq, Prod.mk.injEq] at h
      obtain ⟨rfl, rfl⟩ := h
      refine ⟨lo, hidx, le_refl lo, Or.inr ⟨rfl, ?_, ?_⟩⟩
      · rw [hself.1]
        omega
      · rw [hself.2]
        by_cases hn : n = 0
        · exact Or.inl (by rw [hn]; rfl)
        · refine Or.inr ⟨by push_cast; omega, ?_⟩
          by_contra hu
          exact hc ⟨hn, hu⟩

theorem gapDict_reachable : Reachable identityType gapDict := by
  have h0 := sparseTable_reachable [5, 31] 32 (by decide)
  unfold gapDict
  generalize hg : dictExpand (sparseTable [5, 31] 32) 64 = o
  cases o with
  | none => exact h0
  | some p => exact Reachable.expand _ p.1 64 p.2 h0 hg

/-! ## localtime.c -/

theorem is_leap_year_eq (y : Int) (hy : 0 ≤ y) :
    is_leap_year y = if gregorianLeap y then 1 else 0 := by
  unfold is_leap_year gregorianLeap
  rw [Int.tmod_eq_emod hy (by norm_num), Int.tmod_eq_emod hy (by norm_num),
    Int.tmod_eq_emod hy (by norm_num)]
  by_cases h4 : y % 4 = 0
  · by_cases h100 : y % 100 = 0
    · by_cases h400 : y % 400 = 0
      · simp [h4, h100, h400]
      · simp [h4, h100, h400]
    · have h400 : ¬ y % 400 = 0 := by omega
      simp [h4, h100, h400]
  · have h400 : ¬ y % 400 = 0 := by omega
    simp [h4, h400]

theorem yearLength_eq (y : Int) (hy : 0 ≤ y) : yearLength y = 365 + is_leap_year y := by
  rw [is_leap_year_eq y hy]
  unfold yearLength
  split <;> rfl

theorem daysBeforeYear_succ (k : Nat) :
    daysBeforeYear (1970 + ((k + 1 : Nat) : Int)) =
      daysBeforeYear (1970 + (k : Int)) + yearLength (1970 + (k : Int)) := by
  unfold daysBeforeYear
  have h1 : ((1970 : Int) + ((k + 1 : Nat) : Int) - 1970).toNat = k + 1 := by
    push_cast
    omega
  have h2 : ((1970 : Int) + (k : Int) - 1970).toNat = k := by omega
  rw [h1, h2, List.range_succ, List.map_append, List.sum_append]
  simp

/-- The days before a year in closed form: 365 days for every year since 1970 and one day more
for every leap year among them. -/
theorem daysBeforeYear_closed (k : Nat) :
    daysBeforeYear (1970 + (k : Int)) =
      365 * (k : Int) +
        ((1969 + (k : Int)) / 4 - (1969 + (k : Int)) / 100 + (1969 + (k : Int)) / 400) - 477 := by
  induction k with
  | zero =>
    unfold daysBeforeYear
    simp
  | succ k ih =>
    rw [daysBeforeYear_succ, ih]
    unfold yearLength gregorianLeap
    push_cast
    by_cases h4 : (1970 + (k : Int)) % 4 = 0
    · by_cases h100 : (1970 + (k : Int)) % 100 = 0
      · by_cases h400 : (1970 + (k : Int)) % 400 = 0
        · simp only [h4, h100, h400]
          simp
          omega
        · simp only [h4, h100, h400]
          simp
          omega
      · have h400 : ¬ (1970 + (k : Int)) % 400 = 0 := by omega
        simp only [h4, h100, h400]
        simp
        omega
    · have h400 : ¬ (1970 + (k : Int)) % 400 = 0 := by omega
      simp only [h4, h400]
      simp
      omega

theorem yearLength_cases (y : Int) : yearLength y = 365 ∨ yearLength y = 366 := by
  unfold yearLength
  split
  · exact Or.inr rfl
  · exact Or.inl rfl

theorem daysBeforeYear_nonneg (k : Nat) : 0 ≤ daysBeforeYear (1970 + (k : Int)) := by
  rw [daysBeforeYear_closed]
  omega

/-- A year that starts before the first day of the year 2147483648 fits in an `int`. -/
theorem year_le_of_days (k : Nat) (h : daysBeforeYear (1970 + (k : Int)) < 784351576777) :
    1970 + (k : Int) ≤ 2147483647 := by
  rw [daysBeforeYear_closed] at h
  omega

/-- The year loop of `nolocks_localtime`, for days before the first day of the year
2147483648: with enough fuel it ends at the year that contains the day. -/
theorem yearLoop_spec :
    ∀ (fuel k : Nat) (days : Int), 0 ≤ days → days < (fuel : Int) →
      daysBeforeYear (1970 + (k : Int)) + days < 784351576777 →
      ∃ (k1 : Nat) (days1 : Int),
        yearLoop fuel (1970 + (k : Int)) days = some (1970 + (k1 : Int), days1) ∧
        0 ≤ days1 ∧ days1 < yearLength (1970 + (k1 : Int)) ∧
        daysBeforeYear (1970 + (k1 : Int)) + days1 =
          daysBeforeYear (1970 + (k : Int)) + days ∧
        1970 + (k1 : Int) ≤ 2147483647 := by
  intro fuel
  induction fuel with
  | zero =>
    intro k days h0 h1 _
    exfalso
    have h2 : ((0 : Nat) : Int) = 0 := rfl
    rw [h2] at h1
    exact absurd h0 (not_le.mpr h1)
  | succ fuel ih =>
    intro k days h0 h1 hlim
    have hnn := daysBeforeYear_nonneg k
    have hyk : 1970 + (k : Int) ≤ 2147483647 :=
      year_le_of_days k (lt_of_le_of_lt (le_add_of_nonneg_right h0) hlim)
    have hyl := yearLength_eq (1970 + (k : Int)) (by linarith)
    have hcases := yearLength_cases (1970 + (k : Int))
    have hyl1 : 1 ≤ yearLength (1970 + (k : Int)) := by
      rcases hcases with h | h <;> rw [h] <;> norm_num
    unfold yearLoop
    simp only []
    rw [← hyl]
    by_cases hbr : yearLength (1970 + (k : Int)) > days
    · rw [if_pos hbr]
      exact ⟨k, days, rfl, h0, hbr, rfl, hyk⟩
    · rw [if_neg hbr]
      have hge : yearLength (1970 + (k : Int)) ≤ days := not_lt.mp hbr
      have hs := daysBeforeYear_succ k
      have hlt1 : daysBeforeYear (1970 + ((k + 1 : Nat) : Int)) < 784351576777 := by
        rw [hs]
        linarith
      have hy1 := year_le_of_days (k + 1) hlt1
      have b5 : 1970 + (k : Int) + 1 = 1970 + ((k + 1 : Nat) : Int) := by
        push_cast
        ring
      have b1 : -2147483648 ≤ 1970 + (k : Int) + 1 := by linarith
      have b2 : 1970 + (k : Int) + 1 < 2147483648 := by
        rw [b5]
        linarith
      have b3 : -9223372036854775808 ≤ days - yearLength (1970 + (k : Int)) := by linarith
      have b4 : days - yearLength (1970 + (k : Int)) < 9223372036854775808 := by linarith
      have hf2 : days - yearLength (1970 + (k : Int)) < (fuel : Int) := by
        push_cast at h1
        linarith
      have hl2 : daysBeforeYear (1970 + ((k + 1 : Nat) : Int)) +
          (days - yearLength (1970 + (k : Int))) < 784351576777 := by
        rw [hs]
        linarith
      rw [wrapInt_eq b1 b2, wrapLong_eq b3 b4, b5]
      obtain ⟨k1, days1, e1, e2, e3, e4, e5⟩ :=
        ih (k + 1) (days - yearLength (1970 + (k : Int))) (by linarith) hf2 hl2
      refine ⟨k1, days1, e1, e2, e3, ?_, e5⟩
      rw [e4, hs]
      ring

/-- The month loop of `nolocks_localtime` on a table of month lengths: for a day count below
the sum of the lengths from the month `j` on, it ends at a month inside the table. -/
theorem monthLoop_spec (mdays : List Int) (hpos : ∀ m, m ∈ mdays → 0 ≤ m)
    (hlen : mdays.length ≤ 12) :
    ∀ (fuel j : Nat) (days : Int), 0 ≤ days → days < 9223372036854775808 →
      days < (mdays.drop j).sum → mdays.length < fuel + j →
      ∃ (mon : Nat) (d : Int),
        monthLoop mdays fuel (j : Int) days = some ((mon : Int), d) ∧ j ≤ mon ∧
        mon < mdays.length ∧ 0 ≤ d ∧ d < mdays.getD mon 0 ∧
        (mdays.take mon).sum + d = (mdays.take j).sum + days := by
  intro fuel
  induction fuel with
  | zero =>
    intro j days h0 _ h1 h2
    exfalso
    rw [List.drop_eq_nil_of_le (by omega)] at h1
    simp at h1
    omega
  | succ fuel ih =>
    intro j days h0 hmax h1 h2
    have hj : j < mdays.length := by
      by_contra hc
      rw [List.drop_eq_nil_of_le (by omega)] at h1
      simp at h1
      omega
    have hd : mdays.drop j = mdays[j] :: mdays.drop (j + 1) := (List.drop_eq_getElem_cons hj)
    have hm0 := hpos mdays[j] (List.getElem_mem hj)
    unfold monthLoop
    have hneg : ¬ ((j : Int) < 0) := by omega
    rw [if_neg hneg, Int.toNat_ofNat, List.getElem?_eq_getElem hj]
    simp only []
    by_cases hge : days ≥ mdays[j]
    · rw [if_pos hge]
      have b1 : -2147483648 ≤ (j : Int) + 1 := by omega
      have b2 : (j : Int) + 1 < 2147483648 := by omega
      have b3 : -9223372036854775808 ≤ days - mdays[j] := by omega
      have b4 : days - mdays[j] < 9223372036854775808 := by omega
      have b5 : (j : Int) + 1 = ((j + 1 : Nat) : Int) := by
        push_cast
        rfl
      rw [wrapInt_eq b1 b2, wrapLong_eq b3 b4, b5]
      rw [hd, List.sum_cons] at h1
      obtain ⟨mon, d, e1, e2, e3, e4, e5, e6⟩ :=
        ih (j + 1) (days - mdays[j]) (by omega) (by omega) (by omega) (by omega)
      refine ⟨mon, d, e1, by omega, e3, e4, e5, ?_⟩
      rw [e6, List.take_succ, List.getElem?_eq_getElem hj, List.sum_append]
      simp
    · rw [if_neg hge]
      refine ⟨j, days, rfl, le_refl j, hj, h0, ?_, rfl⟩
      rw [List.getD_eq_getElem _ _ hj]
      omega

theorem monthLengths_take (y : Int) (m : Nat) (hm : m ≤ 12) :
    ((monthLengths y).take m).sum = daysBeforeMonth y m := by
  unfold monthLengths daysBeforeMonth
  rw [← List.map_take, List.take_range, Nat.min_eq_left hm]

theorem monthLengths_getD (y : Int) (m : Nat) (hm : m < 12) :
    (monthLengths y).getD m 0 = monthLength y m := by
  unfold monthLengths
  rw [List.getD_eq_getElem _ _ (by simp; exact hm)]
  simp

theorem monthLengths_sum (y : Int) : (monthLengths y).sum = yearLength y := by
  unfold monthLengths yearLength monthLength
  cases gregorianLeap y <;> rfl

/-- The array `mdays` of `nolocks_localtime`, after the adjustment of February. -/
theorem mdays_eq (y : Int) (hy : 0 ≤ y) :
    [31, wrapInt (28 + is_leap_year y), 31, 30, 31, 30, 31, 31, 30, 31, 30, 31] =
      monthLengths y := by
  rw [is_leap_year_eq y hy]
  unfold monthLengths monthLength
  cases gregorianLeap y <;> rfl

theorem monthLengths_bounds (y : Int) : ∀ m, m ∈ monthLengths y → 0 ≤ m ∧ m ≤ 31 := by
  intro m hm
  unfold monthLengths monthLength at hm
  cases gregorianLeap y <;> simp [List.range, List.range.loop] at hm <;> omega

/-- With resizing enabled, an insertion that returns with the dictionary not rehashing leaves
`ht[0]` with a power-of-two size and a load of at most 1. -/
theorem insert_load {d d0 d1 d2 : dict} (hTd : LawfulType d.type) (hinv : Inv d)
    (hb : (dictEntries d).length < 576460752303423488) (hinv2 : Inv d2)
    (hs : rehashStepIfRehashing d = some d0)
    (he : _dictExpandIfNeeded true d0 = some (d1, DICT_OK))
    (hr : d2.rehashidx = d1.rehashidx) (hsz : d2.ht0.size = d1.ht0.size)
    (hlen : (dictEntries d2).length ≤ (dictEntries d).length + 1) (hr2 : d2.rehashidx = -1) :
    (∃ k, d2.ht0.size = 2 ^ k) ∧ d2.ht0.used ≤ d2.ht0.size := by
  obtain ⟨d0', s1, s2, _, _, _, s6, _⟩ := rehashStep_spec d hTd hinv
  rw [hs] at s1
  cases s1
  have hl0 := s6.length_eq
  have hu0 : d0.ht0.used < 576460752303423488 := by
    have := s2.ok0.used_eq
    rw [dictEntries, List.length_append] at hl0
    omega
  obtain ⟨d1', r1, e1, e2, _, _, _, e6, _⟩ := dictExpandIfNeeded_spec true d0 s2 (by omega)
  rw [he] at e1
  cases e1
  have hr1 : d1.rehashidx = -1 := by rw [← hr]; exact hr2
  have hlt := expandIfNeeded_stable s2 (by omega) he hr1
  have hu1 := used_eq_total_of_stable e2 hr1
  have hu2 := used_eq_total_of_stable hinv2 hr2
  rw [e6] at hu1
  refine ⟨?_, by omega⟩
  rcases htOK_size_cases hinv2.ok0 with ⟨h0, _⟩ | ⟨k, _, _, hk, _⟩
  · omega
  · exact ⟨k, hk⟩

/-! ## Reading a result on the dictionary off the filled dictionary -/

theorem bucketGet_to_fill {ht : dictht} {i : Nat} {c : List dictEntry}
    (h : bucketGet ht i = some c) : bucketGet (fillHt ht) i = some c := by
  rw [bucketGet_fill h]
  exact h

theorem bucketGet_fill_cons {ht : dictht} {i : Nat} {e : dictEntry} {c : List dictEntry}
    (h : bucketGet (fillHt ht) i = some (e :: c)) : bucketGet ht i = some (e :: c) := by
  by_cases hv : ht.table = some []
  · unfold fillHt at h
    rw [if_pos hv] at h
    unfold bucketGet at h
    simp only at h
    have hlt := lt_of_getElem?_eq_some h
    rw [List.getElem?_eq_getElem hlt] at h
    simp at h
  · rw [fillHt_of_ne hv] at h
    exact h

theorem bucketSet_some {ht ht1 : dictht} {i : Nat} {c : List dictEntry}
    (h : bucketSet ht i c = some ht1) :
    ∃ bs, ht.table = some bs ∧ i < bs.length ∧ ht1 = { ht with table := some (bs.set i c) } := by
  unfold bucketSet at h
  cases hb : ht.table with
  | none =>
    rw [hb] at h
    cases h
  | some bs =>
    rw [hb] at h
    simp only at h
    split at h
    · rename_i hlt
      cases h
      exact ⟨bs, rfl, hlt, rfl⟩
    · cases h

/-- The search loop of `dictRehash` reads `ht[0]` and the rehash index only. -/
theorem rehashSkipEmpty_of_ht0 : ∀ (fuel : Nat) (d d2 : dict) (ev : Int) (D1 : dict)
    (r : Option Int), d.ht0 = d2.ht0 → d.rehashidx = d2.rehashidx →
    rehashSkipEmpty fuel d2 ev = some (D1, r) →
    rehashSkipEmpty fuel d ev = some ({ d with rehashidx := D1.rehashidx }, r)
  | 0, _, _, _, _, _, _, _, h => by simp [rehashSkipEmpty] at h
  | fuel + 1, d, d2, ev, D1, r, h0, hi, h => by
    unfold rehashSkipEmpty at h ⊢
    split at h
    · cases h
    · rename_i hneg
      have hneg2 : ¬ d.rehashidx < 0 := by
        rw [hi]
        exact hneg
      rw [if_neg hneg2]
      cases hg : bucketGet d2.ht0 d2.rehashidx.toNat with
      | none =>
        rw [hg] at h
        cases h
      | some c =>
        have hg2 : bucketGet d.ht0 d.rehashidx.toNat = some c := by
          rw [h0, hi]
          exact hg
        rw [hg] at h
        rw [hg2]
        cases c with
        | nil =>
          simp only at h ⊢
          split at h
          · rename_i hev
            rw [if_pos hev]
            cases h
            simp only [hi]
          · rename_i hev
            rw [if_neg hev]
            exact rehashSkipEmpty_of_ht0 fuel { d with rehashidx := d.rehashidx + 1 }
              { d2 with rehashidx := d2.rehashidx + 1 } _ D1 r h0
              (by simp only [hi]) h
        | cons a b =>
          simp only at h ⊢
          cases h
          simp only [← hi]

/-- What a `dictAddRaw` that returns a new entry has done, read off the code. -/
theorem dictKeyIndex_raw {cr : Bool} {d d2 : dict} {key hash : Nat} {idx : Int}
    {ex : Option EntryRef} (h : _dictKeyIndex cr d key hash = some (d2, idx, ex)) :
    ∃ rr, _dictExpandIfNeeded cr d = some (d2, rr) := by
  unfold _dictKeyIndex at h
  cases he : _dictExpandIfNeeded cr d with
  | none =>
    rw [he] at h
    cases h
  | some p =>
    obtain ⟨d1, r⟩ := p
    rw [he] at h
    simp only at h
    refine ⟨r, ?_⟩
    have hd : d1 = d2 := by
      split at h
      · cases h
        rfl
      · split at h
        · cases h
        · split at h
          · cases h
            rfl
          · split at h
            · cases h
              rfl
            · split at h
              · cases h
              · split at h
                · cases h
                  rfl
                · cases h
                  rfl
    rw [hd]

theorem dictAddRaw_raw {cr : Bool} {d d3 : dict} {key : Nat} {r : EntryRef}
    {ex : Option EntryRef} (h : dictAddRaw cr d key = some (d3, some r, ex)) :
    ∃ d1 d2 rr chain ht, rehashStepIfRehashing d = some d1 ∧
      _dictExpandIfNeeded cr d1 = some (d2, rr) ∧
      r.table = (if dictIsRehashing d2 then 1 else 0) ∧ r.pos = 0 ∧
      bucketGet (getHt d2 r.table) r.idx = some chain ∧
      bucketSet (getHt d2 r.table) r.idx ({ key := dictSetKey d2 key, val := 0 } :: chain) =
        some ht ∧
      d3 = setHt d2 r.table { ht with used := (ht.used + 1) % 18446744073709551616 } := by
  unfold dictAddRaw at h
  cases hs : rehashStepIfRehashing d with
  | none =>
    rw [hs] at h
    cases h
  | some d1 =>
    rw [hs] at h
    simp only at h
    cases hk : _dictKeyIndex cr d1 key (dictHashKey d1 key) with
    | none =>
      rw [hk] at h
      cases h
    | some p =>
      obtain ⟨d2, index, existing⟩ := p
      obtain ⟨rr, he⟩ := dictKeyIndex_raw hk
      rw [hk] at h
      simp only at h
      split at h
      · cases h
      · split at h
        · cases h
        · cases hg : bucketGet (getHt d2 (if dictIsRehashing d2 = true then 1 else 0))
              index.toNat with
          | none =>
            rw [hg] at h
            cases h
          | some chain =>
            rw [hg] at h
            simp only at h
            cases hb : bucketSet (getHt d2 (if dictIsRehashing d2 = true then 1 else 0))
                index.toNat ({ key := dictSetKey d2 key, val := 0 } :: chain) with
            | none =>
              rw [hb] at h
              cases h
            | some ht =>
              rw [hb] at h
              simp only at h
              cases h
              exact ⟨d1, d2, rr, chain, ht, rfl, he, rfl, rfl, hg, hb, rfl⟩


/-- A `dictAddRaw` that returns a new entry, on a dictionary that is well formed once its bucket
arrays without cells are filled: the entry is at the head of the bucket that the hash selects in
a table that has its cells, in front of the former chain. -/
theorem dictAddRaw_prepends (cr : Bool) (d : dict) (key : Nat) (hTd : LawfulType d.type)
    (hinv : Inv (fillDict d)) (hsz : dictSize d < 576460752303423488) (d3 : dict)
    (r : EntryRef) (ex : Option EntryRef)
    (hadd : dictAddRaw cr d key = some (d3, some r, ex)) :
    ∃ (d1 d2 : dict) (chain : List dictEntry),
      rehashStepIfRehashing d = some d1 ∧ _dictExpandIfNeeded cr d1 = some (d2, DICT_OK) ∧
      r.table = (if dictIsRehashing d2 then 1 else 0) ∧
      dictIsRehashing d3 = dictIsRehashing d2 ∧
      r.idx = dictHashKey d key &&& (getHt d2 r.table).sizemask ∧ r.pos = 0 ∧
      (getHt d3 r.table).sizemask = (getHt d2 r.table).sizemask ∧
      (getHt d3 r.table).size = (getHt d2 r.table).size ∧
      bucketGet (getHt d2 r.table) r.idx = some chain ∧
      bucketGet (getHt d3 r.table) r.idx =
        some ({ key := dictSetKey d key, val := 0 } :: chain) ∧
      (∀ j, j ≠ r.idx → bucketGet (getHt d3 r.table) j = bucketGet (getHt d2 r.table) j) ∧
      (getHt d3 r.table).used = (getHt d2 r.table).used + 1 ∧
      getHt d3 (1 - r.table) = getHt d2 (1 - r.table) ∧
      (dictIsRehashing d2 = true → d3.ht0 = d2.ht0) ∧
      (dictIsRehashing d1 = true → d2 = d1 ∧ d3.ht0.used ≤ d.ht0.used) := by
  have hTf : LawfulType (fillDict d).type := hTd
  have hszL : dictSize d < ENTRY_LIMIT := hsz
  have hb : (dictEntries (fillDict d)).length < 576460752303423488 :=
    entries_lt_of_dictSize hinv (by rw [dictSize_fillDict]; exact hszL)
  -- the steps of the call, read off the code
  obtain ⟨d1, d2, rr, chain, ht, s1, s2, ht2, hpos, hg, hset, hd3⟩ := dictAddRaw_raw hadd
  obtain ⟨bs, htab, hilt, hht⟩ := bucketSet_some hset
  -- the same call on the filled dictionary
  have haddf := dictAddRaw_fill hTd hinv hszL hadd
  have hno : ∀ x, x ∈ dictEntries (fillDict d) → keyEq (fillDict d).type key x.key = false := by
    obtain ⟨d3f, e, exf, a1, _, _, _, _, _, _, _, _, _, _, _, a12⟩ :=
      dictAddRaw_spec cr (fillDict d) key hTf hinv hb
    rw [haddf] at a1
    cases a1
    rcases a12 with ⟨h1, _⟩ | ⟨_, _, _, h3, _⟩
    · cases h1
    · exact h3
  obtain ⟨d1f, d2f, t, bsf, chainf, s1f, i1, s2f, i2, i2t, hperm, htt, ht2f, htabf, hbkf, hres⟩ :=
    dictAddRaw_insert cr (fillDict d) key hTf hinv hb hno
  obtain ⟨_, _, _, hu1⟩ := rehashStep_fill_used hTd hinv hszL s1
  rw [rehashStepIfRehashing_fill s1] at s1f
  cases s1f
  rw [dictExpandIfNeeded_fill hu1 s2] at s2f
  have hrr : rr = DICT_OK := (Prod.mk.inj (Option.some.inj s2f)).2
  have hd2f : fillDict d2 = d2f := (Prod.mk.inj (Option.some.inj s2f)).1
  subst hrr
  subst hd2f
  rw [haddf] at hres
  have hr : r = ⟨t, dictHashKey (fillDict d) key &&& (getHt (fillDict d2) t).sizemask, 0⟩ :=
    Option.some.inj (Prod.mk.inj (Prod.mk.inj (Option.some.inj hres)).2).1
  have hrt : r.table = t := by rw [hr]
  have hridx : r.idx = dictHashKey d key &&& (getHt d2 r.table).sizemask := by
    rw [hrt]
    rw [hr]
    simp only [dictHashKey_fillDict, getHt_fillDict, fillHt_sizemask]
  have htt2 : r.table = 0 ∨ r.table = 1 := by
    rw [hrt]
    exact htt
  have hty2 : d2.type = d.type := i2t
  have hkey2 : dictSetKey d2 key = dictSetKey d key := by
    unfold dictSetKey
    rw [hty2]
  rw [hkey2] at hset hht
  have hsame := getHt_setHt_same d2 htt2
    ({ ht with used := (ht.used + 1) % 18446744073709551616 } : dictht)
  have hused : (getHt d2 r.table).used + 1 < 18446744073709551616 := by
    have hfill : fillHt (getHt d2 r.table) = getHt d2 r.table := bucketGet_fill hg
    have h1 : (getHt d2 r.table).used ≤ (dictEntries d2).length := by
      rw [dictEntries, List.length_append]
      rcases htt2 with h0 | h0
      · have := i2.ok0.used_eq
        rw [h0]
        simp only [fillDict_ht0, fillHt_used, htEntries_fillHt] at this
        show d2.ht0.used ≤ _
        omega
      · have := i2.ok1.used_eq
        rw [h0]
        simp only [fillDict_ht1, fillHt_used, htEntries_fillHt] at this
        show d2.ht1.used ≤ _
        omega
    have h2 := hperm.length_eq
    simp only [dictEntries_fillDict] at h2 hb
    omega
  have hre : dictIsRehashing d3 = dictIsRehashing d2 := by
    rw [hd3]
    rcases htt2 with h0 | h0 <;> rw [h0] <;> rfl
  refine ⟨d1, d2, chain, s1, s2, ht2, hre, hridx, hpos, ?_, ?_, hg, ?_, ?_, ?_, ?_, ?_, ?_⟩
  · rw [hd3, hsame, hht]
  · rw [hd3, hsame, hht]
  · rw [hd3, hsame, hht]
    rw [bucketGet_eq rfl, List.getElem?_set_self hilt]
  · intro j hj
    rw [hd3, hsame, hht]
    rw [bucketGet_eq rfl, bucketGet_eq htab, List.getElem?_set_ne (Ne.symm hj)]
  · rw [hd3, hsame, hht]
    exact Nat.mod_eq_of_lt hused
  · rw [hd3]
    exact getHt_setHt_other d2 htt2 _
  · intro hr2
    rw [hd3]
    have ht1 : r.table = 1 := by rw [ht2, hr2]; rfl
    rw [ht1]
    rfl
  · intro hr1
    have h21 : d2 = d1 := by
      unfold _dictExpandIfNeeded at s2
      rw [hr1, if_pos rfl] at s2
      cases s2
      rfl
    subst h21
    refine ⟨rfl, ?_⟩
    have ht1 : r.table = 1 := by rw [ht2, hr1]; rfl
    rw [hd3, ht1]
    show d2.ht0.used ≤ d.ht0.used
    have := rehashStep_used_le hTf hinv (rehashStepIfRehashing_fill s1)
      ((dictIsRehashing_iff d2).mp hr1)
    simpa using this


/-- The property of `placed_of_bucketGet` on a dictionary that is well formed once filled. -/
theorem placed_of_bucketGet_fill {d : dict} (hinv : Inv (fillDict d)) {t : Nat} {i : Nat}
    {chain : List dictEntry} {e : dictEntry} (h : bucketGet (getHt d t) i = some chain)
    (he : e ∈ chain) : dictHashKey d e.key &&& (getHt d t).sizemask = i := by
  have h2 : bucketGet (getHt (fillDict d) t) i = some chain := by
    rw [getHt_fillDict]
    exact bucketGet_to_fill h
  have := placed_of_bucketGet hinv h2 he
  simpa using this

/-! ## No entry changes its table without a rehash step -/

theorem flatten_set_keys {bs : List (List dictEntry)} {i pos : Nat} {chain : List dictEntry}
    {he w : dictEntry} (hb : bs[i]? = some chain) (hp : chain[pos]? = some he)
    (hk : w.key = he.key) :
    ∀ x, x ∈ bs.flatten → ∃ x1, x1 ∈ (bs.set i (chain.set pos w)).flatten ∧ x1.key = x.key := by
  intro x hx
  obtain ⟨c, hc, hxc⟩ := List.mem_flatten.mp hx
  obtain ⟨j, hj⟩ := List.mem_iff_getElem?.mp hc
  have hilt := lt_of_getElem?_eq_some hb
  by_cases hji : j = i
  · subst hji
    rw [hb] at hj
    cases hj
    obtain ⟨q, hq⟩ := List.mem_iff_getElem?.mp hxc
    have hplt := lt_of_getElem?_eq_some hp
    have hmem : chain.set pos w ∈ bs.set j (chain.set pos w) :=
      List.mem_iff_getElem?.mpr ⟨j, List.getElem?_set_self hilt⟩
    by_cases hqp : q = pos
    · subst hqp
      rw [hp] at hq
      cases hq
      refine ⟨w, List.mem_flatten.mpr ⟨_, hmem, ?_⟩, hk⟩
      exact List.mem_iff_getElem?.mpr ⟨q, List.getElem?_set_self hplt⟩
    · refine ⟨x, List.mem_flatten.mpr ⟨_, hmem, ?_⟩, rfl⟩
      refine List.mem_iff_getElem?.mpr ⟨q, ?_⟩
      rw [List.getElem?_set_ne (Ne.symm hqp)]
      exact hq
  · refine ⟨x, List.mem_flatten.mpr ⟨c, ?_, hxc⟩, rfl⟩
    refine List.mem_iff_getElem?.mpr ⟨j, ?_⟩
    rw [List.getElem?_set_ne (Ne.symm hji)]
    exact hj

theorem flatten_set_erase_subset {bs : List (List dictEntry)} {i pos : Nat}
    {chain : List dictEntry} (hb : bs[i]? = some chain) :
    ∀ x, x ∈ (bs.set i (chain.eraseIdx pos)).flatten → x ∈ bs.flatten := by
  intro x hx
  obtain ⟨c, hc, hxc⟩ := List.mem_flatten.mp hx
  obtain ⟨j, hj⟩ := List.mem_iff_getElem?.mp hc
  have hilt := lt_of_getElem?_eq_some hb
  by_cases hji : j = i
  · subst hji
    rw [List.getElem?_set_self hilt] at hj
    cases hj
    exact List.mem_flatten.mpr ⟨chain, List.mem_iff_getElem?.mpr ⟨j, hb⟩,
      List.mem_of_mem_eraseIdx hxc⟩
  · rw [List.getElem?_set_ne (Ne.symm hji)] at hj
    exact List.mem_flatten.mpr ⟨c, List.mem_iff_getElem?.mpr ⟨j, hj⟩, hxc⟩

/-- The macro `dictSetVal` keeps the keys of each table. -/
theorem dictSetVal_keys {d d1 : dict} {r : EntryRef} {val : Nat}
    (h : dictSetVal d r val = some d1) :
    ∀ x, x ∈ htEntries d.ht0 → ∃ x1, x1 ∈ htEntries d1.ht0 ∧ x1.key = x.key := by
  unfold dictSetVal at h
  cases hg : bucketGet (getHt d r.table) r.idx with
  | none =>
    rw [hg] at h
    cases h
  | some chain =>
    rw [hg] at h
    simp only at h
    cases hc : chain[r.pos]? with
    | none =>
      rw [hc] at h
      cases h
    | some he =>
      rw [hc] at h
      simp only at h
      obtain ⟨bs, htab, hb⟩ := bucketGet_some hg
      have hilt := lt_of_getElem?_eq_some hb
      rw [bucketSet_eq htab hilt] at h
      simp only at h
      cases h
      intro x hx
      by_cases ht : r.table = 0
      · unfold getHt at htab
        rw [if_pos ht] at htab
        rw [htEntries_of_table htab] at hx
        obtain ⟨x1, hx1, hk⟩ := flatten_set_keys (w := { he with val :=
          match d.type.valDup with
          | some f => f val
          | none => val }) hb hc rfl x hx
        refine ⟨x1, ?_, hk⟩
        unfold setHt getHt
        rw [if_pos ht, if_pos ht]
        rw [htEntries_of_table rfl]
        exact hx1
      · refine ⟨x, ?_, rfl⟩
        unfold setHt
        rw [if_neg ht]
        exact hx

theorem no_move_of_keys_kept {T : dictType} (hT : LawfulType T) {d d2 : dict}
    (hty : d2.type = T) (hinv2 : Inv d2)
    (hkeep : ∀ x, x ∈ htEntries d.ht0 → ∃ x1, x1 ∈ htEntries d2.ht0 ∧ x1.key = x.key) :
    ∀ e, e ∈ htEntries d2.ht1 → ∀ x, x ∈ htEntries d.ht0 → keyEq T e.key x.key = false := by
  intro e he x hx
  obtain ⟨x1, hx1, hk⟩ := hkeep x hx
  have hnd := hinv2.nodup
  unfold dictEntries at hnd
  rw [List.pairwise_append] at hnd
  have h1 := hnd.2.2 x1 hx1 e he
  rw [hty] at h1
  have h2 := keysDiffer_symm hT h1
  unfold keysDiffer at h2
  rw [hk] at h2
  exact h2

theorem no_move_of_subset {T : dictType} (hT : LawfulType T) {d d2 : dict}
    (hty : d.type = T) (hinv : Inv d)
    (hsub : ∀ e, e ∈ htEntries d2.ht1 → e ∈ htEntries d.ht1) :
    ∀ e, e ∈ htEntries d2.ht1 → ∀ x, x ∈ htEntries d.ht0 → keyEq T e.key x.key = false := by
  intro e he x hx
  have hnd := hinv.nodup
  unfold dictEntries at hnd
  rw [List.pairwise_append] at hnd
  have h1 := hnd.2.2 x hx e (hsub e he)
  rw [hty] at h1
  exact keysDiffer_symm hT h1


/-- On a rehashing dictionary with a live safe iterator, `dictAddRaw` leaves `ht[0]` as it
is, and the dictionary as it is when it adds no entry. -/
theorem dictAddRaw_blocked_ht0 {cr : Bool} {d d3 : dict} {key : Nat}
    {e ex : Option EntryRef} (hTd : LawfulType d.type) (hinv : Inv d)
    (hsz : dictSize d < 576460752303423488) (hr1 : d.rehashidx ≠ -1) (hi : d.iterators ≠ 0)
    (h : dictAddRaw cr d key = some (d3, e, ex)) :
    d3.ht0 = d.ht0 ∧ (e = none → d3 = d) := by
  have hstep := rehashStep_blocked (d := d) hi
  have hexp := expandIfNeeded_rehashing cr hr1
  cases e with
  | none =>
    obtain ⟨d3s, es, exs, a1, _, _, _, _, d1, d2, b1, b2, _, _, _, a11⟩ :=
      dictAddRaw_spec cr d key hTd hinv (entries_lt_of_size62 hinv hsz)
    rw [h] at a1
    cases a1
    rw [hstep] at b1
    cases b1
    rw [hexp] at b2
    cases b2
    rcases a11 with ⟨_, c2, _⟩ | ⟨r, c1, _⟩
    · exact ⟨by rw [c2], fun _ => c2⟩
    · cases c1
  | some r =>
    have hfill : Inv (fillDict d) := by
      rw [fillDict_of_allocated (tablesAllocated_of_inv hinv)]
      exact hinv
    obtain ⟨d1, d2, chain, s1, s2, _, _, _, _, _, _, _, _, _, _, _, b14, _⟩ :=
      dictAddRaw_prepends cr d key hTd hfill hsz d3 r ex h
    rw [hstep] at s1
    cases s1
    rw [hexp] at s2
    cases s2
    exact ⟨b14 ((dictIsRehashing_iff d).mpr hr1), fun hc => by cases hc⟩

theorem dictFreeVal_ht0 (d : dict) (he : dictEntry) : (dictFreeVal d he).ht0 = d.ht0 := by
  unfold dictFreeVal
  split <;> rfl

theorem dictAdd_blocked_keys {cr : Bool} {d d2 : dict} {key val r : Nat}
    (hTd : LawfulType d.type) (hinv : Inv d) (hsz : dictSize d < 576460752303423488)
    (hr1 : d.rehashidx ≠ -1) (hi : d.iterators ≠ 0)
    (h : dictAdd cr d key val = some (d2, r)) :
    ∀ x, x ∈ htEntries d.ht0 → ∃ x1, x1 ∈ htEntries d2.ht0 ∧ x1.key = x.key := by
  unfold dictAdd at h
  cases ha : dictAddRaw cr d key with
  | none =>
    rw [ha] at h
    cases h
  | some p =>
    obtain ⟨d3, e, ex⟩ := p
    obtain ⟨h0, hnone⟩ := dictAddRaw_blocked_ht0 hTd hinv hsz hr1 hi ha
    rw [ha] at h
    cases e with
    | none =>
      simp only at h
      cases h
      intro x hx
      exact ⟨x, by rw [h0]; exact hx, rfl⟩
    | some entry =>
      simp only at h
      cases hv : dictSetVal d3 entry val with
      | none =>
        rw [hv] at h
        cases h
      | some d4 =>
        rw [hv] at h
        cases h
        intro x hx
        rw [← h0] at hx
        exact dictSetVal_keys hv x hx

theorem dictReplace_blocked_keys {cr : Bool} {d d2 : dict} {key val r : Nat}
    (hTd : LawfulType d.type) (hinv : Inv d) (hsz : dictSize d < 576460752303423488)
    (hr1 : d.rehashidx ≠ -1) (hi : d.iterators ≠ 0)
    (h : dictReplace cr d key val = some (d2, r)) :
    ∀ x, x ∈ htEntries d.ht0 → ∃ x1, x1 ∈ htEntries d2.ht0 ∧ x1.key = x.key := by
  unfold dictReplace at h
  cases ha : dictAddRaw cr d key with
  | none =>
    rw [ha] at h
    cases h
  | some p =>
    obtain ⟨d3, e, ex⟩ := p
    obtain ⟨h0, hnone⟩ := dictAddRaw_blocked_ht0 hTd hinv hsz hr1 hi ha
    rw [ha] at h
    cases e with
    | some entry =>
      simp only at h
      cases hv : dictSetVal d3 entry val with
      | none =>
        rw [hv] at h
        cases h
      | some d4 =>
        rw [hv] at h
        cases h
        intro x hx
        rw [← h0] at hx
        exact dictSetVal_keys hv x hx
    | none =>
      have hd3 := hnone rfl
      subst hd3
      cases ex with
      | none =>
        simp only at h
        cases h
      | some existing =>
        simp only at h
        cases hg : entryGet d3 existing with
        | none =>
          rw [hg] at h
          cases h
        | some aux =>
          rw [hg] at h
          simp only at h
          cases hv : dictSetVal d3 existing val with
          | none =>
            rw [hv] at h
            cases h
          | some d4 =>
            rw [hv] at h
            cases h
            intro x hx
            rw [dictFreeVal_ht0]
            exact dictSetVal_keys hv x hx

theorem dictDelete_blocked_subset {d d2 : dict} {key r : Nat}
    (hTd : LawfulType d.type) (hinv : Inv d) (hi : d.iterators ≠ 0)
    (h : dictDelete d key = some (d2, r)) :
    ∀ e, e ∈ htEntries d2.ht1 → e ∈ htEntries d.ht1 := by
  have hstep := rehashStep_blocked (d := d) hi
  unfold dictDelete at h
  cases hg : dictGenericDelete d key false with
  | none =>
    rw [hg] at h
    cases h
  | some p =>
    obtain ⟨d3, o⟩ := p
    rw [hg] at h
    cases o with
    | none =>
      simp only at h
      cases h
      obtain ⟨d2s, rs, a1, _, _, _, a5⟩ := dictGenericDelete_spec d key false hTd hinv
      rw [hg] at a1
      cases a1
      rcases a5 with ⟨_, _, _, _, h5⟩ | ⟨he, c1, _⟩
      · have : d2 = d := by
          rcases h5 with h5 | h5
          · exact h5
          · rw [hstep] at h5
            exact (Option.some.inj h5).symm
        subst this
        exact fun e he => he
      · cases c1
    | some he =>
      simp only at h
      cases h
      obtain ⟨d1, t, bs, chain, pos, s1, ht, htab, hb, _, _, htab2, _, hother⟩ :=
        dictGenericDelete_tables hg
      rw [hstep] at s1
      cases s1
      intro e hmem
      rcases ht with rfl | rfl
      · have : d2.ht1 = d.ht1 := hother
        rw [← this]
        exact hmem
      · have htab2b : d2.ht1.table = _ := htab2
        have htabb : d.ht1.table = some bs := htab
        rw [htEntries_of_table htab2b] at hmem
        rw [htEntries_of_table htabb]
        exact flatten_set_erase_subset hb e hmem


/-! ## Test data: the dictionaries with a bucket array of 0 bytes are reachable -/

theorem voidDict_eq :
    dictExpand (dictCreate identityType) 2305843009213693952 = some (voidDict, DICT_OK) := rfl

theorem voidDict_reachable : Reachable identityType voidDict :=
  Reachable.expand (dictCreate identityType) voidDict 2305843009213693952 DICT_OK
    Reachable.create voidDict_eq

theorem hugeRehashingDict_eq :
    dictExpand oneKeyDict 2305843009213693952 = some (hugeRehashingDict, DICT_OK) := rfl

theorem hugeRehashingDict_reachable : Reachable identityType hugeRehashingDict :=
  Reachable.expand oneKeyDict hugeRehashingDict 2305843009213693952 DICT_OK
    oneKeyDict_reachable hugeRehashingDict_eq

theorem hugeRehashingDict_step : rehashStepIfRehashing hugeRehashingDict = none := rfl

/-! # The claims -/

/-- C9: `dictExpand(d,size)` always returns; it returns `DICT_ERR` exactly when the dictionary
is rehashing, or `size` is smaller than `ht[0].used`, or `size` rounded up by `_dictNextPower`
equals `ht[0].size`; in these cases the dictionary is unchanged, and in every other case the
call returns `DICT_OK`. -/
theorem C9_dictExpand_error_cases (d : dict) (size : Nat) :
    ∃ d1 r realsize, _dictNextPower size = some realsize ∧ dictExpand d size = some (d1, r) ∧
      (r = DICT_ERR ↔
        (dictIsRehashing d = true ∨ size < d.ht0.used ∨ realsize = d.ht0.size)) ∧
      (r = DICT_ERR → d1 = d) ∧ (r ≠ DICT_ERR → r = DICT_OK) := by
  obtain ⟨k, _, _, hk, hcase⟩ := dictExpand_cases d size
  rcases hcase with ⟨h1, h2⟩ | ⟨h1, h2, h3, _, h5⟩ | ⟨h1, h2, h3, _, h5⟩
  · exact ⟨d, DICT_ERR, 2 ^ k, hk, h2, ⟨fun _ => h1, fun _ => rfl⟩, fun _ => rfl,
      fun h => absurd rfl h⟩
  · refine ⟨_, DICT_OK, 2 ^ k, hk, h5, ⟨fun h => absurd h DICT_OK_ne_ERR, ?_⟩,
      fun h => absurd h DICT_OK_ne_ERR, fun _ => rfl⟩
    rintro (h | h | h)
    · rw [h1] at h
      cases h
    · omega
    · exact absurd h h3
  · refine ⟨_, DICT_OK, 2 ^ k, hk, h5, ⟨fun h => absurd h DICT_OK_ne_ERR, ?_⟩,
      fun h => absurd h DICT_OK_ne_ERR, fun _ => rfl⟩
    rintro (h | h | h)
    · rw [h1] at h
      cases h
    · omega
    · exact absurd h h3

/-- C10: when `dictExpand` succeeds on a dictionary whose `ht[0]` is not allocated, the new
empty table becomes `ht[0]`, `rehashidx` stays -1 and `ht[1]` is untouched; when it succeeds on
any other dictionary, the new empty table becomes `ht[1]`, `rehashidx` becomes 0 and `ht[0]` is
unchanged. The new table has the size `realsize` that `_dictNextPower` returns, no entry, and
the bucket array that `zcalloc(realsize*sizeof(dictEntry*))` returns: its byte count is
computed in `size_t`, so it has `realsize * 8 mod 2 ^ 64 / 8` cells. -/
theorem C10_dictExpand_success (d d1 : dict) (size : Nat)
    (h : dictExpand d size = some (d1, DICT_OK)) :
    ∃ realsize, _dictNextPower size = some realsize ∧ d.rehashidx = -1 ∧
      htEntries (newTable realsize) = [] ∧ (newTable realsize).size = realsize ∧
      (newTable realsize).used = 0 ∧
      (newTable realsize).table = some (List.replicate (realsize * 8 % 2 ^ 64 / 8) []) ∧
      (d.ht0.table = none →
        d1.ht0 = newTable realsize ∧ d1.rehashidx = -1 ∧ d1.ht1 = d.ht1) ∧
      (d.ht0.table ≠ none →
        d1.ht1 = newTable realsize ∧ d1.rehashidx = 0 ∧ d1.ht0 = d.ht0) := by
  obtain ⟨k, _, _, hk, hcase⟩ := dictExpand_cases d size
  have hE : htEntries (newTable (2 ^ k)) = [] := by
    simp [htEntries, newTable]
  rcases hcase with ⟨_, h2⟩ | ⟨h1, _, _, h4, h5⟩ | ⟨h1, _, _, h4, h5⟩
  · rw [h2] at h
    have := (Prod.mk.inj (Option.some.inj h)).2
    exact absurd this.symm DICT_OK_ne_ERR
  · have hr : d.rehashidx = -1 := by
      by_contra hc
      rw [(dictIsRehashing_iff d).mpr hc] at h1
      cases h1
    rw [h5] at h
    have hd := (Prod.mk.inj (Option.some.inj h)).1
    subst hd
    exact ⟨2 ^ k, hk, hr, hE, rfl, rfl, rfl, fun _ => ⟨rfl, hr, rfl⟩, fun hne => absurd h4 hne⟩
  · have hr : d.rehashidx = -1 := by
      by_contra hc
      rw [(dictIsRehashing_iff d).mpr hc] at h1
      cases h1
    rw [h5] at h
    have hd := (Prod.mk.inj (Option.some.inj h)).1
    subst hd
    exact ⟨2 ^ k, hk, hr, hE, rfl, rfl, rfl, fun hn => absurd hn h4, fun _ => ⟨rfl, rfl, rfl⟩⟩

/-- Witness of C10: the first expansion of a new dictionary. -/
theorem C10_dictExpand_success_witness :
    ∃ realsize, _dictNextPower 4 = some realsize ∧ (dictCreate identityType).rehashidx = -1 ∧
      htEntries (newTable realsize) = [] ∧ (newTable realsize).size = realsize ∧
      (newTable realsize).used = 0 ∧
      (newTable realsize).table = some (List.replicate (realsize * 8 % 2 ^ 64 / 8) []) ∧
      ((dictCreate identityType).ht0.table = none →
        ({ dictCreate identityType with ht0 := newTable 4 } : dict).ht0 = newTable realsize ∧
        ({ dictCreate identityType with ht0 := newTable 4 } : dict).rehashidx = -1 ∧
        ({ dictCreate identityType with ht0 := newTable 4 } : dict).ht1 =
          (dictCreate identityType).ht1) ∧
      ((dictCreate identityType).ht0.table ≠ none →
        ({ dictCreate identityType with ht0 := newTable 4 } : dict).ht1 = newTable realsize ∧
        ({ dictCreate identityType with ht0 := newTable 4 } : dict).rehashidx = 0 ∧
        ({ dictCreate identityType with ht0 := newTable 4 } : dict).ht0 =
          (dictCreate identityType).ht0) :=
  C10_dictExpand_success (dictCreate identityType)
    { dictCreate identityType with ht0 := newTable 4 } 4 rfl

/-- C11: for every requested size below `LONG_MAX`, `_dictNextPower` returns the smallest power
of two that is at least the requested size and at least 4 (`DICT_HT_INITIAL_SIZE`); this value is
the size, and this value minus one the mask, of the table a successful `dictExpand` creates. -/
theorem C11_dictNextPower (size : Nat) (hs : size < LONG_MAX) :
    ∃ p, _dictNextPower size = some p ∧ (∃ k, p = 2 ^ k) ∧ size ≤ p ∧
      DICT_HT_INITIAL_SIZE ≤ p ∧
      (∀ j, DICT_HT_INITIAL_SIZE ≤ 2 ^ j → size ≤ 2 ^ j → p ≤ 2 ^ j) ∧
      ∀ d d1, dictExpand d size = some (d1, DICT_OK) →
        (d.ht0.table = none → d1.ht0.size = p ∧ (d1.ht0.sizemask : Int) = (p : Int) - 1) ∧
        (d.ht0.table ≠ none → d1.ht1.size = p ∧ (d1.ht1.sizemask : Int) = (p : Int) - 1) := by
  obtain ⟨k, _, _, hk, hle, h4, hmin⟩ := dictNextPower_min size hs
  refine ⟨2 ^ k, hk, ⟨k, rfl⟩, hle, h4, hmin, ?_⟩
  intro d d1 h
  have hpos : 0 < 2 ^ k := by positivity
  have hmask : ((newTable (2 ^ k)).sizemask : Int) = ((2 ^ k : Nat) : Int) - 1 := by
    show ((decr64 (2 ^ k) : Nat) : Int) = _
    rw [decr64_two_pow]
    omega
  obtain ⟨k1, _, _, hk1, hcase⟩ := dictExpand_cases d size
  rw [hk] at hk1
  have hkk : 2 ^ k = 2 ^ k1 := Option.some.inj hk1
  rw [← hkk] at hcase
  rcases hcase with ⟨_, h2⟩ | ⟨_, _, _, h4, h5⟩ | ⟨_, _, _, h4, h5⟩
  · rw [h2] at h
    have := (Prod.mk.inj (Option.some.inj h)).2
    exact absurd this.symm DICT_OK_ne_ERR
  · rw [h5] at h
    have hd := (Prod.mk.inj (Option.some.inj h)).1
    subst hd
    exact ⟨fun _ => ⟨rfl, hmask⟩, fun hne => absurd h4 hne⟩
  · rw [h5] at h
    have hd := (Prod.mk.inj (Option.some.inj h)).1
    subst hd
    exact ⟨fun hn => absurd hn h4, fun _ => ⟨rfl, hmask⟩⟩

/-- Witness of C11: the requested size 5 is rounded up to 8. -/
theorem C11_dictNextPower_witness :
    5 < LONG_MAX ∧ ∃ p, _dictNextPower 5 = some p ∧ (∃ k, p = 2 ^ k) ∧ 5 ≤ p ∧
      DICT_HT_INITIAL_SIZE ≤ p ∧
      (∀ j, DICT_HT_INITIAL_SIZE ≤ 2 ^ j → 5 ≤ 2 ^ j → p ≤ 2 ^ j) ∧
      ∀ d d1, dictExpand d 5 = some (d1, DICT_OK) →
        (d.ht0.table = none → d1.ht0.size = p ∧ (d1.ht0.sizemask : Int) = (p : Int) - 1) ∧
        (d.ht0.table ≠ none → d1.ht1.size = p ∧ (d1.ht1.sizemask : Int) = (p : Int) - 1) :=
  ⟨by decide, C11_dictNextPower 5 (by decide)⟩

/-- C12 fails as stated: in a newly created dictionary the tables have size 0 and sizemask 0,
which is not `size - 1` (neither as an integer nor as an `unsigned long`). -/
theorem C12_counterexample :
    Reachable identityType (dictCreate identityType) ∧
      (dictCreate identityType).ht0.size = 0 ∧
      ((dictCreate identityType).ht0.sizemask : Int) ≠
        ((dictCreate identityType).ht0.size : Int) - 1 ∧
      (dictCreate identityType).ht0.sizemask ≠ decr64 (dictCreate identityType).ht0.size :=
  ⟨Reachable.create, rfl, by decide, by decide⟩

/-- C12, amended: in every dictionary reachable from `dictCreate` through the public
operations, each of the two tables either has size 0 and sizemask 0 (not allocated), or has a
size that is a power of two (at least 4) and sizemask `size - 1`. -/
theorem C12_table_sizes (T : dictType) (hT : LawfulType T) (d : dict) (h : Reachable T d) :
    ((d.ht0.size = 0 ∧ d.ht0.sizemask = 0) ∨
        ∃ k, 2 ≤ k ∧ d.ht0.size = 2 ^ k ∧ (d.ht0.sizemask : Int) = (d.ht0.size : Int) - 1) ∧
      ((d.ht1.size = 0 ∧ d.ht1.sizemask = 0) ∨
        ∃ k, 2 ≤ k ∧ d.ht1.size = 2 ^ k ∧ (d.ht1.sizemask : Int) = (d.ht1.size : Int) - 1) := by
  obtain ⟨hinv, _⟩ := Reachable_fill hT h
  have key : ∀ ht : dictht, htOK d.type ht →
      ((ht.size = 0 ∧ ht.sizemask = 0) ∨
        ∃ k, 2 ≤ k ∧ ht.size = 2 ^ k ∧ (ht.sizemask : Int) = (ht.size : Int) - 1) := by
    intro ht hok
    rcases htOK_size_cases hok with h0 | ⟨k, h2, _, hk, hm⟩
    · exact Or.inl h0
    · refine Or.inr ⟨k, h2, hk, ?_⟩
      have hpos : 0 < 2 ^ k := by positivity
      rw [hm, hk]
      omega
  have k0 := key _ hinv.ok0
  have k1 := key _ hinv.ok1
  simp only [fillDict_ht0, fillDict_ht1, fillHt_size, fillHt_sizemask] at k0 k1
  exact ⟨k0, k1⟩

/-- Witness of C12 (amended): the tables of a new dictionary. -/
theorem C12_table_sizes_witness :
    (((dictCreate identityType).ht0.size = 0 ∧ (dictCreate identityType).ht0.sizemask = 0) ∨
        ∃ k, 2 ≤ k ∧ (dictCreate identityType).ht0.size = 2 ^ k ∧
          ((dictCreate identityType).ht0.sizemask : Int) =
            ((dictCreate identityType).ht0.size : Int) - 1) ∧
      (((dictCreate identityType).ht1.size = 0 ∧ (dictCreate identityType).ht1.sizemask = 0) ∨
        ∃ k, 2 ≤ k ∧ (dictCreate identityType).ht1.size = 2 ^ k ∧
          ((dictCreate identityType).ht1.sizemask : Int) =
            ((dictCreate identityType).ht1.size : Int) - 1) :=
  C12_table_sizes identityType identityType_lawful (dictCreate identityType) Reachable.create

/-- C13 fails as stated: `dictFind` on a new dictionary returns with `ht[0].size = 0`, which is
not a power of two; and with resizing disabled, five `dictAdd` calls on a new dictionary leave
it not rehashing with 5 entries in 4 buckets. -/
theorem C13_counterexample :
    (∃ d, dictFind (dictCreate identityType) 1 = some (d, none) ∧
        dictIsRehashing d = false ∧ ¬ ∃ k, d.ht0.size = 2 ^ k) ∧
      (∃ d rs, addKeys false (dictCreate identityType) [1, 2, 3, 4, 5] = some (d, rs) ∧
        dictIsRehashing d = false ∧ d.ht0.size = 4 ∧ d.ht0.used = 5 ∧
        ¬ d.ht0.used ≤ d.ht0.size) := by
  refine ⟨⟨_, rfl, rfl, ?_⟩, ⟨_, _, rfl, rfl, rfl, rfl, by decide⟩⟩
  rintro ⟨k, hk⟩
  have hpos : 0 < 2 ^ k := by positivity
  have h0 : (dictCreate identityType).ht0.size = 0 := rfl
  omega

/-- C13, amended: in every reachable dictionary the size of `ht[0]` is 0 or a power of two;
and when a `dictAdd` or `dictReplace` made with resizing enabled returns with the dictionary
not rehashing, the size of `ht[0]` is a power of two and `ht[0].used` is at most
`ht[0].size`. -/
theorem C13_load_after_insert (T : dictType) (hT : LawfulType T) (d : dict)
    (h : Reachable T d) :
    (d.ht0.size = 0 ∨ ∃ k, d.ht0.size = 2 ^ k) ∧
      (∀ key val d2 r, dictSize d < ENTRY_LIMIT → dictAdd true d key val = some (d2, r) →
        d2.rehashidx = -1 → (∃ k, d2.ht0.size = 2 ^ k) ∧ d2.ht0.used ≤ d2.ht0.size) ∧
      (∀ key val d2 r, dictSize d < ENTRY_LIMIT → dictReplace true d key val = some (d2, r) →
        d2.rehashidx = -1 → (∃ k, d2.ht0.size = 2 ^ k) ∧ d2.ht0.used ≤ d2.ht0.size) := by
  obtain ⟨hinv, hty⟩ := Reachable_fill hT h
  have hTd : LawfulType d.type := hty ▸ hT
  have hTf : LawfulType (fillDict d).type := hTd
  refine ⟨?_, ?_, ?_⟩
  · have hc := htOK_size_cases hinv.ok0
    simp only [fillDict_ht0, fillHt_size] at hc
    rcases hc with ⟨h0, _⟩ | ⟨k, _, _, hk, _⟩
    · exact Or.inl h0
    · exact Or.inr ⟨k, hk⟩
  · intro k v d2 r hsz hop hr2
    have hb := entries_lt_of_dictSize hinv (by rw [dictSize_fillDict]; exact hsz)
    obtain ⟨d2f, rf, a1, a2, _, _, ⟨d0, d1, a5, a6, a7, a8, _⟩, a9⟩ :=
      dictAdd_spec true (fillDict d) k v hTf hinv hb
    rw [dictAdd_fill hTd hinv hsz hop] at a1
    cases a1
    have res := insert_load hTf hinv hb a2 a5 a6 a7 a8 (by
      rcases a9 with ⟨_, _, hp, _⟩ | ⟨_, _, hp, _⟩
      · rw [hp.length_eq]
        omega
      · rw [hp.length_eq, List.length_cons]) hr2
    simpa using res
  · intro k v d2 r hsz hop hr2
    have hb := entries_lt_of_dictSize hinv (by rw [dictSize_fillDict]; exact hsz)
    obtain ⟨d2f, rf, a1, a2, _, _, ⟨d0, d1, a5, a6, a7, a8, _⟩, a9⟩ :=
      dictReplace_spec true (fillDict d) k v hTf hinv hb
    rw [dictReplace_fill hTd hinv hsz hop] at a1
    cases a1
    have res := insert_load hTf hinv hb a2 a5 a6 a7 a8 (by
      rcases a9 with ⟨_, _, hp, _⟩ | ⟨_, he, R, _, hp1, hp2, _⟩
      · rw [hp.length_eq, List.length_cons]
      · rw [hp2.length_eq, hp1.length_eq]
        simp) hr2
    simpa using res

/-- Witness of C13 (amended): the first `dictAdd` on a new dictionary leaves one entry in four
buckets. -/
theorem C13_load_after_insert_witness :
    ((dictCreate identityType).ht0.size = 0 ∨
        ∃ k, (dictCreate identityType).ht0.size = 2 ^ k) ∧
      ∃ d2, dictAdd true (dictCreate identityType) 1 10 = some (d2, DICT_OK) ∧
        d2.rehashidx = -1 ∧ (∃ k, d2.ht0.size = 2 ^ k) ∧ d2.ht0.used ≤ d2.ht0.size :=
  ⟨(C13_load_after_insert identityType identityType_lawful (dictCreate identityType)
      Reachable.create).1,
    _, rfl, rfl,
    (C13_load_after_insert identityType identityType_lawful (dictCreate identityType)
      Reachable.create).2.1 1 10 _ _ (by decide) rfl rfl⟩

/-- C14 fails as stated: with 5 entries in 4 buckets (reached with resizing disabled),
`_dictExpandIfNeeded` with resizing enabled starts a resize to 16 buckets, four times the
current capacity and not twice. -/
theorem C14_counterexample :
    ∃ d rs d1, addKeys false (dictCreate identityType) [1, 2, 3, 4, 5] = some (d, rs) ∧
      dictIsRehashing d = false ∧ d.ht0.size = 4 ∧ d.ht0.used = 5 ∧
      _dictExpandIfNeeded true d = some (d1, DICT_OK) ∧ d1.rehashidx = 0 ∧
      d1.ht1.size = 16 ∧ d1.ht1.size ≠ 2 * d.ht0.size :=
  ⟨_, _, _, rfl, rfl, rfl, rfl, rfl, rfl, rfl, by decide⟩

/-- C14, amended: on a reachable dictionary that is not rehashing (and holds fewer than
`2 ^ 62` entries), `_dictExpandIfNeeded` installs an empty table of size 4 as `ht[0]` when the
table is empty (size 0); otherwise, exactly when `used >= size` and either resizing is enabled
or the integer quotient `used / size` exceeds 5, it starts a resize towards an empty table whose
capacity is the smallest power of two that is at least twice the number of entries, which is
twice the current capacity when `used = size`; in every other case it changes nothing. It
returns `DICT_OK` in all these cases. -/
theorem C14_expandIfNeeded (T : dictType) (hT : LawfulType T) (d : dict) (h : Reachable T d)
    (cr : Bool) (hnr : dictIsRehashing d = false)
    (hb : d.ht0.used < 4611686018427387904) :
    (d.ht0.size = 0 →
      _dictExpandIfNeeded cr d = some ({ d with ht0 := newTable 4 }, DICT_OK)) ∧
    (d.ht0.size ≠ 0 →
      (d.ht0.used ≥ d.ht0.size ∧
        (cr = true ∨ d.ht0.used / d.ht0.size > dict_force_resize_ratio)) →
      ∃ k, _dictExpandIfNeeded cr d =
          some ({ d with ht1 := newTable (2 ^ k), rehashidx := 0 }, DICT_OK) ∧
        2 * d.ht0.used ≤ 2 ^ k ∧ (∀ j, 4 ≤ 2 ^ j → 2 * d.ht0.used ≤ 2 ^ j → 2 ^ k ≤ 2 ^ j) ∧
        (d.ht0.used = d.ht0.size → 2 ^ k = 2 * d.ht0.size)) ∧
    (d.ht0.size ≠ 0 →
      ¬ (d.ht0.used ≥ d.ht0.size ∧
        (cr = true ∨ d.ht0.used / d.ht0.size > dict_force_resize_ratio)) →
      _dictExpandIfNeeded cr d = some (d, DICT_OK)) := by
  obtain ⟨hinv, _⟩ := Reachable_fill hT h
  have hr : d.rehashidx = -1 := by
    by_contra hc
    rw [(dictIsRehashing_iff d).mpr hc] at hnr
    cases hnr
  obtain ⟨c1, c2, c3⟩ := expandIfNeeded_cases_fill cr d hinv.ok0 hr hb
  refine ⟨fun hs => (c1 hs).2, ?_, c3⟩
  intro hs hc
  obtain ⟨k, _, _, e1, e2, e3, e4⟩ := c2 hs hc
  exact ⟨k, e1, e2, e3, e4⟩

/-- Witness of C14 (amended): the first allocation of a new dictionary. -/
theorem C14_expandIfNeeded_witness :
    _dictExpandIfNeeded true (dictCreate identityType) =
      some ({ dictCreate identityType with ht0 := newTable 4 }, DICT_OK) :=
  (C14_expandIfNeeded identityType identityType_lawful (dictCreate identityType)
    Reachable.create true rfl (by decide)).1 rfl

/-- C16 at the dictionary with the key 1 that is rehashing from 4 buckets towards a table of
size `2 ^ 61` (bucket array of 0 bytes): the first `dictRehash(d, 1)` skips the empty bucket 0
and stores the entry of bucket 1 in bucket 1 of `ht[1]`, outside the block, so the loop
`while (dictRehash(d,1));` has no defined result for any number of calls, where C16 expects
it to end with the return value 0. -/
theorem C16_rehash_without_cells :
    Reachable identityType hugeRehashingDict ∧ dictIsRehashing hugeRehashingDict = true ∧
    hugeRehashingDict.ht0.size = 4 ∧ hugeRehashingDict.ht1.table = some [] ∧
    bucketGet hugeRehashingDict.ht1
      (dictHashKey hugeRehashingDict 1 &&& hugeRehashingDict.ht1.sizemask) = none ∧
    dictRehash hugeRehashingDict 1 = none ∧ dictRehash hugeRehashingDict 100 = none ∧
    ∀ fuel, rehashRepeat fuel hugeRehashingDict = none := by
  refine ⟨hugeRehashingDict_reachable, rfl, rfl, rfl, rfl, rfl, rfl, ?_⟩
  · intro fuel
    cases fuel with
    | zero => rfl
    | succ k =>
      unfold rehashRepeat
      rw [show dictRehash hugeRehashingDict 1 = none from rfl]


/-- The property of C16 on the dictionaries whose bucket arrays have the cells of
their `size`: for every rehashing dictionary reachable from `dictCreate`, the caller loop
`while (dictRehash(d,1));` ends within `ht[0].size` calls: the calls before the last return 1
and leave the dictionary rehashing, the last call returns 0 and leaves `rehashidx = -1`, the
table that was `ht[1]` (same size and mask, now holding every entry) installed as `ht[0]`, and
`ht[1]` reset to an unallocated table of size 0 without entries. -/
theorem rehash_terminates (T : dictType) (hT : LawfulType T) (d : dict)
    (h : Reachable T d)
    (hal : tablesAllocated d = true) (hr : dictIsRehashing d = true) :
    ∃ d1 k, rehashRepeat d.ht0.size d = some (d1, List.replicate k (1, true) ++ [(0, false)]) ∧
      k + 1 ≤ d.ht0.size ∧ d1.rehashidx = -1 ∧ d1.ht0.table ≠ none ∧
      d1.ht0.size = d.ht1.size ∧ d1.ht0.sizemask = d.ht1.sizemask ∧
      (htEntries d1.ht0).Perm (dictEntries d) ∧
      d1.ht1 = _dictReset ∧ d1.ht1.table = none ∧ d1.ht1.size = 0 ∧ htEntries d1.ht1 = [] := by
  obtain ⟨hinv, hty⟩ := Reachable_alloc hT h hal
  have hTd : LawfulType d.type := hty ▸ hT
  have hr1 : d.rehashidx ≠ -1 := (dictIsRehashing_iff d).mp hr
  have h0 := hinv.idx_nonneg hr1
  have hsz : 1 ≤ d.ht0.size := by
    have := (ht_size_of_alloc hinv.ok0 (hinv.alloc0 hr1)).1
    omega
  obtain ⟨d1, k, e1, e2, e3, _, _, _, e7, e8, e9, e10, e11, e12⟩ :=
    rehashRepeat_spec d.ht0.size d hTd hinv hr1 hsz (by omega)
  refine ⟨d1, k, e1, e2, e8, e12, e10, e11, ?_, e9, ?_, ?_, ?_⟩
  · have : dictEntries d1 = htEntries d1.ht0 := by
      rw [dictEntries, e9]
      simp [htEntries, _dictReset]
    rw [← this]
    exact e7
  · rw [e9]; rfl
  · rw [e9]; rfl
  · rw [e9]; rfl

/-- An instance of the property of C16: a dictionary with one entry, rehashing from 4 to 8 buckets. -/
theorem rehash_terminates_example :
    dictIsRehashing rehashingDict = true ∧
    ∃ d1 k, rehashRepeat rehashingDict.ht0.size rehashingDict =
        some (d1, List.replicate k (1, true) ++ [(0, false)]) ∧
      k + 1 ≤ rehashingDict.ht0.size ∧ d1.rehashidx = -1 ∧ d1.ht0.table ≠ none ∧
      d1.ht0.size = rehashingDict.ht1.size ∧ d1.ht0.sizemask = rehashingDict.ht1.sizemask ∧
      (htEntries d1.ht0).Perm (dictEntries rehashingDict) ∧
      d1.ht1 = _dictReset ∧ d1.ht1.table = none ∧ d1.ht1.size = 0 ∧ htEntries d1.ht1 = [] :=
  ⟨rfl, rehash_terminates identityType identityType_lawful rehashingDict
    rehashingDict_reachable rfl rfl⟩

/-- C15 fails as stated: after eight `dictAdd` calls with resizing enabled on a new dictionary
(keys 1 to 8, hashed to themselves) no table has capacity 16; the dictionary is still rehashing
from 4 to 8 buckets, with three of the four buckets of `ht[0]` moved. -/
theorem C15_counterexample :
    ∃ d8, addKeys true (dictCreate identityType) [1, 2, 3, 4, 5, 6, 7, 8] =
        some (d8, List.replicate 8 DICT_OK) ∧
      dictSize d8 = 8 ∧ dictIsRehashing d8 = true ∧ d8.rehashidx = 3 ∧
      d8.ht0.size = 4 ∧ d8.ht1.size = 8 ∧ d8.ht0.size ≠ 16 ∧ d8.ht1.size ≠ 16 :=
  ⟨_, rfl, rfl, rfl, rfl, rfl, rfl, by decide, by decide⟩

/-- C15, amended: starting from a newly created dictionary with resizing enabled and adding 9
distinct keys with `dictAdd`, every add returns `DICT_OK`; after the fifth add the dictionary is
rehashing from capacity 4 towards a table of capacity 8 (`rehashidx = 0`) and `dictSize` is 5;
after the eighth add `dictSize` is 8 and the dictionary is either still rehashing from 4 to 8 or
settled at capacity 8, so there is no table of capacity 16; after the ninth add it is rehashing
from capacity 8 towards a table of capacity 16 (`rehashidx = 0`). -/
theorem C15_growth_scenario (T : dictType) (hT : LawfulType T) (ks : List Nat)
    (hlen : ks.length = 9) (hd : ks.Pairwise (fun a b => keyEq T a b = false)) :
    ∃ d5 d8 d9,
      addKeys true (dictCreate T) (ks.take 5) = some (d5, List.replicate 5 DICT_OK) ∧
      dictSize d5 = 5 ∧ d5.rehashidx = 0 ∧ d5.ht0.size = 4 ∧ d5.ht1.size = 8 ∧
      addKeys true (dictCreate T) (ks.take 8) = some (d8, List.replicate 8 DICT_OK) ∧
      dictSize d8 = 8 ∧
      ((dictIsRehashing d8 = true ∧ d8.ht0.size = 4 ∧ d8.ht1.size = 8) ∨
        (dictIsRehashing d8 = false ∧ d8.ht0.size = 8 ∧ d8.ht1.size = 0)) ∧
      addKeys true (dictCreate T) ks = some (d9, List.replicate 9 DICT_OK) ∧
      dictSize d9 = 9 ∧ d9.rehashidx = 0 ∧ d9.ht0.size = 8 ∧ d9.ht1.size = 16 := by
  have hp0 : growthPhase 0 (dictCreate T) := Or.inl ⟨rfl, rfl, rfl⟩
  have run : ∀ m, m ≤ 9 → ∃ d1, addKeys true (dictCreate T) (ks.take m) =
      some (d1, List.replicate m DICT_OK) ∧ dictSize d1 = m ∧ growthPhase m d1 := by
    intro m hm
    have hl : (ks.take m).length = m := by
      rw [List.length_take, hlen]
      omega
    obtain ⟨d1, c1, c2, _, c4, c5⟩ := addKeys_growth (ks.take m) (dictCreate T) 0 hT
      (Inv_create T) rfl rfl (by omega) hp0 (hd.sublist (List.take_sublist m ks))
      (fun _ _ x hx => by cases hx)
    rw [hl] at c1 c4 c5
    rw [Nat.zero_add] at c4 c5
    exact ⟨d1, c1, by rw [dictSize_eq c2, c4], c5⟩
  obtain ⟨d5, a1, a2, a3⟩ := run 5 (by omega)
  obtain ⟨d8, b1, b2, b3⟩ := run 8 (by omega)
  obtain ⟨d9, c1, c2, c3⟩ := run 9 (by omega)
  have h9 : ks.take 9 = ks := by
    rw [← hlen]
    exact List.take_length ks
  rw [h9] at c1
  have e5 : d5.rehashidx = 0 ∧ d5.ht0.size = 4 ∧ d5.ht1.size = 8 := by
    rcases a3 with ⟨h, _⟩ | ⟨_, h, _⟩ | ⟨_, h⟩ | ⟨h, _⟩ | ⟨h, _⟩
    · omega
    · omega
    · exact h
    · omega
    · omega
  have e9 : d9.rehashidx = 0 ∧ d9.ht0.size = 8 ∧ d9.ht1.size = 16 := by
    rcases c3 with ⟨h, _⟩ | ⟨_, h, _⟩ | ⟨h, _⟩ | ⟨_, h, _⟩ | ⟨_, h⟩
    · omega
    · omega
    · omega
    · omega
    · exact h
  refine ⟨d5, d8, d9, a1, a2, e5.1, e5.2.1, e5.2.2, b1, b2, ?_, c1, c2, e9⟩
  rcases b3 with ⟨h, _⟩ | ⟨_, h, _⟩ | ⟨h, _⟩ | ⟨_, _, h⟩ | ⟨h, _⟩
  · omega
  · omega
  · omega
  · rcases h with ⟨h1, h2, h3, _⟩ | ⟨h1, h2, h3⟩
    · exact Or.inl ⟨(dictIsRehashing_iff d8).mpr h1, h2, h3⟩
    · refine Or.inr ⟨?_, h2, h3⟩
      simp [dictIsRehashing, h1]
  · omega

/-- Witness of C15 (amended): the keys 1 to 9, hashed to themselves. -/
theorem C15_growth_scenario_witness :
    [1, 2, 3, 4, 5, 6, 7, 8, 9].length = 9 ∧
    [1, 2, 3, 4, 5, 6, 7, 8, 9].Pairwise (fun a b => keyEq identityType a b = false) ∧
    ∃ d5 d8 d9,
      addKeys true (dictCreate identityType) ([1, 2, 3, 4, 5, 6, 7, 8, 9].take 5) =
        some (d5, List.replicate 5 DICT_OK) ∧
      dictSize d5 = 5 ∧ d5.rehashidx = 0 ∧ d5.ht0.size = 4 ∧ d5.ht1.size = 8 ∧
      addKeys true (dictCreate identityType) ([1, 2, 3, 4, 5, 6, 7, 8, 9].take 8) =
        some (d8, List.replicate 8 DICT_OK) ∧
      dictSize d8 = 8 ∧
      ((dictIsRehashing d8 = true ∧ d8.ht0.size = 4 ∧ d8.ht1.size = 8) ∨
        (dictIsRehashing d8 = false ∧ d8.ht0.size = 8 ∧ d8.ht1.size = 0)) ∧
      addKeys true (dictCreate identityType) [1, 2, 3, 4, 5, 6, 7, 8, 9] =
        some (d9, List.replicate 9 DICT_OK) ∧
      dictSize d9 = 9 ∧ d9.rehashidx = 0 ∧ d9.ht0.size = 8 ∧ d9.ht1.size = 16 :=
  ⟨rfl, by decide, C15_growth_scenario identityType identityType_lawful
    [1, 2, 3, 4, 5, 6, 7, 8, 9] rfl (by decide)⟩

/-- C20 fails as stated: on a reachable dictionary that is rehashing, holds no entry and has no
live iterator, `dictFind` and `dictDelete` return at once and perform no rehash step: the
dictionary is unchanged with `rehashidx = 0`, whereas a call of `dictRehash(d,1)` would have
finished the rehash. -/
theorem C20_counterexample :
    Reachable identityType emptyRehashingDict ∧ dictIsRehashing emptyRehashingDict = true ∧
      emptyRehashingDict.iterators = 0 ∧ emptyRehashingDict.rehashidx = 0 ∧
      dictFind emptyRehashingDict 1 = some (emptyRehashingDict, none) ∧
      dictDelete emptyRehashingDict 1 = some (emptyRehashingDict, DICT_ERR) ∧
      ∃ d0, dictRehash emptyRehashingDict 1 = some (d0, 0) ∧ d0.rehashidx = -1 :=
  ⟨emptyRehashingDict_reachable, rfl, rfl, rfl, rfl, rfl, _, rfl, rfl⟩

/-- C20, amended: while a reachable dictionary whose bucket arrays have the cells of their
`size` is rehashing, `dictAdd` and `dictReplace`, and on a dictionary that holds at least one
entry also `dictDelete` and `dictFind`, perform exactly one `dictRehash(d,1)` when the
live-iterator counter is zero: they run their remaining code on the dictionary that this call
has produced (for `dictFind` the dictionary it returns is that dictionary). On a dictionary
without entries `dictDelete` and `dictFind` return at once, without a rehash step. When the
counter is above zero the four operations run their remaining code on the dictionary as it is:
they perform no rehash step, `rehashidx` (and the size of each table) is unchanged, and no
entry moves from `ht[0]` to `ht[1]`: no entry that is in `ht[1]` after the call has the key of
an entry that was in `ht[0]` before it (`dictFind` returns the dictionary unchanged). -/
theorem C20_rehash_step (T : dictType) (hT : LawfulType T) (d : dict) (h : Reachable T d)
    (hal : tablesAllocated d = true)
    (hr : dictIsRehashing d = true) (hsz : dictSize d < ENTRY_LIMIT) (cr : Bool)
    (key val : Nat) :
    (d.iterators = 0 →
      ∃ d0 r, dictRehash d 1 = some (d0, r) ∧
        dictAdd cr d key val = dictAddInsert cr d0 key val ∧
        dictReplace cr d key val = dictReplaceInsert cr d0 key val ∧
        (dictSize d ≠ 0 →
          dictDelete d key = dictDeleteSearch d0 key ∧
          dictFind d key = dictFindLookup d0 key ∧ ∃ res, dictFind d key = some (d0, res)) ∧
        (dictSize d = 0 →
          dictDelete d key = some (d, DICT_ERR) ∧ dictFind d key = some (d, none))) ∧
    (d.iterators ≠ 0 →
      dictAdd cr d key val = dictAddInsert cr d key val ∧
      dictReplace cr d key val = dictReplaceInsert cr d key val ∧
      (dictSize d ≠ 0 → dictDelete d key = dictDeleteSearch d key) ∧
      (∃ res, dictFind d key = some (d, res)) ∧
      (∃ d2 r, dictAdd cr d key val = some (d2, r) ∧ d2.rehashidx = d.rehashidx ∧
        d2.ht0.size = d.ht0.size ∧ d2.ht1.size = d.ht1.size ∧
        ∀ e, e ∈ htEntries d2.ht1 → ∀ x, x ∈ htEntries d.ht0 → keyEq T e.key x.key = false) ∧
      (∃ d2 r, dictReplace cr d key val = some (d2, r) ∧ d2.rehashidx = d.rehashidx ∧
        d2.ht0.size = d.ht0.size ∧ d2.ht1.size = d.ht1.size ∧
        ∀ e, e ∈ htEntries d2.ht1 → ∀ x, x ∈ htEntries d.ht0 → keyEq T e.key x.key = false) ∧
      (∃ d2 r, dictDelete d key = some (d2, r) ∧ d2.rehashidx = d.rehashidx ∧
        d2.ht0.size = d.ht0.size ∧ d2.ht1.size = d.ht1.size ∧
        ∀ e, e ∈ htEntries d2.ht1 → ∀ x, x ∈ htEntries d.ht0 → keyEq T e.key x.key = false) ∧
      (∀ e, e ∈ htEntries d.ht1 → ∀ x, x ∈ htEntries d.ht0 → keyEq T e.key x.key = false)) := by
  obtain ⟨hinv, hty⟩ := Reachable_alloc hT h hal
  have hTd : LawfulType d.type := hty ▸ hT
  have hr1 : d.rehashidx ≠ -1 := (dictIsRehashing_iff d).mp hr
  have hb := entries_lt_of_dictSize hinv hsz
  have hfind0 : dictSize d = 0 → dictFind d key = some (d, none) := by
    intro h0
    have h0' : (d.ht0.used + d.ht1.used) % 18446744073709551616 = 0 := h0
    unfold dictFind
    rw [if_pos h0']
  have hdel0 : dictSize d = 0 → dictDelete d key = some (d, DICT_ERR) := by
    intro h0
    unfold dictDelete dictGenericDelete
    rw [if_pos ((used_zero_iff hinv).mpr h0)]
  obtain ⟨df, rf, f1, _⟩ := dictFind_spec d key hTd hinv
  constructor
  · intro hi
    obtain ⟨d0, r, g1, _⟩ := dictRehash_spec d 1 hTd hinv
    have hstep : rehashStepIfRehashing d = some d0 := by
      rw [rehashStep_eq hr1 hi, g1]
      rfl
    refine ⟨d0, r, g1, ?_, ?_, ?_, fun h0 => ⟨hdel0 h0, hfind0 h0⟩⟩
    · rw [dictAdd_eq, hstep]
      rfl
    · rw [dictReplace_eq, hstep]
      rfl
    · intro hne
      have hfe : dictFind d key = dictFindLookup d0 key := by
        rw [dictFind_eq d key hne, hstep]
        rfl
      refine ⟨?_, hfe, rf, ?_⟩
      · rw [dictDelete_eq d key (fun hc => hne ((used_zero_iff hinv).mp hc)), hstep]
        rfl
      · rw [f1]
        rw [hfe] at f1
        rw [dictFindLookup_state f1]
  · intro hi
    have hstep := rehashStep_blocked (d := d) hi
    refine ⟨?_, ?_, ?_, ?_, ?_, ?_, ?_, no_move_of_subset hT hty hinv (fun e he => he)⟩
    · rw [dictAdd_eq, hstep]
      rfl
    · rw [dictReplace_eq, hstep]
      rfl
    · intro hne
      rw [dictDelete_eq d key (fun hc => hne ((used_zero_iff hinv).mp hc)), hstep]
      rfl
    · by_cases h0 : dictSize d = 0
      · exact ⟨none, hfind0 h0⟩
      · refine ⟨rf, ?_⟩
        rw [f1]
        rw [dictFind_eq d key h0, hstep] at f1
        rw [dictFindLookup_state f1]
    · obtain ⟨d2, r, a1, a2, a3, _, ⟨d0, d1, a5, a6, a7, a8, a9⟩, _⟩ :=
        dictAdd_spec cr d key val hTd hinv hb
      rw [hstep] at a5
      cases a5
      rw [expandIfNeeded_rehashing cr hr1] at a6
      cases a6
      exact ⟨d2, r, a1, a7, a8, a9, no_move_of_keys_kept hT (a3.trans hty) a2
        (dictAdd_blocked_keys hTd hinv hsz hr1 hi a1)⟩
    · obtain ⟨d2, r, a1, a2, a3, _, ⟨d0, d1, a5, a6, a7, a8, a9⟩, _⟩ :=
        dictReplace_spec cr d key val hTd hinv hb
      rw [hstep] at a5
      cases a5
      rw [expandIfNeeded_rehashing cr hr1] at a6
      cases a6
      exact ⟨d2, r, a1, a7, a8, a9, no_move_of_keys_kept hT (a3.trans hty) a2
        (dictReplace_blocked_keys hTd hinv hsz hr1 hi a1)⟩
    · obtain ⟨d2, r, a1, _, _, _, a5⟩ := dictDelete_spec d key hTd hinv
      have hnm := no_move_of_subset hT hty hinv (dictDelete_blocked_subset hTd hinv hi a1)
      rcases a5 with ⟨_, _, _, _, h5⟩ | ⟨he, _, _, _, _, _, d1, h6, h7, h8, h9⟩
      · have : d2 = d := by
          rcases h5 with h5 | h5
          · exact h5
          · rw [hstep] at h5
            exact (Option.some.inj h5).symm
        subst this
        exact ⟨d2, r, a1, rfl, rfl, rfl, hnm⟩
      · rw [hstep] at h6
        cases h6
        exact ⟨d2, r, a1, h7, h8, h9, hnm⟩

/-- Witness of C20 (amended): a dictionary with one entry, rehashing from 4 to 8 buckets, without
live iterator. -/
theorem C20_rehash_step_witness :
    dictIsRehashing rehashingDict = true ∧ dictSize rehashingDict < ENTRY_LIMIT ∧
    ∃ d0 r, dictRehash rehashingDict 1 = some (d0, r) ∧
      dictAdd true rehashingDict 2 20 = dictAddInsert true d0 2 20 ∧
      dictReplace true rehashingDict 2 20 = dictReplaceInsert true d0 2 20 ∧
      (dictSize rehashingDict ≠ 0 →
        dictDelete rehashingDict 2 = dictDeleteSearch d0 2 ∧
        dictFind rehashingDict 2 = dictFindLookup d0 2 ∧
        ∃ res, dictFind rehashingDict 2 = some (d0, res)) ∧
      (dictSize rehashingDict = 0 →
        dictDelete rehashingDict 2 = some (rehashingDict, DICT_ERR) ∧
        dictFind rehashingDict 2 = some (rehashingDict, none)) :=
  ⟨rfl, by decide,
    (C20_rehash_step identityType identityType_lawful rehashingDict rehashingDict_reachable rfl
      rfl (by decide) true 2 20).1 rfl⟩

/-- C18 at the new dictionary after `dictExpand(d, 2 ^ 61)` (`ht[0]` of size `2 ^ 61` with a
bucket array of 0 bytes): the first `dictNext` of a new iterator, safe or not, reads bucket 0
of that array, outside the block, so the iteration has no defined result, where C18 expects
it to return `NULL` after the `dictSize(d) = 0` entries. -/
theorem C18_iteration_without_cells :
    Reachable identityType voidDict ∧ dictSize voidDict = 0 ∧
    voidDict.ht0.size ≤ LONG_MAX ∧ voidDict.ht1.size ≤ LONG_MAX ∧
    voidDict.ht0.table = some [] ∧ bucketGet voidDict.ht0 0 = none ∧
    dictNext 4096 8192 dictGetIterator voidDict = none ∧
    dictNext 4096 8192 dictGetSafeIterator voidDict = none ∧
    ∀ fuel, iterateAll 4096 8192 fuel dictGetIterator voidDict = none ∧
      iterateAll 4096 8192 fuel dictGetSafeIterator voidDict = none := by
  refine ⟨voidDict_reachable, rfl, by decide, by decide, rfl, rfl, rfl, rfl, ?_⟩
  intro fuel
  cases fuel with
  | zero => exact ⟨rfl, rfl⟩
  | succ k =>
    constructor
    · unfold iterateAll
      rw [show dictNext 4096 8192 dictGetIterator voidDict = none from rfl]
    · unfold iterateAll
      rw [show dictNext 4096 8192 dictGetSafeIterator voidDict = none from rfl]

/-- The property of C18 on the dictionaries whose bucket arrays have the cells of
their `size`: on a reachable dictionary (whose tables have at most `LONG_MAX` buckets) that is not
modified during the iteration, the successive `dictNext` calls on a new iterator, safe or not,
return every stored entry exactly once, in the order of `dictEntries`: the buckets of `ht[0]`
in ascending index, each chain from head to tail, then in the same way the buckets of `ht[1]`,
which hold entries only when the dictionary is rehashing; the call after the last entry returns
`NULL`, so the number of entries returned is `dictSize(d)`. The calls leave the tables as they
are, an unsafe iterator the whole dictionary. -/
theorem iteration_order (T : dictType) (hT : LawfulType T) (d : dict) (h : Reachable T d)
    (hal : tablesAllocated d = true)
    (hs0 : d.ht0.size ≤ LONG_MAX) (hs1 : d.ht1.size ≤ LONG_MAX) (a0 a1 : Nat) (safe : Bool) :
    ∃ iter1 d1,
      iterateAll a0 a1 (dictSize d + 1) (if safe then dictGetSafeIterator else dictGetIterator)
        d = some (iter1, d1, dictEntries d) ∧
      dictEntries d = (d.ht0.table.getD []).flatten ++ (d.ht1.table.getD []).flatten ∧
      (dictIsRehashing d = false → (d.ht1.table.getD []).flatten = []) ∧
      (dictEntries d).length = dictSize d ∧
      d1.ht0 = d.ht0 ∧ d1.ht1 = d.ht1 ∧ d1.rehashidx = d.rehashidx ∧ (safe = false → d1 = d) := by
  obtain ⟨hinv, _⟩ := Reachable_alloc hT h hal
  have hit : (if safe then dictGetSafeIterator else dictGetIterator) =
      { dictGetIterator with safe := safe } := by
    cases safe <;> rfl
  rw [hit]
  have hflat : ∀ ht : dictht, htEntries ht = (ht.table.getD []).flatten := by
    intro ht
    unfold htEntries
    cases ht.table <;> rfl
  obtain ⟨it1, d1, k1, _, k3, k4, k5, _, k7⟩ :=
    iterateAll_spec a0 a1 (dictSize d + 1) { dictGetIterator with safe := safe } d hinv hs0 hs1
      (IterOK_start d safe) (by rw [iterRest_start, dictSize_eq hinv])
  rw [iterRest_start] at k1
  refine ⟨it1, d1, k1, ?_, ?_, (dictSize_eq hinv).symm, k3, k4, k5, k7⟩
  · rw [dictEntries, hflat, hflat]
  · intro hnr
    have hr : d.rehashidx = -1 := by
      by_contra hc
      rw [(dictIsRehashing_iff d).mpr hc] at hnr
      cases hnr
    rw [← hflat, ht1_entries_of_stable hinv hr]

/-- An instance of the property of C18: the unsafe iteration of a dictionary with one entry that is rehashing from
4 to 8 buckets. -/
theorem iteration_order_example :
    rehashingDict.ht0.size ≤ LONG_MAX ∧ rehashingDict.ht1.size ≤ LONG_MAX ∧
    ∃ iter1 d1,
      iterateAll 4096 8192 (dictSize rehashingDict + 1)
        (if false then dictGetSafeIterator else dictGetIterator) rehashingDict =
        some (iter1, d1, dictEntries rehashingDict) ∧
      dictEntries rehashingDict = (rehashingDict.ht0.table.getD []).flatten ++
        (rehashingDict.ht1.table.getD []).flatten ∧
      (dictIsRehashing rehashingDict = false →
        (rehashingDict.ht1.table.getD []).flatten = []) ∧
      (dictEntries rehashingDict).length = dictSize rehashingDict ∧
      d1.ht0 = rehashingDict.ht0 ∧ d1.ht1 = rehashingDict.ht1 ∧
      d1.rehashidx = rehashingDict.rehashidx ∧ (false = false → d1 = rehashingDict) :=
  ⟨by decide, by decide,
    iteration_order identityType identityType_lawful rehashingDict rehashingDict_reachable rfl
      (by decide) (by decide) 4096 8192 false⟩

/-- C17 fails as stated: between the first `dictNext` of an unsafe iterator and its release, a
`dictAdd` of a new key followed by the `dictDelete` of that key, both successful and neither
resizing the table (the dictionary holds one entry in four buckets and is not rehashing, so no
bucket array is allocated or freed: `ht[0].table` stays at its address, here 4096, and
`ht[1].table` stays `NULL`), leaves the six integers of the fingerprint as they were: the
fingerprint computed at release equals the recorded one and the assertion of
`dictReleaseIterator` passes. -/
theorem C17_counterexample :
    ∃ iter1,
      dictNext 4096 0 dictGetIterator oneKeyDict = some (iter1, oneKeyDict, some ⟨1, 10⟩) ∧
      _dictExpandIfNeeded true oneKeyDict = some (oneKeyDict, DICT_OK) ∧
      dictAdd true oneKeyDict 2 20 = some (twoKeyDict, DICT_OK) ∧ dictSize twoKeyDict = 2 ∧
      dictDelete twoKeyDict 2 = some (oneKeyAgainDict, DICT_OK) ∧
      dictSize oneKeyAgainDict = 1 ∧
      dictIsRehashing twoKeyDict = false ∧ dictIsRehashing oneKeyAgainDict = false ∧
      twoKeyDict.ht0.size = oneKeyDict.ht0.size ∧
      oneKeyAgainDict.ht0.size = oneKeyDict.ht0.size ∧
      fingerprintIntegers 4096 0 oneKeyAgainDict = fingerprintIntegers 4096 0 oneKeyDict ∧
      iter1.fingerprint = dictFingerprint 4096 0 oneKeyAgainDict ∧
      dictReleaseIterator 4096 0 iter1 oneKeyAgainDict = some oneKeyAgainDict :=
  fingerprint_restored 4096 0

/-- C17, amended, on a reachable dictionary whose bucket arrays have the cells of their
`size`: the first `dictNext` of an unsafe iterator records `dictFingerprint`, a hash of six
integers (the addresses, the sizes and the `used` counts of the two tables), and
`dictReleaseIterator` succeeds exactly when the hash of these six integers at release equals
the recorded one; in particular it succeeds whenever the six integers are the same as at the
first advance. A successful `dictAdd` raises `dictSize` by one and a successful `dictDelete`
lowers it by one, so each of them alone changes the six integers (the check then fails unless
the two hashes collide). -/
theorem C17_fingerprint (T : dictType) (hT : LawfulType T) (d : dict) (h : Reachable T d)
    (hal : tablesAllocated d = true)
    (hs0 : d.ht0.size ≤ LONG_MAX) (hs1 : d.ht1.size ≤ LONG_MAX) (a0 a1 : Nat) :
    (∃ iter1 r, dictNext a0 a1 dictGetIterator d = some (iter1, d, r) ∧
      iter1.fingerprint = dictFingerprint a0 a1 d ∧
      ∀ b0 b1 d1,
        dictReleaseIterator b0 b1 iter1 d1 =
          (if dictFingerprint a0 a1 d = dictFingerprint b0 b1 d1 then some d1 else none) ∧
        (fingerprintIntegers b0 b1 d1 = fingerprintIntegers a0 a1 d →
          dictReleaseIterator b0 b1 iter1 d1 = some d1)) ∧
    (∀ cr key val d2, dictSize d < ENTRY_LIMIT → dictAdd cr d key val = some (d2, DICT_OK) →
      dictSize d2 = dictSize d + 1 ∧
      ∀ b0 b1, fingerprintIntegers b0 b1 d2 ≠ fingerprintIntegers a0 a1 d) ∧
    (∀ key d2, dictDelete d key = some (d2, DICT_OK) →
      dictSize d2 + 1 = dictSize d ∧
      ∀ b0 b1, fingerprintIntegers b0 b1 d2 ≠ fingerprintIntegers a0 a1 d) := by
  obtain ⟨hinv, hty⟩ := Reachable_alloc hT h hal
  have hTd : LawfulType d.type := hty ▸ hT
  have hdiff : ∀ d2 : dict, Inv d2 → dictSize d2 ≠ dictSize d →
      ∀ b0 b1, fingerprintIntegers b0 b1 d2 ≠ fingerprintIntegers a0 a1 d := by
    intro d2 _ hne b0 b1 heq
    unfold fingerprintIntegers at heq
    simp only [List.cons.injEq, and_true] at heq
    obtain ⟨_, _, h2, _, _, h5⟩ := heq
    apply hne
    unfold dictSize
    rw [h2, h5]
  refine ⟨?_, ?_, ?_⟩
  · obtain ⟨it1, d1, k1, _, _, _, _, _, _, _, k9, _⟩ :=
      dictNext_spec a0 a1 dictGetIterator d hinv hs0 hs1 (IterOK_start d false)
    have hd1 : d1 = d := k9 rfl
    rw [hd1] at k1
    have k1' := k1
    unfold dictNext at k1'
    obtain ⟨f1, f2⟩ := dictNextLoop_fingerprint a0 a1 _ _ _ _ _ _ k1' (by decide) (by decide)
      (fun hc => absurd rfl hc)
    rw [if_pos (by decide)] at f1
    refine ⟨it1, _, k1, f1, ?_⟩
    intro b0 b1 d'
    have hsafe : it1.safe = false := by
      obtain ⟨it1', d1', k1'', _, _, _, _, _, _, k8, _⟩ :=
        dictNext_spec a0 a1 dictGetIterator d hinv hs0 hs1 (IterOK_start d false)
      rw [k1] at k1''
      cases k1''
      exact k8
    have hrel : dictReleaseIterator b0 b1 it1 d' =
        (if dictFingerprint a0 a1 d = dictFingerprint b0 b1 d' then some d' else none) := by
      rw [dictReleaseIterator_check b0 b1 it1 d' hsafe f2, f1]
    refine ⟨hrel, ?_⟩
    intro heq
    rw [hrel]
    exact if_pos (dictFingerprint_congr heq).symm
  · intro cr key val d2 hsz hop
    have hb := entries_lt_of_dictSize hinv hsz
    obtain ⟨d2', r, a1', a2, _, _, _, a6⟩ := dictAdd_spec cr d key val hTd hinv hb
    rw [hop] at a1'
    cases a1'
    have hlen : dictSize d2 = dictSize d + 1 := by
      rcases a6 with ⟨hr, _⟩ | ⟨_, _, hp, _⟩
      · exact absurd hr DICT_OK_ne_ERR
      · rw [dictSize_eq a2, dictSize_eq hinv, hp.length_eq, List.length_cons]
    exact ⟨hlen, hdiff d2 a2 (by omega)⟩
  · intro key d2 hop
    obtain ⟨d2', r, a1', a2, _, _, a5⟩ := dictDelete_spec d key hTd hinv
    rw [hop] at a1'
    cases a1'
    have hlen : dictSize d2 + 1 = dictSize d := by
      rcases a5 with ⟨hr, _⟩ | ⟨he, _, _, _, hp, _⟩
      · exact absurd hr DICT_OK_ne_ERR
      · rw [dictSize_eq a2, dictSize_eq hinv, hp.length_eq, List.length_cons]
    exact ⟨hlen, hdiff d2 a2 (by omega)⟩

/-- Witness of C17 (amended): the unsafe iteration of a dictionary with one entry. -/
theorem C17_fingerprint_witness :
    oneKeyDict.ht0.size ≤ LONG_MAX ∧ oneKeyDict.ht1.size ≤ LONG_MAX ∧
    ∃ iter1 r, dictNext 4096 0 dictGetIterator oneKeyDict = some (iter1, oneKeyDict, r) ∧
      iter1.fingerprint = dictFingerprint 4096 0 oneKeyDict ∧
      ∀ b0 b1 d1,
        dictReleaseIterator b0 b1 iter1 d1 =
          (if dictFingerprint 4096 0 oneKeyDict = dictFingerprint b0 b1 d1 then some d1
            else none) ∧
        (fingerprintIntegers b0 b1 d1 = fingerprintIntegers 4096 0 oneKeyDict →
          dictReleaseIterator b0 b1 iter1 d1 = some d1) :=
  ⟨by decide, by decide,
    (C17_fingerprint identityType identityType_lawful oneKeyDict oneKeyDict_reachable rfl
      (by decide) (by decide) 4096 0).1⟩

/-- C19 at the dictionary with the key 1 that is rehashing from 4 buckets towards a table of
size `2 ^ 61` (bucket array of 0 bytes): the first `dictNext` of a safe iterator returns the
entry of the key 1 and `dictDelete` removes it, but the next `dictNext` goes on to `ht[1]` and
reads its bucket 0, outside the block: the loop has no defined result, where C19 expects
`dictNext` to return `NULL` on a dictionary without entries. -/
theorem C19_deleting_without_cells :
    Reachable identityType hugeRehashingDict ∧ hugeRehashingDict.ht0.size ≤ LONG_MAX ∧
    hugeRehashingDict.ht1.size ≤ LONG_MAX ∧
    hugeRehashingDict.iterators < 18446744073709551615 ∧
    hugeRehashingDict.ht1.table = some [] ∧
    (dictNext 4096 8192 dictGetSafeIterator hugeRehashingDict).map (fun r => r.2.2) =
      some (some { key := 1, val := 10 }) ∧
    iterateDeleting 4096 8192 (dictSize hugeRehashingDict + 1) dictGetSafeIterator
      hugeRehashingDict = none ∧
    iterateDeleting 4096 8192 100 dictGetSafeIterator hugeRehashingDict = none :=
  ⟨hugeRehashingDict_reachable, by decide, by decide, by decide, rfl, rfl, rfl, rfl⟩

/-- The property of C19 on the dictionaries whose bucket arrays have the cells of
their `size`: on a reachable dictionary (tables of at most `LONG_MAX` buckets, iterator counter not
at its maximum), the caller loop that takes a safe iterator and deletes each entry with
`dictDelete` right after `dictNext` has returned it gets every entry that was stored at the
start exactly once, in the order of `dictEntries`, which is the order of the iteration without
deletions; every `dictDelete` returns `DICT_OK`, and when `dictNext` returns `NULL` the
dictionary holds no entry. -/
theorem safe_iterator_deleting (T : dictType) (hT : LawfulType T) (d : dict)
    (h : Reachable T d)
    (hal : tablesAllocated d = true) (hs0 : d.ht0.size ≤ LONG_MAX) (hs1 : d.ht1.size ≤ LONG_MAX)
    (hcnt : d.iterators < 18446744073709551615) (a0 a1 : Nat) :
    ∃ iter1 d1 iter2 d2,
      iterateDeleting a0 a1 (dictSize d + 1) dictGetSafeIterator d =
        some (iter1, d1, (dictEntries d).map (fun e => (e, DICT_OK))) ∧
      dictEntries d1 = [] ∧ dictSize d1 = 0 ∧
      iterateAll a0 a1 (dictSize d + 1) dictGetSafeIterator d =
        some (iter2, d2, dictEntries d) := by
  obtain ⟨hinv, hty⟩ := Reachable_alloc hT h hal
  have hTd : LawfulType d.type := hty ▸ hT
  have hit : dictGetSafeIterator = { dictGetIterator with safe := true } := rfl
  obtain ⟨it1, d1, k1, k2, k3, _⟩ :=
    iterateDeleting_spec a0 a1 (dictSize d + 1) dictGetSafeIterator d hTd hinv hs0 hs1
      (by rw [hit]; exact IterOK_start d true) (by rw [hit]; exact iterRest_start d true) rfl
      (Or.inl ⟨rfl, rfl, hcnt⟩) (by rw [dictSize_eq hinv])
  obtain ⟨it2, d2, n1, _⟩ :=
    iterateAll_spec a0 a1 (dictSize d + 1) dictGetSafeIterator d hinv hs0 hs1
      (by rw [hit]; exact IterOK_start d true)
      (by rw [hit, iterRest_start, dictSize_eq hinv])
  rw [hit, iterRest_start] at n1
  refine ⟨it1, d1, it2, d2, k1, k2, ?_, n1⟩
  rw [dictSize_eq k3, k2]
  rfl

/-- An instance of the property of C19: a dictionary with one entry that is rehashing from 4 to 8 buckets. -/
theorem safe_iterator_deleting_example :
    rehashingDict.ht0.size ≤ LONG_MAX ∧ rehashingDict.ht1.size ≤ LONG_MAX ∧
    rehashingDict.iterators < 18446744073709551615 ∧
    ∃ iter1 d1 iter2 d2,
      iterateDeleting 4096 8192 (dictSize rehashingDict + 1) dictGetSafeIterator rehashingDict =
        some (iter1, d1, (dictEntries rehashingDict).map (fun e => (e, DICT_OK))) ∧
      dictEntries d1 = [] ∧ dictSize d1 = 0 ∧
      iterateAll 4096 8192 (dictSize rehashingDict + 1) dictGetSafeIterator rehashingDict =
        some (iter2, d2, dictEntries rehashingDict) :=
  ⟨by decide, by decide, by decide,
    safe_iterator_deleting identityType identityType_lawful rehashingDict
      rehashingDict_reachable rfl (by decide) (by decide) (by decide) 4096 8192⟩

/-- C1 at the new dictionary after `dictExpand(d, 2 ^ 61)`: the call returns `DICT_OK` and
leaves `ht[0]` with the size `2 ^ 61` and a bucket array of `2 ^ 61 * 8 mod 2 ^ 64 = 0` bytes.
The dictionary is reachable, not rehashing and holds no key, but `dictAdd(d, 1, 10)` reads the
bucket 1 of that array, outside the block: it has no defined result, where C1 expects
`DICT_OK`. -/
theorem C1_add_without_cells :
    dictExpand (dictCreate identityType) 2305843009213693952 = some (voidDict, DICT_OK) ∧
    Reachable identityType voidDict ∧ dictIsRehashing voidDict = false ∧
    voidDict.ht0.size = 2305843009213693952 ∧ allocCells voidDict.ht0.size = 0 ∧
    voidDict.ht0.table = some [] ∧ dictSize voidDict < ENTRY_LIMIT ∧
    ¬ keyPresent voidDict 1 ∧
    bucketGet voidDict.ht0 (dictHashKey voidDict 1 &&& voidDict.ht0.sizemask) = none ∧
    dictAdd true voidDict 1 10 = none ∧ dictAdd false voidDict 1 10 = none :=
  ⟨rfl, voidDict_reachable, rfl, rfl, rfl, rfl, by decide, by unfold keyPresent; decide,
    rfl, rfl, rfl⟩

/-- The property of C1 on the dictionaries whose bucket arrays have the cells of
their `size`: for every dictionary reachable from `dictCreate` (stable or rehashing, with room for
one more entry), whose type has lawful callbacks and no dup callbacks, and every key that is not
present, `dictAdd(d,K,V)` returns `DICT_OK`, and the following `dictFind(d,K)` returns an entry
with key `K` and value `V`; `dictFetchValue` returns `V`. -/
theorem add_then_find (T : dictType) (hT : LawfulType T) (hkd : T.keyDup = none)
    (hvd : T.valDup = none) (d : dict) (h : Reachable T d)
    (hal : tablesAllocated d = true) (hsz : dictSize d < ENTRY_LIMIT)
    (cr : Bool) (key val : Nat) (habs : ¬ keyPresent d key) :
    ∃ d2 d3 he, dictAdd cr d key val = some (d2, DICT_OK) ∧
      dictFind d2 key = some (d3, some he) ∧ he.key = key ∧ he.val = val ∧
      dictFetchValue d2 key = some (d3, val) := by
  obtain ⟨hinv, hty⟩ := Reachable_alloc hT h hal
  have hTd : LawfulType d.type := hty ▸ hT
  have hb := entries_lt_of_dictSize hinv hsz
  have hno := not_keyPresent hty habs
  obtain ⟨d2, r, a1, a2, a3, _, _, a6⟩ := dictAdd_spec cr d key val hTd hinv hb
  rw [hty] at a6 a3
  have hsk : dictSetKey d key = key := by
    unfold dictSetKey
    rw [hty, hkd]
  have hsv : storedVal T val = val := by
    unfold storedVal
    rw [hvd]
  rcases a6 with ⟨_, ⟨x, hx, hk⟩, _⟩ | ⟨hr, _, hp, _⟩
  · rw [hno x hx] at hk
    cases hk
  · subst hr
    rw [hsk, hsv] at hp
    have hT2 : LawfulType d2.type := by rw [a3]; exact hT
    obtain ⟨d3, res, f1, f2, f3, _, _, f6, f7, f8, _⟩ := dictFind_spec d2 key hT2 a2
    rw [a3] at f7 f8
    have hnew : (⟨key, val⟩ : dictEntry) ∈ dictEntries d2 := hp.mem_iff.mpr (List.mem_cons_self _ _)
    cases res with
    | none =>
      have := f7 rfl ⟨key, val⟩ hnew
      rw [keyEq_refl] at this
      cases this
    | some he =>
      obtain ⟨g1, g2⟩ := f8 he rfl
      have hmem : he ∈ dictEntries d2 := f6.mem_iff.mp g1
      have heq : he = ⟨key, val⟩ := by
        rcases List.mem_cons.mp (hp.mem_iff.mp hmem) with h1 | h1
        · exact h1
        · rw [hno he h1] at g2
          cases g2
      refine ⟨d2, d3, he, a1, f1, by rw [heq], by rw [heq], ?_⟩
      unfold dictFetchValue
      rw [f1, heq]

/-- An instance of the property of C1: the key 2 added to a dictionary that holds the key 1 and is rehashing. -/
theorem add_then_find_example :
    identityType.keyDup = none ∧ identityType.valDup = none ∧
    dictSize rehashingDict < ENTRY_LIMIT ∧ ¬ keyPresent rehashingDict 2 ∧
    ∃ d2 d3 he, dictAdd true rehashingDict 2 20 = some (d2, DICT_OK) ∧
      dictFind d2 2 = some (d3, some he) ∧ he.key = 2 ∧ he.val = 20 ∧
      dictFetchValue d2 2 = some (d3, 20) :=
  ⟨rfl, rfl, by decide, by unfold keyPresent; decide,
    add_then_find identityType identityType_lawful rfl rfl rehashingDict
      rehashingDict_reachable rfl (by decide) true 2 20 (by unfold keyPresent; decide)⟩

/-- C2 at the dictionary that holds the key 1 in 4 buckets and has been given to
`dictExpand(d, 2 ^ 61)`: it is reachable and rehashing towards a table of size `2 ^ 61` whose
bucket array has 0 bytes. The key 1 is present, but `dictDelete(d, 1)` starts with a rehash
step that stores the entry in bucket 1 of that array, outside the block: it has no defined
result, where C2 expects `DICT_OK`. -/
theorem C2_delete_without_cells :
    dictExpand oneKeyDict 2305843009213693952 = some (hugeRehashingDict, DICT_OK) ∧
    Reachable identityType hugeRehashingDict ∧ dictIsRehashing hugeRehashingDict = true ∧
    hugeRehashingDict.ht0.table = some [[], [{ key := 1, val := 10 }], [], []] ∧
    hugeRehashingDict.ht1.size = 2305843009213693952 ∧
    hugeRehashingDict.ht1.table = some [] ∧ keyPresent hugeRehashingDict 1 ∧
    dictRehash hugeRehashingDict 1 = none ∧ dictDelete hugeRehashingDict 1 = none :=
  ⟨rfl, hugeRehashingDict_reachable, rfl, rfl, rfl, rfl, by unfold keyPresent; decide, rfl,
    rfl⟩

/-- The property of C2 on the dictionaries whose bucket arrays have the cells of
their `size`: for every dictionary reachable from `dictCreate`, stable or rehashing, and every key
that is present (in either table), `dictDelete(d,K)` returns `DICT_OK` and the following
`dictFind(d,K)` returns `NULL`: the key is no longer present, and one entry less is stored. -/
theorem delete_then_find (T : dictType) (hT : LawfulType T) (d : dict) (h : Reachable T d)
    (hal : tablesAllocated d = true)
    (key : Nat) (hp : keyPresent d key) :
    ∃ d2 d3, dictDelete d key = some (d2, DICT_OK) ∧ dictFind d2 key = some (d3, none) ∧
      ¬ keyPresent d2 key ∧ dictSize d2 + 1 = dictSize d := by
  obtain ⟨hinv, hty⟩ := Reachable_alloc hT h hal
  have hTd : LawfulType d.type := hty ▸ hT
  obtain ⟨x, hx, hkx⟩ := hp
  obtain ⟨d2, r, a1, a2, a3, _, a5⟩ := dictDelete_spec d key hTd hinv
  rcases a5 with ⟨_, hno, _⟩ | ⟨he, hr, hk, hmem, hperm, _⟩
  · rw [hno x hx] at hkx
    cases hkx
  · subst hr
    have hnd : (he :: dictEntries d2).Pairwise (keysDiffer d.type) :=
      (List.Perm.pairwise_iff (fun hxy => keysDiffer_symm hTd hxy) hperm).mp hinv.nodup
    have habs2 : ∀ y ∈ dictEntries d2, keyEq d.type key y.key = false := by
      intro y hy
      cases hky : keyEq d.type key y.key with
      | false => rfl
      | true =>
        have hdiff : keysDiffer d.type he y := (List.pairwise_cons.mp hnd).1 y hy
        have := hTd.trans _ _ _ (hTd.symm _ _ hk) hky
        rw [keysDiffer] at hdiff
        rw [hdiff] at this
        cases this
    have hT2 : LawfulType d2.type := by rw [a3]; exact hTd
    obtain ⟨d3, res, f1, _, _, _, _, f6, _, f8, _⟩ := dictFind_spec d2 key hT2 a2
    rw [a3] at f8
    have hres : res = none := by
      cases res with
      | none => rfl
      | some y =>
        obtain ⟨g1, g2⟩ := f8 y rfl
        rw [habs2 y (f6.mem_iff.mp g1)] at g2
        cases g2
    rw [hres] at f1
    refine ⟨d2, d3, a1, f1, ?_, ?_⟩
    · rintro ⟨y, hy, hky⟩
      rw [a3, habs2 y hy] at hky
      cases hky
    · rw [dictSize_eq a2, dictSize_eq hinv, hperm.length_eq, List.length_cons]

/-- An instance of the property of C2: the key 1 of a dictionary that is rehashing. -/
theorem delete_then_find_example :
    keyPresent rehashingDict 1 ∧
    ∃ d2 d3, dictDelete rehashingDict 1 = some (d2, DICT_OK) ∧
      dictFind d2 1 = some (d3, none) ∧ ¬ keyPresent d2 1 ∧
      dictSize d2 + 1 = dictSize rehashingDict :=
  ⟨by unfold keyPresent; decide,
    delete_then_find identityType identityType_lawful rehashingDict rehashingDict_reachable rfl 1
      (by unfold keyPresent; decide)⟩

/-- C7 at the new dictionary after `dictExpand(d, 2 ^ 61)` (`ht[0]` of size `2 ^ 61` with a
bucket array of 0 bytes): the key 1 is absent, but `dictReplace(d, 1, 10)` reads bucket 1 of
that array, outside the block: it has no defined result, where C7 expects the return value 1
and the value stored under the key. -/
theorem C7_replace_without_cells :
    Reachable identityType voidDict ∧ voidDict.ht0.size = 2305843009213693952 ∧
    voidDict.ht0.table = some [] ∧ dictSize voidDict < ENTRY_LIMIT ∧ ¬ keyPresent voidDict 1 ∧
    dictReplace true voidDict 1 10 = none ∧ dictReplace false voidDict 1 10 = none :=
  ⟨voidDict_reachable, rfl, rfl, by decide, by unfold keyPresent; decide, rfl, rfl⟩

/-- The property of C7 on the dictionaries whose bucket arrays have the cells of
their `size`: on a reachable dictionary (with room for one more entry), `dictReplace(d,K,V)` returns 1
and adds an entry for `K` holding `V` when `K` is absent, without any destructor call. When `K`
is present it returns 0, the entry of `K` then holds `V` and the other entries are as before,
the number of entries is unchanged, and the effects of the call are, in this order, the store
of the new value into the entry and one call of the value destructor on the old value (no call
when the type has no value destructor). The stored value is `V` itself unless the type has a
`valDup` callback, which then supplies it. -/
theorem replace_result (T : dictType) (hT : LawfulType T) (d : dict) (h : Reachable T d)
    (hal : tablesAllocated d = true)
    (hsz : dictSize d < ENTRY_LIMIT) (cr : Bool) (key val : Nat) :
    (¬ keyPresent d key →
      ∃ d2, dictReplace cr d key val = some (d2, 1) ∧
        (dictEntries d2).Perm (⟨dictSetKey d key, storedVal T val⟩ :: dictEntries d) ∧
        dictSize d2 = dictSize d + 1 ∧
        d2.trace = d.trace ++ [Event.valSet (dictSetKey d key) (storedVal T val)]) ∧
    (keyPresent d key →
      ∃ d2 he rest, dictReplace cr d key val = some (d2, 0) ∧ keyEq T key he.key = true ∧
        (dictEntries d).Perm (he :: rest) ∧
        (dictEntries d2).Perm ({ he with val := storedVal T val } :: rest) ∧
        dictSize d2 = dictSize d ∧
        d2.trace = d.trace ++ [Event.valSet he.key (storedVal T val)] ++
          (if T.valDestructor then [Event.valDestructor he.val] else []) ∧
        (T.valDestructor = true →
          d2.trace = d.trace ++
            [Event.valSet he.key (storedVal T val), Event.valDestructor he.val])) ∧
    (T.valDup = none → storedVal T val = val) ∧
    (T.keyDup = none → dictSetKey d key = key) := by
  obtain ⟨hinv, hty⟩ := Reachable_alloc hT h hal
  have hTd : LawfulType d.type := hty ▸ hT
  have hb := entries_lt_of_dictSize hinv hsz
  obtain ⟨d2, r, a1, a2, _, _, _, a6⟩ := dictReplace_spec cr d key val hTd hinv hb
  rw [hty] at a6
  refine ⟨?_, ?_, ?_, ?_⟩
  · intro habs
    have hno := not_keyPresent hty habs
    rcases a6 with ⟨hr, _, hp, htr⟩ | ⟨_, he, R, hk, hp, _⟩
    · subst hr
      refine ⟨d2, a1, hp, ?_, htr⟩
      rw [dictSize_eq a2, dictSize_eq hinv, hp.length_eq, List.length_cons]
    · rw [hno he (hp.mem_iff.mpr (List.mem_cons_self _ _))] at hk
      cases hk
  · intro hpres
    obtain ⟨x, hx, hkx⟩ := (keyPresent_iff hty key).mp hpres
    rcases a6 with ⟨_, hno, _⟩ | ⟨hr, he, R, hk, hp1, hp2, htr⟩
    · rw [hno x hx] at hkx
      cases hkx
    · subst hr
      refine ⟨d2, he, R, a1, hk, hp1, hp2, ?_, htr, ?_⟩
      · rw [dictSize_eq a2, dictSize_eq hinv, hp1.length_eq, hp2.length_eq]
        rfl
      · intro hvd
        rw [htr, hvd]
        simp
  · intro hvd
    unfold storedVal
    rw [hvd]
  · intro hkd
    unfold dictSetKey
    rw [hty, hkd]

/-- An instance of the property of C7: the value of the key 1 replaced in a dictionary that is rehashing; the type
has a value destructor. -/
theorem replace_result_example :
    dictSize rehashingDict < ENTRY_LIMIT ∧ keyPresent rehashingDict 1 ∧
    ∃ d2 he rest, dictReplace true rehashingDict 1 11 = some (d2, 0) ∧
      keyEq identityType 1 he.key = true ∧ (dictEntries rehashingDict).Perm (he :: rest) ∧
      (dictEntries d2).Perm ({ he with val := storedVal identityType 11 } :: rest) ∧
      dictSize d2 = dictSize rehashingDict ∧
      d2.trace = rehashingDict.trace ++ [Event.valSet he.key (storedVal identityType 11)] ++
        (if identityType.valDestructor then [Event.valDestructor he.val] else []) ∧
      (identityType.valDestructor = true →
        d2.trace = rehashingDict.trace ++
          [Event.valSet he.key (storedVal identityType 11), Event.valDestructor he.val]) :=
  ⟨by decide, by unfold keyPresent; decide,
    (replace_result identityType identityType_lawful rehashingDict rehashingDict_reachable rfl
      (by decide) true 1 11).2.1 (by unfold keyPresent; decide)⟩

/-- C8 at the dictionary with the key 1 that is rehashing towards a table of size `2 ^ 61`
(bucket array of 0 bytes): `dictAdd` of the present key 1 and `dictDelete` and `dictUnlink` of
the absent key 2 each start with a rehash step that stores the entry of the key 1 outside the
block of `ht[1]`: they have no defined result, where C8 expects `DICT_ERR` or `NULL` and an
unchanged dictionary. -/
theorem C8_failing_calls_without_cells :
    Reachable identityType hugeRehashingDict ∧ hugeRehashingDict.ht1.table = some [] ∧
    dictSize hugeRehashingDict < ENTRY_LIMIT ∧ keyPresent hugeRehashingDict 1 ∧
    ¬ keyPresent hugeRehashingDict 2 ∧
    rehashStepIfRehashing hugeRehashingDict = none ∧
    dictAdd true hugeRehashingDict 1 11 = none ∧ dictDelete hugeRehashingDict 2 = none ∧
    dictUnlink hugeRehashingDict 2 = none :=
  ⟨hugeRehashingDict_reachable, rfl, by decide, by unfold keyPresent; decide,
    by unfold keyPresent; decide, rfl, rfl, rfl, rfl⟩

/-- The property of C8 on the dictionaries whose bucket arrays have the cells of
their `size`: on a reachable dictionary (with room for one more entry), `dictAdd` on a key that is
present returns `DICT_ERR`, `dictDelete` on a key that is absent returns `DICT_ERR` and
`dictUnlink` on a key that is absent returns `NULL`; after each of these calls the stored
entries (keys and values) are those stored before it, `dictSize` is the same, and no value was
stored and no destructor called. -/
theorem failing_calls (T : dictType) (hT : LawfulType T) (d : dict) (h : Reachable T d)
    (hal : tablesAllocated d = true)
    (hsz : dictSize d < ENTRY_LIMIT) (cr : Bool) (key val : Nat) :
    (keyPresent d key →
      ∃ d2, dictAdd cr d key val = some (d2, DICT_ERR) ∧
        (dictEntries d2).Perm (dictEntries d) ∧ dictSize d2 = dictSize d ∧
        d2.trace = d.trace) ∧
    (¬ keyPresent d key →
      ∃ d2 d3, dictDelete d key = some (d2, DICT_ERR) ∧
        (dictEntries d2).Perm (dictEntries d) ∧ dictSize d2 = dictSize d ∧
        d2.trace = d.trace ∧
        dictUnlink d key = some (d3, none) ∧
        (dictEntries d3).Perm (dictEntries d) ∧ dictSize d3 = dictSize d ∧
        d3.trace = d.trace) := by
  obtain ⟨hinv, hty⟩ := Reachable_alloc hT h hal
  have hTd : LawfulType d.type := hty ▸ hT
  have hb := entries_lt_of_dictSize hinv hsz
  constructor
  · intro hpres
    obtain ⟨x, hx, hkx⟩ := (keyPresent_iff hty key).mp hpres
    obtain ⟨d2, r, a1, a2, _, _, _, a6⟩ := dictAdd_spec cr d key val hTd hinv hb
    rw [hty] at a6
    rcases a6 with ⟨hr, _, hp, htr⟩ | ⟨_, hno, _⟩
    · subst hr
      exact ⟨d2, a1, hp, by rw [dictSize_eq a2, dictSize_eq hinv, hp.length_eq], htr⟩
    · rw [hno x hx] at hkx
      cases hkx
  · intro habs
    have hno := not_keyPresent hty habs
    obtain ⟨d2, r, a1, a2, _, _, a5⟩ := dictDelete_spec d key hTd hinv
    obtain ⟨d3, r3, b1, b2, _, _, b5⟩ := dictGenericDelete_spec d key true hTd hinv
    rw [hty] at a5 b5
    have hdel : r = DICT_ERR ∧ (dictEntries d2).Perm (dictEntries d) ∧ d2.trace = d.trace := by
      rcases a5 with ⟨hr, _, hp, htr, _⟩ | ⟨he, _, hk, hmem, _⟩
      · exact ⟨hr, hp, htr⟩
      · rw [hno he hmem] at hk
        cases hk
    have hunl : r3 = none ∧ (dictEntries d3).Perm (dictEntries d) ∧ d3.trace = d.trace := by
      rcases b5 with ⟨hr, _, hp, htr, _⟩ | ⟨he, _, hk, hmem, _⟩
      · exact ⟨hr, hp, htr⟩
      · rw [hno he hmem] at hk
        cases hk
    obtain ⟨h1, h2, h3⟩ := hdel
    obtain ⟨g1, g2, g3⟩ := hunl
    subst h1 g1
    exact ⟨d2, d3, a1, h2, by rw [dictSize_eq a2, dictSize_eq hinv, h2.length_eq], h3, b1, g2,
      by rw [dictSize_eq b2, dictSize_eq hinv, g2.length_eq], g3⟩

/-- An instance of the property of C8: `dictAdd` of the key 1, which a rehashing dictionary holds. -/
theorem failing_calls_example :
    dictSize rehashingDict < ENTRY_LIMIT ∧ keyPresent rehashingDict 1 ∧
    ∃ d2, dictAdd true rehashingDict 1 11 = some (d2, DICT_ERR) ∧
      (dictEntries d2).Perm (dictEntries rehashingDict) ∧
      dictSize d2 = dictSize rehashingDict ∧ d2.trace = rehashingDict.trace :=
  ⟨by decide, by unfold keyPresent; decide,
    (failing_calls identityType identityType_lawful rehashingDict rehashingDict_reachable rfl
      (by decide) true 1 11).1 (by unfold keyPresent; decide)⟩

/-- C3: every sequence of `dictAdd` and `dictDelete` calls (fewer than `ENTRY_LIMIT` calls,
each `dictAdd` with resizing enabled or not) applied to a newly created dictionary runs to its
end, and then `dictSize(d)` is the number of stored entries, whose keys are pairwise different,
and equals the number of adds that returned `DICT_OK` minus the number of deletes that returned
`DICT_OK`. -/
theorem C3_size_counts (T : dictType) (hT : LawfulType T) (ops : List Op)
    (hops : ops.all isAddOrDelete = true) (hlen : ops.length < ENTRY_LIMIT) :
    ∃ d rs, runOps (dictCreate T) ops = some (d, rs) ∧ rs.length = ops.length ∧
      dictSize d = (dictEntries d).length ∧ (dictEntries d).Pairwise (keysDiffer T) ∧
      dictSize d + deletesOK ops rs = addsOK ops rs := by
  have hb : (dictEntries (dictCreate T)).length + ops.length < 576460752303423488 := by
    have : (dictEntries (dictCreate T)).length = 0 := rfl
    rw [this]
    unfold ENTRY_LIMIT at hlen
    omega
  obtain ⟨d, rs, a1, a2, a3, _, a5, a6⟩ :=
    runOps_refines hT ops (dictCreate T) (dictEntries (dictCreate T)) rfl (Inv_create T)
      (List.Perm.refl _) hb
  have h0 : (dictEntries (dictCreate T)).length = 0 := rfl
  rw [h0, netAdded_addsOK ops rs hops] at a6
  refine ⟨d, rs, a1, ?_, dictSize_eq a2, ?_, ?_⟩
  · rw [a5.length_eq, mapOps_length]
  · have := a2.nodup
    rw [a3] at this
    exact this
  · rw [dictSize_eq a2]
    push_cast at a6
    omega

/-- Witness of C3: two successful adds, a failing add, a successful and a failing delete. -/
theorem C3_size_counts_witness :
    [Op.add true 1 10, Op.add true 2 20, Op.add false 1 11, Op.delete 1, Op.delete 7].all
      isAddOrDelete = true ∧
    [Op.add true 1 10, Op.add true 2 20, Op.add false 1 11, Op.delete 1, Op.delete 7].length <
      ENTRY_LIMIT ∧
    ∃ d rs, runOps (dictCreate identityType)
        [Op.add true 1 10, Op.add true 2 20, Op.add false 1 11, Op.delete 1, Op.delete 7] =
        some (d, rs) ∧
      rs.length =
        [Op.add true 1 10, Op.add true 2 20, Op.add false 1 11, Op.delete 1, Op.delete 7].length ∧
      dictSize d = (dictEntries d).length ∧
      (dictEntries d).Pairwise (keysDiffer identityType) ∧
      dictSize d + deletesOK
          [Op.add true 1 10, Op.add true 2 20, Op.add false 1 11, Op.delete 1, Op.delete 7] rs =
        addsOK
          [Op.add true 1 10, Op.add true 2 20, Op.add false 1 11, Op.delete 1, Op.delete 7] rs :=
  ⟨rfl, by decide,
    C3_size_counts identityType identityType_lawful
      [Op.add true 1 10, Op.add true 2 20, Op.add false 1 11, Op.delete 1, Op.delete 7] rfl
      (by decide)⟩

/-- C4 at the dictionary with the key 1 that is rehashing towards a table of size `2 ^ 61`
(bucket array of 0 bytes): each of the calls `dictFind(d, 1)`, `dictAdd(d, 2, 20)`,
`dictReplace(d, 1, 11)`, `dictDelete(d, 1)` and `dictRehash(d, 1)`, made first after that
`dictExpand`, stores an entry outside the block of `ht[1]`, so no sequence of calls runs to
its end, where C4 expects the key 1 to be found with its value. -/
theorem C4_calls_without_cells :
    Reachable identityType hugeRehashingDict ∧ dictIsRehashing hugeRehashingDict = true ∧
    hugeRehashingDict.ht1.table = some [] ∧
    dictSize hugeRehashingDict + [Op.find 1].length < ENTRY_LIMIT ∧
    runOps hugeRehashingDict [Op.find 1] = none ∧
    runOps hugeRehashingDict [Op.add true 2 20] = none ∧
    runOps hugeRehashingDict [Op.replace true 1 11] = none ∧
    runOps hugeRehashingDict [Op.delete 1] = none ∧
    runOps hugeRehashingDict [Op.rehash 1] = none ∧
    ∀ (op : Op) (ops : List Op), op ∈ [Op.find 1, Op.add true 2 20, Op.replace true 1 11,
      Op.delete 1, Op.rehash 1] → runOps hugeRehashingDict (op :: ops) = none := by
  refine ⟨hugeRehashingDict_reachable, rfl, rfl, by decide, rfl, rfl, rfl, rfl, rfl, ?_⟩
  intro op ops hop
  simp only [List.mem_cons, List.mem_singleton, List.not_mem_nil, or_false] at hop
  rcases hop with rfl | rfl | rfl | rfl | rfl <;> rfl

/-- The property of C4 on the dictionaries whose bucket arrays have the cells of
their `size`: every sequence of `dictAdd`, `dictReplace`, `dictDelete`, `dictFind` and
`dictRehash(d,n)` calls on a reachable dictionary, rehashing or not, runs to its end and behaves
like the same calls on the finite map `mapOps`: the calls return what the map prescribes and
the stored entries are those of the map, with pairwise different keys; `dictFind` then returns
for every key the entry the map holds for it (its latest value, or `NULL` when the key was
never added or was deleted); and once the dictionary is no longer rehashing, `ht[1]` is reset
and every entry is stored in the single table `ht[0]`. -/
theorem finite_map (T : dictType) (hT : LawfulType T) (d : dict) (h : Reachable T d)
    (hal : tablesAllocated d = true)
    (ops : List Op) (hb : dictSize d + ops.length < ENTRY_LIMIT) :
    ∃ d1 rs, runOps d ops = some (d1, rs) ∧
      (dictEntries d1).Perm (mapOps T (dictEntries d) ops).1 ∧
      List.Forall₂ resultAgrees rs (mapOps T (dictEntries d) ops).2 ∧
      (dictEntries d1).Pairwise (keysDiffer T) ∧
      (∀ key, ∃ d2, dictFind d1 key =
        some (d2, mapFind T (mapOps T (dictEntries d) ops).1 key)) ∧
      (dictIsRehashing d1 = false →
        d1.ht1 = _dictReset ∧ dictEntries d1 = htEntries d1.ht0 ∧
        (htEntries d1.ht0).Perm (mapOps T (dictEntries d) ops).1) := by
  obtain ⟨hinv, hty⟩ := Reachable_alloc hT h hal
  have hb2 : (dictEntries d).length + ops.length < 576460752303423488 := by
    rw [dictSize_eq hinv] at hb
    unfold ENTRY_LIMIT at hb
    omega
  obtain ⟨d1, rs, a1, a2, a3, a4, a5, a6⟩ :=
    runOps_refines hT ops d (dictEntries d) hty hinv (List.Perm.refl _) hb2
  have hnd : (dictEntries d1).Pairwise (keysDiffer T) := by
    have := a2.nodup
    rw [a3] at this
    exact this
  refine ⟨d1, rs, a1, a4, a5, hnd, ?_, ?_⟩
  · intro key
    have hlen1 : (dictEntries d1).length < 576460752303423488 := by
      have hle := netAdded_le_length ops rs
      omega
    obtain ⟨d2, r, b1, _, _, _, b5, _⟩ := runOp_refines hT a3 a2 a4 hlen1 (Op.find key)
    simp only [runOp] at b1
    cases hf : dictFind d1 key with
    | none =>
      rw [hf] at b1
      cases b1
    | some p =>
      rw [hf] at b1
      simp only [Option.some.injEq, Prod.mk.injEq] at b1
      obtain ⟨b11, b12⟩ := b1
      have := b5 _ rfl
      rw [← b12] at this
      have hres := OpResult.entry.inj this
      refine ⟨p.1, ?_⟩
      show some p = some (p.1, mapFind T (mapOps T (dictEntries d) ops).1 key)
      rw [← hres]
  · intro hnr
    have hr : d1.rehashidx = -1 := by
      by_contra hc
      rw [(dictIsRehashing_iff d1).mpr hc] at hnr
      cases hnr
    have he : dictEntries d1 = htEntries d1.ht0 := by
      rw [dictEntries, ht1_entries_of_stable a2 hr, List.append_nil]
    exact ⟨a2.stable hr, he, by rw [← he]; exact a4⟩

/-- An instance of the property of C4: calls on a dictionary that holds the key 1 and is rehashing from 4 to 8
buckets. -/
theorem finite_map_example :
    dictSize rehashingDict +
        [Op.add true 2 20, Op.replace true 1 11, Op.find 1, Op.rehash 100, Op.delete 2,
          Op.find 2].length < ENTRY_LIMIT ∧
    ∃ d1 rs, runOps rehashingDict
        [Op.add true 2 20, Op.replace true 1 11, Op.find 1, Op.rehash 100, Op.delete 2,
          Op.find 2] = some (d1, rs) ∧
      (dictEntries d1).Perm (mapOps identityType (dictEntries rehashingDict)
        [Op.add true 2 20, Op.replace true 1 11, Op.find 1, Op.rehash 100, Op.delete 2,
          Op.find 2]).1 ∧
      List.Forall₂ resultAgrees rs (mapOps identityType (dictEntries rehashingDict)
        [Op.add true 2 20, Op.replace true 1 11, Op.find 1, Op.rehash 100, Op.delete 2,
          Op.find 2]).2 ∧
      (dictEntries d1).Pairwise (keysDiffer identityType) ∧
      (∀ key, ∃ d2, dictFind d1 key =
        some (d2, mapFind identityType (mapOps identityType (dictEntries rehashingDict)
          [Op.add true 2 20, Op.replace true 1 11, Op.find 1, Op.rehash 100, Op.delete 2,
            Op.find 2]).1 key)) ∧
      (dictIsRehashing d1 = false →
        d1.ht1 = _dictReset ∧ dictEntries d1 = htEntries d1.ht0 ∧
        (htEntries d1.ht0).Perm (mapOps identityType (dictEntries rehashingDict)
          [Op.add true 2 20, Op.replace true 1 11, Op.find 1, Op.rehash 100, Op.delete 2,
            Op.find 2]).1) :=
  ⟨by decide,
    finite_map identityType identityType_lawful rehashingDict rehashingDict_reachable rfl
      [Op.add true 2 20, Op.replace true 1 11, Op.find 1, Op.rehash 100, Op.delete 2,
        Op.find 2] (by decide)⟩

/-- C6 (counterexample): the dictionary with four buckets and no entry is a stable table of a
power-of-two size, and the pass over it is the single call `dictScan(d, 0, ...)`, which returns
the cursor 0 without a call to the bucket callback or to the entry callback: no bucket is
visited. -/
theorem C6_counterexample :
    Reachable identityType emptiedDict ∧ dictIsRehashing emptiedDict = false ∧
      emptiedDict.ht0.size = 4 ∧
      scanSeq true [emptiedDict] 0 = some [{ cursor := 0, next := 0, calls := [] }] ∧
      passEnds [{ cursor := 0, next := 0, calls := [] }] = true :=
  ⟨emptiedDict_reachable, rfl, rfl, rfl, rfl⟩

/-- C6 (amended): a sequence of `dictScan` calls that starts with cursor 0, each call on a
reachable stable dictionary that holds at least one entry (the table may have any power-of-two size at
each call), returns; and when it is a full pass (the last call, and no earlier one, returns the
cursor 0), then for every hash `h` some call is made with a cursor that selects the bucket
`h & sizemask` of the table current at that call and makes the callback calls of that bucket,
and an entry that is stored at every call of the pass is passed to the entry callback by at
least one call. -/
theorem C6_scan_across_resizes (T : dictType) (hT : LawfulType T) (bucketfn : Bool)
    (ds : List dict)
    (hds : ∀ d, d ∈ ds → Reachable T d ∧ dictIsRehashing d = false ∧ dictSize d ≠ 0) :
    ∃ log, scanSeq bucketfn ds 0 = some log ∧
      (passEnds log = true →
        (∀ h, ∃ (j : Nat) (d : dict) (st : ScanStep) (chain : List dictEntry),
          ds[j]? = some d ∧ log[j]? = some st ∧
          st.cursor &&& d.ht0.sizemask = h &&& d.ht0.sizemask ∧
          bucketGet d.ht0 (h &&& d.ht0.sizemask) = some chain ∧
          st.calls = (if bucketfn then [ScanCall.bucket 0 (h &&& d.ht0.sizemask)] else []) ++
            chain.map ScanCall.entry) ∧
        (∀ e, (∀ d, d ∈ ds → e ∈ dictEntries d) →
          ∃ st, st ∈ log ∧ ScanCall.entry e ∈ st.calls)) := by
  obtain ⟨log, hlog, hcov⟩ := scanSeq_spec bucketfn ds 0
    (fun d hd => ⟨(Reachable_alloc hT (hds d hd).1
      (Reachable_stable_alloc hT (hds d hd).1 (hds d hd).2.1 (hds d hd).2.2)).1, (hds d hd).2⟩)
  refine ⟨log, hlog, fun hpass => ⟨fun h => hcov hpass h ?_, fun e he => ?_⟩⟩
  · rw [bitrev_zero]
    exact Nat.zero_le _
  · obtain ⟨j, d, st, chain, a1, a2, _, a4, a5⟩ :=
      hcov hpass (T.hashFunction e.key % 18446744073709551616) (by
        rw [bitrev_zero]
        exact Nat.zero_le _)
    have hd : d ∈ ds := mem_of_getElem?_eq_some a1
    obtain ⟨hreach, hnr, hsz⟩ := hds d hd
    obtain ⟨hinv, hty⟩ := Reachable_alloc hT hreach (Reachable_stable_alloc hT hreach hnr hsz)
    have hr : d.rehashidx = -1 := by
      by_contra hc
      rw [(dictIsRehashing_iff d).mpr hc] at hnr
      cases hnr
    have hmem := he d hd
    rw [stable_entries hinv hr] at hmem
    obtain ⟨chain2, b1, b2⟩ := bucket_of_mem hinv.ok0 hmem
    rw [hty, a4] at b1
    cases b1
    refine ⟨st, mem_of_getElem?_eq_some a2, ?_⟩
    rw [a5]
    exact List.mem_append_right _ (List.mem_map_of_mem _ b2)

theorem C6_scan_across_resizes_witness :
    (∀ d, d ∈ [oneKeyDict, grownDict, oneKeyDict, oneKeyDict, oneKeyDict] →
      Reachable identityType d ∧ dictIsRehashing d = false ∧ dictSize d ≠ 0) ∧
    (scanSeq true [oneKeyDict, grownDict, oneKeyDict, oneKeyDict, oneKeyDict] 0).map
      (fun log => (passEnds log, log.map (fun st => st.cursor))) =
      some (true, [0, 2, 6, 1, 3]) ∧
    ∃ log, scanSeq true [oneKeyDict, grownDict, oneKeyDict, oneKeyDict, oneKeyDict] 0 =
        some log ∧
      (passEnds log = true →
        (∀ h, ∃ (j : Nat) (d : dict) (st : ScanStep) (chain : List dictEntry),
          [oneKeyDict, grownDict, oneKeyDict, oneKeyDict, oneKeyDict][j]? = some d ∧
          log[j]? = some st ∧
          st.cursor &&& d.ht0.sizemask = h &&& d.ht0.sizemask ∧
          bucketGet d.ht0 (h &&& d.ht0.sizemask) = some chain ∧
          st.calls = (if true then [ScanCall.bucket 0 (h &&& d.ht0.sizemask)] else []) ++
            chain.map ScanCall.entry) ∧
        (∀ e, (∀ d, d ∈ [oneKeyDict, grownDict, oneKeyDict, oneKeyDict, oneKeyDict] →
            e ∈ dictEntries d) →
          ∃ st, st ∈ log ∧ ScanCall.entry e ∈ st.calls)) :=
  have hds : ∀ d, d ∈ [oneKeyDict, grownDict, oneKeyDict, oneKeyDict, oneKeyDict] →
      Reachable identityType d ∧ dictIsRehashing d = false ∧ dictSize d ≠ 0 := by
    intro d hd
    simp only [List.mem_cons, List.mem_singleton, List.not_mem_nil, or_false, or_self] at hd
    rcases hd with rfl | rfl | rfl
    · exact ⟨oneKeyDict_reachable, rfl, by decide⟩
    · exact ⟨grownDict_reachable, rfl, by decide⟩
    · exact ⟨oneKeyDict_reachable, rfl, by decide⟩
  ⟨hds, by rfl, C6_scan_across_resizes identityType identityType_lawful true _ hds⟩

/-- C5 at the dictionary with the key 1 that is rehashing towards a table of size `2 ^ 61`
(bucket array of 0 bytes): the first call of the pass, `dictScan(d, 0)`, reads bucket 0 of
`ht[1]` outside the block, so the pass has no defined result for any number of calls, where C5
expects it to end and to have passed the stored entry to the callback. -/
theorem C5_scan_without_cells :
    Reachable identityType hugeRehashingDict ∧ dictSize hugeRehashingDict ≠ 0 ∧
    dictIsRehashing hugeRehashingDict = true ∧ hugeRehashingDict.ht1.table = some [] ∧
    bucketGet hugeRehashingDict.ht1 (0 &&& hugeRehashingDict.ht1.sizemask) = none ∧
    dictScan hugeRehashingDict 0 false = none ∧ dictScan hugeRehashingDict 0 true = none ∧
    ∀ (bucketfn : Bool) (fuel : Nat), scanPass hugeRehashingDict bucketfn fuel 0 = none := by
  refine ⟨hugeRehashingDict_reachable, by decide, rfl, rfl, rfl, rfl, rfl, ?_⟩
  intro bucketfn fuel
  cases fuel with
  | zero => rfl
  | succ n =>
    unfold scanPass
    cases bucketfn
    · rw [show dictScan hugeRehashingDict 0 false = none from rfl]
    · rw [show dictScan hugeRehashingDict 0 true = none from rfl]

/-- The property of C5 on the dictionaries whose bucket arrays have the cells of
their `size`: on a reachable dictionary that holds at least one entry and is not modified during the
pass, stable or in the middle of a rehash, the caller loop that starts with cursor 0 and feeds
each returned cursor back into `dictScan` until it returns 0 ends: it makes as many calls as
the table has buckets (the smaller table during a rehash), and the entry callback is called on
every stored entry and on nothing but stored entries. -/
theorem scan_pass_covers (T : dictType) (hT : LawfulType T) (d : dict) (h : Reachable T d)
    (hal : tablesAllocated d = true)
    (hne : dictSize d ≠ 0) (bucketfn : Bool) :
    ∃ calls n, n = (if dictIsRehashing d then min d.ht0.size d.ht1.size else d.ht0.size) ∧
      (∀ fuel, n ≤ fuel → scanPass d bucketfn fuel 0 = some (calls, n)) ∧
      ∀ e, ScanCall.entry e ∈ calls ↔ e ∈ dictEntries d := by
  obtain ⟨hinv, _⟩ := Reachable_alloc hT h hal
  obtain ⟨k0, _, hk0, hsz, hcall⟩ := dictScan_call hinv hne bucketfn
  have hstart : bitrev 0 = 0 * 2 ^ (64 - k0) := by rw [bitrev_zero, Nat.zero_mul]
  obtain ⟨calls, e1, e2, e3⟩ := scanPass_spec bucketfn k0 hk0 hcall (2 ^ k0) 0 0 (by omega)
    (by positivity) hstart
  refine ⟨calls, 2 ^ k0, ?_, e1, fun e => ⟨e2 e, fun he => e3 e he (Nat.zero_le _)⟩⟩
  · rw [hsz]
    by_cases hr : d.rehashidx = -1
    · have hnr : dictIsRehashing d = false := by
        cases hc : dictIsRehashing d with
        | false => rfl
        | true => exact absurd hr ((dictIsRehashing_iff d).mp hc)
      rw [if_pos hr, hnr]
      rfl
    · rw [if_neg hr, (dictIsRehashing_iff d).mpr hr]
      rfl

/-- An instance of the property of C5: the pass over a dictionary with one entry that is rehashing from 4 to 8
buckets makes four calls of `dictScan`, one for every bucket of the smaller table, and the
entry callback gets the entry once. -/
theorem scan_pass_covers_example :
    dictSize rehashingDict ≠ 0 ∧
    scanPass rehashingDict false 4 0 =
      some ([ScanCall.entry { key := 1, val := 10 }], 4) ∧
    ∃ calls n,
      n = (if dictIsRehashing rehashingDict then
        min rehashingDict.ht0.size rehashingDict.ht1.size else rehashingDict.ht0.size) ∧
      (∀ fuel, n ≤ fuel → scanPass rehashingDict false fuel 0 = some (calls, n)) ∧
      ∀ e, ScanCall.entry e ∈ calls ↔ e ∈ dictEntries rehashingDict :=
  ⟨by decide, by rfl,
    scan_pass_covers identityType identityType_lawful rehashingDict rehashingDict_reachable rfl
      (by decide) false⟩

/-- C29 (counterexample): on the list of the values 10, 20, 30 with a `free` method set,
`listDelNode` of the second node passes the value 20 of that node to the `free` method. -/
theorem C29_counterexample :
    listOK (listSetFreeMethod threeList true) [8, 16, 24] ∧
      nodeValue (listSetFreeMethod threeList true) 16 = 20 ∧
      (listSetFreeMethod threeList true).freed = [] ∧
      (listDelNode (listSetFreeMethod threeList true) 16).map (fun l => l.freed) = some [20] :=
  ⟨threeList_free_ok, rfl, rfl, rfl⟩

/-- C29 (amended): `listDelNode` on a node of a well-formed list returns and unlinks exactly
that node: the length decreases by one, the iteration from the head returns the remaining
nodes in their former relative order and the iteration from the tail returns them in the
reverse order, every remaining node keeps its value, and the node itself is released. The
value of the node is passed to the `free` method of the list when one is set; only when none
is set is the value left to the caller. -/
theorem C29_listDelNode (l : list) (ns : List Nat) (h : listOK l ns) (node : Nat)
    (hmem : node ∈ ns) :
    ∃ l1, listDelNode l node = some l1 ∧ l1.len + 1 = l.len ∧
      listOK l1 (ns.erase node) ∧
      listTraverse l1 AL_START_HEAD = some (ns.erase node) ∧
      listTraverse l1 AL_START_TAIL = some (ns.erase node).reverse ∧
      (∀ a, a ∈ ns.erase node → nodeValue l1 a = nodeValue l a) ∧
      l1.mem node = none ∧
      l1.freed = (if l.free then l.freed ++ [nodeValue l node] else l.freed) := by
  have hk : ns.indexOf node < ns.length := List.indexOf_lt_length.mpr hmem
  have hget : ns.getD (ns.indexOf node) 0 = node := by
    rw [List.getD_eq_getElem _ _ hk, List.getElem_indexOf hk]
  obtain ⟨l1, e1, e2, e3, _, e5, e6, e7⟩ := listDelNode_spec h hk
  rw [hget] at e1 e5 e6 e7
  rw [List.eraseIdx_indexOf_eq_erase] at e2
  have hpos : 0 < l.len := by
    rw [h.len_eq]
    exact List.length_pos_of_mem hmem
  refine ⟨l1, e1, by omega, e2, (listTraverse_spec e2).1, (listTraverse_spec e2).2, ?_, e6, e5⟩
  intro a ha
  apply e7 a
  intro hc
  rw [hc] at ha
  exact (List.Nodup.not_mem_erase h.nodup) ha

/-- Witness of C29: the second node of the list of the values 10, 20, 30. -/
theorem C29_listDelNode_witness :
    listOK threeList [8, 16, 24] ∧ 16 ∈ [8, 16, 24] ∧
    ∃ l1, listDelNode threeList 16 = some l1 ∧ l1.len + 1 = threeList.len ∧
      listOK l1 ([8, 16, 24].erase 16) ∧
      listTraverse l1 AL_START_HEAD = some ([8, 16, 24].erase 16) ∧
      listTraverse l1 AL_START_TAIL = some ([8, 16, 24].erase 16).reverse ∧
      (∀ a, a ∈ [8, 16, 24].erase 16 → nodeValue l1 a = nodeValue threeList a) ∧
      l1.mem 16 = none ∧
      l1.freed = (if threeList.free then threeList.freed ++ [nodeValue threeList 16]
        else threeList.freed) :=
  ⟨threeList_ok, by decide, C29_listDelNode threeList [8, 16, 24] threeList_ok 16 (by decide)⟩

/-- C30: on a well-formed list of `len` nodes and for every `long` index `i`, `listIndex`
returns the node at position `i` from the head for `0 <= i < len` (the head for 0), the node
at position `len + i` for `-len <= i <= -1` (the tail for -1), and `NULL` for every other
index; a node returned is never `NULL`. -/
theorem C30_listIndex (l : list) (ns : List Nat) (h : listOK l ns) (i : Int)
    (hmin : -9223372036854775808 ≤ i) (hmax : i ≤ 9223372036854775807) :
    (0 ≤ i → i < ns.length →
      listIndex l i = some (ns.getD i.toNat 0) ∧ ns.getD i.toNat 0 ≠ 0) ∧
    (-(ns.length : Int) ≤ i → i ≤ -1 →
      listIndex l i = some (ns.getD ((ns.length : Int) + i).toNat 0) ∧
        ns.getD ((ns.length : Int) + i).toNat 0 ≠ 0) ∧
    ((ns.length : Int) ≤ i ∨ i < -(ns.length : Int) → listIndex l i = some 0) ∧
    (0 < ns.length → listIndex l 0 = some l.head ∧ listIndex l (-1) = some l.tail) := by
  have hspec := listIndex_spec h i hmin hmax
  refine ⟨?_, ?_, ?_, ?_⟩
  · intro h1 h2
    rw [hspec, if_pos h1]
    exact ⟨rfl, getD_ne_zero h.nonnull (by omega)⟩
  · intro h1 h2
    rw [hspec, if_neg (by omega), if_pos h1]
    exact ⟨rfl, getD_ne_zero h.nonnull (by omega)⟩
  · intro h1
    rw [hspec]
    rcases h1 with h1 | h1
    · rw [if_pos (by omega), List.getD_eq_default ns 0 (by omega)]
    · rw [if_neg (by omega), if_neg (by omega)]
  · intro hpos
    constructor
    · rw [listIndex_spec h 0 (by omega) (by omega), if_pos (Int.le_refl _), h.head_eq,
        headD_eq_getD]
      rfl
    · rw [listIndex_spec h (-1) (by omega) (by omega), if_neg (by omega), if_pos (by omega),
        h.tail_eq, getLastD_eq_getD]
      congr 2
      omega

/-- Witness of C30: the index -2 on the list of the values 10, 20, 30 selects the second
node. -/
theorem C30_listIndex_witness :
    listOK threeList [8, 16, 24] ∧ listIndex threeList (-2) = some 16 ∧
    ((0 : Int) ≤ -2 → (-2 : Int) < ([8, 16, 24] : List Nat).length →
      listIndex threeList (-2) = some (([8, 16, 24] : List Nat).getD (-2 : Int).toNat 0) ∧
        ([8, 16, 24] : List Nat).getD (-2 : Int).toNat 0 ≠ 0) ∧
    (-((([8, 16, 24] : List Nat).length : Nat) : Int) ≤ -2 → (-2 : Int) ≤ -1 →
      listIndex threeList (-2) = some (([8, 16, 24] : List Nat).getD
        (((([8, 16, 24] : List Nat).length : Nat) : Int) + -2).toNat 0) ∧
        ([8, 16, 24] : List Nat).getD
          (((([8, 16, 24] : List Nat).length : Nat) : Int) + -2).toNat 0 ≠ 0) ∧
    (((([8, 16, 24] : List Nat).length : Nat) : Int) ≤ -2 ∨
        (-2 : Int) < -((([8, 16, 24] : List Nat).length : Nat) : Int) →
      listIndex threeList (-2) = some 0) ∧
    (0 < ([8, 16, 24] : List Nat).length →
      listIndex threeList 0 = some threeList.head ∧
        listIndex threeList (-1) = some threeList.tail) :=
  ⟨threeList_ok, by rfl,
    C30_listIndex threeList [8, 16, 24] threeList_ok (-2) (by decide) (by decide)⟩

/-- C21 (counterexample): `dictGetSafeIterator` only fills in the iterator (position -1 of
table 0, `safe` set) and does not touch the dictionary: between the creation of the safe
iterator and its first `dictNext` the counter of the dictionary is 0, as before the creation,
and a release then leaves it at 0; the counter becomes 1 in the first call of `dictNext`. -/
theorem C21_counterexample :
    dictGetSafeIterator =
      { index := -1, table := 0, safe := true, entry := [], nextEntry := [],
        fingerprint := 0 } ∧
      oneKeyDict.iterators = 0 ∧
      dictReleaseIterator 4096 0 dictGetSafeIterator oneKeyDict = some oneKeyDict ∧
      (dictNext 4096 0 dictGetSafeIterator oneKeyDict).map (fun r => r.2.1.iterators) =
        some 1 :=
  ⟨rfl, rfl, rfl, rfl⟩

/-- C21 (amended): a safe iterator is counted in the live-iterator counter of the dictionary
from its first `dictNext` until `dictReleaseIterator`, not from `dictGetSafeIterator`: on a
reachable dictionary whose bucket arrays have the cells of their `size`, the first `dictNext`
returns and raises the counter by one, every later
`dictNext` that returns leaves the dictionary it is called on as it is (so the counter stays
raised, whatever was done to the dictionary in between), and the release of an iterator that
has advanced lowers the counter by one, which restores the value from before the creation;
the release of an iterator that never advanced changes nothing. An unsafe iterator never
changes the counter: its `dictNext` and its release leave the dictionary as it is. -/
theorem C21_iterator_counter (T : dictType) (hT : LawfulType T) (d : dict)
    (h : Reachable T d)
    (hal : tablesAllocated d = true) (hs0 : d.ht0.size ≤ LONG_MAX) (hs1 : d.ht1.size ≤ LONG_MAX)
    (hcnt : d.iterators < 18446744073709551615) (a0 a1 : Nat) :
    dictReleaseIterator a0 a1 dictGetSafeIterator d = some d ∧
    dictReleaseIterator a0 a1 dictGetIterator d = some d ∧
    (∃ iter1 d1 r, dictNext a0 a1 dictGetSafeIterator d = some (iter1, d1, r) ∧
      d1 = { d with iterators := d.iterators + 1 } ∧
      dictReleaseIterator a0 a1 iter1 d1 = some d) ∧
    (∃ iter2 d2,
      iterateAll a0 a1 (dictSize d + 1) dictGetSafeIterator d =
        some (iter2, d2, dictEntries d) ∧
      d2 = { d with iterators := d.iterators + 1 } ∧
      dictReleaseIterator a0 a1 iter2 d2 = some d) ∧
    (∀ (iter : dictIterator) (d' : dict) iter1 d1 r, iter.safe = true → 0 ≤ iter.index →
      iter.index < 9223372036854775807 → dictNext a0 a1 iter d' = some (iter1, d1, r) →
      d1 = d' ∧ iter1.safe = true ∧ 0 ≤ iter1.index) ∧
    (∀ (iter : dictIterator) (d' : dict), iter.safe = true → 0 ≤ iter.index →
      dictReleaseIterator a0 a1 iter d' =
        some { d' with iterators := decr64 d'.iterators }) ∧
    (∀ (iter : dictIterator) (d' : dict) iter1 d1 r, iter.safe = false → -1 ≤ iter.index →
      iter.index < 9223372036854775807 → (iter.entry ≠ [] → 0 ≤ iter.index) →
      dictNext a0 a1 iter d' = some (iter1, d1, r) → d1 = d') ∧
    (∀ (iter : dictIterator) (d' d1 : dict), iter.safe = false →
      dictReleaseIterator a0 a1 iter d' = some d1 → d1 = d') := by
  obtain ⟨hinv, _⟩ := Reachable_alloc hT h hal
  have hfresh : ∀ safe : Bool,
      dictReleaseIterator a0 a1 { dictGetIterator with safe := safe } d = some d := by
    intro safe
    unfold dictReleaseIterator
    cases safe <;> rw [if_neg (by decide)]
  have hmod : (d.iterators + 1) % 18446744073709551616 = d.iterators + 1 := by omega
  have hrel : ∀ iter : dictIterator, iter.safe = true → 0 ≤ iter.index → ∀ d' : dict,
      dictReleaseIterator a0 a1 iter d' = some { d' with iterators := decr64 d'.iterators } := by
    intro iter hs hi d'
    unfold dictReleaseIterator
    have hni : (decide (iter.index = -1) && decide (iter.table = 0)) = false := by
      have : ¬ iter.index = -1 := by omega
      simp [this]
    rw [hni, hs]
    rfl
  have hback : ∀ iter : dictIterator, iter.safe = true → 0 ≤ iter.index →
      dictReleaseIterator a0 a1 iter { d with iterators := d.iterators + 1 } = some d := by
    intro iter hs hi
    rw [hrel iter hs hi]
    have : decr64 (d.iterators + 1) = d.iterators := by
      unfold decr64
      rw [if_neg (by omega)]
      omega
    show some { d with iterators := decr64 (d.iterators + 1) } = some d
    rw [this]
  have hit : dictGetSafeIterator = { dictGetIterator with safe := true } := rfl
  refine ⟨hfresh true, hfresh false, ?_, ?_, ?_, ?_, ?_, ?_⟩
  · obtain ⟨it1, d1, k1, _⟩ :=
      dictNext_spec a0 a1 dictGetSafeIterator d hinv hs0 hs1 (by rw [hit]; exact IterOK_start d true)
    have k1' := k1
    unfold dictNext at k1'
    obtain ⟨c1, c2, c3⟩ := dictNextLoop_dict a0 a1 _ _ d it1 d1 _ k1' (by decide) (by decide)
      (fun hc => absurd rfl hc)
    rw [if_pos ⟨⟨rfl, rfl⟩, rfl⟩, hmod] at c1
    refine ⟨it1, d1, _, k1, c1, ?_⟩
    rw [c1]
    exact hback it1 c2 c3
  · obtain ⟨it2, d2, n1, n2, n3, n4⟩ :=
      iterateAll_dict a0 a1 (dictSize d + 1) dictGetSafeIterator d hinv hs0 hs1
        (by rw [hit]; exact IterOK_start d true)
        (by rw [hit, iterRest_start, dictSize_eq hinv])
    rw [hit, iterRest_start] at n1
    rw [if_pos ⟨⟨rfl, rfl⟩, rfl⟩, hmod] at n2
    refine ⟨it2, d2, n1, n2, ?_⟩
    rw [n2]
    exact hback it2 n3 n4
  · intro iter d' iter1 d1 r hs hi hhi hnext
    unfold dictNext at hnext
    obtain ⟨c1, c2, c3⟩ := dictNextLoop_dict a0 a1 _ iter d' iter1 d1 r hnext (by omega) hhi
      (fun _ => hi)
    rw [if_neg (fun hc => by
      have : iter.index = -1 := hc.1.1
      omega)] at c1
    exact ⟨c1, c2.trans hs, c3⟩
  · intro iter d' hs hi
    exact hrel iter hs hi d'
  · intro iter d' iter1 d1 r hs hlo hhi hne hnext
    unfold dictNext at hnext
    obtain ⟨c1, _, _⟩ := dictNextLoop_dict a0 a1 _ iter d' iter1 d1 r hnext hlo hhi hne
    rw [if_neg (fun hc => by
      have : iter.safe = true := hc.2
      rw [hs] at this
      cases this)] at c1
    exact c1
  · intro iter d' d1 hs hrelease
    unfold dictReleaseIterator at hrelease
    rw [hs] at hrelease
    split at hrelease
    · simp only [Bool.false_eq_true, if_false] at hrelease
      split at hrelease
      · exact (Option.some.inj hrelease).symm
      · cases hrelease
    · exact (Option.some.inj hrelease).symm

/-- Witness of C21: a dictionary with one entry that is rehashing from 4 to 8 buckets. -/
theorem C21_iterator_counter_witness :
    rehashingDict.ht0.size ≤ LONG_MAX ∧ rehashingDict.ht1.size ≤ LONG_MAX ∧
    rehashingDict.iterators < 18446744073709551615 ∧
    (∃ iter1 d1 r, dictNext 4096 8192 dictGetSafeIterator rehashingDict = some (iter1, d1, r) ∧
      d1 = { rehashingDict with iterators := rehashingDict.iterators + 1 } ∧
      dictReleaseIterator 4096 8192 iter1 d1 = some rehashingDict) :=
  ⟨by decide, by decide, by decide,
    (C21_iterator_counter identityType identityType_lawful rehashingDict rehashingDict_reachable rfl
      (by decide) (by decide) (by decide) 4096 8192).2.2.1⟩

/-- C24 at the dictionary with the key 1 that is rehashing towards a table of size `2 ^ 61`
(bucket array of 0 bytes): the key 1 is present, but `dictUnlink(d, 1)` and `dictDelete(d, 1)`
start with a rehash step that stores the entry outside the block of `ht[1]`: they have no
defined result, where C24 expects the entry to be removed. -/
theorem C24_unlink_without_cells :
    Reachable identityType hugeRehashingDict ∧ hugeRehashingDict.ht1.table = some [] ∧
    { key := 1, val := 10 } ∈ dictEntries hugeRehashingDict ∧
    keyEq identityType 1 1 = true ∧
    dictUnlink hugeRehashingDict 1 = none ∧ dictGenericDelete hugeRehashingDict 1 false = none :=
  ⟨hugeRehashingDict_reachable, rfl, by decide, rfl, rfl, rfl⟩

/-- The property of C24 on the dictionaries whose bucket arrays have the cells of
their `size`: on a reachable dictionary and a key that is present, with `he` the stored entry of the
key, `dictUnlink` returns `he` (its key and value as stored) and calls no destructor, and
`dictDelete` returns `DICT_OK` and calls each destructor that the type has exactly once on the
entry, the key destructor on its key and then the value destructor on its value. Both take
`he` out of its chain, which keeps the order of its other entries, leave every other bucket of
the two tables as the rehash step at the start of the call left it (that step keeps the stored
entries), and lower the entry count by one. -/
theorem unlink_and_delete (T : dictType) (hT : LawfulType T) (d : dict)
    (h : Reachable T d)
    (hal : tablesAllocated d = true) (key : Nat) (he : dictEntry) (hmem : he ∈ dictEntries d)
    (hkey : keyEq T key he.key = true) :
    (∃ d2 d1 t bs chain pos, dictUnlink d key = some (d2, some he) ∧
      rehashStepIfRehashing d = some d1 ∧ (dictEntries d1).Perm (dictEntries d) ∧
      (t = 0 ∨ t = 1) ∧ (getHt d1 t).table = some bs ∧
      bs[dictHashKey d1 key &&& (getHt d1 t).sizemask]? = some chain ∧
      chain[pos]? = some he ∧
      (getHt d2 t).table =
        some (bs.set (dictHashKey d1 key &&& (getHt d1 t).sizemask) (chain.eraseIdx pos)) ∧
      getHt d2 (1 - t) = getHt d1 (1 - t) ∧
      dictSize d2 + 1 = dictSize d ∧ (dictEntries d).Perm (he :: dictEntries d2) ∧
      d2.trace = d.trace) ∧
    (∃ d2 d1 t bs chain pos, dictDelete d key = some (d2, DICT_OK) ∧
      rehashStepIfRehashing d = some d1 ∧ (dictEntries d1).Perm (dictEntries d) ∧
      (t = 0 ∨ t = 1) ∧ (getHt d1 t).table = some bs ∧
      bs[dictHashKey d1 key &&& (getHt d1 t).sizemask]? = some chain ∧
      chain[pos]? = some he ∧
      (getHt d2 t).table =
        some (bs.set (dictHashKey d1 key &&& (getHt d1 t).sizemask) (chain.eraseIdx pos)) ∧
      getHt d2 (1 - t) = getHt d1 (1 - t) ∧
      dictSize d2 + 1 = dictSize d ∧ (dictEntries d).Perm (he :: dictEntries d2) ∧
      d2.trace = d.trace ++
        ((if T.keyDestructor then [Event.keyDestructor he.key] else []) ++
          (if T.valDestructor then [Event.valDestructor he.val] else []))) := by
  obtain ⟨hinv, hty⟩ := Reachable_alloc hT h hal
  constructor
  · obtain ⟨d2, d1, t, bs, chain, pos, a1, a2, a3, a4, a5, a6, a7, a8, a9, a10, a11, a12⟩ :=
      dictGenericDelete_present hT hinv hty hmem hkey true
    refine ⟨d2, d1, t, bs, chain, pos, a1, a2, a3, a4, a5, a6, a7, a8, a9, a10, a11, ?_⟩
    rw [a12]
    simp [freeEvents]
  · obtain ⟨d2, d1, t, bs, chain, pos, a1, a2, a3, a4, a5, a6, a7, a8, a9, a10, a11, a12⟩ :=
      dictGenericDelete_present hT hinv hty hmem hkey false
    refine ⟨d2, d1, t, bs, chain, pos, ?_, a2, a3, a4, a5, a6, a7, a8, a9, a10, a11, ?_⟩
    · unfold dictDelete
      rw [a1]
    · rw [a12]
      simp [freeEvents]

/-- An instance of the property of C24: the key 2 of the dictionary that holds the keys 1 and 2; the type has a
value destructor and no key destructor. -/
theorem unlink_and_delete_example :
    ({ key := 2, val := 20 } : dictEntry) ∈ dictEntries twoKeyDict ∧
    keyEq identityType 2 ({ key := 2, val := 20 } : dictEntry).key = true ∧
    twoKeyDict.trace = [Event.valSet 1 10, Event.valSet 2 20] ∧
    (dictUnlink twoKeyDict 2).map (fun r => (r.2, r.1.trace, dictEntries r.1)) =
      some (some { key := 2, val := 20 }, [Event.valSet 1 10, Event.valSet 2 20],
        [{ key := 1, val := 10 }]) ∧
    (dictDelete twoKeyDict 2).map (fun r => (r.2, r.1.trace, dictEntries r.1)) =
      some (DICT_OK, [Event.valSet 1 10, Event.valSet 2 20, Event.valDestructor 20],
        [{ key := 1, val := 10 }]) ∧
    (∃ d2 d1 t bs chain pos, dictUnlink twoKeyDict 2 = some (d2, some { key := 2, val := 20 }) ∧
      rehashStepIfRehashing twoKeyDict = some d1 ∧
      (dictEntries d1).Perm (dictEntries twoKeyDict) ∧
      (t = 0 ∨ t = 1) ∧ (getHt d1 t).table = some bs ∧
      bs[dictHashKey d1 2 &&& (getHt d1 t).sizemask]? = some chain ∧
      chain[pos]? = some { key := 2, val := 20 } ∧
      (getHt d2 t).table =
        some (bs.set (dictHashKey d1 2 &&& (getHt d1 t).sizemask) (chain.eraseIdx pos)) ∧
      getHt d2 (1 - t) = getHt d1 (1 - t) ∧
      dictSize d2 + 1 = dictSize twoKeyDict ∧
      (dictEntries twoKeyDict).Perm ({ key := 2, val := 20 } :: dictEntries d2) ∧
      d2.trace = twoKeyDict.trace) :=
  ⟨by decide, by decide, by rfl, by rfl, by rfl,
    (unlink_and_delete identityType identityType_lawful twoKeyDict
      (Reachable.add true oneKeyDict twoKeyDict 2 20 DICT_OK oneKeyDict_reachable
        (by decide) rfl) rfl
      2 { key := 2, val := 20 } (by decide) (by decide)).1⟩

/-- C22 at the dictionary with the key 1 that is rehashing towards a table of size `2 ^ 61`
(bucket array of 0 bytes): `dictGetRandomKey` starts with a rehash step that stores the entry
outside the block of `ht[1]`, so it has no defined result for any values of the random
source, where C22 expects the one stored entry; and the index `4` that the probing loop draws
for the random value 3 is the bucket 0 of `ht[1]`, which is not a cell of its array. -/
theorem C22_random_key_without_cells :
    Reachable identityType hugeRehashingDict ∧ dictSize hugeRehashingDict = 1 ∧
    hugeRehashingDict.ht1.table = some [] ∧
    rehashStepIfRehashing hugeRehashingDict = none ∧
    (∀ (rnd : Nat → Nat) (fuel : Nat), dictGetRandomKey hugeRehashingDict rnd fuel = none) ∧
    randomBucketRehashing hugeRehashingDict (fun _ => 3) 1 0 = none := by
  refine ⟨hugeRehashingDict_reachable, rfl, rfl, rfl, ?_, rfl⟩
  intro rnd fuel
  unfold dictGetRandomKey
  rw [if_neg (by decide), hugeRehashingDict_step]

/-- The property of C22 on the dictionaries whose bucket arrays have the cells of
their `size`: on a reachable dictionary and for every random source (values of `random()`, below
`2 ^ 31`), `dictGetRandomKey` returns `NULL` on an empty dictionary; on one that is not empty,
whenever it returns (its bucket loop finds a chain within `fuel` rounds), it returns an entry
that is stored in the dictionary, every bucket index it has probed lies within the table it
indexes, and the dictionary holds the same entries as before (a rehash step may have moved
some). So on a dictionary with exactly one entry, stable or rehashing, it returns that
entry. -/
theorem getRandomKey_result (T : dictType) (hT : LawfulType T) (d : dict)
    (h : Reachable T d)
    (hal : tablesAllocated d = true) (rnd : Nat → Nat) (hrnd : ∀ k, rnd k < 2147483648) (fuel : Nat) :
    (dictSize d = 0 → dictGetRandomKey d rnd fuel = some (d, none, [])) ∧
    (dictSize d ≠ 0 → ∀ d1 r probes, dictGetRandomKey d rnd fuel = some (d1, r, probes) →
      ∃ he, r = some he ∧ he ∈ dictEntries d ∧ he ∈ dictEntries d1 ∧
        (dictEntries d1).Perm (dictEntries d) ∧
        (∀ p, p ∈ probes → (p.1 = 0 ∨ p.1 = 1) ∧ p.2 < (getHt d1 p.1).size) ∧
        (∀ e, dictEntries d = [e] → he = e)) := by
  obtain ⟨hinv, hty⟩ := Reachable_alloc hT h hal
  have hTd : LawfulType d.type := hty ▸ hT
  constructor
  · intro h0
    unfold dictGetRandomKey
    rw [if_pos h0]
  · intro hne d1 r probes hres
    obtain ⟨_, _, a3, ⟨he, a4, a5⟩, a6⟩ := dictGetRandomKey_spec hTd hinv hne rnd hrnd fuel hres
    have hmem : he ∈ dictEntries d := a3.subset a5
    refine ⟨he, a4, hmem, a5, a3, a6, ?_⟩
    intro e he1
    rw [he1, List.mem_singleton] at hmem
    exact hmem

/-- An instance of the property of C22: the dictionary with one entry that is rehashing from 4 to 8 buckets, with
a random source that always returns 1: the call finishes the rehash and returns the entry
from bucket 1 of the new table. -/
theorem getRandomKey_result_example :
    (∀ k : Nat, (fun _ : Nat => 1) k < 2147483648) ∧
    dictSize rehashingDict ≠ 0 ∧
    (dictGetRandomKey rehashingDict (fun _ => 1) 1).map (fun r => (r.2.1, r.2.2)) =
      some (some { key := 1, val := 10 }, [(0, 1)]) ∧
    (dictSize rehashingDict ≠ 0 → ∀ d1 r probes,
      dictGetRandomKey rehashingDict (fun _ => 1) 1 = some (d1, r, probes) →
      ∃ he, r = some he ∧ he ∈ dictEntries rehashingDict ∧ he ∈ dictEntries d1 ∧
        (dictEntries d1).Perm (dictEntries rehashingDict) ∧
        (∀ p, p ∈ probes → (p.1 = 0 ∨ p.1 = 1) ∧ p.2 < (getHt d1 p.1).size) ∧
        (∀ e, dictEntries rehashingDict = [e] → he = e)) :=
  ⟨fun _ => by norm_num, by decide, by rfl,
    (getRandomKey_result identityType identityType_lawful rehashingDict
      rehashingDict_reachable rfl (fun _ => 1) (fun _ => by norm_num) 1).2⟩

/-- Where `dictGetRandomKey` has no result within `fuel` probing rounds, on a reachable
dictionary whose bucket arrays have the cells of their `size` (not empty, fewer than `2 ^ 32`
entries): the rehash step has returned, and each of the `fuel` rounds has read a bucket that
exists and is empty, so the function has read no bucket outside a table and would go on
probing. -/
theorem getRandomKey_reads_inside (T : dictType) (hT : LawfulType T) (d : dict)
    (h : Reachable T d) (hal : tablesAllocated d = true) (rnd : Nat → Nat)
    (hrnd : ∀ k, rnd k < 2147483648) (fuel : Nat) (hne : dictSize d ≠ 0)
    (hlen : dictSize d < 4294967296)
    (hsum : d.ht0.size + d.ht1.size < 18446744073709551616)
    (hnone : dictGetRandomKey d rnd fuel = none) :
    ∃ d1, rehashStepIfRehashing d = some d1 ∧
      (dictIsRehashing d1 = false → ∀ j, j < fuel →
        bucketGet d1.ht0 (rnd j &&& d1.ht0.sizemask) = some []) ∧
      (dictIsRehashing d1 = true → ∀ j, j < fuel → ∃ h t i : Nat,
        h = d1.rehashidx.toNat +
          rnd j % (d1.ht0.size + d1.ht1.size - d1.rehashidx.toNat) ∧
        ((h < d1.ht0.size ∧ t = 0 ∧ i = h) ∨
          (d1.ht0.size ≤ h ∧ t = 1 ∧ i = h - d1.ht0.size)) ∧
        i < (getHt d1 t).size ∧ bucketGet (getHt d1 t) i = some []) := by
  obtain ⟨hinv, hty⟩ := Reachable_alloc hT h hal
  have hTd : LawfulType d.type := hty ▸ hT
  obtain ⟨d1, s1, s2, _, _, _, s6, _, _, s9⟩ := rehashStep_spec d hTd hinv
  have hsize : dictSize d1 = dictSize d := by
    rw [dictSize_eq s2, dictSize_eq hinv, s6.length_eq]
  unfold dictGetRandomKey at hnone
  rw [if_neg hne, s1] at hnone
  simp only [] at hnone
  have hloop : (if dictIsRehashing d1 then randomBucketRehashing d1 rnd fuel 0
      else randomBucketStable d1 rnd fuel 0) = none := by
    cases hl : (if dictIsRehashing d1 then randomBucketRehashing d1 rnd fuel 0
        else randomBucketStable d1 rnd fuel 0) with
    | none => rfl
    | some res =>
      exfalso
      obtain ⟨chain, k, pr⟩ := res
      rw [hl] at hnone
      simp only [Option.map_eq_none'] at hnone
      have hspec : chain ≠ [] ∧
          (∃ t i, (t = 0 ∨ t = 1) ∧ bucketGet (getHt d1 t) i = some chain) ∧
          ∀ p, p ∈ pr → (p.1 = 0 ∨ p.1 = 1) ∧ ∃ c, bucketGet (getHt d1 p.1) p.2 = some c := by
        split at hl
        · exact randomBucketRehashing_spec d1 rnd fuel 0 chain k pr hl
        · exact randomBucketStable_spec d1 rnd fuel 0 chain k pr hl
      obtain ⟨c1, ⟨t, i, ht, hb⟩, _⟩ := hspec
      obtain ⟨bs, htab, hget⟩ := bucketGet_some hb
      have hle := bucket_length_le (getHt_ok s2 t) htab hget
      have hused : (getHt d1 t).used ≤ dictSize d1 := by
        rw [dictSize_eq s2, dictEntries, List.length_append, ← s2.ok0.used_eq, ← s2.ok1.used_eq]
        rcases ht with rfl | rfl
        · rw [getHt_zero]
          omega
        · rw [getHt_one]
          omega
      obtain ⟨he, hhe⟩ := randomElement_total c1 (by omega) (hrnd k)
      rw [hhe] at hnone
      cases hnone
  refine ⟨d1, s1, ?_, ?_⟩
  · intro hst j hj
    rw [hst] at hloop
    have hne1 : dictEntries d1 ≠ [] := by
      intro hnil
      have := dictSize_eq s2
      rw [hnil, List.length_nil, hsize] at this
      exact hne this
    have h2 := randomBucketStable_none s2.ok0 (ht0_alloc_of_nonempty s2 hne1) rnd fuel 0
      (by simpa using hloop) j hj
    rwa [Nat.zero_add] at h2
  · intro hre j hj
    rw [hre] at hloop
    have hr1 : d1.rehashidx ≠ -1 := (dictIsRehashing_iff d1).mp hre
    obtain ⟨_, q1, q2⟩ := s9 hr1
    have h2 := randomBucketRehashing_none s2 hr1 (by rw [q1, q2]; exact hsum) rnd fuel 0
      (by simpa using hloop) j hj
    rwa [Nat.zero_add] at h2

/-- An instance: the dictionary with the key 1 that is rehashing from 4 to 8 buckets and a
random source that always returns 0. The rehash step finishes the rehash, the entry is in
bucket 1 of the 8 buckets, and every round reads bucket 0, which is empty: the call has no
result within 3 rounds. -/
theorem getRandomKey_reads_inside_example :
    tablesAllocated rehashingDict = true ∧ (∀ k : Nat, (fun _ : Nat => 0) k < 2147483648) ∧
    dictSize rehashingDict ≠ 0 ∧ dictSize rehashingDict < 4294967296 ∧
    rehashingDict.ht0.size + rehashingDict.ht1.size < 18446744073709551616 ∧
    dictGetRandomKey rehashingDict (fun _ => 0) 3 = none ∧
    ∃ d1, rehashStepIfRehashing rehashingDict = some d1 ∧
      (dictIsRehashing d1 = false → ∀ j, j < 3 →
        bucketGet d1.ht0 ((fun _ : Nat => 0) j &&& d1.ht0.sizemask) = some []) ∧
      (dictIsRehashing d1 = true → ∀ j, j < 3 → ∃ h t i : Nat,
        h = d1.rehashidx.toNat +
          (fun _ : Nat => 0) j % (d1.ht0.size + d1.ht1.size - d1.rehashidx.toNat) ∧
        ((h < d1.ht0.size ∧ t = 0 ∧ i = h) ∨
          (d1.ht0.size ≤ h ∧ t = 1 ∧ i = h - d1.ht0.size)) ∧
        i < (getHt d1 t).size ∧ bucketGet (getHt d1 t) i = some []) :=
  ⟨rfl, fun _ => by norm_num, by decide, by decide, by decide, rfl,
    getRandomKey_reads_inside identityType identityType_lawful rehashingDict
      rehashingDict_reachable rfl (fun _ => 0) (fun _ => by norm_num) 3 (by decide) (by decide)
      (by decide) rfl⟩

/-- C23 at the dictionary with the key 1 that is rehashing towards a table of size `2 ^ 61`
(bucket array of 0 bytes): for every `count` above 0, `dictGetSomeKeys` starts with a rehash
step that stores the entry outside the block of `ht[1]`, so it has no defined result for any
values of the random source, where C23 expects it to return one entry. -/
theorem C23_some_keys_without_cells :
    Reachable identityType hugeRehashingDict ∧ dictSize hugeRehashingDict = 1 ∧
    hugeRehashingDict.ht1.table = some [] ∧ hugeRehashingDict.iterators = 0 ∧
    _dictRehashStep hugeRehashingDict = none ∧
    ∀ (rnd : Nat → Nat) (count : Nat), 0 < count →
      dictGetSomeKeys hugeRehashingDict rnd count = none := by
  refine ⟨hugeRehashingDict_reachable, rfl, rfl, rfl, rfl, ?_⟩
  intro rnd count hc
  unfold dictGetSomeKeys
  have h1 : (if dictSize hugeRehashingDict < count then dictSize hugeRehashingDict
      else count) = 1 := by
    rw [show dictSize hugeRehashingDict = 1 from rfl]
    split <;> omega
  simp only [h1]
  rfl

/-- The property of C23 on the dictionaries whose bucket arrays have the cells of
their `size`: on a reachable dictionary, for every random source and every `unsigned int` count,
`dictGetSomeKeys` returns a number `r` that is at most `count` and at most `dictSize(d)`, it
has written exactly `r` entries into `des`, each of them an entry stored in the dictionary
(the rehash steps at the start of the call keep the stored entries), and the body of its
sampling loop has run at most 10 times the capped count. -/
theorem getSomeKeys_result (T : dictType) (hT : LawfulType T) (d : dict)
    (h : Reachable T d)
    (hal : tablesAllocated d = true) (rnd : Nat → Nat) (count : Nat) (hcount : count < 4294967296) :
    ∃ d1 r des steps, dictGetSomeKeys d rnd count = some (d1, r, des, steps) ∧
      r ≤ count ∧ r ≤ dictSize d ∧ des.length = r ∧
      (∀ e, e ∈ des → e ∈ dictEntries d1 ∧ e ∈ dictEntries d) ∧
      (dictEntries d1).Perm (dictEntries d) ∧
      steps ≤ 10 * min count (dictSize d) := by
  obtain ⟨hinv, hty⟩ := Reachable_alloc hT h hal
  have hTd : LawfulType d.type := hty ▸ hT
  obtain ⟨d1, r, des, steps, a1, _, a3, a4, a5, a6, a7, a8⟩ :=
    dictGetSomeKeys_spec hTd hinv rnd count hcount
  refine ⟨d1, r, des, steps, a1, a4, a5, a6, fun e he => ⟨a7 e he, a3.subset (a7 e he)⟩, a3, ?_⟩
  have hmin : (if dictSize d < count then dictSize d else count) = min count (dictSize d) := by
    split <;> omega
  rw [← hmin]
  exact a8

/-- An instance of the property of C23: five entries are asked of the dictionary that holds the keys 1 and 2; the
call returns 2 and the two entries after three rounds of its loop. -/
theorem getSomeKeys_result_example :
    (5 : Nat) < 4294967296 ∧
    (dictGetSomeKeys twoKeyDict (fun k => k) 5).map (fun r => r.2) =
      some (2, [{ key := 1, val := 10 }, { key := 2, val := 20 }], 3) ∧
    ∃ d1 r des steps, dictGetSomeKeys twoKeyDict (fun k => k) 5 = some (d1, r, des, steps) ∧
      r ≤ 5 ∧ r ≤ dictSize twoKeyDict ∧ des.length = r ∧
      (∀ e, e ∈ des → e ∈ dictEntries d1 ∧ e ∈ dictEntries twoKeyDict) ∧
      (dictEntries d1).Perm (dictEntries twoKeyDict) ∧
      steps ≤ 10 * min 5 (dictSize twoKeyDict) :=
  ⟨by decide, by rfl,
    getSomeKeys_result identityType identityType_lawful twoKeyDict
      (Reachable.add true oneKeyDict twoKeyDict 2 20 DICT_OK oneKeyDict_reachable
        (by decide) rfl) rfl
      (fun k => k) 5 (by decide)⟩

/-- C25 at the adds of the `2 ^ 29` integers from `2 ^ 31` on to a new set: after the first
`2 ^ 29 - 1` adds the set holds these integers in strictly increasing order, and the last add
accesses memory out of bounds (the size `2 ^ 29 * 8` wraps to 0 in `intsetResize`), so the
sequence builds no set that stores its elements in order. -/
theorem C25_sorted_at_limit :
    (∀ op, op ∈ (ascending (536870911 + 1) 2147483648).map IntsetOp.add →
      isInt64 (opValue op)) ∧
    (∃ vals, (runIntsetOps intsetNew ((ascending 536870911 2147483648).map IntsetOp.add)).bind
        (fun r => intsetValues r.1) = some vals ∧ vals.length = 536870911 ∧
      vals.Pairwise (fun a b => a < b)) ∧
    (runIntsetOps intsetNew ((ascending (536870911 + 1) 2147483648).map IntsetOp.add)).bind
      (fun r => intsetValues r.1) = none := by
  have hreach := fullSet_reachable (show (2147483647 : Int) < 2147483648 by norm_num) 536870911
    (by norm_num) (by norm_num) (by norm_num)
  refine ⟨?_, ?_, ?_⟩
  · intro op hop
    obtain ⟨v, hv, rfl⟩ := List.mem_map.mp hop
    rw [mem_ascending] at hv
    obtain ⟨i, hi, rfl⟩ := hv
    show isInt64 (2147483648 + (i : Int))
    unfold isInt64
    constructor <;> omega
  · refine ⟨ascending 536870911 2147483648, ?_, ?_, ?_⟩
    · rw [hreach, Option.some_bind]
      exact intsetValues_spec fullSet64_ok
    · unfold ascending
      rw [List.length_map, List.length_range]
    · exact fullSet64_ok.sorted
  · rw [ascending_succ, List.map_append, List.map_cons, List.map_nil,
      runIntsetOps_snoc_add _ _ hreach, fullSet64_add]
    rfl

/-- The property of C25 where the calls return: every set that a sequence of `intsetAdd` and
`intsetRemove` calls on a new set returns holds its elements, read with `_intsetGet` at the positions `0 .. length - 1`, in strictly
increasing order, whatever encoding upgrades happened on the way; and a sequence of fewer than
`2 ^ 29` calls does return a set. -/
theorem intset_sorted (ops : List IntsetOp)
    (hv : ∀ op, op ∈ ops → isInt64 (opValue op)) :
    (∀ (is : intset) (ss : List Nat), runIntsetOps intsetNew ops = some (is, ss) →
      ∃ vals : List Int, intsetValues is = some vals ∧ vals.length = intsetLen is ∧
        vals.Pairwise (fun a b => a < b)) ∧
    (ops.length * 8 < 4294967296 →
      ∃ (is : intset) (ss : List Nat), runIntsetOps intsetNew ops = some (is, ss)) := by
  constructor
  · intro is ss h
    obtain ⟨vals, hok, _, _⟩ := runIntsetOps_ok ops intsetNew [] intsetNew_ok hv is ss h
    exact ⟨vals, intsetValues_spec hok, (intsetLen_spec hok).symm, hok.sorted⟩
  · intro hlen
    exact runIntsetOps_total ops intsetNew [] intsetNew_ok hv
      (by rw [List.length_nil, Nat.zero_add]; exact hlen)

/-- The property of C25 at a sequence that adds 5, 6, 4, 4 and 70000, removes 5, adds -9000000000 and removes
7: the set goes from 16 over 32 to 64 bits and ends as -9000000000, 4, 6, 70000. -/
theorem intset_sorted_example :
    (∀ op, op ∈ mixedOps → isInt64 (opValue op)) ∧
    (runIntsetOps intsetNew mixedOps).bind (fun r => intsetValues r.1) =
      some [-9000000000, 4, 6, 70000] ∧
    ((∀ (is : intset) (ss : List Nat), runIntsetOps intsetNew mixedOps = some (is, ss) →
      ∃ vals : List Int, intsetValues is = some vals ∧ vals.length = intsetLen is ∧
        vals.Pairwise (fun a b => a < b)) ∧
    (mixedOps.length * 8 < 4294967296 →
      ∃ (is : intset) (ss : List Nat), runIntsetOps intsetNew mixedOps = some (is, ss))) := by
  have hv : ∀ op, op ∈ mixedOps → isInt64 (opValue op) := by
    intro op hop
    simp only [mixedOps, List.mem_cons, List.mem_singleton, List.not_mem_nil, or_false] at hop
    rcases hop with rfl | rfl | rfl | rfl | rfl | rfl | rfl | rfl <;>
      exact ⟨by simp only [opValue]; norm_num, by simp only [opValue]; norm_num⟩
  exact ⟨hv, by decide, intset_sorted mixedOps hv⟩

/-- C26 at the set of the `2 ^ 29 - 1` integers from `2 ^ 31` on, stored in 64 bits, and the
next integer: the set is well formed and the value is not found in it, but `intsetAdd`
accesses memory out of bounds (the size `2 ^ 29 * 8` wraps to 0 in `intsetResize`), so that
no `intsetFind` after it returns 1. -/
theorem C26_add_find_at_limit :
    intsetOK (fullSet 8 536870911 2147483648) (ascending 536870911 2147483648) ∧
    isInt64 (2147483648 + ((536870911 : Nat) : Int)) ∧
    intsetFind (fullSet 8 536870911 2147483648) (2147483648 + ((536870911 : Nat) : Int)) =
      some 0 ∧
    (intsetAdd (fullSet 8 536870911 2147483648) (2147483648 + ((536870911 : Nat) : Int))).bind
      (fun r => intsetFind r.1 (2147483648 + ((536870911 : Nat) : Int))) = none := by
  have hv : isInt64 (2147483648 + ((536870911 : Nat) : Int)) := by
    unfold isInt64
    norm_num
  refine ⟨fullSet64_ok, hv, ?_, ?_⟩
  · rw [intsetFind_spec fullSet64_ok hv, if_neg]
    rw [mem_ascending]
    rintro ⟨i, hi, h⟩
    omega
  · rw [fullSet64_add]
    rfl

/-- C27 at the adds of the `2 ^ 29` integers from `2 ^ 31` on to a new set: the first
`2 ^ 29 - 1` adds report 1 each and build the set of these integers in 64 bits, and the last
add, of a value that is not a member, accesses memory out of bounds instead of reporting 1
and growing the length. -/
theorem C27_adds_at_limit :
    runIntsetOps intsetNew ((ascending 536870911 2147483648).map IntsetOp.add) =
      some (fullSet 8 536870911 2147483648, List.replicate 536870911 1) ∧
    intsetLen (fullSet 8 536870911 2147483648) = 536870911 ∧
    runIntsetOps intsetNew ((ascending (536870911 + 1) 2147483648).map IntsetOp.add) = none := by
  have hreach := fullSet_reachable (show (2147483647 : Int) < 2147483648 by norm_num) 536870911
    (by norm_num) (by norm_num) (by norm_num)
  refine ⟨hreach, rfl, ?_⟩
  rw [ascending_succ, List.map_append, List.map_cons, List.map_nil,
    runIntsetOps_snoc_add _ _ hreach, fullSet64_add]
  rfl

/-- C28 at the set of the `2 ^ 29 - 1` integers from `2 ^ 15` on, stored in 32 bits, and the
value `2 ^ 31`, which needs 64 bits: the set is well formed, but `intsetAdd` accesses memory
out of bounds (the size `2 ^ 29 * 8` wraps to 0 in `intsetResize`) instead of widening the
encoding. -/
theorem C28_upgrade_at_limit :
    intsetOK (fullSet 4 536870911 32768) (ascending 536870911 32768) ∧
    (fullSet 4 536870911 32768).encoding = INTSET_ENC_INT32 ∧
    _intsetValueEncoding 2147483648 = INTSET_ENC_INT64 ∧
    intsetAdd (fullSet 4 536870911 32768) 2147483648 = none := by
  refine ⟨fullSet32_ok, rfl, ?_, fullSet32_add⟩
  unfold _intsetValueEncoding
  rw [if_pos (Or.inr (by norm_num))]

/-- C38: `_intsetValueEncoding(v)` returns the 2-byte encoding exactly for
`-32768 <= v <= 32767`, the 4-byte encoding exactly for the other values within
`[-2147483648, 2147483647]` and the 8-byte encoding exactly for the values outside that range;
and for a 64-bit `v` it is the narrowest encoding that holds `v`: storing `v` in a slot of 2, 4
or 8 bytes and reading it back gives `v` exactly when the slot is at least as wide as the
encoding returned. -/
theorem C38_value_encoding (v : Int) (hv : isInt64 v) :
    (_intsetValueEncoding v = INTSET_ENC_INT16 ↔ (-32768 ≤ v ∧ v ≤ 32767)) ∧
    (_intsetValueEncoding v = INTSET_ENC_INT32 ↔
      ((-2147483648 ≤ v ∧ v ≤ 2147483647) ∧ ¬ (-32768 ≤ v ∧ v ≤ 32767))) ∧
    (_intsetValueEncoding v = INTSET_ENC_INT64 ↔ ¬ (-2147483648 ≤ v ∧ v ≤ 2147483647)) ∧
    (INTSET_ENC_INT16 = 2 ∧ INTSET_ENC_INT32 = 4 ∧ INTSET_ENC_INT64 = 8) ∧
    (∀ w, w = 2 ∨ w = 4 ∨ w = 8 →
      (toSigned w (readLE (encodeInt w v)) = v ↔ _intsetValueEncoding v ≤ w)) := by
  refine ⟨?_, ?_, ?_, ⟨rfl, rfl, rfl⟩, ?_⟩
  · unfold _intsetValueEncoding INTSET_ENC_INT64 INTSET_ENC_INT32 INTSET_ENC_INT16
    split_ifs <;> constructor <;> intro h <;> omega
  · unfold _intsetValueEncoding INTSET_ENC_INT64 INTSET_ENC_INT32 INTSET_ENC_INT16
    split_ifs <;> constructor <;> intro h <;> omega
  · unfold _intsetValueEncoding INTSET_ENC_INT64 INTSET_ENC_INT32 INTSET_ENC_INT16
    split_ifs <;> constructor <;> intro h <;> omega
  · intro w hw
    rw [holds_iff v hw, valueEncoding_le_iff v hw hv]

/-- C38 at the value 32768, the first one that needs 4 bytes. -/
theorem C38_value_encoding_witness :
    isInt64 32768 ∧ _intsetValueEncoding 32768 = 4 ∧
    ((_intsetValueEncoding 32768 = INTSET_ENC_INT16 ↔ (-32768 ≤ (32768 : Int) ∧ (32768 : Int) ≤ 32767)) ∧
    (_intsetValueEncoding 32768 = INTSET_ENC_INT32 ↔
      ((-2147483648 ≤ (32768 : Int) ∧ (32768 : Int) ≤ 2147483647) ∧
        ¬ (-32768 ≤ (32768 : Int) ∧ (32768 : Int) ≤ 32767))) ∧
    (_intsetValueEncoding 32768 = INTSET_ENC_INT64 ↔
      ¬ (-2147483648 ≤ (32768 : Int) ∧ (32768 : Int) ≤ 2147483647)) ∧
    (INTSET_ENC_INT16 = 2 ∧ INTSET_ENC_INT32 = 4 ∧ INTSET_ENC_INT64 = 8) ∧
    (∀ w, w = 2 ∨ w = 4 ∨ w = 8 →
      (toSigned w (readLE (encodeInt w 32768)) = 32768 ↔ _intsetValueEncoding 32768 ≤ w))) :=
  ⟨by unfold isInt64; norm_num, by decide,
    C38_value_encoding 32768 (by unfold isInt64; norm_num)⟩

/-- C39: in every dictionary reachable from `dictCreate` through `dictAdd`, `dictAddRaw`,
`dictReplace`, `dictAddOrFind`, `dictDelete`, `dictUnlink`, `dictFind`, `dictExpand`,
`dictResize` and `dictRehash` (the callbacks being lawful), no two stored entries have keys
that compare equal, in either order: not two entries of `ht[0]`, not two entries of `ht[1]`,
and not an entry of `ht[0]` with an entry of `ht[1]`. -/
theorem C39_no_duplicate_keys (T : dictType) (hT : LawfulType T) (d : dict)
    (h : Reachable T d) :
    (htEntries d.ht0).Pairwise
      (fun a b => keyMatch d a.key b = false ∧ keyMatch d b.key a = false) ∧
    (htEntries d.ht1).Pairwise
      (fun a b => keyMatch d a.key b = false ∧ keyMatch d b.key a = false) ∧
    (∀ a b, a ∈ htEntries d.ht0 → b ∈ htEntries d.ht1 →
      keyMatch d a.key b = false ∧ keyMatch d b.key a = false) := by
  obtain ⟨hinv, hty⟩ := Reachable_fill hT h
  have hTd : LawfulType d.type := hty ▸ hT
  have hnd := hinv.nodup
  simp only [dictEntries_fillDict, fillDict_type] at hnd
  unfold dictEntries at hnd
  rw [List.pairwise_append] at hnd
  have key : ∀ a b : dictEntry, keysDiffer d.type a b →
      keyMatch d a.key b = false ∧ keyMatch d b.key a = false := by
    intro a b hab
    exact ⟨hab, keysDiffer_symm hTd hab⟩
  exact ⟨hnd.1.imp (fun {a b} hab => key a b hab), hnd.2.1.imp (fun {a b} hab => key a b hab),
    fun a b ha hb => key a b (hnd.2.2 a ha b hb)⟩

/-- C39 at the dictionary with the entry of key 1 in `ht[1]` and the entry of key 2 in
`ht[0]`. -/
theorem C39_no_duplicate_keys_witness :
    htEntries splitDict.ht0 = [{ key := 2, val := 20 }] ∧
    htEntries splitDict.ht1 = [{ key := 1, val := 10 }] ∧
    ((htEntries splitDict.ht0).Pairwise
      (fun a b => keyMatch splitDict a.key b = false ∧ keyMatch splitDict b.key a = false) ∧
    (htEntries splitDict.ht1).Pairwise
      (fun a b => keyMatch splitDict a.key b = false ∧ keyMatch splitDict b.key a = false) ∧
    (∀ a b, a ∈ htEntries splitDict.ht0 → b ∈ htEntries splitDict.ht1 →
      keyMatch splitDict a.key b = false ∧ keyMatch splitDict b.key a = false)) :=
  ⟨by decide, by decide,
    C39_no_duplicate_keys identityType identityType_lawful splitDict splitDict_reachable⟩

/-- C33: in every rehashing dictionary reachable from `dictCreate`, the rehash index is at
least 0 and below the size of `ht[0]`, so the assertion of `dictRehash` holds; every bucket of
`ht[0]` with an index below it is empty (and it is there when the bucket array has the cells of
its `size`); and when `ht[0].used` is not 0, the bucket array of `ht[0]` has its cells, a
non-empty bucket exists at an index that is not below the rehash index, and the search of
`dictRehash` for the next non-empty bucket returns for every budget of empty visits: it leaves
`ht[0]` as it is and the rehash index at most at the size of `ht[0]`, below it when it stops at
a non-empty bucket, so it reads no bucket outside `ht[0]`. Where both bucket arrays have their
cells, `dictRehash(d, n)` returns for every `n`. -/
theorem C33_rehash_index (T : dictType) (hT : LawfulType T) (d : dict) (h : Reachable T d)
    (hr : dictIsRehashing d = true) :
    0 ≤ d.rehashidx ∧ d.rehashidx < (d.ht0.size : Int) ∧
    d.ht0.size > (d.rehashidx % 18446744073709551616).toNat ∧
    (∀ (i : Nat) (chain : List dictEntry), (i : Int) < d.rehashidx →
      bucketGet d.ht0 i = some chain → chain = []) ∧
    (tableAllocated d.ht0 = true →
      ∀ i : Nat, (i : Int) < d.rehashidx → bucketGet d.ht0 i = some []) ∧
    (d.ht0.used ≠ 0 →
      tableAllocated d.ht0 = true ∧
      (∃ (j : Nat) (e : dictEntry) (chain : List dictEntry), d.rehashidx ≤ (j : Int) ∧
        j < d.ht0.size ∧ bucketGet d.ht0 j = some (e :: chain)) ∧
      ∀ ev : Int, ∃ (d1 : dict) (r : Option Int),
        rehashSkipEmpty (d.ht0.size + 1) d ev = some (d1, r) ∧ d1.ht0 = d.ht0 ∧
        d.rehashidx ≤ d1.rehashidx ∧ d1.rehashidx ≤ (d.ht0.size : Int) ∧
        (r = none → d.rehashidx < d1.rehashidx) ∧
        (∀ ev1, r = some ev1 → d1.rehashidx < (d.ht0.size : Int) ∧
          ∃ e chain, bucketGet d.ht0 d1.rehashidx.toNat = some (e :: chain))) ∧
    (tablesAllocated d = true → ∀ n : Int, ∃ d1 r, dictRehash d n = some (d1, r)) := by
  obtain ⟨hinv, hty⟩ := Reachable_fill hT h
  have hTd : LawfulType d.type := hty ▸ hT
  have hTf : LawfulType (fillDict d).type := hTd
  have hr1 : d.rehashidx ≠ -1 := (dictIsRehashing_iff d).mp hr
  have hr1f : (fillDict d).rehashidx ≠ -1 := hr1
  have h0 : 0 ≤ d.rehashidx := hinv.idx_nonneg hr1f
  have hlt := Reachable_idx_lt hT h hr1
  have hsz : d.ht0.size ≤ 9223372036854775808 :=
    (fill_alloc_size hinv.ok0 (fun hh => hinv.alloc0 hr1f ((fillHt_table_none d.ht0).mpr hh))).2
  have hmig : ∀ (i : Nat) (chain : List dictEntry), (i : Int) < d.rehashidx →
      bucketGet d.ht0 i = some chain → chain = [] := by
    intro i chain hi hg
    obtain ⟨bs, htab, hb⟩ := bucketGet_some (bucketGet_to_fill hg)
    exact hinv.migrated bs i chain htab hb hi
  refine ⟨h0, hlt, by omega, hmig, ?_, ?_, ?_⟩
  · intro hal i hi
    have hok : htOK d.type d.ht0 := by
      have := hinv.ok0
      rw [fillDict_ht0, fillHt_of_allocated hal] at this
      exact this
    obtain ⟨bs, chain, htab, _, hg, hb⟩ := bucket_in_range hok (show i < d.ht0.size by omega)
    rw [hg, hmig i chain hi hg]
  · intro hu
    have huf : (fillDict d).ht0.used ≠ 0 := by
      rw [fillDict_ht0, fillHt_used]
      exact hu
    have hne : d.ht0.table ≠ some [] := by
      intro hc
      have hq := hinv.ok0.used_eq
      simp only [fillDict_ht0, fillHt_used, htEntries_fillHt] at hq
      rw [htEntries_of_table hc] at hq
      simp only [List.flatten_nil, List.length_nil] at hq
      exact hu hq
    have hfill : fillHt d.ht0 = d.ht0 := fillHt_of_ne hne
    refine ⟨tableAllocated_of_fill hinv.ok0 hne, ?_, ?_⟩
    · obtain ⟨bs, j, e, chain, htab, hb, hj⟩ := exists_nonempty_bucket hinv hr1f huf
      rw [fillDict_ht0, hfill] at htab
      have h1 := lt_of_getElem?_eq_some hb
      have hlen := hinv.ok0.length_eq bs (by rw [fillDict_ht0, hfill]; exact htab)
      rw [fillDict_ht0, fillHt_size] at hlen
      rw [hlen] at h1
      exact ⟨j, e, chain, hj, h1, by rw [bucketGet_eq htab, hb]⟩
    · intro ev
      obtain ⟨D1, r, a1, a2, _, a4, _, _, _, a8, a9, a10, a11⟩ :=
        rehashSkipEmpty_spec (d.ht0.size + 1) (fillDict d) ev hinv hr1f huf (by
          rw [fillDict_ht0, fillHt_size, fillDict_rehashidx]
          push_cast
          omega)
      have hfuel : (fillDict d).ht0.size + 1 = d.ht0.size + 1 := by
        rw [fillDict_ht0, fillHt_size]
      have a1b : rehashSkipEmpty (d.ht0.size + 1) (fillDict d) ev = some (D1, r) := a1
      have hreal := rehashSkipEmpty_of_ht0 (d.ht0.size + 1) d (fillDict d) ev D1 r
        (by rw [fillDict_ht0, hfill]) rfl a1b
      have hle : D1.rehashidx ≤ (d.ht0.size : Int) := by
        have := a2.idx_le a9
        rw [a4, fillDict_ht0, fillHt_size] at this
        exact this
      refine ⟨_, r, hreal, rfl, a8, hle, a11, ?_⟩
      intro ev1 hev
      obtain ⟨bs, e, chain, htab, hb⟩ := a10 ev1 hev
      rw [a4, fillDict_ht0, hfill] at htab
      have h1 := lt_of_getElem?_eq_some hb
      have hlen := hinv.ok0.length_eq bs (by rw [fillDict_ht0, hfill]; exact htab)
      rw [fillDict_ht0, fillHt_size] at hlen
      rw [hlen] at h1
      have hnn : 0 ≤ D1.rehashidx := le_trans h0 a8
      have hlt2 : D1.rehashidx < (d.ht0.size : Int) := by omega
      refine ⟨hlt2, e, chain, ?_⟩
      show bucketGet d.ht0 D1.rehashidx.toNat = _
      rw [bucketGet_eq htab, hb]
  · intro hal n
    have hinv2 : Inv d := by
      have := hinv
      rw [fillDict_of_allocated hal] at this
      exact this
    obtain ⟨d1, r, a1, _⟩ := dictRehash_spec d n hTd hinv2
    exact ⟨d1, r, a1⟩

/-- C33 at the dictionary that is rehashing from 4 to 8 buckets with the rehash index 2: the
buckets 0 and 1 of `ht[0]` are empty and the entry of key 2 is in bucket 2, where the search
stops at once. -/
theorem C33_rehash_index_witness :
    dictIsRehashing splitDict = true ∧ splitDict.rehashidx = 2 ∧ splitDict.ht0.size = 4 ∧
    splitDict.ht0.table = some [[], [], [{ key := 2, val := 20 }], []] ∧
    rehashSkipEmpty 5 splitDict 10 = some (splitDict, some 10) ∧
    (0 ≤ splitDict.rehashidx ∧ splitDict.rehashidx < (splitDict.ht0.size : Int) ∧
    splitDict.ht0.size > (splitDict.rehashidx % 18446744073709551616).toNat ∧
    (∀ (i : Nat) (chain : List dictEntry), (i : Int) < splitDict.rehashidx →
      bucketGet splitDict.ht0 i = some chain → chain = []) ∧
    (tableAllocated splitDict.ht0 = true →
      ∀ i : Nat, (i : Int) < splitDict.rehashidx → bucketGet splitDict.ht0 i = some []) ∧
    (splitDict.ht0.used ≠ 0 →
      tableAllocated splitDict.ht0 = true ∧
      (∃ (j : Nat) (e : dictEntry) (chain : List dictEntry), splitDict.rehashidx ≤ (j : Int) ∧
        j < splitDict.ht0.size ∧ bucketGet splitDict.ht0 j = some (e :: chain)) ∧
      ∀ ev : Int, ∃ (d1 : dict) (r : Option Int),
        rehashSkipEmpty (splitDict.ht0.size + 1) splitDict ev = some (d1, r) ∧
        d1.ht0 = splitDict.ht0 ∧
        splitDict.rehashidx ≤ d1.rehashidx ∧ d1.rehashidx ≤ (splitDict.ht0.size : Int) ∧
        (r = none → splitDict.rehashidx < d1.rehashidx) ∧
        (∀ ev1, r = some ev1 → d1.rehashidx < (splitDict.ht0.size : Int) ∧
          ∃ e chain, bucketGet splitDict.ht0 d1.rehashidx.toNat = some (e :: chain))) ∧
    (tablesAllocated splitDict = true →
      ∀ n : Int, ∃ d1 r, dictRehash splitDict n = some (d1, r))) :=
  ⟨rfl, rfl, rfl, rfl, rfl,
    C33_rehash_index identityType identityType_lawful splitDict splitDict_reachable rfl⟩

/-- C34: in every dictionary reachable from `dictCreate`, each entry stored in the bucket `i`
of the table `ht[t]` (a cell that the bucket array has) satisfies
`hash(key) & ht[t].sizemask = i`. A `dictAddRaw` that adds an entry (the dictionary having room
for it) puts it at the head of the bucket `hash(key) & sizemask` of the table it returns it in;
and a `dictRehash` that returns on a rehashing dictionary keeps the mask of the table that was
`ht[1]` (it is `ht[0]` after the call when the call returns 0), and every entry of that table,
the migrated ones included, is in the bucket that its hash selects under that mask. -/
theorem C34_bucket_of_hash (T : dictType) (hT : LawfulType T) (d : dict) (h : Reachable T d) :
    (∀ (t i : Nat) (chain : List dictEntry) (e : dictEntry), t = 0 ∨ t = 1 →
      bucketGet (getHt d t) i = some chain → e ∈ chain →
      dictHashKey d e.key &&& (getHt d t).sizemask = i) ∧
    (∀ (cr : Bool) (key : Nat) (d3 : dict) (r : EntryRef) (ex : Option EntryRef),
      dictSize d < 576460752303423488 → dictAddRaw cr d key = some (d3, some r, ex) →
      r.idx = dictHashKey d key &&& (getHt d3 r.table).sizemask ∧ r.pos = 0 ∧
      ∃ chain, bucketGet (getHt d3 r.table) r.idx =
        some ({ key := dictSetKey d key, val := 0 } :: chain)) ∧
    (∀ (n : Int) (d1 : dict) (r : Nat), dictIsRehashing d = true →
      dictRehash d n = some (d1, r) →
      (getHt d1 (if r = 0 then 0 else 1)).sizemask = d.ht1.sizemask ∧
      (dictEntries d1).Perm (dictEntries d) ∧
      ∀ (i : Nat) (chain : List dictEntry) (e : dictEntry),
        bucketGet (getHt d1 (if r = 0 then 0 else 1)) i = some chain → e ∈ chain →
        dictHashKey d e.key &&& d.ht1.sizemask = i) := by
  obtain ⟨hinv, hty⟩ := Reachable_fill hT h
  have hTd : LawfulType d.type := hty ▸ hT
  have hTf : LawfulType (fillDict d).type := hTd
  refine ⟨?_, ?_, ?_⟩
  · intro t i chain e _ hb he
    exact placed_of_bucketGet_fill hinv hb he
  · intro cr key d3 r ex hsz hadd
    obtain ⟨d1, d2, chain, _, _, _, _, b5, b6, b7, _, _, b10, _⟩ :=
      dictAddRaw_prepends cr d key hTd hinv hsz d3 r ex hadd
    exact ⟨by rw [b7]; exact b5, b6, chain, b10⟩
  · intro n d1 r hr hre
    have hr1 : (fillDict d).rehashidx ≠ -1 := (dictIsRehashing_iff d).mp hr
    have href := dictRehash_fill hre
    obtain ⟨d2, r2, a1, a2, a3, _, _, a6, a7, _⟩ := dictRehash_spec (fillDict d) n hTf hinv
    rw [href] at a1
    cases a1
    have hmaskf : (getHt (fillDict d1) (if r = 0 then 0 else 1)).sizemask =
        (fillDict d).ht1.sizemask := by
      rcases a7 with ⟨h0, _⟩ | ⟨h1, _, _, _, _, _, _, h8, _⟩
      · subst h0
        exact (dictRehash_finish (fillDict d) n hTf hinv hr1 href).2.2.2.1
      · subst h1
        exact h8
    have hmask : (getHt d1 (if r = 0 then 0 else 1)).sizemask = d.ht1.sizemask := by
      simpa using hmaskf
    refine ⟨hmask, by simpa using a6, ?_⟩
    intro i chain e hb he
    have := placed_of_bucketGet_fill a2 hb he
    rw [hmask] at this
    unfold dictHashKey at this ⊢
    have a3b : d1.type = d.type := a3
    rw [a3b] at this
    exact this

/-- C34 at the dictionary with the entry of key 1 moved to `ht[1]` (8 buckets) and the entry of
key 2 in `ht[0]` (4 buckets). -/
theorem C34_bucket_of_hash_witness :
    splitDict.ht0.table = some [[], [], [{ key := 2, val := 20 }], []] ∧
    splitDict.ht1.table = some [[], [{ key := 1, val := 10 }], [], [], [], [], [], []] ∧
    ((∀ (t i : Nat) (chain : List dictEntry) (e : dictEntry), t = 0 ∨ t = 1 →
      bucketGet (getHt splitDict t) i = some chain → e ∈ chain →
      dictHashKey splitDict e.key &&& (getHt splitDict t).sizemask = i) ∧
    (∀ (cr : Bool) (key : Nat) (d3 : dict) (r : EntryRef) (ex : Option EntryRef),
      dictSize splitDict < 576460752303423488 →
      dictAddRaw cr splitDict key = some (d3, some r, ex) →
      r.idx = dictHashKey splitDict key &&& (getHt d3 r.table).sizemask ∧ r.pos = 0 ∧
      ∃ chain, bucketGet (getHt d3 r.table) r.idx =
        some ({ key := dictSetKey splitDict key, val := 0 } :: chain)) ∧
    (∀ (n : Int) (d1 : dict) (r : Nat), dictIsRehashing splitDict = true →
      dictRehash splitDict n = some (d1, r) →
      (getHt d1 (if r = 0 then 0 else 1)).sizemask = splitDict.ht1.sizemask ∧
      (dictEntries d1).Perm (dictEntries splitDict) ∧
      ∀ (i : Nat) (chain : List dictEntry) (e : dictEntry),
        bucketGet (getHt d1 (if r = 0 then 0 else 1)) i = some chain → e ∈ chain →
        dictHashKey splitDict e.key &&& splitDict.ht1.sizemask = i)) :=
  ⟨rfl, rfl, C34_bucket_of_hash identityType identityType_lawful splitDict splitDict_reachable⟩

/-- C40 at the new dictionary after `dictExpand(d, 2 ^ 61)` (`ht[0]` of size `2 ^ 61` with a
bucket array of 0 bytes; no entry, so fewer than `2 ^ 62`): `_dictExpandIfNeeded` returns
`DICT_OK`, but `_dictKeyIndex` then reads bucket 1 of that array, outside the block, so
`dictAddRaw`, `dictReplace` and `dictAddOrFind` have no defined result, where C40 expects
`dictAddRaw` to return an entry or to set `*existing`, and `dictAddOrFind` to return an
entry. -/
theorem C40_existing_without_cells :
    Reachable identityType voidDict ∧ dictSize voidDict < 4611686018427387904 ∧
    voidDict.ht0.table = some [] ∧
    _dictExpandIfNeeded true voidDict = some (voidDict, DICT_OK) ∧
    _dictKeyIndex true voidDict 1 (dictHashKey voidDict 1) = none ∧
    dictAddRaw true voidDict 1 = none ∧ dictReplace true voidDict 1 10 = none ∧
    dictAddOrFind true voidDict 1 = none :=
  ⟨voidDict_reachable, by decide, rfl, rfl, rfl, rfl, rfl, rfl⟩

/-- The property of C40 on the dictionaries whose bucket arrays have the cells of
their `size`: for every such reachable dictionary holding fewer than `2 ^ 59` entries,
`_dictExpandIfNeeded` returns `DICT_OK`, both on the dictionary and after the rehash step that
the insert functions run first; `dictAddRaw` returns, and when it returns `NULL` the key is
present in the dictionary and `*existing` points to a stored entry whose key matches;
`dictReplace` returns (it does not read through a `NULL` existing entry), and `dictAddOrFind`
returns a pointer to a stored entry. -/
theorem no_null_existing (T : dictType) (hT : LawfulType T) (d : dict)
    (h : Reachable T d)
    (hal : tablesAllocated d = true) (hsz : dictSize d < 576460752303423488) (cr : Bool)
    (key val : Nat) :
    (∃ d1, _dictExpandIfNeeded cr d = some (d1, DICT_OK)) ∧
    (∃ d0 d1, rehashStepIfRehashing d = some d0 ∧
      _dictExpandIfNeeded cr d0 = some (d1, DICT_OK)) ∧
    (∃ d3 e ex, dictAddRaw cr d key = some (d3, e, ex) ∧
      (e = none → ∃ r he, ex = some r ∧ entryGet d3 r = some he ∧
        keyEq d.type key he.key = true ∧ he ∈ dictEntries d ∧ he ∈ dictEntries d3)) ∧
    (∃ d2 r, dictReplace cr d key val = some (d2, r)) ∧
    (∃ d2 r he, dictAddOrFind cr d key = some (d2, some r) ∧ entryGet d2 r = some he) := by
  obtain ⟨hinv, hty⟩ := Reachable_alloc hT h hal
  have hTd : LawfulType d.type := hty ▸ hT
  have hb := entries_lt_of_size62 hinv hsz
  have hu : d.ht0.used ≤ 576460752303423488 := by
    have h0 := hinv.ok0.used_eq
    rw [dictEntries, List.length_append] at hb
    omega
  obtain ⟨d3, e, ex, a1, a2, a3, a4, a5, d0, d1, a6, a7, a8, a9, a10, a11⟩ :=
    dictAddRaw_spec cr d key hTd hinv hb
  refine ⟨?_, ⟨d0, d1, a6, a7⟩, ⟨d3, e, ex, a1, ?_⟩, ?_, ?_⟩
  · obtain ⟨d1', r, b1, _, _, _, _, _, _, _, b9⟩ := dictExpandIfNeeded_spec cr d hinv hu
    rw [(b9 hu).1] at b1
    exact ⟨d1', b1⟩
  · intro he
    rcases a11 with ⟨_, _, r, he1, c1, c2, c3, c4⟩ | ⟨r, c1, _⟩
    · exact ⟨r, he1, c1, validRef_entryGet c2, c3, c4.subset (validRef_mem c2), validRef_mem c2⟩
    · rw [c1] at he
      cases he
  · obtain ⟨d2, r, b1, _⟩ := dictReplace_spec cr d key val hTd hinv hb
    exact ⟨d2, r, b1⟩
  · unfold dictAddOrFind
    rw [a1]
    rcases a11 with ⟨c0, _, r, he1, c1, c2, _⟩ | ⟨r, c1, _, _, c4, _⟩
    · subst c0
      subst c1
      exact ⟨d3, r, he1, rfl, validRef_entryGet c2⟩
    · subst c1
      exact ⟨d3, r, _, rfl, validRef_entryGet c4⟩

/-- The property of C40 at the dictionary that holds the keys 1 and 2 and is rehashing: for the present key 1,
`dictAddRaw` returns `NULL` with `*existing` at the entry of the key. -/
theorem no_null_existing_example :
    dictSize splitDict < 576460752303423488 ∧
    (dictAddRaw true splitDict 1).map (fun p => p.2) = some (none, some ⟨0, 1, 0⟩) ∧
    ((∃ d1, _dictExpandIfNeeded true splitDict = some (d1, DICT_OK)) ∧
    (∃ d0 d1, rehashStepIfRehashing splitDict = some d0 ∧
      _dictExpandIfNeeded true d0 = some (d1, DICT_OK)) ∧
    (∃ d3 e ex, dictAddRaw true splitDict 1 = some (d3, e, ex) ∧
      (e = none → ∃ r he, ex = some r ∧ entryGet d3 r = some he ∧
        keyEq splitDict.type 1 he.key = true ∧ he ∈ dictEntries splitDict ∧
        he ∈ dictEntries d3)) ∧
    (∃ d2 r, dictReplace true splitDict 1 7 = some (d2, r)) ∧
    (∃ d2 r he, dictAddOrFind true splitDict 1 = some (d2, some r) ∧
      entryGet d2 r = some he)) :=
  ⟨by decide, by decide,
    no_null_existing identityType identityType_lawful splitDict splitDict_reachable rfl
      (by decide) true 1 7⟩

/-- C35: on a reachable dictionary that is not rehashing and holds at least one entry, the
mask of the table is `2 ^ k - 1` for the `k` with `ht[0].size = 2 ^ k`, and for every cursor
`v` the call `dictScan(d, v)` visits the bucket `v & m` (the bucket callback gets this index,
the entry callback the entries of that bucket) and returns a cursor `v1` below `2 ^ k` whose
low `k` bits in reversed order are those of `v & m` plus one modulo `2 ^ k`. The helper `rev`
returns the number whose bit `i` is the bit `63 - i` of its argument, and `rev` of `rev` of a
64-bit number is that number. A pass that starts from the cursor 0 gets the cursor 0 back
after exactly `2 ^ k` calls, and the buckets visited, in order, are the reversals of
`0, 1, ..., 2 ^ k - 1`: every bucket of the table once. -/
theorem C35_scan_cursor (T : dictType) (hT : LawfulType T) (d : dict) (h : Reachable T d)
    (hr : dictIsRehashing d = false) (hne : dictSize d ≠ 0) :
    ∃ k, 2 ≤ k ∧ k ≤ 63 ∧ d.ht0.size = 2 ^ k ∧ d.ht0.sizemask = 2 ^ k - 1 ∧
      (∀ (v : Nat) (bucketfn : Bool), ∃ chain v1,
        bucketGet d.ht0 (v &&& d.ht0.sizemask) = some chain ∧
        dictScan d v bucketfn = some (v1,
          (if bucketfn then [ScanCall.bucket 0 (v &&& d.ht0.sizemask)] else []) ++
            chain.map ScanCall.entry) ∧
        v1 < 2 ^ k ∧
        revBits k v1 = (revBits k (v &&& d.ht0.sizemask) + 1) % 2 ^ k) ∧
      (∀ x, ∃ y, rev x = some y ∧ y < 18446744073709551616 ∧
        (∀ i, i < 64 → y.testBit i = x.testBit (63 - i)) ∧
        (x < 18446744073709551616 → rev y = some x)) ∧
      ∃ calls, (∀ fuel, 2 ^ k ≤ fuel → scanPass d true fuel 0 = some (calls, 2 ^ k)) ∧
        bucketCalls calls = (List.range (2 ^ k)).map (revBits k) ∧
        (bucketCalls calls).Perm (List.range (2 ^ k)) := by
  obtain ⟨hinv, _⟩ := Reachable_alloc hT h (Reachable_stable_alloc hT h hr hne)
  have hr1 : d.rehashidx = -1 := by
    by_contra hc
    rw [(dictIsRehashing_iff d).mpr hc] at hr
    cases hr
  obtain ⟨k, hk2, hk, hsz, hm⟩ := stable_table hinv hr1 hne
  refine ⟨k, hk2, hk, hsz, hm, ?_, ?_, ?_⟩
  · intro v bucketfn
    obtain ⟨chain, hb, e1⟩ := dictScan_stable hinv hr1 hne hk hsz bucketfn v
    refine ⟨chain, _, hb, e1, ?_, ?_⟩
    · rw [scanNext_eq v k (by omega)]
      exact revBits_lt k _
    · rw [scanNext_eq v k (by omega), hm, Nat.and_pow_two_sub_one_eq_mod]
      exact revBits_revBits k _ (Nat.mod_lt _ (by positivity))
  · intro x
    refine ⟨bitrev x, rev_eq x, bitrev_lt x, fun i hi => bitrev_testBit x i hi, ?_⟩
    intro hx
    rw [rev_eq, bitrev_bitrev hx]
  · obtain ⟨calls, c1, c2⟩ := scanPass_buckets hinv hr1 hne hk hsz (2 ^ k) 0 0 (by omega)
      (by positivity) (by rw [bitrev_zero, Nat.zero_mul])
    rw [← List.range_eq_range'] at c2
    refine ⟨calls, c1, c2, ?_⟩
    rw [c2]
    exact revBits_perm k

/-- C35 at the stable dictionary of 8 buckets with one entry: the pass from the cursor 0
makes 8 calls that visit the buckets 0, 4, 2, 6, 1, 5, 3, 7, and the call with the cursor 6
returns the cursor 1. -/
theorem C35_scan_cursor_witness :
    dictIsRehashing grownDict = false ∧ dictSize grownDict ≠ 0 ∧ grownDict.ht0.size = 8 ∧
    (scanPass grownDict true 8 0).map (fun r => (bucketCalls r.1, r.2)) =
      some ([0, 4, 2, 6, 1, 5, 3, 7], 8) ∧
    (dictScan grownDict 6 true).map (fun r => r.1) = some 1 ∧
    ∃ k, 2 ≤ k ∧ k ≤ 63 ∧ grownDict.ht0.size = 2 ^ k ∧ grownDict.ht0.sizemask = 2 ^ k - 1 ∧
      (∀ (v : Nat) (bucketfn : Bool), ∃ chain v1,
        bucketGet grownDict.ht0 (v &&& grownDict.ht0.sizemask) = some chain ∧
        dictScan grownDict v bucketfn = some (v1,
          (if bucketfn then [ScanCall.bucket 0 (v &&& grownDict.ht0.sizemask)] else []) ++
            chain.map ScanCall.entry) ∧
        v1 < 2 ^ k ∧
        revBits k v1 = (revBits k (v &&& grownDict.ht0.sizemask) + 1) % 2 ^ k) ∧
      (∀ x, ∃ y, rev x = some y ∧ y < 18446744073709551616 ∧
        (∀ i, i < 64 → y.testBit i = x.testBit (63 - i)) ∧
        (x < 18446744073709551616 → rev y = some x)) ∧
      ∃ calls, (∀ fuel, 2 ^ k ≤ fuel → scanPass grownDict true fuel 0 = some (calls, 2 ^ k)) ∧
        bucketCalls calls = (List.range (2 ^ k)).map (revBits k) ∧
        (bucketCalls calls).Perm (List.range (2 ^ k)) :=
  ⟨by decide, by decide, by decide, by decide, by decide,
    C35_scan_cursor identityType identityType_lawful grownDict grownDict_reachable
      (by decide) (by decide)⟩

/-- C32, counterexample: `gapDict` is rehashing from 32 to 64 buckets with the rehash index 0,
and the only non-empty buckets of `ht[0]` are the buckets 5 and 31. The call
`dictRehash(d, 2)` passes the 5 empty buckets 0 to 4, migrates the bucket 5, passes the 15
empty buckets 6 to 20 and returns 1 with the rehash index 21: it has migrated one bucket, not
two, and one entry remains in `ht[0]`, yet no 20 consecutive empty buckets were visited: the
longest run of empty buckets among the visited buckets 0 to 20 has 15 buckets. The 5 and the
15 empty buckets on the two sides of the migrated bucket were counted together. -/
theorem C32_counterexample :
    gapDict.rehashidx = 0 ∧ gapDict.ht0.used = 2 ∧
    gapDict.ht0.table = some (List.replicate 5 [] ++ [[⟨5, 50⟩]] ++ List.replicate 25 [] ++
      [[⟨31, 310⟩]]) ∧
    (dictRehash gapDict 2).map
        (fun r => (r.2, r.1.rehashidx, r.1.ht0.used, r.1.ht1.used)) = some (1, 21, 1, 1) ∧
    (∀ lo, lo < 22 → ∀ hi, hi < 22 →
      (∀ i, i < hi → lo ≤ i → bucketGet gapDict.ht0 i = some []) → hi - lo ≤ 15) :=
  ⟨by decide, by decide, by decide, by decide, fun lo _ hi hhi hall => by
    by_contra hc
    have h5 : bucketGet gapDict.ht0 5 = some [] := hall 5 (by omega) (by omega)
    revert h5
    decide⟩

/-- C32, amended: on a reachable rehashing dictionary whose bucket arrays have the cells of
their `size`, for `1 ≤ n` with `n * 10` in the range of `int`, `dictRehash(d, n)` returns. With `lo` the rehash index at entry, `hi` the one when
its loop ends, `M` the number of non-empty buckets of `ht[0]` with an index in `lo ≤ i < hi`
(the buckets it has migrated; all these buckets are empty afterwards) and `E` the number of
empty ones (the empty buckets it has visited): `M ≤ n`, `E ≤ n * 10`, the function leaves
through the `return 1` of the inner loop exactly when `E = n * 10`, and it stops with `M < n`
while entries remain in `ht[0]` exactly when `E = n * 10`. The count `E` is the total over the
call. -/
theorem C32_empty_visits_total (T : dictType) (hT : LawfulType T) (d : dict)
    (h : Reachable T d)
    (hal : tablesAllocated d = true) (hr : dictIsRehashing d = true) (n : Int) (hn1 : 1 ≤ n)
    (hn2 : n * 10 ≤ 2147483647) :
    ∃ (bs : List (List dictEntry)) (lo hi : Nat) (dL : dict) (b : Bool),
      d.ht0.table = some bs ∧ d.rehashidx = (lo : Int) ∧
      dictRehashLoop (d.ht0.size + 1) d n (n * 10) = some (dL, b) ∧
      dL.rehashidx = (hi : Int) ∧ lo ≤ hi ∧
      dictRehash d n = some (if b = true ∨ dL.ht0.used ≠ 0 then (dL, 1)
        else ({ dL with ht0 := dL.ht1, ht1 := _dictReset, rehashidx := -1 }, 0)) ∧
      (∀ i, i < hi → bucketGet dL.ht0 i = some []) ∧
      (filledBuckets bs lo hi : Int) ≤ n ∧ (emptyBuckets bs lo hi : Int) ≤ n * 10 ∧
      (b = true ↔ (emptyBuckets bs lo hi : Int) = n * 10) ∧
      (((filledBuckets bs lo hi : Int) < n ∧ dL.ht0.used ≠ 0) ↔
        (emptyBuckets bs lo hi : Int) = n * 10) := by
  obtain ⟨hinv, hty⟩ := Reachable_alloc hT h hal
  have hTd : LawfulType d.type := hty ▸ hT
  have hr1 : d.rehashidx ≠ -1 := (dictIsRehashing_iff d).mp hr
  have h0 := hinv.idx_nonneg hr1
  obtain ⟨bs, htab⟩ : ∃ bs, d.ht0.table = some bs := by
    cases ht : d.ht0.table with
    | none => exact absurd ht (hinv.alloc0 hr1)
    | some bs => exact ⟨bs, rfl⟩
  obtain ⟨dL, b, l1, l2, l3, _, _, _, l7, _, _, _, _, _, _, l14, _⟩ :=
    dictRehashLoop_spec (d.ht0.size + 1) d n (n * 10) hTd hinv hr1 (by push_cast; omega)
  obtain ⟨hi, c1, c2, c3⟩ :=
    dictRehashLoop_count (d.ht0.size + 1) d dL n (n * 10) b bs d.rehashidx.toNat htab
      (by omega) (by omega) (by omega) (by omega) hn2 l1
  have hw : wrapInt (n * 10) = n * 10 := wrapInt_eq (by omega) (by omega)
  refine ⟨bs, d.rehashidx.toNat, hi, dL, b, htab, by omega, l1, c1, c2, ?_, ?_, ?_, ?_, ?_, ?_⟩
  · unfold dictRehash
    simp only [hr, Bool.not_true, Bool.false_eq_true, if_false]
    rw [hw, l1]
    cases b with
    | true => simp
    | false =>
      simp only []
      by_cases hu : dL.ht0.used = 0
      · rw [if_pos hu, if_neg (by simp [hu])]
      · rw [if_neg hu, if_pos (Or.inr hu)]
  · intro i hi2
    have hle : (hi : Int) ≤ dL.ht0.size := by
      rw [← c1]
      exact l2.idx_le l3
    obtain ⟨bs1, chain, htab1, _, hg, hb⟩ :=
      bucket_in_range l2.ok0 (show i < dL.ht0.size by omega)
    rw [hg, l2.migrated bs1 i chain htab1 hb (by omega)]
  · rcases c3 with ⟨_, j2, _⟩ | ⟨_, _, j3 | ⟨j3, _⟩⟩ <;> omega
  · rcases c3 with ⟨_, _, j3⟩ | ⟨_, j2, _⟩ <;> omega
  · constructor
    · intro hb
      rcases c3 with ⟨_, _, j3⟩ | ⟨j1, _, _⟩
      · exact j3
      · rw [hb] at j1
        cases j1
    · intro hE
      rcases c3 with ⟨j1, _, _⟩ | ⟨_, j2, _⟩
      · exact j1
      · omega
  · constructor
    · rintro ⟨hM, hu⟩
      rcases c3 with ⟨_, _, j3⟩ | ⟨_, _, j3 | ⟨_, j4⟩⟩
      · exact j3
      · omega
      · exact absurd j4 hu
    · intro hE
      rcases c3 with ⟨j1, j2, _⟩ | ⟨_, j2, _⟩
      · exact ⟨j2, l14 j1⟩
      · omega

/-- C32 (amended) at `gapDict` with `n = 2`: between the rehash index 0 at entry and 21 at
exit the table has 20 empty buckets and one non-empty bucket, so the call has visited
`2 * 10` empty buckets in all and has migrated one bucket. -/
theorem C32_empty_visits_total_witness :
    dictIsRehashing gapDict = true ∧
    gapDict.ht0.table.map (fun bs => (emptyBuckets bs 0 21, filledBuckets bs 0 21)) =
      some (20, 1) ∧
    ∃ (bs : List (List dictEntry)) (lo hi : Nat) (dL : dict) (b : Bool),
      gapDict.ht0.table = some bs ∧ gapDict.rehashidx = (lo : Int) ∧
      dictRehashLoop (gapDict.ht0.size + 1) gapDict 2 (2 * 10) = some (dL, b) ∧
      dL.rehashidx = (hi : Int) ∧ lo ≤ hi ∧
      dictRehash gapDict 2 = some (if b = true ∨ dL.ht0.used ≠ 0 then (dL, 1)
        else ({ dL with ht0 := dL.ht1, ht1 := _dictReset, rehashidx := -1 }, 0)) ∧
      (∀ i, i < hi → bucketGet dL.ht0 i = some []) ∧
      (filledBuckets bs lo hi : Int) ≤ 2 ∧ (emptyBuckets bs lo hi : Int) ≤ 2 * 10 ∧
      (b = true ↔ (emptyBuckets bs lo hi : Int) = 2 * 10) ∧
      (((filledBuckets bs lo hi : Int) < 2 ∧ dL.ht0.used ≠ 0) ↔
        (emptyBuckets bs lo hi : Int) = 2 * 10) :=
  ⟨by decide, by decide,
    C32_empty_visits_total identityType identityType_lawful gapDict gapDict_reachable rfl
      (by decide) 2 (by decide) (by decide)⟩

/-- C31, counterexample: two calls whose adjusted time `t - tz + 3600*dst` is not negative.
With `t = 0`, `tz = 0` and `dst = 1000000` the product `3600*dst` is computed in `int`,
where 3600000000 wraps to -694967296, and the result has the hour -14 and the day of
month -8042. With `t = 9223372036854775807` and `tz = -1` the difference `t - tz` leaves the
range of `time_t` and the result has the time -15:-30:-8. The third fact is the step of the year
loop at the last year an `int` holds: from `tm_year = 2147483647` with 365 days left,
`tmp->tm_year++` wraps to -2147483648. -/
theorem C31_counterexample :
    (0 : Int) ≤ 0 - 0 + 3600 * 1000000 ∧
    nolocks_localtime 100000 0 0 1000000 =
      some { tm_sec := -16, tm_min := -28, tm_hour := -14, tm_mday := -8042, tm_mon := 0,
             tm_year := 70, tm_wday := -3, tm_yday := -8043, tm_isdst := 1000000 } ∧
    (0 : Int) ≤ 9223372036854775807 - (-1) + 3600 * 0 ∧
    (nolocks_localtime 100000 9223372036854775807 (-1) 0).map
      (fun r => (r.tm_hour, r.tm_min, r.tm_sec)) = some (-15, -30, -8) ∧
    yearLoop 2 2147483647 365 = some (-2147483648, 0) := by
  decide

/-- C31, amended: for `t`, `tz` and `dst` such that `t - tz` is in the range of `time_t`,
`3600*dst` is in the range of `int`, and the adjusted time `a = t - tz + 3600*dst` is not
negative and before the first second of the year 2147483648, `nolocks_localtime` returns (for
every amount of fuel above `a / 86400`, the number of whole days) and produces the date and
time of `a` in the Gregorian calendar: hour in 0..23, minute and second in 0..59, month in
0..11 (no read outside `mdays`), the day of the month between 1 and the length of the month,
`tm_yday` the zero-based day of the year, which is the days of the months before plus the day
of the month minus 1, `tm_wday = (a / 86400 + 4) mod 7`, `tm_isdst = dst`, and the second
that the fields denote is `a`. -/
theorem C31_gregorian_date (t tz dst : Int)
    (ht1 : -9223372036854775808 ≤ t - tz) (ht2 : t - tz < 9223372036854775808)
    (hd1 : -2147483648 ≤ 3600 * dst) (hd2 : 3600 * dst ≤ 2147483647)
    (ha0 : 0 ≤ t - tz + 3600 * dst) (ha1 : t - tz + 3600 * dst < 67767976233532800)
    (fuel : Nat) (hf : (t - tz + 3600 * dst) / 86400 < (fuel : Int)) :
    ∃ r : tm, nolocks_localtime fuel t tz dst = some r ∧
      0 ≤ r.tm_hour ∧ r.tm_hour ≤ 23 ∧ 0 ≤ r.tm_min ∧ r.tm_min ≤ 59 ∧
      0 ≤ r.tm_sec ∧ r.tm_sec ≤ 59 ∧ 0 ≤ r.tm_mon ∧ r.tm_mon ≤ 11 ∧
      1 ≤ r.tm_mday ∧ r.tm_mday ≤ monthLength (r.tm_year + 1900) r.tm_mon.toNat ∧
      70 ≤ r.tm_year ∧
      0 ≤ r.tm_yday ∧ r.tm_yday < yearLength (r.tm_year + 1900) ∧
      r.tm_yday = daysBeforeMonth (r.tm_year + 1900) r.tm_mon.toNat + (r.tm_mday - 1) ∧
      daysBeforeYear (r.tm_year + 1900) + r.tm_yday = (t - tz + 3600 * dst) / 86400 ∧
      r.tm_wday = ((t - tz + 3600 * dst) / 86400 + 4) % 7 ∧ r.tm_isdst = dst ∧
      secondsSinceEpoch (r.tm_year + 1900) r.tm_mon.toNat r.tm_mday r.tm_hour r.tm_min
        r.tm_sec = t - tz + 3600 * dst := by
  generalize ha : t - tz + 3600 * dst = a at ha0 ha1 hf
  have hw1 : wrapLong (t - tz) = t - tz := wrapLong_eq ht1 ht2
  have hw2 : wrapInt (3600 * dst) = 3600 * dst := wrapInt_eq hd1 (by linarith)
  have hw3 : wrapLong (t - tz + 3600 * dst) = a := by
    rw [ha]
    exact wrapLong_eq (by linarith) (by linarith)
  have h86 : (3600 : Int) * 24 = 86400 := by norm_num
  have hdiv : a.tdiv 86400 = a / 86400 := Int.tdiv_eq_ediv ha0 (by norm_num)
  have hmod : a.tmod 86400 = a % 86400 := Int.tmod_eq_emod ha0 (by norm_num)
  have hD0 : 0 ≤ a / 86400 := Int.ediv_nonneg ha0 (by norm_num)
  have hs0 : 0 ≤ a % 86400 := Int.emod_nonneg a (by norm_num)
  have hs1 : a % 86400 < 86400 := Int.emod_lt_of_pos a (by norm_num)
  have hsplit : 86400 * (a / 86400) + a % 86400 = a := Int.ediv_add_emod a 86400
  have hDlim : a / 86400 < 784351576777 := by omega
  have hz : daysBeforeYear (1970 + ((0 : Nat) : Int)) = 0 := by
    rw [daysBeforeYear_closed]
    norm_num
  obtain ⟨k1, days1, y1, y2, y3, y4, y5⟩ :=
    yearLoop_spec fuel 0 (a / 86400) hD0 hf (by rw [hz]; linarith)
  rw [hz] at y4
  have hc0 : ((0 : Nat) : Int) = 0 := rfl
  rw [hc0] at y1
  have h1970 : (1970 : Int) + 0 = 1970 := by norm_num
  rw [h1970] at y1
  have hy0 : (0 : Int) ≤ 1970 + (k1 : Int) := by linarith [Int.ofNat_nonneg k1]
  have hyc := yearLength_cases (1970 + (k1 : Int))
  have hd63 : days1 < 9223372036854775808 := by
    rcases hyc with h | h <;> rw [h] at y3 <;> linarith
  obtain ⟨mon, d, m1, _, m3, m4, m5, m6⟩ :=
    monthLoop_spec (monthLengths (1970 + (k1 : Int)))
      (fun m hm => (monthLengths_bounds _ m hm).1) (by simp [monthLengths]) 13 0 days1 y2
      hd63 (by rw [List.drop_zero, monthLengths_sum]; exact y3) (by simp [monthLengths])
  have hlen : (monthLengths (1970 + (k1 : Int))).length = 12 := by simp [monthLengths]
  rw [hlen] at m3
  rw [hc0] at m1
  rw [monthLengths_getD _ mon m3] at m5
  rw [monthLengths_take _ mon (by omega), List.take_zero, List.sum_nil] at m6
  have hmem : monthLength (1970 + (k1 : Int)) mon ∈ monthLengths (1970 + (k1 : Int)) := by
    unfold monthLengths
    exact List.mem_map.mpr ⟨mon, List.mem_range.mpr m3, rfl⟩
  have hml := (monthLengths_bounds _ _ hmem).2
  have e_hour : wrapInt ((a % 86400).tdiv 3600) = a % 86400 / 3600 := by
    rw [Int.tdiv_eq_ediv hs0 (by norm_num)]
    exact wrapInt_eq (by omega) (by omega)
  have e_m0 : (a % 86400).tmod 3600 = a % 86400 % 3600 := Int.tmod_eq_emod hs0 (by norm_num)
  have hm0 : 0 ≤ a % 86400 % 3600 := Int.emod_nonneg _ (by norm_num)
  have e_min : wrapInt ((a % 86400 % 3600).tdiv 60) = a % 86400 % 3600 / 60 := by
    rw [Int.tdiv_eq_ediv hm0 (by norm_num)]
    exact wrapInt_eq (by omega) (by omega)
  have e_sec : wrapInt ((a % 86400 % 3600).tmod 60) = a % 86400 % 3600 % 60 := by
    rw [Int.tmod_eq_emod hm0 (by norm_num)]
    exact wrapInt_eq (by omega) (by omega)
  have e_w1 : wrapLong (a / 86400 + 4) = a / 86400 + 4 := wrapLong_eq (by omega) (by omega)
  have e_wd : wrapInt ((a / 86400 + 4).tmod 7) = (a / 86400 + 4) % 7 := by
    rw [Int.tmod_eq_emod (by omega) (by norm_num)]
    exact wrapInt_eq (by omega) (by omega)
  have e_yd : wrapInt days1 = days1 := wrapInt_eq (by omega) (by omega)
  have e_md : wrapInt (d + 1) = d + 1 := wrapInt_eq (by omega) (by omega)
  have e_yr : wrapInt (1970 + (k1 : Int) - 1900) = 70 + (k1 : Int) :=
    (wrapInt_eq (by omega) (by omega)).trans (by ring)
  have hyear : 70 + (k1 : Int) + 1900 = 1970 + (k1 : Int) := by ring
  refine ⟨{ tm_isdst := dst, tm_hour := a % 86400 / 3600, tm_min := a % 86400 % 3600 / 60,
            tm_sec := a % 86400 % 3600 % 60, tm_wday := (a / 86400 + 4) % 7,
            tm_yday := days1, tm_mon := (mon : Int), tm_mday := d + 1,
            tm_year := 70 + (k1 : Int) }, ?_, ?_⟩
  · unfold nolocks_localtime
    simp only []
    rw [hw1, hw2, hw3, h86, hdiv, hmod, y1]
    simp only []
    rw [mdays_eq _ hy0, m1]
    simp only []
    rw [e_hour, e_m0, e_min, e_sec, e_w1, e_wd, e_yd, e_md, e_yr]
  · dsimp only
    rw [hyear, Int.toNat_ofNat]
    refine ⟨by omega, by omega, by omega, by omega, by omega, by omega, by omega, by omega,
      by omega, by omega, by omega, y2, y3, by omega, by omega, rfl, rfl, ?_⟩
    unfold secondsSinceEpoch
    omega

/-- C31 (amended) at `t = 1700000000` with the zone one hour east of Greenwich and daylight
time in effect: the adjusted time 1700007200 is 0:13:20 on Wednesday 15 November 2023, the
day 318 of the year. -/
theorem C31_gregorian_date_witness :
    nolocks_localtime 100000 1700000000 (-3600) 1 =
      some { tm_sec := 20, tm_min := 13, tm_hour := 0, tm_mday := 15, tm_mon := 10,
             tm_year := 123, tm_wday := 3, tm_yday := 318, tm_isdst := 1 } ∧
    secondsSinceEpoch 2023 10 15 0 13 20 = 1700007200 ∧
    ∃ r : tm, nolocks_localtime 100000 1700000000 (-3600) 1 = some r ∧
      0 ≤ r.tm_hour ∧ r.tm_hour ≤ 23 ∧ 0 ≤ r.tm_min ∧ r.tm_min ≤ 59 ∧
      0 ≤ r.tm_sec ∧ r.tm_sec ≤ 59 ∧ 0 ≤ r.tm_mon ∧ r.tm_mon ≤ 11 ∧
      1 ≤ r.tm_mday ∧ r.tm_mday ≤ monthLength (r.tm_year + 1900) r.tm_mon.toNat ∧
      70 ≤ r.tm_year ∧
      0 ≤ r.tm_yday ∧ r.tm_yday < yearLength (r.tm_year + 1900) ∧
      r.tm_yday = daysBeforeMonth (r.tm_year + 1900) r.tm_mon.toNat + (r.tm_mday - 1) ∧
      daysBeforeYear (r.tm_year + 1900) + r.tm_yday =
        (1700000000 - (-3600) + 3600 * 1) / 86400 ∧
      r.tm_wday = ((1700000000 - (-3600) + 3600 * 1) / 86400 + 4) % 7 ∧ r.tm_isdst = 1 ∧
      secondsSinceEpoch (r.tm_year + 1900) r.tm_mon.toNat r.tm_mday r.tm_hour r.tm_min
        r.tm_sec = 1700000000 - (-3600) + 3600 * 1 :=
  ⟨by decide, by decide,
    C31_gregorian_date 1700000000 (-3600) 1 (by decide) (by decide) (by decide) (by decide)
      (by decide) (by decide) 100000 (by decide)⟩

end Dict
